import Mathlib

/-!
# Storage core of the teaching kernel (mp4): buffer cache and file-system layer

A shallow embedding of `kernel/bio.c`, the block allocator and inode content
routines of `kernel/fs.c`, and the raw-block system calls of `kernel/sysfile.c`.

* C `uint` values are natural numbers; arithmetic that can wrap is reduced
  modulo `2 ^ 32` explicitly.
* A `struct buf *` is an index: `i < NBUF` stands for `&bcache.buf[i]` and the
  index `NBUF` stands for `&bcache.head`.
* Kernel state is passed explicitly.  A `panic` ends the run with the state at
  the point of the panic.
-/

namespace Mp4

/-! ## Machine integers -/

/-- Number of values of a C `uint`. -/
def U32 : Nat := 4294967296

/-- The C conversion `(int)x` of a `uint` value. -/
def toInt32 (x : Nat) : Int :=
  if x % U32 < 2147483648 then ((x % U32 : Nat) : Int) else ((x % U32 : Nat) : Int) - 4294967296

/-! ## Constants of the missing headers -/

/-- The fields of an on-disk inode record that the file system copies between disk and
memory (`struct dinode`, `fs.h`). -/
structure Dinode where
  /-- File type; 0 marks a free record. -/
  type : Nat
  /-- Major device number. -/
  major : Nat
  /-- Number of links to the inode. -/
  nlink : Nat
  /-- Size of the file in bytes. -/
  size : Nat
  /-- Permission bits. -/
  mode : Nat
  /-- Data block addresses: `NDIRECT` direct ones and the indirect block. -/
  addrs : Nat → Nat

/-- Constants of `param.h` and `fs.h`, which are not part of the sources at hand;
every definition below takes them as a parameter. -/
structure Config where
  /-- Size of the buffer pool (`param.h`). -/
  NBUF : Nat
  /-- Block size in bytes (`fs.h`). -/
  BSIZE : Nat
  /-- Offset of the mirror copy of a logical block. -/
  DISK1_START_BLOCK : Nat
  /-- Size of the file system in blocks (`param.h`). -/
  FSSIZE : Nat
  /-- Device number of the root disk (`param.h`). -/
  ROOTDEV : Nat
  /-- Number of direct block pointers of an inode (`fs.h`). -/
  NDIRECT : Nat
  /-- Number of on-disk inode records per block (`fs.h`). -/
  IPB : Nat
  /-- Layout of `struct dinode` (`fs.h`): the block data after the fields `type`, `major`,
  `nlink`, `size`, `mode`, `addrs` of record number `slot` in the block were overwritten. -/
  dinodePut : Nat → Dinode → (Nat → Nat) → (Nat → Nat)
  /-- Layout of `struct dinode` (`fs.h`): the fields of record number `slot` of a block. -/
  dinodeGet : Nat → (Nat → Nat) → Dinode
  /-- Size of the inode cache (`param.h`). -/
  NINODE : Nat
  /-- The permission bits a new inode gets (`M_ALL`). -/
  M_ALL : Nat
  /-- The inode type of a directory (`stat.h`). -/
  T_DIR : Nat
  /-- Width of the name field of a directory entry (`fs.h`). -/
  DIRSIZ : Nat
  /-- The size of a directory entry, `sizeof(struct dirent)` (`fs.h`). -/
  DIRENT : Nat
  /-- Layout of `struct dirent` (`fs.h`): the field `inum` of an entry given by its bytes. -/
  direntInum : (Nat → Nat) → Nat
  /-- Layout of `struct dirent` (`fs.h`): character `i` of the field `name` of an entry given
  by its bytes. -/
  direntName : (Nat → Nat) → Nat → Nat
  /-- Layout of `struct dirent` (`fs.h`): the bytes of an entry after its field `inum` was set
  to the first argument and the `DIRSIZ` characters of its field `name` to the second. -/
  direntPut : Nat → (Nat → Nat) → (Nat → Nat) → (Nat → Nat)
  /-- Inode number of the root directory (`fs.h`). -/
  ROOTINO : Nat
  /-- Maximum length of a path (`param.h`). -/
  MAXPATH : Nat
  /-- The inode type of a plain file (`stat.h`). -/
  T_FILE : Nat
  /-- The inode type of a device (`stat.h`). -/
  T_DEVICE : Nat
  /-- The inode type of a symbolic link (`stat.h`). -/
  T_SYMLINK : Nat
  /-- The permission bit Read (`stat.h`). -/
  M_READ : Nat
  /-- The permission bit Write (`stat.h`). -/
  M_WRITE : Nat
  /-- Number of major device numbers (`param.h`). -/
  NDEV : Nat
  /-- The open mode `O_RDONLY` (`fcntl.h`). -/
  O_RDONLY : Nat
  /-- The open flag `O_WRONLY` (`fcntl.h`). -/
  O_WRONLY : Nat
  /-- The open flag `O_RDWR` (`fcntl.h`). -/
  O_RDWR : Nat
  /-- The open flag `O_CREATE` (`fcntl.h`). -/
  O_CREATE : Nat
  /-- The open flag `O_TRUNC` (`fcntl.h`). -/
  O_TRUNC : Nat
  /-- The open flag `O_NOACCESS` (`fcntl.h`). -/
  O_NOACCESS : Nat

/-- The superblock fields used by the block layer (`struct superblock`, `fs.h`). -/
structure Superblock where
  /-- Size of the file system image in blocks. -/
  size : Nat
  /-- Number of inodes. -/
  ninodes : Nat
  /-- Block number of the first inode block. -/
  inodestart : Nat
  /-- Block number of the first free-map block. -/
  bmapstart : Nat

/-! ## Kernel state -/

/-- The payload of a `struct buf` (`buf.h`); the list pointers are kept in `State`. -/
structure Buf where
  /-- The field `int valid`. -/
  valid : Nat
  /-- The field `uint dev`. -/
  dev : Nat
  /-- The field `uint blockno`. -/
  blockno : Nat
  /-- The sleep-lock of the buffer is held. -/
  locked : Bool
  /-- The field `uint refcnt`. -/
  refcnt : Nat
  /-- The field `uchar data[BSIZE]`. -/
  data : Nat → Nat

/-- A zero-initialised `struct buf`. -/
def Buf.zero : Buf :=
  { valid := 0, dev := 0, blockno := 0, locked := false, refcnt := 0, data := fun _ => 0 }

/-- An in-memory inode (`struct inode`, `file.h`). -/
structure Inode where
  /-- The field `uint dev`. -/
  dev : Nat
  /-- The field `uint inum`. -/
  inum : Nat
  /-- The field `int ref`. -/
  ref : Int
  /-- The sleep-lock of the inode is held. -/
  locked : Bool
  /-- The field `int valid`. -/
  valid : Nat
  /-- The copy of the on-disk record. -/
  d : Dinode

/-- A zero-initialised `struct inode`. -/
def Inode.zero : Inode :=
  { dev := 0, inum := 0, ref := 0, locked := false, valid := 0,
    d := { type := 0, major := 0, nlink := 0, size := 0, mode := 0, addrs := fun _ => 0 } }

/-- One call of the disk transport: the buffer, the block number it carried at the call, and
the direction. -/
structure Xfer where
  /-- Index of the buffer. -/
  buf : Nat
  /-- Value of `b->blockno` at the call. -/
  blockno : Nat
  /-- The argument `write`. -/
  write : Bool
  deriving DecidableEq, Repr

/-- The kernel state the storage core works on. -/
structure State where
  /-- The array `bcache.buf`. -/
  bufs : Nat → Buf
  /-- The field `next` of every buffer and of `bcache.head` (index `NBUF`). -/
  next : Nat → Nat
  /-- The field `prev` of every buffer and of `bcache.head` (index `NBUF`). -/
  prev : Nat → Nat
  /-- The disk: block number to block content. -/
  disk : Nat → Nat → Nat
  /-- The global `force_read_error_pbn`. -/
  force_read_error_pbn : Int
  /-- The global `force_disk_fail_id`. -/
  force_disk_fail_id : Int
  /-- The global `sb`. -/
  sb : Superblock
  /-- Block numbers recorded by `log_write` in the running transaction. -/
  log : List Nat
  /-- History of the disk transport, newest first: every `virtio_disk_rw` call. -/
  xfers : List Xfer
  /-- The array `icache.inode`. -/
  inodes : Nat → Inode

/-- Ways in which a call ends without returning. -/
inductive Err where
  /-- The call `panic("bget: no buffers")`. -/
  | bget_no_buffers
  /-- The call `panic("bwrite")`. -/
  | bwrite_unlocked
  /-- The call `panic("brelse")`. -/
  | brelse_unlocked
  /-- The call `panic("balloc: out of blocks")`. -/
  | balloc_out_of_blocks
  /-- The call `panic("freeing free block")`. -/
  | freeing_free_block
  /-- One of the `panic("bmap: balloc failed ...")` calls. -/
  | bmap_balloc_failed
  /-- The call `panic("bmap: out of range")`. -/
  | bmap_out_of_range
  /-- The caller sleeps on a sleep-lock that is held; in a sequential run nobody wakes it. -/
  | sleeps
  /-- A list traversal did not come back to `bcache.head`. -/
  | list_broken
  /-- A loop of the file system makes no progress (block size 0). -/
  | no_progress
  /-- The call `panic("iget: no inodes")`. -/
  | iget_no_inodes
  /-- The call `panic("ilock")`. -/
  | ilock_bad
  /-- The call `panic("ilock: no type")`. -/
  | ilock_no_type
  /-- The call `panic("iunlock")`. -/
  | iunlock_bad
  /-- The call `panic("ialloc: no inodes")`. -/
  | ialloc_no_inodes
  /-- The call `panic("dirlookup not DIR")`. -/
  | dirlookup_not_dir
  /-- The call `panic("dirlookup read")`. -/
  | dirlookup_read
  /-- The call `panic("dirlink read")`. -/
  | dirlink_read
  /-- The call `panic("dirlink")`. -/
  | dirlink_write
  /-- The call `panic("create dots")`. -/
  | create_dots
  /-- The call `panic("create: dirlink")`. -/
  | create_dirlink
  deriving DecidableEq, Repr

/-- Result of a kernel routine: the new state and a value, or the way it ended and the
state at that point. -/
abbrev Res (α : Type) := Except (Err × State) (State × α)

/-- Replace the payload of buffer `b`. -/
def State.setBuf (s : State) (b : Nat) (x : Buf) : State :=
  { s with bufs := Function.update s.bufs b x }

/-! ## Collaborators of the buffer cache -/

/-- Modelled from the spec: the raw block transport `virtio_disk_rw(b, write)`, which is
not part of the sources.  A read copies the disk block `b->blockno` into `b->data`,
a write copies `b->data` to the disk block `b->blockno`; the call is noted in `xfers`. -/
def virtio_disk_rw (s : State) (b : Nat) (write : Bool) : State :=
  let s := { s with xfers := { buf := b, blockno := (s.bufs b).blockno, write := write } :: s.xfers }
  if write then
    { s with disk := Function.update s.disk (s.bufs b).blockno (s.bufs b).data }
  else
    s.setBuf b { s.bufs b with data := s.disk (s.bufs b).blockno }

/-- Modelled from the spec: `acquiresleep(&b->lock)` of the missing `sleeplock.c`: takes
the exclusive content lock; the caller waits while it is held. -/
def acquiresleep (s : State) (b : Nat) : Res Unit :=
  if (s.bufs b).locked then .error (Err.sleeps, s)
  else .ok (s.setBuf b { s.bufs b with locked := true }, ())

/-- Modelled from the spec: `releasesleep(&b->lock)` of the missing `sleeplock.c`. -/
def releasesleep (s : State) (b : Nat) : State :=
  s.setBuf b { s.bufs b with locked := false }

/-- Modelled from the spec: `holdingsleep(&b->lock)` of the missing `sleeplock.c`. -/
def holdingsleep (s : State) (b : Nat) : Bool :=
  (s.bufs b).locked

/-! ## bio.c -/

/-- The loop of `binit`, for the buffers `b, b + 1, ..`: each is linked in right
behind `bcache.head`. -/
def binit_loop (c : Config) : Nat → Nat → State → State
  | 0, _, s => s
  | n + 1, b, s =>
    let hn := s.next c.NBUF
    -- b->next = bcache.head.next; b->prev = &bcache.head;
    let s := { s with next := Function.update s.next b hn,
                      prev := Function.update s.prev b c.NBUF }
    -- initsleeplock(&b->lock, "buffer");
    let s := s.setBuf b { s.bufs b with locked := false }
    -- bcache.head.next->prev = b;
    let s := { s with prev := Function.update s.prev (s.next c.NBUF) b }
    -- bcache.head.next = b;
    let s := { s with next := Function.update s.next c.NBUF b }
    binit_loop c n (b + 1) s

/-- The routine `binit`, run on the zero-initialised `bcache` of a freshly booted kernel. -/
def binit (c : Config) (s : State) : State :=
  let s := { s with next := Function.update s.next c.NBUF c.NBUF,
                    prev := Function.update s.prev c.NBUF c.NBUF }
  binit_loop c c.NBUF 0 s

/-- The state at boot: all of `bcache` is zero, then `binit` runs. -/
def boot (c : Config) (disk : Nat → Nat → Nat) (pbn fail : Int) (sb : Superblock) : State :=
  binit c { bufs := fun _ => Buf.zero, next := fun _ => 0, prev := fun _ => 0, disk := disk,
            force_read_error_pbn := pbn, force_disk_fail_id := fail, sb := sb, log := [],
            xfers := [], inodes := fun _ => Inode.zero }

/-- Outcome of a traversal of the buffer list. -/
inductive Scan where
  /-- The loop body returned at this buffer. -/
  | found (b : Nat)
  /-- The loop ran into `&bcache.head`. -/
  | notfound
  /-- The loop did not end within the given number of steps. -/
  | nofuel
  deriving DecidableEq, Repr

/-- The first loop of `bget`: `for (b = start; b != &bcache.head; b = b->next)`, looking
for a buffer of `(dev, blockno)`. -/
def bget_cached (c : Config) (s : State) (dev blockno : Nat) : Nat → Nat → Scan
  | 0, _ => Scan.nofuel
  | fuel + 1, b =>
    if b = c.NBUF then Scan.notfound
    else if (s.bufs b).dev = dev ∧ (s.bufs b).blockno = blockno then Scan.found b
    else bget_cached c s dev blockno fuel (s.next b)

/-- The second loop of `bget`: `for (b = start; b != &bcache.head; b = b->prev)`, looking
for a buffer with `refcnt == 0`. -/
def bget_recycle (c : Config) (s : State) : Nat → Nat → Scan
  | 0, _ => Scan.nofuel
  | fuel + 1, b =>
    if b = c.NBUF then Scan.notfound
    else if (s.bufs b).refcnt = 0 then Scan.found b
    else bget_recycle c s fuel (s.prev b)

/-- The routine `bget(dev, blockno)`. -/
def bget (c : Config) (s : State) (dev blockno : Nat) : Res Nat :=
  match bget_cached c s dev blockno (c.NBUF + 1) (s.next c.NBUF) with
  | Scan.found b =>
    let s := s.setBuf b { s.bufs b with refcnt := ((s.bufs b).refcnt + 1) % U32 }
    match acquiresleep s b with
    | .error e => .error e
    | .ok (s, _) => .ok (s, b)
  | Scan.nofuel => .error (Err.list_broken, s)
  | Scan.notfound =>
    match bget_recycle c s (c.NBUF + 1) (s.prev c.NBUF) with
    | Scan.found b =>
      let s := s.setBuf b { s.bufs b with dev := dev, blockno := blockno, valid := 0, refcnt := 1 }
      match acquiresleep s b with
      | .error e => .error e
      | .ok (s, _) => .ok (s, b)
    | Scan.nofuel => .error (Err.list_broken, s)
    | Scan.notfound => .error (Err.bget_no_buffers, s)

/-- The routine `bread(dev, blockno)`. -/
def bread (c : Config) (s : State) (dev blockno : Nat) : Res Nat :=
  let fail_disk := s.force_disk_fail_id
  let pbn0_fail : Bool := s.force_read_error_pbn == toInt32 blockno
  match bget c s dev blockno with
  | .error e => .error e
  | .ok (s, b) =>
    let is_forced_fail_target : Bool := fail_disk == 0 || pbn0_fail
    if (s.bufs b).valid = 0 ∨ is_forced_fail_target = true then
      if is_forced_fail_target then
        let pbn1 := (blockno + c.DISK1_START_BLOCK) % U32
        let s := s.setBuf b { s.bufs b with blockno := pbn1 }
        let s := virtio_disk_rw s b false
        let s := s.setBuf b { s.bufs b with blockno := blockno }
        .ok (s.setBuf b { s.bufs b with valid := 1 }, b)
      else
        let s := virtio_disk_rw s b false
        .ok (s.setBuf b { s.bufs b with valid := 1 }, b)
    else
      .ok (s, b)

/-- The routine `bwrite(b)`. -/
def bwrite (c : Config) (s : State) (b : Nat) : Res Unit :=
  if !holdingsleep s b then .error (Err.bwrite_unlocked, s)
  else
    let pbn0 := (s.bufs b).blockno
    let pbn1 := (pbn0 + c.DISK1_START_BLOCK) % U32
    let fail_disk := s.force_disk_fail_id
    let pbn0_fail_or_not : Bool := s.force_read_error_pbn == toInt32 pbn0
    let s := if fail_disk = 0 then s
             else if pbn0_fail_or_not then s
             else virtio_disk_rw s b true
    let s := if fail_disk = 1 then s
             else virtio_disk_rw (s.setBuf b { s.bufs b with blockno := pbn1 }) b true
    .ok (s.setBuf b { s.bufs b with blockno := pbn0 }, ())

/-- The routine `brelse(b)`. -/
def brelse (c : Config) (s : State) (b : Nat) : Res Unit :=
  if !holdingsleep s b then .error (Err.brelse_unlocked, s)
  else
    let s := releasesleep s b
    let s := s.setBuf b { s.bufs b with refcnt := ((s.bufs b).refcnt + U32 - 1) % U32 }
    if (s.bufs b).refcnt = 0 then
      -- b->next->prev = b->prev;
      let s := { s with prev := Function.update s.prev (s.next b) (s.prev b) }
      -- b->prev->next = b->next;
      let s := { s with next := Function.update s.next (s.prev b) (s.next b) }
      -- b->next = bcache.head.next;
      let s := { s with next := Function.update s.next b (s.next c.NBUF) }
      -- b->prev = &bcache.head;
      let s := { s with prev := Function.update s.prev b c.NBUF }
      -- bcache.head.next->prev = b;
      let s := { s with prev := Function.update s.prev (s.next c.NBUF) b }
      -- bcache.head.next = b;
      let s := { s with next := Function.update s.next c.NBUF b }
      .ok (s, ())
    else
      .ok (s, ())

/-- The routine `bpin(b)`. -/
def bpin (s : State) (b : Nat) : State :=
  s.setBuf b { s.bufs b with refcnt := ((s.bufs b).refcnt + 1) % U32 }

/-- The routine `bunpin(b)`. -/
def bunpin (s : State) (b : Nat) : State :=
  s.setBuf b { s.bufs b with refcnt := ((s.bufs b).refcnt + U32 - 1) % U32 }

/-! ## The recency list as a list of buffer indices -/

/-- Follow `nxt` from `b` until `stop`, for at most the given number of steps. -/
def walk (nxt : Nat → Nat) (stop : Nat) : Nat → Nat → List Nat
  | 0, _ => []
  | fuel + 1, b => if b = stop then [] else b :: walk nxt stop fuel (nxt b)

/-- The recency list read from `bcache.head.next` along `next`: most recently used first. -/
def recency (c : Config) (s : State) : List Nat :=
  walk s.next c.NBUF c.NBUF (s.next c.NBUF)

/-- The pointer map `nxt` leads from `a` through exactly the elements of the list to `z`. -/
def Linked (nxt : Nat → Nat) : Nat → List Nat → Nat → Prop
  | a, [], z => nxt a = z
  | a, x :: l, z => nxt a = x ∧ Linked nxt x l z

/-- Whether `Linked` holds can be computed. -/
instance Linked.decide (nxt : Nat → Nat) : ∀ (a : Nat) (l : List Nat) (z : Nat),
    Decidable (Linked nxt a l z)
  | a, [], z => inferInstanceAs (Decidable (nxt a = z))
  | a, x :: l, z =>
    match Linked.decide nxt x l z with
    | isTrue h => if h1 : nxt a = x then isTrue ⟨h1, h⟩ else isFalse (fun h2 => h1 h2.1)
    | isFalse h => isFalse (fun h2 => h h2.2)

/-- The pointer maps `nxt` and `prv` form a doubly linked ring through `h` whose other
members are, in `nxt` order, the elements of `l`. -/
def Ring (h : Nat) (nxt prv : Nat → Nat) (l : List Nat) : Prop :=
  Linked nxt h l h ∧ Linked prv h l.reverse h ∧ (h :: l).Nodup

/-- The list structure is intact: walking `next` from the head visits every buffer of the
pool exactly once and returns to the head, and `prev` is the same ring backwards. -/
def ListOK (c : Config) (s : State) : Prop :=
  Ring c.NBUF s.next s.prev (recency c s) ∧
  (recency c s).length = c.NBUF ∧ ∀ i ∈ recency c s, i < c.NBUF

/-- Whether `ListOK` holds can be computed. -/
instance ListOK.decide (c : Config) (s : State) : Decidable (ListOK c s) := by
  unfold ListOK Ring; infer_instance

/-- Buffer `b` holds the block `(dev, blockno)`. -/
def Buf.holds (x : Buf) (dev blockno : Nat) : Prop :=
  x.dev = dev ∧ x.blockno = blockno

/-- Whether a buffer holds a block can be computed. -/
instance Buf.holds.decide (x : Buf) (dev blockno : Nat) : Decidable (x.holds dev blockno) := by
  unfold Buf.holds; infer_instance

/-- The buffer the first loop of `bget` stops at: the first one in recency order that
holds `(dev, blockno)`. -/
def cachedBuf (c : Config) (s : State) (dev blockno : Nat) : Option Nat :=
  (recency c s).find? (fun b => decide ((s.bufs b).holds dev blockno))

/-- The buffer the second loop of `bget` stops at: the first one with `refcnt == 0`, seen
from the least recently used end. -/
def victimBuf (c : Config) (s : State) : Option Nat :=
  (recency c s).reverse.find? (fun b => decide ((s.bufs b).refcnt = 0))

/-- A small configuration for worked examples: four buffers, blocks of eight bytes. -/
def cfg0 : Config :=
  { NBUF := 4, BSIZE := 8, DISK1_START_BLOCK := 100, FSSIZE := 50, ROOTDEV := 1, NDIRECT := 2,
    IPB := 1,
    dinodePut := fun _ d data i =>
      if i = 0 then d.type % 256 else if i = 1 then d.nlink % 256
      else if i = 2 then d.size % 256 else if i = 3 then d.mode % 256
      else if i = 4 then d.major % 256 else if i < 8 then d.addrs (i - 5) % 256 else data i,
    dinodeGet := fun _ data =>
      { type := data 0, nlink := data 1, size := data 2, mode := data 3, major := data 4,
        addrs := fun j => if j < 3 then data (j + 5) else 0 },
    NINODE := 3, M_ALL := 3, T_DIR := 1, DIRSIZ := 3, DIRENT := 4,
    direntInum := fun e => e 0, direntName := fun e i => e (i + 1),
    direntPut := fun inum name e i =>
      if i = 0 then inum % 256 else if i < 4 then name (i - 1) % 256 else e i,
    ROOTINO := 1, MAXPATH := 16, T_FILE := 2, T_DEVICE := 3, T_SYMLINK := 4, M_READ := 1,
    M_WRITE := 2, NDEV := 10, O_RDONLY := 0, O_WRONLY := 1, O_RDWR := 2, O_CREATE := 512,
    O_TRUNC := 1024, O_NOACCESS := 4 }

/-- A superblock for worked examples. -/
def sb0 : Superblock := { size := 50, ninodes := 8, inodestart := 3, bmapstart := 5 }

/-- A disk for worked examples: byte `i` of block `n` is `10 * n + i`. -/
def disk0 : Nat → Nat → Nat := fun n i => (10 * n + i) % 256

/-- The example machine right after boot, without injected faults. -/
def st0 : State := boot cfg0 disk0 (-1) (-1) sb0

/-- The example machine after `bget(1, 7)`: buffer 0 is held for block 7. -/
def st1 : State :=
  match bget cfg0 st0 1 7 with
  | .ok (s, _) => s
  | .error (_, s) => s

/-! ## Runs of the buffer cache interface -/

/-- A call of the buffer cache interface.  The argument of `brelse`, `bpin` and `bunpin` is
a pointer to a buffer of the pool. -/
inductive BioOp where
  /-- The call `bget(dev, blockno)`. -/
  | bget (dev blockno : Nat)
  /-- The call `bread(dev, blockno)`. -/
  | bread (dev blockno : Nat)
  /-- The call `brelse(&bcache.buf[b])`. -/
  | brelse (b : Nat)
  /-- The call `bpin(&bcache.buf[b])`. -/
  | bpin (b : Nat)
  /-- The call `bunpin(&bcache.buf[b])`. -/
  | bunpin (b : Nat)
  deriving DecidableEq, Repr

/-- A machine state together with a clock that counts the calls made so far and two
observations of the run, kept per buffer. -/
structure Traced where
  /-- The machine state. -/
  st : State
  /-- Number of calls made so far. -/
  clock : Nat
  /-- Time of the most recent `brelse` call on the buffer; 0 if there was none. -/
  released : Nat → Nat
  /-- Time of the most recent `brelse` call on the buffer that left its `refcnt` at 0, which
  are the calls that move it to the front of the recency list; 0 if there was none. -/
  fronted : Nat → Nat

/-- The traced machine right after boot. -/
def bootTraced (c : Config) (disk : Nat → Nat → Nat) (pbn fail : Int) (sb : Superblock) :
    Traced :=
  { st := boot c disk pbn fail sb, clock := 0, released := fun _ => 0, fronted := fun _ => 0 }

/-- One call.  There is no next state when the call does not return or its argument is not
a buffer of the pool. -/
def bioStep (c : Config) (t : Traced) (op : BioOp) : Option Traced :=
  match op with
  | BioOp.bget dev blockno =>
    match bget c t.st dev blockno with
    | .ok (s, _) => some { t with st := s, clock := t.clock + 1 }
    | .error _ => none
  | BioOp.bread dev blockno =>
    match bread c t.st dev blockno with
    | .ok (s, _) => some { t with st := s, clock := t.clock + 1 }
    | .error _ => none
  | BioOp.brelse b =>
    if b < c.NBUF then
      match brelse c t.st b with
      | .ok (s, _) =>
        some { st := s, clock := t.clock + 1,
               released := Function.update t.released b (t.clock + 1),
               fronted := if (s.bufs b).refcnt = 0
                          then Function.update t.fronted b (t.clock + 1) else t.fronted }
      | .error _ => none
    else none
  | BioOp.bpin b =>
    if b < c.NBUF then some { t with st := bpin t.st b, clock := t.clock + 1 } else none
  | BioOp.bunpin b =>
    if b < c.NBUF then some { t with st := bunpin t.st b, clock := t.clock + 1 } else none

/-- A sequence of calls, one after the other. -/
def bioRun (c : Config) : Traced → List BioOp → Option Traced
  | t, [] => some t
  | t, op :: ops =>
    match bioStep c t op with
    | some t1 => bioRun c t1 ops
    | none => none

/-- Buffer `x` was moved to the front of the recency list after buffer `y`; buffers that
were never moved are taken in the order of `binit`, the higher index being in front. -/
def Newer (t : Traced) (x y : Nat) : Prop :=
  t.fronted y < t.fronted x ∨ (t.fronted x = 0 ∧ t.fronted y = 0 ∧ y < x)

/-- A run in which a pinned buffer is released and then unpinned. -/
def pinnedRun : List BioOp :=
  [BioOp.bget 1 1, BioOp.bget 1 2, BioOp.brelse 1, BioOp.bpin 0, BioOp.brelse 0, BioOp.bunpin 0]

/-- What a run keeps true: the list is intact, no buffer was moved in the future, and the
recency list is ordered by the time of the move to the front. -/
def RunInv (c : Config) (t : Traced) : Prop :=
  ListOK c t.st ∧ (∀ i, t.fronted i ≤ t.clock) ∧ (recency c t.st).Pairwise (Newer t)

/-- The traced machine at the end of `pinnedRun`. -/
def pinnedEnd : Traced :=
  (bioRun cfg0 (bootTraced cfg0 disk0 (-1) (-1) sb0) pinnedRun).getD
    (bootTraced cfg0 disk0 (-1) (-1) sb0)

/-- The state after `bget(1, 3)` at the end of `pinnedRun`. -/
def pinnedEvict : State :=
  match bget cfg0 pinnedEnd.st 1 3 with
  | .ok (s, _) => s
  | .error (_, s) => s

/-! ## sysfile.c: the raw-block system calls -/

/-- The system call `sys_raw_read`.  The decoded arguments are given: `pbn`, and whether the
`copyout` to the user buffer succeeds.  The result is the return value and the block copied
out, if any.  (`bget` never returns a null pointer, so the check `b == 0` is dropped.) -/
def sys_raw_read (c : Config) (s : State) (pbn : Int) (copyout_ok : Bool) :
    Res (Int × Option (Nat → Nat)) :=
  if pbn < 0 ∨ pbn ≥ (c.FSSIZE : Int) then .ok (s, (-1, none))
  else
    match bget c s c.ROOTDEV pbn.toNat with
    | .error e => .error e
    | .ok (s, b) =>
      let s := virtio_disk_rw s b false
      if !copyout_ok then
        match brelse c s b with
        | .error e => .error e
        | .ok (s, _) => .ok (s, (-1, none))
      else
        let out := (s.bufs b).data
        match brelse c s b with
        | .error e => .error e
        | .ok (s, _) => .ok (s, (0, some out))

/-- The system call `sys_raw_write`.  The decoded arguments are given: `pbn`, and the `BSIZE`
bytes `copyin` fetches from the user buffer, or `none` when `copyin` fails. -/
def sys_raw_write (c : Config) (s : State) (pbn : Int) (ubuf : Option (Nat → Nat)) : Res Int :=
  if pbn < 0 ∨ pbn ≥ (c.FSSIZE : Int) then .ok (s, -1)
  else
    match bget c s c.ROOTDEV pbn.toNat with
    | .error e => .error e
    | .ok (s, b) =>
      match ubuf with
      | none =>
        match brelse c s b with
        | .error e => .error e
        | .ok (s, _) => .ok (s, -1)
      | some d =>
        -- copyin(p->pagetable, (char *)b->data, user_buf_addr, BSIZE)
        let s := s.setBuf b
          { s.bufs b with data := fun i => if i < c.BSIZE then d i % 256 else (s.bufs b).data i }
        -- b->valid = 1;
        let s := s.setBuf b { s.bufs b with valid := 1 }
        let s := virtio_disk_rw s b true
        match brelse c s b with
        | .error e => .error e
        | .ok (s, _) => .ok (s, 0)

/-- A call of the buffer cache interface or of a raw-block system call. -/
inductive CacheOp where
  /-- The call `bget(dev, blockno)`. -/
  | bget (dev blockno : Nat)
  /-- The call `bread(dev, blockno)`. -/
  | bread (dev blockno : Nat)
  /-- The call `bwrite(&bcache.buf[b])`. -/
  | bwrite (b : Nat)
  /-- The call `brelse(&bcache.buf[b])`. -/
  | brelse (b : Nat)
  /-- The system call `raw_read(pbn, buf)`, with the outcome of `copyout`. -/
  | raw_read (pbn : Int) (copyout_ok : Bool)
  /-- The system call `raw_write(pbn, buf)`, with the outcome of `copyin`. -/
  | raw_write (pbn : Int) (ubuf : Option (Nat → Nat))

/-- The machine state a call ends in, when it returns. -/
def cacheStep (c : Config) (s : State) : CacheOp → Option State
  | CacheOp.bget dev blockno =>
    match bget c s dev blockno with
    | .ok (s1, _) => some s1
    | .error _ => none
  | CacheOp.bread dev blockno =>
    match bread c s dev blockno with
    | .ok (s1, _) => some s1
    | .error _ => none
  | CacheOp.bwrite b =>
    if b < c.NBUF then
      match bwrite c s b with
      | .ok (s1, _) => some s1
      | .error _ => none
    else none
  | CacheOp.brelse b =>
    if b < c.NBUF then
      match brelse c s b with
      | .ok (s1, _) => some s1
      | .error _ => none
    else none
  | CacheOp.raw_read pbn ok =>
    match sys_raw_read c s pbn ok with
    | .ok (s1, _) => some s1
    | .error _ => none
  | CacheOp.raw_write pbn ubuf =>
    match sys_raw_write c s pbn ubuf with
    | .ok (s1, _) => some s1
    | .error _ => none

/-- The call is a `raw_write`. -/
def CacheOp.isRawWrite : CacheOp → Bool
  | CacheOp.raw_write _ _ => true
  | _ => false

/-- The block `bget` is asked for in a call, if the call gets that far. -/
def CacheOp.asks (c : Config) : CacheOp → Option (Nat × Nat)
  | CacheOp.bget dev blockno => some (dev, blockno)
  | CacheOp.bread dev blockno => some (dev, blockno)
  | CacheOp.bwrite _ => none
  | CacheOp.brelse _ => none
  | CacheOp.raw_read pbn _ =>
    if pbn < 0 ∨ pbn ≥ (c.FSSIZE : Int) then none else some (c.ROOTDEV, pbn.toNat)
  | CacheOp.raw_write pbn _ =>
    if pbn < 0 ∨ pbn ≥ (c.FSSIZE : Int) then none else some (c.ROOTDEV, pbn.toNat)

/-- The buffer that `bget` assigns to a new block in a call from state `s`: the recycled
buffer when the block asked for is not cached. -/
def assignedIn (c : Config) (s : State) (op : CacheOp) : Option Nat :=
  match op.asks c with
  | none => none
  | some (dev, blockno) =>
    match cachedBuf c s dev blockno with
    | some _ => none
    | none => victimBuf c s

/-- The disk transfers made between state `s` and the later state `s1`, newest first. -/
def newXfers (s s1 : State) : List Xfer :=
  s1.xfers.take (s1.xfers.length - s.xfers.length)

/-- A machine state with two observations per buffer: whether its content was loaded from
disk, and whether `sys_raw_write` stored it to disk, since `bget` last assigned the buffer to
a block. -/
structure Watched where
  /-- The machine state. -/
  st : State
  /-- Some disk read filled the buffer since its last assignment. -/
  loaded : Nat → Bool
  /-- The disk write of some `sys_raw_write` took the buffer content since its last
  assignment. -/
  stored : Nat → Bool

/-- The watched machine right after boot. -/
def bootWatched (c : Config) (disk : Nat → Nat → Nat) (pbn fail : Int) (sb : Superblock) :
    Watched :=
  { st := boot c disk pbn fail sb, loaded := fun _ => false, stored := fun _ => false }

/-- One call on the watched machine.  An assignment by `bget` comes before every transfer
of the same call. -/
def watchStep (c : Config) (w : Watched) (op : CacheOp) : Option Watched :=
  match cacheStep c w.st op with
  | none => none
  | some s1 =>
    some { st := s1,
           loaded := fun i =>
             (newXfers w.st s1).any (fun x => x.buf == i && !x.write) ||
               (w.loaded i && !(assignedIn c w.st op == some i)),
           stored := fun i =>
             (op.isRawWrite && (newXfers w.st s1).any (fun x => x.buf == i && x.write)) ||
               (w.stored i && !(assignedIn c w.st op == some i)) }

/-- A sequence of calls on the watched machine. -/
def watchRun (c : Config) : Watched → List CacheOp → Option Watched
  | w, [] => some w
  | w, op :: ops =>
    match watchStep c w op with
    | some w1 => watchRun c w1 ops
    | none => none

/-- The watched example machine after the single call `raw_write(7, buf)`. -/
def rawWritten : Watched :=
  (watchRun cfg0 (bootWatched cfg0 disk0 (-1) (-1) sb0)
    [CacheOp.raw_write 7 (some (fun _ => 255))]).getD (bootWatched cfg0 disk0 (-1) (-1) sb0)

/-! ## Collaborators of the file-system layer -/

/-- Modelled from the spec: `log_write(b)` of the missing `log.c`.  The buffer is not written
to disk; its block number is noted in the running transaction and the buffer is pinned
(`bpin`), so that it stays in the cache until the transaction is committed. -/
def log_write (s : State) (b : Nat) : State :=
  bpin { s with log := (s.bufs b).blockno :: s.log } b

/-- Memory a copy primitive works on: its bytes, and which addresses a user copy may touch. -/
structure Mem where
  /-- The byte at an address. -/
  byte : Nat → Nat
  /-- A user-space copy may access the address. -/
  ok : Nat → Bool

/-- Modelled from the spec: `either_copyin(dst, user_src, src, len)` of the missing `proc.c`.
The `len` bytes at `src`, or `none` for the result -1, which a user copy gives when it meets
an address it may not access. -/
def either_copyin (mem : Mem) (user_src src len : Nat) : Option (Nat → Nat) :=
  if user_src ≠ 0 ∧ ∃ k, k < len ∧ mem.ok (src + k) = false then none
  else some (fun k => mem.byte (src + k))

/-- Modelled from the spec: `either_copyout(user_dst, dst, src, len)` of the missing
`proc.c`.  The memory after `len` bytes were stored at `dst`, or `none` for the result -1. -/
def either_copyout (mem : Mem) (user_dst dst : Nat) (src : Nat → Nat) (len : Nat) :
    Option Mem :=
  if user_dst ≠ 0 ∧ ∃ k, k < len ∧ mem.ok (dst + k) = false then none
  else some { mem with byte := fun a => if dst ≤ a ∧ a < dst + len then src (a - dst)
                                         else mem.byte a }

/-! ## fs.h -/

/-- Modelled from the spec: the `fs.h` macro `BPB`, bitmap bits per block. -/
def BPB (c : Config) : Nat := c.BSIZE * 8

/-- Modelled from the spec: the `fs.h` macro `BBLOCK(b, sb)`, the block of the free map that
holds the bit of block `b`. -/
def BBLOCK (c : Config) (b : Nat) (sb : Superblock) : Nat := (b / BPB c + sb.bmapstart) % U32

/-- Modelled from the spec: the `fs.h` macro `IBLOCK(i, sb)`, the block that holds inode
`i`. -/
def IBLOCK (c : Config) (i : Nat) (sb : Superblock) : Nat := (i / c.IPB + sb.inodestart) % U32

/-- Modelled from the spec: the `fs.h` macro `NINDIRECT`, the number of block addresses in
the indirect block (`BSIZE / sizeof(uint)`). -/
def NINDIRECT (c : Config) : Nat := c.BSIZE / 4

/-- Modelled from the spec: the `fs.h` macro `MAXFILE`. -/
def MAXFILE (c : Config) : Nat := c.NDIRECT + NINDIRECT c

/-- The `uint` number `i` of a block seen as `uint[]` (little endian). -/
def get32 (d : Nat → Nat) (i : Nat) : Nat :=
  d (4 * i) % 256 + 256 * (d (4 * i + 1) % 256) + 65536 * (d (4 * i + 2) % 256) +
    16777216 * (d (4 * i + 3) % 256)

/-- The block after `uint` number `i` was set to `v`. -/
def put32 (d : Nat → Nat) (i v : Nat) : Nat → Nat :=
  fun k =>
    if k = 4 * i then v % 256
    else if k = 4 * i + 1 then v / 256 % 256
    else if k = 4 * i + 2 then v / 65536 % 256
    else if k = 4 * i + 3 then v / 16777216 % 256
    else d k

/-! ## fs.c: blocks -/

/-- Replace inode `ip` of the inode cache. -/
def State.setInode (s : State) (ip : Nat) (x : Inode) : State :=
  { s with inodes := Function.update s.inodes ip x }

/-- The routine `bzero(dev, bno)`. -/
def bzero (c : Config) (s : State) (dev bno : Nat) : Res Unit :=
  match bread c s dev bno with
  | .error e => .error e
  | .ok (s, bp) =>
    -- memset(bp->data, 0, BSIZE);
    let s := s.setBuf bp
      { s.bufs bp with data := fun i => if i < c.BSIZE then 0 else (s.bufs bp).data i }
    let s := log_write s bp
    brelse c s bp

/-- The inner loop of `balloc`: `for (bi = start; bi < BPB && b + bi < sb.size; bi++)`,
looking in a bitmap block for a clear bit. -/
def balloc_scan (c : Config) (size : Nat) (data : Nat → Nat) (b : Nat) : Nat → Nat → Option Nat
  | 0, _ => none
  | fuel + 1, bi =>
    if bi < BPB c ∧ b + bi < size then
      let m := 1 <<< (bi % 8)
      if data (bi / 8) &&& m = 0 then some bi
      else balloc_scan c size data b fuel (bi + 1)
    else none

/-- The outer loop of `balloc`: `for (b = start; b < sb.size; b += BPB)`. -/
def balloc_loop (c : Config) (dev : Nat) : Nat → Nat → State → Res Nat
  | 0, _, s => .error (Err.no_progress, s)
  | fuel + 1, b, s =>
    if b < s.sb.size then
      match bread c s dev (BBLOCK c b s.sb) with
      | .error e => .error e
      | .ok (s, bp) =>
        match balloc_scan c s.sb.size (s.bufs bp).data b (BPB c + 1) 0 with
        | some bi =>
          let m := 1 <<< (bi % 8)
          -- bp->data[bi / 8] |= m;
          let s := s.setBuf bp
            { s.bufs bp with
              data := Function.update (s.bufs bp).data (bi / 8)
                (((s.bufs bp).data (bi / 8) ||| m) % 256) }
          let s := log_write s bp
          match brelse c s bp with
          | .error e => .error e
          | .ok (s, _) =>
            match bzero c s dev (b + bi) with
            | .error e => .error e
            | .ok (s, _) => .ok (s, b + bi)
        | none =>
          match brelse c s bp with
          | .error e => .error e
          | .ok (s, _) => balloc_loop c dev fuel (b + BPB c) s
    else .error (Err.balloc_out_of_blocks, s)

/-- The routine `balloc(dev)`. -/
def balloc (c : Config) (s : State) (dev : Nat) : Res Nat :=
  balloc_loop c dev (s.sb.size + 1) 0 s

/-- The routine `bfree(dev, b)`. -/
def bfree (c : Config) (s : State) (dev b : Nat) : Res Unit :=
  match bread c s dev (BBLOCK c b s.sb) with
  | .error e => .error e
  | .ok (s, bp) =>
    let bi := b % BPB c
    let m := 1 <<< (bi % 8)
    if (s.bufs bp).data (bi / 8) &&& m = 0 then .error (Err.freeing_free_block, s)
    else
      -- bp->data[bi / 8] &= ~m;
      let s := s.setBuf bp
        { s.bufs bp with
          data := Function.update (s.bufs bp).data (bi / 8)
            (((s.bufs bp).data (bi / 8) &&& (4294967295 - m)) % 256) }
      let s := log_write s bp
      brelse c s bp

/-! ## fs.c: inode content -/

/-- The routine `iupdate(ip)`. -/
def iupdate (c : Config) (s : State) (ip : Nat) : Res Unit :=
  match bread c s (s.inodes ip).dev (IBLOCK c (s.inodes ip).inum s.sb) with
  | .error e => .error e
  | .ok (s, bp) =>
    let s := s.setBuf bp
      { s.bufs bp with
        data := c.dinodePut ((s.inodes ip).inum % c.IPB) (s.inodes ip).d (s.bufs bp).data }
    let s := log_write s bp
    brelse c s bp

/-- The part of `bmap` that finds the indirect block,
`if ((addr = ip->addrs[NDIRECT]) == 0) { addr = balloc(ip->dev); ... }`: the indirect block
is allocated if the inode has none. -/
def bmap_indirect (c : Config) (s : State) (ip : Nat) : Res Nat :=
  if (s.inodes ip).d.addrs c.NDIRECT = 0 then
    match balloc c s (s.inodes ip).dev with
    | .error e => .error e
    | .ok (s, addr) =>
      if addr = 0 then .error (Err.bmap_balloc_failed, s)
      else
        let i := s.inodes ip
        .ok (s.setInode ip
          { i with d := { i.d with addrs := Function.update i.d.addrs c.NDIRECT addr } },
          addr)
  else .ok (s, (s.inodes ip).d.addrs c.NDIRECT)

/-- The part of `bmap` that looks up entry `bn` of the indirect block `addr`, from
`bp = bread(ip->dev, addr)` to `return target_addr`: the data block is allocated and entered
if the entry is 0. -/
def bmap_target (c : Config) (s : State) (ip bn addr : Nat) : Res Nat :=
  match bread c s (s.inodes ip).dev addr with
  | .error e => .error e
  | .ok (s, bp) =>
    let target_addr := get32 (s.bufs bp).data bn
    if target_addr = 0 then
      match balloc c s (s.inodes ip).dev with
      | .error e => .error e
      | .ok (s, target_addr) =>
        if target_addr = 0 then .error (Err.bmap_balloc_failed, s)
        else
          -- a[bn] = target_addr;
          let s := s.setBuf bp
            { s.bufs bp with data := put32 (s.bufs bp).data bn target_addr }
          let s := log_write s bp
          match brelse c s bp with
          | .error e => .error e
          | .ok (s, _) => .ok (s, target_addr)
    else
      match brelse c s bp with
      | .error e => .error e
      | .ok (s, _) => .ok (s, target_addr)

/-- The routine `bmap(ip, bn)`. -/
def bmap (c : Config) (s : State) (ip bn : Nat) : Res Nat :=
  if bn < c.NDIRECT then
    if (s.inodes ip).d.addrs bn = 0 then
      match balloc c s (s.inodes ip).dev with
      | .error e => .error e
      | .ok (s, addr) =>
        if addr = 0 then .error (Err.bmap_balloc_failed, s)
        else
          let i := s.inodes ip
          .ok (s.setInode ip { i with d := { i.d with addrs := Function.update i.d.addrs bn addr } },
            addr)
    else .ok (s, (s.inodes ip).d.addrs bn)
  else
    let bn := bn - c.NDIRECT
    if bn < NINDIRECT c then
      match bmap_indirect c s ip with
      | .error e => .error e
      | .ok (s, addr) => bmap_target c s ip bn addr
    else .error (Err.bmap_out_of_range, s)

/-- The loop of `readi`: `for (; tot < n; tot += m, off += m, dst += m)`.  The result is the
user memory and `tot` when the loop is left. -/
def readi_loop (c : Config) (ip user_dst n : Nat) :
    Nat → State → Mem → Nat → Nat → Nat → Res (Mem × Nat)
  | 0, s, _, _, _, _ => .error (Err.no_progress, s)
  | fuel + 1, s, mem, tot, off, dst =>
    if tot < n then
      match bmap c s ip (off / c.BSIZE) with
      | .error e => .error e
      | .ok (s, addr) =>
        match bread c s (s.inodes ip).dev addr with
        | .error e => .error e
        | .ok (s, bp) =>
          let m := min (n - tot) (c.BSIZE - off % c.BSIZE)
          match either_copyout mem user_dst dst
              (fun k => (s.bufs bp).data (off % c.BSIZE + k)) m with
          | none =>
            match brelse c s bp with
            | .error e => .error e
            | .ok (s, _) => .ok (s, (mem, tot))
          | some mem =>
            match brelse c s bp with
            | .error e => .error e
            | .ok (s, _) =>
              readi_loop c ip user_dst n fuel s mem ((tot + m) % U32) ((off + m) % U32) (dst + m)
    else .ok (s, (mem, tot))

/-- The routine `readi(ip, user_dst, dst, off, n)`; the result is the user memory afterwards
and the return value. -/
def readi (c : Config) (s : State) (mem : Mem) (ip user_dst dst off n : Nat) :
    Res (Mem × Int) :=
  if off > (s.inodes ip).d.size ∨ (off + n) % U32 < off then .ok (s, (mem, 0))
  else
    let n := if (off + n) % U32 > (s.inodes ip).d.size then (s.inodes ip).d.size - off else n
    match readi_loop c ip user_dst n (n + 1) s mem 0 off dst with
    | .error e => .error e
    | .ok (s, (mem, tot)) => .ok (s, (mem, toInt32 tot))

/-- The loop of `writei`: `for (; tot < n; tot += m, off += m, src += m)`.  The result is
`off` when the loop is left. -/
def writei_loop (c : Config) (mem : Mem) (ip user_src n : Nat) :
    Nat → State → Nat → Nat → Nat → Res Nat
  | 0, s, _, _, _ => .error (Err.no_progress, s)
  | fuel + 1, s, tot, off, src =>
    if tot < n then
      let bn := off / c.BSIZE
      match bmap c s ip bn with
      | .error e => .error e
      | .ok (s, disk_lbn) =>
        match bread c s (s.inodes ip).dev disk_lbn with
        | .error e => .error e
        | .ok (s, bp) =>
          let m := min (n - tot) (c.BSIZE - off % c.BSIZE)
          match either_copyin mem user_src src m with
          | none =>
            match brelse c s bp with
            | .error e => .error e
            | .ok (s, _) => .ok (s, off)
          | some bytes =>
            let s := s.setBuf bp
              { s.bufs bp with
                data := fun i =>
                  if off % c.BSIZE ≤ i ∧ i < off % c.BSIZE + m then bytes (i - off % c.BSIZE)
                  else (s.bufs bp).data i }
            let s := log_write s bp
            match brelse c s bp with
            | .error e => .error e
            | .ok (s, _) =>
              writei_loop c mem ip user_src n fuel s ((tot + m) % U32) ((off + m) % U32) (src + m)
    else .ok (s, off)

/-- The routine `writei(ip, user_src, src, off, n)`. -/
def writei (c : Config) (s : State) (mem : Mem) (ip user_src src off n : Nat) : Res Int :=
  if off > (s.inodes ip).d.size ∨ (off + n) % U32 < off then .ok (s, -1)
  else if (off + n) % U32 > MAXFILE c * c.BSIZE then .ok (s, -1)
  else
    match writei_loop c mem ip user_src n (n + 1) s 0 off src with
    | .error e => .error e
    | .ok (s, off) =>
      if n > 0 then
        let i := s.inodes ip
        let s := if off > i.d.size then s.setInode ip { i with d := { i.d with size := off } }
                 else s
        match iupdate c s ip with
        | .error e => .error e
        | .ok (s, _) => .ok (s, toInt32 n)
      else .ok (s, toInt32 n)

/-! ## The cache as the file system sees it -/

/-- A fault is injected for reads of block `blockno`: `bread` goes to the mirror. -/
def forced (s : State) (blockno : Nat) : Bool :=
  s.force_disk_fail_id == 0 || s.force_read_error_pbn == toInt32 blockno

/-- The content of block `n` of device `dev` as the cache presents it: the data of the valid
buffer that holds the block, and the disk content when there is none. -/
def blockView (c : Config) (s : State) (dev n : Nat) : Nat → Nat :=
  match cachedBuf c s dev n with
  | some b => if (s.bufs b).valid = 0 then s.disk n else (s.bufs b).data
  | none => s.disk n

/-- The bookkeeping of the cache is in order for device `dev`: the list is intact, no two
buffers hold the same block of `dev`, a held buffer is referenced, and every `refcnt` is at
least `k` steps away from wrapping around. -/
def TagsOK (c : Config) (s : State) (dev k : Nat) : Prop :=
  ListOK c s ∧
  (∀ i j, i < c.NBUF → j < c.NBUF → (s.bufs i).dev = dev → (s.bufs j).dev = dev →
    (s.bufs i).blockno = (s.bufs j).blockno → i = j) ∧
  (∀ i, i < c.NBUF → (s.bufs i).locked = true → (s.bufs i).refcnt ≠ 0) ∧
  (∀ i, i < c.NBUF → (s.bufs i).refcnt + k < U32)

/-- A valid buffer of `dev` that nobody references agrees with the disk. -/
def Clean (c : Config) (s : State) (dev : Nat) : Prop :=
  ∀ i, i < c.NBUF → (s.bufs i).dev = dev → (s.bufs i).valid ≠ 0 → (s.bufs i).refcnt = 0 →
    (s.bufs i).data = s.disk (s.bufs i).blockno

/-- The cache is in order for device `dev`: its bookkeeping is, and what it would drop on
eviction is on disk. -/
def Coherent (c : Config) (s : State) (dev k : Nat) : Prop :=
  TagsOK c s dev k ∧ Clean c s dev

/-- Block `n` of `dev` is kept in the cache: a valid buffer holds it and is referenced by
something else than its present holder (a pin of `log_write`). -/
def Pinned (c : Config) (s : State) (dev n : Nat) : Prop :=
  ∃ i, i < c.NBUF ∧ (s.bufs i).holds dev n ∧ (s.bufs i).valid ≠ 0 ∧
    (if (s.bufs i).locked then 2 else 1) ≤ (s.bufs i).refcnt

/-- The state `s1` has the disk, the superblock and the fault flags of `s`. -/
def SameEnv (s s1 : State) : Prop :=
  s1.disk = s.disk ∧ s1.sb = s.sb ∧ s1.force_read_error_pbn = s.force_read_error_pbn ∧
    s1.force_disk_fail_id = s.force_disk_fail_id

/-- The content `bread` delivers for block `n`: that of the mirror block when a fault is
injected for `n`, and the view of the cache otherwise. -/
def readView (c : Config) (s : State) (dev n : Nat) : Nat → Nat :=
  if forced s n then s.disk ((n + c.DISK1_START_BLOCK) % U32) else blockView c s dev n

/-- Bit number `bi` of a block seen as a bit map. -/
def bitOf (d : Nat → Nat) (bi : Nat) : Bool := (d (bi / 8)).testBit (bi % 8)

/-- The free-map bit of block `x` in the view of the cache. -/
def bmBit (c : Config) (s : State) (dev x : Nat) : Bool :=
  bitOf (blockView c s dev (BBLOCK c x s.sb)) (x % BPB c)

/-- A disk for worked examples with a file system on it: block 5 is the free map, in which
the blocks 0 to 9 are marked in use, and so is its mirror, block 105. -/
def disk1 : Nat → Nat → Nat := fun n i =>
  if n = 5 ∨ n = 105 then (if i = 0 then 255 else if i = 1 then 3 else 0) else (7 * n + i) % 256

/-- The inode used in worked examples: inode 1 of device 1, an empty file. -/
def ino0 : Inode :=
  { dev := 1, inum := 1, ref := 1, locked := true, valid := 1,
    d := { type := 2, major := 0, nlink := 1, size := 0, mode := 3, addrs := fun _ => 0 } }

/-- The example machine after boot on `disk1`, with `ino0` locked in slot 0 of the inode
cache; `fail` is the value of `force_disk_fail_id`. -/
def fs0 (fail : Int) : State :=
  (boot cfg0 disk1 (-1) fail sb0).setInode 0 ino0

/-- The state after `balloc(1)` on `fs0`. -/
def fs0Alloc (fail : Int) : State :=
  match balloc cfg0 (fs0 fail) 1 with
  | .ok (s, _) => s
  | .error (_, s) => s

/-- No read fault is injected for any block of the file system. -/
def NoFault (s : State) : Prop := ∀ n, n < s.sb.size → forced s n = false

/-- The free map lies inside the file system, and block numbers do not wrap around. -/
def Geometry (c : Config) (s : State) : Prop :=
  0 < c.BSIZE ∧ s.sb.size / BPB c + s.sb.bmapstart < U32 ∧
    ∀ x, x < s.sb.size → BBLOCK c x s.sb < s.sb.size

/-- The blocks of the free map are marked in use. -/
def MapInUse (c : Config) (s : State) (dev : Nat) : Prop :=
  ∀ x, x < s.sb.size → bmBit c s dev (BBLOCK c x s.sb) = true

/-- A block with bit `bi` of its bit map set. -/
def withBit (d : Nat → Nat) (bi : Nat) : Nat → Nat :=
  Function.update d (bi / 8) ((d (bi / 8) ||| 1 <<< (bi % 8)) % 256)

/-- A block with bit `bi` of its bit map cleared. -/
def withoutBit (d : Nat → Nat) (bi : Nat) : Nat → Nat :=
  Function.update d (bi / 8) ((d (bi / 8) &&& (4294967295 - 1 <<< (bi % 8))) % 256)

/-- A block after `memset(data, 0, BSIZE)`. -/
def zeroed (c : Config) (d : Nat → Nat) : Nat → Nat :=
  fun i => if i < c.BSIZE then 0 else d i

/-- An error is one of the buffer cache: `bget` found no buffer, would sleep, or met a broken
list, or `brelse` or `bwrite` was called without the lock. -/
def Err.ofCache (e : Err) : Prop :=
  e = Err.bget_no_buffers ∨ e = Err.sleeps ∨ e = Err.list_broken ∨ e = Err.brelse_unlocked ∨
    e = Err.bwrite_unlocked

/-- No buffer is held: every sleep lock of the cache is free. -/
def Unlocked (c : Config) (s : State) : Prop :=
  ∀ i, i < c.NBUF → (s.bufs i).locked = false

/-- At least `n` buffers of the cache are unused (`refcnt == 0`). -/
def Spare (c : Config) (s : State) (n : Nat) : Prop :=
  ∃ l : List Nat, l.Nodup ∧ n ≤ l.length ∧ ∀ i ∈ l, i < c.NBUF ∧ (s.bufs i).refcnt = 0

/-- Memory for worked examples: every address may be accessed, and the byte at address `a`
is `(3 * a + 1) % 256`. -/
def mem0 : Mem := { byte := fun a => (3 * a + 1) % 256, ok := fun _ => true }

/-- The state after `writei(ip, 0, 1000, 0, 3)` on `fs0`: three bytes from kernel address
1000 written at offset 0 of the file of inode slot 0. -/
def fs0Write (fail : Int) : State :=
  match writei cfg0 (fs0 fail) mem0 0 0 1000 0 3 with
  | .ok (s, _) => s
  | .error (_, s) => s

/-- The memory after `readi(ip, 0, 5000, 0, 3)` on `fs0Write`. -/
def fs0Read (fail : Int) : Mem :=
  match readi cfg0 (fs0Write fail) mem0 0 0 5000 0 3 with
  | .ok (_, (m, _)) => m
  | .error _ => mem0

/-- The block number the inode in slot `ip` has for block `bn` of its file, 0 when it has
none: what `bmap` finds in `ip->addrs[]` or in the indirect block. -/
def fileBlock (c : Config) (s : State) (ip bn : Nat) : Nat :=
  if bn < c.NDIRECT then (s.inodes ip).d.addrs bn
  else if (s.inodes ip).d.addrs c.NDIRECT = 0 then 0
  else get32 (blockView c s (s.inodes ip).dev ((s.inodes ip).d.addrs c.NDIRECT))
    (bn - c.NDIRECT)

/-- Block `x` holds metadata of the file of inode slot `ip`: it is a block of the free map or
the block of the inode. -/
def Meta (c : Config) (s : State) (ip x : Nat) : Prop :=
  (∃ y, y < s.sb.size ∧ x = BBLOCK c y s.sb) ∨ x = IBLOCK c (s.inodes ip).inum s.sb

/-- Block `x` belongs to the file of inode slot `ip`: it is its indirect block or one of its
data blocks. -/
def Owned (c : Config) (s : State) (ip x : Nat) : Prop :=
  x ≠ 0 ∧ (x = (s.inodes ip).d.addrs c.NDIRECT ∨
    ∃ bn, bn < MAXFILE c ∧ x = fileBlock c s ip bn)

/-- The file of inode slot `ip` is well formed: its metadata blocks and its own blocks lie
in the file system and are marked in use, no block of the file is a metadata block, no data
block is the indirect block, and no data block occurs twice. -/
def FileOK (c : Config) (s : State) (ip : Nat) : Prop :=
  (∀ x, Meta c s ip x → x < s.sb.size ∧ bmBit c s (s.inodes ip).dev x = true) ∧
  (∀ x, Owned c s ip x →
    x < s.sb.size ∧ bmBit c s (s.inodes ip).dev x = true ∧ ¬ Meta c s ip x) ∧
  (∀ bn, bn < MAXFILE c → fileBlock c s ip bn ≠ 0 →
    fileBlock c s ip bn ≠ (s.inodes ip).d.addrs c.NDIRECT) ∧
  (∀ bn bn2, bn < MAXFILE c → bn2 < MAXFILE c → fileBlock c s ip bn ≠ 0 →
    fileBlock c s ip bn = fileBlock c s ip bn2 → bn = bn2)

/-- Block `b` is in use, but neither metadata nor part of the file of inode slot `ip`: the
state of a block `balloc` has just handed out. -/
def Fresh (c : Config) (s : State) (ip b : Nat) : Prop :=
  b < s.sb.size ∧ bmBit c s (s.inodes ip).dev b = true ∧ ¬ Meta c s ip b ∧
    ¬ Owned c s ip b

/-- The bytes of memory `mem` from address `src` on are stored in the file of inode slot
`ip` at the offsets from `off0` up to `off1`: each offset lies in a block the inode has,
inside the file system, and the view of the cache has the byte there. -/
def Stored (c : Config) (s : State) (ip : Nat) (mem : Mem) (src off0 off1 : Nat) : Prop :=
  ∀ a, off0 ≤ a → a < off1 →
    fileBlock c s ip (a / c.BSIZE) ≠ 0 ∧ fileBlock c s ip (a / c.BSIZE) < s.sb.size ∧
    blockView c s (s.inodes ip).dev (fileBlock c s ip (a / c.BSIZE)) (a % c.BSIZE) =
      mem.byte (src + (a - off0))

/-- The file of inode slot `ip` in `s2` extends that in `s`: the environment, the device, the
inode number, the size and the locks are the same, and every block the file has in `s` it
has in `s2`, with the same content. -/
def Grows (c : Config) (s s2 : State) (ip : Nat) : Prop :=
  SameEnv s s2 ∧ (s2.inodes ip).dev = (s.inodes ip).dev ∧
  (s2.inodes ip).inum = (s.inodes ip).inum ∧ (s2.inodes ip).d.size = (s.inodes ip).d.size ∧
  (∀ i, (s2.bufs i).locked = (s.bufs i).locked) ∧
  ∀ bn, bn < MAXFILE c → fileBlock c s ip bn ≠ 0 →
    fileBlock c s2 ip bn = fileBlock c s ip bn ∧
    blockView c s2 (s.inodes ip).dev (fileBlock c s ip bn) =
      blockView c s (s.inodes ip).dev (fileBlock c s ip bn)

/-- The state `s2` differs from `s` in nothing a reader of device `dev` can tell: the
environment, the inodes, the reference counts, the locks and the view of the cache are the
same. -/
def SameView (c : Config) (s s2 : State) (dev : Nat) : Prop :=
  SameEnv s s2 ∧ s2.inodes = s.inodes ∧
  (∀ i, (s2.bufs i).refcnt = (s.bufs i).refcnt ∧ (s2.bufs i).locked = (s.bufs i).locked) ∧
  ∀ m, blockView c s2 dev m = blockView c s dev m

/-! ## fs.c: the inode cache -/

/-- The loop of `iget`, for the slots `i, i + 1, ..`: the first slot that is referenced and
holds `(dev, inum)`, or else, when the loop is left, the first slot with `ref == 0` met
(`empty`).  The field `ref` is a C `int`; its arithmetic is done in the integers, a signed
overflow being undefined in C. -/
def iget_loop (c : Config) (s : State) (dev inum : Nat) : Nat → Nat → Option Nat → Res Nat
  | 0, _, empty =>
    match empty with
    | none => .error (Err.iget_no_inodes, s)
    | some ip =>
      .ok (s.setInode ip { s.inodes ip with dev := dev, inum := inum, ref := 1, valid := 0 }, ip)
  | n + 1, i, empty =>
    if (s.inodes i).ref > 0 ∧ (s.inodes i).dev = dev ∧ (s.inodes i).inum = inum then
      .ok (s.setInode i { s.inodes i with ref := (s.inodes i).ref + 1 }, i)
    else
      let empty := if empty = none ∧ (s.inodes i).ref = 0 then some i else empty
      iget_loop c s dev inum n (i + 1) empty

/-- The routine `iget(dev, inum)`; the result is the index of the slot. -/
def iget (c : Config) (s : State) (dev inum : Nat) : Res Nat :=
  iget_loop c s dev inum c.NINODE 0 none

/-- The routine `idup(ip)`. -/
def idup (s : State) (ip : Nat) : State :=
  s.setInode ip { s.inodes ip with ref := (s.inodes ip).ref + 1 }

/-- The routine `ilock(ip)`, for a slot of the cache (`ip != 0`).  The sleep-lock of the
inode is the field `locked`; a caller that finds it held waits. -/
def ilock (c : Config) (s : State) (ip : Nat) : Res Unit :=
  if (s.inodes ip).ref < 1 then .error (Err.ilock_bad, s)
  else if (s.inodes ip).locked then .error (Err.sleeps, s)
  else
    let s := s.setInode ip { s.inodes ip with locked := true }
    if (s.inodes ip).valid = 0 then
      match bread c s (s.inodes ip).dev (IBLOCK c (s.inodes ip).inum s.sb) with
      | .error e => .error e
      | .ok (s, bp) =>
        let dip := c.dinodeGet ((s.inodes ip).inum % c.IPB) (s.bufs bp).data
        let s := s.setInode ip { s.inodes ip with d := dip }
        match brelse c s bp with
        | .error e => .error e
        | .ok (s, _) =>
          let s := s.setInode ip { s.inodes ip with valid := 1 }
          if (s.inodes ip).d.type = 0 then .error (Err.ilock_no_type, s)
          else .ok (s, ())
    else .ok (s, ())

/-- The routine `iunlock(ip)`, for a slot of the cache. -/
def iunlock (s : State) (ip : Nat) : Res Unit :=
  if (s.inodes ip).locked = false ∨ (s.inodes ip).ref < 1 then .error (Err.iunlock_bad, s)
  else .ok (s.setInode ip { s.inodes ip with locked := false }, ())

/-- The first loop of `itrunc`, `for (i = 0; i < NDIRECT; i++)`, from `i` on for `n` rounds. -/
def itrunc_direct (c : Config) (ip : Nat) : Nat → Nat → State → Res Unit
  | 0, _, s => .ok (s, ())
  | n + 1, i, s =>
    if (s.inodes ip).d.addrs i ≠ 0 then
      match bfree c s (s.inodes ip).dev ((s.inodes ip).d.addrs i) with
      | .error e => .error e
      | .ok (s, _) =>
        let x := s.inodes ip
        let s := s.setInode ip { x with d := { x.d with addrs := Function.update x.d.addrs i 0 } }
        itrunc_direct c ip n (i + 1) s
    else itrunc_direct c ip n (i + 1) s

/-- The second loop of `itrunc`, `for (j = 0; j < NINDIRECT; j++)` over the entries of the
held indirect block in buffer `bp`, from `j` on for `n` rounds. -/
def itrunc_entries (c : Config) (ip bp : Nat) : Nat → Nat → State → Res Unit
  | 0, _, s => .ok (s, ())
  | n + 1, j, s =>
    if get32 (s.bufs bp).data j ≠ 0 then
      match bfree c s (s.inodes ip).dev (get32 (s.bufs bp).data j) with
      | .error e => .error e
      | .ok (s, _) => itrunc_entries c ip bp n (j + 1) s
    else itrunc_entries c ip bp n (j + 1) s

/-- The routine `itrunc(ip)`. -/
def itrunc (c : Config) (s : State) (ip : Nat) : Res Unit :=
  match itrunc_direct c ip c.NDIRECT 0 s with
  | .error e => .error e
  | .ok (s, _) =>
    let r : Res Unit :=
      if (s.inodes ip).d.addrs c.NDIRECT ≠ 0 then
        match bread c s (s.inodes ip).dev ((s.inodes ip).d.addrs c.NDIRECT) with
        | .error e => .error e
        | .ok (s, bp) =>
          match itrunc_entries c ip bp (NINDIRECT c) 0 s with
          | .error e => .error e
          | .ok (s, _) =>
            match brelse c s bp with
            | .error e => .error e
            | .ok (s, _) =>
              match bfree c s (s.inodes ip).dev ((s.inodes ip).d.addrs c.NDIRECT) with
              | .error e => .error e
              | .ok (s, _) =>
                let x := s.inodes ip
                .ok (s.setInode ip
                  { x with d := { x.d with addrs := Function.update x.d.addrs c.NDIRECT 0 } }, ())
      else .ok (s, ())
    match r with
    | .error e => .error e
    | .ok (s, _) =>
      let x := s.inodes ip
      let s := s.setInode ip { x with d := { x.d with size := 0 } }
      iupdate c s ip

/-- The routine `iput(ip)`. -/
def iput (c : Config) (s : State) (ip : Nat) : Res Unit :=
  let r : Res Unit :=
    if (s.inodes ip).ref = 1 ∧ (s.inodes ip).valid ≠ 0 ∧ (s.inodes ip).d.nlink = 0 then
      -- acquiresleep(&ip->lock);
      if (s.inodes ip).locked then .error (Err.sleeps, s)
      else
        let s := s.setInode ip { s.inodes ip with locked := true }
        match itrunc c s ip with
        | .error e => .error e
        | .ok (s, _) =>
          let x := s.inodes ip
          let s := s.setInode ip { x with d := { x.d with type := 0 } }
          match iupdate c s ip with
          | .error e => .error e
          | .ok (s, _) =>
            let s := s.setInode ip { s.inodes ip with valid := 0 }
            -- releasesleep(&ip->lock);
            .ok (s.setInode ip { s.inodes ip with locked := false }, ())
    else .ok (s, ())
  match r with
  | .error e => .error e
  | .ok (s, _) => .ok (s.setInode ip { s.inodes ip with ref := (s.inodes ip).ref - 1 }, ())

/-- The loop of `ialloc`, `for (inum = 1; inum < sb.ninodes; inum++)`, from `inum` on for `n`
rounds; `type` is the `short` argument. -/
def ialloc_loop (c : Config) (dev type : Nat) : Nat → Nat → State → Res Nat
  | 0, _, s => .error (Err.ialloc_no_inodes, s)
  | n + 1, inum, s =>
    match bread c s dev (IBLOCK c inum s.sb) with
    | .error e => .error e
    | .ok (s, bp) =>
      if (c.dinodeGet (inum % c.IPB) (s.bufs bp).data).type = 0 then
        -- memset(dip, 0, sizeof(*dip)); dip->type = type; dip->mode = M_ALL;
        let s := s.setBuf bp
          { s.bufs bp with
            data := c.dinodePut (inum % c.IPB)
              { type := type, major := 0, nlink := 0, size := 0, mode := c.M_ALL,
                addrs := fun _ => 0 } (s.bufs bp).data }
        let s := log_write s bp
        match brelse c s bp with
        | .error e => .error e
        | .ok (s, _) => iget c s dev inum
      else
        match brelse c s bp with
        | .error e => .error e
        | .ok (s, _) => ialloc_loop c dev type n (inum + 1) s

/-- The routine `ialloc(dev, type)`; the result is the index of the slot. -/
def ialloc (c : Config) (s : State) (dev type : Nat) : Res Nat :=
  ialloc_loop c dev type (s.sb.ninodes - 1) 1 s

/-- Slot `i` of the inode cache is referenced and holds `(dev, inum)`: the test of the loop
of `iget`. -/
def slotHolds (s : State) (dev inum i : Nat) : Prop :=
  (s.inodes i).ref > 0 ∧ (s.inodes i).dev = dev ∧ (s.inodes i).inum = inum

instance (s : State) (dev inum i : Nat) : Decidable (slotHolds s dev inum i) := by
  unfold slotHolds; infer_instance

/-- The state a call ends in: the state it returns, or the state at the panic. -/
def endState {α : Type} : Res α → State
  | .ok (s, _) => s
  | .error (_, s) => s

/-- The state `s2` has the bookkeeping of the inode cache of `s`: every slot has its `ref`,
`valid`, `locked`, `dev` and `inum`, and every slot but `ip` is wholly unchanged. -/
def InodesKept (s s2 : State) (ip : Nat) : Prop :=
  ∀ j, (s2.inodes j).ref = (s.inodes j).ref ∧ (s2.inodes j).valid = (s.inodes j).valid ∧
    (s2.inodes j).locked = (s.inodes j).locked ∧ (s2.inodes j).dev = (s.inodes j).dev ∧
    (s2.inodes j).inum = (s.inodes j).inum ∧ (j ≠ ip → s2.inodes j = s.inodes j)

/-! ## Runs of the inode cache interface -/

/-- A call of the inode cache interface; `idup`, `ilock`, `iunlock` and `iput` take the
index of a slot. -/
inductive InodeOp where
  /-- The call `iget(dev, inum)`. -/
  | iget (dev inum : Nat)
  /-- The call `idup(ip)`. -/
  | idup (ip : Nat)
  /-- The call `ilock(ip)`. -/
  | ilock (ip : Nat)
  /-- The call `iunlock(ip)`. -/
  | iunlock (ip : Nat)
  /-- The call `iput(ip)`. -/
  | iput (ip : Nat)
  deriving DecidableEq, Repr

/-- One call of the interface. -/
def inodeStep (c : Config) (s : State) : InodeOp → Res Unit
  | .iget dev inum =>
    match iget c s dev inum with
    | .error e => .error e
    | .ok (s, _) => .ok (s, ())
  | .idup ip => .ok (idup s ip, ())
  | .ilock ip => ilock c s ip
  | .iunlock ip => iunlock s ip
  | .iput ip => iput c s ip

/-- The state after a sequence of calls; a call that does not return ends the run, in the
state at its panic. -/
def inodeRun (c : Config) : List InodeOp → State → State
  | [], s => s
  | op :: ops, s =>
    match inodeStep c s op with
    | .ok (s, _) => inodeRun c ops s
    | .error (_, s) => s

/-- Along the run of `ops` from `s`, every `iput` is applied to a slot that is referenced
(`ref >= 1`): the caller gives back a reference it holds. -/
def PutsHeld (c : Config) : List InodeOp → State → Bool
  | [], _ => true
  | op :: ops, s =>
    (match op with
      | .iput ip => decide (1 ≤ (s.inodes ip).ref)
      | _ => true) &&
    match inodeStep c s op with
    | .ok (s, _) => PutsHeld c ops s
    | .error _ => true

/-- The call `ilock(ip)` in state `s` reads the on-disk inode record: it passes its check,
gets the lock and finds `valid == 0`. -/
def ilockLoads (s : State) (ip : Nat) : Bool :=
  decide (1 ≤ (s.inodes ip).ref) && !(s.inodes ip).locked && decide ((s.inodes ip).valid = 0)

/-- The inode cache with a counter per slot, kept outside the kernel: the number of times
`ilock` has read the on-disk record for the slot since its `ref` last rose from 0. -/
structure Counted where
  /-- The kernel state. -/
  st : State
  /-- The reads of the on-disk record per slot in the running period of reference. -/
  loads : Nat → Nat

/-- One call of the interface with counting: a reading `ilock` adds one for its slot, and
the counter of a slot starts again at 0 when its `ref` rises from 0. -/
def countStep (c : Config) (w : Counted) (op : InodeOp) : Counted :=
  let bumped : Nat → Nat :=
    match op with
    | .ilock ip => if ilockLoads w.st ip then Function.update w.loads ip (w.loads ip + 1)
                   else w.loads
    | _ => w.loads
  let s2 := endState (inodeStep c w.st op)
  { st := s2,
    loads := fun i => if (w.st.inodes i).ref = 0 ∧ 0 < (s2.inodes i).ref then 0 else bumped i }

/-- A sequence of calls with counting; a call that does not return ends the run. -/
def countRun (c : Config) : List InodeOp → Counted → Counted
  | [], w => w
  | op :: ops, w =>
    match inodeStep c w.st op with
    | .ok _ => countRun c ops (countStep c w op)
    | .error _ => countStep c w op

/-- An empty inode cache with three slots, on the example machine. -/
def ic0 : State := boot cfg0 disk1 (-1) (-1) sb0

/-- The state after `bmap(ip, 0)` on `fs0`, the inode in slot 0. -/
def fs0Map (fail : Int) : State :=
  match bmap cfg0 (fs0 fail) 0 0 with
  | .ok (s, _) => s
  | .error (_, s) => s

/-- Between `s` and `s2` nothing of the inode cache has changed but the block addresses
`addrs` of slot `ip`, and the superblock is the same: what `bmap` may do to an inode. -/
def AddrsOnly (s s2 : State) (ip : Nat) : Prop :=
  s2.sb = s.sb ∧ (∀ j, j ≠ ip → s2.inodes j = s.inodes j) ∧
    ∃ ad, s2.inodes ip = { s.inodes ip with d := { (s.inodes ip).d with addrs := ad } }

/-- The state `s2` is `s` after the blocks in `F` were given back to the free map: the
environment is the same, every block outside the free map has its view, the bits of the
blocks in `F` are clear and every other bit is as in `s`. -/
def Freed (c : Config) (s s2 : State) (dev : Nat) (F : Nat → Prop) : Prop :=
  SameEnv s s2 ∧
  (∀ m, (∀ y, y < s.sb.size → m ≠ BBLOCK c y s.sb) →
    blockView c s2 dev m = blockView c s dev m) ∧
  ∀ x, x < s.sb.size →
    (F x → bmBit c s2 dev x = false) ∧ (¬ F x → bmBit c s2 dev x = bmBit c s dev x)

/-- A second disk for worked examples: as `disk1`, but block 7, the record of inode 4, and its
mirror, block 107, hold a file of type 2 with no link, of size 12, with the data blocks 8
and 9. -/
def disk2 : Nat → Nat → Nat := fun n i =>
  if n = 7 ∨ n = 107 then
    (if i = 0 then 2 else if i = 2 then 12 else if i = 3 then 3 else if i = 5 then 8
      else if i = 6 then 9 else 0)
  else disk1 n i

/-- The record of inode 4 on `disk2`, in memory: device 1, one reference, loaded; `locked`
tells whether the sleep-lock of the inode is held. -/
def ino2 (locked : Bool) : Inode :=
  { dev := 1, inum := 4, ref := 1, locked := locked, valid := 1,
    d := { type := 2, major := 0, nlink := 0, size := 12, mode := 3,
           addrs := fun j => if j = 0 then 8 else if j = 1 then 9 else 0 } }

/-- The example machine after boot on `disk2`, with `ino2` in slot 0 of the inode cache;
`fail` is the value of `force_disk_fail_id`. -/
def fs2 (fail : Int) (locked : Bool) : State :=
  (boot cfg0 disk2 (-1) fail sb0).setInode 0 (ino2 locked)

/-- The state after `itrunc(ip)` on `fs2`, the inode locked. -/
def fs2Trunc (fail : Int) : State := endState (itrunc cfg0 (fs2 fail true) 0)

/-- The state after `iput(ip)` on `fs2`, the inode not locked. -/
def fs2Put (fail : Int) : State := endState (iput cfg0 (fs2 fail false) 0)

/-- The example machine after boot on `disk2`, the inode cache empty. -/
def ic2 : State := boot cfg0 disk2 (-1) (-1) sb0

/-- The type field of the record of inode `i` of device `dev` as the cache presents its
block; 0 marks a free inode. -/
def inodeType (c : Config) (s : State) (dev i : Nat) : Nat :=
  (c.dinodeGet (i % c.IPB) (blockView c s dev (IBLOCK c i s.sb))).type

/-- A third disk for worked examples: as `disk2`, but block 6, the record of inode 3, and its
mirror, block 106, are zero: inode 3 is free. -/
def disk3 : Nat → Nat → Nat := fun n i => if n = 6 ∨ n = 106 then 0 else disk2 n i

/-- The example machine after boot on `disk3`, the inode cache empty; `fail` is the value of
`force_disk_fail_id`. -/
def fs3 (fail : Int) : State := boot cfg0 disk3 (-1) fail sb0

/-- The state after `ialloc(1, 2)` on `fs3`. -/
def fs3Alloc (fail : Int) : State := endState (ialloc cfg0 (fs3 fail) 1 2)

/-- A fourth disk for worked examples: as `disk1`, but block 4, the record of inode 1, and
its mirror, block 104, are zero: inode 1 is free. -/
def disk4 : Nat → Nat → Nat := fun n i => if n = 4 ∨ n = 104 then 0 else disk1 n i

/-- The example machine after boot on `disk4`, the inode cache empty; `fail` is the value of
`force_disk_fail_id`. -/
def fs4 (fail : Int) : State := boot cfg0 disk4 (-1) fail sb0

/-- The state after `ialloc(1, 2)` on `fs4`. -/
def fs4Alloc (fail : Int) : State := endState (ialloc cfg0 (fs4 fail) 1 2)

/-- The state after a second `ialloc(1, 2)`, on `fs4Alloc`. -/
def fs4Alloc2 (fail : Int) : State := endState (ialloc cfg0 (fs4Alloc fail) 1 2)

/-! ## fs.c: directories -/

/-- Modelled from the spec: `strncmp(p, q, n)` of the missing `string.c`, on the characters
from index `i` on: `while (n > 0 && *p && *p == *q) n--, p++, q++;` then 0 if `n == 0` and
`(uchar)*p - (uchar)*q` otherwise. -/
def strncmp (p q : Nat → Nat) : Nat → Nat → Int
  | 0, _ => 0
  | n + 1, i =>
    if p i % 256 ≠ 0 ∧ p i % 256 = q i % 256 then strncmp p q n (i + 1)
    else ((p i % 256 : Nat) : Int) - ((q i % 256 : Nat) : Int)

/-- The routine `namecmp(s, t)`. -/
def namecmp (c : Config) (s t : Nat → Nat) : Int := strncmp s t c.DIRSIZ 0

/-- The loop of `dirlookup`, `for (off = 0; off < dp->size; off += sizeof(de))`, from `off`
on.  The local `de` is at address `de` of the kernel memory `mem`; the entry read is its
`sizeof(de)` bytes.  The result is the handle returned, `none` for 0, and the value stored in
`*poff`, if any; `poff` tells whether the pointer is not null. -/
def dirlookup_loop (c : Config) (dp : Nat) (name : Nat → Nat) (poff : Bool) (de : Nat) :
    Nat → State → Mem → Nat → Res (Option Nat × Option Nat)
  | 0, s, _, _ => .error (Err.no_progress, s)
  | fuel + 1, s, mem, off =>
    if off < (s.inodes dp).d.size then
      match readi c s mem dp 0 de off c.DIRENT with
      | .error e => .error e
      | .ok (s, (mem, r)) =>
        if r ≠ (c.DIRENT : Int) then .error (Err.dirlookup_read, s)
        else
          let entry : Nat → Nat := fun i => if i < c.DIRENT then mem.byte (de + i) else 0
          if c.direntInum entry = 0 then
            dirlookup_loop c dp name poff de fuel s mem ((off + c.DIRENT) % U32)
          else if namecmp c name (c.direntName entry) = 0 then
            match iget c s (s.inodes dp).dev (c.direntInum entry) with
            | .error e => .error e
            | .ok (s, ip) => .ok (s, (some ip, if poff then some off else none))
          else dirlookup_loop c dp name poff de fuel s mem ((off + c.DIRENT) % U32)
    else .ok (s, (none, none))

/-- The routine `dirlookup(dp, name, poff)`. -/
def dirlookup (c : Config) (s : State) (mem : Mem) (dp : Nat) (name : Nat → Nat) (poff : Bool)
    (de : Nat) : Res (Option Nat × Option Nat) :=
  if (s.inodes dp).d.type ≠ c.T_DIR then .error (Err.dirlookup_not_dir, s)
  else dirlookup_loop c dp name poff de ((s.inodes dp).d.size + 1) s mem 0

/-- Byte `a` of the file of inode slot `ip` in the view of the cache. -/
def fileByte (c : Config) (s : State) (ip a : Nat) : Nat :=
  blockView c s (s.inodes ip).dev (fileBlock c s ip (a / c.BSIZE)) (a % c.BSIZE)

/-- The directory entry at offset `off` of the directory in slot `dp`, by its bytes, in the
view of the cache. -/
def dirEntry (c : Config) (s : State) (dp off : Nat) : Nat → Nat :=
  fun i => if i < c.DIRENT then fileByte c s dp (off + i) else 0

/-- The entry at offset `off` of the directory in slot `dp` is not empty and has the name
`name` under the comparison of `namecmp`. -/
def Matches (c : Config) (s : State) (dp : Nat) (name : Nat → Nat) (off : Nat) : Prop :=
  c.direntInum (dirEntry c s dp off) ≠ 0 ∧
    namecmp c name (c.direntName (dirEntry c s dp off)) = 0

instance (c : Config) (s : State) (dp : Nat) (name : Nat → Nat) (off : Nat) :
    Decidable (Matches c s dp name off) := by
  unfold Matches; infer_instance

/-- Every byte of the file of inode slot `ip` below its size lies in a block the inode has,
inside the file system: the file has no hole. -/
def Mapped (c : Config) (s : State) (ip : Nat) : Prop :=
  ∀ a, a < (s.inodes ip).d.size →
    fileBlock c s ip (a / c.BSIZE) ≠ 0 ∧ fileBlock c s ip (a / c.BSIZE) < s.sb.size

/-- A fifth disk for worked examples: as `disk1`, but block 8 and its mirror, block 108, hold
two directory entries: an empty one (`inum` 0) with the name `ab`, and the entry `ab` for
inode 5. -/
def disk5 : Nat → Nat → Nat := fun n i =>
  if n = 8 ∨ n = 108 then
    (if i = 1 then 97 else if i = 2 then 98 else if i = 4 then 5 else if i = 5 then 97
      else if i = 6 then 98 else 0)
  else disk1 n i

/-- A directory in memory: inode 4 of device 1, of size 8, with the data block 8. -/
def ino5 : Inode :=
  { dev := 1, inum := 4, ref := 1, locked := true, valid := 1,
    d := { type := 1, major := 0, nlink := 1, size := 8, mode := 3,
           addrs := fun j => if j = 0 then 8 else 0 } }

/-- The example machine after boot on `disk5`, with the directory `ino5` locked in slot 0 of
the inode cache. -/
def fs5 (fail : Int) : State := (boot cfg0 disk5 (-1) fail sb0).setInode 0 ino5

/-- The name `ab`. -/
def name5 : Nat → Nat := fun i => if i = 0 then 97 else if i = 1 then 98 else 0

/-- The state after `dirlookup(dp, "ab", &off)` on `fs5`. -/
def fs5Look (fail : Int) : State := endState (dirlookup cfg0 (fs5 fail) mem0 0 name5 true 2000)

/-- An empty directory in memory: inode 1 of device 1. -/
def ino6 : Inode :=
  { dev := 1, inum := 1, ref := 1, locked := true, valid := 1,
    d := { type := 1, major := 0, nlink := 1, size := 0, mode := 3, addrs := fun _ => 0 } }

/-- The example machine after boot on `disk1`, with the empty directory `ino6` locked in
slot 0 of the inode cache. -/
def fs6 (fail : Int) : State := (boot cfg0 disk1 (-1) fail sb0).setInode 0 ino6

/-- The state after `writei(dp, 0, 1000, 0, 4)` on `fs6`: the entry for inode 185 with the
name of the three characters 188, 191, 194 written at offset 0 of the directory. -/
def fs6Write (fail : Int) : State := endState (writei cfg0 (fs6 fail) mem0 0 0 1000 0 4)

/-- The name of the three characters 188, 191, 194. -/
def name6 : Nat → Nat := fun i => if i = 0 then 188 else if i = 1 then 191 else 194

/-- The state after `dirlookup(dp, name6, &off)` on `fs6Write`. -/
def fs6Look (fail : Int) : State :=
  endState (dirlookup cfg0 (fs6Write fail) mem0 0 name6 true 2000)

/-! ## fs.c: writing a directory entry -/

/-- Modelled from the spec: `strncpy(s, t, n)` of the missing `string.c`, as the `n`
characters stored: those of `t` up to its end, then zeros. -/
def strncpy (t : Nat → Nat) (n : Nat) : Nat → Nat :=
  fun i => if i < n ∧ ∀ j, j < i + 1 → t j % 256 ≠ 0 then t i % 256 else 0

/-- Store the bytes `e` of a `struct dirent` at address `de` of the kernel memory. -/
def Mem.setEntry (mem : Mem) (c : Config) (de : Nat) (e : Nat → Nat) : Mem :=
  { mem with byte := fun a => if de ≤ a ∧ a < de + c.DIRENT then e (a - de) else mem.byte a }

/-- The loop of `dirlink`, `for (off = 0; off < dp->size; off += sizeof(de))`, from `off`
on.  The result is the memory, which holds the entry read last in the local `de`, and `off`
when the loop is left.  The `int off` is compared with the `uint dp->size` and passed on as a
`uint`; it is kept as its 32-bit pattern. -/
def dirlink_loop (c : Config) (dp de : Nat) : Nat → State → Mem → Nat → Res (Mem × Nat)
  | 0, s, _, _ => .error (Err.no_progress, s)
  | fuel + 1, s, mem, off =>
    if off < (s.inodes dp).d.size then
      match readi c s mem dp 0 de off c.DIRENT with
      | .error e => .error e
      | .ok (s, (mem, r)) =>
        if r ≠ (c.DIRENT : Int) then .error (Err.dirlink_read, s)
        else
          let entry : Nat → Nat := fun i => if i < c.DIRENT then mem.byte (de + i) else 0
          if c.direntInum entry = 0 then .ok (s, (mem, off))
          else dirlink_loop c dp de fuel s mem ((off + c.DIRENT) % U32)
    else .ok (s, (mem, off))

/-- The routine `dirlink(dp, name, inum)`.  The local `de` is at address `de` of the kernel
memory `mem`. -/
def dirlink (c : Config) (s : State) (mem : Mem) (dp : Nat) (name : Nat → Nat) (inum de : Nat) :
    Res Int :=
  match dirlookup c s mem dp name false de with
  | .error e => .error e
  | .ok (s, (some ip, _)) =>
    match iput c s ip with
    | .error e => .error e
    | .ok (s, _) => .ok (s, -1)
  | .ok (s, (none, _)) =>
    match dirlink_loop c dp de ((s.inodes dp).d.size + 1) s mem 0 with
    | .error e => .error e
    | .ok (s, (mem, off)) =>
      -- strncpy(de.name, name, DIRSIZ); de.inum = inum;
      let entry : Nat → Nat := fun i => if i < c.DIRENT then mem.byte (de + i) else 0
      let mem := mem.setEntry c de (c.direntPut inum (strncpy name c.DIRSIZ) entry)
      match writei c s mem dp 0 de off c.DIRENT with
      | .error e => .error e
      | .ok (s, r) =>
        if r ≠ (c.DIRENT : Int) then .error (Err.dirlink_write, s)
        else .ok (s, 0)

/-! ## fs.c: paths -/

/-- Modelled from the spec: `memmove(dst, src, n)` of the missing `string.c`, on the kernel
memory. -/
def memmove (mem : Mem) (dst src n : Nat) : Mem :=
  { mem with byte := fun a => if dst ≤ a ∧ a < dst + n then mem.byte (src + (a - dst))
                              else mem.byte a }

/-- Store one byte in the kernel memory. -/
def Mem.set (mem : Mem) (a v : Nat) : Mem :=
  { mem with byte := fun x => if x = a then v else mem.byte x }

/-- The loops `while (*path == '/') path++;` of `skipelem`: the first address from `path` on
whose byte is not a slash, `none` when there is none within `lim` bytes. -/
def skipelem_slashes (mem : Mem) : Nat → Nat → Option Nat
  | 0, _ => none
  | lim + 1, path =>
    if mem.byte path = 47 then skipelem_slashes mem lim (path + 1) else some path

/-- The loop `while (*path != '/' && *path != 0) path++;` of `skipelem`: the first address
from `path` on whose byte is a slash or 0, `none` when there is none within `lim` bytes. -/
def skipelem_element (mem : Mem) : Nat → Nat → Option Nat
  | 0, _ => none
  | lim + 1, path =>
    if mem.byte path ≠ 47 ∧ mem.byte path ≠ 0 then skipelem_element mem lim (path + 1)
    else some path

/-- The routine `skipelem(path, name)` on strings that end within `lim` bytes: the memory
afterwards and the pointer returned (`none` for 0); the result is `none` when a string does
not end within `lim` bytes. -/
def skipelem (c : Config) (mem : Mem) (lim path name : Nat) : Option (Mem × Option Nat) :=
  match skipelem_slashes mem lim path with
  | none => none
  | some path =>
    if mem.byte path = 0 then some (mem, none)
    else
      let s := path
      match skipelem_element mem lim path with
      | none => none
      | some path =>
        let len := path - s
        let mem :=
          if len ≥ c.DIRSIZ then memmove mem name s c.DIRSIZ
          else (memmove mem name s len).set (name + len) 0
        match skipelem_slashes mem lim path with
        | none => none
        | some path => some (mem, some path)

/-- Modelled from the spec: the loop of `safestrcpy(s, t, n)` of the missing `string.c`, with
`n` characters of room left and `i` characters copied: characters are copied up to the end
of `t` while more than one character of room is left, and a 0 is stored after them. -/
def safestrcpy_loop (s t : Nat) : Nat → Mem → Nat → Mem
  | 0, mem, _ => mem
  | n + 1, mem, i =>
    if n = 0 ∨ mem.byte (t + i) = 0 then mem.set (s + i) 0
    else safestrcpy_loop s t n (mem.set (s + i) (mem.byte (t + i))) (i + 1)

/-- Modelled from the spec: `safestrcpy(s, t, n)` of the missing `string.c`: like `strncpy`,
but the result is always terminated by 0. -/
def safestrcpy (mem : Mem) (s t n : Nat) : Mem := safestrcpy_loop s t n mem 0

/-- The first loop of `safestrcat`, `while (i < max && dest[i] != '\0') i++;`, from `i` on
for `n` rounds at most. -/
def safestrcat_end (mem : Mem) (dest max : Nat) : Nat → Nat → Nat
  | 0, i => i
  | n + 1, i =>
    if i < max ∧ mem.byte (dest + i) ≠ 0 then safestrcat_end mem dest max n (i + 1) else i

/-- The second loop of `safestrcat`, `while (i < max - 1 && src[j] != '\0')
dest[i++] = src[j++];`, for `n` rounds at most, and the final `dest[i] = '\0'`.  The source
is given by the way its character `j` is read from the memory. -/
def safestrcat_copy (dest : Nat) (src : Mem → Nat → Nat) (max : Nat) : Nat → Mem → Nat → Nat → Mem
  | 0, mem, i, _ => mem.set (dest + i) 0
  | n + 1, mem, i, j =>
    if i + 1 < max ∧ src mem j ≠ 0 then
      safestrcat_copy dest src max n (mem.set (dest + i) (src mem j)) (i + 1) (j + 1)
    else mem.set (dest + i) 0

/-- The routine `safestrcat(dest, src, max)`. -/
def safestrcat (mem : Mem) (dest : Nat) (src : Mem → Nat → Nat) (max : Nat) : Mem :=
  safestrcat_copy dest src max max mem (safestrcat_end mem dest max max 0) 0

/-- The routine `concat_path(target, rest)`; `buf` is the address of its `static char
buf[128]`, which it returns. -/
def concat_path (mem : Mem) (buf target rest : Nat) : Mem :=
  let mem := safestrcpy mem buf target 128
  if mem.byte rest ≠ 0 then
    let mem := safestrcat mem buf (fun _ j => if j = 0 then 47 else 0) 128
    safestrcat mem buf (fun m j => m.byte (rest + j)) 128
  else mem

/-- The constant `MAX_SYMLINK_DEPTH`. -/
def MAX_SYMLINK_DEPTH : Nat := 10

/-- Where the objects lie that the path routines work on: the current directory of the
process, the local arrays of the routines and the static buffer of `concat_path`. -/
structure Places where
  /-- The inode slot `myproc()->cwd`. -/
  cwd : Nat
  /-- Address of the array `name[DIRSIZ]` of the caller of `namex`. -/
  name : Nat
  /-- Address of the local `struct dirent de` of `dirlookup`, `dirlink` and
  `chmod_recursive`. -/
  de : Nat
  /-- Address of the local `target[DIRSIZ + 1]` of `namex`. -/
  target : Nat
  /-- Address of the local `target[MAXPATH]` of `follow_symlink`. -/
  link : Nat
  /-- Address of the `static char buf[128]` of `concat_path`. -/
  buf : Nat

/-- The routine `iunlockput(ip)`. -/
def iunlockput (c : Config) (s : State) (ip : Nat) : Res Unit :=
  match iunlock s ip with
  | .error e => .error e
  | .ok (s, _) => iput c s ip

/-- Fill `n` bytes of the kernel memory from address `a` on with zeros: the initialiser
`= {0}` of a local array. -/
def Mem.clear (mem : Mem) (a n : Nat) : Mem :=
  { mem with byte := fun x => if a ≤ x ∧ x < a + n then 0 else mem.byte x }

/-- The start of `namex`: `if (*path == '/') ip = iget(ROOTDEV, ROOTINO); else
ip = idup(myproc()->cwd);`. -/
def namex_start (c : Config) (pl : Places) (s : State) (mem : Mem) (path : Nat) : Res Nat :=
  if mem.byte path = 47 then iget c s c.ROOTDEV c.ROOTINO
  else .ok (idup s pl.cwd, pl.cwd)

/-- One round of the loop of `namex`, `while ((path = skipelem(path, name)) != 0)`, from the
state `ip`, `path`, `symlink_depth`, with the code after the loop where it is left.  The
result is what `namex` returns, the memory afterwards and the handle (`none` for 0), or the
memory, `ip`, `path` and `symlink_depth` the next round starts with.  The call
`return namex(path, ...)` of the loop is the start of `namex` followed by its loop, from
`symlink_depth = 0`; `lim` bounds the length of the strings. -/
def namex_round (c : Config) (pl : Places) (nameiparent follow : Bool) (name lim : Nat)
    (s : State) (mem : Mem) (ip path symlink_depth : Nat) :
    Res ((Mem × Option Nat) ⊕ (Mem × Nat × Nat × Nat)) :=
  match skipelem c mem lim path name with
  | none => .error (Err.no_progress, s)
  | some (mem, none) =>
    if nameiparent then
      match iput c s ip with
      | .error e => .error e
      | .ok (s, _) => .ok (s, .inl (mem, none))
    else .ok (s, .inl (mem, some ip))
  | some (mem, some path) =>
    match ilock c s ip with
    | .error e => .error e
    | .ok (s, _) =>
      if (s.inodes ip).d.type ≠ c.T_DIR then
        match iunlockput c s ip with
        | .error e => .error e
        | .ok (s, _) => .ok (s, .inl (mem, none))
      else if (s.inodes ip).d.mode &&& c.M_READ = 0 then
        match iunlockput c s ip with
        | .error e => .error e
        | .ok (s, _) => .ok (s, .inl (mem, none))
      else if nameiparent = true ∧ mem.byte path = 0 then
        match iunlock s ip with
        | .error e => .error e
        | .ok (s, _) => .ok (s, .inl (mem, some ip))
      else
        match dirlookup c s mem ip (fun i => mem.byte (name + i)) false pl.de with
        | .error e => .error e
        | .ok (s, (none, _)) =>
          match iunlockput c s ip with
          | .error e => .error e
          | .ok (s, _) => .ok (s, .inl (mem, none))
        | .ok (s, (some next, _)) =>
          match iunlockput c s ip with
          | .error e => .error e
          | .ok (s, _) =>
            -- ip = next; int is_last = (*path == '\0');
            if follow then
              match ilock c s next with
              | .error e => .error e
              | .ok (s, _) =>
                if (s.inodes next).d.type = c.T_SYMLINK ∧ mem.byte path ≠ 0 then
                  if symlink_depth + 1 > MAX_SYMLINK_DEPTH then
                    match iunlockput c s next with
                    | .error e => .error e
                    | .ok (s, _) => .ok (s, .inl (mem, none))
                  else
                    -- char target[DIRSIZ + 1] = {0};
                    let mem := mem.clear pl.target (c.DIRSIZ + 1)
                    match readi c s mem next 0 pl.target 0 c.DIRSIZ with
                    | .error e => .error e
                    | .ok (s, (mem, _)) =>
                      match iunlockput c s next with
                      | .error e => .error e
                      | .ok (s, _) =>
                        let mem := concat_path mem pl.buf pl.target path
                        -- return namex(path, nameiparent, name, follow);
                        match namex_start c pl s mem pl.buf with
                        | .error e => .error e
                        | .ok (s, ip) => .ok (s, .inr (mem, ip, pl.buf, 0))
                else
                  match iunlock s next with
                  | .error e => .error e
                  | .ok (s, _) => .ok (s, .inr (mem, next, path, symlink_depth))
            else .ok (s, .inr (mem, next, path, symlink_depth))

/-- The loop of `namex` with the code after it: rounds from the state `ip`, `path`,
`symlink_depth` on until one of them returns; `fuel` bounds the number of rounds, those of
the nested calls `return namex(path, ...)` included. -/
def namex_loop (c : Config) (pl : Places) (nameiparent follow : Bool) (name lim : Nat) :
    Nat → State → Mem → Nat → Nat → Nat → Res (Mem × Option Nat)
  | 0, s, _, _, _, _ => .error (Err.no_progress, s)
  | fuel + 1, s, mem, ip, path, symlink_depth =>
    match namex_round c pl nameiparent follow name lim s mem ip path symlink_depth with
    | .error e => .error e
    | .ok (s, .inl r) => .ok (s, r)
    | .ok (s, .inr (mem, ip, path, symlink_depth)) =>
      namex_loop c pl nameiparent follow name lim fuel s mem ip path symlink_depth

/-- The state of the loop of `namex` after `n` further rounds, `none` when it has returned
or stopped before. -/
def namex_after (c : Config) (pl : Places) (nameiparent follow : Bool) (name lim : Nat) :
    Nat → State → Mem → Nat → Nat → Nat → Option (State × Mem × Nat × Nat × Nat)
  | 0, s, mem, ip, path, symlink_depth => some (s, mem, ip, path, symlink_depth)
  | n + 1, s, mem, ip, path, symlink_depth =>
    match namex_round c pl nameiparent follow name lim s mem ip path symlink_depth with
    | .ok (s, .inr (mem, ip, path, symlink_depth)) =>
      namex_after c pl nameiparent follow name lim n s mem ip path symlink_depth
    | _ => none

/-- The routine `namex(path, nameiparent, name, follow)`. -/
def namex (c : Config) (pl : Places) (lim fuel : Nat) (s : State) (mem : Mem) (path : Nat)
    (nameiparent : Bool) (name : Nat) (follow : Bool) : Res (Mem × Option Nat) :=
  match namex_start c pl s mem path with
  | .error e => .error e
  | .ok (s, ip) => namex_loop c pl nameiparent follow name lim fuel s mem ip path 0

/-- The routine `namei(path)`. -/
def namei (c : Config) (pl : Places) (lim fuel : Nat) (s : State) (mem : Mem) (path : Nat) :
    Res (Mem × Option Nat) :=
  namex c pl lim fuel s mem path false pl.name false

/-- The routine `namei_follow(path)`. -/
def namei_follow (c : Config) (pl : Places) (lim fuel : Nat) (s : State) (mem : Mem)
    (path : Nat) : Res (Mem × Option Nat) :=
  namex c pl lim fuel s mem path false pl.name true

/-- The routine `nameiparent(path, name)`. -/
def nameiparent (c : Config) (pl : Places) (lim fuel : Nat) (s : State) (mem : Mem)
    (path name : Nat) : Res (Mem × Option Nat) :=
  namex c pl lim fuel s mem path true name false

/-- The routine `follow_symlink(ip, depth, read)`; `k` bounds the number of nested calls.
The result is the memory afterwards and the handle returned, `none` for 0. -/
def follow_symlink (c : Config) (pl : Places) (lim fuel : Nat) (read : Bool) :
    Nat → State → Mem → Nat → Nat → Res (Mem × Option Nat)
  | 0, s, _, _, _ => .error (Err.no_progress, s)
  | k + 1, s, mem, ip, depth =>
    if depth > 10 then
      match iunlockput c s ip with
      | .error e => .error e
      | .ok (s, _) => .ok (s, (mem, none))
    else if (s.inodes ip).d.type ≠ c.T_SYMLINK then .ok (s, (mem, some ip))
    else
      -- char target[MAXPATH] = {0};
      let mem := mem.clear pl.link c.MAXPATH
      match readi c s mem ip 0 pl.link 0 c.MAXPATH with
      | .error e => .error e
      | .ok (s, (mem, len)) =>
        match iunlockput c s ip with
        | .error e => .error e
        | .ok (s, _) =>
          if len ≤ 0 then .ok (s, (mem, none))
          else
            match namei c pl lim fuel s mem pl.link with
            | .error e => .error e
            | .ok (s, (mem, none)) => .ok (s, (mem, none))
            | .ok (s, (mem, some next)) =>
              match ilock c s next with
              | .error e => .error e
              | .ok (s, _) =>
                if (s.inodes next).d.type = c.T_SYMLINK then
                  follow_symlink c pl lim fuel read k s mem next (depth + 1)
                else if read then
                  match iunlockput c s next with
                  | .error e => .error e
                  | .ok (s, _) => .ok (s, (mem, some ip))
                else .ok (s, (mem, some next))

/-! ## sysfile.c: files and directories -/

/-- Modelled from the spec: `begin_op()` of the missing `log.c`.  The durability scope is a
collaborator outside the storage core; entering it changes nothing in the state of the
core. -/
def begin_op (s : State) : State := s

/-- Modelled from the spec: `end_op()` of the missing `log.c`.  The durability scope is a
collaborator outside the storage core; the blocks noted by `log_write` stay in the cache. -/
def end_op (s : State) : State := s

/-- The name `"."`. -/
def dot : Nat → Nat := fun i => if i = 0 then 46 else 0

/-- The name `".."`. -/
def dotdot : Nat → Nat := fun i => if i < 2 then 46 else 0

/-- The tail of `create`, from `ip = ialloc(dp->dev, type)` on: the leaf does not exist, `dp`
is locked, and the leaf name is in the array `name`. -/
def create_new (c : Config) (pl : Places) (s : State) (mem : Mem) (dp type major : Nat) :
    Res (Option Nat) :=
  match ialloc c s (s.inodes dp).dev type with
  | .error e => .error e
  | .ok (s, ip) =>
    match ilock c s ip with
    | .error e => .error e
    | .ok (s, _) =>
      let x := s.inodes ip
      let s := s.setInode ip { x with d := { x.d with major := major, nlink := 1, mode := c.M_ALL } }
      match iupdate c s ip with
      | .error e => .error e
      | .ok (s, _) =>
        let r : Res Unit :=
          if type = c.T_DIR then
            -- dp->nlink++;
            let y := s.inodes dp
            let s := s.setInode dp { y with d := { y.d with nlink := y.d.nlink + 1 } }
            match iupdate c s dp with
            | .error e => .error e
            | .ok (s, _) =>
              match dirlink c s mem ip dot (s.inodes ip).inum pl.de with
              | .error e => .error e
              | .ok (s, r1) =>
                if r1 < 0 then .error (Err.create_dots, s)
                else
                  match dirlink c s mem ip dotdot (s.inodes dp).inum pl.de with
                  | .error e => .error e
                  | .ok (s, r2) =>
                    if r2 < 0 then .error (Err.create_dots, s) else .ok (s, ())
          else .ok (s, ())
        match r with
        | .error e => .error e
        | .ok (s, _) =>
          match dirlink c s mem dp (fun i => mem.byte (pl.name + i)) (s.inodes ip).inum pl.de with
          | .error e => .error e
          | .ok (s, r3) =>
            if r3 < 0 then .error (Err.create_dirlink, s)
            else
              match iunlockput c s dp with
              | .error e => .error e
              | .ok (s, _) => .ok (s, some ip)

/-- The routine `create(path, type, major)`; the result is the handle returned, `none` for
0.  The fields `nlink` and `major` of an inode are kept as numbers, whatever their width. -/
def create (c : Config) (pl : Places) (lim fuel : Nat) (s : State) (mem : Mem)
    (path type major : Nat) : Res (Option Nat) :=
  match nameiparent c pl lim fuel s mem path pl.name with
  | .error e => .error e
  | .ok (s, (_, none)) => .ok (s, none)
  | .ok (s, (mem, some dp)) =>
    match ilock c s dp with
    | .error e => .error e
    | .ok (s, _) =>
      match dirlookup c s mem dp (fun i => mem.byte (pl.name + i)) false pl.de with
      | .error e => .error e
      | .ok (s, (some ip, _)) =>
        match iunlockput c s dp with
        | .error e => .error e
        | .ok (s, _) =>
          match ilock c s ip with
          | .error e => .error e
          | .ok (s, _) =>
            if type = c.T_FILE ∧
                ((s.inodes ip).d.type = c.T_FILE ∨ (s.inodes ip).d.type = c.T_DEVICE) then
              .ok (s, some ip)
            else
              match iunlockput c s ip with
              | .error e => .error e
              | .ok (s, _) => .ok (s, none)
      | .ok (s, (none, _)) => create_new c pl s mem dp type major

/-- The fields of a `struct file` that `sys_open` sets. -/
structure OpenFile where
  /-- The field `type` is `FD_DEVICE` (otherwise it is `FD_INODE`). -/
  device : Bool
  /-- The field `major`. -/
  major : Nat
  /-- The field `ip`, an inode slot. -/
  ip : Nat
  /-- The field `readable`. -/
  readable : Bool
  /-- The field `writable`. -/
  writable : Bool

/-- The part of `sys_open` that finds the inode, between `begin_op()` and the test of the
device number: the locked handle, or `none` where `sys_open` returns -1. -/
def sys_open_find (c : Config) (pl : Places) (lim fuel : Nat) (s : State) (mem : Mem)
    (path omode : Nat) : Res (Option Nat) :=
  if omode &&& c.O_CREATE ≠ 0 then create c pl lim fuel s mem path c.T_FILE 0
  else
    match namei_follow c pl lim fuel s mem path with
    | .error e => .error e
    | .ok (s, (_, none)) => .ok (s, none)
    | .ok (s, (mem, some ip)) =>
      match ilock c s ip with
      | .error e => .error e
      | .ok (s, _) =>
        let r : Res (Option Nat) :=
          if (s.inodes ip).d.type = c.T_SYMLINK ∧ omode &&& c.O_NOACCESS = 0 then
            match follow_symlink c pl lim fuel false 12 s mem ip 0 with
            | .error e => .error e
            | .ok (s, (_, r)) => .ok (s, r)
          else .ok (s, some ip)
        match r with
        | .error e => .error e
        | .ok (s, none) => .ok (s, none)
        | .ok (s, some ip) =>
          let denied : Bool :=
            decide ((s.inodes ip).d.type = c.T_DIR ∧ omode ≠ c.O_RDONLY ∧ omode ≠ c.O_NOACCESS) ||
            (decide (omode &&& c.O_NOACCESS = 0) &&
              (decide ((omode &&& c.O_WRONLY ≠ 0 ∨ omode &&& c.O_RDWR ≠ 0) ∧
                  (s.inodes ip).d.mode &&& c.M_WRITE = 0) ||
                decide ((omode = c.O_RDONLY ∨ omode &&& c.O_RDWR ≠ 0) ∧
                  (s.inodes ip).d.mode &&& c.M_READ = 0)))
          if denied then
            match iunlockput c s ip with
            | .error e => .error e
            | .ok (s, _) => .ok (s, none)
          else .ok (s, some ip)

/-- The routine `sys_open`, after its arguments `path` and `omode` were fetched.  The file
table and the descriptors of the process are outside the storage core: `fd` is the
descriptor that `filealloc` and `fdalloc` hand out, `none` when one of them fails.  The
result is the return value and the `struct file` as it was set.  The field `major` is kept
as a number; a negative `short` is one of the numbers from `NDEV` on. -/
def sys_open (c : Config) (pl : Places) (lim fuel : Nat) (s : State) (mem : Mem)
    (path omode : Nat) (fd : Option Nat) : Res (Int × Option OpenFile) :=
  match sys_open_find c pl lim fuel (begin_op s) mem path omode with
  | .error e => .error e
  | .ok (s, none) => .ok (end_op s, (-1, none))
  | .ok (s, some ip) =>
    if (s.inodes ip).d.type = c.T_DEVICE ∧ (s.inodes ip).d.major ≥ c.NDEV then
      match iunlockput c s ip with
      | .error e => .error e
      | .ok (s, _) => .ok (end_op s, (-1, none))
    else
      match fd with
      | none =>
        match iunlockput c s ip with
        | .error e => .error e
        | .ok (s, _) => .ok (end_op s, (-1, none))
      | some fd =>
        let f : OpenFile :=
          { device := decide ((s.inodes ip).d.type = c.T_DEVICE),
            major := (s.inodes ip).d.major, ip := ip,
            readable := decide (omode &&& c.O_NOACCESS = 0 ∧ omode &&& c.O_WRONLY = 0),
            writable := decide (omode &&& c.O_NOACCESS = 0 ∧
              (omode &&& c.O_WRONLY ≠ 0 ∨ omode &&& c.O_RDWR ≠ 0)) }
        let r : Res Unit :=
          if omode &&& c.O_TRUNC ≠ 0 ∧ (s.inodes ip).d.type = c.T_FILE then itrunc c s ip
          else .ok (s, ())
        match r with
        | .error e => .error e
        | .ok (s, _) =>
          match iunlock s ip with
          | .error e => .error e
          | .ok (s, _) => .ok (end_op s, ((fd : Int), some f))

/-- The routine `strcmp(s1, s2)` of `sysfile.c`, on the characters from index `i` on, for
`n` rounds of its loop at most; `none` when the loop has not ended by then. -/
def strcmp (s1 s2 : Nat → Nat) : Nat → Nat → Option Int
  | 0, _ => none
  | n + 1, i =>
    if s1 i % 256 ≠ 0 ∧ s1 i % 256 = s2 i % 256 then strcmp s1 s2 n (i + 1)
    else some (((s1 i % 256 : Nat) : Int) - ((s2 i % 256 : Nat) : Int))

/-- The new permission bits: `mode_old | mode` when `set` is not 0 and `mode_old & ~mode`
otherwise, where `mode` is a 32-bit `int`. -/
def chmod_bits (old mode set : Nat) : Nat :=
  if set ≠ 0 then old ||| mode else old &&& (U32 - 1 - mode % U32)

/-- The routine `chmod_recursive(dp, mode, set)`, as its loop
`for (off = 0; off < dp->size; off += sizeof(de))` from `off` on; `fuel` bounds the rounds
of the loops of all nested calls together.  The `int off` is kept as its 32-bit pattern. -/
def chmod_recursive (c : Config) (pl : Places) (mode set : Nat) :
    Nat → State → Mem → Nat → Nat → Res Mem
  | 0, s, _, _, _ => .error (Err.no_progress, s)
  | fuel + 1, s, mem, dp, off =>
    if off < (s.inodes dp).d.size then
      match readi c s mem dp 0 pl.de off c.DIRENT with
      | .error e => .error e
      | .ok (s, (mem, r)) =>
        let entry : Nat → Nat := fun i => if i < c.DIRENT then mem.byte (pl.de + i) else 0
        if r ≠ (c.DIRENT : Int) then
          chmod_recursive c pl mode set fuel s mem dp ((off + c.DIRENT) % U32)
        else if c.direntInum entry = 0 then
          chmod_recursive c pl mode set fuel s mem dp ((off + c.DIRENT) % U32)
        else if strcmp (c.direntName entry) dot 3 0 = some 0 ∨
            strcmp (c.direntName entry) dotdot 3 0 = some 0 then
          chmod_recursive c pl mode set fuel s mem dp ((off + c.DIRENT) % U32)
        else
          match iget c s (s.inodes dp).dev (c.direntInum entry) with
          | .error e => .error e
          | .ok (s, ip) =>
            match ilock c s ip with
            | .error e => .error e
            | .ok (s, _) =>
              let x := s.inodes ip
              let s := s.setInode ip { x with d := { x.d with mode := chmod_bits x.d.mode mode set } }
              match iupdate c s ip with
              | .error e => .error e
              | .ok (s, _) =>
                let r : Res Mem :=
                  if (s.inodes ip).d.type = c.T_DIR then
                    chmod_recursive c pl mode set fuel s mem ip 0
                  else .ok (s, mem)
                match r with
                | .error e => .error e
                | .ok (s, mem) =>
                  match iunlockput c s ip with
                  | .error e => .error e
                  | .ok (s, _) =>
                    chmod_recursive c pl mode set fuel s mem dp ((off + c.DIRENT) % U32)
    else .ok (s, mem)

/-- The part of `sys_chmod` that finds the inode, from `namei_follow(path)` to the end of
`if (ip->type == T_SYMLINK) { ... }`: the locked handle, or the value that `sys_chmod`
returns at once.  Where `follow_symlink` returns 0, the call `iunlockput(ip)` has the null
pointer as its argument, on which `iunlock` calls `panic("iunlock")`. -/
def sys_chmod_find (c : Config) (pl : Places) (lim fuel : Nat) (s : State) (mem : Mem)
    (path recursive : Nat) : Res (Mem × (Nat ⊕ Int)) :=
  match namei_follow c pl lim fuel s mem path with
  | .error e => .error e
  | .ok (s, (mem, none)) => .ok (end_op s, (mem, .inr 2))
  | .ok (s, (mem, some ip)) =>
    match ilock c s ip with
    | .error e => .error e
    | .ok (s, _) =>
      if (s.inodes ip).d.type = c.T_SYMLINK then
        match follow_symlink c pl lim fuel false 12 s mem ip 0 with
        | .error e => .error e
        | .ok (s, (_, none)) => .error (Err.iunlock_bad, s)
        | .ok (s, (mem, some ip)) =>
          if (s.inodes ip).d.mode &&& c.M_READ = 0 ∧ (s.inodes ip).d.type = c.T_DIR ∧
              recursive ≠ 0 then
            match iunlockput c s ip with
            | .error e => .error e
            | .ok (s, _) => .ok (end_op s, (mem, .inr 2))
          else .ok (s, (mem, .inl ip))
      else .ok (s, (mem, .inl ip))

/-- The routine `sys_chmod`, after its arguments were fetched; `args` tells whether `argstr`
and `argint` have delivered them all. -/
def sys_chmod (c : Config) (pl : Places) (lim fuel : Nat) (s : State) (mem : Mem)
    (args : Bool) (path mode recursive set : Nat) : Res Int :=
  if args = false then .ok (s, 1)
  else
    match sys_chmod_find c pl lim fuel (begin_op s) mem path recursive with
    | .error e => .error e
    | .ok (s, (_, .inr r)) => .ok (s, r)
    | .ok (s, (mem, .inl ip)) =>
      let x := s.inodes ip
      let s := s.setInode ip { x with d := { x.d with mode := chmod_bits x.d.mode mode set } }
      match iupdate c s ip with
      | .error e => .error e
      | .ok (s, _) =>
        let r : Res Mem :=
          if recursive ≠ 0 ∧ (s.inodes ip).d.type = c.T_DIR then
            chmod_recursive c pl mode set fuel s mem ip 0
          else .ok (s, mem)
        match r with
        | .error e => .error e
        | .ok (s, _) =>
          match iunlockput c s ip with
          | .error e => .error e
          | .ok (s, _) => .ok (end_op s, 0)

/-- The inode in slot `ip` of `s2` is that of `s` up to its block addresses and its size, and
every other slot is unchanged. -/
def SizeOnly (s s2 : State) (ip : Nat) : Prop :=
  (∀ j, j ≠ ip → s2.inodes j = s.inodes j) ∧
    ∃ ad sz, s2.inodes ip = { s.inodes ip with d := { (s.inodes ip).d with addrs := ad, size := sz } }

/-- The layout of `struct dirent` holds the inode number `inum`: an entry whose fields were
set with `direntPut` has the `inum` and the `DIRSIZ` characters of the name it was given. -/
def EntryFits (c : Config) (inum : Nat) : Prop :=
  ∀ nm e : Nat → Nat,
    c.direntInum (fun i => if i < c.DIRENT then c.direntPut inum nm e i else 0) = inum ∧
    ∀ x, x < c.DIRSIZ →
      c.direntName (fun i => if i < c.DIRENT then c.direntPut inum nm e i else 0) x % 256 =
        nm x % 256

/-- The inode in slot `dp` is a directory of `N` whole entries without a hole. -/
def DirOK (c : Config) (s : State) (dp N : Nat) : Prop :=
  (s.inodes dp).d.type = c.T_DIR ∧ (s.inodes dp).d.size = N * c.DIRENT ∧ Mapped c s dp ∧
    ((s.inodes dp).d.addrs c.NDIRECT ≠ 0 → (s.inodes dp).d.addrs c.NDIRECT < s.sb.size)

/-- The state `s2` differs from `s` in the cache of inodes only. -/
def InodesOnly (s s2 : State) : Prop := s2 = { s with inodes := s2.inodes }

/-- The state `s2` differs from `s` in nothing a reader of the blocks of device `dev` can
tell: the environment, the reference counts, the locks and the view of the cache are the
same. -/
def SameDisk (c : Config) (s s2 : State) (dev : Nat) : Prop :=
  SameEnv s s2 ∧
  (∀ i, (s2.bufs i).refcnt = (s.bufs i).refcnt ∧ (s2.bufs i).locked = (s.bufs i).locked) ∧
  ∀ m, blockView c s2 dev m = blockView c s dev m

/-- The state after `dirlink(dp, "ab", 7)` on `fs6`. -/
def fs6Link (fail : Int) : State := endState (dirlink cfg0 (fs6 fail) mem0 0 name5 7 2000)

/-- The state after `dirlookup(dp, "ab", 0)` on `fs6Link`. -/
def fs6Found (fail : Int) : State :=
  endState (dirlookup cfg0 (fs6Link fail) mem0 0 name5 false 2000)

/-- Whether a call returns. -/
def succeeds {α : Type} : Res α → Bool
  | .ok _ => true
  | .error _ => false

/-- The value a call returns, `d` when it does not return. -/
def valueOr {α : Type} (d : α) : Res α → α
  | .ok (_, a) => a
  | .error _ => d

/-- The call `r` followed by the return of the value `b`. -/
def withValue {α β : Type} (r : Res α) (b : β) : Res β :=
  match r with
  | .error e => .error e
  | .ok (s, _) => .ok (s, b)

/-- A configuration for worked examples with paths: as `cfg0`, with eight buffers, blocks of
sixteen bytes and six slots in the cache of inodes. -/
def cfg1 : Config := { cfg0 with NBUF := 8, BSIZE := 16, NINODE := 6 }

/-- A superblock for worked examples with paths: inode `i` lies in block `3 + i`, block 15
is the free map. -/
def sb7 : Superblock := { size := 64, ninodes := 12, inodestart := 3, bmapstart := 15 }

/-- A disk given by the content of its first blocks; the mirror of a block, 100 blocks on,
has the same content. -/
def diskOf (blocks : List (List Nat)) : Nat → Nat → Nat :=
  fun n i => (blocks.getD (n % 100) []).getD i 0

/-- The blocks of a file system for worked examples.  Inode 1 is the root directory with the
entries `.`, `..`, `a` (inode 2, a file), `d` (inode 3, a directory), `p` (inode 7, a
directory without the Read bit, with the entry `x` for inode 2), `k` (inode 8, a symbolic
link to `/d/e`), `c` (inode 9, a symbolic link to `c/c`) and `s` (inode 10, a symbolic link
to `.`); `d` has the entries `.`, `..`, `l` (inode 4, a symbolic link to `/a`) and `e`
(inode 5, a directory with the entry `g` for inode 6, a file); inode 11 is free. -/
def blocks7 : List (List Nat) :=
  [[], [], [], [],
   [1, 3, 32, 3, 0, 16, 17, 0], [2, 2, 0, 3, 0, 0, 0, 0], [1, 2, 16, 3, 0, 18, 0, 0],
   [4, 1, 2, 3, 0, 20, 0, 0], [1, 1, 12, 3, 0, 19, 0, 0], [2, 1, 0, 3, 0, 0, 0, 0],
   [1, 1, 12, 2, 0, 21, 0, 0], [4, 1, 4, 3, 0, 22, 0, 0], [4, 1, 3, 3, 0, 23, 0, 0],
   [4, 1, 1, 3, 0, 24, 0, 0], [],
   [255, 255, 255, 1],
   [1, 46, 0, 0, 1, 46, 46, 0, 2, 97, 0, 0, 3, 100, 0, 0],
   [7, 112, 0, 0, 8, 107, 0, 0, 9, 99, 0, 0, 10, 115, 0, 0],
   [3, 46, 0, 0, 1, 46, 46, 0, 4, 108, 0, 0, 5, 101, 0, 0],
   [5, 46, 0, 0, 3, 46, 46, 0, 6, 103, 0, 0],
   [47, 97],
   [7, 46, 0, 0, 1, 46, 46, 0, 2, 120, 0, 0],
   [47, 100, 47, 101],
   [99, 47, 99],
   [46]]

/-- The example file system `blocks7` as a disk. -/
def disk7 : Nat → Nat → Nat := diskOf blocks7

/-- The current directory of the examples: the root directory, referenced and not loaded. -/
def cwd7 : Inode := { Inode.zero with dev := 1, inum := 1, ref := 1 }

/-- The example machine after boot on `disk7`, the root directory being the current
directory in slot 0 of the cache of inodes; `fail` is the value of `force_disk_fail_id`. -/
def fs7 (fail : Int) : State := (boot cfg1 disk7 (-1) fail sb7).setInode 0 cwd7

/-- The places of the examples. -/
def pl7 : Places :=
  { cwd := 0, name := 2000, de := 2100, target := 2200, link := 2300, buf := 2400 }

/-- A memory that holds the string `l` at address 1000 and zeros elsewhere. -/
def memStr (l : List Nat) : Mem :=
  { byte := fun a => if 1000 ≤ a then l.getD (a - 1000) 0 else 0, ok := fun _ => true }

/-- The path `/p/x`. -/
def path7 : List Nat := [47, 112, 47, 120]

/-- The start of `namex("/p/x", 0, name, 0)` on `fs7`. -/
def walk7A : Res Nat := namex_start cfg1 pl7 (fs7 (-1)) (memStr path7) 1000

/-- The state of the loop of `namex("/p/x", 0, name, 0)` on `fs7` after one round: at the
directory `p`. -/
def walk7 : Option (State × Mem × Nat × Nat × Nat) :=
  namex_after cfg1 pl7 false false 2000 20 1 (endState walk7A) (memStr path7) (valueOr 0 walk7A)
    1000 0

/-- A state of the loop of `namex` to stand for none. -/
def noRound : State × Mem × Nat × Nat × Nat := (fs7 (-1), memStr [], 0, 0, 0)

/-- A result of `skipelem` to stand for none. -/
def noElem : Mem × Option Nat := (memStr [], none)

/-- The call of `skipelem` in the second round of `namex("/p/x", 0, name, 0)` on `fs7`. -/
def walk7K : Option (Mem × Option Nat) :=
  skipelem cfg1 (walk7.getD noRound).2.1 20 (walk7.getD noRound).2.2.2.1 2000

/-- The call of `ilock` in the second round of `namex("/p/x", 0, name, 0)` on `fs7`: it
locks the directory `p`. -/
def walk7L : Res Unit := ilock cfg1 (walk7.getD noRound).1 (walk7.getD noRound).2.2.1

/-- The error a call ends with, `none` when it returns. -/
def errOf {α : Type} : Res α → Option Err
  | .ok _ => none
  | .error (e, _) => some e

/-- What a path resolution returned: `none` when it did not return, `some none` for the
value 0, and the inode number of the slot returned otherwise. -/
def returned (r : Res (Mem × Option Nat)) : Option (Option Nat) :=
  match r with
  | .ok (s, (_, some ip)) => some (some (s.inodes ip).inum)
  | .ok (_, (_, none)) => some none
  | .error _ => none

/-- The string of at most `n` characters at address `a` of a memory. -/
def strAt (mem : Mem) (a : Nat) : Nat → List Nat
  | 0 => []
  | n + 1 => if mem.byte a = 0 then [] else mem.byte a :: strAt mem (a + 1) n

/-- The path of a resolution after its rounds: the string at the address the next round
starts with, together with the value of `symlink_depth`. -/
def pathAfter (w : Option (State × Mem × Nat × Nat × Nat)) : Option (List Nat × Nat) :=
  w.map (fun x => (strAt x.2.1 x.2.2.2.1 200, x.2.2.2.2))

/-- The path `c/x`: the link `c` of the example file system points to `c/c`. -/
def path9 : List Nat := [99, 47, 120]

/-- The loop of `namex("c/x", 0, name, 1)` on the example file system after `n` rounds. -/
def loop9 (n : Nat) : Option (State × Mem × Nat × Nat × Nat) :=
  namex_after cfg1 pl7 false true 2000 200 n (idup (fs7 (-1)) 0) (memStr path9) 0 1000 0

/-- A superblock for a small example: inode `i` lies in block `3 + i`, block 9 is the free
map. -/
def sb8 : Superblock := { size := 40, ninodes := 6, inodestart := 3, bmapstart := 9 }

/-- The blocks of a small file system.  Inode 1 is the root directory with the entries `.`,
`..`, `k` (inode 2, a symbolic link to `/abc`) and `abc` (inode 3, a directory with the
entries `.`, `..` and `g` for inode 4, a file); inode 5 is free. -/
def blocks8 : List (List Nat) :=
  [[], [], [], [],
   [1, 2, 16, 3, 0, 10, 0, 0], [4, 1, 4, 3, 0, 11, 0, 0], [1, 1, 12, 3, 0, 12, 0, 0],
   [2, 1, 0, 3, 0, 0, 0, 0], [],
   [255, 31],
   [1, 46, 0, 0, 1, 46, 46, 0, 2, 107, 0, 0, 3, 97, 98, 99],
   [47, 97, 98, 99],
   [3, 46, 0, 0, 1, 46, 46, 0, 4, 103, 0, 0]]

/-- The example machine after boot on the small file system `blocks8`, the root directory
being the current directory in slot 0 of the cache of inodes. -/
def fs8 : State := (boot cfg1 (diskOf blocks8) (-1) (-1) sb8).setInode 0 cwd7

/-- The path `/k/g`: the link `k` of the small file system points to `/abc`. -/
def path11 : List Nat := [47, 107, 47, 103]

/-- The path `/abc/g`. -/
def path12 : List Nat := [47, 97, 98, 99, 47, 103]

/-! ## Paths and what they name -/

/-- The memory holds the string `l` at address `a`: its characters, none of them 0, and a 0
after them. -/
def Str (mem : Mem) (a : Nat) (l : List Nat) : Prop :=
  (∀ i, i < l.length → mem.byte (a + i) = l.getD i 0) ∧ (∀ x, x ∈ l → x ≠ 0) ∧
    mem.byte (a + l.length) = 0

/-- The number of slashes a string starts with. -/
def nSlash : List Nat → Nat
  | [] => 0
  | x :: t => if x = 47 then nSlash t + 1 else 0

/-- The number of characters other than a slash a string starts with. -/
def nElem : List Nat → Nat
  | [] => 0
  | x :: t => if x ≠ 47 then nElem t + 1 else 0

/-- The first element of a path and the rest of the path after it and after the slashes
that follow it; `none` for a path without an element. -/
def pathStep (l : List Nat) : Option (List Nat × List Nat) :=
  if l.drop (nSlash l) = [] then none
  else some ((l.drop (nSlash l)).take (nElem (l.drop (nSlash l))),
    ((l.drop (nSlash l)).drop (nElem (l.drop (nSlash l)))).drop
      (nSlash ((l.drop (nSlash l)).drop (nElem (l.drop (nSlash l))))))

/-- The number of characters of a path up to the rest that `pathStep` leaves. -/
def pathSkip (l : List Nat) : Nat :=
  nSlash l + nElem (l.drop (nSlash l)) +
    nSlash ((l.drop (nSlash l)).drop (nElem (l.drop (nSlash l))))

/-- The path `l` has the elements `xs`, in this order. -/
def Elems : List Nat → List (List Nat) → Prop
  | l, [] => pathStep l = none
  | l, x :: xs => ∃ rest, pathStep l = some (x, rest) ∧ Elems rest xs

/-- The name of a path element as `skipelem` stores it: its characters, then zeros. -/
def nameOf (x : List Nat) : Nat → Nat := fun i => x.getD i 0

/-- The buffer `name` holds the element `x` as `skipelem` stores it: its first `DIRSIZ`
characters, followed by a 0 when there are fewer. -/
def NameIs (c : Config) (mem : Mem) (name : Nat) (x : List Nat) : Prop :=
  ∀ i, i < c.DIRSIZ → i ≤ x.length → mem.byte (name + i) = x.getD i 0

/-- The on-disk record of inode `inum` of the root device in the view of the cache. -/
def dnode (c : Config) (s : State) (inum : Nat) : Dinode :=
  c.dinodeGet (inum % c.IPB) (blockView c s c.ROOTDEV (IBLOCK c inum s.sb))

/-- The block number the record `d` has for block `bn` of its file, 0 when it has none. -/
def dBlock (c : Config) (s : State) (d : Dinode) (bn : Nat) : Nat :=
  if bn < c.NDIRECT then d.addrs bn
  else if d.addrs c.NDIRECT = 0 then 0
  else get32 (blockView c s c.ROOTDEV (d.addrs c.NDIRECT)) (bn - c.NDIRECT)

/-- Byte `a` of the file of the record `d` in the view of the cache. -/
def dByte (c : Config) (s : State) (d : Dinode) (a : Nat) : Nat :=
  blockView c s c.ROOTDEV (dBlock c s d (a / c.BSIZE)) (a % c.BSIZE)

/-- The directory entry at offset `off` of the directory of the record `d`. -/
def dEntry (c : Config) (s : State) (d : Dinode) (off : Nat) : Nat → Nat :=
  fun i => if i < c.DIRENT then dByte c s d (off + i) else 0

/-- The entry at offset `off` of the directory of the record `d` is not empty and has the
name `name` under the comparison of `namecmp`. -/
def dMatches (c : Config) (s : State) (d : Dinode) (name : Nat → Nat) (off : Nat) : Prop :=
  c.direntInum (dEntry c s d off) ≠ 0 ∧ namecmp c name (c.direntName (dEntry c s d off)) = 0

instance (c : Config) (s : State) (d : Dinode) (name : Nat → Nat) (off : Nat) :
    Decidable (dMatches c s d name off) := by
  unfold dMatches; infer_instance

/-- The inode number of the first entry with the name `name` among the entries `i`, ...,
`i + n - 1` of the directory of the record `d`, `none` when there is none. -/
def dLookup (c : Config) (s : State) (d : Dinode) (name : Nat → Nat) : Nat → Nat → Option Nat
  | 0, _ => none
  | n + 1, i =>
    if dMatches c s d name (i * c.DIRENT) then some (c.direntInum (dEntry c s d (i * c.DIRENT)))
    else dLookup c s d name n (i + 1)

/-- The inode that the elements `xs` lead to from inode `inum`, through directories that
have the Read bit; `none` when an element is missing, or is looked up in an inode that is
not a directory or has no Read bit. -/
def walkD (c : Config) (s : State) : Nat → List (List Nat) → Option Nat
  | inum, [] => some inum
  | inum, x :: xs =>
    if (dnode c s inum).type ≠ c.T_DIR then none
    else if (dnode c s inum).mode &&& c.M_READ = 0 then none
    else
      match dLookup c s (dnode c s inum) (nameOf x) ((dnode c s inum).size / c.DIRENT) 0 with
      | none => none
      | some e => walkD c s e xs

/-- The record of inode `inum` is well formed: its block lies in the file system, it has a
link, its file has no hole and lies in the file system, and when it is a directory it
consists of whole entries, each of them empty or for an allocated inode. -/
def NodeOK (c : Config) (s : State) (inum : Nat) : Prop :=
  IBLOCK c inum s.sb < s.sb.size ∧ (dnode c s inum).nlink ≠ 0 ∧
  (dnode c s inum).size ≤ MAXFILE c * c.BSIZE ∧ (dnode c s inum).size < 2147483648 ∧
  (∀ a, a < (dnode c s inum).size →
    dBlock c s (dnode c s inum) (a / c.BSIZE) ≠ 0 ∧
      dBlock c s (dnode c s inum) (a / c.BSIZE) < s.sb.size) ∧
  ((dnode c s inum).addrs c.NDIRECT ≠ 0 → (dnode c s inum).addrs c.NDIRECT < s.sb.size) ∧
  ((dnode c s inum).type = c.T_DIR →
    (dnode c s inum).size % c.DIRENT = 0 ∧
    ∀ i, i < (dnode c s inum).size / c.DIRENT →
      c.direntInum (dEntry c s (dnode c s inum) (i * c.DIRENT)) ≠ 0 →
      c.direntInum (dEntry c s (dnode c s inum) (i * c.DIRENT)) < s.sb.ninodes ∧
      (dnode c s (c.direntInum (dEntry c s (dnode c s inum) (i * c.DIRENT)))).type ≠ 0)

instance (c : Config) (s : State) (inum : Nat) : Decidable (NodeOK c s inum) := by
  unfold NodeOK; infer_instance

/-- The file system is well formed: every allocated inode is. -/
def FsOK (c : Config) (s : State) : Prop :=
  ∀ inum, inum < s.sb.ninodes → (dnode c s inum).type ≠ 0 → NodeOK c s inum

instance (c : Config) (s : State) : Decidable (FsOK c s) := by
  unfold FsOK; infer_instance

/-- The cache of inodes of `s` is at rest and agrees with the disk as `v` presents it: no
slot is locked, no `ref` is negative, and a referenced slot holds an allocated inode of the
root device, with the record of the disk when it is loaded. -/
def CacheOK (c : Config) (v s : State) : Prop :=
  ∀ j, j < c.NINODE →
    (s.inodes j).locked = false ∧ 0 ≤ (s.inodes j).ref ∧
    (0 < (s.inodes j).ref →
      (s.inodes j).dev = c.ROOTDEV ∧ (s.inodes j).inum < v.sb.ninodes ∧
      (dnode c v (s.inodes j).inum).type ≠ 0 ∧
      ((s.inodes j).valid ≠ 0 → (s.inodes j).d = dnode c v (s.inodes j).inum))

/-- Two slots of the cache of inodes are unused. -/
def TwoFree (c : Config) (s : State) : Prop :=
  ∃ j1 j2, j1 ≠ j2 ∧ j1 < c.NINODE ∧ j2 < c.NINODE ∧ (s.inodes j1).ref = 0 ∧
    (s.inodes j2).ref = 0

/-- The state `s` of a path resolution that started in `s0` and is at inode `inum`, held in
slot `ip`: the cache of blocks is in order and presents the disk as in `s0`, the slot `ip`
has one reference more than in `s0` and every other slot as many, the slots referenced in
`s0` hold the inodes they held, and the cache of inodes is at rest. -/
def WalkInv (c : Config) (k : Nat) (s0 s : State) (ip inum : Nat) : Prop :=
  Coherent c s c.ROOTDEV (k + 1) ∧ SameDisk c s0 s c.ROOTDEV ∧ ip < c.NINODE ∧
  (s.inodes ip).inum = inum ∧
  (∀ j, j < c.NINODE → (s.inodes j).ref = (s0.inodes j).ref + (if j = ip then 1 else 0)) ∧
  (∀ j, j < c.NINODE → 0 < (s0.inodes j).ref → (s.inodes j).inum = (s0.inodes j).inum) ∧
  CacheOK c s0 s

/-- The machine is ready for a path resolution: the cache of blocks is in order, no fault is
injected, no buffer is held, one buffer is unused, the file system is well formed, the cache
of inodes is at rest and has two unused slots. -/
def Ready (c : Config) (k : Nat) (s : State) : Prop :=
  Coherent c s c.ROOTDEV (k + 1) ∧ NoFault s ∧ Unlocked c s ∧ Spare c s 1 ∧ FsOK c s ∧
    CacheOK c s s ∧ TwoFree c s

/-- The constants of the configuration make sense: blocks and directory entries are not
empty, a directory is not a symbolic link, names have room for a character, and the root
inode is an inode of the file system. -/
def Sane (c : Config) : Prop :=
  0 < c.BSIZE ∧ 0 < c.DIRENT ∧ 0 < c.DIRSIZ ∧ c.T_DIR ≠ c.T_SYMLINK ∧ 0 < c.IPB

/-! ## mp3, threads_sched.c: the scheduler `schedule_hrrn` -/

/-- A value of type `int` after an operation of the machine: the result modulo 2^32, as a
signed number. -/
def int32 (x : Int) : Int := (x + 2147483648) % 4294967296 - 2147483648

/-- Modelled from the spec: the fields of `struct thread` of the missing `threads.h` that
`schedule_hrrn` reads, all of type `int`. -/
structure Thread where
  /-- The field `ID`. -/
  ID : Int
  /-- The field `is_real_time`. -/
  is_real_time : Int
  /-- The field `arrival_time`. -/
  arrival_time : Int
  /-- The field `processing_time`. -/
  processing_time : Int
  /-- The field `remaining_time`. -/
  remaining_time : Int
  deriving DecidableEq, Repr

/-- The result `struct threads_sched_result`: the list member scheduled, as the position of
its thread in the run queue, `none` for the head `args.run_queue` of the queue, and the
allocated time. -/
structure SchedResult where
  /-- The field `scheduled_thread_list_member`. -/
  member : Option Nat
  /-- The field `allocated_time`. -/
  allocated_time : Int
  deriving DecidableEq, Repr

/-- The test of `schedule_hrrn` that replaces the thread selected so far, `s`, by `th`:
`(w1 + b1) * b2 > (w2 + b2) * b1 || ((w1 + b1) * b2 == (w2 + b2) * b1 && th->ID < selected->ID)`. -/
def hrrn_replaces (current_time : Int) (th s : Thread) : Prop :=
  int32 (int32 (int32 (current_time - th.arrival_time) + th.processing_time) *
      s.processing_time) >
    int32 (int32 (int32 (current_time - s.arrival_time) + s.processing_time) *
      th.processing_time) ∨
  (int32 (int32 (int32 (current_time - th.arrival_time) + th.processing_time) *
      s.processing_time) =
    int32 (int32 (int32 (current_time - s.arrival_time) + s.processing_time) *
      th.processing_time) ∧ th.ID < s.ID)

instance (current_time : Int) (th s : Thread) : Decidable (hrrn_replaces current_time th s) := by
  unfold hrrn_replaces; infer_instance

/-- The loop of `schedule_hrrn`, `list_for_each_entry(th, args.run_queue, thread_list)`, over
the threads of the run queue from position `i` on; `selected` is the thread selected so far,
with its position. -/
def schedule_hrrn_loop (current_time : Int) :
    List Thread → Nat → Option (Nat × Thread) → Option (Nat × Thread)
  | [], _, selected => selected
  | th :: rest, i, selected =>
    if th.is_real_time ≠ 0 then schedule_hrrn_loop current_time rest (i + 1) selected
    else if th.processing_time ≤ 0 then schedule_hrrn_loop current_time rest (i + 1) selected
    else
      match selected with
      | none => schedule_hrrn_loop current_time rest (i + 1) (some (i, th))
      | some (k, s) =>
        if hrrn_replaces current_time th s then
          schedule_hrrn_loop current_time rest (i + 1) (some (i, th))
        else schedule_hrrn_loop current_time rest (i + 1) (some (k, s))

/-- The routine `schedule_hrrn(args)` on the run queue `run_queue` at `args.current_time`. -/
def schedule_hrrn (current_time : Int) (run_queue : List Thread) : SchedResult :=
  match schedule_hrrn_loop current_time run_queue 0 none with
  | some (i, s) => { member := some i, allocated_time := s.remaining_time }
  | none => { member := none, allocated_time := 1 }

/-- The thread is not a real-time thread and has a positive processing time. -/
def Eligible (t : Thread) : Prop := t.is_real_time = 0 ∧ 0 < t.processing_time

instance (t : Thread) : Decidable (Eligible t) := by unfold Eligible; infer_instance

/-- The response ratio of a thread, as a rational number. -/
def responseRatio (current_time : Int) (t : Thread) : ℚ :=
  ((current_time - t.arrival_time + t.processing_time : Int) : ℚ) / ((t.processing_time : Int) : ℚ)

/-- The value fits the type `int`. -/
def InRange (x : Int) : Prop := -2147483648 ≤ x ∧ x < 2147483648

instance (x : Int) : Decidable (InRange x) := by unfold InRange; infer_instance

/-- No operation of `schedule_hrrn` on two of the given threads overflows. -/
def Fits (current_time : Int) (t u : Thread) : Prop :=
  InRange (current_time - t.arrival_time) ∧
  InRange (current_time - t.arrival_time + t.processing_time) ∧
  InRange ((current_time - t.arrival_time + t.processing_time) * u.processing_time)

instance (current_time : Int) (t u : Thread) : Decidable (Fits current_time t u) := by
  unfold Fits; infer_instance

/-- The thread `s` is to be preferred to `u`, or as good: its response ratio is higher, or
the same with an ID that is not higher. -/
def Preferred (current_time : Int) (s u : Thread) : Prop :=
  responseRatio current_time u < responseRatio current_time s ∨
    (responseRatio current_time u = responseRatio current_time s ∧ s.ID ≤ u.ID)

/-- A run queue for worked examples at time 10: thread 1 is a real-time thread, thread 2
has ratio 7/2, thread 3 has ratio 4, thread 4 has no processing time, thread 5 has ratio 4. -/
def queue0 : List Thread :=
  [{ ID := 1, is_real_time := 1, arrival_time := 0, processing_time := 1, remaining_time := 1 },
   { ID := 2, is_real_time := 0, arrival_time := 5, processing_time := 2, remaining_time := 2 },
   { ID := 5, is_real_time := 0, arrival_time := 4, processing_time := 2, remaining_time := 1 },
   { ID := 4, is_real_time := 0, arrival_time := 0, processing_time := 0, remaining_time := 0 },
   { ID := 3, is_real_time := 0, arrival_time := 1, processing_time := 3, remaining_time := 3 }]

/-- The state after `bmap(ip, 1)` on `fs0Map`. -/
def fs0Map2 (fail : Int) : State := endState (bmap cfg0 (fs0Map fail) 0 1)

/-- The part of `bwrite(b)` up to the transfer to the mirror disk, `b->blockno = pbn1;
virtio_disk_rw(b, 1);`: the state in which the caller waits for that transfer, and the local
`pbn0`.  When the mirror is skipped (`fail_disk == 1`) it is the state before
`b->blockno = pbn0`. -/
def bwrite_mirror (c : Config) (s : State) (b : Nat) : Res Nat :=
  if !holdingsleep s b then .error (Err.bwrite_unlocked, s)
  else
    let pbn0 := (s.bufs b).blockno
    let pbn1 := (pbn0 + c.DISK1_START_BLOCK) % U32
    let fail_disk := s.force_disk_fail_id
    let pbn0_fail_or_not : Bool := s.force_read_error_pbn == toInt32 pbn0
    let s := if fail_disk = 0 then s
             else if pbn0_fail_or_not then s
             else virtio_disk_rw s b true
    let s := if fail_disk = 1 then s
             else virtio_disk_rw (s.setBuf b { s.bufs b with blockno := pbn1 }) b true
    .ok (s, pbn0)

/-- The last statement of `bwrite(b)`, `b->blockno = pbn0;`. -/
def bwrite_restore (s : State) (b pbn0 : Nat) : State :=
  s.setBuf b { s.bufs b with blockno := pbn0 }

/-- A schedule of two callers on the example machine `st0`: the first reads block 5 of
device 1 and calls `bwrite` on the buffer; while it waits for the transfer to the mirror
disk, the second calls `bget(1, 5)`; then the first goes on to the end of `bwrite`.  The
result is the final state with the buffers of the two callers. -/
def raceRun : Option (State × Nat × Nat) :=
  match bread cfg0 st0 1 5 with
  | .error _ => none
  | .ok (s1, x) =>
    match bwrite_mirror cfg0 s1 x with
    | .error _ => none
    | .ok (s2, pbn0) =>
      match bget cfg0 s2 1 5 with
      | .error _ => none
      | .ok (s3, y) => some (bwrite_restore s3 x pbn0, x, y)

/-- The two phases of `bwrite(b)` one after the other. -/
def bwrite_phases (c : Config) (s : State) (b : Nat) : Res Unit :=
  match bwrite_mirror c s b with
  | .error e => .error e
  | .ok (s1, pbn0) => .ok (bwrite_restore s1 b pbn0, ())

/-- What `raceRun` ends with: the buffers of the two callers, the device and block number
of the first, those of the second, and the two reference counts. -/
def raceView : List Nat :=
  match raceRun with
  | none => []
  | some r => [r.2.1, r.2.2, (r.1.bufs r.2.1).dev, (r.1.bufs r.2.1).blockno,
      (r.1.bufs r.2.2).dev, (r.1.bufs r.2.2).blockno, (r.1.bufs r.2.1).refcnt,
      (r.1.bufs r.2.2).refcnt]

/-! ## sysfile.c: symbolic links -/

/-- Modelled from the spec: `strlen(s)` of the missing `string.c`, for a string that ends
within `lim` bytes: the number of characters before the first 0. -/
def strlen (mem : Mem) (a : Nat) : Nat → Nat
  | 0 => 0
  | lim + 1 => if mem.byte a = 0 then 0 else strlen mem (a + 1) lim + 1

/-- The routine `sys_symlink`, after its arguments were fetched into the arrays `target` and
`path`.  The call `create` changes no memory but its own locals. -/
def sys_symlink (c : Config) (pl : Places) (lim fuel : Nat) (s : State) (mem : Mem)
    (target path : Nat) : Res Int :=
  match namei c pl lim fuel (begin_op s) mem path with
  | .error e => .error e
  | .ok (s, (_, some _)) => .ok (end_op s, -1)
  | .ok (s, (mem, none)) =>
    match create c pl lim fuel s mem path c.T_SYMLINK 0 with
    | .error e => .error e
    | .ok (s, none) => .ok (end_op s, -1)
    | .ok (s, some ip) =>
      match writei c s mem ip 0 target 0 (strlen mem target lim) with
      | .error e => .error e
      | .ok (s, r) =>
        match iunlockput c s ip with
        | .error e => .error e
        | .ok (s, _) =>
          .ok (end_op s, if r % 4294967296 ≠ ((strlen mem target lim : Nat) : Int) then -1 else 0)

/-- The routine `sys_readlink`, after its arguments were fetched: the path is in the array
`path`, `buf` is the user address, and the local array `target` of the routine is at the
address `target`.  The result is the memory afterwards and the return value. -/
def sys_readlink (c : Config) (pl : Places) (lim fuel : Nat) (s : State) (mem : Mem)
    (path buf target : Nat) : Res (Mem × Int) :=
  match namei c pl lim fuel (begin_op s) mem path with
  | .error e => .error e
  | .ok (s, (mem, none)) => .ok (end_op s, (mem, -1))
  | .ok (s, (mem, some ip)) =>
    match ilock c s ip with
    | .error e => .error e
    | .ok (s, _) =>
      match follow_symlink c pl lim fuel true 12 s mem ip 0 with
      | .error e => .error e
      | .ok (s, (mem, none)) =>
        match iunlockput c s ip with
        | .error e => .error e
        | .ok (s, _) => .ok (end_op s, (mem, -1))
      | .ok (s, (mem, some resolved)) =>
        if (s.inodes resolved).d.type ≠ c.T_SYMLINK then
          match iunlockput c s ip with
          | .error e => .error e
          | .ok (s, _) => .ok (end_op s, (mem, -1))
        else
          -- char target[MAXPATH] = {0};
          let mem := mem.clear target c.MAXPATH
          match readi c s mem resolved 0 target 0 c.MAXPATH with
          | .error e => .error e
          | .ok (s, (mem, len)) =>
            if len ≤ 0 then .ok (end_op s, (mem, -1))
            else
              match either_copyout mem 1 buf (fun k => mem.byte (target + k)) len.toNat with
              | none => .ok (end_op s, (mem, -1))
              | some mem => .ok (end_op s, (mem, len))

/-- A superblock for the examples of system calls: inode `i` lies in block `3 + i`, block 9
is the free map. -/
def sb9 : Superblock := { size := 40, ninodes := 6, inodestart := 3, bmapstart := 9 }

/-- The blocks of a file system for the examples of system calls.  Inode 1 is the root
directory with the entries `.`, `..`, `z` (inode 2, a symbolic link to `/q`, a path that does
not exist), `n` (inode 3, a file of three bytes with no permission bit) and `r` (inode 4, a
file of three bytes with the Read bit only); inode 5 is free. -/
def blocks9 : List (List Nat) :=
  [[], [], [], [],
   [1, 1, 20, 3, 0, 10, 11, 0], [4, 1, 2, 3, 0, 12, 0, 0], [2, 1, 3, 0, 0, 13, 0, 0],
   [2, 1, 3, 1, 0, 14, 0, 0], [],
   [255, 127],
   [1, 46, 0, 0, 1, 46, 46, 0, 2, 122, 0, 0, 3, 110, 0, 0],
   [4, 114, 0, 0],
   [47, 113],
   [1, 2, 3],
   [4, 5, 6]]

/-- The example machine after boot on `blocks9`, the root directory being the current
directory in slot 0 of the cache of inodes. -/
def fs9 : State := (boot cfg1 (diskOf blocks9) (-1) (-1) sb9).setInode 0 cwd7

/-- A memory that holds the string `l1` at address 1000 and the string `l2` at address
1100. -/
def memStrs (l1 l2 : List Nat) : Mem :=
  { byte := fun a => if 1100 ≤ a then l2.getD (a - 1100) 0
      else if 1000 ≤ a then l1.getD (a - 1000) 0 else 0,
    ok := fun _ => true }

/-- What `sys_open` returned: its return value, the flags `readable` and `writable` of the
file, the inode number of the file, and the permission bits and the size of that inode
afterwards; the empty list when it did not return. -/
def openView (r : Res (Int × Option OpenFile)) : List Int :=
  match r with
  | .error _ => []
  | .ok (_, (v, none)) => [v]
  | .ok (s, (v, some f)) =>
    [v, if f.readable then 1 else 0, if f.writable then 1 else 0, ((s.inodes f.ip).inum : Nat),
      ((s.inodes f.ip).d.mode : Nat), ((s.inodes f.ip).d.size : Nat)]

/-- The values of `ref` of the first `n` slots of the cache of inodes. -/
def refsOf (s : State) (n : Nat) : List Int := (List.range n).map (fun i => (s.inodes i).ref)

/-- What a system call returned, with the values of `ref` of the six slots of the cache of
inodes afterwards; `none` when it did not return. -/
def retRefs (r : Res Int) : Option (Int × List Int) :=
  match r with
  | .error _ => none
  | .ok (s, v) => some (v, refsOf s 6)

/-- A superblock for the example of a chain of links: inode `i` lies in block `3 + i`, block
18 is the free map. -/
def sb10 : Superblock := { size := 40, ninodes := 15, inodestart := 3, bmapstart := 18 }

/-- The blocks of a file system with a chain of symbolic links.  Inode 1 is the root
directory with the entries `.`, `..`, `a`, ..., `k` (inodes 2 to 12), `z` (inode 13, a file of
three bytes) and `l` (inode 14); `a` is a symbolic link to `/b`, `b` to `/c`, and so on to `j`,
a symbolic link to `/k`, and `k` is a symbolic link to `/z`: from `a` a chain of eleven links
leads to the file.  The link `l` points to `/a`, which makes a chain of twelve. -/
def blocks10 : List (List Nat) :=
  [[], [], [], [],
   [1, 1, 60, 3, 0, 19, 20, 21],
   [4, 1, 2, 3, 0, 24, 0, 0], [4, 1, 2, 3, 0, 25, 0, 0], [4, 1, 2, 3, 0, 26, 0, 0],
   [4, 1, 2, 3, 0, 27, 0, 0], [4, 1, 2, 3, 0, 28, 0, 0], [4, 1, 2, 3, 0, 29, 0, 0],
   [4, 1, 2, 3, 0, 30, 0, 0], [4, 1, 2, 3, 0, 31, 0, 0], [4, 1, 2, 3, 0, 32, 0, 0],
   [4, 1, 2, 3, 0, 33, 0, 0], [4, 1, 2, 3, 0, 34, 0, 0],
   [2, 1, 3, 3, 0, 35, 0, 0],
   [4, 1, 2, 3, 0, 36, 0, 0],
   [255, 255, 255, 255, 31],
   [1, 46, 0, 0, 1, 46, 46, 0, 2, 97, 0, 0, 3, 98, 0, 0],
   [4, 99, 0, 0, 5, 100, 0, 0, 6, 101, 0, 0, 7, 102, 0, 0],
   [22, 0, 0, 0, 23, 0, 0, 0],
   [8, 103, 0, 0, 9, 104, 0, 0, 10, 105, 0, 0, 11, 106, 0, 0],
   [12, 107, 0, 0, 13, 122, 0, 0, 14, 108, 0, 0],
   [47, 98], [47, 99], [47, 100], [47, 101], [47, 102], [47, 103], [47, 104], [47, 105],
   [47, 106], [47, 107], [47, 122],
   [7, 8, 9],
   [47, 97]]

/-- The example machine after boot on `blocks10`, the root directory being the current
directory in slot 0 of the cache of inodes. -/
def fs10 : State := (boot cfg1 (diskOf blocks10) (-1) (-1) sb10).setInode 0 cwd7

/-- The state `s` of the machine when a path resolution that started in `s0` has let go of
the inode it was at: the cache of blocks is in order and presents the disk as in `s0`, every
slot of the cache of inodes has as many references as in `s0`, the slots referenced in `s0`
hold the inodes they held, and the cache of inodes is at rest. -/
def Rested (c : Config) (k : Nat) (s0 s : State) : Prop :=
  Coherent c s c.ROOTDEV (k + 1) ∧ SameDisk c s0 s c.ROOTDEV ∧
  (∀ j, j < c.NINODE → (s.inodes j).ref = (s0.inodes j).ref) ∧
  (∀ j, j < c.NINODE → 0 < (s0.inodes j).ref → (s.inodes j).inum = (s0.inodes j).inum) ∧
  CacheOK c s0 s

/-- The inode a resolution without following links arrives at, for the elements `xs` from
inode `inum`, through directories that have the Read bit: with `np` the directory in which
the last element is to be looked up, which has to be a directory with the Read bit itself,
and otherwise the inode the last element names; `none` when there is no such inode. -/
def walkP (c : Config) (s : State) (np : Bool) : Nat → List (List Nat) → Option Nat
  | inum, [] => if np then none else some inum
  | inum, x :: xs =>
    if (dnode c s inum).type ≠ c.T_DIR then none
    else if (dnode c s inum).mode &&& c.M_READ = 0 then none
    else if np = true ∧ xs = [] then some inum
    else
      match dLookup c s (dnode c s inum) (nameOf x) ((dnode c s inum).size / c.DIRENT) 0 with
      | none => none
      | some e => walkP c s np e xs

/-- The inode a resolution starts at: the root directory for a path that begins with a
slash, and the current directory of the process otherwise. -/
def startD (c : Config) (pl : Places) (s : State) (mem : Mem) (path : Nat) : Nat :=
  if mem.byte path = 47 then c.ROOTINO else (s.inodes pl.cwd).inum

/-- The state after `chmod("/p", M_READ, 0, 1)` on the example file system `blocks7`: the
directory `p`, inode 7, has the Read bit; `fail` is the value of `force_disk_fail_id`. -/
def fs7Chmod (fail : Int) : State :=
  endState (sys_chmod cfg1 pl7 20 10 (fs7 fail) (memStr [47, 112]) true 1000 1 0 1)

/-- The path `/d/e/z`. -/
def path13 : List Nat := [47, 100, 47, 101, 47, 122]

/-- What a call returned that delivers a handle: `none` when it did not return, `some none`
for the value 0, and the inode number of the slot returned otherwise. -/
def gotInode (r : Res (Option Nat)) : Option (Option Nat) :=
  match r with
  | .ok (s, some ip) => some (some (s.inodes ip).inum)
  | .ok (_, none) => some none
  | .error _ => none

/-- The content of the file of inode `inum` in the view of the cache, as the list of its
bytes. -/
def linkText (c : Config) (s : State) (inum : Nat) : List Nat :=
  (List.range (dnode c s inum).size).map (fun j => dByte c s (dnode c s inum) j)

/-- The elements of a path, for at most `n` of them. -/
def elemsOf : Nat → List Nat → List (List Nat)
  | 0, _ => []
  | n + 1, l =>
    match pathStep l with
    | none => []
    | some (x, rest) => x :: elemsOf n rest

/-- The inode that the path `l` names when no link is followed: its elements are looked up
from the root directory for a path that begins with a slash, and from the current directory
otherwise. -/
def resolveD (c : Config) (pl : Places) (s : State) (l : List Nat) : Option Nat :=
  walkD c s (if l.head? = some 47 then c.ROOTINO else (s.inodes pl.cwd).inum)
    (elemsOf (l.length + 1) l)

/-- Every symbolic link of the file system holds a path: it is not empty, shorter than
`MAXPATH` and than `lim`, has no character 0 and fewer than `fuel` elements. -/
def LinksOK (c : Config) (s : State) (lim fuel : Nat) : Prop :=
  ∀ a, a < s.sb.ninodes → (dnode c s a).type = c.T_SYMLINK →
    0 < (dnode c s a).size ∧ (dnode c s a).size < c.MAXPATH ∧ (dnode c s a).size < lim ∧
    (elemsOf ((dnode c s a).size + 1) (linkText c s a)).length < fuel ∧
    ∀ j, j < (dnode c s a).size → dByte c s (dnode c s a) j ≠ 0

instance (c : Config) (s : State) (lim fuel : Nat) : Decidable (LinksOK c s lim fuel) := by
  unfold LinksOK; infer_instance

/-- The inode that `follow_symlink(ip, depth, 0)` is to return for the inode `a`, with `n`
nested calls at most: the inode at the end of the chain of links from `a`, `none` when the
chain is too long for `depth` or a link names no inode. -/
def chase (c : Config) (pl : Places) (s : State) : Nat → Nat → Nat → Option Nat
  | 0, _, _ => none
  | n + 1, depth, a =>
    if depth > 10 then none
    else if (dnode c s a).type ≠ c.T_SYMLINK then some a
    else
      match resolveD c pl s (linkText c s a) with
      | none => none
      | some b =>
        if (dnode c s b).type = c.T_SYMLINK then chase c pl s n (depth + 1) b else some b

/-- The inode that the elements `xs` lead to from inode `inum` through directories that have
the Read bit, none of the inodes on the way to the last one being a symbolic link. -/
def walkL (c : Config) (s : State) : Nat → List (List Nat) → Option Nat
  | inum, [] => some inum
  | inum, x :: xs =>
    if (dnode c s inum).type ≠ c.T_DIR then none
    else if (dnode c s inum).mode &&& c.M_READ = 0 then none
    else
      match dLookup c s (dnode c s inum) (nameOf x) ((dnode c s inum).size / c.DIRENT) 0 with
      | none => none
      | some e => if (dnode c s e).type = c.T_SYMLINK ∧ xs ≠ [] then none else walkL c s e xs

/-! # Properties -/

/-! ## Linked rings -/

theorem Linked.frame {nxt nxt2 : Nat → Nat} : ∀ (l : List Nat) (a z : Nat),
    (∀ x ∈ a :: l, nxt2 x = nxt x) → Linked nxt a l z → Linked nxt2 a l z
  | [], a, z, h, hl => by
    simp only [Linked] at hl ⊢
    rw [h a (by simp)]; exact hl
  | x :: l, a, z, h, hl => by
    simp only [Linked] at hl ⊢
    refine ⟨by rw [h a (by simp)]; exact hl.1, Linked.frame l x z (fun y hy => h y ?_) hl.2⟩
    exact List.mem_cons_of_mem _ hy

theorem Linked.append_iff {nxt : Nat → Nat} : ∀ (l1 : List Nat) (a x : Nat) (l2 : List Nat) (z : Nat),
    Linked nxt a (l1 ++ x :: l2) z ↔ Linked nxt a l1 x ∧ Linked nxt x l2 z
  | [], a, x, l2, z => by simp [Linked]
  | y :: l1, a, x, l2, z => by
    show (nxt a = y ∧ Linked nxt y (l1 ++ x :: l2) z) ↔ _
    rw [Linked.append_iff l1 y x l2 z]; simp [Linked, and_assoc]

theorem Linked.concat_iff {nxt : Nat → Nat} (l : List Nat) (a x z : Nat) :
    Linked nxt a (l ++ [x]) z ↔ Linked nxt a l x ∧ nxt x = z := by
  rw [Linked.append_iff]; simp [Linked]

theorem Linked.first {nxt : Nat → Nat} {a z : Nat} {l : List Nat} (hl : Linked nxt a l z) :
    nxt a = l.headD z := by
  cases l <;> simp_all [Linked]

theorem headD_reverse_eq (l : List Nat) (z : Nat) : l.reverse.headD z = l.getLastD z := by
  rcases List.eq_nil_or_concat' l with rfl | ⟨l, q, rfl⟩ <;> simp

/-- Taking `b` out of a chain: the predecessor of `b` is made to point at its successor. -/
theorem Linked.unlink_next {nxt : Nat → Nat} {h b : Nat} {l1 l2 : List Nat}
    (hl : Linked nxt h (l1 ++ b :: l2) h) (hnd : (h :: (l1 ++ b :: l2)).Nodup) :
    Linked (Function.update nxt (l1.getLastD h) (l2.headD h)) h (l1 ++ l2) h := by
  rw [Linked.append_iff] at hl
  obtain ⟨h1, h2⟩ := hl
  have key : ∀ a, a ∉ l2 → a ≠ b →
      Linked (Function.update nxt a (l2.headD h)) a l2 h := by
    intro a ha hab
    cases l2 with
    | nil => simp [Linked]
    | cons n l2 =>
      simp only [Linked] at h2 ⊢
      refine ⟨by simp, Linked.frame _ _ _ (fun x hx => ?_) h2.2⟩
      rw [Function.update_noteq]
      rintro rfl
      exact ha hx
  rcases List.eq_nil_or_concat' l1 with rfl | ⟨l1, q, rfl⟩
  · simp only [List.nil_append, List.getLastD_nil]
    simp only [List.nil_append, List.nodup_cons, List.mem_cons, not_or] at hnd
    exact key h hnd.1.2 hnd.1.1
  · have e1 : (l1 ++ [q]).getLastD h = q := by simp
    rw [e1]
    simp only [List.append_assoc, List.singleton_append] at hnd ⊢
    rw [Linked.concat_iff] at h1
    rw [Linked.append_iff]
    simp only [List.append_assoc, List.singleton_append, List.nodup_cons, List.mem_append,
      List.mem_cons, not_or, List.nodup_append, List.mem_singleton] at hnd
    refine ⟨Linked.frame _ _ _ (fun x hx => ?_) h1.1, key q ?_ ?_⟩
    · rw [Function.update_noteq]
      rintro rfl
      simp only [List.mem_cons] at hx
      rcases hx with rfl | hx
      · exact hnd.1.2.1 rfl
      · have := hnd.2.2.2 hx; simp at this
    · exact hnd.2.2.1.1.2
    · exact hnd.2.2.1.1.1

/-- Putting `b` in right behind the head of a chain. -/
theorem Linked.push_front {nxt : Nat → Nat} {h b : Nat} {l : List Nat}
    (hl : Linked nxt h l h) (hb : b ∉ h :: l) (hnd : (h :: l).Nodup) :
    Linked (Function.update (Function.update nxt b (nxt h)) h b) h (b :: l) h := by
  simp only [List.mem_cons, not_or] at hb
  refine ⟨by simp, ?_⟩
  cases l with
  | nil =>
    simp only [Linked] at hl ⊢
    rw [Function.update_noteq hb.1, Function.update_same, hl]
  | cons x l =>
    simp only [Linked] at hl ⊢
    refine ⟨by rw [Function.update_noteq hb.1, Function.update_same, hl.1],
      Linked.frame _ _ _ (fun y hy => ?_) hl.2⟩
    have hyb : y ≠ b := by rintro rfl; exact hb.2 hy
    have hyh : y ≠ h := by
      rintro rfl
      exact (List.nodup_cons.1 hnd).1 hy
    rw [Function.update_noteq hyh, Function.update_noteq hyb]

/-- Putting `b` in right before the end of a chain that returns to its start. -/
theorem Linked.push_back {prv : Nat → Nat} {h b : Nat} {r : List Nat}
    (hl : Linked prv h r h) (hb : b ∉ h :: r) (hnd : (h :: r).Nodup) :
    Linked (Function.update (Function.update prv b h) (r.getLastD h) b) h (r ++ [b]) h := by
  simp only [List.mem_cons, not_or] at hb
  rcases List.eq_nil_or_concat' r with rfl | ⟨r, q, rfl⟩
  · simp only [List.getLastD_nil, List.nil_append, Linked, Function.update_same, true_and]
    rw [Function.update_noteq hb.1, Function.update_same]
  · have e1 : (r ++ [q]).getLastD h = q := by simp
    rw [e1, Linked.concat_iff, Linked.concat_iff]
    rw [Linked.concat_iff] at hl
    simp only [List.mem_append, List.mem_singleton, not_or] at hb
    simp only [List.nodup_cons, List.mem_append, List.mem_singleton, not_or, List.nodup_append,
      List.nodup_nil, List.disjoint_singleton, and_true, List.nodup_singleton] at hnd
    refine ⟨⟨Linked.frame _ _ _ (fun y hy => ?_) hl.1, by simp⟩, ?_⟩
    · have hyq : y ≠ q := by
        rintro rfl
        simp only [List.mem_cons] at hy
        rcases hy with rfl | hy
        · exact hnd.1.2 rfl
        · exact hnd.2.2.2 hy
      have hyb : y ≠ b := by
        rintro rfl
        simp only [List.mem_cons] at hy
        rcases hy with rfl | hy
        · exact hb.1 rfl
        · exact hb.2.1 hy
      rw [Function.update_noteq hyq, Function.update_noteq hyb]
    · rw [Function.update_noteq hb.2.2, Function.update_same]

theorem getLastD_reverse_eq (l : List Nat) (z : Nat) : l.reverse.getLastD z = l.headD z := by
  cases l <;> simp

theorem Ring.next_head {h : Nat} {nxt prv : Nat → Nat} {l : List Nat} (hr : Ring h nxt prv l) :
    nxt h = l.headD h := hr.1.first

theorem Ring.split_next {h b : Nat} {nxt prv : Nat → Nat} {l1 l2 : List Nat}
    (hr : Ring h nxt prv (l1 ++ b :: l2)) : nxt b = l2.headD h :=
  ((Linked.append_iff _ _ _ _ _).1 hr.1).2.first

theorem Ring.split_prev {h b : Nat} {nxt prv : Nat → Nat} {l1 l2 : List Nat}
    (hr : Ring h nxt prv (l1 ++ b :: l2)) : prv b = l1.getLastD h := by
  have h2 := hr.2.1
  rw [List.reverse_append, List.reverse_cons, List.append_assoc, List.singleton_append,
    Linked.append_iff] at h2
  rw [h2.2.first, headD_reverse_eq]

/-- Unlinking `b` from the ring. -/
theorem Ring.unlink {h b : Nat} {nxt prv : Nat → Nat} {l1 l2 : List Nat}
    (hr : Ring h nxt prv (l1 ++ b :: l2)) :
    Ring h (Function.update nxt (prv b) (nxt b)) (Function.update prv (nxt b) (prv b))
      (l1 ++ l2) := by
  obtain ⟨h1, h2, h3⟩ := hr
  have e1 := Ring.split_next ⟨h1, h2, h3⟩
  have e2 := Ring.split_prev ⟨h1, h2, h3⟩
  refine ⟨?_, ?_, ?_⟩
  · rw [e1, e2]; exact Linked.unlink_next h1 h3
  · rw [e1, e2, List.reverse_append, ← getLastD_reverse_eq l2, ← headD_reverse_eq l1]
    rw [List.reverse_append, List.reverse_cons, List.append_assoc, List.singleton_append] at h2
    refine Linked.unlink_next h2 ?_
    have : (h :: (l2.reverse ++ b :: l1.reverse)).Perm (h :: (l1 ++ b :: l2)) := by
      refine List.Perm.cons _ ?_
      have := (List.reverse_perm (l1 ++ b :: l2))
      simpa using this
    exact this.nodup_iff.2 h3
  · have : (h :: (l1 ++ b :: l2)).Perm (b :: h :: (l1 ++ l2)) := by
      refine (List.Perm.cons _ List.perm_middle).trans (List.Perm.swap _ _ _)
    exact (List.nodup_cons.1 (this.nodup_iff.1 h3)).2

/-- Linking `b` in right behind the head. -/
theorem Ring.insert {h b : Nat} {nxt prv : Nat → Nat} {l : List Nat}
    (hr : Ring h nxt prv l) (hb : b ∉ h :: l) :
    Ring h (Function.update (Function.update nxt b (nxt h)) h b)
      (Function.update (Function.update prv b h) (nxt h) b) (b :: l) := by
  obtain ⟨h1, h2, h3⟩ := hr
  refine ⟨Linked.push_front h1 hb h3, ?_, ?_⟩
  · rw [h1.first, ← getLastD_reverse_eq, List.reverse_cons]
    refine Linked.push_back h2 ?_ ?_
    · simpa using hb
    · exact (List.Perm.cons _ (List.reverse_perm l)).nodup_iff.2 h3
  · have : (h :: b :: l).Perm (b :: h :: l) := List.Perm.swap _ _ _
    exact this.nodup_iff.2 (List.nodup_cons.2 ⟨hb, h3⟩)

theorem walk_linked {nxt : Nat → Nat} {z : Nat} : ∀ (l : List Nat) (a fuel : Nat),
    Linked nxt a l z → z ∉ l → l.length ≤ fuel → walk nxt z fuel (nxt a) = l
  | [], a, fuel, hl, _, _ => by
    simp only [Linked] at hl
    cases fuel <;> simp [walk, hl]
  | x :: l, a, 0, _, _, hf => by simp at hf
  | x :: l, a, fuel + 1, hl, hz, hf => by
    simp only [Linked] at hl
    simp only [List.mem_cons, not_or] at hz
    have hxz : x ≠ z := fun e => hz.1 e.symm
    simp only [walk, hl.1, hxz, if_false]
    rw [walk_linked l x fuel hl.2 hz.2 (by simpa using hf)]

theorem bget_cached_linked (c : Config) (s : State) (dev blockno : Nat) :
    ∀ (l : List Nat) (a fuel : Nat), Linked s.next a l c.NBUF → c.NBUF ∉ l → l.length < fuel →
      bget_cached c s dev blockno fuel (s.next a) =
        match l.find? (fun b => decide ((s.bufs b).holds dev blockno)) with
        | some b => Scan.found b
        | none => Scan.notfound
  | _, _, 0, _, _, hf => by simp at hf
  | [], a, fuel + 1, hl, _, _ => by
    simp only [Linked] at hl
    simp [bget_cached, hl]
  | x :: l, a, fuel + 1, hl, hz, hf => by
    simp only [Linked] at hl
    simp only [List.mem_cons, not_or] at hz
    have hxz : x ≠ c.NBUF := fun e => hz.1 e.symm
    simp only [bget_cached, hl.1, hxz, if_false, List.find?_cons]
    by_cases hm : (s.bufs x).holds dev blockno
    · have hm2 := hm
      simp only [Buf.holds] at hm2
      simp [hm, hm2]
    · have hm2 := hm
      simp only [Buf.holds] at hm2
      simp only [hm, hm2, if_false, decide_False]
      exact bget_cached_linked c s dev blockno l x fuel hl.2 hz.2 (by simpa using hf)

theorem bget_recycle_linked (c : Config) (s : State) :
    ∀ (l : List Nat) (a fuel : Nat), Linked s.prev a l c.NBUF → c.NBUF ∉ l → l.length < fuel →
      bget_recycle c s fuel (s.prev a) =
        match l.find? (fun b => decide ((s.bufs b).refcnt = 0)) with
        | some b => Scan.found b
        | none => Scan.notfound
  | _, _, 0, _, _, hf => by simp at hf
  | [], a, fuel + 1, hl, _, _ => by
    simp only [Linked] at hl
    simp [bget_recycle, hl]
  | x :: l, a, fuel + 1, hl, hz, hf => by
    simp only [Linked] at hl
    simp only [List.mem_cons, not_or] at hz
    have hxz : x ≠ c.NBUF := fun e => hz.1 e.symm
    simp only [bget_recycle, hl.1, hxz, if_false, List.find?_cons]
    by_cases hm : (s.bufs x).refcnt = 0
    · simp [hm]
    · simp only [hm, if_false, decide_False]
      exact bget_recycle_linked c s l x fuel hl.2 hz.2 (by simpa using hf)

theorem ListOK.not_mem_head {c : Config} {s : State} (h : ListOK c s) :
    c.NBUF ∉ recency c s := fun hm => Nat.lt_irrefl _ (h.2.2 _ hm)

theorem ListOK.mem_iff {c : Config} {s : State} (h : ListOK c s) (i : Nat) :
    i ∈ recency c s ↔ i < c.NBUF := by
  refine ⟨h.2.2 i, fun hi => ?_⟩
  have hnd : (recency c s).Nodup := (List.nodup_cons.1 h.1.2.2).2
  have hsub : recency c s ⊆ List.range c.NBUF := fun x hx => List.mem_range.2 (h.2.2 x hx)
  have hp : (recency c s).Perm (List.range c.NBUF) :=
    (List.subperm_of_subset hnd hsub).perm_of_length_le (by simp [h.2.1])
  exact hp.mem_iff.2 (List.mem_range.2 hi)

/-- A ring over exactly the buffers of the pool is what `recency` reads off the pointers. -/
theorem recency_of_ring {c : Config} {s : State} {l : List Nat}
    (hr : Ring c.NBUF s.next s.prev l) (hlen : l.length = c.NBUF) (hlt : ∀ i ∈ l, i < c.NBUF) :
    recency c s = l ∧ ListOK c s := by
  have hz : c.NBUF ∉ l := fun hm => Nat.lt_irrefl _ (hlt _ hm)
  have e : recency c s = l := walk_linked l c.NBUF c.NBUF hr.1 hz (le_of_eq hlen)
  refine ⟨e, ?_⟩
  unfold ListOK
  rw [e]
  exact ⟨hr, hlen, hlt⟩

/-! ## bget -/

theorem bget_cached_eq {c : Config} {s : State} (hok : ListOK c s) (dev blockno : Nat) :
    bget_cached c s dev blockno (c.NBUF + 1) (s.next c.NBUF) =
      match cachedBuf c s dev blockno with
      | some b => Scan.found b
      | none => Scan.notfound :=
  bget_cached_linked c s dev blockno _ _ _ hok.1.1 hok.not_mem_head (by simp [hok.2.1])

theorem bget_recycle_eq {c : Config} {s : State} (hok : ListOK c s) :
    bget_recycle c s (c.NBUF + 1) (s.prev c.NBUF) =
      match victimBuf c s with
      | some b => Scan.found b
      | none => Scan.notfound :=
  bget_recycle_linked c s _ _ _ hok.1.2.1 (by simpa using hok.not_mem_head)
    (by simp [hok.2.1])

theorem setBuf_setBuf (s : State) (b : Nat) (x y : Buf) :
    (s.setBuf b x).setBuf b y = s.setBuf b y := by
  simp [State.setBuf]

@[simp] theorem setBuf_bufs_same (s : State) (b : Nat) (x : Buf) : (s.setBuf b x).bufs b = x := by
  simp [State.setBuf]

theorem setBuf_bufs_ne (s : State) {b j : Nat} (x : Buf) (h : j ≠ b) :
    (s.setBuf b x).bufs j = s.bufs j := by
  simp [State.setBuf, Function.update_noteq h]

/-- The state in which `bget` ends when it finds `(dev, blockno)` cached in `b`. -/
theorem bget_hit {c : Config} {s : State} (hok : ListOK c s) {dev blockno b : Nat}
    (hc : cachedBuf c s dev blockno = some b) (hl : (s.bufs b).locked = false) :
    bget c s dev blockno =
      .ok (s.setBuf b { s.bufs b with refcnt := ((s.bufs b).refcnt + 1) % U32, locked := true },
        b) := by
  simp only [bget, bget_cached_eq hok, hc, acquiresleep, setBuf_bufs_same, hl, setBuf_setBuf]
  rfl

/-- The state in which `bget` ends when it recycles `b`. -/
theorem bget_miss {c : Config} {s : State} (hok : ListOK c s) {dev blockno b : Nat}
    (hc : cachedBuf c s dev blockno = none) (hv : victimBuf c s = some b)
    (hl : (s.bufs b).locked = false) :
    bget c s dev blockno =
      .ok (s.setBuf b { s.bufs b with dev := dev, blockno := blockno, valid := 0, refcnt := 1,
                                      locked := true }, b) := by
  simp only [bget, bget_cached_eq hok, bget_recycle_eq hok, hc, hv, acquiresleep,
    setBuf_bufs_same, hl, setBuf_setBuf]
  rfl

theorem bget_none {c : Config} {s : State} (hok : ListOK c s) {dev blockno : Nat}
    (hc : cachedBuf c s dev blockno = none) (hv : victimBuf c s = none) :
    bget c s dev blockno = .error (Err.bget_no_buffers, s) := by
  simp only [bget, bget_cached_eq hok, bget_recycle_eq hok, hc, hv]

theorem cachedBuf_eq_none_iff {c : Config} {s : State} (hok : ListOK c s) (dev blockno : Nat) :
    cachedBuf c s dev blockno = none ↔ ¬ ∃ i, i < c.NBUF ∧ (s.bufs i).holds dev blockno := by
  simp only [cachedBuf, List.find?_eq_none, decide_eq_true_eq, not_exists, not_and]
  exact ⟨fun h i hi => h i ((hok.mem_iff i).2 hi), fun h i hi => h i ((hok.mem_iff i).1 hi)⟩

theorem victimBuf_eq_none_iff {c : Config} {s : State} (hok : ListOK c s) :
    victimBuf c s = none ↔ ∀ i, i < c.NBUF → (s.bufs i).refcnt ≠ 0 := by
  simp only [victimBuf, List.find?_eq_none, decide_eq_true_eq, List.mem_reverse]
  exact ⟨fun h i hi => h i ((hok.mem_iff i).2 hi), fun h i hi => h i ((hok.mem_iff i).1 hi)⟩

theorem cachedBuf_some {c : Config} {s : State} (hok : ListOK c s) {dev blockno b : Nat}
    (h : cachedBuf c s dev blockno = some b) : b < c.NBUF ∧ (s.bufs b).holds dev blockno := by
  have h1 := List.find?_some h
  have h2 := List.mem_of_find?_eq_some h
  exact ⟨(hok.mem_iff b).1 h2, by simpa using h1⟩

/-- The buffer `victimBuf` names is the unused one nearest the tail of the recency list. -/
theorem victimBuf_eq_some_iff {c : Config} {s : State} (b : Nat) :
    victimBuf c s = some b ↔
      ∃ l1 l2, recency c s = l1 ++ b :: l2 ∧ (s.bufs b).refcnt = 0 ∧
        ∀ x ∈ l2, (s.bufs x).refcnt ≠ 0 := by
  simp only [victimBuf, List.find?_eq_some, decide_eq_true_eq]
  constructor
  · rintro ⟨hb, as, bs, he, hall⟩
    refine ⟨bs.reverse, as.reverse, ?_, hb, fun x hx => ?_⟩
    · have := congrArg List.reverse he
      simpa using this
    · simpa using hall x (List.mem_reverse.1 hx)
  · rintro ⟨l1, l2, he, hb, hall⟩
    refine ⟨hb, l2.reverse, l1.reverse, by simp [he], fun x hx => ?_⟩
    simpa using hall x (List.mem_reverse.1 hx)

/-- C7: `bget(dev, blockno)` on an intact buffer list.  If some buffer of the pool holds
`(dev, blockno)`, `bget` returns such a buffer with `refcnt` incremented by one (as a 32-bit
unsigned value) and every other field of it, `valid` included, and every other buffer
unchanged.  Otherwise, if some buffer has `refcnt` 0, it takes the one with `refcnt` 0 that
is nearest the least recently used end of the recency list and sets it to `(dev, blockno)`
with `refcnt` 1 and `valid` 0.  It ends in `panic("bget: no buffers")` exactly when no buffer
holds the block and every buffer of the pool has a nonzero `refcnt`.  (The returned buffer is
locked; the statements about returning are for a buffer whose sleep-lock is free.) -/
theorem bget_spec (c : Config) (s : State) (dev blockno : Nat) (hok : ListOK c s) :
    ((∃ i, i < c.NBUF ∧ (s.bufs i).holds dev blockno) →
      ∃ b, b < c.NBUF ∧ (s.bufs b).holds dev blockno ∧
        ((s.bufs b).locked = false →
          bget c s dev blockno =
            .ok (s.setBuf b { s.bufs b with refcnt := ((s.bufs b).refcnt + 1) % U32,
                                            locked := true }, b))) ∧
    ((¬ ∃ i, i < c.NBUF ∧ (s.bufs i).holds dev blockno) →
      (∃ i, i < c.NBUF ∧ (s.bufs i).refcnt = 0) →
      ∃ b l1 l2, b < c.NBUF ∧ recency c s = l1 ++ b :: l2 ∧ (s.bufs b).refcnt = 0 ∧
        (∀ x ∈ l2, (s.bufs x).refcnt ≠ 0) ∧
        ((s.bufs b).locked = false →
          bget c s dev blockno =
            .ok (s.setBuf b { s.bufs b with dev := dev, blockno := blockno, valid := 0,
                                            refcnt := 1, locked := true }, b))) ∧
    (∀ s', bget c s dev blockno = .error (Err.bget_no_buffers, s') ↔
      (s' = s ∧ (¬ ∃ i, i < c.NBUF ∧ (s.bufs i).holds dev blockno) ∧
        ∀ i, i < c.NBUF → (s.bufs i).refcnt ≠ 0)) := by
  refine ⟨fun hex => ?_, fun hno hfree => ?_, fun s' => ?_⟩
  · cases hc : cachedBuf c s dev blockno with
    | none => exact absurd hex ((cachedBuf_eq_none_iff hok dev blockno).1 hc)
    | some b =>
      obtain ⟨hb, hh⟩ := cachedBuf_some hok hc
      exact ⟨b, hb, hh, fun hl => bget_hit hok hc hl⟩
  · have hc := (cachedBuf_eq_none_iff hok dev blockno).2 hno
    cases hv : victimBuf c s with
    | none =>
      obtain ⟨i, hi, hr⟩ := hfree
      exact absurd hr ((victimBuf_eq_none_iff hok).1 hv i hi)
    | some b =>
      obtain ⟨l1, l2, he, hr, hall⟩ := (victimBuf_eq_some_iff b).1 hv
      refine ⟨b, l1, l2, ?_, he, hr, hall, fun hl => bget_miss hok hc hv hl⟩
      exact (hok.mem_iff b).1 (by rw [he]; simp)
  · cases hc : cachedBuf c s dev blockno with
    | some b =>
      have hh := cachedBuf_some hok hc
      constructor
      · intro he
        exfalso
        by_cases hl : (s.bufs b).locked = false
        · rw [bget_hit hok hc hl] at he; cases he
        · simp only [bget, bget_cached_eq hok, hc, acquiresleep, setBuf_bufs_same] at he
          simp only [Bool.not_eq_false] at hl
          simp [hl] at he
      · rintro ⟨_, hno, _⟩
        exact absurd ⟨b, hh⟩ hno
    | none =>
      have hno := (cachedBuf_eq_none_iff hok dev blockno).1 hc
      cases hv : victimBuf c s with
      | none =>
        rw [bget_none hok hc hv]
        have hall := (victimBuf_eq_none_iff hok).1 hv
        constructor
        · intro he
          cases he
          exact ⟨rfl, hno, hall⟩
        · rintro ⟨rfl, _, _⟩; rfl
      | some b =>
        obtain ⟨l1, l2, he, hr, hall⟩ := (victimBuf_eq_some_iff b).1 hv
        have hb : b < c.NBUF := (hok.mem_iff b).1 (by rw [he]; simp)
        constructor
        · intro he
          exfalso
          by_cases hl : (s.bufs b).locked = false
          · rw [bget_miss hok hc hv hl] at he; cases he
          · simp only [bget, bget_cached_eq hok, bget_recycle_eq hok, hc, hv, acquiresleep,
              setBuf_bufs_same] at he
            simp only [Bool.not_eq_false] at hl
            simp [hl] at he
        · rintro ⟨_, _, hall2⟩
          exact absurd hr (hall2 b hb)

/-- Worked example for C7: right after boot the list is intact, no buffer holds block 7 of
device 1, and `bget` recycles the unused buffer nearest the tail of the recency list. -/
theorem bget_spec_witness :
    ListOK cfg0 st0 ∧
      ∃ b l1 l2, b < cfg0.NBUF ∧ recency cfg0 st0 = l1 ++ b :: l2 ∧ (st0.bufs b).refcnt = 0 ∧
        (∀ x ∈ l2, (st0.bufs x).refcnt ≠ 0) ∧
        ((st0.bufs b).locked = false →
          bget cfg0 st0 1 7 =
            .ok (st0.setBuf b { st0.bufs b with dev := 1, blockno := 7, valid := 0,
                                                refcnt := 1, locked := true }, b)) :=
  ⟨by decide, (bget_spec cfg0 st0 1 7 (by decide)).2.1 (by decide) ⟨0, by decide⟩⟩

/-! ## brelse -/

/-- The six pointer assignments of `brelse` move `b` to the front of the ring. -/
theorem Ring.move_front {h b : Nat} {nxt prv : Nat → Nat} {l1 l2 : List Nat}
    (hr : Ring h nxt prv (l1 ++ b :: l2)) :
    Ring h
      (Function.update
        (Function.update (Function.update nxt (Function.update prv (nxt b) (prv b) b) (nxt b)) b
          (Function.update nxt (Function.update prv (nxt b) (prv b) b) (nxt b) h)) h b)
      (Function.update
        (Function.update (Function.update prv (nxt b) (prv b)) b h)
        (Function.update (Function.update nxt (Function.update prv (nxt b) (prv b) b) (nxt b)) b
          (Function.update nxt (Function.update prv (nxt b) (prv b) b) (nxt b) h) h) b)
      (b :: (l1 ++ l2)) := by
  have hnd := hr.2.2
  have hbh : b ≠ h := by
    intro e; subst e
    simp at hnd
  have hb2 : b ∉ l2 := by
    intro hm
    have := (List.nodup_cons.1 hnd).2
    rw [List.nodup_append] at this
    exact (List.nodup_cons.1 this.2.1).1 hm
  have hb1 : b ∉ l1 := by
    intro hm
    have := (List.nodup_cons.1 hnd).2
    rw [List.nodup_append] at this
    exact this.2.2 hm (List.mem_cons_self _ _)
  have hnb : nxt b ≠ b := by
    rw [hr.split_next]
    cases l2 with
    | nil => exact fun e => hbh e.symm
    | cons x l2 =>
      simp only [List.headD_cons]
      rintro rfl
      exact hb2 (List.mem_cons_self _ _)
  have e1 : Function.update prv (nxt b) (prv b) b = prv b := Function.update_noteq hnb.symm _ _
  rw [e1]
  have hu := hr.unlink
  have hins := hu.insert (b := b) (by simp [hbh, hb1, hb2])
  have e2 : Function.update (Function.update nxt (prv b) (nxt b)) b
      (Function.update nxt (prv b) (nxt b) h) h = Function.update nxt (prv b) (nxt b) h :=
    Function.update_noteq hbh.symm _ _
  rw [e2]
  exact hins

theorem recency_of_ring_eq {c : Config} {s : State} {l : List Nat} {nxt prv : Nat → Nat}
    (hn : s.next = nxt) (hp : s.prev = prv)
    (hr : Ring c.NBUF nxt prv l) (hlen : l.length = c.NBUF) (hlt : ∀ i ∈ l, i < c.NBUF) :
    recency c s = l ∧ ListOK c s := by
  subst hn hp
  exact recency_of_ring hr hlen hlt

/-- The outcome of `brelse` on a held buffer of an intact list. -/
theorem brelse_eq {c : Config} {s : State} {b : Nat} (hok : ListOK c s) (hb : b < c.NBUF)
    (hl : (s.bufs b).locked = true) :
    ∃ s', brelse c s b = .ok (s', ()) ∧
      s'.bufs = Function.update s.bufs b
        { s.bufs b with locked := false, refcnt := ((s.bufs b).refcnt + U32 - 1) % U32 } ∧
      s'.disk = s.disk ∧ s'.xfers = s.xfers ∧ s'.log = s.log ∧ s'.sb = s.sb ∧
      s'.force_read_error_pbn = s.force_read_error_pbn ∧
      s'.force_disk_fail_id = s.force_disk_fail_id ∧
      (((s.bufs b).refcnt + U32 - 1) % U32 = 0 →
        recency c s' = b :: (recency c s).erase b ∧ ListOK c s') ∧
      (((s.bufs b).refcnt + U32 - 1) % U32 ≠ 0 → s'.next = s.next ∧ s'.prev = s.prev) := by
  by_cases hz : ((s.bufs b).refcnt + U32 - 1) % U32 = 0
  · obtain ⟨l1, l2, he⟩ := List.append_of_mem ((hok.mem_iff b).2 hb)
    have hring := hok.1
    rw [he] at hring
    have hmf := hring.move_front
    have hnd := hring.2.2
    have hb1 : b ∉ l1 := by
      intro hm
      have := (List.nodup_cons.1 hnd).2
      rw [List.nodup_append] at this
      exact this.2.2 hm (List.mem_cons_self _ _)
    have hlen : (b :: (l1 ++ l2)).length = c.NBUF := by
      have := hok.2.1
      rw [he] at this
      simpa [Nat.add_comm, Nat.add_left_comm, Nat.add_assoc] using this
    have hlt : ∀ i ∈ b :: (l1 ++ l2), i < c.NBUF := by
      intro i hi
      refine hok.2.2 i ?_
      rw [he]
      simp only [List.mem_cons, List.mem_append] at hi ⊢
      rcases hi with h | h | h
      · exact Or.inr (Or.inl h)
      · exact Or.inl h
      · exact Or.inr (Or.inr h)
    simp only [brelse, holdingsleep, hl, Bool.not_true, Bool.false_eq_true, if_false,
      releasesleep, setBuf_bufs_same, setBuf_setBuf]
    rw [if_pos hz]
    refine ⟨_, rfl, by simp [State.setBuf], rfl, rfl, rfl, rfl, rfl, rfl, fun _ => ?_,
      fun h => absurd hz h⟩
    rw [he, List.erase_append_right _ hb1, List.erase_cons_head]
    exact recency_of_ring_eq (by rfl) (by rfl) hmf hlen hlt
  · simp only [brelse, holdingsleep, hl, Bool.not_true, Bool.false_eq_true, if_false,
      releasesleep, setBuf_bufs_same, setBuf_setBuf]
    rw [if_neg hz]
    exact ⟨_, rfl, by simp [State.setBuf], rfl, rfl, rfl, rfl, rfl, rfl, fun h => absurd h hz,
      fun _ => ⟨rfl, rfl⟩⟩

theorem filter_ne_erase (b : Nat) : ∀ l : List Nat,
    (l.erase b).filter (fun x => decide (x ≠ b)) = l.filter (fun x => decide (x ≠ b))
  | [] => rfl
  | x :: l => by
    by_cases h : x = b
    · subst h; simp
    · have h2 : (x == b) = false := by simpa using h
      rw [List.erase_cons, h2]
      simp only [Bool.false_eq_true, if_false, List.filter_cons, filter_ne_erase b l]

/-- C9: `brelse(b)` on a held buffer of an intact list decrements `b->refcnt` by exactly one
and touches no other buffer.  If the count reaches 0, `b` becomes the first element of the
recency list (`head.next`), the order of all other buffers is unchanged, and the list still
holds each of the `NBUF` buffers exactly once; if the count stays nonzero, the list pointers
and hence the order are unchanged. -/
theorem brelse_spec (c : Config) (s : State) (b : Nat) (hok : ListOK c s) (hb : b < c.NBUF)
    (hl : (s.bufs b).locked = true) (hr0 : 0 < (s.bufs b).refcnt)
    (hr1 : (s.bufs b).refcnt < U32) :
    ∃ s', brelse c s b = .ok (s', ()) ∧
      (s'.bufs b).refcnt + 1 = (s.bufs b).refcnt ∧
      (∀ j, j ≠ b → s'.bufs j = s.bufs j) ∧
      ((s'.bufs b).refcnt = 0 →
        recency c s' = b :: (recency c s).erase b ∧
        (recency c s').filter (fun x => decide (x ≠ b)) =
          (recency c s).filter (fun x => decide (x ≠ b)) ∧
        (recency c s').Nodup ∧ (∀ i, i ∈ recency c s' ↔ i < c.NBUF) ∧ ListOK c s') ∧
      ((s'.bufs b).refcnt ≠ 0 →
        s'.next = s.next ∧ s'.prev = s.prev ∧ recency c s' = recency c s) := by
  obtain ⟨s', h1, h2, -, -, -, -, -, -, h3, h4⟩ := brelse_eq hok hb hl
  have hdec : ((s.bufs b).refcnt + U32 - 1) % U32 = (s.bufs b).refcnt - 1 := by
    rw [Nat.add_comm, Nat.add_sub_assoc hr0, Nat.add_mod_left]
    exact Nat.mod_eq_of_lt (by omega)
  have hrb : (s'.bufs b).refcnt = (s.bufs b).refcnt - 1 := by
    rw [h2, Function.update_same]; exact hdec
  refine ⟨s', h1, by omega, fun j hj => by rw [h2, Function.update_noteq hj], fun hz => ?_,
    fun hnz => ?_⟩
  · obtain ⟨e, hok'⟩ := h3 (by rw [hdec, ← hrb]; exact hz)
    refine ⟨e, ?_, (List.nodup_cons.1 hok'.1.2.2).2, hok'.mem_iff, hok'⟩
    rw [e, List.filter_cons_of_neg (by simp), filter_ne_erase]
  · obtain ⟨e1, e2⟩ := h4 (by rw [hdec, ← hrb]; exact hnz)
    refine ⟨e1, e2, ?_⟩
    simp only [recency, e1]

/-- Worked example for C9: buffer 0, held once after `bget(1, 7)`, is released and moves from
the tail of the recency list to its front. -/
theorem brelse_spec_witness :
    (ListOK cfg0 st1 ∧ 0 < cfg0.NBUF ∧ (st1.bufs 0).locked = true ∧ 0 < (st1.bufs 0).refcnt ∧
      (st1.bufs 0).refcnt < U32) ∧
    ∃ s', brelse cfg0 st1 0 = .ok (s', ()) ∧
      (s'.bufs 0).refcnt + 1 = (st1.bufs 0).refcnt ∧
      (∀ j, j ≠ 0 → s'.bufs j = st1.bufs j) ∧
      ((s'.bufs 0).refcnt = 0 →
        recency cfg0 s' = 0 :: (recency cfg0 st1).erase 0 ∧
        (recency cfg0 s').filter (fun x => decide (x ≠ 0)) =
          (recency cfg0 st1).filter (fun x => decide (x ≠ 0)) ∧
        (recency cfg0 s').Nodup ∧ (∀ i, i ∈ recency cfg0 s' ↔ i < cfg0.NBUF) ∧
        ListOK cfg0 s') ∧
      ((s'.bufs 0).refcnt ≠ 0 →
        s'.next = st1.next ∧ s'.prev = st1.prev ∧ recency cfg0 s' = recency cfg0 st1) :=
  ⟨⟨by decide, by decide, by decide, by decide, by decide⟩,
    brelse_spec cfg0 st1 0 (by decide) (by decide) (by decide) (by decide) (by decide)⟩

/-! ## binit -/

theorem binit_loop_ring (c : Config) : ∀ (n b : Nat) (s : State),
    b + n ≤ c.NBUF → Ring c.NBUF s.next s.prev (List.range b).reverse →
      Ring c.NBUF (binit_loop c n b s).next (binit_loop c n b s).prev
        (List.range (b + n)).reverse
  | 0, b, s, _, hr => by simpa [binit_loop] using hr
  | n + 1, b, s, hle, hr => by
    have hbh : b ≠ c.NBUF := by omega
    have hb : b ∉ c.NBUF :: (List.range b).reverse := by simp [hbh]
    have hins := hr.insert hb
    rw [← List.reverse_concat, ← List.range_succ] at hins
    have := binit_loop_ring c n (b + 1)
      { s with
        next := Function.update (Function.update s.next b (s.next c.NBUF)) c.NBUF b,
        prev := Function.update (Function.update s.prev b c.NBUF) (s.next c.NBUF) b,
        bufs := Function.update s.bufs b { s.bufs b with locked := false } }
      (by omega) hins
    have e : b + (n + 1) = b + 1 + n := by omega
    rw [e]
    simp only [binit_loop, State.setBuf, Function.update_noteq hbh.symm]
    exact this

/-- After boot the recency list is intact and holds the buffers in the order
`NBUF - 1, ..., 1, 0`. -/
theorem boot_listOK (c : Config) (disk : Nat → Nat → Nat) (pbn fail : Int) (sb : Superblock) :
    recency c (boot c disk pbn fail sb) = (List.range c.NBUF).reverse ∧
      ListOK c (boot c disk pbn fail sb) := by
  refine recency_of_ring ?_ (by simp) (by simp)
  have h0 : Ring c.NBUF (Function.update (fun _ => 0) c.NBUF c.NBUF)
      (Function.update (fun _ => 0) c.NBUF c.NBUF) (List.range 0).reverse := by
    simp [Ring, Linked]
  have := binit_loop_ring c c.NBUF 0
    ⟨fun _ => Buf.zero, Function.update (fun _ => 0) c.NBUF c.NBUF,
      Function.update (fun _ => 0) c.NBUF c.NBUF, disk, pbn, fail, sb, [], [],
      fun _ => Inode.zero⟩ (by omega) h0
  simpa [boot, binit] using this

/-! ## bread and bwrite -/

theorem toInt32_of_lt {x : Nat} (h : x < 2147483648) : toInt32 x = (x : Int) := by
  have h2 : x % U32 = x := Nat.mod_eq_of_lt (by unfold U32; omega)
  simp [toInt32, h2, h]

theorem acquiresleep_ok {s s1 : State} {b : Nat} {u : Unit}
    (h : acquiresleep s b = .ok (s1, u)) :
    (s.bufs b).locked = false ∧ s1 = s.setBuf b { s.bufs b with locked := true } := by
  unfold acquiresleep at h
  by_cases hl : (s.bufs b).locked = true
  · simp [hl] at h
  · simp only [hl, Bool.false_eq_true, if_false, Except.ok.injEq, Prod.mk.injEq] at h
    exact ⟨by simpa using hl, h.1.symm⟩

theorem bget_cached_found (c : Config) (s : State) (dev blockno x : Nat) :
    ∀ (fuel a : Nat), bget_cached c s dev blockno fuel a = Scan.found x →
      (s.bufs x).holds dev blockno
  | 0, a, h => by simp [bget_cached] at h
  | fuel + 1, a, h => by
    unfold bget_cached at h
    split at h
    · simp at h
    · split at h
      · rename_i hh
        simp only [Scan.found.injEq] at h
        subst h
        exact hh
      · exact bget_cached_found c s dev blockno x fuel _ h

theorem bget_recycle_found (c : Config) (s : State) (x : Nat) :
    ∀ (fuel a : Nat), bget_recycle c s fuel a = Scan.found x → (s.bufs x).refcnt = 0
  | 0, a, h => by simp [bget_recycle] at h
  | fuel + 1, a, h => by
    unfold bget_recycle at h
    split at h
    · simp at h
    · split at h
      · rename_i hh
        simp only [Scan.found.injEq] at h
        subst h
        exact hh
      · exact bget_recycle_found c s x fuel _ h

/-- What `bget` can have done when it returns buffer `b`: it either took a reference to `b`,
which holds the block, or recycled `b`, which was unused. -/
theorem bget_ok {c : Config} {s s1 : State} {dev blockno b : Nat}
    (h : bget c s dev blockno = .ok (s1, b)) :
    (s.bufs b).locked = false ∧
    ((s1 = s.setBuf b { s.bufs b with refcnt := ((s.bufs b).refcnt + 1) % U32, locked := true } ∧
        (s.bufs b).holds dev blockno) ∨
      (s1 = s.setBuf b { s.bufs b with dev := dev, blockno := blockno, valid := 0, refcnt := 1,
                                       locked := true } ∧ (s.bufs b).refcnt = 0)) := by
  unfold bget at h
  cases hsc : bget_cached c s dev blockno (c.NBUF + 1) (s.next c.NBUF) with
  | found x =>
    simp only [hsc] at h
    cases ha : acquiresleep (s.setBuf x
        { s.bufs x with refcnt := ((s.bufs x).refcnt + 1) % U32 }) x with
    | error e => simp [ha] at h
    | ok r =>
      obtain ⟨s2, u⟩ := r
      simp only [ha, Except.ok.injEq, Prod.mk.injEq] at h
      obtain ⟨rfl, rfl⟩ := h
      obtain ⟨hl, hs⟩ := acquiresleep_ok ha
      simp only [setBuf_bufs_same, setBuf_setBuf] at hl hs
      exact ⟨hl, Or.inl ⟨hs, bget_cached_found c s dev blockno _ _ _ hsc⟩⟩
  | nofuel => simp [hsc] at h
  | notfound =>
    simp only [hsc] at h
    cases hrc : bget_recycle c s (c.NBUF + 1) (s.prev c.NBUF) with
    | found x =>
      simp only [hrc] at h
      cases ha : acquiresleep (s.setBuf x
          { s.bufs x with dev := dev, blockno := blockno, valid := 0, refcnt := 1 }) x with
      | error e => simp [ha] at h
      | ok r =>
        obtain ⟨s2, u⟩ := r
        simp only [ha, Except.ok.injEq, Prod.mk.injEq] at h
        obtain ⟨rfl, rfl⟩ := h
        obtain ⟨hl, hs⟩ := acquiresleep_ok ha
        simp only [setBuf_bufs_same, setBuf_setBuf] at hl hs
        exact ⟨hl, Or.inr ⟨hs, bget_recycle_found c s _ _ _ hrc⟩⟩
    | nofuel => simp [hrc] at h
    | notfound => simp [hrc] at h

/-- C5 (mirror fallback): with a read fault injected for logical block `X`
(`force_read_error_pbn = X`), whenever `bget` hands out a buffer, `bread(dev, X)` returns that
buffer with its data equal to the disk content of block `X + DISK1_START_BLOCK` (a `uint`
sum), its `blockno` equal to `X` and its `valid` flag set; whatever the cache held before. -/
theorem bread_fallback (c : Config) (s s1 : State) (dev X b : Nat) (hX : X < 2147483648)
    (hf : s.force_read_error_pbn = (X : Int)) (hget : bget c s dev X = .ok (s1, b)) :
    ∃ s2, bread c s dev X = .ok (s2, b) ∧
      (s2.bufs b).data = s.disk ((X + c.DISK1_START_BLOCK) % U32) ∧
      (s2.bufs b).blockno = X ∧ (s2.bufs b).valid = 1 := by
  have hd : s1.disk = s.disk := by
    rcases (bget_ok hget).2 with ⟨h, -⟩ | ⟨h, -⟩ <;> rw [h] <;> rfl
  simp only [bread, hget, hf, toInt32_of_lt hX, beq_self_eq_true, Bool.or_true, or_true,
    if_true, virtio_disk_rw, setBuf_bufs_same, Bool.false_eq_true, if_false]
  refine ⟨_, rfl, ?_, ?_, ?_⟩ <;> simp [State.setBuf, hd]

/-- Worked example for C5: a fault is injected for block 7; `bread(1, 7)` delivers the
content of block 107. -/
theorem bread_fallback_witness :
    ((7 : Nat) < 2147483648 ∧
      (boot cfg0 disk0 7 (-1) sb0).force_read_error_pbn = ((7 : Nat) : Int) ∧
      ∃ s1, bget cfg0 (boot cfg0 disk0 7 (-1) sb0) 1 7 = .ok (s1, 0)) ∧
    ∃ s2, bread cfg0 (boot cfg0 disk0 7 (-1) sb0) 1 7 = .ok (s2, 0) ∧
      (s2.bufs 0).data = (boot cfg0 disk0 7 (-1) sb0).disk ((7 + cfg0.DISK1_START_BLOCK) % U32) ∧
      (s2.bufs 0).blockno = 7 ∧ (s2.bufs 0).valid = 1 :=
  ⟨⟨by decide, rfl, _, rfl⟩, bread_fallback cfg0 _ _ 1 7 0 (by decide) rfl rfl⟩

theorem mirror_ne {X D : Nat} (hD0 : 0 < D) (hD1 : D < U32) :
    (X + D) % U32 ≠ X := by
  unfold U32 at *
  omega

/-- C6: `bwrite(b)` on a held buffer with `blockno = X` treats the two mirrors independently.
The primary copy (block `X`) becomes the buffer data iff disk 0 is not flagged failed and `X`
is not the fault-flagged block, and is unchanged otherwise; the secondary copy (block
`X + DISK1_START_BLOCK`) becomes the buffer data iff disk 1 is not flagged failed, so in
particular when disk 0 is flagged failed; no other block changes; and `b->blockno` is `X`
again, with the rest of the buffer untouched, when `bwrite` returns. -/
theorem bwrite_spec (c : Config) (s : State) (b : Nat) (hl : (s.bufs b).locked = true)
    (hD0 : 0 < c.DISK1_START_BLOCK) (hD1 : c.DISK1_START_BLOCK < U32) :
    ∃ s', bwrite c s b = .ok (s', ()) ∧
      s'.disk (s.bufs b).blockno =
        (if s.force_disk_fail_id ≠ 0 ∧ s.force_read_error_pbn ≠ toInt32 (s.bufs b).blockno
          then (s.bufs b).data else s.disk (s.bufs b).blockno) ∧
      s'.disk (((s.bufs b).blockno + c.DISK1_START_BLOCK) % U32) =
        (if s.force_disk_fail_id ≠ 1 then (s.bufs b).data
          else s.disk (((s.bufs b).blockno + c.DISK1_START_BLOCK) % U32)) ∧
      (s.force_disk_fail_id = 0 →
        s'.disk (((s.bufs b).blockno + c.DISK1_START_BLOCK) % U32) = (s.bufs b).data) ∧
      (∀ n, n ≠ (s.bufs b).blockno → n ≠ ((s.bufs b).blockno + c.DISK1_START_BLOCK) % U32 →
        s'.disk n = s.disk n) ∧
      s'.bufs = s.bufs := by
  have hne := mirror_ne (X := (s.bufs b).blockno) hD0 hD1
  simp only [bwrite, holdingsleep, hl, Bool.not_true, Bool.false_eq_true, if_false]
  refine ⟨_, rfl, ?_, ?_, ?_, ?_, ?_⟩
  · by_cases h0 : s.force_disk_fail_id = 0
    · simp [h0, virtio_disk_rw, State.setBuf, hne.symm]
    · by_cases hp : s.force_read_error_pbn = toInt32 (s.bufs b).blockno
      · by_cases h1 : s.force_disk_fail_id = 1
        · simp [h0, h1, hp, virtio_disk_rw, State.setBuf]
        · simp [h0, h1, hp, virtio_disk_rw, State.setBuf, hne.symm]
      · by_cases h1 : s.force_disk_fail_id = 1
        · simp [h0, h1, hp, virtio_disk_rw, State.setBuf]
        · simp [h0, h1, hp, virtio_disk_rw, State.setBuf, hne.symm]
  · by_cases h0 : s.force_disk_fail_id = 0
    · simp [h0, virtio_disk_rw, State.setBuf]
    · by_cases hp : s.force_read_error_pbn = toInt32 (s.bufs b).blockno
      · by_cases h1 : s.force_disk_fail_id = 1
        · simp [h0, h1, hp, virtio_disk_rw, State.setBuf]
        · simp [h0, h1, hp, virtio_disk_rw, State.setBuf]
      · by_cases h1 : s.force_disk_fail_id = 1
        · simp [h0, h1, hp, virtio_disk_rw, State.setBuf, hne]
        · simp [h0, h1, hp, virtio_disk_rw, State.setBuf]
  · intro h0
    simp [h0, virtio_disk_rw, State.setBuf]
  · intro n hn1 hn2
    by_cases h0 : s.force_disk_fail_id = 0
    · simp [h0, virtio_disk_rw, State.setBuf, hn2]
    · by_cases hp : s.force_read_error_pbn = toInt32 (s.bufs b).blockno
      · by_cases h1 : s.force_disk_fail_id = 1
        · simp [h0, h1, hp, virtio_disk_rw, State.setBuf]
        · simp [h0, h1, hp, virtio_disk_rw, State.setBuf, hn2]
      · by_cases h1 : s.force_disk_fail_id = 1
        · simp [h0, h1, hp, virtio_disk_rw, State.setBuf, hn1]
        · simp [h0, h1, hp, virtio_disk_rw, State.setBuf, hn1, hn2]
  · by_cases h0 : s.force_disk_fail_id = 0
    · simp [h0, virtio_disk_rw, State.setBuf]
    · by_cases hp : s.force_read_error_pbn = toInt32 (s.bufs b).blockno
      · by_cases h1 : s.force_disk_fail_id = 1
        · simp [h0, h1, hp, virtio_disk_rw, State.setBuf]
        · simp [h0, h1, hp, virtio_disk_rw, State.setBuf]
      · by_cases h1 : s.force_disk_fail_id = 1
        · simp [h0, h1, hp, virtio_disk_rw, State.setBuf]
        · simp [h0, h1, hp, virtio_disk_rw, State.setBuf]

/-- Worked example for C6: buffer 0 is held for block 7 and no fault is injected; `bwrite`
stores its data in block 7 and in block 107 and in no other block. -/
theorem bwrite_spec_witness :
    ((st1.bufs 0).locked = true ∧ 0 < cfg0.DISK1_START_BLOCK ∧ cfg0.DISK1_START_BLOCK < U32) ∧
    ∃ s', bwrite cfg0 st1 0 = .ok (s', ()) ∧
      s'.disk (st1.bufs 0).blockno =
        (if st1.force_disk_fail_id ≠ 0 ∧ st1.force_read_error_pbn ≠ toInt32 (st1.bufs 0).blockno
          then (st1.bufs 0).data else st1.disk (st1.bufs 0).blockno) ∧
      s'.disk (((st1.bufs 0).blockno + cfg0.DISK1_START_BLOCK) % U32) =
        (if st1.force_disk_fail_id ≠ 1 then (st1.bufs 0).data
          else st1.disk (((st1.bufs 0).blockno + cfg0.DISK1_START_BLOCK) % U32)) ∧
      (st1.force_disk_fail_id = 0 →
        s'.disk (((st1.bufs 0).blockno + cfg0.DISK1_START_BLOCK) % U32) = (st1.bufs 0).data) ∧
      (∀ n, n ≠ (st1.bufs 0).blockno →
        n ≠ ((st1.bufs 0).blockno + cfg0.DISK1_START_BLOCK) % U32 → s'.disk n = st1.disk n) ∧
      s'.bufs = st1.bufs :=
  ⟨⟨by decide, by decide, by decide⟩,
    bwrite_spec cfg0 st1 0 (by decide) (by decide) (by decide)⟩

/-! ## Eviction order along a run -/

theorem bget_pointers {c : Config} {s s1 : State} {dev blockno b : Nat}
    (h : bget c s dev blockno = .ok (s1, b)) : s1.next = s.next ∧ s1.prev = s.prev := by
  rcases (bget_ok h).2 with ⟨e, -⟩ | ⟨e, -⟩ <;> rw [e] <;> exact ⟨rfl, rfl⟩

theorem bread_pointers {c : Config} {s s1 : State} {dev blockno b : Nat}
    (h : bread c s dev blockno = .ok (s1, b)) : s1.next = s.next ∧ s1.prev = s.prev := by
  unfold bread at h
  cases hg : bget c s dev blockno with
  | error e => simp [hg] at h
  | ok r =>
    obtain ⟨s2, b2⟩ := r
    have hp := bget_pointers hg
    simp only [hg] at h
    split at h
    · split at h
      · simp only [Except.ok.injEq, Prod.mk.injEq] at h
        rw [← h.1]; exact hp
      · simp only [Except.ok.injEq, Prod.mk.injEq] at h
        rw [← h.1]; exact hp
    · simp only [Except.ok.injEq, Prod.mk.injEq] at h
      rw [← h.1]; exact hp

theorem listOK_congr {c : Config} {s s1 : State} (hn : s1.next = s.next) (hp : s1.prev = s.prev) :
    recency c s1 = recency c s ∧ (ListOK c s → ListOK c s1) := by
  have e : recency c s1 = recency c s := by simp only [recency, hn]
  refine ⟨e, fun h => ?_⟩
  unfold ListOK at h ⊢
  rw [e, hn, hp]
  exact h

theorem brelse_locked {c : Config} {s s1 : State} {b : Nat} {u : Unit}
    (h : brelse c s b = .ok (s1, u)) : (s.bufs b).locked = true := by
  unfold brelse holdingsleep at h
  by_cases hl : (s.bufs b).locked = true
  · exact hl
  · simp [hl] at h

theorem runInv_boot (c : Config) (disk : Nat → Nat → Nat) (pbn fail : Int) (sb : Superblock) :
    RunInv c (bootTraced c disk pbn fail sb) := by
  obtain ⟨e, hok⟩ := boot_listOK c disk pbn fail sb
  refine ⟨hok, fun i => Nat.le_refl _, ?_⟩
  show (recency c (boot c disk pbn fail sb)).Pairwise _
  rw [e, List.pairwise_reverse]
  refine (List.pairwise_lt_range c.NBUF).imp ?_
  intro a b hab
  exact Or.inr ⟨rfl, rfl, hab⟩

theorem runInv_keep {c : Config} {t : Traced} {s1 : State} (h : RunInv c t)
    (hn : s1.next = t.st.next) (hp : s1.prev = t.st.prev) :
    RunInv c { t with st := s1, clock := t.clock + 1 } := by
  obtain ⟨e, hk⟩ := listOK_congr (c := c) hn hp
  refine ⟨hk h.1, fun i => Nat.le_succ_of_le (h.2.1 i), ?_⟩
  show (recency c s1).Pairwise _
  rw [e]
  exact h.2.2

theorem runInv_step {c : Config} {t t1 : Traced} {op : BioOp} (h : RunInv c t)
    (hs : bioStep c t op = some t1) : RunInv c t1 := by
  cases op with
  | bget dev blockno =>
    simp only [bioStep] at hs
    cases hg : bget c t.st dev blockno with
    | error e => simp [hg] at hs
    | ok r =>
      obtain ⟨s1, b⟩ := r
      simp only [hg, Option.some.injEq] at hs
      subst hs
      exact runInv_keep h (bget_pointers hg).1 (bget_pointers hg).2
  | bread dev blockno =>
    simp only [bioStep] at hs
    cases hg : bread c t.st dev blockno with
    | error e => simp [hg] at hs
    | ok r =>
      obtain ⟨s1, b⟩ := r
      simp only [hg, Option.some.injEq] at hs
      subst hs
      exact runInv_keep h (bread_pointers hg).1 (bread_pointers hg).2
  | bpin b =>
    simp only [bioStep] at hs
    split at hs
    · simp only [Option.some.injEq] at hs
      subst hs
      exact runInv_keep h rfl rfl
    · simp at hs
  | bunpin b =>
    simp only [bioStep] at hs
    split at hs
    · simp only [Option.some.injEq] at hs
      subst hs
      exact runInv_keep h rfl rfl
    · simp at hs
  | brelse b =>
    simp only [bioStep] at hs
    split at hs
    · rename_i hb
      cases hg : brelse c t.st b with
      | error e => simp [hg] at hs
      | ok r =>
        obtain ⟨s1, u⟩ := r
        simp only [hg, Option.some.injEq] at hs
        obtain ⟨s2, h1, h2, -, -, -, -, -, -, h3, h4⟩ := brelse_eq h.1 hb (brelse_locked hg)
        rw [hg] at h1
        simp only [Except.ok.injEq, Prod.mk.injEq, and_true] at h1
        subst h1
        have hrb : (s1.bufs b).refcnt = ((t.st.bufs b).refcnt + U32 - 1) % U32 := by
          rw [h2, Function.update_same]
        by_cases hz : (s1.bufs b).refcnt = 0
        · simp only [hz, if_true] at hs
          subst hs
          obtain ⟨e, hok1⟩ := h3 (hrb ▸ hz)
          refine ⟨hok1, fun i => ?_, ?_⟩
          · show Function.update t.fronted b (t.clock + 1) i ≤ t.clock + 1
            by_cases hi : i = b
            · subst hi; simp
            · rw [Function.update_noteq hi]; exact Nat.le_succ_of_le (h.2.1 i)
          · show (recency c s1).Pairwise _
            rw [e]
            have hnd : (recency c t.st).Nodup := (List.nodup_cons.1 h.1.1.2.2).2
            have hne : ∀ y ∈ (recency c t.st).erase b, y ≠ b := by
              intro y hy e2
              subst e2
              exact (List.Nodup.mem_erase_iff hnd).1 hy |>.1 rfl
            refine List.pairwise_cons.2 ⟨fun y hy => Or.inl ?_, ?_⟩
            · show Function.update t.fronted b (t.clock + 1) y <
                Function.update t.fronted b (t.clock + 1) b
              rw [Function.update_same, Function.update_noteq (hne y hy)]
              exact Nat.lt_succ_of_le (h.2.1 y)
            · have hsub := (List.erase_sublist b (recency c t.st))
              have hp := h.2.2.sublist hsub
              refine hp.imp_of_mem ?_
              intro x y hx hy hxy
              unfold Newer at hxy ⊢
              show Function.update t.fronted b (t.clock + 1) y <
                  Function.update t.fronted b (t.clock + 1) x ∨
                (Function.update t.fronted b (t.clock + 1) x = 0 ∧
                  Function.update t.fronted b (t.clock + 1) y = 0 ∧ y < x)
              rw [Function.update_noteq (hne x hx), Function.update_noteq (hne y hy)]
              exact hxy
        · simp only [hz, if_false] at hs
          subst hs
          obtain ⟨e1, e2⟩ := h4 (hrb ▸ hz)
          obtain ⟨e, hk⟩ := listOK_congr (c := c) e1 e2
          refine ⟨hk h.1, fun i => Nat.le_succ_of_le (h.2.1 i), ?_⟩
          show (recency c s1).Pairwise _
          rw [e]
          exact h.2.2
    · simp at hs

theorem runInv_run {c : Config} : ∀ (ops : List BioOp) (t t1 : Traced), RunInv c t →
    bioRun c t ops = some t1 → RunInv c t1
  | [], t, t1, h, hr => by
    simp only [bioRun, Option.some.injEq] at hr
    subst hr; exact h
  | op :: ops, t, t1, h, hr => by
    simp only [bioRun] at hr
    cases hs : bioStep c t op with
    | none => simp [hs] at hr
    | some t2 =>
      simp only [hs] at hr
      exact runInv_run ops t2 t1 (runInv_step h hs) hr

theorem pinnedRun_end :
    bioRun cfg0 (bootTraced cfg0 disk0 (-1) (-1) sb0) pinnedRun = some pinnedEnd := rfl

theorem pinnedEnd_bget : bget cfg0 pinnedEnd.st 1 3 = .ok (pinnedEvict, 0) := rfl

/-- C8, as stated, fails: in the run `pinnedRun` from boot, buffer 1 is released at call 3 and
buffer 0, pinned meanwhile, at call 5; after `bunpin` both have `refcnt` 0, no buffer holds
block 3, and `bget(1, 3)` evicts buffer 0 although buffer 1 was released less recently. -/
theorem lru_release_counterexample :
    bioRun cfg0 (bootTraced cfg0 disk0 (-1) (-1) sb0) pinnedRun = some pinnedEnd ∧
      (¬ ∃ i, i < cfg0.NBUF ∧ (pinnedEnd.st.bufs i).holds 1 3) ∧
      bget cfg0 pinnedEnd.st 1 3 = .ok (pinnedEvict, 0) ∧
      (pinnedEnd.st.bufs 0).refcnt = 0 ∧ (pinnedEnd.st.bufs 1).refcnt = 0 ∧
      pinnedEnd.released 1 = 3 ∧ pinnedEnd.released 0 = 5 :=
  ⟨pinnedRun_end, by decide, pinnedEnd_bget, by decide, by decide, by decide, by decide⟩

/-- C8, amended: in every state reached from boot by `bget`, `bread`, `brelse`, `bpin` and
`bunpin` calls, when `bget` misses and evicts buffer `e`, then `e` has `refcnt` 0 and every
other buffer `f` with `refcnt` 0 was moved to the front of the recency list, by a `brelse`
that left its `refcnt` at 0, later than `e` was; buffers never moved since `binit` count as
oldest, the lower index first. -/
theorem lru_eviction (c : Config) (disk : Nat → Nat → Nat) (pbn fail : Int) (sb : Superblock)
    (ops : List BioOp) (t : Traced) (dev blockno e : Nat) (s' : State)
    (hrun : bioRun c (bootTraced c disk pbn fail sb) ops = some t)
    (hmiss : ¬ ∃ i, i < c.NBUF ∧ (t.st.bufs i).holds dev blockno)
    (hget : bget c t.st dev blockno = .ok (s', e)) :
    (t.st.bufs e).refcnt = 0 ∧
      ∀ f, f < c.NBUF → f ≠ e → (t.st.bufs f).refcnt = 0 → Newer t f e := by
  have hinv := runInv_run ops _ _ (runInv_boot c disk pbn fail sb) hrun
  have hok := hinv.1
  have hc := (cachedBuf_eq_none_iff hok dev blockno).2 hmiss
  cases hv : victimBuf c t.st with
  | none =>
    rw [bget_none hok hc hv] at hget
    cases hget
  | some b =>
    obtain ⟨l1, l2, he, hr, hall⟩ := (victimBuf_eq_some_iff b).1 hv
    have hb : b = e := by
      by_cases hl : (t.st.bufs b).locked = false
      · rw [bget_miss hok hc hv hl] at hget
        simp only [Except.ok.injEq, Prod.mk.injEq] at hget
        exact hget.2
      · simp only [bget, bget_cached_eq hok, bget_recycle_eq hok, hc, hv, acquiresleep,
          setBuf_bufs_same] at hget
        simp only [Bool.not_eq_false] at hl
        simp [hl] at hget
    subst hb
    refine ⟨hr, fun f hf hfe hf0 => ?_⟩
    have hmem : f ∈ recency c t.st := (hok.mem_iff f).2 hf
    rw [he] at hmem
    have hp := hinv.2.2
    rw [he] at hp
    simp only [List.mem_append, List.mem_cons] at hmem
    rcases hmem with h1 | h2 | h3
    · exact (List.pairwise_append.1 hp).2.2 f h1 b (List.mem_cons_self _ _)
    · exact absurd h2 hfe
    · exact absurd hf0 (hall f h3)

/-- Worked example for the amended C8: after `pinnedRun`, `bget(1, 3)` evicts buffer 0, which
was never moved to the front, while buffer 1 was, at call 3. -/
theorem lru_eviction_witness :
    (bioRun cfg0 (bootTraced cfg0 disk0 (-1) (-1) sb0) pinnedRun = some pinnedEnd ∧
      (¬ ∃ i, i < cfg0.NBUF ∧ (pinnedEnd.st.bufs i).holds 1 3) ∧
      bget cfg0 pinnedEnd.st 1 3 = .ok (pinnedEvict, 0)) ∧
    (pinnedEnd.st.bufs 0).refcnt = 0 ∧
      ∀ f, f < cfg0.NBUF → f ≠ 0 → (pinnedEnd.st.bufs f).refcnt = 0 → Newer pinnedEnd f 0 :=
  ⟨⟨pinnedRun_end, by decide, pinnedEnd_bget⟩,
    lru_eviction cfg0 disk0 (-1) (-1) sb0 pinnedRun pinnedEnd 1 3 0 pinnedEvict pinnedRun_end
      (by decide) pinnedEnd_bget⟩

/-! ## The valid flag along a run -/

/-- On an intact list `bget` returns the cached buffer if there is one and the victim
otherwise. -/
theorem bget_cases {c : Config} {s s1 : State} {dev blockno b : Nat} (hok : ListOK c s)
    (h : bget c s dev blockno = .ok (s1, b)) :
    b < c.NBUF ∧
    ((cachedBuf c s dev blockno = some b ∧
        s1 = s.setBuf b { s.bufs b with refcnt := ((s.bufs b).refcnt + 1) % U32,
                                        locked := true }) ∨
      (cachedBuf c s dev blockno = none ∧ victimBuf c s = some b ∧
        s1 = s.setBuf b { s.bufs b with dev := dev, blockno := blockno, valid := 0,
                                        refcnt := 1, locked := true })) := by
  cases hc : cachedBuf c s dev blockno with
  | some x =>
    have hx := cachedBuf_some hok hc
    by_cases hl : (s.bufs x).locked = false
    · rw [bget_hit hok hc hl] at h
      simp only [Except.ok.injEq, Prod.mk.injEq] at h
      obtain ⟨h1, rfl⟩ := h
      exact ⟨hx.1, Or.inl ⟨rfl, h1.symm⟩⟩
    · simp only [bget, bget_cached_eq hok, hc, acquiresleep, setBuf_bufs_same] at h
      simp only [Bool.not_eq_false] at hl
      simp [hl] at h
  | none =>
    cases hv : victimBuf c s with
    | none =>
      rw [bget_none hok hc hv] at h
      cases h
    | some x =>
      obtain ⟨l1, l2, he, -, -⟩ := (victimBuf_eq_some_iff x).1 hv
      have hx : x < c.NBUF := (hok.mem_iff x).1 (by rw [he]; simp)
      by_cases hl : (s.bufs x).locked = false
      · rw [bget_miss hok hc hv hl] at h
        simp only [Except.ok.injEq, Prod.mk.injEq] at h
        obtain ⟨h1, rfl⟩ := h
        exact ⟨hx, Or.inr ⟨rfl, rfl, h1.symm⟩⟩
      · simp only [bget, bget_cached_eq hok, bget_recycle_eq hok, hc, hv, acquiresleep,
          setBuf_bufs_same] at h
        simp only [Bool.not_eq_false] at hl
        simp [hl] at h

/-- A returning `brelse` keeps the list intact and changes neither the transfer history nor
any field of a buffer other than the lock and `refcnt` of `b`. -/
theorem brelse_keeps {c : Config} {s s1 : State} {b : Nat} {u : Unit} (hok : ListOK c s)
    (hb : b < c.NBUF) (h : brelse c s b = .ok (s1, u)) :
    ListOK c s1 ∧ s1.xfers = s.xfers ∧ s1.disk = s.disk ∧
      ∀ i, (s1.bufs i).valid = (s.bufs i).valid ∧ (s1.bufs i).dev = (s.bufs i).dev ∧
        (s1.bufs i).blockno = (s.bufs i).blockno ∧ (s1.bufs i).data = (s.bufs i).data := by
  obtain ⟨s2, h1, h2, h3, h4, -, -, -, -, h5, h6⟩ := brelse_eq hok hb (brelse_locked h)
  rw [h] at h1
  simp only [Except.ok.injEq, Prod.mk.injEq, and_true] at h1
  subst h1
  refine ⟨?_, h4, h3, fun i => ?_⟩
  · by_cases hz : ((s.bufs b).refcnt + U32 - 1) % U32 = 0
    · exact (h5 hz).2
    · exact (listOK_congr (h6 hz).1 (h6 hz).2).2 hok
  · rw [h2]
    by_cases hi : i = b
    · subst hi; simp
    · simp [Function.update_noteq hi]

theorem newXfers_same {s s1 : State} (h : s1.xfers = s.xfers) : newXfers s s1 = [] := by
  simp [newXfers, h]

theorem newXfers_cons {s s1 : State} {x : Xfer} (h : s1.xfers = x :: s.xfers) :
    newXfers s s1 = [x] := by
  simp [newXfers, h]

theorem newXfers_cons2 {s s1 : State} {x y : Xfer} (h : s1.xfers = x :: y :: s.xfers) :
    newXfers s s1 = [x, y] := by
  have e : s.xfers.length + 1 + 1 - s.xfers.length = 2 := by omega
  simp [newXfers, h, e]

/-- What a returning `bread` did after its `bget`: nothing, on a valid buffer without an
injected fault, or else one disk read into the buffer, which is then valid. -/
theorem bread_cases {c : Config} {s s1 : State} {dev blockno b : Nat}
    (h : bread c s dev blockno = .ok (s1, b)) :
    ∃ s0, bget c s dev blockno = .ok (s0, b) ∧
      ((s1 = s0 ∧ (s0.bufs b).valid ≠ 0) ∨
        ((∃ n, s1.xfers = { buf := b, blockno := n, write := false } :: s0.xfers) ∧
          (s1.bufs b).valid = 1 ∧ (∀ i, i ≠ b → s1.bufs i = s0.bufs i) ∧
          s1.next = s0.next ∧ s1.prev = s0.prev)) := by
  unfold bread at h
  cases hg : bget c s dev blockno with
  | error e => simp [hg] at h
  | ok r =>
    obtain ⟨s0, b0⟩ := r
    simp only [hg] at h
    split at h
    · split at h
      · simp only [Except.ok.injEq, Prod.mk.injEq] at h
        obtain ⟨rfl, rfl⟩ := h
        refine ⟨s0, rfl, Or.inr ⟨⟨_, rfl⟩, by simp, fun i hi => ?_, rfl, rfl⟩⟩
        simp [virtio_disk_rw, State.setBuf, Function.update_noteq hi]
      · simp only [Except.ok.injEq, Prod.mk.injEq] at h
        obtain ⟨rfl, rfl⟩ := h
        refine ⟨s0, rfl, Or.inr ⟨⟨_, rfl⟩, by simp, fun i hi => ?_, rfl, rfl⟩⟩
        simp [virtio_disk_rw, State.setBuf, Function.update_noteq hi]
    · rename_i hnv
      simp only [Except.ok.injEq, Prod.mk.injEq] at h
      obtain ⟨rfl, rfl⟩ := h
      refine ⟨s0, rfl, Or.inl ⟨rfl, fun hv => hnv (Or.inl hv)⟩⟩

/-- The effect of a returning `bget` on the transfer history and the valid flags. -/
theorem bget_valid {c : Config} {s s0 : State} {dev blockno b : Nat} (hok : ListOK c s)
    (h : bget c s dev blockno = .ok (s0, b)) :
    s0.xfers = s.xfers ∧ ListOK c s0 ∧ b < c.NBUF ∧
      (∀ i, i ≠ b → s0.bufs i = s.bufs i) ∧
      ((match cachedBuf c s dev blockno with
          | some _ => none
          | none => victimBuf c s) = none ∨
        (match cachedBuf c s dev blockno with
          | some _ => none
          | none => victimBuf c s) = some b) ∧
      ((s0.bufs b).valid ≠ 0 → (s.bufs b).valid ≠ 0 ∧
        (match cachedBuf c s dev blockno with
          | some _ => none
          | none => victimBuf c s) = none) := by
  have hp := bget_pointers h
  obtain ⟨hb, hc⟩ := bget_cases hok h
  have hok0 := (listOK_congr hp.1 hp.2).2 hok
  rcases hc with ⟨hc, rfl⟩ | ⟨hc, hv, rfl⟩
  · refine ⟨rfl, hok0, hb, fun i hi => setBuf_bufs_ne _ _ hi, ?_, ?_⟩
    · simp [hc]
    · simp [hc]
  · refine ⟨rfl, hok0, hb, fun i hi => setBuf_bufs_ne _ _ hi, ?_, ?_⟩
    · simp [hc, hv]
    · simp

/-- The closing step for a call that went through `bget`: a buffer that is valid afterwards
either took part in a transfer of the call or was valid before and was not reassigned. -/
theorem valid_after_bget {c : Config} {s s0 s1 : State} {dev blockno b : Nat} {P : Xfer → Prop}
    (hok : ListOK c s) (h : bget c s dev blockno = .ok (s0, b))
    (hv : ∀ i, i ≠ b → (s1.bufs i).valid = (s0.bufs i).valid)
    (hb : (s1.bufs b).valid ≠ 0 →
      (∃ x ∈ newXfers s s1, x.buf = b ∧ P x) ∨ (s0.bufs b).valid ≠ 0) (i : Nat)
    (hi : (s1.bufs i).valid ≠ 0) :
    (∃ x ∈ newXfers s s1, x.buf = i ∧ P x) ∨ ((s.bufs i).valid ≠ 0 ∧
      (match cachedBuf c s dev blockno with
        | some _ => none
        | none => victimBuf c s) ≠ some i) := by
  obtain ⟨-, -, -, h4, h5, h6⟩ := bget_valid hok h
  by_cases hib : i = b
  · subst hib
    rcases hb hi with hx | hx
    · exact Or.inl hx
    · obtain ⟨h7, h8⟩ := h6 hx
      exact Or.inr ⟨h7, by rw [h8]; simp⟩
  · refine Or.inr ⟨?_, ?_⟩
    · rw [← h4 i hib, ← hv i hib]; exact hi
    · rcases h5 with h5 | h5 <;> rw [h5]
      · simp
      · simp only [ne_eq, Option.some.injEq]
        exact fun e => hib e.symm

theorem bwrite_keeps {c : Config} {s s1 : State} {b : Nat} {u : Unit}
    (h : bwrite c s b = .ok (s1, u)) :
    s1.bufs = s.bufs ∧ s1.next = s.next ∧ s1.prev = s.prev := by
  unfold bwrite at h
  split at h
  · simp at h
  · simp only [Except.ok.injEq, Prod.mk.injEq, and_true] at h
    subst h
    refine ⟨?_, ?_, ?_⟩
    · by_cases h0 : s.force_disk_fail_id = 0
      · by_cases h1 : s.force_disk_fail_id = 1 <;>
          simp [h0, h1, virtio_disk_rw, State.setBuf]
      · by_cases hp : (s.force_read_error_pbn == toInt32 (s.bufs b).blockno) = true
        · by_cases h1 : s.force_disk_fail_id = 1 <;>
            simp [h0, h1, hp, virtio_disk_rw, State.setBuf]
        · by_cases h1 : s.force_disk_fail_id = 1 <;>
            simp [h0, h1, hp, virtio_disk_rw, State.setBuf]
    · by_cases h0 : s.force_disk_fail_id = 0
      · by_cases h1 : s.force_disk_fail_id = 1 <;>
          simp [h0, h1, virtio_disk_rw, State.setBuf]
      · by_cases hp : (s.force_read_error_pbn == toInt32 (s.bufs b).blockno) = true
        · by_cases h1 : s.force_disk_fail_id = 1 <;>
            simp [h0, h1, hp, virtio_disk_rw, State.setBuf]
        · by_cases h1 : s.force_disk_fail_id = 1 <;>
            simp [h0, h1, hp, virtio_disk_rw, State.setBuf]
    · by_cases h0 : s.force_disk_fail_id = 0
      · by_cases h1 : s.force_disk_fail_id = 1 <;>
          simp [h0, h1, virtio_disk_rw, State.setBuf]
      · by_cases hp : (s.force_read_error_pbn == toInt32 (s.bufs b).blockno) = true
        · by_cases h1 : s.force_disk_fail_id = 1 <;>
            simp [h0, h1, hp, virtio_disk_rw, State.setBuf]
        · by_cases h1 : s.force_disk_fail_id = 1 <;>
            simp [h0, h1, hp, virtio_disk_rw, State.setBuf]

/-- One call keeps the list intact, and a buffer that is valid after it either took part in
a disk transfer of the call, a write only in `raw_write`, or was valid before and was not
reassigned by the call. -/
theorem cacheStep_valid {c : Config} {s s1 : State} {op : CacheOp} (hok : ListOK c s)
    (h : cacheStep c s op = some s1) :
    ListOK c s1 ∧ ∀ i, (s1.bufs i).valid ≠ 0 →
      (∃ x ∈ newXfers s s1, x.buf = i ∧ (x.write = true → op.isRawWrite = true)) ∨
        ((s.bufs i).valid ≠ 0 ∧ assignedIn c s op ≠ some i) := by
  cases op with
  | bget dev blockno =>
    simp only [cacheStep] at h
    cases hg : bget c s dev blockno with
    | error e => simp [hg] at h
    | ok r =>
      obtain ⟨s0, b⟩ := r
      simp only [hg, Option.some.injEq] at h
      subst h
      refine ⟨(bget_valid hok hg).2.1, fun i hi => ?_⟩
      exact valid_after_bget hok hg (fun _ _ => rfl) (fun hx => Or.inr hx) i hi
  | bread dev blockno =>
    simp only [cacheStep] at h
    cases hg : bread c s dev blockno with
    | error e => simp [hg] at h
    | ok r =>
      obtain ⟨s2, b⟩ := r
      simp only [hg, Option.some.injEq] at h
      subst h
      obtain ⟨s0, hg0, hcase⟩ := bread_cases hg
      obtain ⟨hx0, hok0, -, -, -, -⟩ := bget_valid hok hg0
      rcases hcase with ⟨rfl, hv⟩ | ⟨⟨n, hx⟩, hv1, hoth, hn, hp⟩
      · refine ⟨hok0, fun i hi => ?_⟩
        exact valid_after_bget hok hg0 (fun _ _ => rfl) (fun hx => Or.inr hx) i hi
      · refine ⟨(listOK_congr hn hp).2 hok0, fun i hi => ?_⟩
        refine valid_after_bget hok hg0 (fun j hj => by rw [hoth j hj]) (fun _ => Or.inl ?_) i hi
        rw [newXfers_cons (hx0 ▸ hx)]
        exact ⟨_, List.mem_singleton_self _, rfl, fun hw => by simp at hw⟩
  | bwrite b =>
    simp only [cacheStep] at h
    split at h
    · cases hg : bwrite c s b with
      | error e => simp [hg] at h
      | ok r =>
        obtain ⟨s2, u⟩ := r
        simp only [hg, Option.some.injEq] at h
        subst h
        obtain ⟨e1, e2, e3⟩ := bwrite_keeps hg
        refine ⟨(listOK_congr e2 e3).2 hok, fun i hi => Or.inr ⟨?_, ?_⟩⟩
        · rw [← e1]; exact hi
        · simp [assignedIn, CacheOp.asks]
    · simp at h
  | brelse b =>
    simp only [cacheStep] at h
    split at h
    · rename_i hb
      cases hg : brelse c s b with
      | error e => simp [hg] at h
      | ok r =>
        obtain ⟨s2, u⟩ := r
        simp only [hg, Option.some.injEq] at h
        subst h
        obtain ⟨e1, -, -, e2⟩ := brelse_keeps hok hb hg
        refine ⟨e1, fun i hi => Or.inr ⟨?_, ?_⟩⟩
        · rw [← (e2 i).1]; exact hi
        · simp [assignedIn, CacheOp.asks]
    · simp at h
  | raw_read pbn ok =>
    simp only [cacheStep] at h
    cases hg : sys_raw_read c s pbn ok with
    | error e => simp [hg] at h
    | ok r =>
      obtain ⟨s3, v⟩ := r
      simp only [hg, Option.some.injEq] at h
      subst h
      unfold sys_raw_read at hg
      by_cases hr : pbn < 0 ∨ pbn ≥ (c.FSSIZE : Int)
      · simp only [hr, if_true, Except.ok.injEq, Prod.mk.injEq] at hg
        obtain ⟨rfl, -⟩ := hg
        refine ⟨hok, fun i hi => Or.inr ⟨hi, ?_⟩⟩
        simp [assignedIn, CacheOp.asks, hr]
      · simp only [hr, if_false] at hg
        have hasg : assignedIn c s (CacheOp.raw_read pbn ok) =
            (match cachedBuf c s c.ROOTDEV pbn.toNat with
              | some _ => none
              | none => victimBuf c s) := by
          simp only [assignedIn, CacheOp.asks, hr, if_false]
        rw [hasg]
        cases hg0 : bget c s c.ROOTDEV pbn.toNat with
        | error e => simp [hg0] at hg
        | ok r0 =>
          obtain ⟨s0, b⟩ := r0
          simp only [hg0] at hg
          obtain ⟨hx0, hok0, hb, -, -, -⟩ := bget_valid hok hg0
          have hok2 : ListOK c (virtio_disk_rw s0 b false) :=
            (listOK_congr (s := s0) rfl rfl).2 hok0
          have key : ∀ u, brelse c (virtio_disk_rw s0 b false) b = .ok (s3, u) →
              ListOK c s3 ∧ ∀ i, (s3.bufs i).valid ≠ 0 →
                (∃ x ∈ newXfers s s3, x.buf = i ∧
                    (x.write = true → (CacheOp.raw_read pbn ok).isRawWrite = true)) ∨
                  ((s.bufs i).valid ≠ 0 ∧
                  (match cachedBuf c s c.ROOTDEV pbn.toNat with
                    | some _ => none
                    | none => victimBuf c s) ≠ some i) := by
            intro u hbr
            obtain ⟨e1, e2, -, e3⟩ := brelse_keeps hok2 hb hbr
            refine ⟨e1, fun i hi => ?_⟩
            have hx : s3.xfers =
                { buf := b, blockno := (s0.bufs b).blockno, write := false } :: s.xfers := by
              rw [e2, ← hx0]; rfl
            refine valid_after_bget hok hg0 (fun j hj => ?_) (fun _ => Or.inl ?_) i hi
            · rw [(e3 j).1]
              simp [virtio_disk_rw, State.setBuf, Function.update_noteq hj]
            · rw [newXfers_cons hx]
              exact ⟨_, List.mem_singleton_self _, rfl, fun hw => by simp at hw⟩
          by_cases hco : ok = true
          · simp only [hco, Bool.not_true, Bool.false_eq_true, if_false] at hg
            cases hbr : brelse c (virtio_disk_rw s0 b false) b with
            | error e => simp [hbr] at hg
            | ok r2 =>
              obtain ⟨s4, u⟩ := r2
              simp only [hbr, Except.ok.injEq, Prod.mk.injEq] at hg
              obtain ⟨rfl, -⟩ := hg
              exact key u hbr
          · simp only [hco, Bool.not_false, if_true] at hg
            cases hbr : brelse c (virtio_disk_rw s0 b false) b with
            | error e => simp [hbr] at hg
            | ok r2 =>
              obtain ⟨s4, u⟩ := r2
              simp only [hbr, Except.ok.injEq, Prod.mk.injEq] at hg
              obtain ⟨rfl, -⟩ := hg
              exact key u hbr
  | raw_write pbn ubuf =>
    simp only [cacheStep] at h
    cases hg : sys_raw_write c s pbn ubuf with
    | error e => simp [hg] at h
    | ok r =>
      obtain ⟨s3, v⟩ := r
      simp only [hg, Option.some.injEq] at h
      subst h
      unfold sys_raw_write at hg
      by_cases hr : pbn < 0 ∨ pbn ≥ (c.FSSIZE : Int)
      · simp only [hr, if_true, Except.ok.injEq, Prod.mk.injEq] at hg
        obtain ⟨rfl, -⟩ := hg
        refine ⟨hok, fun i hi => Or.inr ⟨hi, ?_⟩⟩
        simp [assignedIn, CacheOp.asks, hr]
      · simp only [hr, if_false] at hg
        have hasg : assignedIn c s (CacheOp.raw_write pbn ubuf) =
            (match cachedBuf c s c.ROOTDEV pbn.toNat with
              | some _ => none
              | none => victimBuf c s) := by
          simp only [assignedIn, CacheOp.asks, hr, if_false]
        rw [hasg]
        cases hg0 : bget c s c.ROOTDEV pbn.toNat with
        | error e => simp [hg0] at hg
        | ok r0 =>
          obtain ⟨s0, b⟩ := r0
          simp only [hg0] at hg
          obtain ⟨hx0, hok0, hb, -, -, -⟩ := bget_valid hok hg0
          cases ubuf with
          | none =>
            simp only at hg
            cases hbr : brelse c s0 b with
            | error e => simp [hbr] at hg
            | ok r2 =>
              obtain ⟨s4, u⟩ := r2
              simp only [hbr, Except.ok.injEq, Prod.mk.injEq] at hg
              obtain ⟨rfl, -⟩ := hg
              obtain ⟨e1, e2, -, e3⟩ := brelse_keeps hok0 hb hbr
              refine ⟨e1, fun i hi => ?_⟩
              refine valid_after_bget hok hg0 (fun j _ => (e3 j).1) (fun hv => Or.inr ?_) i hi
              rw [← (e3 b).1]; exact hv
          | some d =>
            simp only at hg
            generalize hs2 : virtio_disk_rw
              ((s0.setBuf b { s0.bufs b with
                  data := fun i => if i < c.BSIZE then d i % 256 else (s0.bufs b).data i }).setBuf b
                { (s0.setBuf b { s0.bufs b with
                    data := fun i => if i < c.BSIZE then d i % 256
                      else (s0.bufs b).data i }).bufs b with valid := 1 }) b true = s2 at hg
            have hn2 : s2.next = s0.next ∧ s2.prev = s0.prev := by
              rw [← hs2]; exact ⟨rfl, rfl⟩
            have hx2 : ∃ n, s2.xfers = { buf := b, blockno := n, write := true } :: s0.xfers := by
              rw [← hs2]; exact ⟨_, rfl⟩
            have hv2 : ∀ j, j ≠ b → (s2.bufs j).valid = (s0.bufs j).valid := by
              intro j hj
              rw [← hs2]
              simp [virtio_disk_rw, State.setBuf, Function.update_noteq hj]
            have hok2 : ListOK c s2 := (listOK_congr hn2.1 hn2.2).2 hok0
            cases hbr : brelse c s2 b with
            | error e => simp [hbr] at hg
            | ok r2 =>
              obtain ⟨s4, u⟩ := r2
              simp only [hbr, Except.ok.injEq, Prod.mk.injEq] at hg
              obtain ⟨rfl, -⟩ := hg
              obtain ⟨e1, e2, -, e3⟩ := brelse_keeps hok2 hb hbr
              obtain ⟨n, hx2⟩ := hx2
              refine ⟨e1, fun i hi => ?_⟩
              refine valid_after_bget hok hg0 (fun j hj => by rw [(e3 j).1, hv2 j hj])
                (fun _ => Or.inl ?_) i hi
              rw [newXfers_cons (by rw [e2, hx2, hx0])]
              exact ⟨_, List.mem_singleton_self _, rfl, fun _ => rfl⟩

theorem watchStep_inv {c : Config} {w w1 : Watched} {op : CacheOp}
    (hinv : ListOK c w.st ∧ ∀ i, (w.st.bufs i).valid ≠ 0 → w.loaded i = true ∨ w.stored i = true)
    (h : watchStep c w op = some w1) :
    ListOK c w1.st ∧ ∀ i, (w1.st.bufs i).valid ≠ 0 → w1.loaded i = true ∨ w1.stored i = true := by
  unfold watchStep at h
  cases hs : cacheStep c w.st op with
  | none => simp [hs] at h
  | some s1 =>
    simp only [hs, Option.some.injEq] at h
    subst h
    obtain ⟨hok1, hv⟩ := cacheStep_valid hinv.1 hs
    refine ⟨hok1, fun i hi => ?_⟩
    rcases hv i hi with ⟨x, hx, rfl, hraw⟩ | ⟨hold, hna⟩
    · cases hw : x.write with
      | true =>
        refine Or.inr ?_
        simp only [Bool.or_eq_true, List.any_eq_true, Bool.and_eq_true, beq_iff_eq]
        exact Or.inl ⟨hraw hw, x, hx, rfl, hw⟩
      | false =>
        refine Or.inl ?_
        simp only [Bool.or_eq_true, List.any_eq_true, Bool.and_eq_true, beq_iff_eq,
          Bool.not_eq_true']
        exact Or.inl ⟨x, hx, rfl, hw⟩
    · have hna2 : (assignedIn c w.st op == some i) = false := by
        simpa using hna
      rcases hinv.2 i hold with hl | hl
      · exact Or.inl (by simp [hl, hna2])
      · exact Or.inr (by simp [hl, hna2])

theorem watchRun_inv {c : Config} : ∀ (ops : List CacheOp) (w w1 : Watched),
    (ListOK c w.st ∧ ∀ i, (w.st.bufs i).valid ≠ 0 → w.loaded i = true ∨ w.stored i = true) →
    watchRun c w ops = some w1 →
    ListOK c w1.st ∧ ∀ i, (w1.st.bufs i).valid ≠ 0 → w1.loaded i = true ∨ w1.stored i = true
  | [], w, w1, h, hr => by
    simp only [watchRun, Option.some.injEq] at hr
    subst hr; exact h
  | op :: ops, w, w1, h, hr => by
    simp only [watchRun] at hr
    cases hs : watchStep c w op with
    | none => simp [hs] at hr
    | some w2 =>
      simp only [hs] at hr
      exact watchRun_inv ops w2 w1 (watchStep_inv h hs) hr

theorem boot_valid (c : Config) (disk : Nat → Nat → Nat) (pbn fail : Int) (sb : Superblock)
    (i : Nat) : ((boot c disk pbn fail sb).bufs i).valid = 0 := by
  have key : ∀ (n b : Nat) (s : State), (∀ j, (s.bufs j).valid = 0) →
      ∀ j, ((binit_loop c n b s).bufs j).valid = 0 := by
    intro n
    induction n with
    | zero => intro b s hs j; simpa [binit_loop] using hs j
    | succ n ih =>
      intro b s hs j
      simp only [binit_loop]
      refine ih _ _ (fun k => ?_) j
      by_cases hk : k = b
      · subst hk; simp [State.setBuf, hs]
      · simp [State.setBuf, Function.update_noteq hk, hs]
  exact key _ _ _ (fun _ => rfl) i

theorem rawWritten_run :
    watchRun cfg0 (bootWatched cfg0 disk0 (-1) (-1) sb0)
      [CacheOp.raw_write 7 (some (fun _ => 255))] = some rawWritten := rfl

/-- C10, as stated, fails: right after boot a single `raw_write(7, buf)` lets `bget` assign
buffer 0 to block 7 and then sets its `valid` flag, although the only disk transfer since the
assignment is a write: nothing was loaded from disk into the buffer. -/
theorem valid_without_load_counterexample :
    watchRun cfg0 (bootWatched cfg0 disk0 (-1) (-1) sb0)
        [CacheOp.raw_write 7 (some (fun _ => 255))] = some rawWritten ∧
      assignedIn cfg0 (boot cfg0 disk0 (-1) (-1) sb0)
        (CacheOp.raw_write 7 (some (fun _ => 255))) = some 0 ∧
      (rawWritten.st.bufs 0).blockno = 7 ∧ (rawWritten.st.bufs 0).valid = 1 ∧
      rawWritten.loaded 0 = false ∧
      rawWritten.st.xfers = [{ buf := 0, blockno := 7, write := true }] :=
  ⟨rawWritten_run, by decide, by decide, by decide, by decide, by decide⟩

/-- C10, amended: in every state reached from boot by `bget`, `bread`, `bwrite`, `brelse`,
`sys_raw_read` and `sys_raw_write` calls, a buffer whose `valid` flag is set has, since `bget`
last assigned it to a block, had its content loaded from disk or stored to disk by
`sys_raw_write`; so the flag is 0 from the assignment until the first such transfer. -/
theorem valid_after_transfer (c : Config) (disk : Nat → Nat → Nat) (pbn fail : Int)
    (sb : Superblock) (ops : List CacheOp) (w : Watched) (i : Nat)
    (hrun : watchRun c (bootWatched c disk pbn fail sb) ops = some w)
    (hv : (w.st.bufs i).valid ≠ 0) : w.loaded i = true ∨ w.stored i = true :=
  (watchRun_inv ops _ w
    ⟨(boot_listOK c disk pbn fail sb).2, fun j hj => absurd (boot_valid c disk pbn fail sb j) hj⟩
    hrun).2 i hv

/-- Worked example for the amended C10: after `raw_write(7, buf)` buffer 0 is valid and its
content was stored to disk. -/
theorem valid_after_transfer_witness :
    (watchRun cfg0 (bootWatched cfg0 disk0 (-1) (-1) sb0)
        [CacheOp.raw_write 7 (some (fun _ => 255))] = some rawWritten ∧
      (rawWritten.st.bufs 0).valid ≠ 0) ∧
    (rawWritten.loaded 0 = true ∨ rawWritten.stored 0 = true) :=
  ⟨⟨rawWritten_run, by decide⟩,
    valid_after_transfer cfg0 disk0 (-1) (-1) sb0 _ rawWritten 0 rawWritten_run (by decide)⟩

/-! ## Coherence of the cache -/

theorem SameEnv.rfl_env (s : State) : SameEnv s s := ⟨rfl, rfl, rfl, rfl⟩

theorem SameEnv.trans_env {s s1 s2 : State} (h1 : SameEnv s s1) (h2 : SameEnv s1 s2) :
    SameEnv s s2 :=
  ⟨h2.1.trans h1.1, h2.2.1.trans h1.2.1, h2.2.2.1.trans h1.2.2.1, h2.2.2.2.trans h1.2.2.2⟩

theorem SameEnv.forced_eq {s s1 : State} (h : SameEnv s s1) (n : Nat) :
    forced s1 n = forced s n := by
  simp only [forced, h.2.2.1, h.2.2.2]

/-- With unique tags the first loop of `bget` finds exactly the buffer that holds the block. -/
theorem cachedBuf_of_holds {c : Config} {s : State} {dev k n i : Nat} (h : TagsOK c s dev k)
    (hi : i < c.NBUF) (hh : (s.bufs i).holds dev n) : cachedBuf c s dev n = some i := by
  cases hc : cachedBuf c s dev n with
  | none => exact absurd ⟨i, hi, hh⟩ ((cachedBuf_eq_none_iff h.1 dev n).1 hc)
  | some j =>
    obtain ⟨hj, hjh⟩ := cachedBuf_some h.1 hc
    rw [h.2.1 j i hj hi hjh.1 hh.1 (hjh.2.trans hh.2.symm)]

theorem blockView_of_holds {c : Config} {s : State} {dev k n i : Nat} (h : TagsOK c s dev k)
    (hi : i < c.NBUF) (hh : (s.bufs i).holds dev n) :
    blockView c s dev n = if (s.bufs i).valid = 0 then s.disk n else (s.bufs i).data := by
  simp only [blockView, cachedBuf_of_holds h hi hh]

theorem blockView_of_none {c : Config} {s : State} {dev n : Nat} (hok : ListOK c s)
    (hn : ¬ ∃ i, i < c.NBUF ∧ (s.bufs i).holds dev n) : blockView c s dev n = s.disk n := by
  simp only [blockView, (cachedBuf_eq_none_iff hok dev n).2 hn]

theorem TagsOK.mono {c : Config} {s : State} {dev k k2 : Nat} (h : TagsOK c s dev k)
    (hk : k2 ≤ k) : TagsOK c s dev k2 :=
  ⟨h.1, h.2.1, h.2.2.1, fun i hi => by have := h.2.2.2 i hi; omega⟩

/-- The bookkeeping after one buffer was replaced. -/
theorem tagsOK_update {c : Config} {s s1 : State} {dev k k1 b : Nat} {X : Buf}
    (h : TagsOK c s dev k) (hok : ListOK c s1)
    (hbufs : s1.bufs = Function.update s.bufs b X)
    (h1 : X.dev = dev → ∀ j, j < c.NBUF → j ≠ b → ¬ (s.bufs j).holds dev X.blockno)
    (h2 : X.locked = true → X.refcnt ≠ 0)
    (h4 : X.refcnt + k1 < U32) (hk : k1 ≤ k) : TagsOK c s1 dev k1 := by
  have hsame : ∀ j, j ≠ b → s1.bufs j = s.bufs j := fun j hj => by
    rw [hbufs, Function.update_noteq hj]
  have hX : s1.bufs b = X := by rw [hbufs, Function.update_same]
  refine ⟨hok, ?_, ?_, ?_⟩
  · intro i j hi hj hdi hdj hij
    by_cases hib : i = b
    · by_cases hjb : j = b
      · rw [hib, hjb]
      · exfalso
        rw [hib, hX] at hdi hij
        rw [hsame j hjb] at hdj hij
        exact h1 hdi j hj hjb ⟨hdj, hij.symm⟩
    · by_cases hjb : j = b
      · exfalso
        rw [hjb, hX] at hdj hij
        rw [hsame i hib] at hdi hij
        exact h1 hdj i hi hib ⟨hdi, hij⟩
      · rw [hsame i hib] at hdi hij
        rw [hsame j hjb] at hdj hij
        exact h.2.1 i j hi hj hdi hdj hij
  · intro i hi hl
    by_cases hib : i = b
    · rw [hib, hX] at hl ⊢; exact h2 hl
    · rw [hsame i hib] at hl ⊢; exact h.2.2.1 i hi hl
  · intro i hi
    by_cases hib : i = b
    · rw [hib, hX]; exact h4
    · rw [hsame i hib]; have := h.2.2.2 i hi; omega

/-- Cleanness after one buffer was replaced. -/
theorem clean_update {c : Config} {s s1 : State} {dev b : Nat} {X : Buf}
    (h : Clean c s dev) (hd : s1.disk = s.disk)
    (hbufs : s1.bufs = Function.update s.bufs b X)
    (h3 : X.dev = dev → X.valid ≠ 0 → X.refcnt = 0 → X.data = s.disk X.blockno) :
    Clean c s1 dev := by
  intro i hi hdi hv hr
  by_cases hib : i = b
  · subst hib
    rw [hbufs, Function.update_same] at hdi hv hr ⊢
    rw [hd]; exact h3 hdi hv hr
  · rw [hbufs, Function.update_noteq hib] at hdi hv hr ⊢
    rw [hd]; exact h i hi hdi hv hr

/-- The view of the cache after one buffer was replaced. -/
theorem blockView_update {c : Config} {s s1 : State} {dev k k1 b : Nat} {X : Buf}
    (h : TagsOK c s dev k) (h1 : TagsOK c s1 dev k1) (hb : b < c.NBUF)
    (hd : s1.disk = s.disk) (hbufs : s1.bufs = Function.update s.bufs b X) (m : Nat) :
    blockView c s1 dev m =
      if X.holds dev m then (if X.valid = 0 then s.disk m else X.data)
      else if (s.bufs b).holds dev m then s.disk m
      else blockView c s dev m := by
  have hsame : ∀ j, j ≠ b → s1.bufs j = s.bufs j := fun j hj => by
    rw [hbufs, Function.update_noteq hj]
  have hX : s1.bufs b = X := by rw [hbufs, Function.update_same]
  by_cases hxm : X.holds dev m
  · rw [if_pos hxm, blockView_of_holds h1 hb (hX ▸ hxm), hX, hd]
  · rw [if_neg hxm]
    by_cases hex : ∃ j, j < c.NBUF ∧ (s1.bufs j).holds dev m
    · obtain ⟨j, hj, hjh⟩ := hex
      have hjb : j ≠ b := by
        rintro rfl
        rw [hX] at hjh
        exact hxm hjh
      have hjh0 : (s.bufs j).holds dev m := by rw [← hsame j hjb]; exact hjh
      have hbm : ¬ (s.bufs b).holds dev m := by
        intro hbm
        exact hjb (h.2.1 j b hj hb hjh0.1 hbm.1 (hjh0.2.trans hbm.2.symm))
      rw [if_neg hbm, blockView_of_holds h1 hj hjh, blockView_of_holds h hj hjh0, hsame j hjb, hd]
    · rw [blockView_of_none h1.1 hex, hd]
      by_cases hbm : (s.bufs b).holds dev m
      · rw [if_pos hbm]
      · rw [if_neg hbm, blockView_of_none h.1]
        rintro ⟨j, hj, hjh⟩
        by_cases hjb : j = b
        · exact hbm (hjb ▸ hjh)
        · exact hex ⟨j, hj, by rw [hsame j hjb]; exact hjh⟩

/-- The shape of the state after a returning `bread`: one buffer `b` was replaced; it now
holds the block, is held and valid, has one reference more, and carries what `readView`
says. -/
theorem bread_shape {c : Config} {s s1 : State} {dev n b k : Nat} (h : TagsOK c s dev k)
    (hr : bread c s dev n = .ok (s1, b)) :
    s1.bufs = Function.update s.bufs b (s1.bufs b) ∧ s1.next = s.next ∧ s1.prev = s.prev ∧
      SameEnv s s1 ∧ s1.inodes = s.inodes ∧ s1.log = s.log ∧ b < c.NBUF ∧
      (s.bufs b).locked = false ∧ (s1.bufs b).holds dev n ∧ (s1.bufs b).locked = true ∧
      (s1.bufs b).valid ≠ 0 ∧ (s1.bufs b).refcnt = ((s.bufs b).refcnt + 1) % U32 ∧
      (s1.bufs b).data = readView c s dev n ∧
      ((s.bufs b).holds dev n ∨
        ((¬ ∃ i, i < c.NBUF ∧ (s.bufs i).holds dev n) ∧ (s.bufs b).refcnt = 0)) := by
  unfold bread at hr
  cases hg : bget c s dev n with
  | error e => simp [hg] at hr
  | ok r =>
    obtain ⟨s0, b0⟩ := r
    simp only [hg] at hr
    obtain ⟨hb, hcase⟩ := bget_cases h.1 hg
    have hl := (bget_ok hg).1
    have hfo : (s.force_disk_fail_id == 0 || s.force_read_error_pbn == toInt32 n) = forced s n :=
      rfl
    rw [hfo] at hr
    rcases hcase with ⟨hc, rfl⟩ | ⟨hc, hv, rfl⟩
    · -- the block was cached in `b0`
      have hh := (cachedBuf_some h.1 hc).2
      have hview : blockView c s dev n =
          if (s.bufs b0).valid = 0 then s.disk n else (s.bufs b0).data := by
        simp only [blockView, hc]
      by_cases hf : forced s n = true
      · simp only [hf, or_true, if_true, Except.ok.injEq, Prod.mk.injEq] at hr
        obtain ⟨rfl, rfl⟩ := hr
        refine ⟨?_, rfl, rfl, ⟨rfl, rfl, rfl, rfl⟩, rfl, rfl, hb, hl, ?_, ?_, ?_, ?_, ?_,
          Or.inl hh⟩
        · simp [virtio_disk_rw, State.setBuf]
        · simp [virtio_disk_rw, State.setBuf, Buf.holds, hh.1]
        · simp [virtio_disk_rw, State.setBuf]
        · simp [virtio_disk_rw, State.setBuf]
        · simp [virtio_disk_rw, State.setBuf]
        · simp [readView, hf, virtio_disk_rw, State.setBuf]
      · simp only [Bool.not_eq_true] at hf
        by_cases hv : (s.bufs b0).valid = 0
        · simp only [hf, or_false, setBuf_bufs_same, hv, Bool.false_eq_true, if_false, if_true,
            Except.ok.injEq, Prod.mk.injEq] at hr
          obtain ⟨rfl, rfl⟩ := hr
          refine ⟨?_, rfl, rfl, ⟨rfl, rfl, rfl, rfl⟩, rfl, rfl, hb, hl, ?_, ?_, ?_, ?_, ?_,
            Or.inl hh⟩
          · simp [virtio_disk_rw, State.setBuf]
          · simp [virtio_disk_rw, State.setBuf, Buf.holds, hh.1, hh.2]
          · simp [virtio_disk_rw, State.setBuf]
          · simp [virtio_disk_rw, State.setBuf]
          · simp [virtio_disk_rw, State.setBuf]
          · simp [readView, hf, hview, hv, virtio_disk_rw, State.setBuf, hh.2]
        · simp only [hf, or_false, setBuf_bufs_same, hv, Bool.false_eq_true, if_false,
            Except.ok.injEq, Prod.mk.injEq] at hr
          obtain ⟨rfl, rfl⟩ := hr
          refine ⟨?_, rfl, rfl, ⟨rfl, rfl, rfl, rfl⟩, rfl, rfl, hb, hl, ?_, ?_, ?_, ?_, ?_,
            Or.inl hh⟩
          · simp [State.setBuf]
          · simp [State.setBuf, Buf.holds, hh.1, hh.2]
          · simp [State.setBuf]
          · simpa [State.setBuf] using hv
          · simp [State.setBuf]
          · simp [readView, hf, hview, hv, State.setBuf]
    · -- the block was not cached and `b0` is recycled
      have hno := (cachedBuf_eq_none_iff h.1 dev n).1 hc
      obtain ⟨l1, l2, -, hr0, -⟩ := (victimBuf_eq_some_iff b0).1 hv
      have hview : blockView c s dev n = s.disk n := by simp only [blockView, hc]
      simp only [setBuf_bufs_same, true_or, if_true] at hr
      by_cases hf : forced s n = true
      · simp only [hf, if_true, Except.ok.injEq, Prod.mk.injEq] at hr
        obtain ⟨rfl, rfl⟩ := hr
        refine ⟨?_, rfl, rfl, ⟨rfl, rfl, rfl, rfl⟩, rfl, rfl, hb, hl, ?_, ?_, ?_, ?_, ?_,
          Or.inr ⟨hno, hr0⟩⟩
        · simp [virtio_disk_rw, State.setBuf]
        · simp [virtio_disk_rw, State.setBuf, Buf.holds]
        · simp [virtio_disk_rw, State.setBuf]
        · simp [virtio_disk_rw, State.setBuf]
        · simp [virtio_disk_rw, State.setBuf, hr0, U32]
        · simp [readView, hf, hview, virtio_disk_rw, State.setBuf]
      · simp only [Bool.not_eq_true] at hf
        simp only [hf, Bool.false_eq_true, if_false, Except.ok.injEq, Prod.mk.injEq] at hr
        obtain ⟨rfl, rfl⟩ := hr
        refine ⟨?_, rfl, rfl, ⟨rfl, rfl, rfl, rfl⟩, rfl, rfl, hb, hl, ?_, ?_, ?_, ?_, ?_,
          Or.inr ⟨hno, hr0⟩⟩
        · simp [virtio_disk_rw, State.setBuf]
        · simp [virtio_disk_rw, State.setBuf, Buf.holds]
        · simp [virtio_disk_rw, State.setBuf]
        · simp [virtio_disk_rw, State.setBuf]
        · simp [virtio_disk_rw, State.setBuf, hr0, U32]
        · simp [readView, hf, hview, virtio_disk_rw, State.setBuf]

theorem succ_mod_of_lt {r k : Nat} (h : r + (k + 1) < U32) : (r + 1) % U32 = r + 1 :=
  Nat.mod_eq_of_lt (by omega)

/-- Bookkeeping after `bread`: it stays in order, and what was pinned stays pinned. -/
theorem bread_tags {c : Config} {s s1 : State} {dev n b k : Nat} (h : TagsOK c s dev (k + 1))
    (hr : bread c s dev n = .ok (s1, b)) :
    TagsOK c s1 dev k ∧ (∀ m, Pinned c s dev m → Pinned c s1 dev m) ∧
      (s1.bufs b).refcnt = (s.bufs b).refcnt + 1 := by
  obtain ⟨hbufs, hn, hp, -, -, -, hb, hl, hh, hlk, hv, hrc, -, hcase⟩ := bread_shape h hr
  have hrc2 : (s1.bufs b).refcnt = (s.bufs b).refcnt + 1 := by
    rw [hrc]; exact succ_mod_of_lt (h.2.2.2 b hb)
  have hsame : ∀ j, j ≠ b → s1.bufs j = s.bufs j := fun j hj => by
    rw [hbufs, Function.update_noteq hj]
  refine ⟨?_, ?_, hrc2⟩
  · refine tagsOK_update h ((listOK_congr hn hp).2 h.1) hbufs ?_ ?_ ?_ (Nat.le_succ k)
    · intro _ j hj hjb hjh
      rw [hh.2] at hjh
      rcases hcase with hold | ⟨hno, -⟩
      · exact hjb (h.2.1 j b hj hb hjh.1 hold.1 (hjh.2.trans hold.2.symm))
      · exact hno ⟨j, hj, hjh⟩
    · intro _; rw [hrc2]; omega
    · rw [hrc2]; have := h.2.2.2 b hb; omega
  · rintro m ⟨i, hi, hih, hiv, hir⟩
    by_cases hib : i = b
    · subst hib
      rw [hl] at hir
      simp only [Bool.false_eq_true, if_false] at hir
      rcases hcase with hold | ⟨-, h0⟩
      · have hmn : m = n := hih.2.symm.trans hold.2
        subst hmn
        refine ⟨i, hi, hh, hv, ?_⟩
        rw [hlk, hrc2]
        simp only [if_true]
        omega
      · omega
    · exact ⟨i, hi, by rw [hsame i hib]; exact hih, by rw [hsame i hib]; exact hiv,
        by rw [hsame i hib]; exact hir⟩

/-- Without an injected fault `bread` delivers the view of the cache and leaves it as it
is. -/
theorem bread_view {c : Config} {s s1 : State} {dev n b k : Nat}
    (h : Coherent c s dev (k + 1)) (hf : forced s n = false)
    (hr : bread c s dev n = .ok (s1, b)) :
    Coherent c s1 dev k ∧ (s1.bufs b).data = blockView c s dev n ∧
      ∀ m, blockView c s1 dev m = blockView c s dev m := by
  obtain ⟨hbufs, hn, hp, henv, -, -, hb, hl, hh, hlk, hv, hrc, hdata, hcase⟩ :=
    bread_shape h.1 hr
  obtain ⟨ht1, -, hrc2⟩ := bread_tags h.1 hr
  have hdata2 : (s1.bufs b).data = blockView c s dev n := by
    rw [hdata]; simp only [readView, hf, Bool.false_eq_true, if_false]
  refine ⟨⟨ht1, ?_⟩, hdata2, fun m => ?_⟩
  · refine clean_update h.2 henv.1 hbufs ?_
    intro _ _ h0
    rw [hrc2] at h0
    omega
  · rw [blockView_update h.1 ht1 hb henv.1 hbufs m]
    by_cases hm : (s1.bufs b).holds dev m
    · have hmn : m = n := hm.2.symm.trans hh.2
      subst hmn
      rw [if_pos hm, if_neg hv, hdata2]
    · rw [if_neg hm]
      by_cases hbm : (s.bufs b).holds dev m
      · rw [if_pos hbm, blockView_of_holds h.1 hb hbm]
        rcases hcase with hold | ⟨-, h0⟩
        · exact absurd ⟨hh.1, hh.2.trans (hold.2.symm.trans hbm.2)⟩ hm
        · by_cases hv0 : (s.bufs b).valid = 0
          · rw [if_pos hv0]
          · rw [if_neg hv0, h.2 b hb hbm.1 hv0 h0, hbm.2]
      · rw [if_neg hbm]

theorem brelse_inodes {c : Config} {s s1 : State} {b : Nat} {u : Unit}
    (h : brelse c s b = .ok (s1, u)) : s1.inodes = s.inodes := by
  simp only [brelse, holdingsleep, releasesleep] at h
  split at h
  · simp at h
  · split at h <;>
      · simp only [Except.ok.injEq, Prod.mk.injEq] at h
        rw [← h.1]; rfl

/-- Releasing a held buffer: `brelse` returns, only the lock and `refcnt` of `b` change, the
bookkeeping stays in order and what was pinned stays pinned. -/
theorem brelse_tags {c : Config} {s : State} {dev b k : Nat} (h : TagsOK c s dev k)
    (hb : b < c.NBUF) (hl : (s.bufs b).locked = true) :
    ∃ s1, brelse c s b = .ok (s1, ()) ∧
      s1.bufs = Function.update s.bufs b
        { s.bufs b with locked := false, refcnt := (s.bufs b).refcnt - 1 } ∧
      TagsOK c s1 dev k ∧ SameEnv s s1 ∧ s1.inodes = s.inodes ∧ s1.log = s.log ∧
      (∀ m, Pinned c s dev m → Pinned c s1 dev m) := by
  obtain ⟨s1, h1, h2, h3, -, h5, h6, h7, h8, h9, h10⟩ := brelse_eq h.1 hb hl
  have hr0 := h.2.2.1 b hb hl
  have hr1 := h.2.2.2 b hb
  have hdec : ((s.bufs b).refcnt + U32 - 1) % U32 = (s.bufs b).refcnt - 1 := by
    rw [Nat.add_comm, Nat.add_sub_assoc (Nat.pos_of_ne_zero hr0), Nat.add_mod_left]
    exact Nat.mod_eq_of_lt (by omega)
  rw [hdec] at h2 h9 h10
  have hok1 : ListOK c s1 := by
    by_cases hz : (s.bufs b).refcnt - 1 = 0
    · exact (h9 hz).2
    · exact (listOK_congr (h10 hz).1 (h10 hz).2).2 h.1
  have hsame : ∀ j, j ≠ b → s1.bufs j = s.bufs j := fun j hj => by
    rw [h2, Function.update_noteq hj]
  refine ⟨s1, h1, h2, ?_, ⟨h3, h6, h7, h8⟩, brelse_inodes h1, h5, ?_⟩
  · refine tagsOK_update h hok1 h2 ?_ (by simp) ?_ (Nat.le_refl k)
    · intro hd j hj hjb hjh
      exact hjb (h.2.1 j b hj hb hjh.1 hd hjh.2)
    · show (s.bufs b).refcnt - 1 + k < U32
      omega
  · rintro m ⟨i, hi, hih, hiv, hir⟩
    by_cases hib : i = b
    · subst hib
      rw [hl] at hir
      simp only [if_true] at hir
      refine ⟨i, hi, ?_, ?_, ?_⟩
      · rw [h2, Function.update_same]; exact hih
      · rw [h2, Function.update_same]; exact hiv
      · rw [h2, Function.update_same]
        show (if false = true then 2 else 1) ≤ (s.bufs i).refcnt - 1
        simp only [Bool.false_eq_true, if_false]
        omega
    · exact ⟨i, hi, by rw [hsame i hib]; exact hih, by rw [hsame i hib]; exact hiv,
        by rw [hsame i hib]; exact hir⟩

/-- Releasing a held buffer that is pinned, or agrees with the disk, leaves the cache
coherent and its view as it is. -/
theorem brelse_view {c : Config} {s s1 : State} {dev b k : Nat} (h : Coherent c s dev k)
    (hb : b < c.NBUF) (hl : (s.bufs b).locked = true)
    (hcl : (s.bufs b).dev = dev → (s.bufs b).valid ≠ 0 → (s.bufs b).refcnt = 1 →
      (s.bufs b).data = s.disk (s.bufs b).blockno)
    (hr : brelse c s b = .ok (s1, ())) :
    Coherent c s1 dev k ∧ ∀ m, blockView c s1 dev m = blockView c s dev m := by
  obtain ⟨s2, h1, h2, h3, h4, -, -, -⟩ := brelse_tags h.1 hb hl
  rw [hr] at h1
  simp only [Except.ok.injEq, Prod.mk.injEq, and_true] at h1
  subst h1
  have hr0 := h.1.2.2.1 b hb hl
  refine ⟨⟨h3, ?_⟩, fun m => ?_⟩
  · refine clean_update h.2 h4.1 h2 ?_
    intro hd hv h0
    refine hcl hd hv ?_
    have : (s.bufs b).refcnt - 1 = 0 := h0
    omega
  · rw [blockView_update h.1 h3 hb h4.1 h2 m]
    by_cases hbm : (s.bufs b).holds dev m
    · rw [blockView_of_holds h.1 hb hbm]
      have hbm2 := hbm
      simp only [Buf.holds] at hbm2
      simp [Buf.holds, hbm2.1, hbm2.2]
    · have hbm2 := hbm
      simp only [Buf.holds] at hbm2
      simp [Buf.holds, hbm2]

/-- The state after the data of buffer `b` was overwritten. -/
theorem setData_tags {c : Config} {s : State} {dev b k : Nat} (h : TagsOK c s dev k)
    (hb : b < c.NBUF) (d : Nat → Nat) :
    TagsOK c (s.setBuf b { s.bufs b with data := d }) dev k := by
  refine tagsOK_update h h.1 rfl ?_ (h.2.2.1 b hb) (h.2.2.2 b hb) (Nat.le_refl k)
  intro hd j hj hjb hjh
  exact hjb (h.2.1 j b hj hb hjh.1 hd hjh.2)

/-- Overwriting the data of a held valid buffer changes the view of its block to the new
data and nothing else. -/
theorem setData_view {c : Config} {s : State} {dev n b k : Nat} (h : Coherent c s dev k)
    (hb : b < c.NBUF) (hh : (s.bufs b).holds dev n) (hv : (s.bufs b).valid ≠ 0)
    (hl : (s.bufs b).locked = true) (d : Nat → Nat) :
    Coherent c (s.setBuf b { s.bufs b with data := d }) dev k ∧
      ∀ m, blockView c (s.setBuf b { s.bufs b with data := d }) dev m =
        if m = n then d else blockView c s dev m := by
  have ht := setData_tags h.1 hb d
  refine ⟨⟨ht, ?_⟩, fun m => ?_⟩
  · refine clean_update h.2 rfl rfl ?_
    intro _ _ h0
    exact absurd h0 (h.1.2.2.1 b hb hl)
  · rw [blockView_update h.1 ht hb rfl rfl m]
    by_cases hmn : m = n
    · subst hmn
      have hh2 := hh
      simp only [Buf.holds] at hh2
      simp [Buf.holds, hh2.1, hh2.2, hv]
    · have hbm : ¬ (s.bufs b).holds dev m := fun hbm => hmn (hbm.2.symm.trans hh.2)
      have hbm2 := hbm
      simp only [Buf.holds] at hbm2
      simp [Buf.holds, hbm2, hmn]

/-- The state after `log_write`: the buffer has one reference more. -/
theorem log_write_tags {c : Config} {s : State} {dev b k : Nat} (h : TagsOK c s dev (k + 1))
    (hb : b < c.NBUF) :
    (log_write s b).bufs = Function.update s.bufs b
        { s.bufs b with refcnt := (s.bufs b).refcnt + 1 } ∧
      TagsOK c (log_write s b) dev k ∧ SameEnv s (log_write s b) ∧
      (log_write s b).inodes = s.inodes := by
  have hrc : ((s.bufs b).refcnt + 1) % U32 = (s.bufs b).refcnt + 1 :=
    succ_mod_of_lt (h.2.2.2 b hb)
  have hbufs : (log_write s b).bufs = Function.update s.bufs b
      { s.bufs b with refcnt := (s.bufs b).refcnt + 1 } := by
    simp only [log_write, bpin, State.setBuf, hrc]
  refine ⟨hbufs, ?_, ⟨rfl, rfl, rfl, rfl⟩, rfl⟩
  refine tagsOK_update h ((listOK_congr (s := s) rfl rfl).2 h.1) hbufs ?_ (by simp) ?_
    (Nat.le_succ k)
  · intro hd j hj hjb hjh
    exact hjb (h.2.1 j b hj hb hjh.1 hd hjh.2)
  · show (s.bufs b).refcnt + 1 + k < U32
    have := h.2.2.2 b hb; omega

/-- The bound on the reference counts can be restated from the counts themselves. -/
theorem TagsOK.rebound {c : Config} {s : State} {dev k k2 : Nat} (h : TagsOK c s dev k)
    (hk : ∀ i, i < c.NBUF → (s.bufs i).refcnt + k2 < U32) : TagsOK c s dev k2 :=
  ⟨h.1, h.2.1, h.2.2.1, hk⟩

/-- Reading a block and releasing it at once: the bookkeeping is as before. -/
theorem peek_tags {c : Config} {s s1 s2 : State} {dev n b k : Nat}
    (h : TagsOK c s dev (k + 1)) (hr : bread c s dev n = .ok (s1, b))
    (hrel : brelse c s1 b = .ok (s2, ())) :
    TagsOK c s2 dev (k + 1) ∧ SameEnv s s2 ∧ s2.inodes = s.inodes ∧ s2.log = s.log ∧
      (∀ i, (s2.bufs i).refcnt = (s.bufs i).refcnt ∧ (s2.bufs i).locked = (s.bufs i).locked) ∧
      (∀ m, Pinned c s dev m → Pinned c s2 dev m) := by
  obtain ⟨hbufs, -, -, henv, hino, hlog, hb, hl, -, hlk, -, -, -, -⟩ := bread_shape h hr
  obtain ⟨ht1, hpin1, hrc⟩ := bread_tags h hr
  obtain ⟨s3, h1, h2, ht2, henv2, hino2, hlog2, hpin2⟩ := brelse_tags ht1 hb hlk
  rw [hrel] at h1
  simp only [Except.ok.injEq, Prod.mk.injEq, and_true] at h1
  subst h1
  have hall : ∀ i, (s2.bufs i).refcnt = (s.bufs i).refcnt ∧
      (s2.bufs i).locked = (s.bufs i).locked := by
    intro i
    by_cases hib : i = b
    · subst hib
      rw [h2, Function.update_same]
      refine ⟨?_, hl.symm⟩
      show (s1.bufs i).refcnt - 1 = (s.bufs i).refcnt
      omega
    · rw [h2, Function.update_noteq hib, hbufs, Function.update_noteq hib]
      exact ⟨rfl, rfl⟩
  refine ⟨ht2.rebound (fun i hi => ?_), henv.trans_env henv2, hino2.trans hino,
    hlog2.trans hlog, hall, fun m hm => hpin2 m (hpin1 m hm)⟩
  rw [(hall i).1]
  exact h.2.2.2 i hi

/-- Reading a block and releasing it at once, without an injected fault: the cache stays
coherent, its view is as before, and what was read is that view. -/
theorem peek_view {c : Config} {s s1 s2 : State} {dev n b k : Nat}
    (h : Coherent c s dev (k + 1)) (hf : forced s n = false)
    (hr : bread c s dev n = .ok (s1, b)) (hrel : brelse c s1 b = .ok (s2, ())) :
    Coherent c s2 dev (k + 1) ∧ (s1.bufs b).data = blockView c s dev n ∧
      ∀ m, blockView c s2 dev m = blockView c s dev m := by
  obtain ⟨hbufs, -, -, henv, -, -, hb, hl, hh, hlk, hv, -, -, hcase⟩ := bread_shape h.1 hr
  obtain ⟨-, -, hrc⟩ := bread_tags h.1 hr
  obtain ⟨hc1, hdata, hview1⟩ := bread_view h hf hr
  have hcl : (s1.bufs b).dev = dev → (s1.bufs b).valid ≠ 0 → (s1.bufs b).refcnt = 1 →
      (s1.bufs b).data = s1.disk (s1.bufs b).blockno := by
    intro _ _ h1
    have h0 : (s.bufs b).refcnt = 0 := by omega
    rw [hdata, henv.1, hh.2]
    rcases hcase with hold | ⟨hno, -⟩
    · rw [blockView_of_holds h.1 hb hold]
      by_cases hv0 : (s.bufs b).valid = 0
      · rw [if_pos hv0]
      · rw [if_neg hv0, h.2 b hb hold.1 hv0 h0, hold.2]
    · exact blockView_of_none h.1.1 hno
  obtain ⟨hc2, hview2⟩ := brelse_view hc1 hb hlk hcl hrel
  obtain ⟨ht, -, -, -, -, -⟩ := peek_tags h.1 hr hrel
  exact ⟨⟨ht, hc2.2⟩, hdata, fun m => (hview2 m).trans (hview1 m)⟩

/-- The view of a pinned block is the data of the buffer that pins it. -/
theorem pinned_view {c : Config} {s : State} {dev m k : Nat} (h : TagsOK c s dev k)
    (hp : Pinned c s dev m) :
    ∃ i, i < c.NBUF ∧ (s.bufs i).holds dev m ∧ (s.bufs i).refcnt ≠ 0 ∧
      blockView c s dev m = (s.bufs i).data := by
  obtain ⟨i, hi, hih, hiv, hir⟩ := hp
  refine ⟨i, hi, hih, ?_, ?_⟩
  · intro h0
    rw [h0] at hir
    split at hir <;> omega
  · rw [blockView_of_holds h hi hih, if_neg hiv]

/-- Reading a block, overwriting the buffer, logging and releasing it: the block is pinned
with the new data as its view, pinned blocks keep their view, and one step of the bound on
the reference counts is used up. -/
theorem poke_tags {c : Config} {s s1 s3 : State} {dev n b k : Nat} (d : Nat → Nat)
    (h : TagsOK c s dev (k + 2)) (hr : bread c s dev n = .ok (s1, b))
    (hrel : brelse c (log_write (s1.setBuf b { s1.bufs b with data := d }) b) b =
      .ok (s3, ())) :
    TagsOK c s3 dev (k + 1) ∧ SameEnv s s3 ∧ s3.inodes = s.inodes ∧
      (∀ i, (s3.bufs i).locked = (s.bufs i).locked) ∧
      (∀ m, Pinned c s dev m → Pinned c s3 dev m) ∧
      Pinned c s3 dev n ∧ blockView c s3 dev n = d ∧
      (∀ m, m ≠ n → Pinned c s dev m → blockView c s3 dev m = blockView c s dev m) := by
  obtain ⟨hbufs, -, -, henv, hino, -, hb, hl, hh, hlk, hv, -, -, hcase⟩ := bread_shape h hr
  obtain ⟨ht1, hpin1, hrc⟩ := bread_tags h hr
  have ht1b := setData_tags ht1 hb d
  obtain ⟨hlw, ht2, henv2, hino2⟩ := log_write_tags (k := k) ht1b hb
  have hlk2 : ((log_write (s1.setBuf b { s1.bufs b with data := d }) b).bufs b).locked = true := by
    rw [hlw, Function.update_same]; simpa using hlk
  obtain ⟨s4, h1, h2, ht3, henv3, hino3, -, -⟩ := brelse_tags ht2 hb hlk2
  rw [hrel] at h1
  simp only [Except.ok.injEq, Prod.mk.injEq, and_true] at h1
  subst h1
  -- the buffer `b` at the end
  have hfin : s3.bufs b =
      { s1.bufs b with data := d, locked := false, refcnt := (s1.bufs b).refcnt } := by
    rw [h2, Function.update_same, hlw, Function.update_same]
    simp [State.setBuf]
  have hoth : ∀ i, i ≠ b → s3.bufs i = s.bufs i := by
    intro i hib
    rw [h2, Function.update_noteq hib, hlw, Function.update_noteq hib]
    simp only [State.setBuf, Function.update_noteq hib]
    rw [hbufs, Function.update_noteq hib]
  have hhold : (s3.bufs b).holds dev n := by rw [hfin]; exact hh
  have hpn : Pinned c s3 dev n := by
    refine ⟨b, hb, hhold, by rw [hfin]; exact hv, ?_⟩
    rw [hfin]
    show (if false = true then 2 else 1) ≤ (s1.bufs b).refcnt
    simp only [Bool.false_eq_true, if_false]
    omega
  have hkeep : ∀ m, Pinned c s dev m → m ≠ n →
      ∃ i, i < c.NBUF ∧ i ≠ b ∧ (s.bufs i).holds dev m ∧ (s.bufs i).valid ≠ 0 ∧
        (if (s.bufs i).locked then 2 else 1) ≤ (s.bufs i).refcnt := by
    rintro m ⟨i, hi, hih, hiv, hir⟩ hmn
    refine ⟨i, hi, ?_, hih, hiv, hir⟩
    rintro rfl
    rcases hcase with hold | ⟨-, h0⟩
    · exact hmn (hih.2.symm.trans hold.2)
    · rw [h0, hl] at hir
      simp at hir
  refine ⟨ht3.rebound (fun i hi => ?_), (henv.trans_env henv2).trans_env henv3,
    (hino3.trans hino2).trans (by simpa [State.setBuf] using hino), fun i => ?_, fun m hm => ?_,
    hpn, ?_, fun m hmn hm => ?_⟩
  · by_cases hib : i = b
    · rw [hib, hfin]
      show (s1.bufs b).refcnt + (k + 1) < U32
      have := h.2.2.2 b hb
      omega
    · rw [hoth i hib]
      have := h.2.2.2 i hi
      omega
  · by_cases hib : i = b
    · rw [hib, hfin, hl]
    · rw [hoth i hib]
  · by_cases hmn : m = n
    · rw [hmn]; exact hpn
    · obtain ⟨i, hi, hib, hih, hiv, hir⟩ := hkeep m hm hmn
      exact ⟨i, hi, by rw [hoth i hib]; exact hih, by rw [hoth i hib]; exact hiv,
        by rw [hoth i hib]; exact hir⟩
  · rw [blockView_of_holds ht3 hb hhold, hfin]
    exact if_neg hv
  · obtain ⟨i, hi, hib, hih, hiv, -⟩ := hkeep m hm hmn
    rw [blockView_of_holds ht3 hi (by rw [hoth i hib]; exact hih),
      blockView_of_holds h hi hih, hoth i hib, henv3.1, henv2.1]
    simp only [State.setBuf]
    rw [henv.1]

/-- `log_write` keeps the cache coherent and its view as it is. -/
theorem log_write_view {c : Config} {s : State} {dev b k : Nat} (h : Coherent c s dev (k + 1))
    (hb : b < c.NBUF) :
    Coherent c (log_write s b) dev k ∧
      ∀ m, blockView c (log_write s b) dev m = blockView c s dev m := by
  obtain ⟨hlw, ht, henv, -⟩ := log_write_tags h.1 hb
  refine ⟨⟨ht, ?_⟩, fun m => ?_⟩
  · refine clean_update h.2 henv.1 hlw ?_
    intro _ _ h0
    have : (s.bufs b).refcnt + 1 = 0 := h0
    omega
  · rw [blockView_update h.1 ht hb henv.1 hlw m]
    by_cases hbm : (s.bufs b).holds dev m
    · rw [blockView_of_holds h.1 hb hbm]
      have hbm2 := hbm
      simp only [Buf.holds] at hbm2
      simp [Buf.holds, hbm2.1, hbm2.2]
    · have hbm2 := hbm
      simp only [Buf.holds] at hbm2
      simp [Buf.holds, hbm2]

/-- Reading a block, overwriting the buffer, logging and releasing it, without an injected
fault: the cache stays coherent and its view changes at that block only. -/
theorem poke_view {c : Config} {s s1 s3 : State} {dev n b k : Nat} (d : Nat → Nat)
    (h : Coherent c s dev (k + 2)) (hf : forced s n = false)
    (hr : bread c s dev n = .ok (s1, b))
    (hrel : brelse c (log_write (s1.setBuf b { s1.bufs b with data := d }) b) b =
      .ok (s3, ())) :
    Coherent c s3 dev (k + 1) ∧ (s1.bufs b).data = blockView c s dev n ∧
      ∀ m, blockView c s3 dev m = if m = n then d else blockView c s dev m := by
  obtain ⟨-, -, -, -, -, -, hb, -, hh, hlk, hv, -, -, -⟩ := bread_shape h.1 hr
  obtain ⟨-, -, hrc⟩ := bread_tags h.1 hr
  obtain ⟨hc1, hdata, hview1⟩ := bread_view h hf hr
  obtain ⟨hc2, hview2⟩ := setData_view hc1 hb hh hv hlk d
  obtain ⟨hc3, hview3⟩ := log_write_view (k := k) hc2 hb
  obtain ⟨hlw, -, -, -⟩ := log_write_tags (k := k) hc2.1 hb
  have hlk3 : ((log_write (s1.setBuf b { s1.bufs b with data := d }) b).bufs b).locked = true := by
    rw [hlw, Function.update_same]; simpa using hlk
  have hcl : ((log_write (s1.setBuf b { s1.bufs b with data := d }) b).bufs b).dev = dev →
      ((log_write (s1.setBuf b { s1.bufs b with data := d }) b).bufs b).valid ≠ 0 →
      ((log_write (s1.setBuf b { s1.bufs b with data := d }) b).bufs b).refcnt = 1 →
      ((log_write (s1.setBuf b { s1.bufs b with data := d }) b).bufs b).data =
        (log_write (s1.setBuf b { s1.bufs b with data := d }) b).disk
          ((log_write (s1.setBuf b { s1.bufs b with data := d }) b).bufs b).blockno := by
    intro _ _ h1
    rw [hlw, Function.update_same] at h1
    have : (s1.bufs b).refcnt + 1 = 1 := by simpa [State.setBuf] using h1
    omega
  obtain ⟨hc4, hview4⟩ := brelse_view hc3 hb hlk3 hcl hrel
  obtain ⟨ht, -, -, -, -, -, -, -⟩ := poke_tags d h.1 hr hrel
  refine ⟨⟨ht, hc4.2⟩, hdata, fun m => ?_⟩
  rw [hview4 m, hview3 m, hview2 m]
  by_cases hmn : m = n
  · rw [if_pos hmn, if_pos hmn]
  · rw [if_neg hmn, if_neg hmn, hview1 m]

/-! ## Bits of the free map -/

theorem and_shift_eq_zero (x k : Nat) : x &&& 1 <<< k = 0 ↔ x.testBit k = false := by
  rw [Nat.one_shiftLeft]
  constructor
  · intro h
    have := congrArg (fun y => y.testBit k) h
    simpa [Nat.testBit_two_pow_self] using this
  · intro h
    apply Nat.eq_of_testBit_eq
    intro i
    rw [Nat.testBit_and, Nat.testBit_two_pow, Nat.zero_testBit]
    by_cases hki : k = i
    · subst hki; simp [h]
    · simp [hki]

theorem index_ne_of_ne {j bi : Nat} (hne : j ≠ bi) (hd : j / 8 = bi / 8) : j % 8 ≠ bi % 8 := by
  intro hm
  apply hne
  have h1 := Nat.div_add_mod j 8
  have h2 := Nat.div_add_mod bi 8
  omega

theorem bitOf_set (d : Nat → Nat) (bi j : Nat) :
    bitOf (Function.update d (bi / 8) ((d (bi / 8) ||| 1 <<< (bi % 8)) % 256)) j =
      if j = bi then true else bitOf d j := by
  have h256 : (256 : Nat) = 2 ^ 8 := rfl
  have hj8 : j % 8 < 8 := Nat.mod_lt _ (by decide)
  unfold bitOf
  by_cases hd : j / 8 = bi / 8
  · rw [hd, Function.update_same, h256, Nat.testBit_mod_two_pow, Nat.testBit_or,
      Nat.one_shiftLeft, Nat.testBit_two_pow]
    by_cases hjb : j = bi
    · subst hjb; simp [hj8]
    · have := index_ne_of_ne hjb hd
      simp [hj8, hjb, Ne.symm this]
  · rw [Function.update_noteq hd]
    have hjb : j ≠ bi := fun e => hd (by rw [e])
    simp [hjb]

theorem bitOf_clear (d : Nat → Nat) (bi j : Nat) :
    bitOf (Function.update d (bi / 8) ((d (bi / 8) &&& (4294967295 - 1 <<< (bi % 8))) % 256)) j =
      if j = bi then false else bitOf d j := by
  have h256 : (256 : Nat) = 2 ^ 8 := rfl
  have hj8 : j % 8 < 8 := Nat.mod_lt _ (by decide)
  have hb8 : bi % 8 < 8 := Nat.mod_lt _ (by decide)
  have hlt : 2 ^ (bi % 8) < 2 ^ 32 := Nat.pow_lt_pow_right (by decide) (by omega)
  have hm : 4294967295 - 1 <<< (bi % 8) = 2 ^ 32 - (2 ^ (bi % 8) + 1) := by
    rw [Nat.one_shiftLeft]
    have : (2 : Nat) ^ 32 = 4294967296 := by norm_num
    omega
  unfold bitOf
  by_cases hd : j / 8 = bi / 8
  · rw [hd, Function.update_same, h256, Nat.testBit_mod_two_pow, Nat.testBit_and, hm,
      Nat.testBit_two_pow_sub_succ hlt, Nat.testBit_two_pow]
    by_cases hjb : j = bi
    · subst hjb; simp [hj8]
    · have := index_ne_of_ne hjb hd
      have h32 : j % 8 < 32 := by omega
      simp [hj8, hjb, Ne.symm this, h32]
  · rw [Function.update_noteq hd]
    have hjb : j ≠ bi := fun e => hd (by rw [e])
    simp [hjb]

/-- The inner loop of `balloc` finds the first clear bit of the bitmap block, if any belongs
to a block below `size`. -/
theorem balloc_scan_spec (c : Config) (size : Nat) (data : Nat → Nat) (b : Nat) :
    ∀ (fuel bi0 : Nat), BPB c < fuel + bi0 →
      match balloc_scan c size data b fuel bi0 with
      | some bi => bi0 ≤ bi ∧ bi < BPB c ∧ b + bi < size ∧ bitOf data bi = false ∧
          ∀ j, bi0 ≤ j → j < bi → bitOf data j = true
      | none => ∀ j, bi0 ≤ j → j < BPB c → b + j < size → bitOf data j = true
  | 0, bi0, hf => by
    simp only [balloc_scan]
    intro j h1 h2 _
    omega
  | fuel + 1, bi0, hf => by
    simp only [balloc_scan]
    by_cases hin : bi0 < BPB c ∧ b + bi0 < size
    · rw [if_pos hin]
      by_cases hbit : data (bi0 / 8) &&& 1 <<< (bi0 % 8) = 0
      · rw [if_pos hbit]
        refine ⟨Nat.le_refl _, hin.1, hin.2, (and_shift_eq_zero _ _).1 hbit, ?_⟩
        intro j h1 h2; omega
      · rw [if_neg hbit]
        have ih := balloc_scan_spec c size data b fuel (bi0 + 1) (by omega)
        have hset : bitOf data bi0 = true := by
          have := (and_shift_eq_zero (data (bi0 / 8)) (bi0 % 8)).not.1 hbit
          simpa [bitOf] using this
        cases hs : balloc_scan c size data b fuel (bi0 + 1) with
        | some bi =>
          rw [hs] at ih
          obtain ⟨i1, i2, i3, i4, i5⟩ := ih
          refine ⟨by omega, i2, i3, i4, fun j h1 h2 => ?_⟩
          by_cases hj : j = bi0
          · rw [hj]; exact hset
          · exact i5 j (by omega) h2
        | none =>
          rw [hs] at ih
          intro j h1 h2 h3
          by_cases hj : j = bi0
          · rw [hj]; exact hset
          · exact ih j (by omega) h2 h3
    · rw [if_neg hin]
      intro j h1 h2 h3
      exfalso
      apply hin
      exact ⟨by omega, by omega⟩

/-! ## balloc -/

theorem bblock_add {c : Config} {b0 bi : Nat} (sb : Superblock) (hdvd : BPB c ∣ b0)
    (hbi : bi < BPB c) : BBLOCK c (b0 + bi) sb = BBLOCK c b0 sb ∧ (b0 + bi) % BPB c = bi := by
  obtain ⟨t, rfl⟩ := hdvd
  have hpos : 0 < BPB c := by omega
  constructor
  · unfold BBLOCK
    rw [Nat.mul_add_div hpos, Nat.div_eq_of_lt hbi, Nat.add_zero, Nat.mul_div_cancel_left _ hpos]
  · rw [Nat.mul_add_mod, Nat.mod_eq_of_lt hbi]

/-- What a returning `balloc` leaves in the cache, whatever faults are injected: the block
it returns is pinned with `BSIZE` zero bytes, and the free-map block of that block is pinned
with the bit of the block set. -/
theorem balloc_loop_tags (c : Config) (dev k : Nat) : ∀ (fuel b0 : Nat) (s s' : State) (b : Nat),
    TagsOK c s dev (k + 3) → BPB c ∣ b0 → balloc_loop c dev fuel b0 s = .ok (s', b) →
      TagsOK c s' dev (k + 1) ∧ SameEnv s s' ∧ Pinned c s' dev b ∧
        (∀ i, i < c.BSIZE → blockView c s' dev b i = 0) ∧
        (b ≠ BBLOCK c b s.sb → Pinned c s' dev (BBLOCK c b s.sb) ∧
          bitOf (blockView c s' dev (BBLOCK c b s.sb)) (b % BPB c) = true)
  | 0, b0, s, s', b, _, _, hr => by simp [balloc_loop] at hr
  | fuel + 1, b0, s, s', b, ht, hdvd, hr => by
    simp only [balloc_loop] at hr
    split at hr
    · cases hbr : bread c s dev (BBLOCK c b0 s.sb) with
      | error e => simp [hbr] at hr
      | ok r1 =>
        obtain ⟨s1, bp⟩ := r1
        simp only [hbr] at hr
        obtain ⟨-, -, -, henv1, -, -, hbp, -, -, -, -, -, -, -⟩ := bread_shape ht hbr
        have hsz : s1.sb.size = s.sb.size := by rw [henv1.2.1]
        rw [hsz] at hr
        cases hsc : balloc_scan c s.sb.size (s1.bufs bp).data b0 (BPB c + 1) 0 with
        | some bi =>
          simp only [hsc] at hr
          have hspec := balloc_scan_spec c s.sb.size (s1.bufs bp).data b0 (BPB c + 1) 0 (by omega)
          rw [hsc] at hspec
          obtain ⟨-, hbi, -, -, -⟩ := hspec
          obtain ⟨hblk, hmod⟩ := bblock_add s.sb hdvd hbi
          cases hrel : brelse c (log_write (s1.setBuf bp { s1.bufs bp with
              data := Function.update (s1.bufs bp).data (bi / 8)
                (((s1.bufs bp).data (bi / 8) ||| 1 <<< (bi % 8)) % 256) }) bp) bp with
          | error e => simp [hrel] at hr
          | ok r2 =>
            obtain ⟨s2, u⟩ := r2
            simp only [hrel] at hr
            obtain ⟨ht2, henv2, -, -, -, hpin2, hview2, -⟩ := poke_tags (k := k + 1) _ ht hbr hrel
            cases hbz : bzero c s2 dev (b0 + bi) with
            | error e => simp [hbz] at hr
            | ok r3 =>
              obtain ⟨s4, u2⟩ := r3
              simp only [hbz, Except.ok.injEq, Prod.mk.injEq] at hr
              obtain ⟨rfl, rfl⟩ := hr
              unfold bzero at hbz
              cases hbr3 : bread c s2 dev (b0 + bi) with
              | error e => simp [hbr3] at hbz
              | ok r4 =>
                obtain ⟨s3, bz⟩ := r4
                simp only [hbr3] at hbz
                obtain ⟨ht4, henv4, -, -, hkeep, hpin4, hview4, hother⟩ :=
                  poke_tags _ ht2 hbr3 hbz
                refine ⟨ht4, henv2.trans_env henv4, hpin4, fun i hi => ?_, fun hne => ?_⟩
                · rw [hview4]; simp [hi]
                · rw [hblk, hmod]
                  rw [hblk] at hne
                  refine ⟨hkeep _ hpin2, ?_⟩
                  rw [hother _ (Ne.symm hne) hpin2, hview2, bitOf_set, if_pos rfl]
        | none =>
          simp only [hsc] at hr
          cases hrel : brelse c s1 bp with
          | error e => simp [hrel] at hr
          | ok r2 =>
            obtain ⟨s2, u⟩ := r2
            simp only [hrel] at hr
            obtain ⟨ht2, henv2, -, -, -, -⟩ := peek_tags (k := k + 2) ht hbr hrel
            have ih := balloc_loop_tags c dev k fuel (b0 + BPB c) s2 s' b ht2
              (Dvd.dvd.add hdvd (Nat.dvd_refl _)) hr
            rw [henv2.2.1] at ih
            exact ⟨ih.1, henv2.trans_env ih.2.1, ih.2.2⟩
    · simp at hr

theorem boot_bufs (c : Config) (disk : Nat → Nat → Nat) (pbn fail : Int) (sb : Superblock)
    (i : Nat) : (boot c disk pbn fail sb).bufs i = Buf.zero := by
  have key : ∀ (n b : Nat) (s : State), (∀ j, s.bufs j = Buf.zero) →
      ∀ j, (binit_loop c n b s).bufs j = Buf.zero := by
    intro n
    induction n with
    | zero => intro b s hs j; simpa [binit_loop] using hs j
    | succ n ih =>
      intro b s hs j
      simp only [binit_loop]
      refine ih _ _ (fun k => ?_) j
      by_cases hk : k = b
      · subst hk; simp [State.setBuf, hs, Buf.zero]
      · simp [State.setBuf, Function.update_noteq hk, hs]
  exact key _ _ _ (fun _ => rfl) i

/-- After boot the cache is coherent for every device but device 0, whose number the
zero-initialised buffers carry. -/
theorem boot_coherent (c : Config) (disk : Nat → Nat → Nat) (pbn fail : Int) (sb : Superblock)
    {dev k : Nat} (hdev : dev ≠ 0) (hk : k < U32) :
    Coherent c (boot c disk pbn fail sb) dev k := by
  refine ⟨⟨(boot_listOK c disk pbn fail sb).2, ?_, ?_, ?_⟩, ?_⟩
  · intro i j _ _ hi _ _
    rw [boot_bufs] at hi
    exact absurd hi.symm hdev
  · intro i _ hl
    rw [boot_bufs] at hl
    simp [Buf.zero] at hl
  · intro i _
    rw [boot_bufs]
    simpa [Buf.zero] using hk
  · intro i _ _ hv
    rw [boot_bufs] at hv
    simp [Buf.zero] at hv

theorem coherent_setInode {c : Config} {s : State} {dev k : Nat} (h : Coherent c s dev k)
    (ip : Nat) (x : Inode) : Coherent c (s.setInode ip x) dev k :=
  ⟨⟨(listOK_congr (s := s) rfl rfl).2 h.1.1, h.1.2.1, h.1.2.2.1, h.1.2.2.2⟩, h.2⟩

theorem fs0_coherent (fail : Int) {k : Nat} (hk : k < U32) : Coherent cfg0 (fs0 fail) 1 k :=
  coherent_setInode (boot_coherent cfg0 disk1 (-1) fail sb0 (by decide) hk) 0 ino0

theorem fs0_balloc : balloc cfg0 (fs0 (-1)) 1 = .ok (fs0Alloc (-1), 10) := rfl

/-- C2: whenever `balloc(dev)` returns a block number `b`, then in the cache after the call
the free-map bit of `b` is set and the content of block `b` is `BSIZE` zero bytes.  (The
cache bookkeeping is in order and `b` is not the free-map block of its own bit.) -/
theorem balloc_post (c : Config) (s s' : State) (dev b : Nat) (ht : TagsOK c s dev 3)
    (hr : balloc c s dev = .ok (s', b)) (hne : b ≠ BBLOCK c b s.sb) :
    bmBit c s' dev b = true ∧ ∀ i, i < c.BSIZE → blockView c s' dev b i = 0 := by
  obtain ⟨-, henv, -, hz, hbit⟩ :=
    balloc_loop_tags c dev 0 (s.sb.size + 1) 0 s s' b ht (Nat.dvd_zero _) hr
  refine ⟨?_, hz⟩
  unfold bmBit
  rw [henv.2.1]
  exact (hbit hne).2

/-- Worked example for C2: on the example file system `balloc(1)` returns block 10, whose bit
is then set in the free map and whose content is zero. -/
theorem balloc_post_witness :
    (TagsOK cfg0 (fs0 (-1)) 1 3 ∧ balloc cfg0 (fs0 (-1)) 1 = .ok (fs0Alloc (-1), 10) ∧
      10 ≠ BBLOCK cfg0 10 (fs0 (-1)).sb) ∧
    (bmBit cfg0 (fs0Alloc (-1)) 1 10 = true ∧
      ∀ i, i < cfg0.BSIZE → blockView cfg0 (fs0Alloc (-1)) 1 10 i = 0) :=
  ⟨⟨(fs0_coherent (-1) (by decide)).1, fs0_balloc, by decide⟩,
    balloc_post cfg0 (fs0 (-1)) (fs0Alloc (-1)) 1 10 (fs0_coherent (-1) (by decide)).1
      fs0_balloc (by decide)⟩

theorem acquiresleep_err {s s1 : State} {b : Nat} {e : Err}
    (h : acquiresleep s b = .error (e, s1)) : e = Err.sleeps := by
  unfold acquiresleep at h
  by_cases hl : (s.bufs b).locked = true
  · simp only [hl, if_true, Except.error.injEq, Prod.mk.injEq] at h
    exact h.1.symm
  · simp [hl] at h

theorem bget_err {c : Config} {s s1 : State} {dev n : Nat} {e : Err}
    (h : bget c s dev n = .error (e, s1)) :
    e = Err.bget_no_buffers ∨ e = Err.sleeps ∨ e = Err.list_broken := by
  unfold bget at h
  cases hsc : bget_cached c s dev n (c.NBUF + 1) (s.next c.NBUF) with
  | found x =>
    simp only [hsc] at h
    cases ha : acquiresleep (s.setBuf x
        { s.bufs x with refcnt := ((s.bufs x).refcnt + 1) % U32 }) x with
    | error e2 =>
      obtain ⟨e3, s3⟩ := e2
      simp only [ha, Except.error.injEq, Prod.mk.injEq] at h
      rw [← h.1]
      exact Or.inr (Or.inl (acquiresleep_err ha))
    | ok r => simp [ha] at h
  | nofuel =>
    simp only [hsc, Except.error.injEq, Prod.mk.injEq] at h
    exact Or.inr (Or.inr h.1.symm)
  | notfound =>
    simp only [hsc] at h
    cases hrc : bget_recycle c s (c.NBUF + 1) (s.prev c.NBUF) with
    | found x =>
      simp only [hrc] at h
      cases ha : acquiresleep (s.setBuf x
          { s.bufs x with dev := dev, blockno := n, valid := 0, refcnt := 1 }) x with
      | error e2 =>
        obtain ⟨e3, s3⟩ := e2
        simp only [ha, Except.error.injEq, Prod.mk.injEq] at h
        rw [← h.1]
        exact Or.inr (Or.inl (acquiresleep_err ha))
      | ok r => simp [ha] at h
    | nofuel =>
      simp only [hrc, Except.error.injEq, Prod.mk.injEq] at h
      exact Or.inr (Or.inr h.1.symm)
    | notfound =>
      simp only [hrc, Except.error.injEq, Prod.mk.injEq] at h
      exact Or.inl h.1.symm

theorem bread_err {c : Config} {s s1 : State} {dev n : Nat} {e : Err}
    (h : bread c s dev n = .error (e, s1)) : e.ofCache := by
  unfold bread at h
  cases hg : bget c s dev n with
  | error e2 =>
    obtain ⟨e3, s3⟩ := e2
    simp only [hg, Except.error.injEq, Prod.mk.injEq] at h
    rw [← h.1]
    rcases bget_err hg with h1 | h1 | h1
    · exact Or.inl h1
    · exact Or.inr (Or.inl h1)
    · exact Or.inr (Or.inr (Or.inl h1))
  | ok r =>
    obtain ⟨s0, b⟩ := r
    simp only [hg] at h
    split at h
    · split at h <;> simp at h
    · simp at h

theorem brelse_err {c : Config} {s s1 : State} {b : Nat} {e : Err}
    (h : brelse c s b = .error (e, s1)) : e.ofCache := by
  simp only [brelse, holdingsleep, releasesleep] at h
  split at h
  · simp only [Except.error.injEq, Prod.mk.injEq] at h
    exact Or.inr (Or.inr (Or.inr (Or.inl h.1.symm)))
  · split at h <;> simp at h

theorem bzero_err {c : Config} {s s1 : State} {dev n : Nat} {e : Err}
    (h : bzero c s dev n = .error (e, s1)) : e.ofCache := by
  unfold bzero at h
  cases hb : bread c s dev n with
  | error e2 =>
    obtain ⟨e3, s3⟩ := e2
    simp only [hb, Except.error.injEq, Prod.mk.injEq] at h
    rw [← h.1]
    exact bread_err hb
  | ok r =>
    obtain ⟨s0, b⟩ := r
    simp only [hb] at h
    exact brelse_err h

theorem Err.ofCache_ne_blocks {e : Err} (h : e.ofCache) : e ≠ Err.balloc_out_of_blocks := by
  rcases h with h | h | h | h | h <;> rw [h] <;> decide

theorem bblock_inj {c : Config} {s : State} (hg : Geometry c s) {x y : Nat}
    (hx : x < s.sb.size) (hy : y < s.sb.size) (h : BBLOCK c x s.sb = BBLOCK c y s.sb) :
    x / BPB c = y / BPB c := by
  have hpos : 0 < BPB c := by unfold BPB; have := hg.1; omega
  have h1 : x / BPB c ≤ s.sb.size / BPB c := Nat.div_le_div_right (Nat.le_of_lt hx)
  have h2 : y / BPB c ≤ s.sb.size / BPB c := Nat.div_le_div_right (Nat.le_of_lt hy)
  have h3 := hg.2.1
  unfold BBLOCK at h
  rw [Nat.mod_eq_of_lt (by omega), Nat.mod_eq_of_lt (by omega)] at h
  omega

/-- What `balloc` does without an injected fault, on a coherent cache. -/
theorem balloc_loop_view (c : Config) (dev k : Nat) : ∀ (fuel b0 : Nat) (s : State),
    Coherent c s dev (k + 3) → Geometry c s → NoFault s → BPB c ∣ b0 →
    (∀ x, x < b0 → x < s.sb.size → bmBit c s dev x = true) →
    (∀ s' b, balloc_loop c dev fuel b0 s = .ok (s', b) →
      b < s.sb.size ∧ bmBit c s dev b = false ∧ (∀ x, x < b → bmBit c s dev x = true) ∧
      Coherent c s' dev (k + 1) ∧ SameEnv s s' ∧ s'.inodes = s.inodes ∧
      (∀ i, (s'.bufs i).locked = (s.bufs i).locked) ∧
      (∀ m, Pinned c s dev m → Pinned c s' dev m) ∧
      (∀ m, blockView c s' dev m =
        if m = b then zeroed c
          (if b = BBLOCK c b s.sb then withBit (blockView c s dev b) (b % BPB c)
            else blockView c s dev b)
        else if m = BBLOCK c b s.sb then withBit (blockView c s dev m) (b % BPB c)
        else blockView c s dev m)) ∧
    (∀ s', balloc_loop c dev fuel b0 s = .error (Err.balloc_out_of_blocks, s') →
      ∀ x, x < s.sb.size → bmBit c s dev x = true)
  | 0, b0, s, _, _, _, _, _ => by
    constructor
    · intro s' b hr; simp [balloc_loop] at hr
    · intro s' hr; simp [balloc_loop] at hr
  | fuel + 1, b0, s, hc, hg, hnf, hdvd, hsc => by
    have hpos : 0 < BPB c := by unfold BPB; have := hg.1; omega
    by_cases hlt : b0 < s.sb.size
    · have hf0 : forced s (BBLOCK c b0 s.sb) = false := hnf _ (hg.2.2 b0 hlt)
      cases hbr : bread c s dev (BBLOCK c b0 s.sb) with
      | error e =>
        obtain ⟨e1, s1⟩ := e
        constructor
        · intro s' b hr; simp [balloc_loop, hlt, hbr] at hr
        · intro s' hr
          simp only [balloc_loop, hlt, if_true, hbr, Except.error.injEq, Prod.mk.injEq] at hr
          exact absurd hr.1 (Err.ofCache_ne_blocks (bread_err hbr))
      | ok r1 =>
        obtain ⟨s1, bp⟩ := r1
        obtain ⟨-, -, -, henv1, -, -, hbp, -, -, hlk1, -, -, -, -⟩ := bread_shape hc.1 hbr
        have hsz : s1.sb.size = s.sb.size := by rw [henv1.2.1]
        have hdata : (s1.bufs bp).data = blockView c s dev (BBLOCK c b0 s.sb) :=
          (bread_view (k := k + 2) hc hf0 hbr).2.1
        have hspec := balloc_scan_spec c s.sb.size (s1.bufs bp).data b0 (BPB c + 1) 0 (by omega)
        cases hscan : balloc_scan c s.sb.size (s1.bufs bp).data b0 (BPB c + 1) 0 with
        | some bi =>
          rw [hscan] at hspec
          obtain ⟨-, hbi, hbsz, hclear, hbelow⟩ := hspec
          obtain ⟨hblk, hmod⟩ := bblock_add s.sb hdvd hbi
          have hfirst : bmBit c s dev (b0 + bi) = false ∧
              ∀ x, x < b0 + bi → bmBit c s dev x = true := by
            refine ⟨?_, fun x hx => ?_⟩
            · unfold bmBit; rw [hblk, hmod, ← hdata]; exact hclear
            · by_cases hxb : x < b0
              · exact hsc x hxb (by omega)
              · obtain ⟨j, rfl⟩ : ∃ j, x = b0 + j := ⟨x - b0, by omega⟩
                obtain ⟨hblk2, hmod2⟩ := bblock_add s.sb hdvd (show j < BPB c by omega)
                unfold bmBit; rw [hblk2, hmod2, ← hdata]
                exact hbelow j (Nat.zero_le _) (by omega)
          cases hrel : brelse c (log_write (s1.setBuf bp { s1.bufs bp with
              data := Function.update (s1.bufs bp).data (bi / 8)
                (((s1.bufs bp).data (bi / 8) ||| 1 <<< (bi % 8)) % 256) }) bp) bp with
          | error e =>
            obtain ⟨e2, s2⟩ := e
            constructor
            · intro s' b hr; simp [balloc_loop, hlt, hbr, hsz, hscan, hrel] at hr
            · intro s' hr
              simp only [balloc_loop, hlt, if_true, hbr, hsz, hscan, hrel, Except.error.injEq,
                Prod.mk.injEq] at hr
              exact absurd hr.1 (Err.ofCache_ne_blocks (brelse_err hrel))
          | ok r2 =>
            obtain ⟨s2, u⟩ := r2
            obtain ⟨hc2, -, hview2⟩ := poke_view (k := k + 1) _ hc hf0 hbr hrel
            obtain ⟨-, henv2, hino2, hlk2, hpin2, -, -, -⟩ := poke_tags (k := k + 1) _ hc.1 hbr hrel
            cases hbz : bzero c s2 dev (b0 + bi) with
            | error e =>
              obtain ⟨e3, s3⟩ := e
              constructor
              · intro s' b hr; simp [balloc_loop, hlt, hbr, hsz, hscan, hrel, hbz] at hr
              · intro s' hr
                simp only [balloc_loop, hlt, if_true, hbr, hsz, hscan, hrel, hbz,
                  Except.error.injEq, Prod.mk.injEq] at hr
                exact absurd hr.1 (Err.ofCache_ne_blocks (bzero_err hbz))
            | ok r3 =>
              obtain ⟨s4, u2⟩ := r3
              constructor
              · intro s' b hr
                simp only [balloc_loop, hlt, if_true, hbr, hsz, hscan, hrel, hbz, Except.ok.injEq,
                  Prod.mk.injEq] at hr
                obtain ⟨rfl, rfl⟩ := hr
                unfold bzero at hbz
                cases hbr3 : bread c s2 dev (b0 + bi) with
                | error e => simp [hbr3] at hbz
                | ok r4 =>
                  obtain ⟨s3, bz⟩ := r4
                  simp only [hbr3] at hbz
                  have hf2 : forced s2 (b0 + bi) = false := by
                    rw [henv2.forced_eq]; exact hnf _ hbsz
                  obtain ⟨hc4, hdata4, hview4⟩ := poke_view (k := k) _ hc2 hf2 hbr3 hbz
                  obtain ⟨-, henv4, hino4, hlk4, hpin4, -, -, -⟩ :=
                    poke_tags (k := k) _ hc2.1 hbr3 hbz
                  refine ⟨hbsz, hfirst.1, hfirst.2, hc4, henv2.trans_env henv4,
                    hino4.trans hino2, fun i => (hlk4 i).trans (hlk2 i),
                    fun m hm => hpin4 m (hpin2 m hm), fun m => ?_⟩
                  rw [hview4 m, hblk, hmod]
                  by_cases hm : m = b0 + bi
                  · rw [if_pos hm, if_pos hm, hdata4, hview2, hdata]
                    by_cases hq : b0 + bi = BBLOCK c b0 s.sb
                    · rw [if_pos hq, if_pos hq, ← hq]; rfl
                    · rw [if_neg hq, if_neg hq]; rfl
                  · rw [if_neg hm, if_neg hm, hview2 m, hdata]
                    by_cases hq : m = BBLOCK c b0 s.sb
                    · rw [if_pos hq, if_pos hq, ← hq]; rfl
                    · rw [if_neg hq, if_neg hq]
              · intro s' hr
                simp [balloc_loop, hlt, hbr, hsz, hscan, hrel, hbz] at hr
        | none =>
          rw [hscan] at hspec
          cases hrel : brelse c s1 bp with
          | error e =>
            obtain ⟨e2, s2⟩ := e
            constructor
            · intro s' b hr; simp [balloc_loop, hlt, hbr, hsz, hscan, hrel] at hr
            · intro s' hr
              simp only [balloc_loop, hlt, if_true, hbr, hsz, hscan, hrel, Except.error.injEq,
                Prod.mk.injEq] at hr
              exact absurd hr.1 (Err.ofCache_ne_blocks (brelse_err hrel))
          | ok r2 =>
            obtain ⟨s2, u⟩ := r2
            obtain ⟨hc2, -, hview2⟩ := peek_view (k := k + 2) hc hf0 hbr hrel
            obtain ⟨-, henv2, hino2, -, hall2, hpin2⟩ := peek_tags (k := k + 2) hc.1 hbr hrel
            have hbm : ∀ x, bmBit c s2 dev x = bmBit c s dev x := fun x => by
              unfold bmBit; rw [henv2.2.1, hview2]
            have hg2 : Geometry c s2 := by unfold Geometry; rw [henv2.2.1]; exact hg
            have hnf2 : NoFault s2 := fun n hn => by
              rw [henv2.forced_eq]; exact hnf n (by rw [← henv2.2.1]; exact hn)
            have hsc2 : ∀ x, x < b0 + BPB c → x < s2.sb.size → bmBit c s2 dev x = true := by
              intro x hx hxs
              rw [henv2.2.1] at hxs
              rw [hbm]
              by_cases hxb : x < b0
              · exact hsc x hxb hxs
              · obtain ⟨j, rfl⟩ : ∃ j, x = b0 + j := ⟨x - b0, by omega⟩
                obtain ⟨hblk2, hmod2⟩ := bblock_add s.sb hdvd (show j < BPB c by omega)
                unfold bmBit; rw [hblk2, hmod2, ← hdata]
                exact hspec j (Nat.zero_le _) (by omega) hxs
            have ih := balloc_loop_view c dev k fuel (b0 + BPB c) s2 hc2 hg2 hnf2
              (Dvd.dvd.add hdvd (Nat.dvd_refl _)) hsc2
            simp only [hbm, hview2, henv2.2.1, hino2] at ih
            constructor
            · intro s' b hr
              simp only [balloc_loop, hlt, if_true, hbr, hsz, hscan, hrel] at hr
              obtain ⟨i1, i2, i3, i4, i5, i6, i7, i8, i9⟩ := ih.1 s' b hr
              exact ⟨i1, i2, i3, i4, henv2.trans_env i5, i6, fun i => (i7 i).trans (hall2 i).2,
                fun m hm => i8 m (hpin2 m hm), i9⟩
            · intro s' hr
              simp only [balloc_loop, hlt, if_true, hbr, hsz, hscan, hrel] at hr
              exact ih.2 s' hr
    · constructor
      · intro s' b hr; simp [balloc_loop, hlt] at hr
      · intro s' _ x hx
        exact hsc x (by omega) hx

theorem Spare.weaken {c : Config} {s : State} {n m : Nat} (h : Spare c s n) (hm : m ≤ n) :
    Spare c s m := by
  obtain ⟨l, h1, h2, h3⟩ := h
  exact ⟨l, h1, by omega, h3⟩

/-- A step that changes one buffer only uses up at most one unused buffer. -/
theorem Spare.step {c : Config} {s s1 : State} {n b : Nat} (h : Spare c s (n + 1))
    (hoth : ∀ i, i ≠ b → s1.bufs i = s.bufs i) : Spare c s1 n := by
  obtain ⟨l, h1, h2, h3⟩ := h
  refine ⟨l.erase b, h1.erase b, ?_, fun i hi => ?_⟩
  · have := List.length_erase_le b l
    by_cases hb : b ∈ l
    · rw [List.length_erase_of_mem hb]; omega
    · rw [List.erase_of_not_mem hb]; omega
  · have hib : i ≠ b := fun e => by
      rw [e] at hi
      exact (List.Nodup.not_mem_erase h1) hi
    rw [hoth i hib]
    exact h3 i (List.mem_of_mem_erase hi)

theorem Spare.same {c : Config} {s s1 : State} {n : Nat} (h : Spare c s n)
    (hall : ∀ i, (s1.bufs i).refcnt = (s.bufs i).refcnt) : Spare c s1 n := by
  obtain ⟨l, h1, h2, h3⟩ := h
  exact ⟨l, h1, h2, fun i hi => ⟨(h3 i hi).1, by rw [hall]; exact (h3 i hi).2⟩⟩

/-- With nobody holding a buffer and one buffer unused, `bread` returns. -/
theorem bread_total {c : Config} {s : State} (hok : ListOK c s) (hu : Unlocked c s)
    (hs : Spare c s 1) (dev n : Nat) : ∃ s1 b, bread c s dev n = .ok (s1, b) := by
  have hg : ∃ s0 b, bget c s dev n = .ok (s0, b) := by
    cases hc : cachedBuf c s dev n with
    | some b =>
      exact ⟨_, _, bget_hit hok hc (hu b (cachedBuf_some hok hc).1)⟩
    | none =>
      cases hv : victimBuf c s with
      | some b =>
        obtain ⟨l1, l2, he, -, -⟩ := (victimBuf_eq_some_iff b).1 hv
        have hb : b < c.NBUF := (hok.mem_iff b).1 (by rw [he]; simp)
        exact ⟨_, _, bget_miss hok hc hv (hu b hb)⟩
      | none =>
        exfalso
        obtain ⟨l, -, h2, h3⟩ := hs
        cases l with
        | nil => simp at h2
        | cons i l =>
          exact (victimBuf_eq_none_iff hok).1 hv i (h3 i (by simp)).1 (h3 i (by simp)).2
  obtain ⟨s0, b, hg⟩ := hg
  unfold bread
  simp only [hg]
  split
  · split <;> exact ⟨_, _, rfl⟩
  · exact ⟨_, _, rfl⟩

/-- The release after a read returns. -/
theorem peek_total {c : Config} {s s1 : State} {dev n b k : Nat} (h : TagsOK c s dev (k + 1))
    (hr : bread c s dev n = .ok (s1, b)) : ∃ s2, brelse c s1 b = .ok (s2, ()) := by
  obtain ⟨-, -, -, -, -, -, hb, -, -, hlk, -, -, -, -⟩ := bread_shape h hr
  obtain ⟨ht1, -, -⟩ := bread_tags h hr
  obtain ⟨s3, h1, -⟩ := brelse_tags ht1 hb hlk
  exact ⟨s3, h1⟩

/-- The release after a read, a change of the buffer and `log_write` returns, and no other
buffer has changed. -/
theorem poke_total {c : Config} {s s1 : State} {dev n b k : Nat} (d : Nat → Nat)
    (h : TagsOK c s dev (k + 2)) (hr : bread c s dev n = .ok (s1, b)) :
    ∃ s3, brelse c (log_write (s1.setBuf b { s1.bufs b with data := d }) b) b = .ok (s3, ()) ∧
      ∀ i, i ≠ b → s3.bufs i = s.bufs i := by
  obtain ⟨hbufs, -, -, -, -, -, hb, -, -, hlk, -, -, -, -⟩ := bread_shape h hr
  obtain ⟨ht1, -, -⟩ := bread_tags h hr
  have ht1b := setData_tags ht1 hb d
  obtain ⟨hlw, ht2, -, -⟩ := log_write_tags (k := k) ht1b hb
  have hlk2 : ((log_write (s1.setBuf b { s1.bufs b with data := d }) b).bufs b).locked = true := by
    rw [hlw, Function.update_same]; simpa using hlk
  obtain ⟨s4, h1, h2, -⟩ := brelse_tags ht2 hb hlk2
  refine ⟨s4, h1, fun i hib => ?_⟩
  rw [h2, Function.update_noteq hib, hlw, Function.update_noteq hib]
  simp only [State.setBuf, Function.update_noteq hib]
  rw [hbufs, Function.update_noteq hib]

/-- With nobody holding a buffer and two buffers unused, `balloc` without an injected fault
either returns a block or stops for want of a free block. -/
theorem balloc_loop_total (c : Config) (dev k : Nat) : ∀ (fuel b0 : Nat) (s : State),
    Coherent c s dev (k + 3) → Geometry c s → NoFault s → Unlocked c s → Spare c s 2 →
    s.sb.size - b0 < fuel →
    (∃ s' b, balloc_loop c dev fuel b0 s = .ok (s', b)) ∨
      ∃ s', balloc_loop c dev fuel b0 s = .error (Err.balloc_out_of_blocks, s')
  | 0, b0, s, _, _, _, _, _, hfuel => by omega
  | fuel + 1, b0, s, hc, hg, hnf, hu, hsp, hfuel => by
    have hpos : 0 < BPB c := by unfold BPB; have := hg.1; omega
    by_cases hlt : b0 < s.sb.size
    · have hf0 : forced s (BBLOCK c b0 s.sb) = false := hnf _ (hg.2.2 b0 hlt)
      obtain ⟨s1, bp, hbr⟩ := bread_total hc.1.1 hu (hsp.weaken (by omega)) dev (BBLOCK c b0 s.sb)
      obtain ⟨-, -, -, henv1, -, -, hbp, -, -, hlk1, -, -, -, -⟩ := bread_shape hc.1 hbr
      have hsz : s1.sb.size = s.sb.size := by rw [henv1.2.1]
      cases hscan : balloc_scan c s.sb.size (s1.bufs bp).data b0 (BPB c + 1) 0 with
      | some bi =>
        have hspec := balloc_scan_spec c s.sb.size (s1.bufs bp).data b0 (BPB c + 1) 0 (by omega)
        rw [hscan] at hspec
        obtain ⟨-, hbi, hbsz, -, -⟩ := hspec
        obtain ⟨s2, hrel, hoth2⟩ := poke_total (k := k + 1)
          (Function.update (s1.bufs bp).data (bi / 8)
            (((s1.bufs bp).data (bi / 8) ||| 1 <<< (bi % 8)) % 256)) hc.1 hbr
        obtain ⟨hc2, -, -⟩ := poke_view (k := k + 1) _ hc hf0 hbr hrel
        obtain ⟨-, henv2, -, hlk2, -, -, -, -⟩ := poke_tags (k := k + 1) _ hc.1 hbr hrel
        have hu2 : Unlocked c s2 := fun i hi => by rw [hlk2]; exact hu i hi
        have hsp2 : Spare c s2 1 := hsp.step hoth2
        obtain ⟨s3, bz, hbr3⟩ := bread_total hc2.1.1 hu2 hsp2 dev (b0 + bi)
        obtain ⟨s4, hrel4, -⟩ := poke_total (k := k)
          (fun i => if i < c.BSIZE then 0 else (s3.bufs bz).data i) hc2.1 hbr3
        left
        refine ⟨s4, b0 + bi, ?_⟩
        simp only [balloc_loop, hlt, if_true, hbr, hsz, hscan, hrel, bzero, hbr3, hrel4]
      | none =>
        obtain ⟨s2, hrel⟩ := peek_total (k := k + 2) hc.1 hbr
        obtain ⟨hc2, -, -⟩ := peek_view (k := k + 2) hc hf0 hbr hrel
        obtain ⟨-, henv2, -, -, hall2, -⟩ := peek_tags (k := k + 2) hc.1 hbr hrel
        have hg2 : Geometry c s2 := by unfold Geometry; rw [henv2.2.1]; exact hg
        have hnf2 : NoFault s2 := fun n hn => by
          rw [henv2.forced_eq]; exact hnf n (by rw [← henv2.2.1]; exact hn)
        have hu2 : Unlocked c s2 := fun i hi => by rw [(hall2 i).2]; exact hu i hi
        have hsp2 : Spare c s2 2 := hsp.same (fun i => (hall2 i).1)
        have ih := balloc_loop_total c dev k fuel (b0 + BPB c) s2 hc2 hg2 hnf2 hu2 hsp2
          (by rw [henv2.2.1]; omega)
        simp only [balloc_loop, hlt, if_true, hbr, hsz, hscan, hrel]
        exact ih
    · right
      exact ⟨s, by simp [balloc_loop, hlt]⟩

theorem fs0_bufs (fail : Int) (i : Nat) : (fs0 fail).bufs i = Buf.zero :=
  boot_bufs cfg0 disk1 (-1) fail sb0 i

theorem fs0_geometry (fail : Int) : Geometry cfg0 (fs0 fail) := by
  refine ⟨by decide, show 50 / 64 + 5 < U32 by decide, fun x hx => ?_⟩
  have hx2 : x < 50 := hx
  show (x / 64 + 5) % U32 < 50
  have : x / 64 = 0 := Nat.div_eq_of_lt (by omega)
  rw [this]
  decide

theorem fs0_nofault : NoFault (fs0 (-1)) := by
  intro n hn
  have hn2 : n < 50 := hn
  show ((-1 : Int) == 0 || (-1 : Int) == toInt32 n) = false
  rw [toInt32_of_lt (by omega)]
  simp

theorem fs0_unlocked (fail : Int) : Unlocked cfg0 (fs0 fail) := fun i _ => by
  rw [fs0_bufs]; rfl

theorem fs0_spare (fail : Int) : Spare cfg0 (fs0 fail) 2 :=
  ⟨[0, 1], by decide, by decide, fun i hi => by
    rw [fs0_bufs]
    simp only [List.mem_cons, List.mem_singleton, List.not_mem_nil, or_false] at hi
    rcases hi with rfl | rfl <;> exact ⟨by decide, rfl⟩⟩

theorem fs0_mapInUse (fail : Int) : MapInUse cfg0 (fs0 fail) 1 := by
  intro x hx
  have hx2 : x < 50 := hx
  have h5 : BBLOCK cfg0 x (fs0 fail).sb = 5 := by
    show (x / 64 + 5) % U32 = 5
    have : x / 64 = 0 := Nat.div_eq_of_lt (by omega)
    rw [this]
    decide
  rw [h5]
  unfold bmBit
  have h55 : BBLOCK cfg0 5 (fs0 fail).sb = 5 := show BBLOCK cfg0 5 sb0 = 5 by decide
  rw [h55, blockView_of_none (fs0_coherent fail (k := 0) (by decide)).1.1]
  · show bitOf (disk1 5) (5 % BPB cfg0) = true
    decide
  · rintro ⟨i, -, hi⟩
    rw [fs0_bufs] at hi
    simp [Buf.holds, Buf.zero] at hi

/-- The free-map bits after a returning `balloc` without an injected fault: the bit of the
returned block is set, every other bit is as before. -/
theorem balloc_bits {c : Config} {s s' : State} {dev b : Nat} (hg : Geometry c s)
    (hm : MapInUse c s dev) (hb : b < s.sb.size) (hclear : bmBit c s dev b = false)
    (hsb : s'.sb = s.sb)
    (hview : ∀ m, blockView c s' dev m =
      if m = b then zeroed c
        (if b = BBLOCK c b s.sb then withBit (blockView c s dev b) (b % BPB c)
          else blockView c s dev b)
      else if m = BBLOCK c b s.sb then withBit (blockView c s dev m) (b % BPB c)
      else blockView c s dev m) :
    bmBit c s' dev b = true ∧
      ∀ x, x < s.sb.size → x ≠ b → bmBit c s' dev x = bmBit c s dev x := by
  have hpos : 0 < BPB c := by unfold BPB; have := hg.1; omega
  have hnot : ∀ x, x < s.sb.size → BBLOCK c x s.sb ≠ b := by
    intro x hx he
    have := hm x hx
    rw [he, hclear] at this
    exact Bool.noConfusion this
  constructor
  · unfold bmBit
    rw [hsb, hview, if_neg (hnot b hb), if_pos rfl]
    unfold withBit
    rw [bitOf_set, if_pos rfl]
  · intro x hx hxb
    unfold bmBit
    rw [hsb, hview, if_neg (hnot x hx)]
    by_cases he : BBLOCK c x s.sb = BBLOCK c b s.sb
    · rw [if_pos he]
      unfold withBit
      rw [bitOf_set, if_neg]
      intro hmod
      apply hxb
      have hdiv := bblock_inj hg hx hb he
      have h1 := Nat.div_add_mod x (BPB c)
      have h2 := Nat.div_add_mod b (BPB c)
      rw [hdiv, hmod] at h1
      omega
    · rw [if_neg he]

/-- C3, amended: with no read fault injected, `balloc` is first-fit.  On a coherent cache in
which nobody holds a buffer and two buffers are unused, with the free map marked in use: if
some block below `sb.size` has its bit clear, `balloc` returns the smallest such block `b`,
sets the bit of `b` and changes no other bit of the free map; if every block below `sb.size`
has its bit set, `balloc` stops with `balloc: out of blocks`. -/
theorem balloc_first_fit (c : Config) (s : State) (dev k : Nat)
    (hc : Coherent c s dev (k + 3)) (hg : Geometry c s) (hnf : NoFault s)
    (hm : MapInUse c s dev) (hu : Unlocked c s) (hsp : Spare c s 2) :
    ((∃ x, x < s.sb.size ∧ bmBit c s dev x = false) →
      ∃ s' b, balloc c s dev = .ok (s', b) ∧ b < s.sb.size ∧ bmBit c s dev b = false ∧
        (∀ x, x < b → bmBit c s dev x = true) ∧ bmBit c s' dev b = true ∧
        ∀ x, x < s.sb.size → x ≠ b → bmBit c s' dev x = bmBit c s dev x) ∧
    ((∀ x, x < s.sb.size → bmBit c s dev x = true) →
      ∃ s', balloc c s dev = .error (Err.balloc_out_of_blocks, s')) := by
  have hview := balloc_loop_view c dev k (s.sb.size + 1) 0 s hc hg hnf (Nat.dvd_zero _)
    (fun x hx _ => absurd hx (Nat.not_lt_zero x))
  have htot := balloc_loop_total c dev k (s.sb.size + 1) 0 s hc hg hnf hu hsp (by omega)
  constructor
  · rintro ⟨x, hx, hxc⟩
    rcases htot with ⟨s', b, hr⟩ | ⟨s', hr⟩
    · obtain ⟨h1, h2, h3, -, henv, -, -, -, h9⟩ := hview.1 s' b hr
      obtain ⟨h10, h11⟩ := balloc_bits hg hm h1 h2 henv.2.1 h9
      exact ⟨s', b, hr, h1, h2, h3, h10, h11⟩
    · have := hview.2 s' hr x hx
      rw [hxc] at this
      exact Bool.noConfusion this
  · intro hall
    rcases htot with ⟨s', b, hr⟩ | ⟨s', hr⟩
    · obtain ⟨h1, h2, -⟩ := hview.1 s' b hr
      have := hall b h1
      rw [h2] at this
      exact Bool.noConfusion this
    · exact ⟨s', hr⟩

/-- C3 as stated fails when a read fault is injected: with `force_disk_fail_id = 0` the
first `balloc(1)` on the example file system returns block 10 and sets its bit, and the next
`balloc(1)` returns block 10 again, a block whose bit is set. -/
theorem balloc_refit_counterexample :
    balloc cfg0 (fs0 0) 1 = .ok (fs0Alloc 0, 10) ∧ bmBit cfg0 (fs0Alloc 0) 1 10 = true ∧
      ∃ s', balloc cfg0 (fs0Alloc 0) 1 = .ok (s', 10) :=
  ⟨rfl, by decide, _, rfl⟩

/-- Worked example for C3: on the example file system, where the blocks 0 to 9 are in use,
`balloc(1)` returns block 10. -/
theorem balloc_first_fit_witness :
    (Coherent cfg0 (fs0 (-1)) 1 3 ∧ Geometry cfg0 (fs0 (-1)) ∧ NoFault (fs0 (-1)) ∧
      MapInUse cfg0 (fs0 (-1)) 1 ∧ Unlocked cfg0 (fs0 (-1)) ∧ Spare cfg0 (fs0 (-1)) 2 ∧
      bmBit cfg0 (fs0 (-1)) 1 10 = false) ∧
    (((∃ x, x < (fs0 (-1)).sb.size ∧ bmBit cfg0 (fs0 (-1)) 1 x = false) →
      ∃ s' b, balloc cfg0 (fs0 (-1)) 1 = .ok (s', b) ∧ b < (fs0 (-1)).sb.size ∧
        bmBit cfg0 (fs0 (-1)) 1 b = false ∧
        (∀ x, x < b → bmBit cfg0 (fs0 (-1)) 1 x = true) ∧ bmBit cfg0 s' 1 b = true ∧
        ∀ x, x < (fs0 (-1)).sb.size → x ≠ b →
          bmBit cfg0 s' 1 x = bmBit cfg0 (fs0 (-1)) 1 x) ∧
    ((∀ x, x < (fs0 (-1)).sb.size → bmBit cfg0 (fs0 (-1)) 1 x = true) →
      ∃ s', balloc cfg0 (fs0 (-1)) 1 = .error (Err.balloc_out_of_blocks, s'))) :=
  ⟨⟨fs0_coherent (-1) (by decide), fs0_geometry (-1), fs0_nofault, fs0_mapInUse (-1),
      fs0_unlocked (-1), fs0_spare (-1), by decide⟩,
    balloc_first_fit cfg0 (fs0 (-1)) 1 0 (fs0_coherent (-1) (by decide)) (fs0_geometry (-1))
      fs0_nofault (fs0_mapInUse (-1)) (fs0_unlocked (-1)) (fs0_spare (-1))⟩

/-- The free-map test of `bfree` reads the bit of the block in the view of the cache. -/
theorem bfree_view (c : Config) (s : State) (dev k b : Nat)
    (hc : Coherent c s dev (k + 2)) (hg : Geometry c s) (hnf : NoFault s)
    (hu : Unlocked c s) (hsp : Spare c s 1) (hb : b < s.sb.size) :
    (bmBit c s dev b = true →
      ∃ s', bfree c s dev b = .ok (s', ()) ∧ Coherent c s' dev (k + 1) ∧ SameEnv s s' ∧
        ∀ m, blockView c s' dev m =
          if m = BBLOCK c b s.sb then withoutBit (blockView c s dev m) (b % BPB c)
          else blockView c s dev m) ∧
    (bmBit c s dev b = false →
      ∃ s', bfree c s dev b = .error (Err.freeing_free_block, s') ∧ SameEnv s s' ∧
        ∀ m, blockView c s' dev m = blockView c s dev m) := by
  have hf0 : forced s (BBLOCK c b s.sb) = false := hnf _ (hg.2.2 b hb)
  obtain ⟨s1, bp, hbr⟩ := bread_total hc.1.1 hu hsp dev (BBLOCK c b s.sb)
  obtain ⟨-, -, -, henv1, -, -, -, -, -, -, -, -, -, -⟩ := bread_shape hc.1 hbr
  obtain ⟨-, hdata, hview1⟩ := bread_view (k := k + 1) hc hf0 hbr
  have hbit : ((s1.bufs bp).data (b % BPB c / 8) &&& 1 <<< (b % BPB c % 8) = 0) ↔
      bmBit c s dev b = false := by
    rw [and_shift_eq_zero, hdata]
    rfl
  constructor
  · intro hset
    have hne : ¬ ((s1.bufs bp).data (b % BPB c / 8) &&& 1 <<< (b % BPB c % 8) = 0) := by
      rw [hbit, hset]; exact Bool.noConfusion
    obtain ⟨s3, hrel, -⟩ := poke_total (k := k)
      (Function.update (s1.bufs bp).data (b % BPB c / 8)
        (((s1.bufs bp).data (b % BPB c / 8) &&& (4294967295 - 1 <<< (b % BPB c % 8))) % 256))
      hc.1 hbr
    obtain ⟨hc3, -, hview3⟩ := poke_view (k := k) _ hc hf0 hbr hrel
    obtain ⟨-, henv3, -⟩ := poke_tags (k := k) _ hc.1 hbr hrel
    refine ⟨s3, ?_, hc3, henv3, fun m => ?_⟩
    · simp only [bfree, hbr, if_neg hne, hrel]
    · rw [hview3 m]
      by_cases hm : m = BBLOCK c b s.sb
      · rw [if_pos hm, if_pos hm, hdata, hm]; rfl
      · rw [if_neg hm, if_neg hm]
  · intro hclr
    have hz := hbit.2 hclr
    refine ⟨s1, ?_, henv1, hview1⟩
    simp only [bfree, hbr, if_pos hz]

/-- C4, amended: with no read fault injected, `bfree(dev, b)` on a block below `sb.size`
whose free-map bit is set returns, clears that bit and leaves every other bit of the free map
as it is; on a block whose bit is clear it stops with `freeing free block`, the disk and the
view of the cache being as before.  (The cache is coherent, nobody holds a buffer and one
buffer is unused.) -/
theorem bfree_spec (c : Config) (s : State) (dev k b : Nat)
    (hc : Coherent c s dev (k + 2)) (hg : Geometry c s) (hnf : NoFault s)
    (hu : Unlocked c s) (hsp : Spare c s 1) (hb : b < s.sb.size) :
    (bmBit c s dev b = true →
      ∃ s', bfree c s dev b = .ok (s', ()) ∧ bmBit c s' dev b = false ∧
        ∀ x, x < s.sb.size → x ≠ b → bmBit c s' dev x = bmBit c s dev x) ∧
    (bmBit c s dev b = false →
      ∃ s', bfree c s dev b = .error (Err.freeing_free_block, s') ∧ s'.disk = s.disk ∧
        ∀ m, blockView c s' dev m = blockView c s dev m) := by
  obtain ⟨h1, h2⟩ := bfree_view c s dev k b hc hg hnf hu hsp hb
  constructor
  · intro hset
    obtain ⟨s', hr, -, henv, hview⟩ := h1 hset
    refine ⟨s', hr, ?_, fun x hx hxb => ?_⟩
    · unfold bmBit
      rw [henv.2.1, hview, if_pos rfl]
      unfold withoutBit
      rw [bitOf_clear, if_pos rfl]
    · unfold bmBit
      rw [henv.2.1, hview]
      by_cases he : BBLOCK c x s.sb = BBLOCK c b s.sb
      · rw [if_pos he]
        unfold withoutBit
        rw [bitOf_clear, if_neg]
        intro hmod
        apply hxb
        have hdiv := bblock_inj hg hx hb he
        have e1 := Nat.div_add_mod x (BPB c)
        have e2 := Nat.div_add_mod b (BPB c)
        rw [hdiv, hmod] at e1
        omega
      · rw [if_neg he]
  · intro hclr
    obtain ⟨s', hr, henv, hview⟩ := h2 hclr
    exact ⟨s', hr, henv.1, hview⟩

/-- C4 as stated fails when a read fault is injected: with `force_disk_fail_id = 0`, after
`balloc(1)` has returned block 10 and set its bit, `bfree(1, 10)` stops with
`freeing free block` although the bit of block 10 is set. -/
theorem bfree_stale_counterexample :
    balloc cfg0 (fs0 0) 1 = .ok (fs0Alloc 0, 10) ∧ bmBit cfg0 (fs0Alloc 0) 1 10 = true ∧
      ∃ s', bfree cfg0 (fs0Alloc 0) 1 10 = .error (Err.freeing_free_block, s') :=
  ⟨rfl, by decide, _, rfl⟩

/-- Worked example for C4: on the example file system block 3 is in use and can be freed,
block 10 is free and cannot. -/
theorem bfree_spec_witness :
    (Coherent cfg0 (fs0 (-1)) 1 2 ∧ Geometry cfg0 (fs0 (-1)) ∧ NoFault (fs0 (-1)) ∧
      Unlocked cfg0 (fs0 (-1)) ∧ Spare cfg0 (fs0 (-1)) 1 ∧ 3 < (fs0 (-1)).sb.size ∧
      bmBit cfg0 (fs0 (-1)) 1 3 = true) ∧
    ((bmBit cfg0 (fs0 (-1)) 1 3 = true →
      ∃ s', bfree cfg0 (fs0 (-1)) 1 3 = .ok (s', ()) ∧ bmBit cfg0 s' 1 3 = false ∧
        ∀ x, x < (fs0 (-1)).sb.size → x ≠ 3 →
          bmBit cfg0 s' 1 x = bmBit cfg0 (fs0 (-1)) 1 x) ∧
    (bmBit cfg0 (fs0 (-1)) 1 3 = false →
      ∃ s', bfree cfg0 (fs0 (-1)) 1 3 = .error (Err.freeing_free_block, s') ∧
        s'.disk = (fs0 (-1)).disk ∧
        ∀ m, blockView cfg0 s' 1 m = blockView cfg0 (fs0 (-1)) 1 m)) :=
  ⟨⟨fs0_coherent (-1) (by decide), fs0_geometry (-1), fs0_nofault, fs0_unlocked (-1),
      (fs0_spare (-1)).weaken (by decide), by decide, by decide⟩,
    bfree_spec cfg0 (fs0 (-1)) 1 0 3 (fs0_coherent (-1) (by decide)) (fs0_geometry (-1))
      fs0_nofault (fs0_unlocked (-1)) ((fs0_spare (-1)).weaken (by decide)) (by decide)⟩

/-! ## Block numbers in a block -/

theorem get32_lt (d : Nat → Nat) (i : Nat) : get32 d i < U32 := by
  unfold get32 U32
  have h0 := Nat.mod_lt (d (4 * i)) (show 0 < 256 by decide)
  have h1 := Nat.mod_lt (d (4 * i + 1)) (show 0 < 256 by decide)
  have h2 := Nat.mod_lt (d (4 * i + 2)) (show 0 < 256 by decide)
  have h3 := Nat.mod_lt (d (4 * i + 3)) (show 0 < 256 by decide)
  omega

theorem get32_put32_same (d : Nat → Nat) (i v : Nat) (hv : v < U32) :
    get32 (put32 d i v) i = v := by
  unfold U32 at hv
  have e1 : 4 * i + 1 ≠ 4 * i := by omega
  have e2 : 4 * i + 2 ≠ 4 * i := by omega
  have e3 : 4 * i + 2 ≠ 4 * i + 1 := by omega
  have e4 : 4 * i + 3 ≠ 4 * i := by omega
  have e5 : 4 * i + 3 ≠ 4 * i + 1 := by omega
  have e6 : 4 * i + 3 ≠ 4 * i + 2 := by omega
  simp only [get32, put32, if_true, if_neg e1, if_neg e2, if_neg e3, if_neg e4, if_neg e5,
    if_neg e6, Nat.mod_mod]
  omega

theorem get32_put32_ne (d : Nat → Nat) {i j : Nat} (v : Nat) (h : j ≠ i) :
    get32 (put32 d i v) j = get32 d j := by
  have e0 : 4 * j ≠ 4 * i := by omega
  have e1 : 4 * j ≠ 4 * i + 1 := by omega
  have e2 : 4 * j ≠ 4 * i + 2 := by omega
  have e3 : 4 * j ≠ 4 * i + 3 := by omega
  have f0 : 4 * j + 1 ≠ 4 * i := by omega
  have f1 : 4 * j + 1 ≠ 4 * i + 1 := by omega
  have f2 : 4 * j + 1 ≠ 4 * i + 2 := by omega
  have f3 : 4 * j + 1 ≠ 4 * i + 3 := by omega
  have g0 : 4 * j + 2 ≠ 4 * i := by omega
  have g1 : 4 * j + 2 ≠ 4 * i + 1 := by omega
  have g2 : 4 * j + 2 ≠ 4 * i + 2 := by omega
  have g3 : 4 * j + 2 ≠ 4 * i + 3 := by omega
  have k0 : 4 * j + 3 ≠ 4 * i := by omega
  have k1 : 4 * j + 3 ≠ 4 * i + 1 := by omega
  have k2 : 4 * j + 3 ≠ 4 * i + 2 := by omega
  have k3 : 4 * j + 3 ≠ 4 * i + 3 := by omega
  simp only [get32, put32, if_neg e0, if_neg e1, if_neg e2, if_neg e3, if_neg f0, if_neg f1,
    if_neg f2, if_neg f3, if_neg g0, if_neg g1, if_neg g2, if_neg g3, if_neg k0, if_neg k1,
    if_neg k2, if_neg k3]

theorem get32_zero {c : Config} {d : Nat → Nat} (hz : ∀ i, i < c.BSIZE → d i = 0) {j : Nat}
    (hj : j < NINDIRECT c) : get32 d j = 0 := by
  unfold NINDIRECT at hj
  have h := Nat.div_mul_le_self c.BSIZE 4
  have hj4 : 4 * j + 3 < c.BSIZE := by omega
  simp only [get32, hz (4 * j) (by omega), hz (4 * j + 1) (by omega),
    hz (4 * j + 2) (by omega), hz (4 * j + 3) hj4]

/-! ## Held buffers are left alone -/

theorem peek_frame {c : Config} {s s1 s2 : State} {dev n b k : Nat}
    (h : TagsOK c s dev (k + 1)) (hr : bread c s dev n = .ok (s1, b))
    (hrel : brelse c s1 b = .ok (s2, ())) :
    ∀ i, (s.bufs i).locked = true → s2.bufs i = s.bufs i := by
  obtain ⟨hbufs, -, -, -, -, -, hb, hl, -, hlk, -, -, -, -⟩ := bread_shape h hr
  obtain ⟨ht1, -, -⟩ := bread_tags h hr
  obtain ⟨s3, h1, h2, -⟩ := brelse_tags ht1 hb hlk
  rw [hrel] at h1
  simp only [Except.ok.injEq, Prod.mk.injEq, and_true] at h1
  subst h1
  intro i hi
  have hib : i ≠ b := fun e => by rw [e, hl] at hi; exact Bool.noConfusion hi
  rw [h2, Function.update_noteq hib, hbufs, Function.update_noteq hib]

theorem poke_frame {c : Config} {s s1 s3 : State} {dev n b k : Nat} (d : Nat → Nat)
    (h : TagsOK c s dev (k + 2)) (hr : bread c s dev n = .ok (s1, b))
    (hrel : brelse c (log_write (s1.setBuf b { s1.bufs b with data := d }) b) b =
      .ok (s3, ())) :
    ∀ i, (s.bufs i).locked = true → s3.bufs i = s.bufs i := by
  obtain ⟨-, -, -, -, -, -, -, hl, -, -, -, -, -, -⟩ := bread_shape h hr
  obtain ⟨s4, h1, h2⟩ := poke_total (k := k) d h hr
  rw [hrel] at h1
  simp only [Except.ok.injEq, Prod.mk.injEq, and_true] at h1
  subst h1
  intro i hi
  exact h2 i (fun e => by rw [e, hl] at hi; exact Bool.noConfusion hi)

/-- A buffer somebody holds is not touched by `balloc`. -/
theorem balloc_loop_frame (c : Config) (dev k : Nat) :
    ∀ (fuel b0 : Nat) (s s' : State) (b : Nat),
    TagsOK c s dev (k + 3) → balloc_loop c dev fuel b0 s = .ok (s', b) →
      ∀ i, (s.bufs i).locked = true → s'.bufs i = s.bufs i
  | 0, b0, s, s', b, _, hr => by simp [balloc_loop] at hr
  | fuel + 1, b0, s, s', b, ht, hr => by
    simp only [balloc_loop] at hr
    split at hr
    · cases hbr : bread c s dev (BBLOCK c b0 s.sb) with
      | error e => simp [hbr] at hr
      | ok r1 =>
        obtain ⟨s1, bp⟩ := r1
        simp only [hbr] at hr
        cases hsc : balloc_scan c s1.sb.size (s1.bufs bp).data b0 (BPB c + 1) 0 with
        | some bi =>
          simp only [hsc] at hr
          cases hrel : brelse c (log_write (s1.setBuf bp { s1.bufs bp with
              data := Function.update (s1.bufs bp).data (bi / 8)
                (((s1.bufs bp).data (bi / 8) ||| 1 <<< (bi % 8)) % 256) }) bp) bp with
          | error e => simp [hrel] at hr
          | ok r2 =>
            obtain ⟨s2, u⟩ := r2
            simp only [hrel] at hr
            obtain ⟨ht2, -⟩ := poke_tags (k := k + 1) _ ht hbr hrel
            have hfr2 := poke_frame (k := k + 1) _ ht hbr hrel
            cases hbz : bzero c s2 dev (b0 + bi) with
            | error e => simp [hbz] at hr
            | ok r3 =>
              obtain ⟨s4, u2⟩ := r3
              simp only [hbz, Except.ok.injEq, Prod.mk.injEq] at hr
              obtain ⟨rfl, rfl⟩ := hr
              unfold bzero at hbz
              cases hbr3 : bread c s2 dev (b0 + bi) with
              | error e => simp [hbr3] at hbz
              | ok r4 =>
                obtain ⟨s3, bz⟩ := r4
                simp only [hbr3] at hbz
                have hfr4 := poke_frame (k := k) _ ht2 hbr3 hbz
                intro i hi
                have e2 := hfr2 i hi
                rw [hfr4 i (by rw [e2]; exact hi), e2]
        | none =>
          simp only [hsc] at hr
          cases hrel : brelse c s1 bp with
          | error e => simp [hrel] at hr
          | ok r2 =>
            obtain ⟨s2, u⟩ := r2
            simp only [hrel] at hr
            obtain ⟨ht2, -⟩ := peek_tags (k := k + 2) ht hbr hrel
            have hfr2 := peek_frame (k := k + 2) ht hbr hrel
            have ih := balloc_loop_frame c dev k fuel (b0 + BPB c) s2 s' b ht2 hr
            intro i hi
            have e2 := hfr2 i hi
            rw [ih i (by rw [e2]; exact hi), e2]
    · simp at hr

/-- Changing the data of a held buffer, logging and releasing it: the cache stays coherent
and its view changes at the block of the buffer only. -/
theorem held_poke {c : Config} {s s3 : State} {dev n b k : Nat} (d : Nat → Nat)
    (h : Coherent c s dev (k + 1)) (hb : b < c.NBUF) (hh : (s.bufs b).holds dev n)
    (hv : (s.bufs b).valid ≠ 0) (hlk : (s.bufs b).locked = true)
    (hrel : brelse c (log_write (s.setBuf b { s.bufs b with data := d }) b) b = .ok (s3, ())) :
    Coherent c s3 dev k ∧ SameEnv s s3 ∧ s3.inodes = s.inodes ∧
      (∀ i, i ≠ b → s3.bufs i = s.bufs i) ∧
      (s3.bufs b).locked = false ∧
      ∀ m, blockView c s3 dev m = if m = n then d else blockView c s dev m := by
  obtain ⟨hc2, hview2⟩ := setData_view h hb hh hv hlk d
  obtain ⟨hc3, hview3⟩ := log_write_view (k := k) hc2 hb
  obtain ⟨hlw, -, henv3, hino3⟩ := log_write_tags (k := k) hc2.1 hb
  have hlk3 : ((log_write (s.setBuf b { s.bufs b with data := d }) b).bufs b).locked = true := by
    rw [hlw, Function.update_same]; simpa using hlk
  have hcl : ((log_write (s.setBuf b { s.bufs b with data := d }) b).bufs b).dev = dev →
      ((log_write (s.setBuf b { s.bufs b with data := d }) b).bufs b).valid ≠ 0 →
      ((log_write (s.setBuf b { s.bufs b with data := d }) b).bufs b).refcnt = 1 →
      ((log_write (s.setBuf b { s.bufs b with data := d }) b).bufs b).data =
        (log_write (s.setBuf b { s.bufs b with data := d }) b).disk
          ((log_write (s.setBuf b { s.bufs b with data := d }) b).bufs b).blockno := by
    intro _ _ h1
    rw [hlw, Function.update_same] at h1
    have h2 : (s.bufs b).refcnt + 1 = 1 := by simpa [State.setBuf] using h1
    have h3 := h.1.2.2.1 b hb hlk
    omega
  obtain ⟨hc4, hview4⟩ := brelse_view hc3 hb hlk3 hcl hrel
  obtain ⟨s4, e1, e2, -, henv4, hino4, -, -⟩ := brelse_tags hc3.1 hb hlk3
  rw [hrel] at e1
  simp only [Except.ok.injEq, Prod.mk.injEq, and_true] at e1
  subst e1
  refine ⟨hc4, (SameEnv.trans_env (by exact ⟨rfl, rfl, rfl, rfl⟩) henv3).trans_env henv4,
    (hino4.trans hino3).trans (by simp [State.setBuf]), fun i hib => ?_, ?_, fun m => ?_⟩
  · rw [e2, Function.update_noteq hib, hlw, Function.update_noteq hib]
    simp only [State.setBuf, Function.update_noteq hib]
  · rw [e2, Function.update_same]
  · rw [hview4 m, hview3 m, hview2 m]

/-! ## The blocks of a file -/

theorem geometry_env {c : Config} {s s' : State} (h : Geometry c s) (henv : SameEnv s s') :
    Geometry c s' := by
  unfold Geometry; rw [henv.2.1]; exact h

theorem noFault_env {s s' : State} (h : NoFault s) (henv : SameEnv s s') : NoFault s' :=
  fun n hn => by rw [henv.forced_eq]; exact h n (by rw [← henv.2.1]; exact hn)

theorem Meta.congr {c : Config} {s s' : State} {ip : Nat} (hsb : s'.sb = s.sb)
    (hinum : (s'.inodes ip).inum = (s.inodes ip).inum) (x : Nat) :
    Meta c s' ip x ↔ Meta c s ip x := by
  unfold Meta; rw [hsb, hinum]

/-- A file stays well formed when the bits that are set stay set and the inode has the same
blocks. -/
theorem FileOK.keep {c : Config} {s s' : State} {ip : Nat} (h : FileOK c s ip)
    (hsb : s'.sb = s.sb) (hinum : (s'.inodes ip).inum = (s.inodes ip).inum)
    (hdev : (s'.inodes ip).dev = (s.inodes ip).dev)
    (hind : (s'.inodes ip).d.addrs c.NDIRECT = (s.inodes ip).d.addrs c.NDIRECT)
    (hbit : ∀ x, x < s.sb.size → bmBit c s (s.inodes ip).dev x = true →
      bmBit c s' (s.inodes ip).dev x = true)
    (hfb : ∀ bn, bn < MAXFILE c → fileBlock c s' ip bn = fileBlock c s ip bn) :
    FileOK c s' ip := by
  have hown : ∀ x, Owned c s' ip x → Owned c s ip x := by
    rintro x ⟨h0, h1 | ⟨bn, hbn, h1⟩⟩
    · exact ⟨h0, Or.inl (h1.trans hind)⟩
    · exact ⟨h0, Or.inr ⟨bn, hbn, h1.trans (hfb bn hbn)⟩⟩
  refine ⟨fun x hx => ?_, fun x hx => ?_, fun bn hbn h0 => ?_, fun bn bn2 hbn hbn2 h0 he => ?_⟩
  · obtain ⟨h1, h2⟩ := h.1 x ((Meta.congr hsb hinum x).1 hx)
    rw [hsb, hdev]
    exact ⟨h1, hbit x h1 h2⟩
  · obtain ⟨h1, h2, h3⟩ := h.2.1 x (hown x hx)
    rw [hsb, hdev]
    exact ⟨h1, hbit x h1 h2, fun hm => h3 ((Meta.congr hsb hinum x).1 hm)⟩
  · rw [hfb bn hbn, hind]
    rw [hfb bn hbn] at h0
    exact h.2.2.1 bn hbn h0
  · rw [hfb bn hbn] at h0 he
    rw [hfb bn2 hbn2] at he
    exact h.2.2.2 bn bn2 hbn hbn2 h0 he

/-- A fresh block becomes data block `bn0` of the file. -/
theorem FileOK.adopt_data {c : Config} {s s' : State} {ip b bn0 : Nat} (h : FileOK c s ip)
    (hfr : Fresh c s ip b) (hb0 : b ≠ 0)
    (hsb : s'.sb = s.sb) (hinum : (s'.inodes ip).inum = (s.inodes ip).inum)
    (hdev : (s'.inodes ip).dev = (s.inodes ip).dev)
    (hind : (s'.inodes ip).d.addrs c.NDIRECT = (s.inodes ip).d.addrs c.NDIRECT)
    (hbit : ∀ x, x < s.sb.size → bmBit c s (s.inodes ip).dev x = true →
      bmBit c s' (s.inodes ip).dev x = true)
    (hfb : ∀ bn, bn < MAXFILE c →
      fileBlock c s' ip bn = if bn = bn0 then b else fileBlock c s ip bn) :
    FileOK c s' ip := by
  obtain ⟨f1, f2, f3, f4⟩ := hfr
  have hown : ∀ x, Owned c s' ip x → Owned c s ip x ∨ x = b := by
    rintro x ⟨h0, h1 | ⟨bn, hbn, h1⟩⟩
    · exact Or.inl ⟨h0, Or.inl (h1.trans hind)⟩
    · rw [hfb bn hbn] at h1
      by_cases hq : bn = bn0
      · rw [if_pos hq] at h1; exact Or.inr h1
      · rw [if_neg hq] at h1; exact Or.inl ⟨h0, Or.inr ⟨bn, hbn, h1⟩⟩
  have hne : ∀ bn, bn < MAXFILE c → fileBlock c s ip bn ≠ 0 → fileBlock c s ip bn ≠ b := by
    intro bn hbn h0 he
    exact f4 ⟨hb0, Or.inr ⟨bn, hbn, he.symm⟩⟩
  refine ⟨fun x hx => ?_, fun x hx => ?_, fun bn hbn h0 => ?_, fun bn bn2 hbn hbn2 h0 he => ?_⟩
  · obtain ⟨h1, h2⟩ := h.1 x ((Meta.congr hsb hinum x).1 hx)
    rw [hsb, hdev]
    exact ⟨h1, hbit x h1 h2⟩
  · rw [hsb, hdev]
    rcases hown x hx with ho | rfl
    · obtain ⟨h1, h2, h3⟩ := h.2.1 x ho
      exact ⟨h1, hbit x h1 h2, fun hm => h3 ((Meta.congr hsb hinum x).1 hm)⟩
    · exact ⟨f1, hbit x f1 f2, fun hm => f3 ((Meta.congr hsb hinum x).1 hm)⟩
  · rw [hind]
    rw [hfb bn hbn] at h0 ⊢
    by_cases hq : bn = bn0
    · rw [if_pos hq]
      intro he
      exact f4 ⟨hb0, Or.inl he⟩
    · rw [if_neg hq] at h0 ⊢
      exact h.2.2.1 bn hbn h0
  · rw [hfb bn hbn] at h0 he
    rw [hfb bn2 hbn2] at he
    by_cases hq : bn = bn0
    · by_cases hq2 : bn2 = bn0
      · rw [hq, hq2]
      · rw [if_pos hq, if_neg hq2] at he
        have h02 : fileBlock c s ip bn2 ≠ 0 := by rw [← he]; exact hb0
        exact absurd he.symm (hne bn2 hbn2 h02)
    · rw [if_neg hq] at h0 he
      by_cases hq2 : bn2 = bn0
      · rw [if_pos hq2] at he
        exact absurd he (hne bn hbn h0)
      · rw [if_neg hq2] at he
        exact h.2.2.2 bn bn2 hbn hbn2 h0 he

/-- A fresh block becomes the indirect block of the file. -/
theorem FileOK.adopt_ind {c : Config} {s s' : State} {ip b : Nat} (h : FileOK c s ip)
    (hfr : Fresh c s ip b) (hb0 : b ≠ 0)
    (hsb : s'.sb = s.sb) (hinum : (s'.inodes ip).inum = (s.inodes ip).inum)
    (hdev : (s'.inodes ip).dev = (s.inodes ip).dev)
    (hind : (s'.inodes ip).d.addrs c.NDIRECT = b)
    (hbit : ∀ x, x < s.sb.size → bmBit c s (s.inodes ip).dev x = true →
      bmBit c s' (s.inodes ip).dev x = true)
    (hfb : ∀ bn, bn < MAXFILE c → fileBlock c s' ip bn = fileBlock c s ip bn) :
    FileOK c s' ip := by
  obtain ⟨f1, f2, f3, f4⟩ := hfr
  have hown : ∀ x, Owned c s' ip x → Owned c s ip x ∨ x = b := by
    rintro x ⟨h0, h1 | ⟨bn, hbn, h1⟩⟩
    · exact Or.inr (h1.trans hind)
    · exact Or.inl ⟨h0, Or.inr ⟨bn, hbn, h1.trans (hfb bn hbn)⟩⟩
  refine ⟨fun x hx => ?_, fun x hx => ?_, fun bn hbn h0 => ?_, fun bn bn2 hbn hbn2 h0 he => ?_⟩
  · obtain ⟨h1, h2⟩ := h.1 x ((Meta.congr hsb hinum x).1 hx)
    rw [hsb, hdev]
    exact ⟨h1, hbit x h1 h2⟩
  · rw [hsb, hdev]
    rcases hown x hx with ho | rfl
    · obtain ⟨h1, h2, h3⟩ := h.2.1 x ho
      exact ⟨h1, hbit x h1 h2, fun hm => h3 ((Meta.congr hsb hinum x).1 hm)⟩
    · exact ⟨f1, hbit x f1 f2, fun hm => f3 ((Meta.congr hsb hinum x).1 hm)⟩
  · rw [hind, hfb bn hbn]
    rw [hfb bn hbn] at h0
    intro he
    exact f4 ⟨hb0, Or.inr ⟨bn, hbn, he.symm⟩⟩
  · rw [hfb bn hbn] at h0 he
    rw [hfb bn2 hbn2] at he
    exact h.2.2.2 bn bn2 hbn hbn2 h0 he

/-- What `balloc` does to a well-formed file, without an injected fault: the file stays well
formed and keeps its blocks and their content, and the block returned is fresh and reads as
zero. -/
theorem balloc_file {c : Config} {s s' : State} {ip b k : Nat}
    (hc : Coherent c s (s.inodes ip).dev (k + 3)) (hg : Geometry c s) (hnf : NoFault s)
    (hf : FileOK c s ip) (hr : balloc c s (s.inodes ip).dev = .ok (s', b)) :
    Coherent c s' (s.inodes ip).dev (k + 1) ∧ SameEnv s s' ∧ s'.inodes = s.inodes ∧
      (∀ i, (s'.bufs i).locked = (s.bufs i).locked) ∧
      (∀ i, (s.bufs i).locked = true → s'.bufs i = s.bufs i) ∧
      FileOK c s' ip ∧ Fresh c s' ip b ∧
      (∀ bn, fileBlock c s' ip bn = fileBlock c s ip bn) ∧
      (∀ x, Owned c s ip x →
        blockView c s' (s.inodes ip).dev x = blockView c s (s.inodes ip).dev x) ∧
      (∀ i, i < c.BSIZE → blockView c s' (s.inodes ip).dev b i = 0) := by
  obtain ⟨h1, h2, -, hc', henv, hino, hlk, -, hview⟩ :=
    (balloc_loop_view c (s.inodes ip).dev k (s.sb.size + 1) 0 s hc hg hnf (Nat.dvd_zero _)
      (fun x hx _ => absurd hx (Nat.not_lt_zero x))).1 s' b hr
  have hfr := balloc_loop_frame c (s.inodes ip).dev k (s.sb.size + 1) 0 s s' b hc.1 hr
  have hmap : MapInUse c s (s.inodes ip).dev := fun x hx =>
    (hf.1 _ (Or.inl ⟨x, hx, rfl⟩)).2
  obtain ⟨hb1, hb2⟩ := balloc_bits hg hmap h1 h2 henv.2.1 hview
  have hnm : ¬ Meta c s ip b := fun hm => by
    have := (hf.1 b hm).2
    rw [h2] at this
    exact Bool.noConfusion this
  have hno : ¬ Owned c s ip b := fun ho => by
    have := (hf.2.1 b ho).2.1
    rw [h2] at this
    exact Bool.noConfusion this
  have hbb : b ≠ BBLOCK c b s.sb := fun e => hnm (Or.inl ⟨b, h1, e⟩)
  have hvo : ∀ x, Owned c s ip x →
      blockView c s' (s.inodes ip).dev x = blockView c s (s.inodes ip).dev x := by
    intro x hx
    have hxb : x ≠ b := fun e => hno (e ▸ hx)
    have hxm : x ≠ BBLOCK c b s.sb := fun e => (hf.2.1 x hx).2.2 (Or.inl ⟨b, h1, e⟩)
    rw [hview, if_neg hxb, if_neg hxm]
  have hfb : ∀ bn, fileBlock c s' ip bn = fileBlock c s ip bn := by
    intro bn
    unfold fileBlock
    rw [hino]
    by_cases hd : bn < c.NDIRECT
    · rw [if_pos hd, if_pos hd]
    · rw [if_neg hd, if_neg hd]
      by_cases h0 : (s.inodes ip).d.addrs c.NDIRECT = 0
      · rw [if_pos h0, if_pos h0]
      · rw [if_neg h0, if_neg h0, hvo _ ⟨h0, Or.inl rfl⟩]
  have hbit : ∀ x, x < s.sb.size → bmBit c s (s.inodes ip).dev x = true →
      bmBit c s' (s.inodes ip).dev x = true := by
    intro x hx hxs
    have hxb : x ≠ b := fun e => by
      rw [e, h2] at hxs; exact Bool.noConfusion hxs
    rw [hb2 x hx hxb]; exact hxs
  have hino1 : s'.inodes ip = s.inodes ip := by rw [hino]
  have hf' : FileOK c s' ip :=
    hf.keep henv.2.1 (by rw [hino1]) (by rw [hino1]) (by rw [hino1]) hbit (fun bn _ => hfb bn)
  refine ⟨hc', henv, hino, hlk, hfr, hf', ⟨?_, ?_, ?_, ?_⟩, hfb, hvo, fun i hi => ?_⟩
  · rw [henv.2.1]; exact h1
  · rw [hino1]; exact hb1
  · exact fun hm => hnm ((Meta.congr henv.2.1 (by rw [hino1]) b).1 hm)
  · rintro ⟨h0, hq | ⟨bn, hbn, hq⟩⟩
    · exact hno ⟨h0, Or.inl (by rw [hq, hino1])⟩
    · exact hno ⟨h0, Or.inr ⟨bn, hbn, by rw [hq, hfb]⟩⟩
  · rw [hview, if_pos rfl]
    simp only [zeroed, if_pos hi]

theorem Grows.rfl_file (c : Config) (s : State) (ip : Nat) : Grows c s s ip :=
  ⟨SameEnv.rfl_env s, rfl, rfl, rfl, fun _ => rfl, fun _ _ _ => ⟨rfl, rfl⟩⟩

theorem Grows.trans_file {c : Config} {s s2 s3 : State} {ip : Nat} (h1 : Grows c s s2 ip)
    (h2 : Grows c s2 s3 ip) : Grows c s s3 ip := by
  obtain ⟨a1, a2, a3, a4, a5, a6⟩ := h1
  obtain ⟨b1, b2, b3, b4, b5, b6⟩ := h2
  refine ⟨a1.trans_env b1, b2.trans a2, b3.trans a3, b4.trans a4,
    fun i => (b5 i).trans (a5 i), fun bn hbn h0 => ?_⟩
  obtain ⟨e1, e2⟩ := a6 bn hbn h0
  obtain ⟨e3, e4⟩ := b6 bn hbn (by rw [e1]; exact h0)
  rw [e1, a2] at e4
  exact ⟨e3.trans e1, e4.trans e2⟩

theorem blockView_setInode (c : Config) (s : State) (ip : Nat) (x : Inode) (dev m : Nat) :
    blockView c (s.setInode ip x) dev m = blockView c s dev m := rfl

theorem bmBit_setInode (c : Config) (s : State) (ip : Nat) (x : Inode) (dev m : Nat) :
    bmBit c (s.setInode ip x) dev m = bmBit c s dev m := rfl

theorem setInode_same (s : State) (ip : Nat) (x : Inode) : (s.setInode ip x).inodes ip = x := by
  simp [State.setInode]

/-- The indirect block `bmap` finds or allocates. -/
theorem bmap_indirect_view {c : Config} {s s1 : State} {ip addr k : Nat}
    (hc : Coherent c s (s.inodes ip).dev (k + 3)) (hg : Geometry c s) (hnf : NoFault s)
    (hf : FileOK c s ip) (hr : bmap_indirect c s ip = .ok (s1, addr)) :
    Coherent c s1 (s.inodes ip).dev (k + 1) ∧ Grows c s s1 ip ∧ FileOK c s1 ip ∧ addr ≠ 0 ∧
      (s1.inodes ip).d.addrs c.NDIRECT = addr ∧
      (∀ bn, bn < MAXFILE c → fileBlock c s1 ip bn = fileBlock c s ip bn) := by
  unfold bmap_indirect at hr
  by_cases h0 : (s.inodes ip).d.addrs c.NDIRECT = 0
  · rw [if_pos h0] at hr
    cases hb : balloc c s (s.inodes ip).dev with
    | error e => simp [hb] at hr
    | ok r =>
      obtain ⟨s2, b⟩ := r
      simp only [hb] at hr
      by_cases hb0 : b = 0
      · simp [hb0] at hr
      · rw [if_neg hb0] at hr
        simp only [Except.ok.injEq, Prod.mk.injEq] at hr
        obtain ⟨hs1, rfl⟩ := hr
        obtain ⟨hc2, henv, hino, hlk, -, hf2, hfr, hfb, hvo, hz⟩ := balloc_file hc hg hnf hf hb
        have hino1 : s2.inodes ip = s.inodes ip := by rw [hino]
        have hi1 : s1.inodes ip = { s2.inodes ip with d := { (s2.inodes ip).d with
            addrs := Function.update (s2.inodes ip).d.addrs c.NDIRECT b } } := by
          rw [← hs1]; exact setInode_same _ _ _
        have hv1 : ∀ dev m, blockView c s1 dev m = blockView c s2 dev m := fun dev m => by
          rw [← hs1]; rfl
        have hind1 : (s1.inodes ip).d.addrs c.NDIRECT = b := by
          rw [hi1]; exact Function.update_same _ _ _
        have hfb1 : ∀ bn, bn < MAXFILE c → fileBlock c s1 ip bn = fileBlock c s2 ip bn := by
          intro bn hbn
          unfold fileBlock
          by_cases hd : bn < c.NDIRECT
          · rw [if_pos hd, if_pos hd, hi1]
            exact Function.update_noteq (by omega) _ _
          · rw [if_neg hd, if_neg hd, hind1, if_neg hb0, hino1, if_pos h0]
            have hdev1 : (s1.inodes ip).dev = (s.inodes ip).dev := by rw [hi1, hino1]
            rw [hdev1, hv1]
            exact get32_zero hz (by unfold MAXFILE at hbn; omega)
        have hsb1 : s1.sb = s2.sb := by rw [← hs1]; rfl
        have hf1 : FileOK c s1 ip :=
          hf2.adopt_ind hfr hb0 hsb1 (by rw [hi1]) (by rw [hi1]) hind1
            (fun x _ hx => by rw [← hs1]; exact hx) hfb1
        refine ⟨?_, ⟨?_, ?_, ?_, ?_, ?_, ?_⟩, hf1, hb0, hind1,
          fun bn hbn => (hfb1 bn hbn).trans (hfb bn)⟩
        · rw [← hs1]; exact coherent_setInode hc2 _ _
        · rw [← hs1]; exact henv
        · rw [hi1, hino1]
        · rw [hi1, hino1]
        · rw [hi1, hino1]
        · intro i; rw [← hs1]; exact hlk i
        · intro bn hbn hn0
          refine ⟨(hfb1 bn hbn).trans (hfb bn), ?_⟩
          rw [hv1]
          exact hvo _ ⟨hn0, Or.inr ⟨bn, hbn, rfl⟩⟩
  · rw [if_neg h0] at hr
    simp only [Except.ok.injEq, Prod.mk.injEq] at hr
    obtain ⟨rfl, rfl⟩ := hr
    exact ⟨⟨hc.1.mono (by omega), hc.2⟩, Grows.rfl_file c s ip, hf, h0, rfl, fun _ _ => rfl⟩

theorem fileBlock_indirect {c : Config} {s : State} {ip j : Nat}
    (h0 : (s.inodes ip).d.addrs c.NDIRECT ≠ 0) :
    fileBlock c s ip (c.NDIRECT + j) =
      get32 (blockView c s (s.inodes ip).dev ((s.inodes ip).d.addrs c.NDIRECT)) j := by
  unfold fileBlock
  rw [if_neg (by omega), if_neg h0, Nat.add_sub_cancel_left]

/-- A file stays well formed, with the same blocks, when the view of the cache stays as it
is. -/
theorem FileOK.same_view {c : Config} {s s' : State} {ip : Nat} (h : FileOK c s ip)
    (hsb : s'.sb = s.sb) (hino : s'.inodes = s.inodes)
    (hview : ∀ m, blockView c s' (s.inodes ip).dev m = blockView c s (s.inodes ip).dev m) :
    FileOK c s' ip ∧ ∀ bn, fileBlock c s' ip bn = fileBlock c s ip bn := by
  have hfb : ∀ bn, fileBlock c s' ip bn = fileBlock c s ip bn := fun bn => by
    unfold fileBlock; rw [hino, hview]
  refine ⟨h.keep hsb (by rw [hino]) (by rw [hino]) (by rw [hino]) (fun x _ hx => ?_)
    (fun bn _ => hfb bn), hfb⟩
  unfold bmBit at hx ⊢
  rw [hsb, hview]; exact hx

/-- The entry of the indirect block `bmap` finds or fills. -/
theorem bmap_target_view {c : Config} {s s' : State} {ip j a k : Nat}
    (hc : Coherent c s (s.inodes ip).dev (k + 4)) (hg : Geometry c s) (hnf : NoFault s)
    (hsz : s.sb.size ≤ U32) (hf : FileOK c s ip)
    (h0 : (s.inodes ip).d.addrs c.NDIRECT ≠ 0) (hj : c.NDIRECT + j < MAXFILE c)
    (hr : bmap_target c s ip j ((s.inodes ip).d.addrs c.NDIRECT) = .ok (s', a)) :
    Coherent c s' (s.inodes ip).dev k ∧ Grows c s s' ip ∧ FileOK c s' ip ∧ a ≠ 0 ∧
      fileBlock c s' ip (c.NDIRECT + j) = a := by
  have hown : Owned c s ip ((s.inodes ip).d.addrs c.NDIRECT) := ⟨h0, Or.inl rfl⟩
  obtain ⟨hlt, -, hnm⟩ := hf.2.1 _ hown
  have hf0 : forced s ((s.inodes ip).d.addrs c.NDIRECT) = false := hnf _ hlt
  unfold bmap_target at hr
  cases hbr : bread c s (s.inodes ip).dev ((s.inodes ip).d.addrs c.NDIRECT) with
  | error e => simp [hbr] at hr
  | ok r =>
    obtain ⟨s1, bp⟩ := r
    simp only [hbr] at hr
    obtain ⟨-, -, -, henv1, hino1, -, hbp, hl0, hh, hlk, hv, -, -, -⟩ := bread_shape hc.1 hbr
    obtain ⟨hc1, hdata, hview1⟩ := bread_view (k := k + 3) hc hf0 hbr
    have htarget : get32 (s1.bufs bp).data j = fileBlock c s ip (c.NDIRECT + j) := by
      rw [fileBlock_indirect h0, hdata]
    rw [hino1] at hr
    by_cases ht : get32 (s1.bufs bp).data j = 0
    · rw [if_pos ht] at hr
      have hino1p : (s1.inodes ip).dev = (s.inodes ip).dev := by rw [hino1]
      obtain ⟨hf1, hfb1⟩ := hf.same_view henv1.2.1 hino1 hview1
      cases hb : balloc c s1 (s.inodes ip).dev with
      | error e => simp [hb] at hr
      | ok r2 =>
        obtain ⟨s2, b⟩ := r2
        simp only [hb] at hr
        by_cases hb0 : b = 0
        · simp [hb0] at hr
        · rw [if_neg hb0] at hr
          rw [← hino1p] at hb hc1
          obtain ⟨hc2, henv2, hino2, hlk2, hfr2, hf2, hfresh, hfb2, hvo2, -⟩ :=
            balloc_file (k := k) hc1 (geometry_env hg henv1) (noFault_env hnf henv1) hf1 hb
          rw [hino1p] at hc2 hvo2
          have hbp2 : s2.bufs bp = s1.bufs bp := hfr2 bp hlk
          cases hrel : brelse c (log_write (s2.setBuf bp { s2.bufs bp with
              data := put32 (s2.bufs bp).data j b }) bp) bp with
          | error e => simp [hrel] at hr
          | ok r3 =>
            obtain ⟨s3, u⟩ := r3
            simp only [hrel, Except.ok.injEq, Prod.mk.injEq] at hr
            obtain ⟨rfl, rfl⟩ := hr
            obtain ⟨hc3, henv3, hino3, hoth3, hl3, hview3⟩ :=
              held_poke (k := k) _ hc2 hbp (by rw [hbp2]; exact hh) (by rw [hbp2]; exact hv)
                (by rw [hbp2]; exact hlk) hrel
            have hinoA : s1.inodes ip = s.inodes ip := by rw [hino1]
            have hino31 : s3.inodes ip = s.inodes ip := by rw [hino3, hino2, hino1]
            have hown1 : Owned c s1 ip ((s.inodes ip).d.addrs c.NDIRECT) :=
              ⟨h0, Or.inl (by rw [hinoA])⟩
            have hd2 : (s2.bufs bp).data =
                blockView c s2 (s.inodes ip).dev ((s.inodes ip).d.addrs c.NDIRECT) := by
              rw [hbp2, hdata, hvo2 _ hown1, hview1]
            have hfb3 : ∀ bn, bn < MAXFILE c → fileBlock c s3 ip bn =
                if bn = c.NDIRECT + j then b else fileBlock c s2 ip bn := by
              intro bn _
              have hb32 : b < U32 := by
                have := hfresh.1
                rw [henv2.2.1, henv1.2.1] at this
                omega
              unfold fileBlock
              rw [hino31, hino2, hinoA]
              by_cases hd : bn < c.NDIRECT
              · rw [if_pos hd, if_pos hd, if_neg (by omega)]
              · rw [if_neg hd, if_neg hd, if_neg h0, if_neg h0, hview3, if_pos rfl, hd2]
                by_cases hq : bn = c.NDIRECT + j
                · rw [if_pos hq, hq, Nat.add_sub_cancel_left]
                  exact get32_put32_same _ _ _ hb32
                · rw [if_neg hq]
                  exact get32_put32_ne _ _ (by omega)
            have hnm2 : ¬ Meta c s2 ip ((s.inodes ip).d.addrs c.NDIRECT) := fun hm =>
              hnm ((Meta.congr (henv2.2.1.trans henv1.2.1) (by rw [hino2, hino1]) _).1 hm)
            have hdev2 : (s2.inodes ip).dev = (s.inodes ip).dev := by rw [hino2, hino1]
            have hbit3 : ∀ x, x < s2.sb.size → bmBit c s2 (s2.inodes ip).dev x = true →
                bmBit c s3 (s2.inodes ip).dev x = true := by
              intro x hx hxs
              unfold bmBit at hxs ⊢
              rw [hdev2] at hxs ⊢
              rw [henv3.2.1, hview3, if_neg]
              · exact hxs
              · intro e
                exact hnm2 (Or.inl ⟨x, hx, e.symm⟩)
            have hf3 : FileOK c s3 ip :=
              hf2.adopt_data hfresh hb0 henv3.2.1 (by rw [hino3]) (by rw [hino3])
                (by rw [hino3]) hbit3 hfb3
            refine ⟨hc3, ⟨(henv1.trans_env henv2).trans_env henv3, by rw [hino31],
              by rw [hino31], by rw [hino31], fun i => ?_, fun bn hbn hn0 => ?_⟩, hf3, hb0,
              by rw [hfb3 _ hj, if_pos rfl]⟩
            · by_cases hib : i = bp
              · rw [hib, hl3, hl0]
              · rw [hoth3 i hib, hlk2]
                obtain ⟨hb1, -⟩ := bread_shape hc.1 hbr
                rw [hb1, Function.update_noteq hib]
            · have hne : bn ≠ c.NDIRECT + j := fun e => by
                rw [e, ← htarget] at hn0; exact hn0 ht
              have hown2 : Owned c s ip (fileBlock c s ip bn) := ⟨hn0, Or.inr ⟨bn, hbn, rfl⟩⟩
              have hown3 : Owned c s1 ip (fileBlock c s ip bn) :=
                ⟨hn0, Or.inr ⟨bn, hbn, (hfb1 bn).symm⟩⟩
              refine ⟨by rw [hfb3 bn hbn, if_neg hne, hfb2, hfb1], ?_⟩
              rw [hview3, if_neg (hf.2.2.1 bn hbn hn0), hvo2 _ hown3, hview1]
    · rw [if_neg ht] at hr
      cases hrel : brelse c s1 bp with
      | error e => simp [hrel] at hr
      | ok r3 =>
        obtain ⟨s3, u⟩ := r3
        simp only [hrel, Except.ok.injEq, Prod.mk.injEq] at hr
        obtain ⟨rfl, rfl⟩ := hr
        obtain ⟨hc3, -, hview3⟩ := peek_view (k := k + 3) hc hf0 hbr hrel
        obtain ⟨-, henv3, hino3, -, hall3, -⟩ := peek_tags (k := k + 3) hc.1 hbr hrel
        obtain ⟨hf3, hfb3⟩ := hf.same_view henv3.2.1 hino3 hview3
        refine ⟨⟨hc3.1.mono (by omega), hc3.2⟩, ⟨henv3, by rw [hino3], by rw [hino3],
          by rw [hino3], fun i => (hall3 i).2, fun bn _ _ => ⟨hfb3 bn, hview3 _⟩⟩, hf3, ht,
          by rw [hfb3, htarget]⟩

/-- What `bmap` does for a well-formed file without an injected fault: it returns the block
the inode then has for `bn`, the file stays well formed, and the blocks it had before keep
their content. -/
theorem bmap_view {c : Config} {s s' : State} {ip bn a k : Nat}
    (hc : Coherent c s (s.inodes ip).dev (k + 6)) (hg : Geometry c s) (hnf : NoFault s)
    (hsz : s.sb.size ≤ U32) (hf : FileOK c s ip) (hbn : bn < MAXFILE c)
    (hr : bmap c s ip bn = .ok (s', a)) :
    Coherent c s' (s.inodes ip).dev k ∧ Grows c s s' ip ∧ FileOK c s' ip ∧ a ≠ 0 ∧
      fileBlock c s' ip bn = a := by
  unfold bmap at hr
  by_cases hd : bn < c.NDIRECT
  · rw [if_pos hd] at hr
    by_cases h0 : (s.inodes ip).d.addrs bn = 0
    · rw [if_pos h0] at hr
      cases hb : balloc c s (s.inodes ip).dev with
      | error e => simp [hb] at hr
      | ok r =>
        obtain ⟨s2, b⟩ := r
        simp only [hb] at hr
        by_cases hb0 : b = 0
        · simp [hb0] at hr
        · rw [if_neg hb0] at hr
          simp only [Except.ok.injEq, Prod.mk.injEq] at hr
          obtain ⟨hs1, rfl⟩ := hr
          obtain ⟨hc2, henv, hino, hlk, -, hf2, hfr, hfb, hvo, -⟩ :=
            balloc_file (k := k + 3) hc hg hnf hf hb
          have hino1 : s2.inodes ip = s.inodes ip := by rw [hino]
          have hi1 : s'.inodes ip = { s2.inodes ip with d := { (s2.inodes ip).d with
              addrs := Function.update (s2.inodes ip).d.addrs bn b } } := by
            rw [← hs1]; exact setInode_same _ _ _
          have hv1 : ∀ dev m, blockView c s' dev m = blockView c s2 dev m := fun dev m => by
            rw [← hs1]; rfl
          have hind1 : (s'.inodes ip).d.addrs c.NDIRECT = (s2.inodes ip).d.addrs c.NDIRECT := by
            rw [hi1]; exact Function.update_noteq (by omega) _ _
          have hdev1 : (s'.inodes ip).dev = (s2.inodes ip).dev := by rw [hi1]
          have hfb1 : ∀ bn2, bn2 < MAXFILE c →
              fileBlock c s' ip bn2 = if bn2 = bn then b else fileBlock c s2 ip bn2 := by
            intro bn2 _
            unfold fileBlock
            by_cases hd2 : bn2 < c.NDIRECT
            · rw [if_pos hd2, if_pos hd2, hi1]
              by_cases hq : bn2 = bn
              · rw [if_pos hq, hq]; exact Function.update_same _ _ _
              · rw [if_neg hq]; exact Function.update_noteq hq _ _
            · rw [if_neg (show ¬ bn2 = bn by omega), if_neg hd2, if_neg hd2, hind1, hdev1, hv1]
          have hsb1 : s'.sb = s2.sb := by rw [← hs1]; rfl
          have hf1 : FileOK c s' ip :=
            hf2.adopt_data hfr hb0 hsb1 (by rw [hi1]) hdev1 hind1
              (fun x _ hx => by rw [← hs1]; exact hx) hfb1
          refine ⟨?_, ⟨?_, ?_, ?_, ?_, ?_, ?_⟩, hf1, hb0, by rw [hfb1 bn hbn, if_pos rfl]⟩
          · rw [← hs1]; exact coherent_setInode ⟨hc2.1.mono (by omega), hc2.2⟩ _ _
          · rw [← hs1]; exact henv
          · rw [hi1, hino1]
          · rw [hi1, hino1]
          · rw [hi1, hino1]
          · intro i; rw [← hs1]; exact hlk i
          · intro bn2 hbn2 hn0
            have hne : bn2 ≠ bn := fun e => by
              rw [e] at hn0
              apply hn0
              unfold fileBlock
              rw [if_pos hd, h0]
            refine ⟨by rw [hfb1 bn2 hbn2, if_neg hne, hfb], ?_⟩
            rw [hv1]
            exact hvo _ ⟨hn0, Or.inr ⟨bn2, hbn2, rfl⟩⟩
    · rw [if_neg h0] at hr
      simp only [Except.ok.injEq, Prod.mk.injEq] at hr
      obtain ⟨rfl, rfl⟩ := hr
      refine ⟨⟨hc.1.mono (by omega), hc.2⟩, Grows.rfl_file c s ip, hf, h0, ?_⟩
      unfold fileBlock
      rw [if_pos hd]
  · rw [if_neg hd] at hr
    have hj : bn - c.NDIRECT < NINDIRECT c := by unfold MAXFILE at hbn; omega
    simp only [hj, if_true] at hr
    cases hi : bmap_indirect c s ip with
    | error e => simp [hi] at hr
    | ok r =>
      obtain ⟨s1, addr⟩ := r
      simp only [hi] at hr
      obtain ⟨hc1, hg1, hf1, ha0, hind, hfb1⟩ := bmap_indirect_view (k := k + 3) hc hg hnf hf hi
      have hdev1 : (s1.inodes ip).dev = (s.inodes ip).dev := hg1.2.1
      rw [← hind] at hr ha0
      rw [← hdev1] at hc1
      have hjj : c.NDIRECT + (bn - c.NDIRECT) = bn := by omega
      obtain ⟨hc2, hg2, hf2, ha, hfb2⟩ :=
        bmap_target_view (k := k) hc1 (geometry_env hg hg1.1) (noFault_env hnf hg1.1)
          (by rw [hg1.1.2.1]; exact hsz) hf1 ha0 (by rw [hjj]; exact hbn) hr
      rw [hdev1] at hc2
      rw [hjj] at hfb2
      exact ⟨hc2, hg1.trans_file hg2, hf2, ha, hfb2⟩

/-! ## writei -/

theorem chunk_arith {B off m a : Nat} (hB : 0 < B) (hm : m ≤ B - off % B) (h1 : off ≤ a)
    (h2 : a < off + m) : a / B = off / B ∧ a % B = off % B + (a - off) := by
  have hlt : off % B < B := Nat.mod_lt _ hB
  have e : a = B * (off / B) + (off % B + (a - off)) := by
    have := Nat.div_add_mod off B
    omega
  have hr : off % B + (a - off) < B := by omega
  constructor
  · have h3 : a / B = (B * (off / B) + (off % B + (a - off))) / B := congrArg (fun x => x / B) e
    rw [h3, Nat.mul_add_div hB, Nat.div_eq_of_lt hr, Nat.add_zero]
  · have h3 : a % B = (B * (off / B) + (off % B + (a - off))) % B := congrArg (fun x => x % B) e
    rw [h3, Nat.mul_add_mod, Nat.mod_eq_of_lt hr]

theorem before_arith {B off a : Nat} (h : a < off) (hq : a / B = off / B) :
    a % B < off % B := by
  have e1 := Nat.div_add_mod a B
  have e2 := Nat.div_add_mod off B
  rw [hq] at e1
  omega

theorem either_copyin_ok {mem : Mem} {user_src src len : Nat}
    (h : user_src = 0 ∨ ∀ k, k < len → mem.ok (src + k) = true) :
    either_copyin mem user_src src len = some (fun k => mem.byte (src + k)) := by
  unfold either_copyin
  rw [if_neg]
  rintro ⟨hu, k, hk, hf⟩
  rcases h with h | h
  · exact hu h
  · rw [h k hk] at hf; exact Bool.noConfusion hf

/-- Overwriting a data block of a well-formed file through the cache: the file keeps its
blocks, and the view of the cache changes at that block only. -/
theorem chunk_view {c : Config} {s s2 s3 : State} {ip bn bp k : Nat} (d : Nat → Nat)
    (hc : Coherent c s (s.inodes ip).dev (k + 2)) (hnf : NoFault s) (hf : FileOK c s ip)
    (hbn : bn < MAXFILE c) (h0 : fileBlock c s ip bn ≠ 0)
    (hbr : bread c s (s.inodes ip).dev (fileBlock c s ip bn) = .ok (s2, bp))
    (hrel : brelse c (log_write (s2.setBuf bp { s2.bufs bp with data := d }) bp) bp =
      .ok (s3, ())) :
    Coherent c s3 (s.inodes ip).dev (k + 1) ∧ SameEnv s s3 ∧ s3.inodes = s.inodes ∧
      (∀ i, (s3.bufs i).locked = (s.bufs i).locked) ∧ FileOK c s3 ip ∧
      (∀ bn2, fileBlock c s3 ip bn2 = fileBlock c s ip bn2) ∧
      (s2.bufs bp).data = blockView c s (s.inodes ip).dev (fileBlock c s ip bn) ∧
      ∀ x, blockView c s3 (s.inodes ip).dev x =
        if x = fileBlock c s ip bn then d else blockView c s (s.inodes ip).dev x := by
  have hown : Owned c s ip (fileBlock c s ip bn) := ⟨h0, Or.inr ⟨bn, hbn, rfl⟩⟩
  obtain ⟨hlt, -, hnm⟩ := hf.2.1 _ hown
  have hf0 : forced s (fileBlock c s ip bn) = false := hnf _ hlt
  obtain ⟨hc3, hdata, hview3⟩ := poke_view (k := k) d hc hf0 hbr hrel
  obtain ⟨-, henv3, hino3, hlk3, -⟩ := poke_tags (k := k) d hc.1 hbr hrel
  have hfb : ∀ bn2, fileBlock c s3 ip bn2 = fileBlock c s ip bn2 := by
    intro bn2
    unfold fileBlock
    rw [hino3]
    by_cases hd : bn2 < c.NDIRECT
    · rw [if_pos hd, if_pos hd]
    · rw [if_neg hd, if_neg hd]
      by_cases hi0 : (s.inodes ip).d.addrs c.NDIRECT = 0
      · rw [if_pos hi0, if_pos hi0]
      · rw [if_neg hi0, if_neg hi0, hview3, if_neg (Ne.symm (hf.2.2.1 bn hbn h0))]
  have hf3 : FileOK c s3 ip := by
    refine hf.keep henv3.2.1 (by rw [hino3]) (by rw [hino3]) (by rw [hino3])
      (fun x hx hxs => ?_) (fun bn2 _ => hfb bn2)
    unfold bmBit at hxs ⊢
    rw [henv3.2.1, hview3, if_neg]
    · exact hxs
    · intro e
      exact hnm (Or.inl ⟨x, hx, e.symm⟩)
  exact ⟨hc3, henv3, hino3, hlk3, hf3, hfb, hdata, hview3⟩

theorem coherent_mono {c : Config} {s : State} {dev k k2 : Nat} (h : Coherent c s dev k)
    (hk : k2 ≤ k) : Coherent c s dev k2 := ⟨h.1.mono hk, h.2⟩

/-- The loop of `writei` on a well-formed file without an injected fault: when it is left
with all `n` bytes copied in, the bytes are stored in the file. -/
theorem writei_loop_view (c : Config) (mem : Mem) (ip user_src n src0 off0 dev : Nat)
    (hsrc : user_src = 0 ∨ ∀ k, k < n → mem.ok (src0 + k) = true)
    (hmax : off0 + n ≤ MAXFILE c * c.BSIZE) (h32 : off0 + n < U32) :
    ∀ (fuel : Nat) (s : State) (tot k : Nat), tot ≤ n → (s.inodes ip).dev = dev →
      Coherent c s dev (8 * (n - tot) + k) → Geometry c s → NoFault s → s.sb.size ≤ U32 →
      FileOK c s ip → Stored c s ip mem src0 off0 (off0 + tot) →
      ∀ s' r, writei_loop c mem ip user_src n fuel s tot (off0 + tot) (src0 + tot) =
          .ok (s', r) →
        r = off0 + n ∧ Coherent c s' dev k ∧ SameEnv s s' ∧
        (s'.inodes ip).dev = dev ∧ (s'.inodes ip).inum = (s.inodes ip).inum ∧
        (s'.inodes ip).d.size = (s.inodes ip).d.size ∧
        (∀ i, (s'.bufs i).locked = (s.bufs i).locked) ∧
        FileOK c s' ip ∧ Stored c s' ip mem src0 off0 (off0 + n)
  | 0, s, tot, k, _, _, _, _, _, _, _, _ => by
    intro s' r hr
    simp [writei_loop] at hr
  | fuel + 1, s, tot, k, htot, hdev, hc, hg, hnf, hsz, hf, hst => by
    intro s' r hr
    have hB : 0 < c.BSIZE := hg.1
    simp only [writei_loop] at hr
    by_cases hlt : tot < n
    · rw [if_pos hlt] at hr
      have hbn : (off0 + tot) / c.BSIZE < MAXFILE c :=
        Nat.div_lt_of_lt_mul (by rw [Nat.mul_comm]; omega)
      cases hbm : bmap c s ip ((off0 + tot) / c.BSIZE) with
      | error e => simp [hbm] at hr
      | ok r1 =>
        obtain ⟨s1, a⟩ := r1
        simp only [hbm] at hr
        rw [← hdev] at hc
        obtain ⟨hc1, hg1, hf1, ha0, hfa⟩ :=
          bmap_view (k := 8 * (n - tot - 1) + k + 2) (coherent_mono hc (by omega)) hg hnf hsz
            hf hbn hbm
        have hdev1 : (s1.inodes ip).dev = (s.inodes ip).dev := hg1.2.1
        rw [← hdev1] at hc1
        rw [← hfa] at hr ha0
        cases hbr : bread c s1 (s1.inodes ip).dev (fileBlock c s1 ip ((off0 + tot) / c.BSIZE)) with
        | error e => simp [hbr] at hr
        | ok r2 =>
          obtain ⟨s2, bp⟩ := r2
          simp only [hbr] at hr
          obtain ⟨m, hm⟩ : ∃ m, m = min (n - tot) (c.BSIZE - (off0 + tot) % c.BSIZE) := ⟨_, rfl⟩
          rw [← hm] at hr
          have hmod : (off0 + tot) % c.BSIZE < c.BSIZE := Nat.mod_lt _ hB
          have hm1 : 1 ≤ m := by rw [hm]; omega
          have hm2 : m ≤ n - tot := by rw [hm]; exact Nat.min_le_left _ _
          have hm3 : m ≤ c.BSIZE - (off0 + tot) % c.BSIZE := by
            rw [hm]; exact Nat.min_le_right _ _
          have hcp : either_copyin mem user_src (src0 + tot) m =
              some (fun k => mem.byte (src0 + tot + k)) := by
            apply either_copyin_ok
            rcases hsrc with h | h
            · exact Or.inl h
            · refine Or.inr (fun k hk => ?_)
              rw [Nat.add_assoc]
              exact h (tot + k) (by omega)
          simp only [hcp] at hr
          cases hrel : brelse c (log_write (s2.setBuf bp { s2.bufs bp with
              data := fun i =>
                if (off0 + tot) % c.BSIZE ≤ i ∧ i < (off0 + tot) % c.BSIZE + m then
                  mem.byte (src0 + tot + (i - (off0 + tot) % c.BSIZE))
                else (s2.bufs bp).data i }) bp) bp with
          | error e => simp [hrel] at hr
          | ok r3 =>
            obtain ⟨s3, u⟩ := r3
            simp only [hrel] at hr
            obtain ⟨hc3, henv3, hino3, hlk3, hf3, hfb3, hdata, hview3⟩ :=
              chunk_view (k := 8 * (n - tot - 1) + k) _ hc1 (noFault_env hnf hg1.1) hf1 hbn ha0
                hbr hrel
            have hino3p : s3.inodes ip = s1.inodes ip := by rw [hino3]
            have hst3 : Stored c s3 ip mem src0 off0 (off0 + (tot + m)) := by
              intro x hx1 hx2
              have hxn : x / c.BSIZE < MAXFILE c :=
                Nat.div_lt_of_lt_mul (by rw [Nat.mul_comm]; omega)
              rw [hfb3, hino3p, hview3, henv3.2.1]
              by_cases hxo : x < off0 + tot
              · obtain ⟨e1, e2, e3⟩ := hst x hx1 hxo
                obtain ⟨e4, e5⟩ := hg1.2.2.2.2.2 _ hxn e1
                rw [e4, hg1.1.2.1, hdev1]
                refine ⟨e1, e2, ?_⟩
                by_cases hq : fileBlock c s ip (x / c.BSIZE) =
                    fileBlock c s1 ip ((off0 + tot) / c.BSIZE)
                · rw [if_pos hq]
                  have hsame : x / c.BSIZE = (off0 + tot) / c.BSIZE :=
                    hf1.2.2.2 _ _ hxn hbn (by rw [e4]; exact e1) (by rw [e4]; exact hq)
                  have hb4 := before_arith hxo hsame
                  rw [if_neg (by omega), hdata, ← hq, hdev1, e5]
                  exact e3
                · rw [if_neg hq, e5]
                  exact e3
              · obtain ⟨a1, a2⟩ := chunk_arith hB hm3 (Nat.le_of_not_lt hxo)
                  (show x < off0 + tot + m by omega)
                rw [a1, if_pos rfl]
                refine ⟨ha0, ?_, ?_⟩
                · exact (hf1.2.1 _ ⟨ha0, Or.inr ⟨_, hbn, rfl⟩⟩).1
                · rw [if_pos (by omega), a2]
                  congr 1
                  omega
            have e1 : (tot + m) % U32 = tot + m := Nat.mod_eq_of_lt (by omega)
            have e2 : (off0 + tot + m) % U32 = off0 + (tot + m) := by
              rw [Nat.add_assoc]; exact Nat.mod_eq_of_lt (by omega)
            have e3 : src0 + tot + m = src0 + (tot + m) := Nat.add_assoc _ _ _
            rw [e1, e2, e3] at hr
            have hdev3 : (s3.inodes ip).dev = dev := by rw [hino3p, hdev1, hdev]
            have henv13 : SameEnv s s3 := hg1.1.trans_env henv3
            rw [hdev1, hdev] at hc3
            obtain ⟨i1, i2, i3, i4, i5, i6, i7, i8, i9⟩ :=
              writei_loop_view c mem ip user_src n src0 off0 dev hsrc hmax h32 fuel s3 (tot + m)
                k (by omega) hdev3 (coherent_mono hc3 (by omega)) (geometry_env hg henv13)
                (noFault_env hnf henv13) (by rw [henv13.2.1]; exact hsz) hf3 hst3 s' r hr
            refine ⟨i1, i2, henv13.trans_env i3, i4, ?_, ?_, fun i => ?_, i8, i9⟩
            · rw [i5, hino3p, hg1.2.2.1]
            · rw [i6, hino3p, hg1.2.2.2.1]
            · rw [i7, hlk3, hg1.2.2.2.2.1]
    · rw [if_neg hlt] at hr
      simp only [Except.ok.injEq, Prod.mk.injEq] at hr
      obtain ⟨rfl, rfl⟩ := hr
      have htn : tot = n := by omega
      subst htn
      exact ⟨rfl, coherent_mono hc (by omega), SameEnv.rfl_env s, hdev, rfl, rfl, fun _ => rfl,
        hf, hst⟩

/-- Writing the inode back, `iupdate`, without an injected fault: the view of the cache
changes at the block of the inode only. -/
theorem iupdate_view {c : Config} {s s' : State} {ip k : Nat} {u : Unit}
    (hc : Coherent c s (s.inodes ip).dev (k + 2)) (hnf : NoFault s) (hf : FileOK c s ip)
    (hr : iupdate c s ip = .ok (s', u)) :
    Coherent c s' (s.inodes ip).dev (k + 1) ∧ SameEnv s s' ∧ s'.inodes = s.inodes ∧
      (∀ i, (s'.bufs i).locked = (s.bufs i).locked) ∧
      ∀ x, ¬ Meta c s ip x →
        blockView c s' (s.inodes ip).dev x = blockView c s (s.inodes ip).dev x := by
  have hlt := (hf.1 _ (Or.inr rfl)).1
  have hf0 : forced s (IBLOCK c (s.inodes ip).inum s.sb) = false := hnf _ hlt
  unfold iupdate at hr
  cases hbr : bread c s (s.inodes ip).dev (IBLOCK c (s.inodes ip).inum s.sb) with
  | error e => simp [hbr] at hr
  | ok r =>
    obtain ⟨s1, bp⟩ := r
    simp only [hbr] at hr
    obtain ⟨hc3, -, hview3⟩ := poke_view (k := k) _ hc hf0 hbr hr
    obtain ⟨-, henv3, hino3, hlk3, -⟩ := poke_tags (k := k) _ hc.1 hbr hr
    refine ⟨hc3, henv3, hino3, hlk3, fun x hx => ?_⟩
    rw [hview3, if_neg]
    intro e
    exact hx (Or.inr e)

/-- Setting the size of the inode leaves the blocks of the file alone. -/
theorem setSize_file {c : Config} {s : State} {ip : Nat} (z : Nat) :
    (∀ bn, fileBlock c (s.setInode ip { s.inodes ip with
        d := { (s.inodes ip).d with size := z } }) ip bn = fileBlock c s ip bn) ∧
      (FileOK c s ip → FileOK c (s.setInode ip { s.inodes ip with
        d := { (s.inodes ip).d with size := z } }) ip) := by
  have hfb : ∀ bn, fileBlock c (s.setInode ip { s.inodes ip with
      d := { (s.inodes ip).d with size := z } }) ip bn = fileBlock c s ip bn := by
    intro bn
    unfold fileBlock
    rw [setInode_same]
    rfl
  refine ⟨hfb, fun hf => ?_⟩
  exact hf.keep rfl (by rw [setInode_same]) (by rw [setInode_same]) (by rw [setInode_same])
    (fun x _ hx => hx) (fun bn _ => hfb bn)

/-- What `writei` leaves behind on a well-formed file, without an injected fault and with
all `n` bytes copied in: the bytes are stored in the file at the offsets from `off` on, and
the file is at least `off + n` bytes long. -/
theorem writei_view {c : Config} {s s1 : State} {mem : Mem} {ip user_src src off n k : Nat}
    {r : Int} (hc : Coherent c s (s.inodes ip).dev (8 * n + k + 2)) (hg : Geometry c s)
    (hnf : NoFault s) (hsz : s.sb.size ≤ U32) (hf : FileOK c s ip)
    (hsrc : user_src = 0 ∨ ∀ j, j < n → mem.ok (src + j) = true)
    (hoff : off ≤ (s.inodes ip).d.size) (hmax : off + n ≤ MAXFILE c * c.BSIZE)
    (h32 : off + n < 2147483648)
    (hw : writei c s mem ip user_src src off n = .ok (s1, r)) :
    r = (n : Int) ∧ Coherent c s1 (s.inodes ip).dev (k + 1) ∧ SameEnv s s1 ∧
      (s1.inodes ip).dev = (s.inodes ip).dev ∧
      (∀ i, (s1.bufs i).locked = (s.bufs i).locked) ∧
      Stored c s1 ip mem src off (off + n) ∧ off + n ≤ (s1.inodes ip).d.size ∧
      ((s1.inodes ip).d.addrs c.NDIRECT ≠ 0 → (s1.inodes ip).d.addrs c.NDIRECT < s1.sb.size) := by
  have hU : off + n < U32 := by unfold U32; omega
  have hmod : (off + n) % U32 = off + n := Nat.mod_eq_of_lt hU
  have hint : toInt32 n = (n : Int) := toInt32_of_lt (by omega)
  unfold writei at hw
  rw [hmod, if_neg (by omega), if_neg (by omega)] at hw
  cases hl : writei_loop c mem ip user_src n (n + 1) s 0 off src with
  | error e => simp [hl] at hw
  | ok r1 =>
    obtain ⟨sL, o⟩ := r1
    simp only [hl] at hw
    obtain ⟨i1, i2, i3, i4, i5, i6, i7, i8, i9⟩ :=
      writei_loop_view c mem ip user_src n src off (s.inodes ip).dev hsrc hmax hU (n + 1) s 0
        (k + 2) (Nat.zero_le _) rfl (coherent_mono hc (by omega)) hg hnf hsz hf
        (fun a h1 h2 => by omega) sL o hl
    have hindL : (sL.inodes ip).d.addrs c.NDIRECT ≠ 0 →
        (sL.inodes ip).d.addrs c.NDIRECT < sL.sb.size := fun h0 =>
      (i8.2.1 _ ⟨h0, Or.inl rfl⟩).1
    by_cases hn : n > 0
    · rw [if_pos hn] at hw
      obtain ⟨sM, hsM⟩ : ∃ sM, sM = (if o > (sL.inodes ip).d.size then
          sL.setInode ip { sL.inodes ip with d := { (sL.inodes ip).d with size := o } }
          else sL) := ⟨_, rfl⟩
      rw [← hsM] at hw
      have hM : sM.bufs = sL.bufs ∧ SameEnv sL sM ∧ (sM.inodes ip).dev = (sL.inodes ip).dev ∧
          (sM.inodes ip).d.addrs = (sL.inodes ip).d.addrs ∧ off + n ≤ (sM.inodes ip).d.size ∧
          Coherent c sM (s.inodes ip).dev (k + 2) ∧ FileOK c sM ip ∧
          (∀ bn, fileBlock c sM ip bn = fileBlock c sL ip bn) ∧
          (∀ dev x, blockView c sM dev x = blockView c sL dev x) := by
        by_cases ho : o > (sL.inodes ip).d.size
        · rw [if_pos ho] at hsM
          rw [hsM]
          refine ⟨rfl, SameEnv.rfl_env _, by rw [setInode_same], by rw [setInode_same], ?_,
            coherent_setInode i2 _ _, (setSize_file o).2 i8, (setSize_file o).1,
            fun _ _ => rfl⟩
          rw [setInode_same]
          exact Nat.le_of_eq i1.symm
        · rw [if_neg ho] at hsM
          rw [hsM]
          exact ⟨rfl, SameEnv.rfl_env _, rfl, rfl, by omega, i2, i8, fun _ => rfl,
            fun _ _ => rfl⟩
      obtain ⟨m1, m2, m3, m4, m5, m6, m7, m8, m9⟩ := hM
      cases hiu : iupdate c sM ip with
      | error e => simp [hiu] at hw
      | ok r2 =>
        obtain ⟨s2, u⟩ := r2
        simp only [hiu, Except.ok.injEq, Prod.mk.injEq] at hw
        obtain ⟨rfl, rfl⟩ := hw
        have hdevM : (sM.inodes ip).dev = (s.inodes ip).dev := m3.trans i4
        rw [← hdevM] at m6
        obtain ⟨u1, u2, u3, u4, u5⟩ :=
          iupdate_view (k := k) m6 (noFault_env hnf (i3.trans_env m2)) m7 hiu
        have hino2 : s2.inodes ip = sM.inodes ip := by rw [u3]
        have hfb2 : ∀ bn, bn < MAXFILE c → fileBlock c sM ip bn ≠ 0 →
            fileBlock c s2 ip bn = fileBlock c sM ip bn := by
          intro bn hbn h0
          unfold fileBlock at h0 ⊢
          rw [hino2]
          by_cases hd : bn < c.NDIRECT
          · simp only [if_pos hd]
          · simp only [if_neg hd] at h0 ⊢
            by_cases hi0 : (sM.inodes ip).d.addrs c.NDIRECT = 0
            · simp only [if_pos hi0]
            · simp only [if_neg hi0]
              rw [u5 _ (m7.2.1 _ ⟨hi0, Or.inl rfl⟩).2.2]
        refine ⟨hint, ?_, (i3.trans_env m2).trans_env u2, by rw [hino2, hdevM],
          fun i => ?_, ?_, by rw [hino2]; exact m5, ?_⟩
        · rw [hdevM] at u1; exact u1
        · rw [u4, m1, i7]
        · intro a h1 h2
          obtain ⟨e1, e2, e3⟩ := i9 a h1 h2
          have han : a / c.BSIZE < MAXFILE c :=
            Nat.div_lt_of_lt_mul (by rw [Nat.mul_comm]; omega)
          rw [← m8] at e1
          rw [hfb2 _ han e1, hino2, u2.2.1, m2.2.1]
          have hown : Owned c sM ip (fileBlock c sM ip (a / c.BSIZE)) :=
            ⟨e1, Or.inr ⟨_, han, rfl⟩⟩
          rw [u5 _ (m7.2.1 _ hown).2.2, m8, m9, m3]
          rw [m8] at e1
          exact ⟨e1, e2, e3⟩
        · rw [hino2, m4, u2.2.1, m2.2.1]
          exact hindL
    · rw [if_neg hn] at hw
      simp only [Except.ok.injEq, Prod.mk.injEq] at hw
      obtain ⟨rfl, rfl⟩ := hw
      have hn0 : n = 0 := by omega
      subst hn0
      exact ⟨hint, coherent_mono i2 (by omega), i3, i4, i7, i9, by rw [i6]; exact hoff, hindL⟩

/-! ## readi -/

theorem SameView.rfl_view (c : Config) (s : State) (dev : Nat) : SameView c s s dev :=
  ⟨SameEnv.rfl_env s, rfl, fun _ => ⟨rfl, rfl⟩, fun _ => rfl⟩

theorem SameView.trans_view {c : Config} {s s2 s3 : State} {dev : Nat}
    (h1 : SameView c s s2 dev) (h2 : SameView c s2 s3 dev) : SameView c s s3 dev :=
  ⟨h1.1.trans_env h2.1, h2.2.1.trans h1.2.1,
    fun i => ⟨(h2.2.2.1 i).1.trans (h1.2.2.1 i).1, (h2.2.2.1 i).2.trans (h1.2.2.1 i).2⟩,
    fun m => (h2.2.2.2 m).trans (h1.2.2.2 m)⟩

theorem SameView.unlocked {c : Config} {s s2 : State} {dev : Nat} (h : SameView c s s2 dev)
    (hu : Unlocked c s) : Unlocked c s2 :=
  fun i hi => by rw [(h.2.2.1 i).2]; exact hu i hi

theorem SameView.spare {c : Config} {s s2 : State} {dev n : Nat} (h : SameView c s s2 dev)
    (hs : Spare c s n) : Spare c s2 n :=
  hs.same (fun i => (h.2.2.1 i).1)

theorem SameView.fileBlock_eq {c : Config} {s s2 : State} {ip : Nat}
    (h : SameView c s s2 (s.inodes ip).dev) (bn : Nat) :
    fileBlock c s2 ip bn = fileBlock c s ip bn := by
  unfold fileBlock
  rw [h.2.1, h.2.2.2]

theorem SameView.stored {c : Config} {s s2 : State} {ip : Nat} {mem : Mem} {src o1 o2 : Nat}
    (h : SameView c s s2 (s.inodes ip).dev) (hs : Stored c s ip mem src o1 o2) :
    Stored c s2 ip mem src o1 o2 := by
  intro a h1 h2
  rw [h.fileBlock_eq, h.2.1, h.2.2.2, h.1.2.1]
  exact hs a h1 h2

/-- Reading a block and releasing it, with nobody holding a buffer, one buffer unused and no
fault injected: both calls return, what was read is the view of the cache, and nothing a
reader can tell has changed. -/
theorem peek_same {c : Config} {s : State} {dev k : Nat} (n : Nat)
    (hc : Coherent c s dev (k + 1)) (hf : forced s n = false) (hu : Unlocked c s)
    (hs : Spare c s 1) :
    ∃ s1 b s2, bread c s dev n = .ok (s1, b) ∧ brelse c s1 b = .ok (s2, ()) ∧
      (s1.bufs b).data = blockView c s dev n ∧ Coherent c s2 dev (k + 1) ∧
      SameView c s s2 dev := by
  obtain ⟨s1, b, hbr⟩ := bread_total hc.1.1 hu hs dev n
  obtain ⟨s2, hrel⟩ := peek_total (k := k) hc.1 hbr
  obtain ⟨hc2, hdata, hview⟩ := peek_view hc hf hbr hrel
  obtain ⟨-, henv, hino, -, hall, -⟩ := peek_tags hc.1 hbr hrel
  exact ⟨s1, b, s2, hbr, hrel, hdata, hc2, henv, hino, hall, hview⟩

theorem either_copyout_ok {mem : Mem} {user_dst dst len : Nat} (src : Nat → Nat)
    (h : user_dst = 0 ∨ ∀ k, k < len → mem.ok (dst + k) = true) :
    either_copyout mem user_dst dst src len =
      some { mem with byte := fun a => if dst ≤ a ∧ a < dst + len then src (a - dst)
                                        else mem.byte a } := by
  unfold either_copyout
  rw [if_neg]
  rintro ⟨hu, k, hk, hf⟩
  rcases h with h | h
  · exact hu h
  · rw [h k hk] at hf; exact Bool.noConfusion hf

/-- For a block the file has, `bmap` returns it and changes nothing a reader can tell. -/
theorem bmap_read {c : Config} {s : State} {ip bn k : Nat}
    (hc : Coherent c s (s.inodes ip).dev (k + 1)) (hnf : NoFault s) (hu : Unlocked c s)
    (hs : Spare c s 1) (hbn : bn < MAXFILE c) (h0 : fileBlock c s ip bn ≠ 0)
    (hind : (s.inodes ip).d.addrs c.NDIRECT ≠ 0 → (s.inodes ip).d.addrs c.NDIRECT < s.sb.size) :
    ∃ s', bmap c s ip bn = .ok (s', fileBlock c s ip bn) ∧
      Coherent c s' (s.inodes ip).dev (k + 1) ∧ SameView c s s' (s.inodes ip).dev := by
  unfold bmap
  by_cases hd : bn < c.NDIRECT
  · have h1 : (s.inodes ip).d.addrs bn ≠ 0 := by
      unfold fileBlock at h0; rw [if_pos hd] at h0; exact h0
    have h2 : fileBlock c s ip bn = (s.inodes ip).d.addrs bn := by
      unfold fileBlock; rw [if_pos hd]
    rw [if_pos hd, if_neg h1, h2]
    exact ⟨s, rfl, hc, SameView.rfl_view c s _⟩
  · have hj : bn - c.NDIRECT < NINDIRECT c := by unfold MAXFILE at hbn; omega
    have hi0 : (s.inodes ip).d.addrs c.NDIRECT ≠ 0 := by
      intro e
      unfold fileBlock at h0
      rw [if_neg hd, if_pos e] at h0
      exact h0 rfl
    have h2 : fileBlock c s ip bn =
        get32 (blockView c s (s.inodes ip).dev ((s.inodes ip).d.addrs c.NDIRECT))
          (bn - c.NDIRECT) := by
      unfold fileBlock; rw [if_neg hd, if_neg hi0]
    obtain ⟨s1, b, s2, hbr, hrel, hdata, hc2, hsv⟩ :=
      peek_same ((s.inodes ip).d.addrs c.NDIRECT) hc (hnf _ (hind hi0)) hu hs
    have hino1 : s1.inodes = s.inodes := by
      obtain ⟨-, -, -, -, hino, -⟩ := bread_shape hc.1 hbr
      exact hino
    have ht : get32 (s1.bufs b).data (bn - c.NDIRECT) ≠ 0 := by
      rw [hdata, ← h2]; exact h0
    refine ⟨s2, ?_, hc2, hsv⟩
    simp only [if_neg hd, hj, if_true, bmap_indirect, if_neg hi0, bmap_target, hbr, if_neg ht,
      hrel, hdata, ← h2, if_neg h0]

theorem either_copyout_some (mem : Mem) (user_dst dst len : Nat) (src : Nat → Nat)
    (h : user_dst = 0 ∨ ∀ k, k < len → mem.ok (dst + k) = true) :
    ∃ mem2, either_copyout mem user_dst dst src len = some mem2 ∧ mem2.ok = mem.ok ∧
      ∀ a, mem2.byte a = if dst ≤ a ∧ a < dst + len then src (a - dst) else mem.byte a :=
  ⟨_, either_copyout_ok src h, rfl, fun _ => rfl⟩

/-- The loop of `readi` on a file in which the bytes of `memW` are stored: it returns with
all `n` bytes copied out, and they are those bytes. -/
theorem readi_loop_total (c : Config) (memW : Mem) (ip user_dst n src0 off0 dst0 dev k : Nat)
    (hB : 0 < c.BSIZE) (hmax : off0 + n ≤ MAXFILE c * c.BSIZE) (h32 : off0 + n < U32) :
    ∀ (fuel : Nat) (s : State) (mem : Mem) (tot : Nat), n - tot < fuel → tot ≤ n →
      (s.inodes ip).dev = dev → Coherent c s dev (k + 1) → NoFault s → Unlocked c s →
      Spare c s 1 → Stored c s ip memW src0 off0 (off0 + n) →
      ((s.inodes ip).d.addrs c.NDIRECT ≠ 0 → (s.inodes ip).d.addrs c.NDIRECT < s.sb.size) →
      (user_dst = 0 ∨ ∀ j, j < n → mem.ok (dst0 + j) = true) →
      (∀ j, j < tot → mem.byte (dst0 + j) = memW.byte (src0 + j)) →
      ∃ s' mem', readi_loop c ip user_dst n fuel s mem tot (off0 + tot) (dst0 + tot) =
          .ok (s', (mem', n)) ∧
        ∀ j, j < n → mem'.byte (dst0 + j) = memW.byte (src0 + j)
  | 0, s, mem, tot, hfuel, _, _, _, _, _, _, _, _, _, _ => by omega
  | fuel + 1, s, mem, tot, hfuel, htot, hdev, hc, hnf, hu, hsp, hst, hind, hdst, hgot => by
    simp only [readi_loop]
    by_cases hlt : tot < n
    · rw [if_pos hlt]
      have hbn : (off0 + tot) / c.BSIZE < MAXFILE c :=
        Nat.div_lt_of_lt_mul (by rw [Nat.mul_comm]; omega)
      obtain ⟨e1, e2, e3⟩ := hst (off0 + tot) (by omega) (by omega)
      rw [← hdev] at hc
      obtain ⟨s1, hbm, hc1, hsv1⟩ := bmap_read (k := k) hc hnf hu hsp hbn e1 hind
      have hino1 : s1.inodes ip = s.inodes ip := by rw [hsv1.2.1]
      have hf1 : forced s1 (fileBlock c s ip ((off0 + tot) / c.BSIZE)) = false := by
        rw [hsv1.1.forced_eq]; exact hnf _ e2
      obtain ⟨s2, bp, s3, hbr, hrel, hdata, hc3, hsv3⟩ :=
        peek_same (fileBlock c s ip ((off0 + tot) / c.BSIZE)) hc1 hf1 (hsv1.unlocked hu)
          (hsv1.spare hsp)
      obtain ⟨m, hm⟩ : ∃ m, m = min (n - tot) (c.BSIZE - (off0 + tot) % c.BSIZE) := ⟨_, rfl⟩
      have hmod : (off0 + tot) % c.BSIZE < c.BSIZE := Nat.mod_lt _ hB
      have hm1 : 1 ≤ m := by rw [hm]; omega
      have hm2 : m ≤ n - tot := by rw [hm]; exact Nat.min_le_left _ _
      have hm3 : m ≤ c.BSIZE - (off0 + tot) % c.BSIZE := by
        rw [hm]; exact Nat.min_le_right _ _
      obtain ⟨mem2, hcp, hok2, hbyte2⟩ := either_copyout_some mem user_dst (dst0 + tot) m
        (fun j => (s2.bufs bp).data ((off0 + tot) % c.BSIZE + j))
        (by
          rcases hdst with h | h
          · exact Or.inl h
          · refine Or.inr (fun j hj => ?_)
            rw [Nat.add_assoc]
            exact h (tot + j) (by omega))
      have hdst2 : user_dst = 0 ∨ ∀ j, j < n → mem2.ok (dst0 + j) = true := by
        rw [hok2]; exact hdst
      have hsv : SameView c s s3 (s.inodes ip).dev := hsv1.trans_view hsv3
      have hino3 : s3.inodes ip = s.inodes ip := by rw [hsv.2.1]
      have x1 : (tot + m) % U32 = tot + m := Nat.mod_eq_of_lt (by omega)
      have x2 : (off0 + tot + m) % U32 = off0 + (tot + m) := by
        rw [Nat.add_assoc]; exact Nat.mod_eq_of_lt (by omega)
      have x3 : dst0 + tot + m = dst0 + (tot + m) := Nat.add_assoc _ _ _
      simp only [hbm, hino1, hbr, ← hm, hcp, hrel, x1, x2, x3]
      apply readi_loop_total c memW ip user_dst n src0 off0 dst0 dev k hB hmax h32 fuel s3 mem2
        (tot + m) (by omega) (by omega) (by rw [hino3]; exact hdev)
        (by rw [← hdev]; exact hc3) (noFault_env hnf hsv.1) (hsv.unlocked hu) (hsv.spare hsp)
        (hsv.stored hst) (by rw [hino3, hsv.1.2.1]; exact hind) hdst2
      intro j hj
      rw [hbyte2]
      by_cases hjt : j < tot
      · rw [if_neg (by omega)]
        exact hgot j hjt
      · rw [if_pos (by omega), hdata, hsv1.2.2.2]
        obtain ⟨a1, a2⟩ := chunk_arith (a := off0 + j) hB hm3 (by omega)
          (show off0 + j < off0 + tot + m by omega)
        obtain ⟨-, -, y3⟩ := hst (off0 + j) (by omega) (by omega)
        rw [a1, a2] at y3
        have z1 : dst0 + j - (dst0 + tot) = off0 + j - (off0 + tot) := by omega
        have z2 : off0 + j - off0 = j := by omega
        rw [z1, y3, z2]
    · rw [if_neg hlt]
      have htn : tot = n := by omega
      subst htn
      exact ⟨s, mem, rfl, hgot⟩

/-- On a file in which the bytes of `memW` are stored, `readi` returns `n` and copies out
those bytes. -/
theorem readi_total {c : Config} {s : State} {memW mem : Mem}
    {ip user_dst dst src off n k : Nat} (hB : 0 < c.BSIZE)
    (hc : Coherent c s (s.inodes ip).dev (k + 1)) (hnf : NoFault s) (hu : Unlocked c s)
    (hsp : Spare c s 1) (hst : Stored c s ip memW src off (off + n))
    (hind : (s.inodes ip).d.addrs c.NDIRECT ≠ 0 → (s.inodes ip).d.addrs c.NDIRECT < s.sb.size)
    (hdst : user_dst = 0 ∨ ∀ j, j < n → mem.ok (dst + j) = true)
    (hsize : off + n ≤ (s.inodes ip).d.size) (hmax : off + n ≤ MAXFILE c * c.BSIZE)
    (h32 : off + n < 2147483648) :
    ∃ s2 m, readi c s mem ip user_dst dst off n = .ok (s2, (m, (n : Int))) ∧
      ∀ j, j < n → m.byte (dst + j) = memW.byte (src + j) := by
  have hU : off + n < U32 := by unfold U32; omega
  have hmod : (off + n) % U32 = off + n := Nat.mod_eq_of_lt hU
  have hint : toInt32 n = (n : Int) := toInt32_of_lt (by omega)
  obtain ⟨s2, m, hl, hbytes⟩ :=
    readi_loop_total c memW ip user_dst n src off dst (s.inodes ip).dev k hB hmax hU (n + 1) s
      mem 0 (by omega) (Nat.zero_le _) rfl hc hnf hu hsp hst hind hdst
      (fun j hj => absurd hj (Nat.not_lt_zero j))
  have hl2 : readi_loop c ip user_dst n (n + 1) s mem 0 off dst = .ok (s2, (m, n)) := hl
  refine ⟨s2, m, ?_, hbytes⟩
  unfold readi
  rw [hmod, if_neg (by omega)]
  simp only [if_neg (show ¬ off + n > (s.inodes ip).d.size by omega), hl2, hint]

theorem fs0_fileBlock (fail : Int) (bn : Nat) : fileBlock cfg0 (fs0 fail) 0 bn = 0 := by
  unfold fileBlock
  by_cases hd : bn < cfg0.NDIRECT
  · rw [if_pos hd]; rfl
  · rw [if_neg hd, if_pos (show ((fs0 fail).inodes 0).d.addrs cfg0.NDIRECT = 0 from rfl)]

theorem fs0_fileOK (fail : Int) : FileOK cfg0 (fs0 fail) 0 := by
  have hnone : ∀ n, ¬ ∃ i, i < cfg0.NBUF ∧ ((fs0 fail).bufs i).holds 1 n := by
    rintro n ⟨i, -, hi⟩
    rw [fs0_bufs] at hi
    simp [Buf.holds, Buf.zero] at hi
  have hown : ∀ x, ¬ Owned cfg0 (fs0 fail) 0 x := by
    rintro x ⟨h0, h1 | ⟨bn, -, h1⟩⟩
    · exact h0 h1
    · rw [fs0_fileBlock] at h1; exact h0 h1
  refine ⟨?_, fun x hx => absurd hx (hown x), fun bn _ h0 => absurd (fs0_fileBlock fail bn) h0,
    fun bn _ _ _ h0 _ => absurd (fs0_fileBlock fail bn) h0⟩
  rintro x (⟨y, hy, rfl⟩ | rfl)
  · exact ⟨(fs0_geometry fail).2.2 y hy, fs0_mapInUse fail y hy⟩
  · refine ⟨show IBLOCK cfg0 1 sb0 < 50 by decide, ?_⟩
    show bitOf (blockView cfg0 (fs0 fail) 1 (BBLOCK cfg0 (IBLOCK cfg0 1 sb0) sb0))
      (IBLOCK cfg0 1 sb0 % BPB cfg0) = true
    rw [blockView_of_none (fs0_coherent fail (k := 0) (by decide)).1.1 (hnone _)]
    show bitOf (disk1 (BBLOCK cfg0 (IBLOCK cfg0 1 sb0) sb0)) (IBLOCK cfg0 1 sb0 % BPB cfg0) = true
    decide

set_option maxRecDepth 100000 in
theorem fs0_writei : writei cfg0 (fs0 (-1)) mem0 0 0 1000 0 3 = .ok (fs0Write (-1), 3) := rfl

set_option maxRecDepth 100000 in
theorem fs0Write_spare : Spare cfg0 (fs0Write (-1)) 1 :=
  ⟨[3], by decide, by decide, fun i hi => by
    simp only [List.mem_singleton] at hi
    subst hi
    exact ⟨by decide, by decide⟩⟩

/-- C1, amended: with no read fault injected, on a well-formed file, for offset `off` at most
the size of the file and length `n` with `off + n` at most `MAXFILE * BSIZE` and below
`2^31`: after `writei(ip, user_src, src, off, n)` has copied in all `n` bytes and returned
`n`, `readi(ip, user_dst, dst, off, n)` returns `n` and copies out exactly the `n` bytes that
were written.  (The cache is coherent with reference counts `8 * n + 2` below `2^32`, nobody
holds a buffer, source and destination can be accessed, and one buffer is unused after the
write.) -/
theorem writei_readi (c : Config) (s s1 : State) (mem mem2 : Mem)
    (ip user_src src user_dst dst off n : Nat)
    (hc : Coherent c s (s.inodes ip).dev (8 * n + 2)) (hg : Geometry c s) (hnf : NoFault s)
    (hsz : s.sb.size ≤ U32) (hf : FileOK c s ip) (hu : Unlocked c s)
    (hsrc : user_src = 0 ∨ ∀ j, j < n → mem.ok (src + j) = true)
    (hdst : user_dst = 0 ∨ ∀ j, j < n → mem2.ok (dst + j) = true)
    (hoff : off ≤ (s.inodes ip).d.size) (hmax : off + n ≤ MAXFILE c * c.BSIZE)
    (h32 : off + n < 2147483648)
    (hw : writei c s mem ip user_src src off n = .ok (s1, (n : Int)))
    (hsp : Spare c s1 1) :
    ∃ s2 m, readi c s1 mem2 ip user_dst dst off n = .ok (s2, (m, (n : Int))) ∧
      ∀ j, j < n → m.byte (dst + j) = mem.byte (src + j) := by
  obtain ⟨-, hc1, henv, hdev, hlk, hst, hsize, hind⟩ :=
    writei_view (k := 0) hc hg hnf hsz hf hsrc hoff hmax h32 hw
  rw [← hdev] at hc1
  exact readi_total hg.1 hc1 (noFault_env hnf henv) (fun i hi => by rw [hlk]; exact hu i hi)
    hsp hst hind hdst hsize hmax h32

set_option maxRecDepth 100000 in
/-- C1 as stated fails when a read fault is injected: with `force_disk_fail_id = 0`, on the
example file system `writei` of the three bytes at address 1000 to offset 0 of the empty file
returns 3, and `readi` of three bytes at offset 0 returns 3 but delivers the byte 2 of the
mirror disk where 185 was written. -/
theorem writei_readi_counterexample :
    writei cfg0 (fs0 0) mem0 0 0 1000 0 3 = .ok (fs0Write 0, 3) ∧
      (∃ s2, readi cfg0 (fs0Write 0) mem0 0 0 5000 0 3 = .ok (s2, (fs0Read 0, 3))) ∧
      (fs0Read 0).byte 5000 = 2 ∧ mem0.byte 1000 = 185 :=
  ⟨rfl, ⟨_, rfl⟩, by decide, by decide⟩

/-- Worked example for C1: on the example file system without a fault, three bytes written
at offset 0 of the empty file are read back. -/
theorem writei_readi_witness :
    (Coherent cfg0 (fs0 (-1)) 1 26 ∧ Geometry cfg0 (fs0 (-1)) ∧ NoFault (fs0 (-1)) ∧
      FileOK cfg0 (fs0 (-1)) 0 ∧ Unlocked cfg0 (fs0 (-1)) ∧
      writei cfg0 (fs0 (-1)) mem0 0 0 1000 0 3 = .ok (fs0Write (-1), 3) ∧
      Spare cfg0 (fs0Write (-1)) 1) ∧
    ∃ s2 m, readi cfg0 (fs0Write (-1)) mem0 0 0 5000 0 3 = .ok (s2, (m, 3)) ∧
      ∀ j, j < 3 → m.byte (5000 + j) = mem0.byte (1000 + j) :=
  ⟨⟨fs0_coherent (-1) (by decide), fs0_geometry (-1), fs0_nofault, fs0_fileOK (-1),
      fs0_unlocked (-1), fs0_writei, fs0Write_spare⟩,
    writei_readi cfg0 (fs0 (-1)) (fs0Write (-1)) mem0 mem0 0 0 1000 0 5000 0 3
      (fs0_coherent (-1) (by decide)) (fs0_geometry (-1)) fs0_nofault (by decide)
      (fs0_fileOK (-1)) (fs0_unlocked (-1)) (Or.inl rfl) (Or.inl rfl) (Nat.zero_le _)
      (by decide) (by decide) fs0_writei fs0Write_spare⟩

/-! ## iget -/

theorem iget_loop_spec (c : Config) (s : State) (dev inum : Nat) :
    ∀ (n i : Nat) (empty : Option Nat),
      (match empty with
        | none => ∀ k, k < i → (s.inodes k).ref ≠ 0
        | some e => e < i ∧ (s.inodes e).ref = 0 ∧ ∀ k, k < e → (s.inodes k).ref ≠ 0) →
      (∀ i0, i ≤ i0 → i0 < i + n → slotHolds s dev inum i0 →
        (∀ k, i ≤ k → k < i0 → ¬ slotHolds s dev inum k) →
        iget_loop c s dev inum n i empty =
          .ok (s.setInode i0 { s.inodes i0 with ref := (s.inodes i0).ref + 1 }, i0)) ∧
      ((∀ k, i ≤ k → k < i + n → ¬ slotHolds s dev inum k) →
        (∀ j, j < i + n → (s.inodes j).ref = 0 → (∀ k, k < j → (s.inodes k).ref ≠ 0) →
          iget_loop c s dev inum n i empty =
            .ok (s.setInode j { s.inodes j with dev := dev, inum := inum, ref := 1, valid := 0 },
              j)) ∧
        ((∀ k, k < i + n → (s.inodes k).ref ≠ 0) →
          iget_loop c s dev inum n i empty = .error (Err.iget_no_inodes, s)))
  | 0, i, empty, hemp => by
    refine ⟨fun i0 h1 h2 => by omega, fun _ => ⟨fun j hj hj0 hjm => ?_, fun hall => ?_⟩⟩
    · cases empty with
      | none => exact absurd hj0 (hemp j (by omega))
      | some e =>
        obtain ⟨he1, he2, he3⟩ := hemp
        have : e = j := by
          rcases Nat.lt_trichotomy e j with h | h | h
          · exact absurd he2 (hjm e h)
          · exact h
          · exact absurd hj0 (he3 j h)
        subst this
        rfl
    · cases empty with
      | none => rfl
      | some e => exact absurd hemp.2.1 (hall e (by omega))
  | n + 1, i, empty, hemp => by
    have hnext : match (if empty = none ∧ (s.inodes i).ref = 0 then some i else empty) with
        | none => ∀ k, k < i + 1 → (s.inodes k).ref ≠ 0
        | some e => e < i + 1 ∧ (s.inodes e).ref = 0 ∧ ∀ k, k < e → (s.inodes k).ref ≠ 0 := by
      cases empty with
      | none =>
        by_cases h0 : (s.inodes i).ref = 0
        · rw [if_pos ⟨rfl, h0⟩]
          exact ⟨Nat.lt_succ_self i, h0, hemp⟩
        · rw [if_neg (fun h => h0 h.2)]
          intro k hk
          by_cases hki : k = i
          · rw [hki]; exact h0
          · exact hemp k (by omega)
      | some e =>
        rw [if_neg (fun h => Option.noConfusion h.1)]
        exact ⟨by omega, hemp.2.1, hemp.2.2⟩
    have ih := iget_loop_spec c s dev inum n (i + 1) _ hnext
    refine ⟨fun i0 h1 h2 hh hmin => ?_, fun hno => ⟨fun j hj hj0 hjm => ?_, fun hall => ?_⟩⟩
    · by_cases hi : i0 = i
      · subst hi
        simp only [iget_loop, slotHolds] at hh ⊢
        rw [if_pos hh]
      · have hni : ¬ ((s.inodes i).ref > 0 ∧ (s.inodes i).dev = dev ∧ (s.inodes i).inum = inum) :=
          hmin i (Nat.le_refl _) (by omega)
        simp only [iget_loop]
        rw [if_neg hni]
        exact ih.1 i0 (by omega) (by omega) hh (fun k hk1 hk2 => hmin k (by omega) hk2)
    · have hni : ¬ ((s.inodes i).ref > 0 ∧ (s.inodes i).dev = dev ∧ (s.inodes i).inum = inum) :=
        hno i (Nat.le_refl _) (by omega)
      simp only [iget_loop]
      rw [if_neg hni]
      exact (ih.2 (fun k hk1 hk2 => hno k (by omega) (by omega))).1 j (by omega) hj0 hjm
    · have hni : ¬ ((s.inodes i).ref > 0 ∧ (s.inodes i).dev = dev ∧ (s.inodes i).inum = inum) :=
        hno i (Nat.le_refl _) (by omega)
      simp only [iget_loop]
      rw [if_neg hni]
      exact (ih.2 (fun k hk1 hk2 => hno k (by omega) (by omega))).2
        (fun k hk => hall k (by omega))

/-- C14: `iget(dev, inum)`.  If a slot of the cache is referenced (`ref > 0`) and holds
`(dev, inum)`, `iget` returns the first such slot with `ref` incremented by one, every other
field and every other slot being unchanged.  Otherwise it takes the lowest-indexed slot with
`ref == 0` and sets it to `(dev, inum)`, `ref` 1 and `valid` 0.  It ends in
`panic("iget: no inodes")`, its only failure, exactly when no slot matches and no slot has
`ref == 0`.  In no case is the disk read: disk, transfer history and buffers stay as they
are. -/
theorem iget_spec (c : Config) (s : State) (dev inum : Nat) :
    (∀ i, i < c.NINODE → slotHolds s dev inum i → (∀ k, k < i → ¬ slotHolds s dev inum k) →
      iget c s dev inum =
        .ok (s.setInode i { s.inodes i with ref := (s.inodes i).ref + 1 }, i)) ∧
    ((∀ k, k < c.NINODE → ¬ slotHolds s dev inum k) →
      ∀ j, j < c.NINODE → (s.inodes j).ref = 0 → (∀ k, k < j → (s.inodes k).ref ≠ 0) →
        iget c s dev inum =
          .ok (s.setInode j { s.inodes j with dev := dev, inum := inum, ref := 1, valid := 0 },
            j)) ∧
    (∀ e s', iget c s dev inum = .error (e, s') ↔
      (e = Err.iget_no_inodes ∧ s' = s ∧ (∀ k, k < c.NINODE → ¬ slotHolds s dev inum k) ∧
        ∀ k, k < c.NINODE → (s.inodes k).ref ≠ 0)) ∧
    (∀ s' ip, iget c s dev inum = .ok (s', ip) →
      s'.disk = s.disk ∧ s'.xfers = s.xfers ∧ s'.bufs = s.bufs) := by
  have key := iget_loop_spec c s dev inum c.NINODE 0 none (fun k hk => absurd hk (Nat.not_lt_zero k))
  simp only [Nat.zero_add, Nat.zero_le, true_implies] at key
  have hA : ∀ i, i < c.NINODE → slotHolds s dev inum i →
      (∀ k, k < i → ¬ slotHolds s dev inum k) → iget c s dev inum =
        .ok (s.setInode i { s.inodes i with ref := (s.inodes i).ref + 1 }, i) :=
    fun i hi hh hmin => key.1 i hi hh hmin
  have hB : (∀ k, k < c.NINODE → ¬ slotHolds s dev inum k) →
      ∀ j, j < c.NINODE → (s.inodes j).ref = 0 → (∀ k, k < j → (s.inodes k).ref ≠ 0) →
        iget c s dev inum =
          .ok (s.setInode j { s.inodes j with dev := dev, inum := inum, ref := 1, valid := 0 },
            j) :=
    fun hno j hj hj0 hjm => (key.2 hno).1 j hj hj0 hjm
  have hC : (∀ k, k < c.NINODE → ¬ slotHolds s dev inum k) →
      (∀ k, k < c.NINODE → (s.inodes k).ref ≠ 0) →
      iget c s dev inum = .error (Err.iget_no_inodes, s) := fun hno hall => (key.2 hno).2 hall
  -- the three cases cover every state
  have hcases : (∃ i, i < c.NINODE ∧ slotHolds s dev inum i ∧
        ∀ k, k < i → ¬ slotHolds s dev inum k) ∨
      ((∀ k, k < c.NINODE → ¬ slotHolds s dev inum k) ∧
        ((∃ j, j < c.NINODE ∧ (s.inodes j).ref = 0 ∧ ∀ k, k < j → (s.inodes k).ref ≠ 0) ∨
          ∀ k, k < c.NINODE → (s.inodes k).ref ≠ 0)) := by
    by_cases h1 : ∃ i, i < c.NINODE ∧ slotHolds s dev inum i
    · left
      refine ⟨Nat.find h1, (Nat.find_spec h1).1, (Nat.find_spec h1).2, fun k hk hh => ?_⟩
      exact Nat.find_min h1 hk ⟨Nat.lt_trans hk (Nat.find_spec h1).1, hh⟩
    · right
      refine ⟨fun k hk hh => h1 ⟨k, hk, hh⟩, ?_⟩
      by_cases h2 : ∃ j, j < c.NINODE ∧ (s.inodes j).ref = 0
      · left
        refine ⟨Nat.find h2, (Nat.find_spec h2).1, (Nat.find_spec h2).2, fun k hk h0 => ?_⟩
        exact Nat.find_min h2 hk ⟨Nat.lt_trans hk (Nat.find_spec h2).1, h0⟩
      · right
        exact fun k hk h0 => h2 ⟨k, hk, h0⟩
  refine ⟨hA, hB, fun e s' => ⟨fun herr => ?_, fun h => ?_⟩, fun s' ip hok => ?_⟩
  · rcases hcases with ⟨i, hi, hh, hmin⟩ | ⟨hno, ⟨j, hj, hj0, hjm⟩ | hall⟩
    · rw [hA i hi hh hmin] at herr; exact Except.noConfusion herr
    · rw [hB hno j hj hj0 hjm] at herr; exact Except.noConfusion herr
    · rw [hC hno hall] at herr
      simp only [Except.error.injEq, Prod.mk.injEq] at herr
      exact ⟨herr.1.symm, herr.2.symm, hno, hall⟩
  · obtain ⟨rfl, rfl, hno, hall⟩ := h
    exact hC hno hall
  · rcases hcases with ⟨i, hi, hh, hmin⟩ | ⟨hno, ⟨j, hj, hj0, hjm⟩ | hall⟩
    · rw [hA i hi hh hmin] at hok
      simp only [Except.ok.injEq, Prod.mk.injEq] at hok
      rw [← hok.1]
      exact ⟨rfl, rfl, rfl⟩
    · rw [hB hno j hj hj0 hjm] at hok
      simp only [Except.ok.injEq, Prod.mk.injEq] at hok
      rw [← hok.1]
      exact ⟨rfl, rfl, rfl⟩
    · rw [hC hno hall] at hok; exact Except.noConfusion hok

/-! ## The inode cache is left alone by the layers below -/

theorem endState_ok {α : Type} {r : Res α} {s : State} {a : α} (h : r = .ok (s, a)) :
    endState r = s := by rw [h]; rfl

theorem endState_error {α : Type} {r : Res α} {s : State} {e : Err} (h : r = .error (e, s)) :
    endState r = s := by rw [h]; rfl

theorem acquiresleep_inodes (s : State) (b : Nat) :
    (endState (acquiresleep s b)).inodes = s.inodes := by
  unfold acquiresleep
  split <;> rfl

theorem endState_pass {α : Type} (r : Res Unit) (a : α) :
    endState (match r with
      | .error e => (.error e : Res α)
      | .ok (s, _) => .ok (s, a)) = endState r := by
  rcases r with ⟨e, s⟩ | ⟨s, u⟩ <;> rfl

theorem bget_inodes (c : Config) (s : State) (dev n : Nat) :
    (endState (bget c s dev n)).inodes = s.inodes := by
  unfold bget
  cases bget_cached c s dev n (c.NBUF + 1) (s.next c.NBUF) with
  | found b =>
    simp only
    rw [endState_pass, acquiresleep_inodes]
    rfl
  | nofuel => rfl
  | notfound =>
    simp only
    cases bget_recycle c s (c.NBUF + 1) (s.prev c.NBUF) with
    | found b =>
      simp only
      rw [endState_pass, acquiresleep_inodes]
      rfl
    | nofuel => rfl
    | notfound => rfl

theorem bread_inodes (c : Config) (s : State) (dev n : Nat) :
    (endState (bread c s dev n)).inodes = s.inodes := by
  have hg := bget_inodes c s dev n
  unfold bread
  cases h : bget c s dev n with
  | error e => rw [h] at hg; exact hg
  | ok r =>
    obtain ⟨s1, b⟩ := r
    rw [h] at hg
    simp only
    split
    · split <;> exact hg
    · exact hg

theorem brelse_inodes_end (c : Config) (s : State) (b : Nat) :
    (endState (brelse c s b)).inodes = s.inodes := by
  simp only [brelse, holdingsleep, releasesleep]
  split
  · rfl
  · split <;> rfl

theorem log_write_inodes (s : State) (b : Nat) : (log_write s b).inodes = s.inodes := rfl

theorem InodesKept.of_eq {s s2 : State} (h : s2.inodes = s.inodes) (ip : Nat) :
    InodesKept s s2 ip := fun j => by rw [h]; exact ⟨rfl, rfl, rfl, rfl, rfl, fun _ => rfl⟩

theorem InodesKept.trans_kept {s s2 s3 : State} {ip : Nat} (h1 : InodesKept s s2 ip)
    (h2 : InodesKept s2 s3 ip) : InodesKept s s3 ip := fun j => by
  obtain ⟨a1, a2, a3, a4, a5, a6⟩ := h1 j
  obtain ⟨b1, b2, b3, b4, b5, b6⟩ := h2 j
  exact ⟨b1.trans a1, b2.trans a2, b3.trans a3, b4.trans a4, b5.trans a5,
    fun hj => (b6 hj).trans (a6 hj)⟩

theorem InodesKept.set_d (s : State) (ip : Nat) (x : Dinode) :
    InodesKept s (s.setInode ip { s.inodes ip with d := x }) ip := fun j => by
  by_cases hj : j = ip
  · subst hj
    rw [setInode_same]
    exact ⟨rfl, rfl, rfl, rfl, rfl, fun h => absurd rfl h⟩
  · have : (s.setInode ip { s.inodes ip with d := x }).inodes j = s.inodes j := by
      simp [State.setInode, Function.update_noteq hj]
    rw [this]
    exact ⟨rfl, rfl, rfl, rfl, rfl, fun _ => rfl⟩

theorem bfree_inodes (c : Config) (s : State) (dev b : Nat) :
    (endState (bfree c s dev b)).inodes = s.inodes := by
  have hb := bread_inodes c s dev (BBLOCK c b s.sb)
  unfold bfree
  cases h : bread c s dev (BBLOCK c b s.sb) with
  | error e => rw [h] at hb; exact hb
  | ok r =>
    obtain ⟨s1, bp⟩ := r
    rw [h] at hb
    simp only
    split
    · exact hb
    · rw [brelse_inodes_end]; exact hb

theorem iupdate_inodes (c : Config) (s : State) (ip : Nat) :
    (endState (iupdate c s ip)).inodes = s.inodes := by
  have hb := bread_inodes c s (s.inodes ip).dev (IBLOCK c (s.inodes ip).inum s.sb)
  unfold iupdate
  cases h : bread c s (s.inodes ip).dev (IBLOCK c (s.inodes ip).inum s.sb) with
  | error e => rw [h] at hb; exact hb
  | ok r =>
    obtain ⟨s1, bp⟩ := r
    rw [h] at hb
    simp only
    rw [brelse_inodes_end]; exact hb

theorem itrunc_direct_kept (c : Config) (ip : Nat) :
    ∀ (n i : Nat) (s : State), InodesKept s (endState (itrunc_direct c ip n i s)) ip
  | 0, i, s => InodesKept.of_eq rfl ip
  | n + 1, i, s => by
    simp only [itrunc_direct]
    split
    · have hb := bfree_inodes c s (s.inodes ip).dev ((s.inodes ip).d.addrs i)
      cases h : bfree c s (s.inodes ip).dev ((s.inodes ip).d.addrs i) with
      | error e => rw [h] at hb; exact InodesKept.of_eq hb ip
      | ok r =>
        obtain ⟨s1, u⟩ := r
        rw [h] at hb
        simp only
        exact ((InodesKept.of_eq hb ip).trans_kept (InodesKept.set_d s1 ip _)).trans_kept
          (itrunc_direct_kept c ip n (i + 1) _)
    · exact itrunc_direct_kept c ip n (i + 1) s

theorem itrunc_entries_inodes (c : Config) (ip bp : Nat) :
    ∀ (n j : Nat) (s : State), (endState (itrunc_entries c ip bp n j s)).inodes = s.inodes
  | 0, j, s => rfl
  | n + 1, j, s => by
    simp only [itrunc_entries]
    split
    · have hb := bfree_inodes c s (s.inodes ip).dev (get32 (s.bufs bp).data j)
      cases h : bfree c s (s.inodes ip).dev (get32 (s.bufs bp).data j) with
      | error e => rw [h] at hb; exact hb
      | ok r =>
        obtain ⟨s1, u⟩ := r
        rw [h] at hb
        simp only
        rw [itrunc_entries_inodes c ip bp n (j + 1) s1]; exact hb
    · exact itrunc_entries_inodes c ip bp n (j + 1) s

theorem itrunc_kept (c : Config) (s : State) (ip : Nat) :
    InodesKept s (endState (itrunc c s ip)) ip := by
  have h1 := itrunc_direct_kept c ip c.NDIRECT 0 s
  unfold itrunc
  cases hd : itrunc_direct c ip c.NDIRECT 0 s with
  | error e => rw [hd] at h1; exact h1
  | ok r =>
    obtain ⟨s1, u⟩ := r
    rw [hd] at h1
    simp only
    have hfin : ∀ s2 : State, InodesKept s s2 ip →
        InodesKept s (endState (iupdate c (s2.setInode ip { s2.inodes ip with
          d := { (s2.inodes ip).d with size := 0 } }) ip)) ip := fun s2 h2 =>
      (h2.trans_kept (InodesKept.set_d s2 ip _)).trans_kept
        (InodesKept.of_eq (iupdate_inodes c _ ip) ip)
    by_cases h0 : (s1.inodes ip).d.addrs c.NDIRECT ≠ 0
    · rw [if_pos h0]
      have hb := bread_inodes c s1 (s1.inodes ip).dev ((s1.inodes ip).d.addrs c.NDIRECT)
      cases hbr : bread c s1 (s1.inodes ip).dev ((s1.inodes ip).d.addrs c.NDIRECT) with
      | error e => rw [hbr] at hb; exact h1.trans_kept (InodesKept.of_eq hb ip)
      | ok r2 =>
        obtain ⟨s2, bp⟩ := r2
        rw [hbr] at hb
        simp only
        have he := itrunc_entries_inodes c ip bp (NINDIRECT c) 0 s2
        cases hen : itrunc_entries c ip bp (NINDIRECT c) 0 s2 with
        | error e => rw [hen] at he; exact h1.trans_kept (InodesKept.of_eq (he.trans hb) ip)
        | ok r3 =>
          obtain ⟨s3, u3⟩ := r3
          rw [hen] at he
          simp only
          have hr := brelse_inodes_end c s3 bp
          cases hrel : brelse c s3 bp with
          | error e =>
            rw [hrel] at hr
            exact h1.trans_kept (InodesKept.of_eq ((hr.trans he).trans hb) ip)
          | ok r4 =>
            obtain ⟨s4, u4⟩ := r4
            rw [hrel] at hr
            simp only
            have hf := bfree_inodes c s4 (s4.inodes ip).dev ((s4.inodes ip).d.addrs c.NDIRECT)
            have h4 : s4.inodes = s1.inodes := (hr.trans he).trans hb
            cases hbf : bfree c s4 (s4.inodes ip).dev ((s4.inodes ip).d.addrs c.NDIRECT) with
            | error e =>
              rw [hbf] at hf
              exact h1.trans_kept (InodesKept.of_eq (hf.trans h4) ip)
            | ok r5 =>
              obtain ⟨s5, u5⟩ := r5
              rw [hbf] at hf
              simp only
              exact hfin _ ((h1.trans_kept (InodesKept.of_eq (hf.trans h4) ip)).trans_kept
                (InodesKept.set_d s5 ip _))
    · rw [if_neg h0]
      exact hfin s1 h1

/-! ## Reference counts along a run -/

theorem iget_cases {c : Config} {s : State} {dev inum : Nat} :
    (∀ s2 ip, iget c s dev inum = .ok (s2, ip) →
      ((0 < (s.inodes ip).ref ∧
          s2 = s.setInode ip { s.inodes ip with ref := (s.inodes ip).ref + 1 }) ∨
        ((s.inodes ip).ref = 0 ∧
          s2 = s.setInode ip
            { s.inodes ip with dev := dev, inum := inum, ref := 1, valid := 0 }))) ∧
    (∀ e s2, iget c s dev inum = .error (e, s2) → s2 = s) := by
  have key := iget_loop_spec c s dev inum c.NINODE 0 none
    (fun k hk => absurd hk (Nat.not_lt_zero k))
  simp only [Nat.zero_add, Nat.zero_le, true_implies] at key
  have hcases : (∃ i, i < c.NINODE ∧ slotHolds s dev inum i ∧
        ∀ k, k < i → ¬ slotHolds s dev inum k) ∨
      ((∀ k, k < c.NINODE → ¬ slotHolds s dev inum k) ∧
        ((∃ j, j < c.NINODE ∧ (s.inodes j).ref = 0 ∧ ∀ k, k < j → (s.inodes k).ref ≠ 0) ∨
          ∀ k, k < c.NINODE → (s.inodes k).ref ≠ 0)) := by
    by_cases h1 : ∃ i, i < c.NINODE ∧ slotHolds s dev inum i
    · left
      refine ⟨Nat.find h1, (Nat.find_spec h1).1, (Nat.find_spec h1).2, fun k hk hh => ?_⟩
      exact Nat.find_min h1 hk ⟨Nat.lt_trans hk (Nat.find_spec h1).1, hh⟩
    · right
      refine ⟨fun k hk hh => h1 ⟨k, hk, hh⟩, ?_⟩
      by_cases h2 : ∃ j, j < c.NINODE ∧ (s.inodes j).ref = 0
      · left
        refine ⟨Nat.find h2, (Nat.find_spec h2).1, (Nat.find_spec h2).2, fun k hk h0 => ?_⟩
        exact Nat.find_min h2 hk ⟨Nat.lt_trans hk (Nat.find_spec h2).1, h0⟩
      · right
        exact fun k hk h0 => h2 ⟨k, hk, h0⟩
  have hval : iget c s dev inum = iget_loop c s dev inum c.NINODE 0 none := rfl
  rcases hcases with ⟨i, hi, hh, hmin⟩ | ⟨hno, ⟨j, hj, hj0, hjm⟩ | hall⟩
  · rw [hval, key.1 i hi hh hmin]
    refine ⟨fun s2 ip h => ?_, fun e s2 h => Except.noConfusion h⟩
    simp only [Except.ok.injEq, Prod.mk.injEq] at h
    obtain ⟨rfl, rfl⟩ := h
    exact Or.inl ⟨hh.1, rfl⟩
  · rw [hval, (key.2 hno).1 j hj hj0 hjm]
    refine ⟨fun s2 ip h => ?_, fun e s2 h => Except.noConfusion h⟩
    simp only [Except.ok.injEq, Prod.mk.injEq] at h
    obtain ⟨rfl, rfl⟩ := h
    exact Or.inr ⟨hj0, rfl⟩
  · rw [hval, (key.2 hno).2 hall]
    refine ⟨fun s2 ip h => Except.noConfusion h, fun e s2 h => ?_⟩
    simp only [Except.error.injEq, Prod.mk.injEq] at h
    exact h.2.symm

theorem setInode_other (s : State) (ip : Nat) (x : Inode) {j : Nat} (h : j ≠ ip) :
    (s.setInode ip x).inodes j = s.inodes j := by
  simp [State.setInode, Function.update_noteq h]

/-- What `ilock` does to the inode cache, however it ends: no `ref` changes and no other
slot changes; when it returns, the slot is valid. -/
theorem ilock_kept (c : Config) (s : State) (ip : Nat) :
    (∀ j, ((endState (ilock c s ip)).inodes j).ref = (s.inodes j).ref) ∧
    (∀ j, j ≠ ip → (endState (ilock c s ip)).inodes j = s.inodes j) ∧
    (∀ s2 u, ilock c s ip = .ok (s2, u) → (s2.inodes ip).valid ≠ 0) := by
  unfold ilock
  by_cases h1 : (s.inodes ip).ref < 1
  · rw [if_pos h1]
    exact ⟨fun _ => rfl, fun _ _ => rfl, fun s2 u h => Except.noConfusion h⟩
  rw [if_neg h1]
  by_cases h2 : (s.inodes ip).locked = true
  · rw [if_pos h2]
    exact ⟨fun _ => rfl, fun _ _ => rfl, fun s2 u h => Except.noConfusion h⟩
  rw [if_neg h2]
  obtain ⟨sA, hsA⟩ : ∃ sA, sA = s.setInode ip { s.inodes ip with locked := true } := ⟨_, rfl⟩
  simp only [← hsA]
  have hA1 : ∀ j, (sA.inodes j).ref = (s.inodes j).ref := fun j => by
    rw [hsA]
    by_cases hj : j = ip
    · subst hj; rw [setInode_same]
    · rw [setInode_other _ _ _ hj]
  have hA2 : ∀ j, j ≠ ip → sA.inodes j = s.inodes j := fun j hj => by
    rw [hsA]; exact setInode_other _ _ _ hj
  have hAv : (sA.inodes ip).valid = (s.inodes ip).valid := by rw [hsA, setInode_same]
  by_cases hv : (sA.inodes ip).valid = 0
  · rw [if_pos hv]
    have hb := bread_inodes c sA (sA.inodes ip).dev (IBLOCK c (sA.inodes ip).inum sA.sb)
    cases hbr : bread c sA (sA.inodes ip).dev (IBLOCK c (sA.inodes ip).inum sA.sb) with
    | error e =>
      rw [hbr] at hb
      refine ⟨fun j => ?_, fun j hj => ?_, fun s2 u h => Except.noConfusion h⟩
      · show ((endState (Except.error e : Res Nat)).inodes j).ref = _
        rw [hb]; exact hA1 j
      · show (endState (Except.error e : Res Nat)).inodes j = _
        rw [hb]; exact hA2 j hj
    | ok r =>
      obtain ⟨s1, bp⟩ := r
      rw [hbr] at hb
      have hb1 : s1.inodes = sA.inodes := hb
      simp only
      obtain ⟨sB, hsB⟩ : ∃ sB, sB = s1.setInode ip { s1.inodes ip with
          d := c.dinodeGet ((s1.inodes ip).inum % c.IPB) (s1.bufs bp).data } := ⟨_, rfl⟩
      rw [← hsB]
      have hB1 : ∀ j, (sB.inodes j).ref = (s.inodes j).ref := fun j => by
        rw [hsB]
        by_cases hj : j = ip
        · subst hj; rw [setInode_same]; show (s1.inodes j).ref = _; rw [hb1]; exact hA1 j
        · rw [setInode_other _ _ _ hj, hb1]; exact hA1 j
      have hB2 : ∀ j, j ≠ ip → sB.inodes j = s.inodes j := fun j hj => by
        rw [hsB, setInode_other _ _ _ hj, hb1]; exact hA2 j hj
      have hr := brelse_inodes_end c sB bp
      cases hrel : brelse c sB bp with
      | error e =>
        rw [hrel] at hr
        refine ⟨fun j => ?_, fun j hj => ?_, fun s2 u h => Except.noConfusion h⟩
        · show ((endState (Except.error e : Res Unit)).inodes j).ref = _
          rw [hr]; exact hB1 j
        · show (endState (Except.error e : Res Unit)).inodes j = _
          rw [hr]; exact hB2 j hj
      | ok r2 =>
        obtain ⟨s3, u3⟩ := r2
        rw [hrel] at hr
        have hr3 : s3.inodes = sB.inodes := hr
        simp only
        obtain ⟨sC, hsC⟩ : ∃ sC, sC = s3.setInode ip { s3.inodes ip with valid := 1 } :=
          ⟨_, rfl⟩
        rw [← hsC]
        have hC1 : ∀ j, (sC.inodes j).ref = (s.inodes j).ref := fun j => by
          rw [hsC]
          by_cases hj : j = ip
          · subst hj; rw [setInode_same]; show (s3.inodes j).ref = _; rw [hr3]; exact hB1 j
          · rw [setInode_other _ _ _ hj, hr3]; exact hB1 j
        have hC2 : ∀ j, j ≠ ip → sC.inodes j = s.inodes j := fun j hj => by
          rw [hsC, setInode_other _ _ _ hj, hr3]; exact hB2 j hj
        have hCv : (sC.inodes ip).valid ≠ 0 := by
          rw [hsC, setInode_same]; exact Nat.one_ne_zero
        split
        · exact ⟨hC1, hC2, fun s2 u h => Except.noConfusion h⟩
        · refine ⟨hC1, hC2, fun s2 u h => ?_⟩
          simp only [Except.ok.injEq, Prod.mk.injEq] at h
          rw [← h.1]; exact hCv
  · rw [if_neg hv]
    refine ⟨hA1, hA2, fun s2 u h => ?_⟩
    simp only [Except.ok.injEq, Prod.mk.injEq] at h
    rw [← h.1]; exact hv

/-- What `iput` does to the inode cache, however it ends: no other slot changes; at a panic
the `ref` of the slot is as before; when `iput` returns, `ref` is one less, and `valid` is as
before unless the inode was freed. -/
theorem iput_kept (c : Config) (s : State) (ip : Nat) :
    (∀ j, j ≠ ip → (endState (iput c s ip)).inodes j = s.inodes j) ∧
    (∀ e s2, iput c s ip = .error (e, s2) → (s2.inodes ip).ref = (s.inodes ip).ref) ∧
    (∀ s2 u, iput c s ip = .ok (s2, u) →
      (s2.inodes ip).ref = (s.inodes ip).ref - 1 ∧
      (¬ ((s.inodes ip).ref = 1 ∧ (s.inodes ip).valid ≠ 0 ∧ (s.inodes ip).d.nlink = 0) →
        s2 = s.setInode ip { s.inodes ip with ref := (s.inodes ip).ref - 1 })) := by
  unfold iput
  by_cases hfree : (s.inodes ip).ref = 1 ∧ (s.inodes ip).valid ≠ 0 ∧ (s.inodes ip).d.nlink = 0
  · rw [if_pos hfree]
    by_cases hl : (s.inodes ip).locked = true
    · rw [if_pos hl]
      exact ⟨fun _ _ => rfl, fun e s2 h => by
        simp only [Except.error.injEq, Prod.mk.injEq] at h; rw [← h.2],
        fun s2 u h => Except.noConfusion h⟩
    rw [if_neg hl]
    obtain ⟨sA, hsA⟩ : ∃ sA, sA = s.setInode ip { s.inodes ip with locked := true } := ⟨_, rfl⟩
    simp only [← hsA]
    have hA : ∀ j, (sA.inodes j).ref = (s.inodes j).ref ∧ (j ≠ ip → sA.inodes j = s.inodes j) :=
      fun j => by
        rw [hsA]
        by_cases hj : j = ip
        · subst hj; rw [setInode_same]; exact ⟨rfl, fun h => absurd rfl h⟩
        · rw [setInode_other _ _ _ hj]; exact ⟨rfl, fun _ => rfl⟩
    have ht := itrunc_kept c sA ip
    cases htr : itrunc c sA ip with
    | error e =>
      rw [htr] at ht
      obtain ⟨e1, s1⟩ := e
      refine ⟨fun j hj => ?_, fun e s2 h => ?_, fun s2 u h => Except.noConfusion h⟩
      · exact ((ht j).2.2.2.2.2 hj).trans ((hA j).2 hj)
      · simp only [Except.error.injEq, Prod.mk.injEq] at h
        rw [← h.2]
        exact (ht ip).1.trans (hA ip).1
    | ok r =>
      obtain ⟨s1, u1⟩ := r
      rw [htr] at ht
      have ht1 : InodesKept sA s1 ip := ht
      simp only
      obtain ⟨sB, hsB⟩ : ∃ sB, sB = s1.setInode ip { s1.inodes ip with
          d := { (s1.inodes ip).d with type := 0 } } := ⟨_, rfl⟩
      rw [← hsB]
      have hB : InodesKept sA sB ip := by
        rw [hsB]; exact ht1.trans_kept (InodesKept.set_d s1 ip _)
      have hu := iupdate_inodes c sB ip
      cases hiu : iupdate c sB ip with
      | error e =>
        rw [hiu] at hu
        obtain ⟨e1, s2⟩ := e
        have hu2 : s2.inodes = sB.inodes := hu
        refine ⟨fun j hj => ?_, fun e s3 h => ?_, fun s3 u h => Except.noConfusion h⟩
        · show s2.inodes j = _
          rw [hu2]
          exact ((hB j).2.2.2.2.2 hj).trans ((hA j).2 hj)
        · simp only [Except.error.injEq, Prod.mk.injEq] at h
          rw [← h.2, hu2]
          exact (hB ip).1.trans (hA ip).1
      | ok r2 =>
        obtain ⟨s2, u2⟩ := r2
        rw [hiu] at hu
        have hu2 : s2.inodes = sB.inodes := hu
        simp only
        refine ⟨fun j hj => ?_, fun e s3 h => Except.noConfusion h, fun s3 u h => ?_⟩
        · show (State.setInode _ ip _).inodes j = _
          rw [setInode_other _ _ _ hj, setInode_other _ _ _ hj, setInode_other _ _ _ hj, hu2]
          exact ((hB j).2.2.2.2.2 hj).trans ((hA j).2 hj)
        · simp only [Except.ok.injEq, Prod.mk.injEq] at h
          refine ⟨?_, fun hn => absurd hfree hn⟩
          rw [← h.1, setInode_same]
          show ((State.setInode _ ip _).inodes ip).ref - 1 = _
          rw [setInode_same]
          show ((State.setInode s2 ip _).inodes ip).ref - 1 = _
          rw [setInode_same]
          show (s2.inodes ip).ref - 1 = _
          rw [hu2, (hB ip).1, (hA ip).1]
  · rw [if_neg hfree]
    refine ⟨fun j hj => ?_, fun e s2 h => Except.noConfusion h, fun s2 u h => ?_⟩
    · show (State.setInode s ip _).inodes j = _
      exact setInode_other _ _ _ hj
    · simp only [Except.ok.injEq, Prod.mk.injEq] at h
      refine ⟨?_, fun _ => h.1.symm⟩
      rw [← h.1, setInode_same]

theorem idup_inodes (s : State) (ip j : Nat) :
    ((idup s ip).inodes j).ref = (if j = ip then (s.inodes j).ref + 1 else (s.inodes j).ref) ∧
    ((idup s ip).inodes j).valid = (s.inodes j).valid := by
  unfold idup
  by_cases hj : j = ip
  · subst hj; rw [setInode_same, if_pos rfl]; exact ⟨rfl, rfl⟩
  · rw [setInode_other _ _ _ hj, if_neg hj]; exact ⟨rfl, rfl⟩

theorem iunlock_inodes (s : State) (ip j : Nat) :
    ((endState (iunlock s ip)).inodes j).ref = (s.inodes j).ref ∧
    ((endState (iunlock s ip)).inodes j).valid = (s.inodes j).valid := by
  unfold iunlock
  split
  · exact ⟨rfl, rfl⟩
  · show ((State.setInode s ip _).inodes j).ref = _ ∧ ((State.setInode s ip _).inodes j).valid = _
    by_cases hj : j = ip
    · subst hj; rw [setInode_same]; exact ⟨rfl, rfl⟩
    · rw [setInode_other _ _ _ hj]; exact ⟨rfl, rfl⟩

/-- One call keeps every `ref` nonnegative, an `iput` being applied to a referenced slot. -/
theorem inodeStep_refs (c : Config) (s : State) (op : InodeOp)
    (h : ∀ i, 0 ≤ (s.inodes i).ref)
    (hp : (match op with
      | .iput ip => decide (1 ≤ (s.inodes ip).ref)
      | _ => true) = true) :
    ∀ i, 0 ≤ ((endState (inodeStep c s op)).inodes i).ref := by
  intro i
  cases op with
  | iget dev inum =>
    simp only [inodeStep]
    cases hg : iget c s dev inum with
    | error e =>
      obtain ⟨e1, s2⟩ := e
      rw [iget_cases.2 e1 s2 hg]
      exact h i
    | ok r =>
      obtain ⟨s2, ip⟩ := r
      show 0 ≤ (s2.inodes i).ref
      rcases iget_cases.1 s2 ip hg with ⟨h0, rfl⟩ | ⟨h0, rfl⟩
      · by_cases hi : i = ip
        · subst hi; rw [setInode_same]; show 0 ≤ (s.inodes i).ref + 1; omega
        · rw [setInode_other _ _ _ hi]; exact h i
      · by_cases hi : i = ip
        · subst hi; rw [setInode_same]; show (0 : Int) ≤ 1; omega
        · rw [setInode_other _ _ _ hi]; exact h i
  | idup ip =>
    show 0 ≤ ((idup s ip).inodes i).ref
    rw [(idup_inodes s ip i).1]
    have := h i
    split <;> omega
  | ilock ip =>
    show 0 ≤ ((endState (ilock c s ip)).inodes i).ref
    rw [(ilock_kept c s ip).1 i]; exact h i
  | iunlock ip =>
    show 0 ≤ ((endState (iunlock s ip)).inodes i).ref
    rw [(iunlock_inodes s ip i).1]; exact h i
  | iput ip =>
    have hp1 : 1 ≤ (s.inodes ip).ref := by simpa using hp
    show 0 ≤ ((endState (iput c s ip)).inodes i).ref
    obtain ⟨k1, k2, k3⟩ := iput_kept c s ip
    by_cases hi : i = ip
    · subst hi
      cases hr : iput c s i with
      | error e =>
        obtain ⟨e1, s2⟩ := e
        show 0 ≤ (s2.inodes i).ref
        rw [k2 e1 s2 hr]; exact h i
      | ok r =>
        obtain ⟨s2, u⟩ := r
        show 0 ≤ (s2.inodes i).ref
        rw [(k3 s2 u hr).1]; omega
    · rw [k1 i hi]; exact h i

theorem inodeRun_refs (c : Config) :
    ∀ (ops : List InodeOp) (s : State), (∀ i, 0 ≤ (s.inodes i).ref) →
      PutsHeld c ops s = true → ∀ i, 0 ≤ ((inodeRun c ops s).inodes i).ref
  | [], s, h, _ => h
  | op :: ops, s, h, hp => by
    simp only [PutsHeld, Bool.and_eq_true] at hp
    have hstep := inodeStep_refs c s op h hp.1
    simp only [inodeRun]
    cases hr : inodeStep c s op with
    | error e =>
      obtain ⟨e1, s2⟩ := e
      rw [hr] at hstep
      exact hstep
    | ok r =>
      obtain ⟨s2, u⟩ := r
      rw [hr] at hstep hp
      exact inodeRun_refs c ops s2 hstep hp.2

/-- C11 as stated fails: `iput` has no check of the count.  From the empty cache, `iget(1, 1)`
followed by two calls of `iput` on its slot leaves the `ref` of the slot at -1. -/
theorem ref_negative_counterexample :
    (∀ i, (ic0.inodes i).ref = 0) ∧
      ((inodeRun cfg0 [InodeOp.iget 1 1, InodeOp.iput 0, InodeOp.iput 0] ic0).inodes 0).ref
        = -1 :=
  ⟨fun i => by rw [show ic0.inodes i = Inode.zero from rfl]; rfl, by decide⟩

/-- C11, amended: for every sequence of `iget`, `idup`, `ilock`, `iunlock` and `iput` calls
starting from an empty inode cache, in which `iput` is only applied to a slot that is
referenced at that moment, the reference count of every cache slot is never negative: it is
nonnegative in the state after the sequence, also when the sequence ends in a panic. -/
theorem ref_nonneg (c : Config) (s0 : State) (ops : List InodeOp)
    (h0 : ∀ i, (s0.inodes i).ref = 0) (hp : PutsHeld c ops s0 = true) :
    ∀ i, 0 ≤ ((inodeRun c ops s0).inodes i).ref :=
  inodeRun_refs c ops s0 (fun i => by rw [h0 i]) hp

/-- Worked example for C11: two references taken and given back. -/
theorem ref_nonneg_witness :
    ((∀ i, (ic0.inodes i).ref = 0) ∧
      PutsHeld cfg0 [InodeOp.iget 1 1, InodeOp.idup 0, InodeOp.iput 0, InodeOp.iput 0] ic0
        = true) ∧
    ∀ i, 0 ≤ ((inodeRun cfg0 [InodeOp.iget 1 1, InodeOp.idup 0, InodeOp.iput 0,
      InodeOp.iput 0] ic0).inodes i).ref :=
  ⟨⟨fun i => by rw [show ic0.inodes i = Inode.zero from rfl]; rfl, by decide⟩,
    ref_nonneg cfg0 ic0 [InodeOp.iget 1 1, InodeOp.idup 0, InodeOp.iput 0, InodeOp.iput 0]
      (fun i => by rw [show ic0.inodes i = Inode.zero from rfl]; rfl) (by decide)⟩

/-! ## Reads of the on-disk inode along a run -/

/-- The counters are in order: no slot has more than one read in its period of reference, and
a referenced slot that is not valid has none. -/
theorem countStep_inv (c : Config) (w : Counted) (op : InodeOp)
    (hJ : ∀ i, w.loads i ≤ 1 ∧
      (1 ≤ (w.st.inodes i).ref → (w.st.inodes i).valid = 0 → w.loads i = 0)) :
    (∀ i, (countStep c w op).loads i ≤ 1) ∧
    ((∃ r, inodeStep c w.st op = .ok r) →
      ∀ i, 1 ≤ ((countStep c w op).st.inodes i).ref →
        ((countStep c w op).st.inodes i).valid = 0 → (countStep c w op).loads i = 0) := by
  cases op with
  | iget dev inum =>
    simp only [countStep, inodeStep]
    cases hg : iget c w.st dev inum with
    | error e =>
      obtain ⟨e1, s2⟩ := e
      have hs : s2 = w.st := iget_cases.2 e1 s2 hg
      subst hs
      refine ⟨fun i => ?_, fun ⟨r, hr⟩ => Except.noConfusion hr⟩
      show (if _ then 0 else w.loads i) ≤ 1
      split
      · omega
      · exact (hJ i).1
    | ok r =>
      obtain ⟨s2, ip⟩ := r
      refine ⟨fun i => ?_, fun _ i => ?_⟩
      · show (if _ then 0 else w.loads i) ≤ 1
        split
        · omega
        · exact (hJ i).1
      · show 1 ≤ (s2.inodes i).ref → (s2.inodes i).valid = 0 →
          (if (w.st.inodes i).ref = 0 ∧ 0 < (s2.inodes i).ref then 0 else w.loads i) = 0
        intro h1 h2
        by_cases hq : (w.st.inodes i).ref = 0 ∧ 0 < (s2.inodes i).ref
        · rw [if_pos hq]
        · rw [if_neg hq]
          rcases iget_cases.1 s2 ip hg with ⟨h0, rfl⟩ | ⟨h0, rfl⟩
          · by_cases hi : i = ip
            · subst hi
              rw [setInode_same] at h2
              exact (hJ i).2 (by omega) h2
            · rw [setInode_other _ _ _ hi] at h1 h2
              exact (hJ i).2 h1 h2
          · by_cases hi : i = ip
            · subst hi
              exact absurd ⟨h0, by omega⟩ hq
            · rw [setInode_other _ _ _ hi] at h1 h2
              exact (hJ i).2 h1 h2
  | idup ip =>
    simp only [countStep, inodeStep]
    refine ⟨fun i => ?_, fun _ i => ?_⟩
    · show (if _ then 0 else w.loads i) ≤ 1
      split
      · omega
      · exact (hJ i).1
    · show 1 ≤ ((idup w.st ip).inodes i).ref → ((idup w.st ip).inodes i).valid = 0 →
        (if (w.st.inodes i).ref = 0 ∧ 0 < ((idup w.st ip).inodes i).ref then 0
          else w.loads i) = 0
      intro h1 h2
      by_cases hq : (w.st.inodes i).ref = 0 ∧ 0 < ((idup w.st ip).inodes i).ref
      · rw [if_pos hq]
      · rw [if_neg hq]
        rw [(idup_inodes w.st ip i).2] at h2
        rw [(idup_inodes w.st ip i).1] at h1 hq
        by_cases hi : i = ip
        · rw [if_pos hi] at h1 hq
          have hr : 1 ≤ (w.st.inodes i).ref := by
            by_contra hlt
            apply hq
            constructor <;> omega
          exact (hJ i).2 hr h2
        · rw [if_neg hi] at h1
          exact (hJ i).2 h1 h2
  | ilock ip =>
    obtain ⟨k1, k2, k3⟩ := ilock_kept c w.st ip
    simp only [countStep, inodeStep]
    have hnorise : ∀ i, ¬ ((w.st.inodes i).ref = 0 ∧
        0 < ((endState (ilock c w.st ip)).inodes i).ref) := fun i hq => by
      rw [k1 i] at hq; omega
    have hloads : ∀ i, (if ilockLoads w.st ip = true then
        Function.update w.loads ip (w.loads ip + 1) else w.loads) i ≤ 1 := by
      intro i
      by_cases hl : ilockLoads w.st ip = true
      · rw [if_pos hl]
        simp only [ilockLoads, Bool.and_eq_true, decide_eq_true_eq] at hl
        by_cases hi : i = ip
        · subst hi
          rw [Function.update_same, (hJ i).2 hl.1.1 hl.2]
        · rw [Function.update_noteq hi]; exact (hJ i).1
      · rw [if_neg hl]; exact (hJ i).1
    refine ⟨fun i => ?_, fun ⟨r, hr⟩ i => ?_⟩
    · show (if _ then 0 else _) ≤ 1
      rw [if_neg (hnorise i)]
      exact hloads i
    · obtain ⟨s2, u⟩ := r
      show 1 ≤ ((endState (ilock c w.st ip)).inodes i).ref →
        ((endState (ilock c w.st ip)).inodes i).valid = 0 → (if _ then 0 else _) = 0
      rw [if_neg (hnorise i)]
      intro h1 h2
      by_cases hi : i = ip
      · subst hi
        rw [endState_ok hr] at h2
        exact absurd h2 (k3 s2 u hr)
      · rw [k2 i hi] at h1 h2
        by_cases hl : ilockLoads w.st ip = true
        · rw [if_pos hl, Function.update_noteq hi]; exact (hJ i).2 h1 h2
        · rw [if_neg hl]; exact (hJ i).2 h1 h2
  | iunlock ip =>
    simp only [countStep, inodeStep]
    refine ⟨fun i => ?_, fun _ i => ?_⟩
    · show (if _ then 0 else w.loads i) ≤ 1
      split
      · omega
      · exact (hJ i).1
    · show 1 ≤ ((endState (iunlock w.st ip)).inodes i).ref →
        ((endState (iunlock w.st ip)).inodes i).valid = 0 → (if _ then 0 else w.loads i) = 0
      rw [(iunlock_inodes w.st ip i).1, (iunlock_inodes w.st ip i).2]
      intro h1 h2
      rw [if_neg (by omega)]
      exact (hJ i).2 h1 h2
  | iput ip =>
    obtain ⟨k1, k2, k3⟩ := iput_kept c w.st ip
    simp only [countStep, inodeStep]
    refine ⟨fun i => ?_, fun ⟨r, hr⟩ i => ?_⟩
    · show (if _ then 0 else w.loads i) ≤ 1
      split
      · omega
      · exact (hJ i).1
    · obtain ⟨s2, u⟩ := r
      show 1 ≤ ((endState (iput c w.st ip)).inodes i).ref →
        ((endState (iput c w.st ip)).inodes i).valid = 0 → (if _ then 0 else w.loads i) = 0
      by_cases hi : i = ip
      · subst hi
        rw [endState_ok hr, (k3 s2 u hr).1]
        intro h1 h2
        rw [if_neg (by omega)]
        have hnf : ¬ ((w.st.inodes i).ref = 1 ∧ (w.st.inodes i).valid ≠ 0 ∧
            (w.st.inodes i).d.nlink = 0) := fun hf => by omega
        rw [(k3 s2 u hr).2 hnf, setInode_same] at h2
        exact (hJ i).2 (by omega) h2
      · rw [k1 i hi]
        intro h1 h2
        rw [if_neg (by omega)]
        exact (hJ i).2 h1 h2

theorem countRun_inv (c : Config) :
    ∀ (ops : List InodeOp) (w : Counted),
      (∀ i, w.loads i ≤ 1 ∧
        (1 ≤ (w.st.inodes i).ref → (w.st.inodes i).valid = 0 → w.loads i = 0)) →
      ∀ i, (countRun c ops w).loads i ≤ 1
  | [], w, hJ => fun i => (hJ i).1
  | op :: ops, w, hJ => by
    obtain ⟨h1, h2⟩ := countStep_inv c w op hJ
    simp only [countRun]
    cases hr : inodeStep c w.st op with
    | error e => exact h1
    | ok r =>
      exact countRun_inv c ops _ (fun i => ⟨h1 i, h2 ⟨r, hr⟩ i⟩)

/-- A run in which the on-disk record is read: after `iget(1, 4)` the first `ilock` of the
slot reads the record, the second does not. -/
theorem countRun_example :
    (countRun cfg0 [InodeOp.iget 1 4, InodeOp.ilock 0, InodeOp.iunlock 0, InodeOp.ilock 0]
      ⟨ic0, fun _ => 0⟩).loads 0 = 1 := by decide

/-- C12: for every sequence of `iget`, `idup`, `ilock`, `iunlock` and `iput` calls, from any
state of the inode cache, between the moment the reference count of a slot rises from 0 and
the moment it returns to 0 `ilock` reads the on-disk inode record at most once: the number of
reading `ilock` calls counted for a slot since its `ref` last rose from 0 never exceeds 1. -/
theorem ilock_loads_once (c : Config) (s0 : State) (ops : List InodeOp) (i : Nat) :
    (countRun c ops ⟨s0, fun _ => 0⟩).loads i ≤ 1 :=
  countRun_inv c ops ⟨s0, fun _ => 0⟩ (fun _ => ⟨Nat.zero_le _, fun _ _ => rfl⟩) i

/-! ## bmap allocates on first use -/

/-- The block `balloc` returns was free, and no other bit of the free map changes. -/
theorem balloc_was_free {c : Config} {s s' : State} {dev b k : Nat}
    (hc : Coherent c s dev (k + 3)) (hg : Geometry c s) (hnf : NoFault s)
    (hm : MapInUse c s dev) (hr : balloc c s dev = .ok (s', b)) :
    b < s.sb.size ∧ bmBit c s dev b = false ∧ bmBit c s' dev b = true ∧
      ∀ x, x < s.sb.size → x ≠ b → bmBit c s' dev x = bmBit c s dev x := by
  obtain ⟨h1, h2, -, -, henv, -, -, -, hview⟩ :=
    (balloc_loop_view c dev k (s.sb.size + 1) 0 s hc hg hnf (Nat.dvd_zero _)
      (fun x hx _ => absurd hx (Nat.not_lt_zero x))).1 s' b hr
  obtain ⟨hb1, hb2⟩ := balloc_bits hg hm h1 h2 henv.2.1 hview
  exact ⟨h1, h2, hb1, hb2⟩

theorem FileOK.mapInUse {c : Config} {s : State} {ip : Nat} (hf : FileOK c s ip) :
    MapInUse c s (s.inodes ip).dev := fun x hx => (hf.1 _ (Or.inl ⟨x, hx, rfl⟩)).2

/-- The block `bmap_target` allocates for an empty entry was free. -/
theorem bmap_target_fresh {c : Config} {s s' : State} {ip j a k : Nat}
    (hc : Coherent c s (s.inodes ip).dev (k + 4)) (hg : Geometry c s) (hnf : NoFault s)
    (hf : FileOK c s ip) (h0 : (s.inodes ip).d.addrs c.NDIRECT ≠ 0)
    (hz : fileBlock c s ip (c.NDIRECT + j) = 0)
    (hr : bmap_target c s ip j ((s.inodes ip).d.addrs c.NDIRECT) = .ok (s', a)) :
    a < s.sb.size ∧ bmBit c s (s.inodes ip).dev a = false := by
  have hown : Owned c s ip ((s.inodes ip).d.addrs c.NDIRECT) := ⟨h0, Or.inl rfl⟩
  obtain ⟨hlt, -, hnm⟩ := hf.2.1 _ hown
  have hf0 : forced s ((s.inodes ip).d.addrs c.NDIRECT) = false := hnf _ hlt
  unfold bmap_target at hr
  cases hbr : bread c s (s.inodes ip).dev ((s.inodes ip).d.addrs c.NDIRECT) with
  | error e => simp [hbr] at hr
  | ok r =>
    obtain ⟨s1, bp⟩ := r
    simp only [hbr] at hr
    obtain ⟨-, -, -, henv1, hino1, -, -, -, -, -, -, -, -, -⟩ := bread_shape hc.1 hbr
    obtain ⟨hc1, hdata, hview1⟩ := bread_view (k := k + 3) hc hf0 hbr
    have ht : get32 (s1.bufs bp).data j = 0 := by
      rw [hdata, ← fileBlock_indirect h0]; exact hz
    rw [hino1, if_pos ht] at hr
    obtain ⟨hf1, -⟩ := hf.same_view henv1.2.1 hino1 hview1
    have hino1p : (s1.inodes ip).dev = (s.inodes ip).dev := by rw [hino1]
    cases hb : balloc c s1 (s.inodes ip).dev with
    | error e => simp [hb] at hr
    | ok r2 =>
      obtain ⟨s2, b⟩ := r2
      simp only [hb] at hr
      by_cases hb0 : b = 0
      · simp [hb0] at hr
      · rw [if_neg hb0] at hr
        have hm1 : MapInUse c s1 (s.inodes ip).dev := by
          have := hf1.mapInUse
          rw [hino1p] at this
          exact this
        obtain ⟨w1, w2, -, -⟩ := balloc_was_free (k := k) hc1 (geometry_env hg henv1)
          (noFault_env hnf henv1) hm1 hb
        cases hrel : brelse c (log_write (s2.setBuf bp { s2.bufs bp with
            data := put32 (s2.bufs bp).data j b }) bp) bp with
        | error e => simp [hrel] at hr
        | ok r3 =>
          obtain ⟨s3, u⟩ := r3
          simp only [hrel, Except.ok.injEq, Prod.mk.injEq] at hr
          obtain ⟨-, rfl⟩ := hr
          rw [henv1.2.1] at w1
          refine ⟨w1, ?_⟩
          unfold bmBit at w2 ⊢
          rw [henv1.2.1, hview1] at w2
          exact w2

/-- The block `bmap` allocates for a block index that is not mapped was free. -/
theorem bmap_fresh {c : Config} {s s' : State} {ip bn a k : Nat}
    (hc : Coherent c s (s.inodes ip).dev (k + 6)) (hg : Geometry c s) (hnf : NoFault s)
    (hf : FileOK c s ip) (hbn : bn < MAXFILE c) (hz : fileBlock c s ip bn = 0)
    (hr : bmap c s ip bn = .ok (s', a)) :
    a < s.sb.size ∧ bmBit c s (s.inodes ip).dev a = false := by
  unfold bmap at hr
  by_cases hd : bn < c.NDIRECT
  · rw [if_pos hd] at hr
    have h0 : (s.inodes ip).d.addrs bn = 0 := by
      unfold fileBlock at hz; rw [if_pos hd] at hz; exact hz
    rw [if_pos h0] at hr
    cases hb : balloc c s (s.inodes ip).dev with
    | error e => simp [hb] at hr
    | ok r =>
      obtain ⟨s2, b⟩ := r
      simp only [hb] at hr
      by_cases hb0 : b = 0
      · simp [hb0] at hr
      · rw [if_neg hb0] at hr
        simp only [Except.ok.injEq, Prod.mk.injEq] at hr
        obtain ⟨-, rfl⟩ := hr
        obtain ⟨w1, w2, -, -⟩ := balloc_was_free (k := k + 3) hc hg hnf hf.mapInUse hb
        exact ⟨w1, w2⟩
  · rw [if_neg hd] at hr
    have hj : bn - c.NDIRECT < NINDIRECT c := by unfold MAXFILE at hbn; omega
    have hjj : c.NDIRECT + (bn - c.NDIRECT) = bn := by omega
    simp only [hj, if_true] at hr
    cases hi : bmap_indirect c s ip with
    | error e => simp [hi] at hr
    | ok r =>
      obtain ⟨s1, addr⟩ := r
      simp only [hi] at hr
      obtain ⟨hc1, hg1, hf1, ha0, hind, hfb1⟩ := bmap_indirect_view (k := k + 3) hc hg hnf hf hi
      have hdev1 : (s1.inodes ip).dev = (s.inodes ip).dev := hg1.2.1
      rw [← hind] at hr ha0
      rw [← hdev1] at hc1
      obtain ⟨w1, w2⟩ := bmap_target_fresh (k := k) hc1 (geometry_env hg hg1.1)
        (noFault_env hnf hg1.1) hf1 ha0 (by rw [hjj, hfb1 bn hbn]; exact hz) hr
      rw [hg1.1.2.1] at w1
      refine ⟨w1, ?_⟩
      rw [hdev1] at w2
      -- the bits of `s1` are those of `s`, but for the indirect block just allocated
      unfold bmap_indirect at hi
      by_cases h0 : (s.inodes ip).d.addrs c.NDIRECT = 0
      · rw [if_pos h0] at hi
        cases hb : balloc c s (s.inodes ip).dev with
        | error e => simp [hb] at hi
        | ok r2 =>
          obtain ⟨s2, b⟩ := r2
          simp only [hb] at hi
          by_cases hb0 : b = 0
          · simp [hb0] at hi
          · rw [if_neg hb0] at hi
            simp only [Except.ok.injEq, Prod.mk.injEq] at hi
            obtain ⟨hs1, -⟩ := hi
            obtain ⟨v1, v2, v3, v4⟩ := balloc_was_free (k := k + 3) hc hg hnf hf.mapInUse hb
            have hbits : bmBit c s1 (s.inodes ip).dev a = bmBit c s2 (s.inodes ip).dev a := by
              rw [← hs1]; rfl
            rw [hbits] at w2
            have hab : a ≠ b := fun e => by
              rw [e, v3] at w2; exact Bool.noConfusion w2
            rw [← v4 a w1 hab]; exact w2
      · rw [if_neg h0] at hi
        simp only [Except.ok.injEq, Prod.mk.injEq] at hi
        rw [← hi.1] at w2
        exact w2

theorem fileBlock_pos_indirect {c : Config} {s : State} {ip bn : Nat} (hd : c.NDIRECT ≤ bn)
    (h0 : fileBlock c s ip bn ≠ 0) : (s.inodes ip).d.addrs c.NDIRECT ≠ 0 := by
  intro e
  apply h0
  unfold fileBlock
  rw [if_neg (by omega), if_pos e]

set_option maxRecDepth 100000 in
theorem fs0Map_bmap : bmap cfg0 (fs0 0) 0 0 = .ok (fs0Map 0, 10) := rfl

/-- C16 as stated fails when a read fault is injected: with `force_disk_fail_id = 0`, on the
example file system `bmap(ip, 0)` allocates block 10 and sets its bit, and then `bmap(ip, 1)`,
for an index that is not mapped, returns block 10 again, a block that is in use and already
recorded in `addrs[0]`. -/
theorem bmap_reuse_counterexample :
    bmap cfg0 (fs0 0) 0 0 = .ok (fs0Map 0, 10) ∧ fileBlock cfg0 (fs0Map 0) 0 0 = 10 ∧
      fileBlock cfg0 (fs0Map 0) 0 1 = 0 ∧ bmBit cfg0 (fs0Map 0) 1 10 = true ∧
      ∃ s', bmap cfg0 (fs0Map 0) 0 1 = .ok (s', 10) :=
  ⟨fs0Map_bmap, by decide, by decide, by decide, _, rfl⟩

/-- C16, amended: with no read fault injected, `bmap` allocates only on first use.  For a
well-formed file and a block index `bn < NDIRECT + NINDIRECT`: if `bn` is mapped, `bmap`
returns the stored address and changes neither the inode nor the view of any block, the
indirect block and the free map included; if `bn` is not mapped, the block a returning `bmap`
gives was free and is then in use and recorded for `bn` (in the indirect block, which the
inode then has, for `bn >= NDIRECT`), the other mappings are kept, and a second `bmap(ip, bn)`
returns the same address with no further change (a buffer being unused); an index
`bn >= NDIRECT + NINDIRECT` ends in `panic("bmap: out of range")`.  (The cache is coherent,
nobody holds a buffer and one buffer is unused.) -/
theorem bmap_first_use (c : Config) (s : State) (ip bn k : Nat)
    (hc : Coherent c s (s.inodes ip).dev (k + 7)) (hg : Geometry c s) (hnf : NoFault s)
    (hsz : s.sb.size ≤ U32) (hf : FileOK c s ip) (hu : Unlocked c s) (hsp : Spare c s 1) :
    (bn < MAXFILE c → fileBlock c s ip bn ≠ 0 →
      ∃ s', bmap c s ip bn = .ok (s', fileBlock c s ip bn) ∧
        SameView c s s' (s.inodes ip).dev) ∧
    (bn < MAXFILE c → fileBlock c s ip bn = 0 → ∀ s' a, bmap c s ip bn = .ok (s', a) →
      a ≠ 0 ∧ a < s.sb.size ∧ bmBit c s (s.inodes ip).dev a = false ∧
      bmBit c s' (s.inodes ip).dev a = true ∧ fileBlock c s' ip bn = a ∧
      (c.NDIRECT ≤ bn → (s'.inodes ip).d.addrs c.NDIRECT ≠ 0) ∧
      (∀ bn2, bn2 < MAXFILE c → fileBlock c s ip bn2 ≠ 0 →
        fileBlock c s' ip bn2 = fileBlock c s ip bn2) ∧
      (Spare c s' 1 →
        ∃ s2, bmap c s' ip bn = .ok (s2, a) ∧ SameView c s' s2 (s.inodes ip).dev)) ∧
    (MAXFILE c ≤ bn → bmap c s ip bn = .error (Err.bmap_out_of_range, s)) := by
  refine ⟨fun hbn h0 => ?_, fun hbn hz s' a hr => ?_, fun hbn => ?_⟩
  · obtain ⟨s', h1, -, h3⟩ := bmap_read (k := k) (coherent_mono hc (by omega)) hnf hu hsp hbn h0
      (fun hi => (hf.2.1 _ ⟨hi, Or.inl rfl⟩).1)
    exact ⟨s', h1, h3⟩
  · obtain ⟨hc1, hgr, hf1, ha0, hfa⟩ :=
      bmap_view (k := k + 1) (coherent_mono hc (by omega)) hg hnf hsz hf hbn hr
    obtain ⟨w1, w2⟩ := bmap_fresh (k := k + 1) (coherent_mono hc (by omega)) hg hnf hf hbn hz hr
    have hdev : (s'.inodes ip).dev = (s.inodes ip).dev := hgr.2.1
    have hown : Owned c s' ip a := ⟨ha0, Or.inr ⟨bn, hbn, hfa.symm⟩⟩
    refine ⟨ha0, w1, w2, ?_, hfa, fun hd => ?_, fun bn2 hbn2 h2 => (hgr.2.2.2.2.2 bn2 hbn2 h2).1,
      fun hsp' => ?_⟩
    · rw [← hdev]; exact (hf1.2.1 a hown).2.1
    · exact fileBlock_pos_indirect hd (by rw [hfa]; exact ha0)
    · have hu' : Unlocked c s' := fun i hi => by rw [hgr.2.2.2.2.1]; exact hu i hi
      rw [← hdev] at hc1
      obtain ⟨s2, h1, -, h3⟩ := bmap_read (k := k) hc1 (noFault_env hnf hgr.1) hu' hsp' hbn
        (by rw [hfa]; exact ha0) (fun hi => (hf1.2.1 _ ⟨hi, Or.inl rfl⟩).1)
      rw [hfa] at h1
      rw [hdev] at h3
      exact ⟨s2, h1, h3⟩
  · unfold bmap
    have h1 : ¬ bn < c.NDIRECT := by unfold MAXFILE at hbn; omega
    have h2 : ¬ bn - c.NDIRECT < NINDIRECT c := by unfold MAXFILE at hbn; omega
    simp only [if_neg h1, if_neg h2]

/-- Worked example for C16: on the example file system, block index 2 of the empty file is
not mapped, and none of the hypotheses is empty. -/
theorem bmap_first_use_witness :
    (Coherent cfg0 (fs0 (-1)) 1 7 ∧ Geometry cfg0 (fs0 (-1)) ∧ NoFault (fs0 (-1)) ∧
      FileOK cfg0 (fs0 (-1)) 0 ∧ Unlocked cfg0 (fs0 (-1)) ∧ Spare cfg0 (fs0 (-1)) 1 ∧
      fileBlock cfg0 (fs0 (-1)) 0 2 = 0 ∧ ∃ s', bmap cfg0 (fs0 (-1)) 0 2 = .ok (s', 11)) ∧
    ((2 < MAXFILE cfg0 → fileBlock cfg0 (fs0 (-1)) 0 2 ≠ 0 →
      ∃ s', bmap cfg0 (fs0 (-1)) 0 2 = .ok (s', fileBlock cfg0 (fs0 (-1)) 0 2) ∧
        SameView cfg0 (fs0 (-1)) s' 1) ∧
    (2 < MAXFILE cfg0 → fileBlock cfg0 (fs0 (-1)) 0 2 = 0 →
      ∀ s' a, bmap cfg0 (fs0 (-1)) 0 2 = .ok (s', a) →
      a ≠ 0 ∧ a < (fs0 (-1)).sb.size ∧ bmBit cfg0 (fs0 (-1)) 1 a = false ∧
      bmBit cfg0 s' 1 a = true ∧ fileBlock cfg0 s' 0 2 = a ∧
      (cfg0.NDIRECT ≤ 2 → (s'.inodes 0).d.addrs cfg0.NDIRECT ≠ 0) ∧
      (∀ bn2, bn2 < MAXFILE cfg0 → fileBlock cfg0 (fs0 (-1)) 0 bn2 ≠ 0 →
        fileBlock cfg0 s' 0 bn2 = fileBlock cfg0 (fs0 (-1)) 0 bn2) ∧
      (Spare cfg0 s' 1 → ∃ s2, bmap cfg0 s' 0 2 = .ok (s2, a) ∧ SameView cfg0 s' s2 1)) ∧
    (MAXFILE cfg0 ≤ 2 → bmap cfg0 (fs0 (-1)) 0 2 = .error (Err.bmap_out_of_range, fs0 (-1)))) :=
  ⟨⟨fs0_coherent (-1) (by decide), fs0_geometry (-1), fs0_nofault, fs0_fileOK (-1),
      fs0_unlocked (-1), (fs0_spare (-1)).weaken (by decide), fs0_fileBlock (-1) 2, _, rfl⟩,
    bmap_first_use cfg0 (fs0 (-1)) 0 2 0 (fs0_coherent (-1) (by decide)) (fs0_geometry (-1))
      fs0_nofault (by decide) (fs0_fileOK (-1)) (fs0_unlocked (-1))
      ((fs0_spare (-1)).weaken (by decide))⟩

/-! ## What the loops of readi and writei do in every state -/

theorem Err.ofCache_ne_fuel {e : Err} (h : e.ofCache) : e ≠ Err.no_progress := by
  rintro rfl
  rcases h with h | h | h | h | h <;> exact Err.noConfusion h

theorem acquiresleep_sb (s : State) (b : Nat) : (endState (acquiresleep s b)).sb = s.sb := by
  unfold acquiresleep
  split <;> rfl

theorem bget_sb (c : Config) (s : State) (dev n : Nat) :
    (endState (bget c s dev n)).sb = s.sb := by
  unfold bget
  cases bget_cached c s dev n (c.NBUF + 1) (s.next c.NBUF) with
  | found b =>
    simp only
    rw [endState_pass, acquiresleep_sb]
    rfl
  | nofuel => rfl
  | notfound =>
    simp only
    cases bget_recycle c s (c.NBUF + 1) (s.prev c.NBUF) with
    | found b =>
      simp only
      rw [endState_pass, acquiresleep_sb]
      rfl
    | nofuel => rfl
    | notfound => rfl

theorem bread_sb (c : Config) (s : State) (dev n : Nat) :
    (endState (bread c s dev n)).sb = s.sb := by
  have hg := bget_sb c s dev n
  unfold bread
  cases h : bget c s dev n with
  | error e => rw [h] at hg; exact hg
  | ok r =>
    obtain ⟨s1, b⟩ := r
    rw [h] at hg
    simp only
    split
    · split <;> exact hg
    · exact hg

theorem brelse_sb (c : Config) (s : State) (b : Nat) :
    (endState (brelse c s b)).sb = s.sb := by
  simp only [brelse, holdingsleep, releasesleep]
  split
  · rfl
  · split <;> rfl

/-- Reading a block, changing its data, logging and releasing it leaves the inode cache and
the superblock alone. -/
theorem poke_core {c : Config} {s s1 s3 : State} {dev n b : Nat} (d : Nat → Nat)
    (hr : bread c s dev n = .ok (s1, b))
    (hrel : brelse c (log_write (s1.setBuf b { s1.bufs b with data := d }) b) b =
      .ok (s3, ())) : s3.inodes = s.inodes ∧ s3.sb = s.sb := by
  have h1 := bread_inodes c s dev n
  have h2 := bread_sb c s dev n
  rw [hr] at h1 h2
  have h3 := brelse_inodes_end c (log_write (s1.setBuf b { s1.bufs b with data := d }) b) b
  have h4 := brelse_sb c (log_write (s1.setBuf b { s1.bufs b with data := d }) b) b
  rw [hrel] at h3 h4
  exact ⟨h3.trans h1, h4.trans h2⟩

theorem peek_core {c : Config} {s s1 s2 : State} {dev n b : Nat}
    (hr : bread c s dev n = .ok (s1, b)) (hrel : brelse c s1 b = .ok (s2, ())) :
    s2.inodes = s.inodes ∧ s2.sb = s.sb := by
  have h1 := bread_inodes c s dev n
  have h2 := bread_sb c s dev n
  rw [hr] at h1 h2
  have h3 := brelse_inodes_end c s1 b
  have h4 := brelse_sb c s1 b
  rw [hrel] at h3 h4
  exact ⟨h3.trans h1, h4.trans h2⟩

/-- The loop of `balloc` leaves the inode cache and the superblock alone, and its fuel
suffices: it ends in a return or in a panic of the kernel. -/
theorem balloc_loop_core (c : Config) (dev : Nat) (hB : 0 < c.BSIZE) :
    ∀ (fuel b0 : Nat) (s : State), s.sb.size - b0 < fuel →
      (∀ s' b, balloc_loop c dev fuel b0 s = .ok (s', b) →
        s'.inodes = s.inodes ∧ s'.sb = s.sb) ∧
      ∀ e s', balloc_loop c dev fuel b0 s = .error (e, s') → e ≠ Err.no_progress
  | 0, b0, s, hfuel => by omega
  | fuel + 1, b0, s, hfuel => by
    have hpos : 0 < BPB c := by unfold BPB; omega
    simp only [balloc_loop]
    by_cases hlt : b0 < s.sb.size
    · rw [if_pos hlt]
      cases hbr : bread c s dev (BBLOCK c b0 s.sb) with
      | error e =>
        obtain ⟨e1, s1⟩ := e
        refine ⟨fun s' b hr => by simp at hr, fun e s' hr => ?_⟩
        simp only [Except.error.injEq, Prod.mk.injEq] at hr
        rw [← hr.1]
        exact Err.ofCache_ne_fuel (bread_err hbr)
      | ok r1 =>
        obtain ⟨s1, bp⟩ := r1
        simp only
        have hi1 := bread_inodes c s dev (BBLOCK c b0 s.sb)
        have hs1 := bread_sb c s dev (BBLOCK c b0 s.sb)
        rw [hbr] at hi1 hs1
        have hi1 : s1.inodes = s.inodes := hi1
        have hs1 : s1.sb = s.sb := hs1
        cases hsc : balloc_scan c s1.sb.size (s1.bufs bp).data b0 (BPB c + 1) 0 with
        | some bi =>
          simp only
          cases hrel : brelse c (log_write (s1.setBuf bp { s1.bufs bp with
              data := Function.update (s1.bufs bp).data (bi / 8)
                (((s1.bufs bp).data (bi / 8) ||| 1 <<< (bi % 8)) % 256) }) bp) bp with
          | error e =>
            obtain ⟨e1, s2⟩ := e
            refine ⟨fun s' b hr => by simp at hr, fun e s' hr => ?_⟩
            simp only [Except.error.injEq, Prod.mk.injEq] at hr
            rw [← hr.1]
            exact Err.ofCache_ne_fuel (brelse_err hrel)
          | ok r2 =>
            obtain ⟨s2, u⟩ := r2
            simp only
            obtain ⟨hi2, hs2⟩ := poke_core _ hbr hrel
            cases hbz : bzero c s2 dev (b0 + bi) with
            | error e =>
              obtain ⟨e1, s3⟩ := e
              refine ⟨fun s' b hr => by simp at hr, fun e s' hr => ?_⟩
              simp only [Except.error.injEq, Prod.mk.injEq] at hr
              rw [← hr.1]
              exact Err.ofCache_ne_fuel (bzero_err hbz)
            | ok r3 =>
              obtain ⟨s4, u2⟩ := r3
              refine ⟨fun s' b hr => ?_, fun e s' hr => by simp at hr⟩
              simp only [Except.ok.injEq, Prod.mk.injEq] at hr
              obtain ⟨rfl, rfl⟩ := hr
              unfold bzero at hbz
              cases hbr3 : bread c s2 dev (b0 + bi) with
              | error e => simp [hbr3] at hbz
              | ok r4 =>
                obtain ⟨s3, bz⟩ := r4
                simp only [hbr3] at hbz
                obtain ⟨hi4, hs4⟩ := poke_core _ hbr3 hbz
                exact ⟨hi4.trans hi2, hs4.trans hs2⟩
        | none =>
          simp only
          cases hrel : brelse c s1 bp with
          | error e =>
            obtain ⟨e1, s2⟩ := e
            refine ⟨fun s' b hr => by simp at hr, fun e s' hr => ?_⟩
            simp only [Except.error.injEq, Prod.mk.injEq] at hr
            rw [← hr.1]
            exact Err.ofCache_ne_fuel (brelse_err hrel)
          | ok r2 =>
            obtain ⟨s2, u⟩ := r2
            simp only
            obtain ⟨hi2, hs2⟩ := peek_core hbr hrel
            obtain ⟨ih1, ih2⟩ := balloc_loop_core c dev hB fuel (b0 + BPB c) s2
              (by rw [hs2]; omega)
            refine ⟨fun s' b hr => ?_, ih2⟩
            obtain ⟨a1, a2⟩ := ih1 s' b hr
            exact ⟨a1.trans hi2, a2.trans hs2⟩
    · rw [if_neg hlt]
      refine ⟨fun s' b hr => by simp at hr, fun e s' hr => ?_⟩
      simp only [Except.error.injEq, Prod.mk.injEq] at hr
      rw [← hr.1]
      exact fun h => Err.noConfusion h

theorem AddrsOnly.rfl_addrs (s : State) (ip : Nat) : AddrsOnly s s ip :=
  ⟨rfl, fun _ _ => rfl, (s.inodes ip).d.addrs, rfl⟩

theorem AddrsOnly.of_core {s s2 : State} (h : s2.inodes = s.inodes ∧ s2.sb = s.sb) (ip : Nat) :
    AddrsOnly s s2 ip :=
  ⟨h.2, fun _ _ => by rw [h.1], (s.inodes ip).d.addrs, by rw [h.1]⟩

theorem AddrsOnly.trans_addrs {s s2 s3 : State} {ip : Nat} (h1 : AddrsOnly s s2 ip)
    (h2 : AddrsOnly s2 s3 ip) : AddrsOnly s s3 ip := by
  obtain ⟨a1, a2, ad1, a3⟩ := h1
  obtain ⟨b1, b2, ad2, b3⟩ := h2
  exact ⟨b1.trans a1, fun j hj => (b2 j hj).trans (a2 j hj), ad2, by rw [b3, a3]⟩

theorem AddrsOnly.set_addrs (s : State) (ip : Nat) (ad : Nat → Nat) :
    AddrsOnly s (s.setInode ip { s.inodes ip with d := { (s.inodes ip).d with addrs := ad } })
      ip :=
  ⟨rfl, fun _ hj => setInode_other s ip _ hj, ad, setInode_same _ _ _⟩

theorem AddrsOnly.size_eq {s s2 : State} {ip : Nat} (h : AddrsOnly s s2 ip) :
    (s2.inodes ip).d.size = (s.inodes ip).d.size ∧ (s2.inodes ip).dev = (s.inodes ip).dev ∧
      (s2.inodes ip).inum = (s.inodes ip).inum ∧ (s2.inodes ip).d.type = (s.inodes ip).d.type := by
  obtain ⟨-, -, ad, h3⟩ := h
  rw [h3]
  exact ⟨rfl, rfl, rfl, rfl⟩

/-- The routine `balloc` leaves the inode cache and the superblock alone, and ends in a
return or in a panic of the kernel. -/
theorem balloc_core {c : Config} (hB : 0 < c.BSIZE) (s : State) (dev : Nat) :
    (∀ s' b, balloc c s dev = .ok (s', b) → s'.inodes = s.inodes ∧ s'.sb = s.sb) ∧
      ∀ e s', balloc c s dev = .error (e, s') → e ≠ Err.no_progress :=
  balloc_loop_core c dev hB (s.sb.size + 1) 0 s (by omega)

/-- The routine `bmap` changes nothing of the inode cache but the block addresses of `ip`, and
ends in a return or in a panic of the kernel. -/
theorem bmap_core {c : Config} (hB : 0 < c.BSIZE) (s : State) (ip bn : Nat) :
    (∀ s' a, bmap c s ip bn = .ok (s', a) → AddrsOnly s s' ip) ∧
      ∀ e s', bmap c s ip bn = .error (e, s') → e ≠ Err.no_progress := by
  have hset : ∀ (s2 : State) (i b : Nat), s2.inodes = s.inodes ∧ s2.sb = s.sb →
      AddrsOnly s (s2.setInode ip { s2.inodes ip with
        d := { (s2.inodes ip).d with addrs := Function.update (s2.inodes ip).d.addrs i b } })
        ip := fun s2 i b h =>
    (AddrsOnly.of_core h ip).trans_addrs (AddrsOnly.set_addrs s2 ip _)
  unfold bmap
  by_cases hd : bn < c.NDIRECT
  · rw [if_pos hd]
    by_cases h0 : (s.inodes ip).d.addrs bn = 0
    · rw [if_pos h0]
      obtain ⟨b1, b2⟩ := balloc_core hB s (s.inodes ip).dev
      cases hb : balloc c s (s.inodes ip).dev with
      | error e =>
        obtain ⟨e1, s1⟩ := e
        refine ⟨fun s' a hr => by simp at hr, fun e s' hr => ?_⟩
        simp only [Except.error.injEq, Prod.mk.injEq] at hr
        rw [← hr.1]
        exact b2 _ _ hb
      | ok r =>
        obtain ⟨s2, b⟩ := r
        simp only
        by_cases hb0 : b = 0
        · rw [if_pos hb0]
          refine ⟨fun s' a hr => by simp at hr, fun e s' hr => ?_⟩
          simp only [Except.error.injEq, Prod.mk.injEq] at hr
          rw [← hr.1]
          exact fun h => Err.noConfusion h
        · rw [if_neg hb0]
          refine ⟨fun s' a hr => ?_, fun e s' hr => by simp at hr⟩
          simp only [Except.ok.injEq, Prod.mk.injEq] at hr
          rw [← hr.1]
          exact hset s2 bn b (b1 _ _ hb)
    · rw [if_neg h0]
      refine ⟨fun s' a hr => ?_, fun e s' hr => by simp at hr⟩
      simp only [Except.ok.injEq, Prod.mk.injEq] at hr
      rw [← hr.1]
      exact AddrsOnly.rfl_addrs s ip
  · rw [if_neg hd]
    simp only
    by_cases hj : bn - c.NDIRECT < NINDIRECT c
    · rw [if_pos hj]
      -- the indirect block
      have hind : (∀ s1 addr, bmap_indirect c s ip = .ok (s1, addr) → AddrsOnly s s1 ip) ∧
          ∀ e s', bmap_indirect c s ip = .error (e, s') → e ≠ Err.no_progress := by
        unfold bmap_indirect
        by_cases h0 : (s.inodes ip).d.addrs c.NDIRECT = 0
        · rw [if_pos h0]
          obtain ⟨b1, b2⟩ := balloc_core hB s (s.inodes ip).dev
          cases hb : balloc c s (s.inodes ip).dev with
          | error e =>
            obtain ⟨e1, s1⟩ := e
            refine ⟨fun s' a hr => by simp at hr, fun e s' hr => ?_⟩
            simp only [Except.error.injEq, Prod.mk.injEq] at hr
            rw [← hr.1]
            exact b2 _ _ hb
          | ok r =>
            obtain ⟨s2, b⟩ := r
            simp only
            by_cases hb0 : b = 0
            · rw [if_pos hb0]
              refine ⟨fun s' a hr => by simp at hr, fun e s' hr => ?_⟩
              simp only [Except.error.injEq, Prod.mk.injEq] at hr
              rw [← hr.1]
              exact fun h => Err.noConfusion h
            · rw [if_neg hb0]
              refine ⟨fun s' a hr => ?_, fun e s' hr => by simp at hr⟩
              simp only [Except.ok.injEq, Prod.mk.injEq] at hr
              rw [← hr.1]
              exact hset s2 c.NDIRECT b (b1 _ _ hb)
        · rw [if_neg h0]
          refine ⟨fun s' a hr => ?_, fun e s' hr => by simp at hr⟩
          simp only [Except.ok.injEq, Prod.mk.injEq] at hr
          rw [← hr.1]
          exact AddrsOnly.rfl_addrs s ip
      -- the entry of the indirect block
      have htar : ∀ (s1 : State) (addr : Nat),
          (∀ s' a, bmap_target c s1 ip (bn - c.NDIRECT) addr = .ok (s', a) →
            s'.inodes = s1.inodes ∧ s'.sb = s1.sb) ∧
          ∀ e s', bmap_target c s1 ip (bn - c.NDIRECT) addr = .error (e, s') →
            e ≠ Err.no_progress := by
        intro s1 addr
        unfold bmap_target
        have hi1 := bread_inodes c s1 (s1.inodes ip).dev addr
        have hs1 := bread_sb c s1 (s1.inodes ip).dev addr
        cases hbr : bread c s1 (s1.inodes ip).dev addr with
        | error e =>
          obtain ⟨e1, s2⟩ := e
          refine ⟨fun s' a hr => by simp at hr, fun e s' hr => ?_⟩
          simp only [Except.error.injEq, Prod.mk.injEq] at hr
          rw [← hr.1]
          exact Err.ofCache_ne_fuel (bread_err hbr)
        | ok r =>
          obtain ⟨s2, bp⟩ := r
          rw [hbr] at hi1 hs1
          have hi1 : s2.inodes = s1.inodes := hi1
          have hs1 : s2.sb = s1.sb := hs1
          simp only
          by_cases ht : get32 (s2.bufs bp).data (bn - c.NDIRECT) = 0
          · rw [if_pos ht]
            obtain ⟨b1, b2⟩ := balloc_core hB s2 (s2.inodes ip).dev
            cases hb : balloc c s2 (s2.inodes ip).dev with
            | error e =>
              obtain ⟨e1, s3⟩ := e
              refine ⟨fun s' a hr => by simp at hr, fun e s' hr => ?_⟩
              simp only [Except.error.injEq, Prod.mk.injEq] at hr
              rw [← hr.1]
              exact b2 _ _ hb
            | ok r2 =>
              obtain ⟨s3, b⟩ := r2
              simp only
              obtain ⟨hi3, hs3⟩ := b1 _ _ hb
              by_cases hb0 : b = 0
              · rw [if_pos hb0]
                refine ⟨fun s' a hr => by simp at hr, fun e s' hr => ?_⟩
                simp only [Except.error.injEq, Prod.mk.injEq] at hr
                rw [← hr.1]
                exact fun h => Err.noConfusion h
              · rw [if_neg hb0]
                have hi4 := brelse_inodes_end c (log_write (s3.setBuf bp { s3.bufs bp with
                  data := put32 (s3.bufs bp).data (bn - c.NDIRECT) b }) bp) bp
                have hs4 := brelse_sb c (log_write (s3.setBuf bp { s3.bufs bp with
                  data := put32 (s3.bufs bp).data (bn - c.NDIRECT) b }) bp) bp
                cases hrel : brelse c (log_write (s3.setBuf bp { s3.bufs bp with
                    data := put32 (s3.bufs bp).data (bn - c.NDIRECT) b }) bp) bp with
                | error e =>
                  obtain ⟨e1, s4⟩ := e
                  refine ⟨fun s' a hr => by simp at hr, fun e s' hr => ?_⟩
                  simp only [Except.error.injEq, Prod.mk.injEq] at hr
                  rw [← hr.1]
                  exact Err.ofCache_ne_fuel (brelse_err hrel)
                | ok r3 =>
                  obtain ⟨s4, u⟩ := r3
                  rw [hrel] at hi4 hs4
                  refine ⟨fun s' a hr => ?_, fun e s' hr => by simp at hr⟩
                  simp only [Except.ok.injEq, Prod.mk.injEq] at hr
                  rw [← hr.1]
                  exact ⟨(hi4.trans hi3).trans hi1, (hs4.trans hs3).trans hs1⟩
          · rw [if_neg ht]
            have hi4 := brelse_inodes_end c s2 bp
            have hs4 := brelse_sb c s2 bp
            cases hrel : brelse c s2 bp with
            | error e =>
              obtain ⟨e1, s4⟩ := e
              refine ⟨fun s' a hr => by simp at hr, fun e s' hr => ?_⟩
              simp only [Except.error.injEq, Prod.mk.injEq] at hr
              rw [← hr.1]
              exact Err.ofCache_ne_fuel (brelse_err hrel)
            | ok r3 =>
              obtain ⟨s4, u⟩ := r3
              rw [hrel] at hi4 hs4
              refine ⟨fun s' a hr => ?_, fun e s' hr => by simp at hr⟩
              simp only [Except.ok.injEq, Prod.mk.injEq] at hr
              rw [← hr.1]
              exact ⟨hi4.trans hi1, hs4.trans hs1⟩
      cases hi : bmap_indirect c s ip with
      | error e =>
        obtain ⟨e1, s1⟩ := e
        refine ⟨fun s' a hr => by simp at hr, fun e s' hr => ?_⟩
        simp only [Except.error.injEq, Prod.mk.injEq] at hr
        rw [← hr.1]
        exact hind.2 _ _ hi
      | ok r =>
        obtain ⟨s1, addr⟩ := r
        simp only
        obtain ⟨t1, t2⟩ := htar s1 addr
        exact ⟨fun s' a hr => (hind.1 _ _ hi).trans_addrs (AddrsOnly.of_core (t1 _ _ hr) ip), t2⟩
    · rw [if_neg hj]
      refine ⟨fun s' a hr => by simp at hr, fun e s' hr => ?_⟩
      simp only [Except.error.injEq, Prod.mk.injEq] at hr
      rw [← hr.1]
      exact fun h => Err.noConfusion h

theorem either_copyout_eq {mem mem2 : Mem} {user_dst dst len : Nat} {src : Nat → Nat}
    (h : either_copyout mem user_dst dst src len = some mem2) :
    mem2.ok = mem.ok ∧
      ∀ a, mem2.byte a = if dst ≤ a ∧ a < dst + len then src (a - dst) else mem.byte a := by
  unfold either_copyout at h
  split at h
  · exact Option.noConfusion h
  · simp only [Option.some.injEq] at h
    rw [← h]
    exact ⟨rfl, fun _ => rfl⟩

/-- The loop of `readi` in any state: its fuel suffices, it changes nothing of the inode cache
but block addresses of `ip`, it stores only at destination addresses below `dst0 + tot`, and
it copies out all `n` bytes when every copy-out succeeds. -/
theorem readi_loop_core (c : Config) (ip user_dst n off0 dst0 : Nat) (hB : 0 < c.BSIZE)
    (h32 : off0 + n < U32) :
    ∀ (fuel : Nat) (s : State) (mem : Mem) (tot : Nat), n - tot < fuel → tot ≤ n →
      (∀ e s', readi_loop c ip user_dst n fuel s mem tot (off0 + tot) (dst0 + tot) =
        .error (e, s') → e ≠ Err.no_progress) ∧
      ∀ s' mem' t, readi_loop c ip user_dst n fuel s mem tot (off0 + tot) (dst0 + tot) =
          .ok (s', (mem', t)) →
        AddrsOnly s s' ip ∧ mem'.ok = mem.ok ∧ tot ≤ t ∧ t ≤ n ∧
        (∀ a, ¬ (dst0 + tot ≤ a ∧ a < dst0 + t) → mem'.byte a = mem.byte a) ∧
        ((user_dst = 0 ∨ ∀ j, j < n → mem.ok (dst0 + j) = true) → t = n)
  | 0, s, mem, tot, hfuel, _ => by omega
  | fuel + 1, s, mem, tot, hfuel, htot => by
    simp only [readi_loop]
    by_cases hlt : tot < n
    · rw [if_pos hlt]
      obtain ⟨m1, m2⟩ := bmap_core hB s ip ((off0 + tot) / c.BSIZE)
      cases hbm : bmap c s ip ((off0 + tot) / c.BSIZE) with
      | error e =>
        obtain ⟨e1, s1⟩ := e
        refine ⟨fun e s' hr => ?_, fun s' mem' t hr => by simp at hr⟩
        simp only [Except.error.injEq, Prod.mk.injEq] at hr
        rw [← hr.1]
        exact m2 _ _ hbm
      | ok r =>
        obtain ⟨s1, addr⟩ := r
        simp only
        have ha1 : AddrsOnly s s1 ip := m1 _ _ hbm
        cases hbr : bread c s1 (s1.inodes ip).dev addr with
        | error e =>
          obtain ⟨e1, s2⟩ := e
          refine ⟨fun e s' hr => ?_, fun s' mem' t hr => by simp at hr⟩
          simp only [Except.error.injEq, Prod.mk.injEq] at hr
          rw [← hr.1]
          exact Err.ofCache_ne_fuel (bread_err hbr)
        | ok r2 =>
          obtain ⟨s2, bp⟩ := r2
          simp only
          obtain ⟨m, hm⟩ : ∃ m, m = min (n - tot) (c.BSIZE - (off0 + tot) % c.BSIZE) := ⟨_, rfl⟩
          have hmod : (off0 + tot) % c.BSIZE < c.BSIZE := Nat.mod_lt _ hB
          have hm1 : 1 ≤ m := by rw [hm]; omega
          have hm2 : m ≤ n - tot := by rw [hm]; exact Nat.min_le_left _ _
          rw [← hm]
          cases hcp : either_copyout mem user_dst (dst0 + tot)
              (fun k => (s2.bufs bp).data ((off0 + tot) % c.BSIZE + k)) m with
          | none =>
            simp only
            cases hrel : brelse c s2 bp with
            | error e =>
              obtain ⟨e1, s3⟩ := e
              refine ⟨fun e s' hr => ?_, fun s' mem' t hr => by simp at hr⟩
              simp only [Except.error.injEq, Prod.mk.injEq] at hr
              rw [← hr.1]
              exact Err.ofCache_ne_fuel (brelse_err hrel)
            | ok r3 =>
              obtain ⟨s3, u⟩ := r3
              refine ⟨fun e s' hr => by simp at hr, fun s' mem' t hr => ?_⟩
              simp only [Except.ok.injEq, Prod.mk.injEq] at hr
              obtain ⟨rfl, rfl, rfl⟩ := hr
              refine ⟨ha1.trans_addrs (AddrsOnly.of_core (peek_core hbr hrel) ip), rfl,
                Nat.le_refl _, htot, fun _ _ => rfl, fun hdst => ?_⟩
              exfalso
              obtain ⟨mem2, h2, -⟩ := either_copyout_some mem user_dst (dst0 + tot) m
                (fun k => (s2.bufs bp).data ((off0 + tot) % c.BSIZE + k))
                (by
                  rcases hdst with h | h
                  · exact Or.inl h
                  · refine Or.inr (fun j hj => ?_)
                    rw [Nat.add_assoc]
                    exact h (tot + j) (by omega))
              rw [h2] at hcp
              exact Option.noConfusion hcp
          | some mem2 =>
            simp only
            obtain ⟨hok2, hbyte2⟩ := either_copyout_eq hcp
            cases hrel : brelse c s2 bp with
            | error e =>
              obtain ⟨e1, s3⟩ := e
              refine ⟨fun e s' hr => ?_, fun s' mem' t hr => by simp at hr⟩
              simp only [Except.error.injEq, Prod.mk.injEq] at hr
              rw [← hr.1]
              exact Err.ofCache_ne_fuel (brelse_err hrel)
            | ok r3 =>
              obtain ⟨s3, u⟩ := r3
              simp only
              have x1 : (tot + m) % U32 = tot + m := Nat.mod_eq_of_lt (by omega)
              have x2 : (off0 + tot + m) % U32 = off0 + (tot + m) := by
                rw [Nat.add_assoc]; exact Nat.mod_eq_of_lt (by omega)
              have x3 : dst0 + tot + m = dst0 + (tot + m) := Nat.add_assoc _ _ _
              rw [x1, x2, x3]
              obtain ⟨ih1, ih2⟩ := readi_loop_core c ip user_dst n off0 dst0 hB h32 fuel s3 mem2
                (tot + m) (by omega) (by omega)
              refine ⟨ih1, fun s' mem' t hr => ?_⟩
              obtain ⟨q1, q2, q3, q4, q5, q6⟩ := ih2 s' mem' t hr
              refine ⟨(ha1.trans_addrs (AddrsOnly.of_core (peek_core hbr hrel) ip)).trans_addrs q1,
                q2.trans hok2, by omega, q4, fun a ha => ?_, fun hdst => q6 (by rw [hok2]; exact hdst)⟩
              rw [q5 a (fun h => ha ⟨by omega, h.2⟩), hbyte2, if_neg (fun h => ha ⟨h.1, by omega⟩)]
    · rw [if_neg hlt]
      refine ⟨fun e s' hr => by simp at hr, fun s' mem' t hr => ?_⟩
      simp only [Except.ok.injEq, Prod.mk.injEq] at hr
      obtain ⟨rfl, rfl, rfl⟩ := hr
      exact ⟨AddrsOnly.rfl_addrs s ip, rfl, Nat.le_refl _, htot, fun _ _ => rfl,
        fun _ => by omega⟩


theorem toInt32_zero : toInt32 0 = 0 := by decide

/-- C18: `readi` clamps to the file size.  For an inode, an offset `off` and a length `n`
(32-bit unsigned): `readi` returns 0, copying nothing and changing nothing, when `off > size`
or `off + n` wraps around.  Otherwise it does what it does for the length
`min(n, size - off)`, so no byte at or past `size` is read; its loop does not run out of
fuel; when every copy-out succeeds and it returns, it returns `min(n, size - off)` (as an
`int`), has stored only at the `min(n, size - off)` bytes from `dst` on, and the size of the
inode is unchanged; and on a file in which the bytes of `memW` are stored from `off` on (no
fault injected, the cache coherent, nobody holding a buffer, one buffer unused) it does return
and those bytes are what it copies out. -/
theorem readi_clamps (c : Config) (s : State) (mem : Mem) (ip user_dst dst off n : Nat)
    (hB : 0 < c.BSIZE) (hoff : off < U32) (hn : n < U32) :
    (((s.inodes ip).d.size < off ∨ U32 ≤ off + n) →
      readi c s mem ip user_dst dst off n = .ok (s, (mem, 0))) ∧
    (off ≤ (s.inodes ip).d.size → off + n < U32 →
      readi c s mem ip user_dst dst off n =
        readi c s mem ip user_dst dst off (min n ((s.inodes ip).d.size - off)) ∧
      (∀ e s', readi c s mem ip user_dst dst off n = .error (e, s') → e ≠ Err.no_progress) ∧
      ((user_dst = 0 ∨ ∀ j, j < min n ((s.inodes ip).d.size - off) → mem.ok (dst + j) = true) →
        ∀ s' mem' r, readi c s mem ip user_dst dst off n = .ok (s', (mem', r)) →
          r = toInt32 (min n ((s.inodes ip).d.size - off)) ∧
          (min n ((s.inodes ip).d.size - off) < 2147483648 →
            r = (min n ((s.inodes ip).d.size - off) : Nat)) ∧
          (s'.inodes ip).d.size = (s.inodes ip).d.size ∧
          ∀ a, ¬ (dst ≤ a ∧ a < dst + min n ((s.inodes ip).d.size - off)) →
            mem'.byte a = mem.byte a) ∧
      (∀ (memW : Mem) (src k : Nat), Coherent c s (s.inodes ip).dev (k + 1) → NoFault s →
        Unlocked c s → Spare c s 1 →
        Stored c s ip memW src off (off + min n ((s.inodes ip).d.size - off)) →
        ((s.inodes ip).d.addrs c.NDIRECT ≠ 0 → (s.inodes ip).d.addrs c.NDIRECT < s.sb.size) →
        (user_dst = 0 ∨ ∀ j, j < min n ((s.inodes ip).d.size - off) → mem.ok (dst + j) = true) →
        off + min n ((s.inodes ip).d.size - off) ≤ MAXFILE c * c.BSIZE →
        (s.inodes ip).d.size < 2147483648 →
        ∃ s2 m, readi c s mem ip user_dst dst off n =
            .ok (s2, (m, ((min n ((s.inodes ip).d.size - off) : Nat) : Int))) ∧
          ∀ j, j < min n ((s.inodes ip).d.size - off) → m.byte (dst + j) = memW.byte (src + j))) := by
  refine ⟨fun h => ?_, fun h1 h2 => ?_⟩
  · unfold readi
    rw [if_pos]
    rcases h with h | h
    · exact Or.inl h
    · by_cases hs : (s.inodes ip).d.size < off
      · exact Or.inl hs
      · right
        have e : (off + n) % U32 = off + n - U32 := by
          rw [Nat.mod_eq_sub_mod h, Nat.mod_eq_of_lt (by omega)]
        rw [e]; omega
  · obtain ⟨n2, hn2⟩ : ∃ n2, n2 = min n ((s.inodes ip).d.size - off) := ⟨_, rfl⟩
    rw [← hn2]
    have hle1 : n2 ≤ n := by rw [hn2]; exact Nat.min_le_left _ _
    have hle2 : off + n2 ≤ (s.inodes ip).d.size := by
      have := Nat.min_le_right n ((s.inodes ip).d.size - off)
      rw [← hn2] at this; omega
    have hmodn : (off + n) % U32 = off + n := Nat.mod_eq_of_lt h2
    have hmod2 : (off + n2) % U32 = off + n2 := Nat.mod_eq_of_lt (by omega)
    -- both calls run the loop for `n2` bytes
    have hrun : ∀ x, x = n ∨ x = n2 → readi c s mem ip user_dst dst off x =
        match readi_loop c ip user_dst n2 (n2 + 1) s mem 0 off dst with
        | .error e => .error e
        | .ok (s, (mem, tot)) => .ok (s, (mem, toInt32 tot)) := by
      intro x hx
      unfold readi
      rcases hx with rfl | rfl
      · rw [hmodn, if_neg (by omega)]
        by_cases hgt : off + x > (s.inodes ip).d.size
        · have : n2 = (s.inodes ip).d.size - off := by rw [hn2]; omega
          simp only [if_pos hgt]
          rw [this]
        · have : n2 = x := by rw [hn2]; omega
          simp only [if_neg hgt]
          rw [this]
      · rw [hmod2, if_neg (by omega)]
        simp only [if_neg (show ¬ off + x > (s.inodes ip).d.size by omega)]
    have hcore := readi_loop_core c ip user_dst n2 off dst hB (by omega) (n2 + 1) s mem 0
      (by omega) (Nat.zero_le _)
    simp only [Nat.add_zero] at hcore
    obtain ⟨c1, c2⟩ := hcore
    refine ⟨by rw [hrun n (Or.inl rfl), hrun n2 (Or.inr rfl)], fun e s' hr => ?_,
      fun hdst s' mem' r hr => ?_, fun memW src k hc hnf hu hsp hst hind hdst hmax hsz => ?_⟩
    · rw [hrun n (Or.inl rfl)] at hr
      cases hl : readi_loop c ip user_dst n2 (n2 + 1) s mem 0 off dst with
      | error e1 =>
        obtain ⟨e2, s2⟩ := e1
        rw [hl] at hr
        simp only [Except.error.injEq, Prod.mk.injEq] at hr
        rw [← hr.1]
        exact c1 _ _ hl
      | ok r1 =>
        obtain ⟨s2, m2, t2⟩ := r1
        rw [hl] at hr
        simp at hr
    · rw [hrun n (Or.inl rfl)] at hr
      cases hl : readi_loop c ip user_dst n2 (n2 + 1) s mem 0 off dst with
      | error e1 => rw [hl] at hr; simp at hr
      | ok r1 =>
        obtain ⟨s2, m2, t2⟩ := r1
        rw [hl] at hr
        simp only [Except.ok.injEq, Prod.mk.injEq] at hr
        obtain ⟨rfl, rfl, rfl⟩ := hr
        obtain ⟨q1, -, -, -, q5, q6⟩ := c2 _ _ _ hl
        have ht : t2 = n2 := q6 hdst
        subst ht
        exact ⟨rfl, fun hlt => toInt32_of_lt hlt, q1.size_eq.1, q5⟩
    · obtain ⟨s2, m, hr, hb⟩ := readi_total (k := k) hB hc hnf hu hsp hst hind hdst hle2 hmax
        (by omega)
      rw [hrun n (Or.inl rfl), ← hrun n2 (Or.inr rfl)]
      exact ⟨s2, m, hr, hb⟩

set_option maxRecDepth 100000 in
/-- Worked example for C18: on the example file system after three bytes were written to the
empty file, a `readi` of 5 bytes at offset 1 returns 2, as a `readi` of 2 bytes does. -/
theorem readi_clamps_witness :
    (0 < cfg0.BSIZE ∧ 1 < U32 ∧ 5 < U32 ∧ 1 ≤ ((fs0Write (-1)).inodes 0).d.size ∧
      1 + 5 < U32 ∧ min 5 (((fs0Write (-1)).inodes 0).d.size - 1) = 2) ∧
    (∃ s2 m, readi cfg0 (fs0Write (-1)) mem0 0 0 5000 1 5 = .ok (s2, (m, 2))) ∧
    readi cfg0 (fs0Write (-1)) mem0 0 0 5000 1 5 =
      readi cfg0 (fs0Write (-1)) mem0 0 0 5000 1
        (min 5 (((fs0Write (-1)).inodes 0).d.size - 1)) :=
  ⟨⟨by decide, by decide, by decide, by decide, by decide, by decide⟩, ⟨_, _, rfl⟩,
    ((readi_clamps cfg0 (fs0Write (-1)) mem0 0 0 5000 1 5 (by decide) (by decide)
      (by decide)).2 (by decide) (by decide)).1⟩

/-! ## writei in every state -/

theorem tagsOK_setInode {c : Config} {s : State} {dev k : Nat} (h : TagsOK c s dev k)
    (ip : Nat) (x : Inode) : TagsOK c (s.setInode ip x) dev k := h

/-- Changing the data of a buffer that is held, logging and releasing it keeps the
bookkeeping of the cache in order. -/
theorem held_poke_tags {c : Config} {s s3 : State} {dev b k : Nat} (d : Nat → Nat)
    (h : TagsOK c s dev (k + 1)) (hb : b < c.NBUF) (hlk : (s.bufs b).locked = true)
    (hrel : brelse c (log_write (s.setBuf b { s.bufs b with data := d }) b) b = .ok (s3, ())) :
    TagsOK c s3 dev k := by
  have h2 := setData_tags h hb d
  obtain ⟨hlw, h3, -, -⟩ := log_write_tags (k := k) h2 hb
  have hlk3 : ((log_write (s.setBuf b { s.bufs b with data := d }) b).bufs b).locked = true := by
    rw [hlw, Function.update_same]; simpa using hlk
  obtain ⟨s4, e1, -, h4, -⟩ := brelse_tags h3 hb hlk3
  rw [hrel] at e1
  simp only [Except.ok.injEq, Prod.mk.injEq, and_true] at e1
  rw [e1]
  exact h4

theorem balloc_tags {c : Config} {s s' : State} {dev b k : Nat} (h : TagsOK c s dev (k + 3))
    (hr : balloc c s dev = .ok (s', b)) :
    TagsOK c s' dev (k + 1) ∧ ∀ i, (s.bufs i).locked = true → s'.bufs i = s.bufs i :=
  ⟨(balloc_loop_tags c dev k (s.sb.size + 1) 0 s s' b h (Nat.dvd_zero _) hr).1,
    balloc_loop_frame c dev k (s.sb.size + 1) 0 s s' b h hr⟩

/-- The routine `bmap` keeps the bookkeeping of the cache in order, whatever the content of
the blocks it reads. -/
theorem bmap_tags {c : Config} {s s' : State} {ip bn a k : Nat} (hB : 0 < c.BSIZE)
    (h : TagsOK c s (s.inodes ip).dev (k + 6)) (hr : bmap c s ip bn = .ok (s', a)) :
    TagsOK c s' (s.inodes ip).dev k := by
  unfold bmap at hr
  by_cases hd : bn < c.NDIRECT
  · rw [if_pos hd] at hr
    by_cases h0 : (s.inodes ip).d.addrs bn = 0
    · rw [if_pos h0] at hr
      cases hb : balloc c s (s.inodes ip).dev with
      | error e => simp [hb] at hr
      | ok r =>
        obtain ⟨s2, b⟩ := r
        simp only [hb] at hr
        by_cases hb0 : b = 0
        · simp [hb0] at hr
        · rw [if_neg hb0] at hr
          simp only [Except.ok.injEq, Prod.mk.injEq] at hr
          rw [← hr.1]
          exact tagsOK_setInode ((balloc_tags (k := k + 3) h hb).1.mono (by omega)) _ _
    · rw [if_neg h0] at hr
      simp only [Except.ok.injEq, Prod.mk.injEq] at hr
      rw [← hr.1]
      exact h.mono (by omega)
  · rw [if_neg hd] at hr
    simp only at hr
    by_cases hj : bn - c.NDIRECT < NINDIRECT c
    · rw [if_pos hj] at hr
      cases hi : bmap_indirect c s ip with
      | error e => simp [hi] at hr
      | ok r =>
        obtain ⟨s1, addr⟩ := r
        simp only [hi] at hr
        have h1 : TagsOK c s1 (s.inodes ip).dev (k + 4) ∧
            (s1.inodes ip).dev = (s.inodes ip).dev := by
          unfold bmap_indirect at hi
          by_cases h0 : (s.inodes ip).d.addrs c.NDIRECT = 0
          · rw [if_pos h0] at hi
            cases hb : balloc c s (s.inodes ip).dev with
            | error e => simp [hb] at hi
            | ok r =>
              obtain ⟨s2, b⟩ := r
              simp only [hb] at hi
              by_cases hb0 : b = 0
              · simp [hb0] at hi
              · rw [if_neg hb0] at hi
                simp only [Except.ok.injEq, Prod.mk.injEq] at hi
                rw [← hi.1]
                refine ⟨tagsOK_setInode (balloc_tags (k := k + 3) h hb).1 _ _, ?_⟩
                rw [setInode_same]
                show (s2.inodes ip).dev = _
                rw [((balloc_core hB s (s.inodes ip).dev).1 _ _ hb).1]
          · rw [if_neg h0] at hi
            simp only [Except.ok.injEq, Prod.mk.injEq] at hi
            rw [← hi.1]
            exact ⟨h.mono (by omega), rfl⟩
        obtain ⟨h1, hdev1⟩ := h1
        unfold bmap_target at hr
        rw [hdev1] at hr
        cases hbr : bread c s1 (s.inodes ip).dev addr with
        | error e => simp [hbr] at hr
        | ok r2 =>
          obtain ⟨s2, bp⟩ := r2
          simp only [hbr] at hr
          obtain ⟨-, -, -, -, hino2, -, hbp, -, -, hlk, -⟩ := bread_shape h1 hbr
          obtain ⟨h2, -, -⟩ := bread_tags (k := k + 3) h1 hbr
          by_cases ht : get32 (s2.bufs bp).data (bn - c.NDIRECT) = 0
          · rw [if_pos ht] at hr
            have hdev2 : (s2.inodes ip).dev = (s.inodes ip).dev := by rw [hino2, hdev1]
            rw [hdev2] at hr
            cases hb : balloc c s2 (s.inodes ip).dev with
            | error e => simp [hb] at hr
            | ok r3 =>
              obtain ⟨s3, b⟩ := r3
              simp only [hb] at hr
              by_cases hb0 : b = 0
              · simp [hb0] at hr
              · rw [if_neg hb0] at hr
                obtain ⟨h3, hfr3⟩ := balloc_tags (k := k) h2 hb
                cases hrel : brelse c (log_write (s3.setBuf bp { s3.bufs bp with
                    data := put32 (s3.bufs bp).data (bn - c.NDIRECT) b }) bp) bp with
                | error e => simp [hrel] at hr
                | ok r4 =>
                  obtain ⟨s4, u⟩ := r4
                  simp only [hrel, Except.ok.injEq, Prod.mk.injEq] at hr
                  rw [← hr.1]
                  exact held_poke_tags _ h3 hbp (by rw [hfr3 bp hlk]; exact hlk) hrel
          · rw [if_neg ht] at hr
            cases hrel : brelse c s2 bp with
            | error e => simp [hrel] at hr
            | ok r4 =>
              obtain ⟨s4, u⟩ := r4
              simp only [hrel, Except.ok.injEq, Prod.mk.injEq] at hr
              rw [← hr.1]
              exact (peek_tags (k := k + 3) h1 hbr hrel).1.mono (by omega)
    · rw [if_neg hj] at hr
      simp at hr

/-- The loop of `writei` in any state: its fuel suffices, it changes nothing of the inode
cache but block addresses of `ip`, it keeps the bookkeeping of the cache in order, and it
reaches the offset `off0 + n` when every copy-in succeeds. -/
theorem writei_loop_core (c : Config) (mem : Mem) (ip user_src n off0 src0 dev : Nat)
    (hB : 0 < c.BSIZE) (h32 : off0 + n < U32) :
    ∀ (fuel : Nat) (s : State) (tot : Nat), n - tot < fuel → tot ≤ n →
      (∀ e s', writei_loop c mem ip user_src n fuel s tot (off0 + tot) (src0 + tot) =
        .error (e, s') → e ≠ Err.no_progress) ∧
      ∀ s' o, writei_loop c mem ip user_src n fuel s tot (off0 + tot) (src0 + tot) =
          .ok (s', o) →
        AddrsOnly s s' ip ∧ off0 + tot ≤ o ∧ o ≤ off0 + n ∧
        ((user_src = 0 ∨ ∀ j, j < n → mem.ok (src0 + j) = true) → o = off0 + n) ∧
        ∀ k, (s.inodes ip).dev = dev → TagsOK c s dev (8 * (n - tot) + k) → TagsOK c s' dev k
  | 0, s, tot, hfuel, _ => by omega
  | fuel + 1, s, tot, hfuel, htot => by
    simp only [writei_loop]
    by_cases hlt : tot < n
    · rw [if_pos hlt]
      obtain ⟨m1, m2⟩ := bmap_core hB s ip ((off0 + tot) / c.BSIZE)
      cases hbm : bmap c s ip ((off0 + tot) / c.BSIZE) with
      | error e =>
        obtain ⟨e1, s1⟩ := e
        refine ⟨fun e s' hr => ?_, fun s' o hr => by simp at hr⟩
        simp only [Except.error.injEq, Prod.mk.injEq] at hr
        rw [← hr.1]
        exact m2 _ _ hbm
      | ok r =>
        obtain ⟨s1, addr⟩ := r
        simp only
        have ha1 : AddrsOnly s s1 ip := m1 _ _ hbm
        have hdev1 : (s1.inodes ip).dev = (s.inodes ip).dev := ha1.size_eq.2.1
        cases hbr : bread c s1 (s1.inodes ip).dev addr with
        | error e =>
          obtain ⟨e1, s2⟩ := e
          refine ⟨fun e s' hr => ?_, fun s' o hr => by simp at hr⟩
          simp only [Except.error.injEq, Prod.mk.injEq] at hr
          rw [← hr.1]
          exact Err.ofCache_ne_fuel (bread_err hbr)
        | ok r2 =>
          obtain ⟨s2, bp⟩ := r2
          simp only
          obtain ⟨m, hm⟩ : ∃ m, m = min (n - tot) (c.BSIZE - (off0 + tot) % c.BSIZE) := ⟨_, rfl⟩
          have hmod : (off0 + tot) % c.BSIZE < c.BSIZE := Nat.mod_lt _ hB
          have hm1 : 1 ≤ m := by rw [hm]; omega
          have hm2 : m ≤ n - tot := by rw [hm]; exact Nat.min_le_left _ _
          rw [← hm]
          cases hcp : either_copyin mem user_src (src0 + tot) m with
          | none =>
            simp only
            cases hrel : brelse c s2 bp with
            | error e =>
              obtain ⟨e1, s3⟩ := e
              refine ⟨fun e s' hr => ?_, fun s' o hr => by simp at hr⟩
              simp only [Except.error.injEq, Prod.mk.injEq] at hr
              rw [← hr.1]
              exact Err.ofCache_ne_fuel (brelse_err hrel)
            | ok r3 =>
              obtain ⟨s3, u⟩ := r3
              refine ⟨fun e s' hr => by simp at hr, fun s' o hr => ?_⟩
              simp only [Except.ok.injEq, Prod.mk.injEq] at hr
              obtain ⟨rfl, rfl⟩ := hr
              refine ⟨ha1.trans_addrs (AddrsOnly.of_core (peek_core hbr hrel) ip),
                Nat.le_refl _, by omega, fun hsrc => ?_, fun k hdev ht => ?_⟩
              · exfalso
                have := @either_copyin_ok mem user_src (src0 + tot) m
                  (by
                    rcases hsrc with h | h
                    · exact Or.inl h
                    · refine Or.inr (fun j hj => ?_)
                      rw [Nat.add_assoc]
                      exact h (tot + j) (by omega))
                rw [this] at hcp
                exact Option.noConfusion hcp
              · rw [← hdev] at ht ⊢
                have t1 := bmap_tags (k := 8 * (n - tot) + k - 6) hB
                  (by rw [show 8 * (n - tot) + k - 6 + 6 = 8 * (n - tot) + k by omega]; exact ht)
                  hbm
                rw [← hdev1] at t1
                rw [← hdev1]
                exact (peek_tags (k := k) (t1.mono (by omega)) hbr hrel).1.mono (by omega)
          | some bytes =>
            simp only
            cases hrel : brelse c (log_write (s2.setBuf bp { s2.bufs bp with
                data := fun i =>
                  if (off0 + tot) % c.BSIZE ≤ i ∧ i < (off0 + tot) % c.BSIZE + m then
                    bytes (i - (off0 + tot) % c.BSIZE)
                  else (s2.bufs bp).data i }) bp) bp with
            | error e =>
              obtain ⟨e1, s3⟩ := e
              refine ⟨fun e s' hr => ?_, fun s' o hr => by simp at hr⟩
              simp only [Except.error.injEq, Prod.mk.injEq] at hr
              rw [← hr.1]
              exact Err.ofCache_ne_fuel (brelse_err hrel)
            | ok r3 =>
              obtain ⟨s3, u⟩ := r3
              simp only
              have x1 : (tot + m) % U32 = tot + m := Nat.mod_eq_of_lt (by omega)
              have x2 : (off0 + tot + m) % U32 = off0 + (tot + m) := by
                rw [Nat.add_assoc]; exact Nat.mod_eq_of_lt (by omega)
              have x3 : src0 + tot + m = src0 + (tot + m) := Nat.add_assoc _ _ _
              rw [x1, x2, x3]
              obtain ⟨ih1, ih2⟩ := writei_loop_core c mem ip user_src n off0 src0 dev hB h32 fuel
                s3 (tot + m) (by omega) (by omega)
              refine ⟨ih1, fun s' o hr => ?_⟩
              obtain ⟨q1, q2, q3, q4, q5⟩ := ih2 s' o hr
              have ha3 : AddrsOnly s s3 ip :=
                ha1.trans_addrs (AddrsOnly.of_core (poke_core _ hbr hrel) ip)
              refine ⟨ha3.trans_addrs q1, by omega, q3, q4, fun k hdev ht => ?_⟩
              apply q5 k (by rw [ha3.size_eq.2.1]; exact hdev)
              rw [← hdev] at ht ⊢
              have t1 := bmap_tags (k := 8 * (n - (tot + m)) + k + 2) hB
                (h := ht.mono (by omega)) hbm
              rw [← hdev1] at t1
              rw [← hdev1]
              exact (poke_tags (k := 8 * (n - (tot + m)) + k) _ t1 hbr hrel).1.mono (by omega)
    · rw [if_neg hlt]
      refine ⟨fun e s' hr => by simp at hr, fun s' o hr => ?_⟩
      simp only [Except.ok.injEq, Prod.mk.injEq] at hr
      obtain ⟨rfl, rfl⟩ := hr
      exact ⟨AddrsOnly.rfl_addrs s ip, Nat.le_refl _, by omega, fun _ => by omega,
        fun k _ ht => ht.mono (by omega)⟩

/-- What `iupdate` leaves in the cache, whatever the content of the block it read: the block
of the inode holds the in-memory record, and is pinned for the log. -/
theorem iupdate_stores {c : Config} {s s' : State} {ip k : Nat} {u : Unit}
    (h : TagsOK c s (s.inodes ip).dev (k + 2)) (hr : iupdate c s ip = .ok (s', u)) :
    TagsOK c s' (s.inodes ip).dev (k + 1) ∧ s'.inodes = s.inodes ∧ s'.sb = s.sb ∧
      Pinned c s' (s.inodes ip).dev (IBLOCK c (s.inodes ip).inum s.sb) ∧
      ∃ data, blockView c s' (s.inodes ip).dev (IBLOCK c (s.inodes ip).inum s.sb) =
        c.dinodePut ((s.inodes ip).inum % c.IPB) (s.inodes ip).d data := by
  unfold iupdate at hr
  cases hbr : bread c s (s.inodes ip).dev (IBLOCK c (s.inodes ip).inum s.sb) with
  | error e => simp [hbr] at hr
  | ok r =>
    obtain ⟨s1, bp⟩ := r
    simp only [hbr] at hr
    obtain ⟨-, -, -, henv1, hino1, -⟩ := bread_shape h hbr
    rw [hino1] at hr
    obtain ⟨t1, t2, t3, -, -, t6, t7, -⟩ := poke_tags (k := k) _ h hbr hr
    exact ⟨t1, t3, t2.2.1, t6, _, t7⟩

/-- C19: `writei` never shrinks a file.  For an inode, an offset `off` and a length `n`
(32-bit unsigned): `writei` returns -1 and leaves the state, the inode with it, unchanged when
`off > size`, when `off + n` wraps around, or when `off + n > MAXFILE * BSIZE`.  Otherwise its
loop does not run out of fuel; for `n = 0` it returns 0 and changes nothing; and when it
returns, it returns `n` (as an `int`), the size is not smaller than before, the size is
`max(old size, off + n)` when every copy-in succeeds, and for `n > 0` the record of the inode
as it then is in memory, the size with it, has been put into the block of the inode in the
cache and pinned there by `log_write` (the bookkeeping of the cache being in order, with
reference counts `8 * n + 2` below `2^32`). -/
theorem writei_extends (c : Config) (s : State) (mem : Mem) (ip user_src src off n : Nat)
    (hB : 0 < c.BSIZE) (hoff : off < U32) (hn : n < U32) :
    (((s.inodes ip).d.size < off ∨ U32 ≤ off + n ∨ MAXFILE c * c.BSIZE < off + n) →
      writei c s mem ip user_src src off n = .ok (s, -1)) ∧
    (off ≤ (s.inodes ip).d.size → off + n < U32 → off + n ≤ MAXFILE c * c.BSIZE →
      (∀ e s', writei c s mem ip user_src src off n = .error (e, s') → e ≠ Err.no_progress) ∧
      (n = 0 → writei c s mem ip user_src src off n = .ok (s, 0)) ∧
      ∀ s' r, writei c s mem ip user_src src off n = .ok (s', r) →
        r = toInt32 n ∧ (n < 2147483648 → r = (n : Int)) ∧
        (s.inodes ip).d.size ≤ (s'.inodes ip).d.size ∧
        (s'.inodes ip).dev = (s.inodes ip).dev ∧ (s'.inodes ip).inum = (s.inodes ip).inum ∧
        ((user_src = 0 ∨ ∀ j, j < n → mem.ok (src + j) = true) →
          (s'.inodes ip).d.size = max (s.inodes ip).d.size (off + n)) ∧
        (0 < n → TagsOK c s (s.inodes ip).dev (8 * n + 2) →
          Pinned c s' (s.inodes ip).dev (IBLOCK c (s.inodes ip).inum s.sb) ∧
          ∃ data, blockView c s' (s.inodes ip).dev (IBLOCK c (s.inodes ip).inum s.sb) =
            c.dinodePut ((s.inodes ip).inum % c.IPB) (s'.inodes ip).d data)) := by
  refine ⟨fun h => ?_, fun h1 h2 h3 => ?_⟩
  · unfold writei
    by_cases hg : off > (s.inodes ip).d.size ∨ (off + n) % U32 < off
    · rw [if_pos hg]
    · rw [if_neg hg]
      have hnw : off + n < U32 := by
        by_contra hc
        apply hg
        right
        have e : (off + n) % U32 = off + n - U32 := by
          rw [Nat.mod_eq_sub_mod (by omega), Nat.mod_eq_of_lt (by omega)]
        rw [e]; omega
      rw [Nat.mod_eq_of_lt hnw, if_pos]
      rcases h with h | h | h
      · exact absurd (Or.inl h) hg
      · omega
      · exact h
  · have hmod : (off + n) % U32 = off + n := Nat.mod_eq_of_lt h2
    have hrun : writei c s mem ip user_src src off n =
        match writei_loop c mem ip user_src n (n + 1) s 0 off src with
        | .error e => .error e
        | .ok (s, off) =>
          if n > 0 then
            match iupdate c (if off > (s.inodes ip).d.size then
                s.setInode ip { s.inodes ip with d := { (s.inodes ip).d with size := off } }
              else s) ip with
            | .error e => .error e
            | .ok (s, _) => .ok (s, toInt32 n)
          else .ok (s, toInt32 n) := by
      unfold writei
      rw [hmod, if_neg (by omega), if_neg (by omega)]
    have hcore := writei_loop_core c mem ip user_src n off src (s.inodes ip).dev hB h2 (n + 1) s 0
      (by omega) (Nat.zero_le _)
    simp only [Nat.add_zero, Nat.sub_zero] at hcore
    obtain ⟨c1, c2⟩ := hcore
    rw [hrun]
    cases hl : writei_loop c mem ip user_src n (n + 1) s 0 off src with
    | error e1 =>
      obtain ⟨e2, s2⟩ := e1
      refine ⟨fun e s' hr => ?_, fun h0 => ?_, fun s' r hr => by simp at hr⟩
      · simp only [Except.error.injEq, Prod.mk.injEq] at hr
        rw [← hr.1]
        exact c1 _ _ hl
      · exfalso
        subst h0
        simp [writei_loop] at hl
    | ok r1 =>
      obtain ⟨sL, o⟩ := r1
      simp only
      obtain ⟨q1, q2, q3, q4, q5⟩ := c2 _ _ hl
      obtain ⟨z1, z2, z3, -⟩ := q1.size_eq
      by_cases hn0 : n > 0
      · rw [if_pos hn0]
        obtain ⟨sM, hsM⟩ : ∃ sM, sM = (if o > (sL.inodes ip).d.size then
            sL.setInode ip { sL.inodes ip with d := { (sL.inodes ip).d with size := o } }
            else sL) := ⟨_, rfl⟩
        rw [← hsM]
        have hM : (sM.inodes ip).dev = (s.inodes ip).dev ∧
            (sM.inodes ip).inum = (s.inodes ip).inum ∧ sM.sb = s.sb ∧
            (sM.inodes ip).d.size = max (s.inodes ip).d.size o ∧
            ∀ k, TagsOK c sL (s.inodes ip).dev k → TagsOK c sM (s.inodes ip).dev k := by
          by_cases ho : o > (sL.inodes ip).d.size
          · rw [if_pos ho] at hsM
            rw [hsM, setInode_same]
            refine ⟨z2, z3, q1.1, ?_, fun k hk => tagsOK_setInode hk _ _⟩
            show o = _
            rw [z1] at ho
            omega
          · rw [if_neg ho] at hsM
            rw [hsM]
            refine ⟨z2, z3, q1.1, ?_, fun k hk => hk⟩
            rw [z1] at ho ⊢
            omega
        obtain ⟨y1, y2, y3, y4, y5⟩ := hM
        have hiu := iupdate_inodes c sM ip
        cases hu : iupdate c sM ip with
        | error e1 =>
          obtain ⟨e2, s2⟩ := e1
          refine ⟨fun e s' hr => ?_, fun h0 => by omega, fun s' r hr => by simp at hr⟩
          simp only [Except.error.injEq, Prod.mk.injEq] at hr
          rw [← hr.1]
          unfold iupdate at hu
          cases hbr : bread c sM (sM.inodes ip).dev (IBLOCK c (sM.inodes ip).inum sM.sb) with
          | error e3 =>
            obtain ⟨e4, s4⟩ := e3
            rw [hbr] at hu
            simp only [Except.error.injEq, Prod.mk.injEq] at hu
            rw [← hu.1]
            exact Err.ofCache_ne_fuel (bread_err hbr)
          | ok r3 =>
            obtain ⟨s3, bp⟩ := r3
            rw [hbr] at hu
            exact Err.ofCache_ne_fuel (brelse_err hu)
        | ok r2 =>
          obtain ⟨s2, u⟩ := r2
          rw [hu] at hiu
          have hiu : s2.inodes = sM.inodes := hiu
          refine ⟨fun e s' hr => by simp at hr, fun h0 => by omega, fun s' r hr => ?_⟩
          simp only [Except.ok.injEq, Prod.mk.injEq] at hr
          obtain ⟨rfl, rfl⟩ := hr
          rw [hiu]
          refine ⟨rfl, fun hlt => toInt32_of_lt hlt, by rw [y4]; exact Nat.le_max_left _ _,
            y1, y2, fun hsrc => by rw [y4, q4 hsrc], fun _ ht => ?_⟩
          have htM : TagsOK c sM (sM.inodes ip).dev (0 + 2) := by
            rw [y1]
            exact y5 _ (q5 2 trivial ht)
          obtain ⟨-, -, -, w4, w5⟩ := iupdate_stores htM hu
          rw [y1, y2, y3] at w4 w5
          exact ⟨w4, w5⟩
      · rw [if_neg hn0]
        have hz : n = 0 := by omega
        subst hz
        have hsL : sL = s ∧ o = off := by
          simp only [writei_loop, Nat.lt_irrefl, if_false, Except.ok.injEq, Prod.mk.injEq] at hl
          exact ⟨hl.1.symm, hl.2.symm⟩
        obtain ⟨rfl, rfl⟩ := hsL
        refine ⟨fun e s' hr => by simp at hr, fun _ => by rw [toInt32_zero],
          fun s' r hr => ?_⟩
        simp only [Except.ok.injEq, Prod.mk.injEq] at hr
        obtain ⟨rfl, rfl⟩ := hr
        exact ⟨rfl, fun hlt => toInt32_of_lt hlt, Nat.le_refl _, rfl, rfl,
          fun _ => by rw [Nat.add_zero, Nat.max_eq_left h1], fun h => absurd h (Nat.lt_irrefl 0)⟩

set_option maxRecDepth 100000 in
/-- Worked example for C19: on the example file system, `writei` of three bytes at offset 0
of the empty file returns 3 and leaves the size 3. -/
theorem writei_extends_witness :
    (0 < cfg0.BSIZE ∧ 0 < U32 ∧ 3 < U32 ∧ 0 ≤ ((fs0 (-1)).inodes 0).d.size ∧ 0 + 3 < U32 ∧
      0 + 3 ≤ MAXFILE cfg0 * cfg0.BSIZE ∧
      writei cfg0 (fs0 (-1)) mem0 0 0 1000 0 3 = .ok (fs0Write (-1), 3)) ∧
    ((fs0Write (-1)).inodes 0).d.size = max ((fs0 (-1)).inodes 0).d.size (0 + 3) :=
  ⟨⟨by decide, by decide, by decide, by decide, by decide, by decide, fs0_writei⟩,
    (((writei_extends cfg0 (fs0 (-1)) mem0 0 0 1000 0 3 (by decide) (by decide)
      (by decide)).2 (by decide) (by decide) (by decide)).2.2 _ _ fs0_writei).2.2.2.2.2.1
      (Or.inl rfl)⟩

/-! ## itrunc -/

/-- A buffer just read that nobody else references has the content of the disk. -/
theorem bread_clean {c : Config} {s s1 : State} {dev n b k : Nat}
    (h : Coherent c s dev (k + 1)) (hf : forced s n = false)
    (hr : bread c s dev n = .ok (s1, b)) :
    (s1.bufs b).refcnt = 1 → (s1.bufs b).data = s1.disk (s1.bufs b).blockno := by
  obtain ⟨hbufs, -, -, henv, -, -, hb, hl, hh, hlk, hv, -, -, hcase⟩ := bread_shape h.1 hr
  obtain ⟨-, -, hrc⟩ := bread_tags h.1 hr
  obtain ⟨hc1, hdata, hview1⟩ := bread_view h hf hr
  intro h1
  have h0 : (s.bufs b).refcnt = 0 := by omega
  rw [hdata, henv.1, hh.2]
  rcases hcase with hold | ⟨hno, -⟩
  · rw [blockView_of_holds h.1 hb hold]
    by_cases hv0 : (s.bufs b).valid = 0
    · rw [if_pos hv0]
    · rw [if_neg hv0, h.2 b hb hold.1 hv0 h0, hold.2]
  · exact blockView_of_none h.1.1 hno

/-- What a returning `bfree` has done, without an injected fault: the bit of the block was
set and is clear, every other bit is as before, and no buffer that is held has changed. -/
theorem bfree_part {c : Config} {s s' : State} {dev b k : Nat} {u : Unit}
    (hc : Coherent c s dev (k + 2)) (hg : Geometry c s) (hnf : NoFault s)
    (hb : b < s.sb.size) (hr : bfree c s dev b = .ok (s', u)) :
    Coherent c s' dev (k + 1) ∧ SameEnv s s' ∧ s'.inodes = s.inodes ∧
      (∀ i, (s.bufs i).locked = true → s'.bufs i = s.bufs i) ∧ bmBit c s dev b = true ∧
      (∀ m, (∀ y, y < s.sb.size → m ≠ BBLOCK c y s.sb) →
        blockView c s' dev m = blockView c s dev m) ∧
      ∀ x, x < s.sb.size → bmBit c s' dev x = if x = b then false else bmBit c s dev x := by
  have hf0 : forced s (BBLOCK c b s.sb) = false := hnf _ (hg.2.2 b hb)
  unfold bfree at hr
  cases hbr : bread c s dev (BBLOCK c b s.sb) with
  | error e => simp [hbr] at hr
  | ok r =>
    obtain ⟨s1, bp⟩ := r
    simp only [hbr] at hr
    obtain ⟨-, hdata, hview1⟩ := bread_view (k := k + 1) hc hf0 hbr
    have hbit : ((s1.bufs bp).data (b % BPB c / 8) &&& 1 <<< (b % BPB c % 8) = 0) ↔
        bmBit c s dev b = false := by
      rw [and_shift_eq_zero, hdata]
      rfl
    by_cases hz : (s1.bufs bp).data (b % BPB c / 8) &&& 1 <<< (b % BPB c % 8) = 0
    · rw [if_pos hz] at hr
      simp at hr
    · rw [if_neg hz] at hr
      have hset : bmBit c s dev b = true := by
        cases hq : bmBit c s dev b with
        | false => exact absurd (hbit.2 hq) hz
        | true => rfl
      obtain ⟨hc3, -, hview3⟩ := poke_view (k := k) _ hc hf0 hbr hr
      obtain ⟨-, henv3, hino3, -⟩ := poke_tags (k := k) _ hc.1 hbr hr
      have hfr := poke_frame (k := k) _ hc.1 hbr hr
      refine ⟨hc3, henv3, hino3, hfr, hset, fun m hm => ?_, fun x hx => ?_⟩
      · rw [hview3, if_neg (hm b hb)]
      · unfold bmBit
        rw [henv3.2.1, hview3]
        by_cases he : BBLOCK c x s.sb = BBLOCK c b s.sb
        · rw [if_pos he, hdata, he]
          rw [bitOf_clear]
          by_cases hxb : x = b
          · rw [if_pos (by rw [hxb]), if_pos hxb]
          · rw [if_neg hxb, if_neg]
            intro hmod
            apply hxb
            have hdiv := bblock_inj hg hx hb he
            have e1 := Nat.div_add_mod x (BPB c)
            have e2 := Nat.div_add_mod b (BPB c)
            rw [hdiv, hmod] at e1
            omega
        · rw [if_neg he, if_neg]
          intro hxb
          exact he (by rw [hxb])

theorem Freed.iff_set {c : Config} {s s2 : State} {dev : Nat} {F G : Nat → Prop}
    (h : Freed c s s2 dev F) (hFG : ∀ x, F x ↔ G x) : Freed c s s2 dev G :=
  ⟨h.1, h.2.1, fun x hx =>
    ⟨fun hG => (h.2.2 x hx).1 ((hFG x).2 hG), fun hG => (h.2.2 x hx).2 (fun hF => hG ((hFG x).1 hF))⟩⟩

theorem Freed.rfl_freed (c : Config) (s : State) (dev : Nat) :
    Freed c s s dev (fun _ => False) :=
  ⟨SameEnv.rfl_env s, fun _ _ => rfl, fun _ _ => ⟨fun h => h.elim, fun _ => rfl⟩⟩

/-- One more block given back. -/
theorem Freed.add_block {c : Config} {s0 s s' : State} {dev b k : Nat} {u : Unit} {F : Nat → Prop}
    (hF : Freed c s0 s dev F) (hc : Coherent c s dev (k + 2)) (hg : Geometry c s0)
    (hnf : NoFault s0) (hb : b < s0.sb.size) (hr : bfree c s dev b = .ok (s', u)) :
    Freed c s0 s' dev (fun x => F x ∨ x = b) ∧ Coherent c s' dev (k + 1) ∧
      s'.inodes = s.inodes ∧ (∀ i, (s.bufs i).locked = true → s'.bufs i = s.bufs i) ∧
      bmBit c s dev b = true := by
  have hsb : s.sb = s0.sb := hF.1.2.1
  obtain ⟨p1, p2, p3, p4, p5, p6, p7⟩ :=
    bfree_part hc (geometry_env hg hF.1) (noFault_env hnf hF.1) (by rw [hsb]; exact hb) hr
  rw [hsb] at p6 p7
  refine ⟨⟨hF.1.trans_env p2, fun m hm => (p6 m hm).trans (hF.2.1 m hm), fun x hx => ?_⟩,
    p1, p3, p4, p5⟩
  rw [p7 x hx]
  constructor
  · rintro (h | h)
    · by_cases hxb : x = b
      · rw [if_pos hxb]
      · rw [if_neg hxb]; exact (hF.2.2 x hx).1 h
    · rw [if_pos h]
  · intro hn
    rw [if_neg (fun h => hn (Or.inr h))]
    exact (hF.2.2 x hx).2 (fun h => hn (Or.inl h))

/-- The first loop of `itrunc` on a well-formed file, without an injected fault: the direct
blocks are given back and their addresses set to 0. -/
theorem itrunc_direct_view (c : Config) (ip dev : Nat) (s0 : State) (hg : Geometry c s0)
    (hnf : NoFault s0) (hf : FileOK c s0 ip) (hdev : (s0.inodes ip).dev = dev) :
    ∀ (n i : Nat) (s s' : State) (k : Nat) (u : Unit), i + n = c.NDIRECT →
      Freed c s0 s dev (fun x => x ≠ 0 ∧ ∃ j, j < i ∧ x = (s0.inodes ip).d.addrs j) →
      Coherent c s dev (k + n + 1) → AddrsOnly s0 s ip →
      (∀ j, (s.inodes ip).d.addrs j = if j < i then 0 else (s0.inodes ip).d.addrs j) →
      itrunc_direct c ip n i s = .ok (s', u) →
      Freed c s0 s' dev
          (fun x => x ≠ 0 ∧ ∃ j, j < c.NDIRECT ∧ x = (s0.inodes ip).d.addrs j) ∧
        Coherent c s' dev (k + 1) ∧ AddrsOnly s0 s' ip ∧
        ∀ j, (s'.inodes ip).d.addrs j = if j < c.NDIRECT then 0 else (s0.inodes ip).d.addrs j
  | 0, i, s, s', k, u, hin, hF, hc, ha, had, hr => by
    simp only [itrunc_direct, Except.ok.injEq, Prod.mk.injEq] at hr
    have hi : i = c.NDIRECT := by omega
    rw [← hr.1, ← hi]
    exact ⟨hF, hc, ha, had⟩
  | n + 1, i, s, s', k, u, hin, hF, hc, ha, had, hr => by
    simp only [itrunc_direct] at hr
    have hai : (s.inodes ip).d.addrs i = (s0.inodes ip).d.addrs i := by
      rw [had i, if_neg (Nat.lt_irrefl i)]
    have hdv : (s.inodes ip).dev = dev := by rw [ha.size_eq.2.1, hdev]
    by_cases h0 : (s.inodes ip).d.addrs i ≠ 0
    · rw [if_pos h0, hdv, hai] at hr
      rw [hai] at h0
      have hown : Owned c s0 ip ((s0.inodes ip).d.addrs i) :=
        ⟨h0, Or.inr ⟨i, by unfold MAXFILE; omega, by unfold fileBlock; rw [if_pos (by omega)]⟩⟩
      have hlt := (hf.2.1 _ hown).1
      cases hb : bfree c s dev ((s0.inodes ip).d.addrs i) with
      | error e => simp [hb] at hr
      | ok r =>
        obtain ⟨s1, u1⟩ := r
        simp only [hb] at hr
        obtain ⟨f1, f2, f3, -, -⟩ := hF.add_block (k := k + n)
          (by rw [show k + n + 2 = k + (n + 1) + 1 by omega]; exact hc) hg hnf hlt hb
        have ha1 : AddrsOnly s0 s1 ip := ha.trans_addrs (AddrsOnly.of_core ⟨f3, f1.1.2.1.trans
          hF.1.2.1.symm⟩ ip)
        refine itrunc_direct_view c ip dev s0 hg hnf hf hdev n (i + 1) _ s' k u (by omega)
          ?_ (coherent_setInode f2 _ _) (ha1.trans_addrs (AddrsOnly.set_addrs s1 ip _))
          (fun j => ?_) hr
        · refine Freed.iff_set (F := fun x => (x ≠ 0 ∧ ∃ j, j < i ∧ x = (s0.inodes ip).d.addrs j) ∨
            x = (s0.inodes ip).d.addrs i) ⟨f1.1, f1.2.1, f1.2.2⟩ (fun x => ?_)
          constructor
          · rintro (⟨hx, j, hj, e⟩ | e)
            · exact ⟨hx, j, by omega, e⟩
            · exact ⟨by rw [e]; exact h0, i, by omega, e⟩
          · rintro ⟨hx, j, hj, e⟩
            by_cases hji : j = i
            · right; rw [e, hji]
            · left; exact ⟨hx, j, by omega, e⟩
        · rw [setInode_same]
          show Function.update (s1.inodes ip).d.addrs i 0 j = _
          by_cases hji : j = i
          · rw [hji, Function.update_same, if_pos (by omega)]
          · rw [Function.update_noteq hji, f3, had j]
            by_cases hlt2 : j < i
            · rw [if_pos hlt2, if_pos (by omega)]
            · rw [if_neg hlt2, if_neg (by omega)]
    · rw [if_neg h0] at hr
      have hz : (s0.inodes ip).d.addrs i = 0 := by
        rw [← hai]; exact Classical.not_not.1 h0
      refine itrunc_direct_view c ip dev s0 hg hnf hf hdev n (i + 1) s s' k u (by omega)
        ?_ (coherent_mono hc (by omega)) ha (fun j => ?_) hr
      · refine hF.iff_set (fun x => ?_)
        constructor
        · rintro ⟨hx, j, hj, e⟩
          exact ⟨hx, j, by omega, e⟩
        · rintro ⟨hx, j, hj, e⟩
          by_cases hji : j = i
          · rw [hji, hz] at e; exact absurd e hx
          · exact ⟨hx, j, by omega, e⟩
      · rw [had j]
        by_cases hji : j = i
        · rw [hji, if_neg (Nat.lt_irrefl i), if_pos (by omega), hz]
        · by_cases hlt2 : j < i
          · rw [if_pos hlt2, if_pos (by omega)]
          · rw [if_neg hlt2, if_neg (by omega)]

/-- The second loop of `itrunc`, over the entries `D` of the indirect block held in buffer
`bp`, without an injected fault: the blocks entered are given back. -/
theorem itrunc_entries_view (c : Config) (ip dev bp : Nat) (s0 : State) (D : Nat → Nat)
    (F0 : Nat → Prop) (hg : Geometry c s0) (hnf : NoFault s0)
    (hlt : ∀ j, j < NINDIRECT c → get32 D j ≠ 0 → get32 D j < s0.sb.size) :
    ∀ (n j : Nat) (s s' : State) (k : Nat) (u : Unit), j + n = NINDIRECT c →
      Freed c s0 s dev (fun x => F0 x ∨ (x ≠ 0 ∧ ∃ i, i < j ∧ x = get32 D i)) →
      Coherent c s dev (k + n + 1) → (s.inodes ip).dev = dev →
      (s.bufs bp).locked = true → (s.bufs bp).data = D →
      itrunc_entries c ip bp n j s = .ok (s', u) →
      Freed c s0 s' dev (fun x => F0 x ∨ (x ≠ 0 ∧ ∃ i, i < NINDIRECT c ∧ x = get32 D i)) ∧
        Coherent c s' dev (k + 1) ∧ s'.inodes = s.inodes ∧ s'.bufs bp = s.bufs bp
  | 0, j, s, s', k, u, hjn, hF, hc, hdv, hlk, hD, hr => by
    simp only [itrunc_entries, Except.ok.injEq, Prod.mk.injEq] at hr
    have hj : j = NINDIRECT c := by omega
    rw [← hr.1, ← hj]
    exact ⟨hF, hc, rfl, rfl⟩
  | n + 1, j, s, s', k, u, hjn, hF, hc, hdv, hlk, hD, hr => by
    simp only [itrunc_entries] at hr
    rw [hD, hdv] at hr
    by_cases h0 : get32 D j ≠ 0
    · rw [if_pos h0] at hr
      cases hb : bfree c s dev (get32 D j) with
      | error e => simp [hb] at hr
      | ok r =>
        obtain ⟨s1, u1⟩ := r
        simp only [hb] at hr
        obtain ⟨f1, f2, f3, f4, -⟩ := hF.add_block (k := k + n)
          (by rw [show k + n + 2 = k + (n + 1) + 1 by omega]; exact hc) hg hnf
          (hlt j (by omega) h0) hb
        have hbp : s1.bufs bp = s.bufs bp := f4 bp hlk
        obtain ⟨q1, q2, q3, q4⟩ := itrunc_entries_view c ip dev bp s0 D F0 hg hnf hlt n (j + 1)
          s1 s' k u (by omega)
          (Freed.iff_set f1 (fun x => by
            constructor
            · rintro ((h | ⟨hx, i, hi, e⟩) | e)
              · exact Or.inl h
              · exact Or.inr ⟨hx, i, by omega, e⟩
              · exact Or.inr ⟨by rw [e]; exact h0, j, by omega, e⟩
            · rintro (h | ⟨hx, i, hi, e⟩)
              · exact Or.inl (Or.inl h)
              · by_cases hij : i = j
                · right; rw [e, hij]
                · exact Or.inl (Or.inr ⟨hx, i, by omega, e⟩)))
          f2 (by rw [f3]; exact hdv) (by rw [hbp]; exact hlk) (by rw [hbp]; exact hD) hr
        exact ⟨q1, q2, q3.trans f3, q4.trans hbp⟩
    · rw [if_neg h0] at hr
      have hz : get32 D j = 0 := Classical.not_not.1 h0
      exact itrunc_entries_view c ip dev bp s0 D F0 hg hnf hlt n (j + 1) s s' k u (by omega)
        (hF.iff_set (fun x => by
          constructor
          · rintro (h | ⟨hx, i, hi, e⟩)
            · exact Or.inl h
            · exact Or.inr ⟨hx, i, by omega, e⟩
          · rintro (h | ⟨hx, i, hi, e⟩)
            · exact Or.inl h
            · by_cases hij : i = j
              · rw [hij, hz] at e; exact absurd e hx
              · exact Or.inr ⟨hx, i, by omega, e⟩))
        (coherent_mono hc (by omega)) hdv hlk hD hr

/-- What `itrunc` leaves behind on a well-formed file, without an injected fault: every block
of the file is given back to the free map and no other bit changes, the addresses and the
size of the inode are 0, and the block of the inode in the cache holds the in-memory
record. -/
theorem itrunc_view {c : Config} {s s' : State} {ip k : Nat} {u : Unit}
    (hc : Coherent c s (s.inodes ip).dev (MAXFILE c + k + 4)) (hg : Geometry c s)
    (hnf : NoFault s) (hf : FileOK c s ip)
    (hib : ∀ y, y < s.sb.size → IBLOCK c (s.inodes ip).inum s.sb ≠ BBLOCK c y s.sb)
    (hr : itrunc c s ip = .ok (s', u)) :
    Coherent c s' (s.inodes ip).dev (k + 1) ∧ SameEnv s s' ∧
      (∀ j, j ≠ ip → s'.inodes j = s.inodes j) ∧
      (∃ ad, (∀ j, j ≤ c.NDIRECT → ad j = 0) ∧
        s'.inodes ip = { s.inodes ip with d := { (s.inodes ip).d with size := 0, addrs := ad } }) ∧
      (∀ x, x < s.sb.size →
        (Owned c s ip x → bmBit c s' (s.inodes ip).dev x = false) ∧
        (¬ Owned c s ip x → bmBit c s' (s.inodes ip).dev x = bmBit c s (s.inodes ip).dev x)) ∧
      (∃ data, blockView c s' (s.inodes ip).dev (IBLOCK c (s.inodes ip).inum s.sb) =
        c.dinodePut ((s.inodes ip).inum % c.IPB) (s'.inodes ip).d data) ∧
      ∀ m, m ≠ IBLOCK c (s.inodes ip).inum s.sb → (∀ y, y < s.sb.size → m ≠ BBLOCK c y s.sb) →
        blockView c s' (s.inodes ip).dev m = blockView c s (s.inodes ip).dev m := by
  obtain ⟨dev, hdev⟩ : ∃ dev, (s.inodes ip).dev = dev := ⟨_, rfl⟩
  rw [hdev] at hc ⊢
  unfold itrunc at hr
  cases hd : itrunc_direct c ip c.NDIRECT 0 s with
  | error e => simp [hd] at hr
  | ok r1 =>
    obtain ⟨s1, u1⟩ := r1
    simp only [hd] at hr
    obtain ⟨d1, d2, d3, d4⟩ := itrunc_direct_view c ip dev s hg hnf hf hdev c.NDIRECT 0 s s1
      (k + NINDIRECT c + 3) u1 (by omega)
      ((Freed.rfl_freed c s dev).iff_set (fun x => by
        constructor
        · exact fun h => h.elim
        · rintro ⟨_, j, hj, _⟩; exact absurd hj (Nat.not_lt_zero j)))
      (coherent_mono hc (by unfold MAXFILE; omega)) (AddrsOnly.rfl_addrs s ip)
      (fun j => by rw [if_neg (Nat.not_lt_zero j)]) hd
    have hind1 : (s1.inodes ip).d.addrs c.NDIRECT = (s.inodes ip).d.addrs c.NDIRECT := by
      rw [d4, if_neg (Nat.lt_irrefl _)]
    have hdev1 : (s1.inodes ip).dev = dev := by rw [d3.size_eq.2.1, hdev]
    -- the state after the indirect block was dealt with
    have hmid : ∀ s5 : State, (if (s1.inodes ip).d.addrs c.NDIRECT ≠ 0 then
          match bread c s1 (s1.inodes ip).dev ((s1.inodes ip).d.addrs c.NDIRECT) with
          | .error e => .error e
          | .ok (s, bp) =>
            match itrunc_entries c ip bp (NINDIRECT c) 0 s with
            | .error e => .error e
            | .ok (s, _) =>
              match brelse c s bp with
              | .error e => .error e
              | .ok (s, _) =>
                match bfree c s (s.inodes ip).dev ((s.inodes ip).d.addrs c.NDIRECT) with
                | .error e => .error e
                | .ok (s, _) =>
                  .ok (s.setInode ip { s.inodes ip with d := { (s.inodes ip).d with
                    addrs := Function.update (s.inodes ip).d.addrs c.NDIRECT 0 } }, ())
        else .ok (s1, ()) : Res Unit) = .ok (s5, ()) →
        Freed c s s5 dev (Owned c s ip) ∧ Coherent c s5 dev (k + 2) ∧ AddrsOnly s s5 ip ∧
          ∀ j, j ≤ c.NDIRECT → (s5.inodes ip).d.addrs j = 0 := by
      intro s5 h5
      by_cases h0 : (s1.inodes ip).d.addrs c.NDIRECT ≠ 0
      · rw [if_pos h0, hdev1, hind1] at h5
        rw [hind1] at h0
        have hown : Owned c s ip ((s.inodes ip).d.addrs c.NDIRECT) := ⟨h0, Or.inl rfl⟩
        obtain ⟨hlt, -, hnm⟩ := hf.2.1 _ hown
        have hnb : ∀ y, y < s.sb.size → (s.inodes ip).d.addrs c.NDIRECT ≠ BBLOCK c y s.sb :=
          fun y hy e => hnm (Or.inl ⟨y, hy, e⟩)
        have hf1 : forced s1 ((s.inodes ip).d.addrs c.NDIRECT) = false := by
          rw [d1.1.forced_eq]; exact hnf _ hlt
        cases hbr : bread c s1 dev ((s.inodes ip).d.addrs c.NDIRECT) with
        | error e => simp [hbr] at h5
        | ok r2 =>
          obtain ⟨s2, bp⟩ := r2
          simp only [hbr] at h5
          obtain ⟨-, -, -, henv2, hino2, -, hbp, -, hh, hlk, hv, -, -, -⟩ := bread_shape d2.1 hbr
          obtain ⟨hc2, hdata, hview2⟩ := bread_view (k := k + NINDIRECT c + 3) d2 hf1 hbr
          have hclean := bread_clean (k := k + NINDIRECT c + 3) d2 hf1 hbr
          have hD : (s2.bufs bp).data = blockView c s dev ((s.inodes ip).d.addrs c.NDIRECT) := by
            rw [hdata, d1.2.1 _ hnb]
          have hentry : ∀ j, get32 (s2.bufs bp).data j = fileBlock c s ip (c.NDIRECT + j) := by
            intro j
            rw [fileBlock_indirect h0, hD, hdev]
          cases hen : itrunc_entries c ip bp (NINDIRECT c) 0 s2 with
          | error e => simp [hen] at h5
          | ok r3 =>
            obtain ⟨s3, u3⟩ := r3
            simp only [hen] at h5
            obtain ⟨e1, e2, e3, e4⟩ := itrunc_entries_view c ip dev bp s (s2.bufs bp).data
              (fun x => x ≠ 0 ∧ ∃ j, j < c.NDIRECT ∧ x = (s.inodes ip).d.addrs j) hg hnf
              (fun j hj hj0 => by
                rw [hentry] at hj0 ⊢
                exact (hf.2.1 _ ⟨hj0, Or.inr ⟨c.NDIRECT + j, by unfold MAXFILE; omega, rfl⟩⟩).1)
              (NINDIRECT c) 0 s2 s3 (k + 2) u3 (by omega)
              (Freed.iff_set (F := fun x => x ≠ 0 ∧ ∃ j, j < c.NDIRECT ∧
                  x = (s.inodes ip).d.addrs j)
                ⟨d1.1.trans_env henv2, fun m hm => (hview2 m).trans (d1.2.1 m hm),
                  fun x hx => by
                    unfold bmBit
                    rw [henv2.2.1, hview2]
                    exact d1.2.2 x hx⟩
                (fun x => by
                  constructor
                  · exact fun h => Or.inl h
                  · rintro (h | ⟨_, i, hi, _⟩)
                    · exact h
                    · exact absurd hi (Nat.not_lt_zero i)))
              (coherent_mono hc2 (by omega)) (by rw [hino2]; exact hdev1) hlk rfl hen
            cases hrel : brelse c s3 bp with
            | error e => simp [hrel] at h5
            | ok r4 =>
              obtain ⟨s4, u4⟩ := r4
              simp only [hrel] at h5
              have hino3 : s3.inodes = s1.inodes := e3.trans hino2
              obtain ⟨hc4, hview4⟩ := brelse_view e2 hbp (by rw [e4]; exact hlk)
                (fun _ _ h1 => by
                  rw [e4] at h1 ⊢
                  rw [hclean h1, e1.1.1, henv2.1, d1.1.1])
                hrel
              obtain ⟨s4b, x1, -, -, henv4, hino4, -, -⟩ :=
                brelse_tags e2.1 hbp (by rw [e4]; exact hlk)
              rw [hrel] at x1
              simp only [Except.ok.injEq, Prod.mk.injEq, and_true] at x1
              subst x1
              have hF4 : Freed c s s4 dev (fun x =>
                  (x ≠ 0 ∧ ∃ j, j < c.NDIRECT ∧ x = (s.inodes ip).d.addrs j) ∨
                  (x ≠ 0 ∧ ∃ i, i < NINDIRECT c ∧ x = get32 (s2.bufs bp).data i)) :=
                ⟨e1.1.trans_env henv4, fun m hm => (hview4 m).trans (e1.2.1 m hm),
                  fun x hx => by
                    unfold bmBit
                    rw [henv4.2.1, hview4]
                    exact e1.2.2 x hx⟩
              have hino4b : s4.inodes = s1.inodes := hino4.trans hino3
              rw [hino4b, hdev1, hind1] at h5
              cases hbf : bfree c s4 dev ((s.inodes ip).d.addrs c.NDIRECT) with
              | error e => simp [hbf] at h5
              | ok r5 =>
                obtain ⟨s6, u6⟩ := r5
                simp only [hbf, Except.ok.injEq, Prod.mk.injEq, and_true] at h5
                obtain ⟨g1, g2, g3, -, -⟩ := hF4.add_block (k := k + 1) hc4 hg hnf hlt hbf
                have hino6 : s6.inodes = s1.inodes := g3.trans hino4b
                have ha6 : AddrsOnly s s6 ip :=
                  d3.trans_addrs (AddrsOnly.of_core ⟨hino6, g1.1.2.1.trans d1.1.2.1.symm⟩ ip)
                rw [← h5]
                refine ⟨?_, coherent_setInode g2 _ _,
                  ha6.trans_addrs (AddrsOnly.set_addrs s6 ip _), fun j hj => ?_⟩
                · refine Freed.iff_set (F := fun x =>
                    ((x ≠ 0 ∧ ∃ j, j < c.NDIRECT ∧ x = (s.inodes ip).d.addrs j) ∨
                    (x ≠ 0 ∧ ∃ i, i < NINDIRECT c ∧ x = get32 (s2.bufs bp).data i)) ∨
                    x = (s.inodes ip).d.addrs c.NDIRECT) ⟨g1.1, g1.2.1, g1.2.2⟩ (fun x => ?_)
                  constructor
                  · rintro ((⟨hx, j, hj, e⟩ | ⟨hx, i, hi, e⟩) | e)
                    · exact ⟨hx, Or.inr ⟨j, by unfold MAXFILE; omega, by
                        unfold fileBlock; rw [if_pos hj, e]⟩⟩
                    · exact ⟨hx, Or.inr ⟨c.NDIRECT + i, by unfold MAXFILE; omega, by
                        rw [← hentry, e]⟩⟩
                    · exact ⟨by rw [e]; exact h0, Or.inl e⟩
                  · rintro ⟨hx, e | ⟨bn, hbn, e⟩⟩
                    · exact Or.inr e
                    · left
                      by_cases hdn : bn < c.NDIRECT
                      · left
                        refine ⟨hx, bn, hdn, ?_⟩
                        rw [e]; unfold fileBlock; rw [if_pos hdn]
                      · right
                        refine ⟨hx, bn - c.NDIRECT, by unfold MAXFILE at hbn; omega, ?_⟩
                        rw [hentry, e, show c.NDIRECT + (bn - c.NDIRECT) = bn by omega]
                · rw [setInode_same]
                  show Function.update (s6.inodes ip).d.addrs c.NDIRECT 0 j = 0
                  by_cases hjn : j = c.NDIRECT
                  · rw [hjn, Function.update_same]
                  · rw [Function.update_noteq hjn, hino6, d4, if_pos (by omega)]
      · rw [if_neg h0] at h5
        simp only [Except.ok.injEq, Prod.mk.injEq, and_true] at h5
        have hz : (s.inodes ip).d.addrs c.NDIRECT = 0 := by
          rw [← hind1]; exact Classical.not_not.1 h0
        rw [← h5]
        refine ⟨d1.iff_set (fun x => ?_), coherent_mono d2 (by omega), d3, fun j hj => ?_⟩
        · constructor
          · rintro ⟨hx, j, hj, e⟩
            exact ⟨hx, Or.inr ⟨j, by unfold MAXFILE; omega, by
              unfold fileBlock; rw [if_pos hj, e]⟩⟩
          · rintro ⟨hx, e | ⟨bn, hbn, e⟩⟩
            · rw [hz] at e; exact absurd e hx
            · by_cases hdn : bn < c.NDIRECT
              · refine ⟨hx, bn, hdn, ?_⟩
                rw [e]; unfold fileBlock; rw [if_pos hdn]
              · exfalso
                apply hx
                rw [e]; unfold fileBlock; rw [if_neg hdn, if_pos hz]
        · rw [d4]
          by_cases hjn : j < c.NDIRECT
          · rw [if_pos hjn]
          · rw [if_neg hjn, show j = c.NDIRECT by omega, hz]
    split at hr
    · simp at hr
    · rename_i s5 u5 heq
      obtain ⟨m1, m2, m3, m4⟩ := hmid s5 heq
      obtain ⟨z1, z2, z3, -⟩ := m3.size_eq
      obtain ⟨sM, hsM⟩ : ∃ sM, sM = s5.setInode ip { s5.inodes ip with
          d := { (s5.inodes ip).d with size := 0 } } := ⟨_, rfl⟩
      rw [← hsM] at hr
      have hinoM : sM.inodes ip = { s5.inodes ip with d := { (s5.inodes ip).d with size := 0 } } := by
        rw [hsM, setInode_same]
      have hdevM : (sM.inodes ip).dev = dev := by rw [hinoM]; exact z2.trans hdev
      have hinumM : (sM.inodes ip).inum = (s.inodes ip).inum := by rw [hinoM]; exact z3
      have hsbM : sM.sb = s.sb := by rw [hsM]; exact m3.1
      have hcM : Coherent c sM dev (k + 2) := by rw [hsM]; exact coherent_setInode m2 _ _
      have hvM : ∀ m, blockView c sM dev m = blockView c s5 dev m := fun m => by rw [hsM]; rfl
      have hiblt : IBLOCK c (s.inodes ip).inum s.sb < s.sb.size := (hf.1 _ (Or.inr rfl)).1
      have hfM : forced sM (IBLOCK c (s.inodes ip).inum s.sb) = false := by
        have henvM : SameEnv s sM := by rw [hsM]; exact m1.1
        rw [henvM.forced_eq]; exact hnf _ hiblt
      unfold iupdate at hr
      rw [hdevM, hinumM, hsbM] at hr
      cases hbr : bread c sM dev (IBLOCK c (s.inodes ip).inum s.sb) with
      | error e => simp [hbr] at hr
      | ok r6 =>
        obtain ⟨s6, bp⟩ := r6
        simp only [hbr] at hr
        obtain ⟨-, -, -, -, hino6, -⟩ := bread_shape hcM.1 hbr
        rw [hino6] at hr
        have hu : u = () := rfl
        rw [hu] at hr
        obtain ⟨hc7, -, hview7⟩ := poke_view (k := k) _ hcM hfM hbr hr
        obtain ⟨-, henv7, hino7, -⟩ := poke_tags (k := k) _ hcM.1 hbr hr
        have hino7b : s'.inodes ip = sM.inodes ip := by rw [hino7]
        have henvS : SameEnv s sM := by rw [hsM]; exact m1.1
        obtain ⟨-, hoth, ad, had⟩ := m3
        refine ⟨hc7, henvS.trans_env henv7, fun j hj => ?_, ⟨ad, fun j hj => ?_, ?_⟩,
          fun x hx => ?_, ⟨(s6.bufs bp).data, ?_⟩, fun m hm1 hm2 => ?_⟩
        · rw [hino7, hsM, setInode_other _ _ _ hj]
          exact hoth j hj
        · have := m4 j hj
          rw [had] at this
          exact this
        · rw [hino7b, hinoM, had]
        · have hb : bmBit c s' dev x = bmBit c s5 dev x := by
            unfold bmBit
            rw [henv7.2.1, hsbM, m1.1.2.1, hview7, if_neg (fun e => hib x hx e.symm), hvM]
          rw [hb]
          exact m1.2.2 x hx
        · rw [hview7, if_pos rfl, hino7b, hinumM]
        · rw [hview7, if_neg hm1, hvM]
          exact m1.2.1 m hm2

/-! ## The second worked example -/

theorem fs2_bufs (fail : Int) (l : Bool) (i : Nat) : (fs2 fail l).bufs i = Buf.zero :=
  boot_bufs cfg0 disk2 (-1) fail sb0 i

theorem fs2_coherent (fail : Int) (l : Bool) {k : Nat} (hk : k < U32) :
    Coherent cfg0 (fs2 fail l) 1 k :=
  coherent_setInode (boot_coherent cfg0 disk2 (-1) fail sb0 (by decide) hk) 0 (ino2 l)

theorem fs2_geometry (fail : Int) (l : Bool) : Geometry cfg0 (fs2 fail l) := by
  refine ⟨by decide, show 50 / 64 + 5 < U32 by decide, fun x hx => ?_⟩
  have hx2 : x < 50 := hx
  show (x / 64 + 5) % U32 < 50
  have : x / 64 = 0 := Nat.div_eq_of_lt (by omega)
  rw [this]
  decide

theorem fs2_nofault (l : Bool) : NoFault (fs2 (-1) l) := by
  intro n hn
  have hn2 : n < 50 := hn
  show ((-1 : Int) == 0 || (-1 : Int) == toInt32 n) = false
  rw [toInt32_of_lt (by omega)]
  simp

theorem fs2_bblock (fail : Int) (l : Bool) (x : Nat) (hx : x < (fs2 fail l).sb.size) :
    BBLOCK cfg0 x (fs2 fail l).sb = 5 := by
  have hx2 : x < 50 := hx
  show (x / 64 + 5) % U32 = 5
  have : x / 64 = 0 := Nat.div_eq_of_lt (by omega)
  rw [this]
  decide

theorem fs2_view (fail : Int) (l : Bool) (n : Nat) :
    blockView cfg0 (fs2 fail l) 1 n = disk2 n := by
  rw [blockView_of_none (fs2_coherent fail l (k := 0) (by decide)).1.1]
  · rfl
  · rintro ⟨i, -, hi⟩
    rw [fs2_bufs] at hi
    simp [Buf.holds, Buf.zero] at hi

theorem fs2_bit (fail : Int) (l : Bool) (x : Nat) (hx : x < 50) :
    bmBit cfg0 (fs2 fail l) 1 x = bitOf (disk2 5) x := by
  unfold bmBit
  rw [fs2_bblock fail l x hx, fs2_view]
  show bitOf (disk2 5) (x % 64) = _
  rw [Nat.mod_eq_of_lt (by omega)]

theorem fs2_fileBlock (fail : Int) (l : Bool) (bn : Nat) :
    fileBlock cfg0 (fs2 fail l) 0 bn = if bn = 0 then 8 else if bn = 1 then 9 else 0 := by
  unfold fileBlock
  by_cases hd : bn < cfg0.NDIRECT
  · rw [if_pos hd]; rfl
  · rw [if_neg hd, if_pos (show ((fs2 fail l).inodes 0).d.addrs cfg0.NDIRECT = 0 from rfl)]
    have : 2 ≤ bn := Nat.le_of_not_lt hd
    rw [if_neg (by omega), if_neg (by omega)]

theorem fs2_owned (fail : Int) (l : Bool) (x : Nat) :
    Owned cfg0 (fs2 fail l) 0 x ↔ x = 8 ∨ x = 9 := by
  constructor
  · rintro ⟨h0, h1 | ⟨bn, -, h1⟩⟩
    · exact absurd h1 h0
    · rw [fs2_fileBlock] at h1
      by_cases hb0 : bn = 0
      · rw [if_pos hb0] at h1; exact Or.inl h1
      · rw [if_neg hb0] at h1
        by_cases hb1 : bn = 1
        · rw [if_pos hb1] at h1; exact Or.inr h1
        · rw [if_neg hb1] at h1; exact absurd h1 h0
  · rintro (rfl | rfl)
    · exact ⟨by decide, Or.inr ⟨0, by decide, by rw [fs2_fileBlock]; rfl⟩⟩
    · exact ⟨by decide, Or.inr ⟨1, by decide, by rw [fs2_fileBlock]; rfl⟩⟩

theorem fs2_meta (fail : Int) (l : Bool) (x : Nat) :
    Meta cfg0 (fs2 fail l) 0 x ↔ x = 5 ∨ x = 7 := by
  constructor
  · rintro (⟨y, hy, rfl⟩ | rfl)
    · exact Or.inl (fs2_bblock fail l y hy)
    · exact Or.inr (show IBLOCK cfg0 4 sb0 = 7 by decide)
  · rintro (rfl | rfl)
    · exact Or.inl ⟨0, show 0 < 50 by decide, (fs2_bblock fail l 0 (show 0 < 50 by decide)).symm⟩
    · exact Or.inr (show 7 = IBLOCK cfg0 4 sb0 by decide)

theorem fs2_fileOK (fail : Int) (l : Bool) : FileOK cfg0 (fs2 fail l) 0 := by
  refine ⟨fun x hx => ?_, fun x hx => ?_, fun bn _ h0 => ?_, fun bn bn2 _ _ h0 he => ?_⟩
  · rcases (fs2_meta fail l x).1 hx with rfl | rfl
    · exact ⟨show 5 < 50 by decide, by
        show bmBit cfg0 (fs2 fail l) 1 5 = true
        rw [fs2_bit fail l 5 (by decide)]; decide⟩
    · exact ⟨show 7 < 50 by decide, by
        show bmBit cfg0 (fs2 fail l) 1 7 = true
        rw [fs2_bit fail l 7 (by decide)]; decide⟩
  · rcases (fs2_owned fail l x).1 hx with rfl | rfl
    · refine ⟨show 8 < 50 by decide, ?_, fun hm => ?_⟩
      · show bmBit cfg0 (fs2 fail l) 1 8 = true
        rw [fs2_bit fail l 8 (by decide)]; decide
      · rcases (fs2_meta fail l 8).1 hm with h | h <;> exact absurd h (by decide)
    · refine ⟨show 9 < 50 by decide, ?_, fun hm => ?_⟩
      · show bmBit cfg0 (fs2 fail l) 1 9 = true
        rw [fs2_bit fail l 9 (by decide)]; decide
      · rcases (fs2_meta fail l 9).1 hm with h | h <;> exact absurd h (by decide)
  · intro e
    apply h0
    rw [e]
    rfl
  · rw [fs2_fileBlock] at h0 he
    rw [fs2_fileBlock] at he
    by_cases a0 : bn = 0
    · rw [if_pos a0] at he
      by_cases b0 : bn2 = 0
      · rw [a0, b0]
      · rw [if_neg b0] at he
        by_cases b1 : bn2 = 1
        · rw [if_pos b1] at he; exact absurd he (by decide)
        · rw [if_neg b1] at he; exact absurd he (by decide)
    · rw [if_neg a0] at h0 he
      by_cases a1 : bn = 1
      · rw [if_pos a1] at he
        by_cases b0 : bn2 = 0
        · rw [if_pos b0] at he; exact absurd he (by decide)
        · rw [if_neg b0] at he
          by_cases b1 : bn2 = 1
          · rw [a1, b1]
          · rw [if_neg b1] at he; exact absurd he (by decide)
      · rw [if_neg a1] at h0; exact absurd rfl h0

theorem fs2_inodeBlock (fail : Int) (l : Bool) (y : Nat) (hy : y < (fs2 fail l).sb.size) :
    IBLOCK cfg0 ((fs2 fail l).inodes 0).inum (fs2 fail l).sb ≠ BBLOCK cfg0 y (fs2 fail l).sb := by
  rw [fs2_bblock fail l y hy]
  show IBLOCK cfg0 4 sb0 ≠ 5
  decide

set_option maxRecDepth 100000 in
/-- C17 as stated fails when a read fault is injected: with `force_disk_fail_id = 0`, on the
second example file system `itrunc` of the inode with the data blocks 8 and 9 returns, and
the free-map bit of block 8, which the inode referenced before the call, is still set: the
second `bfree` has read the free map from the mirror again. -/
theorem itrunc_stale_counterexample :
    itrunc cfg0 (fs2 0 true) 0 = .ok (fs2Trunc 0, ()) ∧
      ((fs2 0 true).inodes 0).d.addrs 0 = 8 ∧ bmBit cfg0 (fs2 0 true) 1 8 = true ∧
      bmBit cfg0 (fs2Trunc 0) 1 8 = true :=
  ⟨rfl, rfl, by decide, by decide⟩

/-- C17, amended: with no read fault injected, after `itrunc(ip)` on a well-formed file all
`NDIRECT` direct pointers and the indirect pointer of `ip` are 0, the size of `ip` is 0 and
the record in the block of the inode is the in-memory one; the free-map bit of every block
the inode referenced before the call (each direct block, each nonzero entry of the indirect
block, and the indirect block itself: the blocks `Owned`) is clear, and every other bit of
the free map is unchanged.  (The cache is coherent, with reference counts
`NDIRECT + NINDIRECT + 4` below `2^32`, and the block of the inode is no block of the free
map.) -/
theorem itrunc_spec (c : Config) (s s' : State) (ip k : Nat)
    (hc : Coherent c s (s.inodes ip).dev (MAXFILE c + k + 4)) (hg : Geometry c s)
    (hnf : NoFault s) (hf : FileOK c s ip)
    (hib : ∀ y, y < s.sb.size → IBLOCK c (s.inodes ip).inum s.sb ≠ BBLOCK c y s.sb)
    (hr : itrunc c s ip = .ok (s', ())) :
    (∀ j, j ≤ c.NDIRECT → (s'.inodes ip).d.addrs j = 0) ∧ (s'.inodes ip).d.size = 0 ∧
      (∃ data, blockView c s' (s.inodes ip).dev (IBLOCK c (s.inodes ip).inum s.sb) =
        c.dinodePut ((s.inodes ip).inum % c.IPB) (s'.inodes ip).d data) ∧
      (∀ x, Owned c s ip x → bmBit c s' (s.inodes ip).dev x = false) ∧
      ∀ x, x < s.sb.size → ¬ Owned c s ip x →
        bmBit c s' (s.inodes ip).dev x = bmBit c s (s.inodes ip).dev x := by
  obtain ⟨-, -, -, ⟨ad, had, hino⟩, hbits, hrec, -⟩ := itrunc_view (k := k) hc hg hnf hf hib hr
  refine ⟨fun j hj => ?_, by rw [hino], hrec, fun x hx => (hbits x (hf.2.1 x hx).1).1 hx,
    fun x hx hn => (hbits x hx).2 hn⟩
  rw [hino]
  exact had j hj

set_option maxRecDepth 100000 in
/-- Worked example for C17: on the second example file system without a fault, `itrunc` of
the inode with the data blocks 8 and 9 returns and clears their bits. -/
theorem itrunc_spec_witness :
    (Coherent cfg0 (fs2 (-1) true) 1 (MAXFILE cfg0 + 0 + 4) ∧ Geometry cfg0 (fs2 (-1) true) ∧
      NoFault (fs2 (-1) true) ∧ FileOK cfg0 (fs2 (-1) true) 0 ∧
      itrunc cfg0 (fs2 (-1) true) 0 = .ok (fs2Trunc (-1), ()) ∧
      Owned cfg0 (fs2 (-1) true) 0 8) ∧
    ((∀ j, j ≤ cfg0.NDIRECT → ((fs2Trunc (-1)).inodes 0).d.addrs j = 0) ∧
      ((fs2Trunc (-1)).inodes 0).d.size = 0 ∧
      (∃ data, blockView cfg0 (fs2Trunc (-1)) 1 (IBLOCK cfg0 4 sb0) =
        cfg0.dinodePut (4 % cfg0.IPB) ((fs2Trunc (-1)).inodes 0).d data) ∧
      (∀ x, Owned cfg0 (fs2 (-1) true) 0 x → bmBit cfg0 (fs2Trunc (-1)) 1 x = false) ∧
      ∀ x, x < 50 → ¬ Owned cfg0 (fs2 (-1) true) 0 x →
        bmBit cfg0 (fs2Trunc (-1)) 1 x = bmBit cfg0 (fs2 (-1) true) 1 x) :=
  ⟨⟨fs2_coherent (-1) true (by decide), fs2_geometry (-1) true, fs2_nofault true,
      fs2_fileOK (-1) true, rfl, (fs2_owned (-1) true 8).2 (Or.inl rfl)⟩,
    itrunc_spec cfg0 (fs2 (-1) true) (fs2Trunc (-1)) 0 0 (fs2_coherent (-1) true (by decide))
      (fs2_geometry (-1) true) (fs2_nofault true) (fs2_fileOK (-1) true)
      (fs2_inodeBlock (-1) true) rfl⟩

/-! ## iput -/

/-- What a returning `iupdate` has done, without an injected fault: the block of the inode
holds the in-memory record, and no other block has changed. -/
theorem iupdate_part {c : Config} {s s' : State} {ip k : Nat} {u : Unit}
    (hc : Coherent c s (s.inodes ip).dev (k + 2))
    (hf : forced s (IBLOCK c (s.inodes ip).inum s.sb) = false)
    (hr : iupdate c s ip = .ok (s', u)) :
    Coherent c s' (s.inodes ip).dev (k + 1) ∧ SameEnv s s' ∧ s'.inodes = s.inodes ∧
      (∃ data, blockView c s' (s.inodes ip).dev (IBLOCK c (s.inodes ip).inum s.sb) =
        c.dinodePut ((s.inodes ip).inum % c.IPB) (s.inodes ip).d data) ∧
      ∀ m, m ≠ IBLOCK c (s.inodes ip).inum s.sb →
        blockView c s' (s.inodes ip).dev m = blockView c s (s.inodes ip).dev m := by
  unfold iupdate at hr
  cases hbr : bread c s (s.inodes ip).dev (IBLOCK c (s.inodes ip).inum s.sb) with
  | error e => simp [hbr] at hr
  | ok r =>
    obtain ⟨s1, bp⟩ := r
    simp only [hbr] at hr
    obtain ⟨-, -, -, -, hino1, -⟩ := bread_shape hc.1 hbr
    rw [hino1] at hr
    have hu : u = () := rfl
    rw [hu] at hr
    obtain ⟨hc3, -, hview3⟩ := poke_view (k := k) _ hc hf hbr hr
    obtain ⟨-, henv3, hino3, -⟩ := poke_tags (k := k) _ hc.1 hbr hr
    exact ⟨hc3, henv3, hino3, ⟨(s1.bufs bp).data, by rw [hview3, if_pos rfl]⟩,
      fun m hm => by rw [hview3, if_neg hm]⟩

/-- What `iput` does when it frees the inode, on a well-formed file without an injected
fault. -/
theorem iput_frees {c : Config} {s s' : State} {ip k : Nat} {u : Unit}
    (hfree : (s.inodes ip).ref = 1 ∧ (s.inodes ip).valid ≠ 0 ∧ (s.inodes ip).d.nlink = 0)
    (hc : Coherent c s (s.inodes ip).dev (MAXFILE c + k + 5)) (hg : Geometry c s)
    (hnf : NoFault s) (hf : FileOK c s ip)
    (hib : ∀ y, y < s.sb.size → IBLOCK c (s.inodes ip).inum s.sb ≠ BBLOCK c y s.sb)
    (hr : iput c s ip = .ok (s', u)) :
    (s'.inodes ip).ref = 0 ∧ (s'.inodes ip).valid = 0 ∧ (s'.inodes ip).d.type = 0 ∧
      (s'.inodes ip).d.size = 0 ∧ (∀ j, j ≤ c.NDIRECT → (s'.inodes ip).d.addrs j = 0) ∧
      (∀ x, Owned c s ip x → bmBit c s' (s.inodes ip).dev x = false) ∧
      (∀ x, x < s.sb.size → ¬ Owned c s ip x →
        bmBit c s' (s.inodes ip).dev x = bmBit c s (s.inodes ip).dev x) ∧
      ∃ data, blockView c s' (s.inodes ip).dev (IBLOCK c (s.inodes ip).inum s.sb) =
        c.dinodePut ((s.inodes ip).inum % c.IPB) (s'.inodes ip).d data := by
  unfold iput at hr
  rw [if_pos hfree] at hr
  by_cases hl : (s.inodes ip).locked = true
  · rw [if_pos hl] at hr
    simp at hr
  · rw [if_neg hl] at hr
    simp only at hr
    obtain ⟨s1, hs1⟩ : ∃ s1, s1 = s.setInode ip { s.inodes ip with locked := true } := ⟨_, rfl⟩
    rw [← hs1] at hr
    have hi1 : s1.inodes ip = { s.inodes ip with locked := true } := by
      rw [hs1, setInode_same]
    have hdev1 : (s1.inodes ip).dev = (s.inodes ip).dev := by rw [hi1]
    have hinum1 : (s1.inodes ip).inum = (s.inodes ip).inum := by rw [hi1]
    have hsb1 : s1.sb = s.sb := by rw [hs1]; rfl
    have hfb1 : ∀ bn, fileBlock c s1 ip bn = fileBlock c s ip bn := by
      intro bn
      unfold fileBlock
      rw [hi1, hs1]
      rfl
    have hf1 : FileOK c s1 ip :=
      hf.keep hsb1 hinum1 hdev1 (by rw [hi1]) (fun x _ hx => by rw [hs1]; exact hx)
        (fun bn _ => hfb1 bn)
    have hown1 : ∀ x, Owned c s1 ip x ↔ Owned c s ip x := by
      intro x
      unfold Owned
      rw [hi1]
      simp only [hfb1]
    cases hit : itrunc c s1 ip with
    | error e => simp [hit] at hr
    | ok r2 =>
      obtain ⟨s2, u2⟩ := r2
      simp only [hit] at hr
      obtain ⟨t1, t2, -, ⟨ad, had, t4⟩, t5, -, -⟩ := itrunc_view (k := k + 1)
        (by rw [hdev1, hs1]; exact coherent_setInode hc _ _)
        (by rw [hs1]; exact hg) (by rw [hs1]; exact hnf) hf1
        (by rw [hinum1, hsb1]; exact hib) hit
      rw [hdev1] at t1 t5
      rw [hsb1] at t5
      obtain ⟨s3, hs3⟩ : ∃ s3, s3 = s2.setInode ip { s2.inodes ip with
          d := { (s2.inodes ip).d with type := 0 } } := ⟨_, rfl⟩
      rw [← hs3] at hr
      have hi3 : s3.inodes ip = { s2.inodes ip with d := { (s2.inodes ip).d with type := 0 } } := by
        rw [hs3, setInode_same]
      have hdev3 : (s3.inodes ip).dev = (s.inodes ip).dev := by rw [hi3, t4, hi1]
      have hinum3 : (s3.inodes ip).inum = (s.inodes ip).inum := by rw [hi3, t4, hi1]
      have henv3 : SameEnv s s3 := by
        rw [hs3]
        have : SameEnv s s1 := by rw [hs1]; exact SameEnv.rfl_env s
        exact this.trans_env t2
      have hiblt : IBLOCK c (s.inodes ip).inum s.sb < s.sb.size := (hf.1 _ (Or.inr rfl)).1
      cases hiu : iupdate c s3 ip with
      | error e => simp [hiu] at hr
      | ok r4 =>
        obtain ⟨s4, u4⟩ := r4
        simp only [hiu, Except.ok.injEq, Prod.mk.injEq] at hr
        obtain ⟨p1, p2, p3, ⟨data, p4⟩, p5⟩ := iupdate_part (k := k)
          (by rw [hdev3, hs3]; exact coherent_setInode t1 _ _)
          (by rw [hinum3, henv3.2.1, henv3.forced_eq]; exact hnf _ hiblt) hiu
        rw [hdev3, hinum3, henv3.2.1] at p4 p5
        have hi4 : s4.inodes ip = s3.inodes ip := by rw [p3]
        have hfin : (s'.inodes ip).ref = (s3.inodes ip).ref - 1 ∧ (s'.inodes ip).valid = 0 ∧
            (s'.inodes ip).d = (s3.inodes ip).d := by
          rw [← hr.1]
          refine ⟨?_, ?_, ?_⟩ <;> simp only [setInode_same, hi4]
        obtain ⟨hfr, hfv, hfd⟩ := hfin
        have hv : ∀ m, blockView c s' (s.inodes ip).dev m = blockView c s4 (s.inodes ip).dev m :=
          fun m => by rw [← hr.1]; rfl
        have hsb' : s'.sb = s.sb := by
          rw [← hr.1]
          exact p2.2.1.trans henv3.2.1
        have hbit : ∀ x, x < s.sb.size →
            bmBit c s' (s.inodes ip).dev x = bmBit c s2 (s.inodes ip).dev x := by
          intro x hx
          unfold bmBit
          rw [hsb', hv, p5 _ (fun e => hib x hx e.symm), t2.2.1, hsb1, hs3]
          rfl
        refine ⟨?_, hfv, by rw [hfd, hi3], by rw [hfd, hi3, t4],
          fun j hj => by rw [hfd, hi3, t4]; exact had j hj, fun x hx => ?_, fun x hx hn => ?_,
          ⟨data, ?_⟩⟩
        · rw [hfr, hi3, t4, hi1]
          show (s.inodes ip).ref - 1 = 0
          rw [hfree.1]; rfl
        · have hlt := (hf.2.1 x hx).1
          rw [hbit x hlt]
          exact (t5 x hlt).1 ((hown1 x).2 hx)
        · rw [hbit x hx, (t5 x hx).2 (fun h => hn ((hown1 x).1 h)), hs1]
          rfl
        · rw [hv, p4, hfd]

set_option maxRecDepth 100000 in
/-- C13 as stated fails for an inode that is not loaded: `iput` frees only when `ip->valid`
is set.  On the second example disk the record of inode 4 has link count 0 and the data
blocks 8 and 9; after `iget(1, 4)` from the empty cache, `iput` drops the count from 1 to 0,
and block 8 is still marked in use and the record still has type 2. -/
theorem iput_unloaded_counterexample :
    (cfg0.dinodeGet (4 % cfg0.IPB) (blockView cfg0 ic2 1 (IBLOCK cfg0 4 sb0))).nlink = 0 ∧
      (∃ s1, iget cfg0 ic2 1 4 = .ok (s1, 0) ∧ (s1.inodes 0).ref = 1 ∧
        iput cfg0 s1 0 = .ok (inodeRun cfg0 [InodeOp.iget 1 4, InodeOp.iput 0] ic2, ())) ∧
      ((inodeRun cfg0 [InodeOp.iget 1 4, InodeOp.iput 0] ic2).inodes 0).ref = 0 ∧
      bmBit cfg0 (inodeRun cfg0 [InodeOp.iget 1 4, InodeOp.iput 0] ic2) 1 8 = true ∧
      (cfg0.dinodeGet (4 % cfg0.IPB)
        (blockView cfg0 (inodeRun cfg0 [InodeOp.iget 1 4, InodeOp.iput 0] ic2) 1
          (IBLOCK cfg0 4 sb0))).type = 2 :=
  ⟨by decide, ⟨_, rfl, by decide, rfl⟩, by decide, by decide, by decide⟩

/-- C13, amended: `iput(ip)`, when it returns, has decremented the reference count by one.
When the count is not 1, the inode is not loaded (`valid == 0`) or its link count is not 0,
that is all it does.  When the count is 1 and the inode is loaded with link count 0, so that
the count drops to zero, then, with no read fault injected and the file well formed, `iput`
also frees every block of the inode (the bit of each block `Owned` is clear, every other bit
unchanged), sets its size and addresses to 0 and marks the inode record free: the record in
the block of the inode is the in-memory one, with type 0.  (The cache is coherent, with
reference counts `NDIRECT + NINDIRECT + 5` below `2^32`, and the block of the inode is no
block of the free map.) -/
theorem iput_spec (c : Config) (s : State) (ip k : Nat) :
    (∀ s', iput c s ip = .ok (s', ()) → (s'.inodes ip).ref = (s.inodes ip).ref - 1) ∧
    (¬ ((s.inodes ip).ref = 1 ∧ (s.inodes ip).valid ≠ 0 ∧ (s.inodes ip).d.nlink = 0) →
      iput c s ip = .ok (s.setInode ip { s.inodes ip with ref := (s.inodes ip).ref - 1 }, ())) ∧
    ((s.inodes ip).ref = 1 → (s.inodes ip).valid ≠ 0 → (s.inodes ip).d.nlink = 0 →
      Coherent c s (s.inodes ip).dev (MAXFILE c + k + 5) → Geometry c s → NoFault s →
      FileOK c s ip →
      (∀ y, y < s.sb.size → IBLOCK c (s.inodes ip).inum s.sb ≠ BBLOCK c y s.sb) →
      ∀ s', iput c s ip = .ok (s', ()) →
        (s'.inodes ip).ref = 0 ∧ (s'.inodes ip).valid = 0 ∧ (s'.inodes ip).d.type = 0 ∧
        (s'.inodes ip).d.size = 0 ∧ (∀ j, j ≤ c.NDIRECT → (s'.inodes ip).d.addrs j = 0) ∧
        (∀ x, Owned c s ip x → bmBit c s' (s.inodes ip).dev x = false) ∧
        (∀ x, x < s.sb.size → ¬ Owned c s ip x →
          bmBit c s' (s.inodes ip).dev x = bmBit c s (s.inodes ip).dev x) ∧
        ∃ data, blockView c s' (s.inodes ip).dev (IBLOCK c (s.inodes ip).inum s.sb) =
          c.dinodePut ((s.inodes ip).inum % c.IPB) (s'.inodes ip).d data) := by
  refine ⟨fun s' hr => ((iput_kept c s ip).2.2 s' () hr).1, fun hn => ?_,
    fun h1 h2 h3 hc hg hnf hf hib s' hr => iput_frees (k := k) ⟨h1, h2, h3⟩ hc hg hnf hf hib hr⟩
  unfold iput
  rw [if_neg hn]

set_option maxRecDepth 100000 in
/-- Worked example for C13: on the second example file system without a fault, `iput` of the
last reference to the loaded inode 4, which has no link, returns and frees its blocks 8
and 9. -/
theorem iput_spec_witness :
    (((fs2 (-1) false).inodes 0).ref = 1 ∧ ((fs2 (-1) false).inodes 0).valid ≠ 0 ∧
      ((fs2 (-1) false).inodes 0).d.nlink = 0 ∧
      Coherent cfg0 (fs2 (-1) false) 1 (MAXFILE cfg0 + 0 + 5) ∧ Geometry cfg0 (fs2 (-1) false) ∧
      NoFault (fs2 (-1) false) ∧ FileOK cfg0 (fs2 (-1) false) 0 ∧
      iput cfg0 (fs2 (-1) false) 0 = .ok (fs2Put (-1), ()) ∧
      Owned cfg0 (fs2 (-1) false) 0 8) ∧
    (((fs2Put (-1)).inodes 0).ref = 0 ∧ ((fs2Put (-1)).inodes 0).valid = 0 ∧
      ((fs2Put (-1)).inodes 0).d.type = 0 ∧ ((fs2Put (-1)).inodes 0).d.size = 0 ∧
      (∀ j, j ≤ cfg0.NDIRECT → ((fs2Put (-1)).inodes 0).d.addrs j = 0) ∧
      (∀ x, Owned cfg0 (fs2 (-1) false) 0 x → bmBit cfg0 (fs2Put (-1)) 1 x = false) ∧
      (∀ x, x < 50 → ¬ Owned cfg0 (fs2 (-1) false) 0 x →
        bmBit cfg0 (fs2Put (-1)) 1 x = bmBit cfg0 (fs2 (-1) false) 1 x) ∧
      ∃ data, blockView cfg0 (fs2Put (-1)) 1 (IBLOCK cfg0 4 sb0) =
        cfg0.dinodePut (4 % cfg0.IPB) ((fs2Put (-1)).inodes 0).d data) :=
  ⟨⟨rfl, by decide, rfl, fs2_coherent (-1) false (by decide), fs2_geometry (-1) false,
      fs2_nofault false, fs2_fileOK (-1) false, rfl, (fs2_owned (-1) false 8).2 (Or.inl rfl)⟩,
    (iput_spec cfg0 (fs2 (-1) false) 0 0).2.2 rfl (by decide) rfl
      (fs2_coherent (-1) false (by decide)) (fs2_geometry (-1) false) (fs2_nofault false)
      (fs2_fileOK (-1) false) (fs2_inodeBlock (-1) false) (fs2Put (-1)) rfl⟩

/-! ## ialloc -/

theorem SameView.inodeType_eq {c : Config} {s s2 : State} {dev : Nat} (h : SameView c s s2 dev)
    (i : Nat) : inodeType c s2 dev i = inodeType c s dev i := by
  unfold inodeType
  rw [h.1.2.1, h.2.2.2]

/-- The loop of `ialloc` without an injected fault, nobody holding a buffer and one buffer
unused: it stops at the first free inode from `i` on, writes the new record into its block
and goes on to `iget`; with no free inode it ends in `panic("ialloc: no inodes")`, nothing a
reader can tell being changed. -/
theorem ialloc_loop_spec (c : Config) (dev type k : Nat) :
    ∀ (n i : Nat) (s : State), Coherent c s dev (k + 2) → NoFault s → Unlocked c s →
      Spare c s 1 → (∀ j, i ≤ j → j < i + n → IBLOCK c j s.sb < s.sb.size) →
      (∀ inum, i ≤ inum → inum < i + n → inodeType c s dev inum = 0 →
        (∀ j, i ≤ j → j < inum → inodeType c s dev j ≠ 0) →
        ∃ s2, ialloc_loop c dev type n i s = iget c s2 dev inum ∧
          Coherent c s2 dev (k + 1) ∧ SameEnv s s2 ∧ s2.inodes = s.inodes ∧
          (∀ b, (s2.bufs b).locked = (s.bufs b).locked) ∧
          ∀ m, blockView c s2 dev m =
            if m = IBLOCK c inum s.sb then
              c.dinodePut (inum % c.IPB)
                { type := type, major := 0, nlink := 0, size := 0, mode := c.M_ALL,
                  addrs := fun _ => 0 } (blockView c s dev m)
            else blockView c s dev m) ∧
      ((∀ j, i ≤ j → j < i + n → inodeType c s dev j ≠ 0) →
        ∃ s', ialloc_loop c dev type n i s = .error (Err.ialloc_no_inodes, s') ∧
          SameView c s s' dev)
  | 0, i, s, _, _, _, _, _ =>
    ⟨fun inum h1 h2 => by omega, fun _ => ⟨s, rfl, SameView.rfl_view c s dev⟩⟩
  | n + 1, i, s, hc, hnf, hu, hsp, hin => by
    have hf0 : forced s (IBLOCK c i s.sb) = false := hnf _ (hin i (Nat.le_refl _) (by omega))
    obtain ⟨s1, bp, hbr⟩ := bread_total hc.1.1 hu hsp dev (IBLOCK c i s.sb)
    obtain ⟨-, hdata, -⟩ := bread_view (k := k + 1) hc hf0 hbr
    have hty : (c.dinodeGet (i % c.IPB) (s1.bufs bp).data).type = inodeType c s dev i := by
      rw [hdata]; rfl
    simp only [ialloc_loop, hbr, hty]
    by_cases h0 : inodeType c s dev i = 0
    · rw [if_pos h0]
      refine ⟨fun inum h1 h2 hz hmin => ?_, fun hall => absurd h0 (hall i (Nat.le_refl _) (by omega))⟩
      have hi : inum = i := by
        by_contra hne
        exact hmin i (Nat.le_refl _) (by omega) h0
      subst hi
      obtain ⟨s3, hrel, -⟩ := poke_total (k := k)
        (c.dinodePut (inum % c.IPB)
          { type := type, major := 0, nlink := 0, size := 0, mode := c.M_ALL,
            addrs := fun _ => 0 } (s1.bufs bp).data) hc.1 hbr
      obtain ⟨hc3, -, hview3⟩ := poke_view (k := k) _ hc hf0 hbr hrel
      obtain ⟨-, henv3, hino3, hlk3, -⟩ := poke_tags (k := k) _ hc.1 hbr hrel
      refine ⟨s3, ?_, hc3, henv3, hino3, hlk3, fun m => ?_⟩
      · simp only [hrel]
      · rw [hview3]
        by_cases hm : m = IBLOCK c inum s.sb
        · rw [if_pos hm, if_pos hm, hdata, hm]
        · rw [if_neg hm, if_neg hm]
    · rw [if_neg h0]
      obtain ⟨s1b, bpb, s2, hbr2, hrel, -, hc2, hsv⟩ :=
        peek_same (k := k + 1) (IBLOCK c i s.sb) hc hf0 hu hsp
      rw [hbr] at hbr2
      simp only [Except.ok.injEq, Prod.mk.injEq] at hbr2
      obtain ⟨rfl, rfl⟩ := hbr2
      simp only [hrel]
      obtain ⟨ih1, ih2⟩ := ialloc_loop_spec c dev type k n (i + 1) s2 hc2 (noFault_env hnf hsv.1)
        (hsv.unlocked hu) (hsv.spare hsp)
        (fun j h1 h2 => by rw [hsv.1.2.1]; exact hin j (by omega) (by omega))
      refine ⟨fun inum h1 h2 hz hmin => ?_, fun hall => ?_⟩
      · have hne : inum ≠ i := fun e => h0 (by rw [← e]; exact hz)
        obtain ⟨s3, q1, q2, q3, q4, q5, q6⟩ := ih1 inum (by omega) (by omega)
          (by rw [hsv.inodeType_eq]; exact hz)
          (fun j h3 h4 => by rw [hsv.inodeType_eq]; exact hmin j (by omega) h4)
        refine ⟨s3, q1, q2, hsv.1.trans_env q3, q4.trans hsv.2.1,
          fun b => (q5 b).trans (hsv.2.2.1 b).2, fun m => ?_⟩
        rw [q6 m, hsv.1.2.1, hsv.2.2.2]
      · obtain ⟨s', q1, q2⟩ := ih2 (fun j h1 h2 => by
          rw [hsv.inodeType_eq]; exact hall j (by omega) (by omega))
        exact ⟨s', q1, hsv.trans_view q2⟩

/-- The handle `iget` returns: its slot holds `(dev, inum)` and is referenced, its lock is as
it was, no other slot has changed, and neither has the buffer cache. -/
theorem iget_handle {c : Config} {s s2 : State} {dev inum ip : Nat}
    (h : iget c s dev inum = .ok (s2, ip)) :
    (s2.inodes ip).dev = dev ∧ (s2.inodes ip).inum = inum ∧ 0 < (s2.inodes ip).ref ∧
      (s2.inodes ip).locked = (s.inodes ip).locked ∧ (∀ j, j ≠ ip → s2.inodes j = s.inodes j) ∧
      s2.bufs = s.bufs ∧ ∀ dev2 m, blockView c s2 dev2 m = blockView c s dev2 m := by
  have key := iget_loop_spec c s dev inum c.NINODE 0 none
    (fun k hk => absurd hk (Nat.not_lt_zero k))
  simp only [Nat.zero_add, Nat.zero_le, true_implies] at key
  have hval : iget c s dev inum = iget_loop c s dev inum c.NINODE 0 none := rfl
  by_cases h1 : ∃ i, i < c.NINODE ∧ slotHolds s dev inum i
  · have hr := key.1 (Nat.find h1) (Nat.find_spec h1).1 (Nat.find_spec h1).2
      (fun k hk hh => Nat.find_min h1 hk ⟨Nat.lt_trans hk (Nat.find_spec h1).1, hh⟩)
    have hh := (Nat.find_spec h1).2
    rw [hval, hr] at h
    simp only [Except.ok.injEq, Prod.mk.injEq] at h
    obtain ⟨rfl, rfl⟩ := h
    rw [setInode_same]
    refine ⟨hh.2.1, hh.2.2, ?_, rfl, fun j hj => setInode_other _ _ _ hj, rfl, fun _ _ => rfl⟩
    have := hh.1
    show 0 < (s.inodes (Nat.find h1)).ref + 1
    omega
  · have hno : ∀ k, k < c.NINODE → ¬ slotHolds s dev inum k := fun k hk hh => h1 ⟨k, hk, hh⟩
    by_cases h2 : ∃ j, j < c.NINODE ∧ (s.inodes j).ref = 0
    · have hr := (key.2 hno).1 (Nat.find h2) (Nat.find_spec h2).1 (Nat.find_spec h2).2
        (fun k hk h0 => Nat.find_min h2 hk ⟨Nat.lt_trans hk (Nat.find_spec h2).1, h0⟩)
      rw [hval, hr] at h
      simp only [Except.ok.injEq, Prod.mk.injEq] at h
      obtain ⟨rfl, rfl⟩ := h
      rw [setInode_same]
      exact ⟨rfl, rfl, Int.one_pos, rfl, fun j hj => setInode_other _ _ _ hj, rfl, fun _ _ => rfl⟩
    · have hr := (key.2 hno).2 (fun k hk h0 => h2 ⟨k, hk, h0⟩)
      rw [hval, hr] at h
      exact Except.noConfusion h

set_option maxRecDepth 100000 in
/-- C15 as stated fails when a read fault is injected: with `force_disk_fail_id = 0`, on the
fourth example disk `ialloc(1, 2)` takes inode 1, whose record then has type 2 in the cache,
and a second `ialloc(1, 2)` takes inode 1 again, although it is no longer free: its slot is
returned a second time, with `ref` 2. -/
theorem ialloc_again_counterexample :
    ialloc cfg0 (fs4 0) 1 2 = .ok (fs4Alloc 0, 0) ∧ ((fs4Alloc 0).inodes 0).inum = 1 ∧
      inodeType cfg0 (fs4Alloc 0) 1 1 = 2 ∧
      ialloc cfg0 (fs4Alloc 0) 1 2 = .ok (fs4Alloc2 0, 0) ∧
      ((fs4Alloc2 0).inodes 0).inum = 1 ∧ ((fs4Alloc2 0).inodes 0).ref = 2 :=
  ⟨rfl, rfl, rfl, rfl, rfl, rfl⟩

/-- C15, amended: with no read fault injected, `ialloc(dev, type)` picks the smallest inode
number in `[1, sb.ninodes)` whose record has type 0 in the view of the cache, rewrites that
record to all zeros except `type`, the requested type, and `mode = M_ALL`, leaves every other
block as it is, and other records of the same block with it, and ends as `iget(dev, inum)`
does, with the handle `iget` returns: a slot that holds `(dev, inum)`, is referenced, and
has not been locked.  When no inode of that range is free it ends in
`panic("ialloc: no inodes")`, nothing a reader can tell being changed.  (The cache is
coherent, nobody holds a buffer, one buffer is unused, and the inode blocks lie in the file
system.) -/
theorem ialloc_spec (c : Config) (s : State) (dev type k : Nat)
    (hc : Coherent c s dev (k + 2)) (hnf : NoFault s) (hu : Unlocked c s) (hsp : Spare c s 1)
    (hin : ∀ j, 1 ≤ j → j < s.sb.ninodes → IBLOCK c j s.sb < s.sb.size) :
    (∀ inum, 1 ≤ inum → inum < s.sb.ninodes → inodeType c s dev inum = 0 →
      (∀ j, 1 ≤ j → j < inum → inodeType c s dev j ≠ 0) →
      ∃ s2, ialloc c s dev type = iget c s2 dev inum ∧ s2.inodes = s.inodes ∧
        Unlocked c s2 ∧
        blockView c s2 dev (IBLOCK c inum s.sb) =
          c.dinodePut (inum % c.IPB)
            { type := type, major := 0, nlink := 0, size := 0, mode := c.M_ALL,
              addrs := fun _ => 0 } (blockView c s dev (IBLOCK c inum s.sb)) ∧
        (∀ m, m ≠ IBLOCK c inum s.sb → blockView c s2 dev m = blockView c s dev m) ∧
        ∀ s' ip, ialloc c s dev type = .ok (s', ip) →
          (s'.inodes ip).dev = dev ∧ (s'.inodes ip).inum = inum ∧ 0 < (s'.inodes ip).ref ∧
          (s'.inodes ip).locked = (s.inodes ip).locked ∧
          (∀ j, j ≠ ip → s'.inodes j = s.inodes j) ∧
          ∀ m, blockView c s' dev m = blockView c s2 dev m) ∧
    ((∀ j, 1 ≤ j → j < s.sb.ninodes → inodeType c s dev j ≠ 0) →
      ∃ s', ialloc c s dev type = .error (Err.ialloc_no_inodes, s') ∧ SameView c s s' dev) := by
  obtain ⟨h1, h2⟩ := ialloc_loop_spec c dev type k (s.sb.ninodes - 1) 1 s hc hnf hu hsp
    (fun j a b => hin j a (by omega))
  refine ⟨fun inum a b hz hmin => ?_, fun hall => h2 (fun j a b => hall j a (by omega))⟩
  obtain ⟨s2, q1, -, -, q4, q5, q6⟩ := h1 inum a (by omega) hz hmin
  have hq : ialloc c s dev type = iget c s2 dev inum := q1
  refine ⟨s2, hq, q4, fun b hb => by rw [q5]; exact hu b hb, by rw [q6, if_pos rfl],
    fun m hm => by rw [q6, if_neg hm], fun s' ip hr => ?_⟩
  rw [hq] at hr
  obtain ⟨g1, g2, g3, g4, g5, -, g7⟩ := iget_handle hr
  exact ⟨g1, g2, g3, by rw [g4, q4], fun j hj => by rw [g5 j hj, q4], fun m => g7 dev m⟩


theorem fs3_nofault : NoFault (fs3 (-1)) := by
  intro n hn
  have hn2 : n < 50 := hn
  show ((-1 : Int) == 0 || (-1 : Int) == toInt32 n) = false
  rw [toInt32_of_lt (by omega)]
  simp

theorem fs3_unlocked (fail : Int) : Unlocked cfg0 (fs3 fail) := fun i _ => by
  rw [show (fs3 fail).bufs i = Buf.zero from boot_bufs cfg0 disk3 (-1) fail sb0 i]; rfl

theorem fs3_spare (fail : Int) : Spare cfg0 (fs3 fail) 1 :=
  ⟨[0], by decide, by decide, fun i hi => by
    rw [show (fs3 fail).bufs i = Buf.zero from boot_bufs cfg0 disk3 (-1) fail sb0 i]
    simp only [List.mem_singleton] at hi
    subst hi
    exact ⟨by decide, rfl⟩⟩

theorem fs3_inodeBlocks (fail : Int) (j : Nat) (_ : 1 ≤ j) (h2 : j < (fs3 fail).sb.ninodes) :
    IBLOCK cfg0 j (fs3 fail).sb < (fs3 fail).sb.size := by
  have h3 : j < 8 := h2
  show (j / 1 + 3) % U32 < 50
  rw [Nat.div_one, Nat.mod_eq_of_lt (by unfold U32; omega)]
  omega

set_option maxRecDepth 100000 in
/-- Worked example for C15: on the third example disk without a fault, the inodes 1 and 2
are in use and inode 3 is free; `ialloc(1, 2)` returns slot 0, which then holds inode 3. -/
theorem ialloc_spec_witness :
    (Coherent cfg0 (fs3 (-1)) 1 (0 + 2) ∧ NoFault (fs3 (-1)) ∧ Unlocked cfg0 (fs3 (-1)) ∧
      Spare cfg0 (fs3 (-1)) 1 ∧ inodeType cfg0 (fs3 (-1)) 1 3 = 0 ∧
      inodeType cfg0 (fs3 (-1)) 1 1 ≠ 0 ∧ inodeType cfg0 (fs3 (-1)) 1 2 ≠ 0 ∧
      ialloc cfg0 (fs3 (-1)) 1 2 = .ok (fs3Alloc (-1), 0) ∧
      ((fs3Alloc (-1)).inodes 0).inum = 3) ∧
    ∃ s2, ialloc cfg0 (fs3 (-1)) 1 2 = iget cfg0 s2 1 3 ∧ s2.inodes = (fs3 (-1)).inodes ∧
      Unlocked cfg0 s2 ∧
      blockView cfg0 s2 1 (IBLOCK cfg0 3 (fs3 (-1)).sb) =
        cfg0.dinodePut (3 % cfg0.IPB)
          { type := 2, major := 0, nlink := 0, size := 0, mode := cfg0.M_ALL,
            addrs := fun _ => 0 } (blockView cfg0 (fs3 (-1)) 1 (IBLOCK cfg0 3 (fs3 (-1)).sb)) ∧
      (∀ m, m ≠ IBLOCK cfg0 3 (fs3 (-1)).sb →
        blockView cfg0 s2 1 m = blockView cfg0 (fs3 (-1)) 1 m) ∧
      ∀ s' ip, ialloc cfg0 (fs3 (-1)) 1 2 = .ok (s', ip) →
        (s'.inodes ip).dev = 1 ∧ (s'.inodes ip).inum = 3 ∧ 0 < (s'.inodes ip).ref ∧
        (s'.inodes ip).locked = ((fs3 (-1)).inodes ip).locked ∧
        (∀ j, j ≠ ip → s'.inodes j = (fs3 (-1)).inodes j) ∧
        ∀ m, blockView cfg0 s' 1 m = blockView cfg0 s2 1 m :=
  ⟨⟨boot_coherent cfg0 disk3 (-1) (-1) sb0 (by decide) (by decide), fs3_nofault,
      fs3_unlocked (-1), fs3_spare (-1), by decide, by decide, by decide, rfl, rfl⟩,
    (ialloc_spec cfg0 (fs3 (-1)) 1 2 0
      (boot_coherent cfg0 disk3 (-1) (-1) sb0 (by decide) (by decide)) fs3_nofault
      (fs3_unlocked (-1)) (fs3_spare (-1)) (fs3_inodeBlocks (-1))).1 3 (by decide) (by decide)
      (by decide) (fun j h1 h2 => by
        have h3 : j = 1 ∨ j = 2 := by omega
        rcases h3 with rfl | rfl <;> decide)⟩

/-! ## dirlookup -/

/-- The loop of `readi` on a file in which the bytes of `memW` are stored: as
`readi_loop_total`, and it changes nothing a reader can tell. -/
theorem readi_loop_same (c : Config) (memW : Mem) (ip user_dst n src0 off0 dst0 dev k : Nat)
    (hB : 0 < c.BSIZE) (hmax : off0 + n ≤ MAXFILE c * c.BSIZE) (h32 : off0 + n < U32) :
    ∀ (fuel : Nat) (s : State) (mem : Mem) (tot : Nat), n - tot < fuel → tot ≤ n →
      (s.inodes ip).dev = dev → Coherent c s dev (k + 1) → NoFault s → Unlocked c s →
      Spare c s 1 → Stored c s ip memW src0 off0 (off0 + n) →
      ((s.inodes ip).d.addrs c.NDIRECT ≠ 0 → (s.inodes ip).d.addrs c.NDIRECT < s.sb.size) →
      (user_dst = 0 ∨ ∀ j, j < n → mem.ok (dst0 + j) = true) →
      (∀ j, j < tot → mem.byte (dst0 + j) = memW.byte (src0 + j)) →
      ∃ s' mem', readi_loop c ip user_dst n fuel s mem tot (off0 + tot) (dst0 + tot) =
          .ok (s', (mem', n)) ∧ Coherent c s' dev (k + 1) ∧ SameView c s s' dev ∧
        ∀ j, j < n → mem'.byte (dst0 + j) = memW.byte (src0 + j)
  | 0, s, mem, tot, hfuel, _, _, _, _, _, _, _, _, _, _ => by omega
  | fuel + 1, s, mem, tot, hfuel, htot, hdev, hc, hnf, hu, hsp, hst, hind, hdst, hgot => by
    simp only [readi_loop]
    by_cases hlt : tot < n
    · rw [if_pos hlt]
      have hbn : (off0 + tot) / c.BSIZE < MAXFILE c :=
        Nat.div_lt_of_lt_mul (by rw [Nat.mul_comm]; omega)
      obtain ⟨e1, e2, e3⟩ := hst (off0 + tot) (by omega) (by omega)
      rw [← hdev] at hc
      obtain ⟨s1, hbm, hc1, hsv1⟩ := bmap_read (k := k) hc hnf hu hsp hbn e1 hind
      have hino1 : s1.inodes ip = s.inodes ip := by rw [hsv1.2.1]
      have hf1 : forced s1 (fileBlock c s ip ((off0 + tot) / c.BSIZE)) = false := by
        rw [hsv1.1.forced_eq]; exact hnf _ e2
      obtain ⟨s2, bp, s3, hbr, hrel, hdata, hc3, hsv3⟩ :=
        peek_same (fileBlock c s ip ((off0 + tot) / c.BSIZE)) hc1 hf1 (hsv1.unlocked hu)
          (hsv1.spare hsp)
      obtain ⟨m, hm⟩ : ∃ m, m = min (n - tot) (c.BSIZE - (off0 + tot) % c.BSIZE) := ⟨_, rfl⟩
      have hmod : (off0 + tot) % c.BSIZE < c.BSIZE := Nat.mod_lt _ hB
      have hm1 : 1 ≤ m := by rw [hm]; omega
      have hm2 : m ≤ n - tot := by rw [hm]; exact Nat.min_le_left _ _
      have hm3 : m ≤ c.BSIZE - (off0 + tot) % c.BSIZE := by
        rw [hm]; exact Nat.min_le_right _ _
      obtain ⟨mem2, hcp, hok2, hbyte2⟩ := either_copyout_some mem user_dst (dst0 + tot) m
        (fun j => (s2.bufs bp).data ((off0 + tot) % c.BSIZE + j))
        (by
          rcases hdst with h | h
          · exact Or.inl h
          · refine Or.inr (fun j hj => ?_)
            rw [Nat.add_assoc]
            exact h (tot + j) (by omega))
      have hdst2 : user_dst = 0 ∨ ∀ j, j < n → mem2.ok (dst0 + j) = true := by
        rw [hok2]; exact hdst
      have hsv : SameView c s s3 (s.inodes ip).dev := hsv1.trans_view hsv3
      have hino3 : s3.inodes ip = s.inodes ip := by rw [hsv.2.1]
      have x1 : (tot + m) % U32 = tot + m := Nat.mod_eq_of_lt (by omega)
      have x2 : (off0 + tot + m) % U32 = off0 + (tot + m) := by
        rw [Nat.add_assoc]; exact Nat.mod_eq_of_lt (by omega)
      have x3 : dst0 + tot + m = dst0 + (tot + m) := Nat.add_assoc _ _ _
      simp only [hbm, hino1, hbr, ← hm, hcp, hrel, x1, x2, x3]
      obtain ⟨s', mem', q1, q2, q3, q4⟩ := readi_loop_same c memW ip user_dst n src0 off0 dst0
        dev k hB hmax h32 fuel s3 mem2 (tot + m) (by omega) (by omega)
        (by rw [hino3]; exact hdev) (by rw [← hdev]; exact hc3) (noFault_env hnf hsv.1)
        (hsv.unlocked hu) (hsv.spare hsp) (hsv.stored hst)
        (by rw [hino3, hsv.1.2.1]; exact hind) hdst2
        (by
          intro j hj
          rw [hbyte2]
          by_cases hjt : j < tot
          · rw [if_neg (by omega)]
            exact hgot j hjt
          · rw [if_pos (by omega), hdata, hsv1.2.2.2]
            obtain ⟨a1, a2⟩ := chunk_arith (a := off0 + j) hB hm3 (by omega)
              (show off0 + j < off0 + tot + m by omega)
            obtain ⟨-, -, y3⟩ := hst (off0 + j) (by omega) (by omega)
            rw [a1, a2] at y3
            have z1 : dst0 + j - (dst0 + tot) = off0 + j - (off0 + tot) := by omega
            have z2 : off0 + j - off0 = j := by omega
            rw [z1, y3, z2])
      rw [hdev] at hsv
      exact ⟨s', mem', q1, q2, hsv.trans_view q3, q4⟩
    · rw [if_neg hlt]
      have htn : tot = n := by omega
      subst htn
      exact ⟨s, mem, rfl, hc, SameView.rfl_view c s dev, hgot⟩

/-- On a file without a hole, a `readi` inside the file returns `n`, delivers the bytes of
the file in the view of the cache, and changes nothing a reader can tell. -/
theorem readi_same {c : Config} {s : State} {mem : Mem} {ip dst off n k : Nat}
    (hB : 0 < c.BSIZE) (hc : Coherent c s (s.inodes ip).dev (k + 1)) (hnf : NoFault s)
    (hu : Unlocked c s) (hsp : Spare c s 1) (hmp : Mapped c s ip)
    (hind : (s.inodes ip).d.addrs c.NDIRECT ≠ 0 → (s.inodes ip).d.addrs c.NDIRECT < s.sb.size)
    (hsize : off + n ≤ (s.inodes ip).d.size) (hmax : off + n ≤ MAXFILE c * c.BSIZE)
    (h32 : off + n < 2147483648) :
    ∃ s2 m, readi c s mem ip 0 dst off n = .ok (s2, (m, (n : Int))) ∧
      Coherent c s2 (s.inodes ip).dev (k + 1) ∧ SameView c s s2 (s.inodes ip).dev ∧
      ∀ j, j < n → m.byte (dst + j) = fileByte c s ip (off + j) := by
  have hU : off + n < U32 := by unfold U32; omega
  have hmod : (off + n) % U32 = off + n := Nat.mod_eq_of_lt hU
  have hint : toInt32 n = (n : Int) := toInt32_of_lt (by omega)
  have hst : Stored c s ip ⟨fileByte c s ip, fun _ => true⟩ off off (off + n) := by
    intro a h1 h2
    obtain ⟨m1, m2⟩ := hmp a (by omega)
    refine ⟨m1, m2, ?_⟩
    show _ = fileByte c s ip (off + (a - off))
    rw [show off + (a - off) = a by omega]
    rfl
  obtain ⟨s2, m, hl, q2, q3, hbytes⟩ :=
    readi_loop_same c ⟨fileByte c s ip, fun _ => true⟩ ip 0 n off off dst (s.inodes ip).dev k
      hB hmax hU (n + 1) s mem 0 (by omega) (Nat.zero_le _) rfl hc hnf hu hsp hst hind
      (Or.inl rfl) (fun j hj => absurd hj (Nat.not_lt_zero j))
  have hl2 : readi_loop c ip 0 n (n + 1) s mem 0 off dst = .ok (s2, (m, n)) := hl
  refine ⟨s2, m, ?_, q2, q3, hbytes⟩
  unfold readi
  rw [hmod, if_neg (by omega)]
  simp only [if_neg (show ¬ off + n > (s.inodes ip).d.size by omega), hl2, hint]

theorem SameView.fileByte_eq {c : Config} {s s2 : State} {ip : Nat}
    (h : SameView c s s2 (s.inodes ip).dev) (a : Nat) :
    fileByte c s2 ip a = fileByte c s ip a := by
  unfold fileByte
  rw [h.fileBlock_eq, h.2.1, h.2.2.2]

theorem SameView.dirEntry_eq {c : Config} {s s2 : State} {dp : Nat}
    (h : SameView c s s2 (s.inodes dp).dev) (off : Nat) :
    dirEntry c s2 dp off = dirEntry c s dp off := by
  funext i
  unfold dirEntry
  rw [h.fileByte_eq]

theorem SameView.matches_iff {c : Config} {s s2 : State} {dp : Nat}
    (h : SameView c s s2 (s.inodes dp).dev) (name : Nat → Nat) (off : Nat) :
    Matches c s2 dp name off ↔ Matches c s dp name off := by
  unfold Matches
  rw [h.dirEntry_eq]

theorem SameView.mapped {c : Config} {s s2 : State} {ip : Nat}
    (h : SameView c s s2 (s.inodes ip).dev) (hm : Mapped c s ip) : Mapped c s2 ip := by
  intro a ha
  rw [h.2.1] at ha
  rw [h.fileBlock_eq, h.1.2.1]
  exact hm a ha

/-- The loop of `dirlookup` from entry number `j` on, on a directory without a hole whose
size is `N` entries, without an injected fault: it returns the handle of `iget` for the first
entry from `j` on that matches, with its offset, and 0 when there is none; the reads change
nothing a reader can tell. -/
theorem dirlookup_loop_spec (c : Config) (dp : Nat) (name : Nat → Nat) (poff : Bool)
    (de dev k N : Nat) (hB : 0 < c.BSIZE) (hD : 0 < c.DIRENT)
    (hmax : N * c.DIRENT ≤ MAXFILE c * c.BSIZE) (h31 : N * c.DIRENT < 2147483648) :
    ∀ (fuel : Nat) (s : State) (mem : Mem) (j : Nat), (s.inodes dp).d.size = N * c.DIRENT →
      N - j < fuel → j ≤ N → (s.inodes dp).dev = dev → Coherent c s dev (k + 1) → NoFault s →
      Unlocked c s → Spare c s 1 → Mapped c s dp →
      ((s.inodes dp).d.addrs c.NDIRECT ≠ 0 → (s.inodes dp).d.addrs c.NDIRECT < s.sb.size) →
      (∀ i, j ≤ i → i < N → Matches c s dp name (i * c.DIRENT) →
        (∀ i2, j ≤ i2 → i2 < i → ¬ Matches c s dp name (i2 * c.DIRENT)) →
        ∃ s2, SameView c s s2 dev ∧
          dirlookup_loop c dp name poff de fuel s mem (j * c.DIRENT) =
            match iget c s2 dev (c.direntInum (dirEntry c s dp (i * c.DIRENT))) with
            | .error e => .error e
            | .ok (s', ip) => .ok (s', (some ip, if poff then some (i * c.DIRENT) else none))) ∧
      ((∀ i, j ≤ i → i < N → ¬ Matches c s dp name (i * c.DIRENT)) →
        ∃ s2, SameView c s s2 dev ∧
          dirlookup_loop c dp name poff de fuel s mem (j * c.DIRENT) = .ok (s2, (none, none)))
  | 0, s, mem, j, _, hfuel, _, _, _, _, _, _, _, _ => by omega
  | fuel + 1, s, mem, j, hsz, hfuel, hj, hdev, hc, hnf, hu, hsp, hmp, hind => by
    simp only [dirlookup_loop]
    by_cases hlt : j < N
    · have hoff : j * c.DIRENT < (s.inodes dp).d.size := by
        rw [hsz]; exact Nat.mul_lt_mul_of_pos_right hlt hD
      have hnext : j * c.DIRENT + c.DIRENT ≤ N * c.DIRENT := by
        have : (j + 1) * c.DIRENT ≤ N * c.DIRENT := Nat.mul_le_mul_right _ hlt
        rw [Nat.add_mul, Nat.one_mul] at this
        exact this
      rw [if_pos hoff]
      rw [← hdev] at hc
      obtain ⟨s2, m, hr, hc2, hsv, hbytes⟩ := @readi_same c s mem dp de (j * c.DIRENT) c.DIRENT k hB hc
        hnf hu hsp hmp hind (show j * c.DIRENT + c.DIRENT ≤ (s.inodes dp).d.size by
          rw [hsz]; exact hnext) (by omega) (by omega)
      have hent : (fun i => if i < c.DIRENT then m.byte (de + i) else 0) =
          dirEntry c s dp (j * c.DIRENT) := by
        funext i
        unfold dirEntry
        by_cases hi : i < c.DIRENT
        · rw [if_pos hi, if_pos hi, hbytes i hi]
        · rw [if_neg hi, if_neg hi]
      have hino2 : s2.inodes = s.inodes := hsv.2.1
      have hmod : (j * c.DIRENT + c.DIRENT) % U32 = (j + 1) * c.DIRENT := by
        rw [Nat.add_mul, Nat.one_mul]
        exact Nat.mod_eq_of_lt (by unfold U32; omega)
      simp only [hr, ne_eq, not_true_eq_false, if_false, hent, hmod, hino2, hdev]
      rw [hdev] at hsv hc2
      obtain ⟨ih1, ih2⟩ := dirlookup_loop_spec c dp name poff de dev k N hB hD hmax h31 fuel s2 m
        (j + 1) (by rw [hino2]; exact hsz) (by omega) (by omega) (by rw [hino2]; exact hdev)
        hc2 (noFault_env hnf hsv.1) (hsv.unlocked hu) (hsv.spare hsp)
        (by rw [← hdev] at hsv; exact hsv.mapped hmp)
        (by rw [hino2, hsv.1.2.1]; exact hind)
      have hmiff : ∀ off, Matches c s2 dp name off ↔ Matches c s dp name off := fun off => by
        rw [← hdev] at hsv; exact hsv.matches_iff name off
      have hdeq : ∀ off, dirEntry c s2 dp off = dirEntry c s dp off := fun off => by
        rw [← hdev] at hsv; exact hsv.dirEntry_eq off
      by_cases hm : Matches c s dp name (j * c.DIRENT)
      · have hm1 := hm.1
        have hm2 := hm.2
        simp only [if_neg hm1, hm2, if_true]
        refine ⟨fun i h1 h2 hmi hmin => ?_, fun hall => absurd hm (hall j (Nat.le_refl _) hlt)⟩
        have hij : i = j := by
          by_contra hne
          exact hmin j (Nat.le_refl _) (by omega) hm
        subst hij
        exact ⟨s2, hsv, rfl⟩
      · have hcont : (if c.direntInum (dirEntry c s dp (j * c.DIRENT)) = 0 then
              dirlookup_loop c dp name poff de fuel s2 m ((j + 1) * c.DIRENT)
            else if namecmp c name (c.direntName (dirEntry c s dp (j * c.DIRENT))) = 0 then
              match iget c s2 dev (c.direntInum (dirEntry c s dp (j * c.DIRENT))) with
              | .error e => .error e
              | .ok (s, ip) => .ok (s, (some ip, if poff then some (j * c.DIRENT) else none))
            else dirlookup_loop c dp name poff de fuel s2 m ((j + 1) * c.DIRENT)) =
            dirlookup_loop c dp name poff de fuel s2 m ((j + 1) * c.DIRENT) := by
          by_cases h0 : c.direntInum (dirEntry c s dp (j * c.DIRENT)) = 0
          · rw [if_pos h0]
          · rw [if_neg h0, if_neg (fun hn => hm ⟨h0, hn⟩)]
        rw [hcont]
        refine ⟨fun i h1 h2 hmi hmin => ?_, fun hall => ?_⟩
        · have hne : i ≠ j := fun e => hm (by rw [← e]; exact hmi)
          obtain ⟨s3, q1, q2⟩ := ih1 i (by omega) h2 ((hmiff _).2 hmi)
            (fun i2 a b hx => hmin i2 (by omega) b ((hmiff _).1 hx))
          rw [hdeq] at q2
          exact ⟨s3, hsv.trans_view q1, q2⟩
        · obtain ⟨s3, q1, q2⟩ := ih2 (fun i a b hx => hall i (by omega) b ((hmiff _).1 hx))
          exact ⟨s3, hsv.trans_view q1, q2⟩
    · have hjn : j = N := by omega
      have hoff : ¬ j * c.DIRENT < (s.inodes dp).d.size := by
        rw [hsz, hjn]; exact Nat.lt_irrefl _
      rw [if_neg hoff]
      exact ⟨fun i h1 h2 => by omega, fun _ => ⟨s, SameView.rfl_view c s dev, rfl⟩⟩

/-- The routine `strncmp` gives 0 exactly when the strings agree, character by character, up
to `n` characters or up to where the first one ends. -/
theorem strncmp_eq_zero_iff (p q : Nat → Nat) : ∀ (n i : Nat),
    strncmp p q n i = 0 ↔
      ∀ x, x < n → (∀ y, y < x → p (i + y) % 256 ≠ 0) → p (i + x) % 256 = q (i + x) % 256
  | 0, i => ⟨fun _ x hx => absurd hx (Nat.not_lt_zero x), fun _ => rfl⟩
  | n + 1, i => by
    simp only [strncmp]
    by_cases hc : p i % 256 ≠ 0 ∧ p i % 256 = q i % 256
    · rw [if_pos hc, strncmp_eq_zero_iff p q n (i + 1)]
      constructor
      · intro h x hx hy
        cases x with
        | zero => exact hc.2
        | succ x =>
          have := h x (by omega) (fun y hyx => by
            have := hy (y + 1) (by omega)
            rw [show i + (y + 1) = i + 1 + y by omega] at this
            exact this)
          rw [show i + 1 + x = i + (x + 1) by omega] at this
          exact this
      · intro h x hx hy
        have := h (x + 1) (by omega) (fun y hyx => by
          cases y with
          | zero => exact hc.1
          | succ y =>
            have := hy y (by omega)
            rw [show i + 1 + y = i + (y + 1) by omega] at this
            exact this)
        rw [show i + (x + 1) = i + 1 + x by omega] at this
        exact this
    · rw [if_neg hc]
      constructor
      · intro h x hx hy
        have he : p i % 256 = q i % 256 := by omega
        cases x with
        | zero => exact he
        | succ x =>
          exfalso
          have h0 := hy 0 (by omega)
          exact hc ⟨h0, he⟩
      · intro h
        have := h 0 (by omega) (fun y hy => absurd hy (Nat.not_lt_zero y))
        rw [Nat.add_zero] at this
        omega

set_option maxRecDepth 100000 in
/-- C20 as stated fails when a read fault is injected: with `force_disk_fail_id = 0`, after
`writei` has written the entry for inode 185 with the name `name6` at offset 0 of the empty
directory, the directory has that entry, and `dirlookup` for `name6` returns 0: it has read
the mirror disk. -/
theorem dirlookup_stale_counterexample :
    writei cfg0 (fs6 0) mem0 0 0 1000 0 4 = .ok (fs6Write 0, 4) ∧
      ((fs6Write 0).inodes 0).d.size = 4 ∧ Matches cfg0 (fs6Write 0) 0 name6 0 ∧
      dirlookup cfg0 (fs6Write 0) mem0 0 name6 true 2000 = .ok (fs6Look 0, (none, none)) :=
  ⟨rfl, rfl, by decide, rfl⟩

/-- C20, amended: with no read fault injected, `dirlookup(dp, name, poff)` on a directory
without a hole, of `N` entries, scans the entries in increasing offset order, ignores entries
with `inum` 0, and ends as `iget(dp->dev, inum)` does for the `inum` of the first entry whose
name equals `name` under `namecmp`, the comparison of up to `DIRSIZ` characters, returning the
handle of `iget` and storing the offset of that entry in `*poff` (when `poff` is not null);
it returns 0 exactly when no entry that is not empty has that name.  The reads change nothing
a reader can tell.  (The cache is coherent, nobody holds a buffer and one buffer is unused.) -/
theorem dirlookup_spec (c : Config) (s : State) (mem : Mem) (dp : Nat) (name : Nat → Nat)
    (poff : Bool) (de k N : Nat) (hB : 0 < c.BSIZE) (hD : 0 < c.DIRENT)
    (hdir : (s.inodes dp).d.type = c.T_DIR) (hsz : (s.inodes dp).d.size = N * c.DIRENT)
    (hmax : N * c.DIRENT ≤ MAXFILE c * c.BSIZE) (h31 : N * c.DIRENT < 2147483648)
    (hc : Coherent c s (s.inodes dp).dev (k + 1)) (hnf : NoFault s) (hu : Unlocked c s)
    (hsp : Spare c s 1) (hmp : Mapped c s dp)
    (hind : (s.inodes dp).d.addrs c.NDIRECT ≠ 0 → (s.inodes dp).d.addrs c.NDIRECT < s.sb.size) :
    (∀ i, i < N → Matches c s dp name (i * c.DIRENT) →
      (∀ i2, i2 < i → ¬ Matches c s dp name (i2 * c.DIRENT)) →
      ∃ s2, SameView c s s2 (s.inodes dp).dev ∧
        dirlookup c s mem dp name poff de =
          match iget c s2 (s.inodes dp).dev (c.direntInum (dirEntry c s dp (i * c.DIRENT))) with
          | .error e => .error e
          | .ok (s', ip) => .ok (s', (some ip, if poff then some (i * c.DIRENT) else none))) ∧
    ((∀ i, i < N → ¬ Matches c s dp name (i * c.DIRENT)) →
      ∃ s2, SameView c s s2 (s.inodes dp).dev ∧
        dirlookup c s mem dp name poff de = .ok (s2, (none, none))) ∧
    (∀ s' st, dirlookup c s mem dp name poff de = .ok (s', (none, st)) →
      ∀ i, i < N → ¬ Matches c s dp name (i * c.DIRENT)) ∧
    ∀ a b : Nat → Nat, namecmp c a b = 0 ↔
      ∀ x, x < c.DIRSIZ → (∀ y, y < x → a y % 256 ≠ 0) → a x % 256 = b x % 256 := by
  have hrun : dirlookup c s mem dp name poff de =
      dirlookup_loop c dp name poff de ((s.inodes dp).d.size + 1) s mem (0 * c.DIRENT) := by
    unfold dirlookup
    rw [if_neg (fun h => h hdir), Nat.zero_mul]
  obtain ⟨l1, l2⟩ := dirlookup_loop_spec c dp name poff de (s.inodes dp).dev k N hB hD hmax h31
    ((s.inodes dp).d.size + 1) s mem 0 hsz
    (by
      have : N ≤ N * c.DIRENT := Nat.le_mul_of_pos_right N hD
      omega)
    (Nat.zero_le _) rfl hc hnf hu hsp hmp hind
  have p1 : ∀ i, i < N → Matches c s dp name (i * c.DIRENT) →
      (∀ i2, i2 < i → ¬ Matches c s dp name (i2 * c.DIRENT)) →
      ∃ s2, SameView c s s2 (s.inodes dp).dev ∧
        dirlookup c s mem dp name poff de =
          match iget c s2 (s.inodes dp).dev (c.direntInum (dirEntry c s dp (i * c.DIRENT))) with
          | .error e => .error e
          | .ok (s', ip) => .ok (s', (some ip, if poff then some (i * c.DIRENT) else none)) := by
    intro i hi hm hmin
    obtain ⟨s2, q1, q2⟩ := l1 i (Nat.zero_le _) hi hm (fun i2 _ h => hmin i2 h)
    exact ⟨s2, q1, hrun.trans q2⟩
  refine ⟨p1, fun hall => ?_, fun s' st hr i hi hm => ?_, fun a b => ?_⟩
  · obtain ⟨s2, q1, q2⟩ := l2 (fun i _ h => hall i h)
    exact ⟨s2, q1, hrun.trans q2⟩
  · have hex : ∃ i, i < N ∧ Matches c s dp name (i * c.DIRENT) := ⟨i, hi, hm⟩
    obtain ⟨s2, -, q2⟩ := p1 (Nat.find hex) (Nat.find_spec hex).1 (Nat.find_spec hex).2
      (fun i2 h hx => Nat.find_min hex h ⟨Nat.lt_trans h (Nat.find_spec hex).1, hx⟩)
    rw [q2] at hr
    cases hg : iget c s2 (s.inodes dp).dev
        (c.direntInum (dirEntry c s dp (Nat.find hex * c.DIRENT))) with
    | error e => rw [hg] at hr; simp at hr
    | ok r =>
      obtain ⟨s3, ip⟩ := r
      rw [hg] at hr
      simp at hr
  · unfold namecmp
    rw [strncmp_eq_zero_iff]
    simp only [Nat.zero_add]


theorem fs5_coherent (fail : Int) {k : Nat} (hk : k < U32) : Coherent cfg0 (fs5 fail) 1 k :=
  coherent_setInode (boot_coherent cfg0 disk5 (-1) fail sb0 (by decide) hk) 0 ino5

theorem fs5_nofault : NoFault (fs5 (-1)) := by
  intro n hn
  have hn2 : n < 50 := hn
  show ((-1 : Int) == 0 || (-1 : Int) == toInt32 n) = false
  rw [toInt32_of_lt (by omega)]
  simp

theorem fs5_unlocked (fail : Int) : Unlocked cfg0 (fs5 fail) := fun i _ => by
  rw [show (fs5 fail).bufs i = Buf.zero from boot_bufs cfg0 disk5 (-1) fail sb0 i]; rfl

theorem fs5_spare (fail : Int) : Spare cfg0 (fs5 fail) 1 :=
  ⟨[0], by decide, by decide, fun i hi => by
    rw [show (fs5 fail).bufs i = Buf.zero from boot_bufs cfg0 disk5 (-1) fail sb0 i]
    simp only [List.mem_singleton] at hi
    subst hi
    exact ⟨by decide, rfl⟩⟩

theorem fs5_mapped (fail : Int) : Mapped cfg0 (fs5 fail) 0 := by
  intro a ha
  have ha2 : a < 8 := ha
  have hq : a / cfg0.BSIZE = 0 := Nat.div_eq_of_lt ha2
  rw [hq]
  have hb : fileBlock cfg0 (fs5 fail) 0 0 = 8 := rfl
  rw [hb]
  exact ⟨by decide, show 8 < 50 by decide⟩

set_option maxRecDepth 100000 in
/-- Worked example for C20: on the fifth example disk without a fault, the directory has an
empty entry with the name `ab` at offset 0 and the entry `ab` for inode 5 at offset 4;
`dirlookup` for `ab` returns the handle of `iget(1, 5)`, slot 1, and stores the offset 4. -/
theorem dirlookup_spec_witness :
    (0 < cfg0.BSIZE ∧ 0 < cfg0.DIRENT ∧ ((fs5 (-1)).inodes 0).d.type = cfg0.T_DIR ∧
      ((fs5 (-1)).inodes 0).d.size = 2 * cfg0.DIRENT ∧
      Coherent cfg0 (fs5 (-1)) 1 (0 + 1) ∧ NoFault (fs5 (-1)) ∧ Unlocked cfg0 (fs5 (-1)) ∧
      Spare cfg0 (fs5 (-1)) 1 ∧ Mapped cfg0 (fs5 (-1)) 0 ∧
      Matches cfg0 (fs5 (-1)) 0 name5 (1 * cfg0.DIRENT) ∧
      ¬ Matches cfg0 (fs5 (-1)) 0 name5 (0 * cfg0.DIRENT) ∧
      cfg0.direntInum (dirEntry cfg0 (fs5 (-1)) 0 (1 * cfg0.DIRENT)) = 5 ∧
      dirlookup cfg0 (fs5 (-1)) mem0 0 name5 true 2000 =
        .ok (fs5Look (-1), (some 1, some 4))) ∧
    ∃ s2, SameView cfg0 (fs5 (-1)) s2 1 ∧
      dirlookup cfg0 (fs5 (-1)) mem0 0 name5 true 2000 =
        match iget cfg0 s2 1 (cfg0.direntInum (dirEntry cfg0 (fs5 (-1)) 0 (1 * cfg0.DIRENT))) with
        | .error e => .error e
        | .ok (s', ip) => .ok (s', (some ip, if true then some (1 * cfg0.DIRENT) else none)) :=
  ⟨⟨by decide, by decide, rfl, rfl, fs5_coherent (-1) (by decide), fs5_nofault,
      fs5_unlocked (-1), fs5_spare (-1), fs5_mapped (-1), by decide, by decide, by decide, rfl⟩,
    (dirlookup_spec cfg0 (fs5 (-1)) mem0 0 name5 true 2000 0 2 (by decide) (by decide) rfl rfl
      (by decide) (by decide) (fs5_coherent (-1) (by decide)) fs5_nofault (fs5_unlocked (-1))
      (fs5_spare (-1)) (fs5_mapped (-1)) (fun h => absurd rfl h)).1 1 (by decide) (by decide)
      (fun i2 h => by
        have h0 : i2 = 0 := by omega
        subst h0
        decide)⟩

theorem after_arith {B off m a : Nat} (h : off + m ≤ a) (hq : a / B = off / B) :
    off % B + m ≤ a % B := by
  have e1 := Nat.div_add_mod a B
  have e2 := Nat.div_add_mod off B
  rw [hq] at e1
  omega

/-- Bytes stored in a file stay stored when the file grows. -/
theorem Grows.keeps_stored {c : Config} {s s2 : State} {ip : Nat} {memW : Mem} {src lo hi : Nat}
    (h : Grows c s s2 ip) (hhi : hi ≤ MAXFILE c * c.BSIZE)
    (hst : Stored c s ip memW src lo hi) : Stored c s2 ip memW src lo hi := by
  intro a h1 h2
  obtain ⟨e1, e2, e3⟩ := hst a h1 h2
  have han : a / c.BSIZE < MAXFILE c := Nat.div_lt_of_lt_mul (by rw [Nat.mul_comm]; omega)
  obtain ⟨e4, e5⟩ := h.2.2.2.2.2 _ han e1
  rw [e4, h.1.2.1, h.2.1, e5]
  exact ⟨e1, e2, e3⟩

/-- The loop of `writei` leaves the bytes of the file outside the range it writes alone. -/
theorem writei_loop_keep (c : Config) (mem memW : Mem) (ip user_src n src0 off0 dev : Nat)
    (srcW lo hi : Nat)
    (hsrc : user_src = 0 ∨ ∀ k, k < n → mem.ok (src0 + k) = true)
    (hmax : off0 + n ≤ MAXFILE c * c.BSIZE) (h32 : off0 + n < U32)
    (hdis : hi ≤ off0 ∨ off0 + n ≤ lo) (hhi : hi ≤ MAXFILE c * c.BSIZE) :
    ∀ (fuel : Nat) (s : State) (tot k : Nat), tot ≤ n → (s.inodes ip).dev = dev →
      Coherent c s dev (8 * (n - tot) + k) → Geometry c s → NoFault s → s.sb.size ≤ U32 →
      FileOK c s ip → Stored c s ip memW srcW lo hi →
      ∀ s' r, writei_loop c mem ip user_src n fuel s tot (off0 + tot) (src0 + tot) =
          .ok (s', r) → Stored c s' ip memW srcW lo hi
  | 0, s, tot, k, _, _, _, _, _, _, _, _ => by
    intro s' r hr
    simp [writei_loop] at hr
  | fuel + 1, s, tot, k, htot, hdev, hc, hg, hnf, hsz, hf, hst => by
    intro s' r hr
    have hB : 0 < c.BSIZE := hg.1
    simp only [writei_loop] at hr
    by_cases hlt : tot < n
    · rw [if_pos hlt] at hr
      have hbn : (off0 + tot) / c.BSIZE < MAXFILE c :=
        Nat.div_lt_of_lt_mul (by rw [Nat.mul_comm]; omega)
      cases hbm : bmap c s ip ((off0 + tot) / c.BSIZE) with
      | error e => simp [hbm] at hr
      | ok r1 =>
        obtain ⟨s1, a⟩ := r1
        simp only [hbm] at hr
        rw [← hdev] at hc
        obtain ⟨hc1, hg1, hf1, ha0, hfa⟩ :=
          bmap_view (k := 8 * (n - tot - 1) + k + 2) (coherent_mono hc (by omega)) hg hnf hsz
            hf hbn hbm
        have hdev1 : (s1.inodes ip).dev = (s.inodes ip).dev := hg1.2.1
        rw [← hdev1] at hc1
        rw [← hfa] at hr ha0
        have hst1 : Stored c s1 ip memW srcW lo hi := hg1.keeps_stored hhi hst
        cases hbr : bread c s1 (s1.inodes ip).dev (fileBlock c s1 ip ((off0 + tot) / c.BSIZE)) with
        | error e => simp [hbr] at hr
        | ok r2 =>
          obtain ⟨s2, bp⟩ := r2
          simp only [hbr] at hr
          obtain ⟨m, hm⟩ : ∃ m, m = min (n - tot) (c.BSIZE - (off0 + tot) % c.BSIZE) := ⟨_, rfl⟩
          rw [← hm] at hr
          have hmod : (off0 + tot) % c.BSIZE < c.BSIZE := Nat.mod_lt _ hB
          have hm1 : 1 ≤ m := by rw [hm]; omega
          have hm2 : m ≤ n - tot := by rw [hm]; exact Nat.min_le_left _ _
          have hm3 : m ≤ c.BSIZE - (off0 + tot) % c.BSIZE := by
            rw [hm]; exact Nat.min_le_right _ _
          have hcp : either_copyin mem user_src (src0 + tot) m =
              some (fun k => mem.byte (src0 + tot + k)) := by
            apply either_copyin_ok
            rcases hsrc with h | h
            · exact Or.inl h
            · refine Or.inr (fun k hk => ?_)
              rw [Nat.add_assoc]
              exact h (tot + k) (by omega)
          simp only [hcp] at hr
          cases hrel : brelse c (log_write (s2.setBuf bp { s2.bufs bp with
              data := fun i =>
                if (off0 + tot) % c.BSIZE ≤ i ∧ i < (off0 + tot) % c.BSIZE + m then
                  mem.byte (src0 + tot + (i - (off0 + tot) % c.BSIZE))
                else (s2.bufs bp).data i }) bp) bp with
          | error e => simp [hrel] at hr
          | ok r3 =>
            obtain ⟨s3, u⟩ := r3
            simp only [hrel] at hr
            obtain ⟨hc3, henv3, hino3, hlk3, hf3, hfb3, hdata, hview3⟩ :=
              chunk_view (k := 8 * (n - tot - 1) + k) _ hc1 (noFault_env hnf hg1.1) hf1 hbn ha0
                hbr hrel
            have hino3p : s3.inodes ip = s1.inodes ip := by rw [hino3]
            have hst3 : Stored c s3 ip memW srcW lo hi := by
              intro x hx1 hx2
              have hxn : x / c.BSIZE < MAXFILE c :=
                Nat.div_lt_of_lt_mul (by rw [Nat.mul_comm]; omega)
              obtain ⟨e1, e2, e3⟩ := hst1 x hx1 hx2
              rw [hfb3, hino3p, hview3, henv3.2.1]
              refine ⟨e1, e2, ?_⟩
              by_cases hq : fileBlock c s1 ip (x / c.BSIZE) =
                  fileBlock c s1 ip ((off0 + tot) / c.BSIZE)
              · rw [if_pos hq]
                have hsame : x / c.BSIZE = (off0 + tot) / c.BSIZE :=
                  hf1.2.2.2 _ _ hxn hbn e1 hq
                rw [hdata, ← hq]
                rcases hdis with hd | hd
                · have hb4 := before_arith (show x < off0 + tot by omega) hsame
                  rw [if_neg (by omega)]
                  exact e3
                · have hb4 := after_arith (show off0 + tot + m ≤ x by omega) hsame
                  rw [if_neg (by omega)]
                  exact e3
              · rw [if_neg hq]
                exact e3
            have e1 : (tot + m) % U32 = tot + m := Nat.mod_eq_of_lt (by omega)
            have e2 : (off0 + tot + m) % U32 = off0 + (tot + m) := by
              rw [Nat.add_assoc]; exact Nat.mod_eq_of_lt (by omega)
            have e3 : src0 + tot + m = src0 + (tot + m) := Nat.add_assoc _ _ _
            rw [e1, e2, e3] at hr
            have hdev3 : (s3.inodes ip).dev = dev := by rw [hino3p, hdev1, hdev]
            have henv13 : SameEnv s s3 := hg1.1.trans_env henv3
            rw [hdev1, hdev] at hc3
            exact writei_loop_keep c mem memW ip user_src n src0 off0 dev srcW lo hi hsrc hmax h32
              hdis hhi fuel s3 (tot + m) k (by omega) hdev3 (coherent_mono hc3 (by omega))
              (geometry_env hg henv13) (noFault_env hnf henv13) (by rw [henv13.2.1]; exact hsz)
              hf3 hst3 s' r hr
    · rw [if_neg hlt] at hr
      simp only [Except.ok.injEq, Prod.mk.injEq] at hr
      obtain ⟨rfl, rfl⟩ := hr
      exact hst

/-- What `writei` leaves alone on a well-formed file, without an injected fault: the file
stays well formed, its bytes outside the range written are kept, and the inode changes in
its block addresses and its size only. -/
theorem writei_keep {c : Config} {s s1 : State} {mem : Mem} {ip user_src src off n k : Nat}
    {r : Int} (hc : Coherent c s (s.inodes ip).dev (8 * n + k + 2)) (hg : Geometry c s)
    (hnf : NoFault s) (hsz : s.sb.size ≤ U32) (hf : FileOK c s ip)
    (hsrc : user_src = 0 ∨ ∀ j, j < n → mem.ok (src + j) = true)
    (hoff : off ≤ (s.inodes ip).d.size) (hmax : off + n ≤ MAXFILE c * c.BSIZE)
    (h32 : off + n < 2147483648)
    (hib : ∀ y, y < s.sb.size → IBLOCK c (s.inodes ip).inum s.sb ≠ BBLOCK c y s.sb)
    (hw : writei c s mem ip user_src src off n = .ok (s1, r)) :
    FileOK c s1 ip ∧ SizeOnly s s1 ip ∧
      ∀ (memW : Mem) (srcW lo hi : Nat), hi ≤ off ∨ off + n ≤ lo → hi ≤ MAXFILE c * c.BSIZE →
        Stored c s ip memW srcW lo hi → Stored c s1 ip memW srcW lo hi := by
  have hU : off + n < U32 := by unfold U32; omega
  have hmod : (off + n) % U32 = off + n := Nat.mod_eq_of_lt hU
  have hB : 0 < c.BSIZE := hg.1
  unfold writei at hw
  rw [hmod, if_neg (by omega), if_neg (by omega)] at hw
  cases hl : writei_loop c mem ip user_src n (n + 1) s 0 off src with
  | error e => simp [hl] at hw
  | ok r1 =>
    obtain ⟨sL, o⟩ := r1
    simp only [hl] at hw
    obtain ⟨i1, i2, i3, i4, i5, i6, i7, i8, i9⟩ :=
      writei_loop_view c mem ip user_src n src off (s.inodes ip).dev hsrc hmax hU (n + 1) s 0
        (k + 2) (Nat.zero_le _) rfl (coherent_mono hc (by omega)) hg hnf hsz hf
        (fun a h1 h2 => by omega) sL o hl
    have hkeepL : ∀ (memW : Mem) (srcW lo hi : Nat), hi ≤ off ∨ off + n ≤ lo →
        hi ≤ MAXFILE c * c.BSIZE → Stored c s ip memW srcW lo hi →
        Stored c sL ip memW srcW lo hi := fun memW srcW lo hi hdis hhi hst =>
      writei_loop_keep c mem memW ip user_src n src off (s.inodes ip).dev srcW lo hi hsrc hmax hU
        hdis hhi (n + 1) s 0 (k + 2) (Nat.zero_le _) rfl (coherent_mono hc (by omega)) hg hnf hsz
        hf hst sL o hl
    obtain ⟨-, hcore⟩ := writei_loop_core c mem ip user_src n off src (s.inodes ip).dev hB hU
      (n + 1) s 0 (by omega) (Nat.zero_le _)
    obtain ⟨hao, -⟩ := hcore sL o hl
    obtain ⟨hsbL, hothL, adL, hadL⟩ := hao
    by_cases hn : n > 0
    · rw [if_pos hn] at hw
      obtain ⟨sM, hsM⟩ : ∃ sM, sM = (if o > (sL.inodes ip).d.size then
          sL.setInode ip { sL.inodes ip with d := { (sL.inodes ip).d with size := o } }
          else sL) := ⟨_, rfl⟩
      rw [← hsM] at hw
      have hM : SameEnv sL sM ∧ (sM.inodes ip).dev = (sL.inodes ip).dev ∧
          (sM.inodes ip).inum = (sL.inodes ip).inum ∧
          Coherent c sM (s.inodes ip).dev (k + 2) ∧ FileOK c sM ip ∧
          (∀ bn, fileBlock c sM ip bn = fileBlock c sL ip bn) ∧
          (∀ dev x, blockView c sM dev x = blockView c sL dev x) ∧ SizeOnly sL sM ip := by
        by_cases ho : o > (sL.inodes ip).d.size
        · rw [if_pos ho] at hsM
          rw [hsM]
          refine ⟨SameEnv.rfl_env _, by rw [setInode_same], by rw [setInode_same],
            coherent_setInode i2 _ _, (setSize_file o).2 i8, (setSize_file o).1,
            fun _ _ => rfl, fun j hj => setInode_other _ _ _ hj, (sL.inodes ip).d.addrs, o, ?_⟩
          rw [setInode_same]
        · rw [if_neg ho] at hsM
          rw [hsM]
          exact ⟨SameEnv.rfl_env _, rfl, rfl, i2, i8, fun _ => rfl, fun _ _ => rfl,
            fun _ _ => rfl, (sL.inodes ip).d.addrs, (sL.inodes ip).d.size, rfl⟩
      obtain ⟨m2, m3, m3b, m6, m7, m8, m9, m10⟩ := hM
      cases hiu : iupdate c sM ip with
      | error e => simp [hiu] at hw
      | ok r2 =>
        obtain ⟨s2, u⟩ := r2
        simp only [hiu, Except.ok.injEq, Prod.mk.injEq] at hw
        obtain ⟨rfl, rfl⟩ := hw
        have hdevM : (sM.inodes ip).dev = (s.inodes ip).dev := m3.trans i4
        have hinumM : (sM.inodes ip).inum = (s.inodes ip).inum := m3b.trans i5
        have hsbM : sM.sb = s.sb := by rw [m2.2.1, i3.2.1]
        rw [← hdevM] at m6
        obtain ⟨u1, u2, u3, u4, u5⟩ :=
          iupdate_view (k := k) m6 (noFault_env hnf (i3.trans_env m2)) m7 hiu
        have hino2 : s2.inodes ip = sM.inodes ip := by rw [u3]
        have hview2 : ∀ x, x ≠ IBLOCK c (s.inodes ip).inum s.sb →
            blockView c s2 (sM.inodes ip).dev x = blockView c sM (sM.inodes ip).dev x := by
          obtain ⟨-, -, -, hp4, hp5⟩ := iupdate_part (k := k) m6
            (noFault_env hnf (i3.trans_env m2) _ (m7.1 _ (Or.inr rfl)).1) hiu
          intro x hx
          apply hp5
          rw [hinumM, hsbM]
          exact hx
        have hfb2 : ∀ bn, bn < MAXFILE c → fileBlock c s2 ip bn = fileBlock c sM ip bn := by
          intro bn hbn
          unfold fileBlock
          rw [hino2]
          by_cases hd : bn < c.NDIRECT
          · simp only [if_pos hd]
          · simp only [if_neg hd]
            by_cases hi0 : (sM.inodes ip).d.addrs c.NDIRECT = 0
            · simp only [if_pos hi0]
            · simp only [if_neg hi0]
              rw [u5 _ (m7.2.1 _ ⟨hi0, Or.inl rfl⟩).2.2]
        have hf2 : FileOK c s2 ip := by
          refine m7.keep u2.2.1 (by rw [hino2]) (by rw [hino2]) (by rw [hino2]) ?_ hfb2
          intro x hx hbit
          unfold bmBit at hbit ⊢
          rw [hsbM] at hx
          rw [u2.2.1, hsbM, hview2 _ (fun e => hib x hx e.symm)]
          rw [hsbM] at hbit
          exact hbit
        refine ⟨hf2, ⟨fun j hj => ?_, ?_⟩, fun memW srcW lo hi hdis hhi hst => ?_⟩
        · rw [u3, m10.1 j hj, hothL j hj]
        · obtain ⟨ad, sz, hm⟩ := m10.2
          refine ⟨ad, sz, ?_⟩
          rw [hino2, hm, hadL]
        · intro a h1 h2
          obtain ⟨e1, e2, e3⟩ := hkeepL memW srcW lo hi hdis hhi hst a h1 h2
          have han : a / c.BSIZE < MAXFILE c :=
            Nat.div_lt_of_lt_mul (by rw [Nat.mul_comm]; omega)
          rw [hfb2 _ han, hino2, u2.2.1, m2.2.1, m8]
          have hown : Owned c sM ip (fileBlock c sM ip (a / c.BSIZE)) :=
            ⟨by rw [m8]; exact e1, Or.inr ⟨_, han, rfl⟩⟩
          rw [m8] at hown
          rw [u5 _ (m7.2.1 _ hown).2.2, m9, m3]
          exact ⟨e1, e2, e3⟩
    · rw [if_neg hn] at hw
      simp only [Except.ok.injEq, Prod.mk.injEq] at hw
      obtain ⟨rfl, rfl⟩ := hw
      exact ⟨i8, ⟨hothL, adL, (s.inodes ip).d.size, hadL⟩, hkeepL⟩

/-- The loop of `dirlink` from entry number `j` on, on a directory without a hole whose size
is `N` entries, without an injected fault: it stops at the first entry from `j` on whose
`inum` is 0, and at the end of the directory when there is none; the reads change nothing a
reader can tell. -/
theorem dirlink_loop_spec (c : Config) (dp de dev k N : Nat) (hB : 0 < c.BSIZE)
    (hD : 0 < c.DIRENT) (hmax : N * c.DIRENT ≤ MAXFILE c * c.BSIZE)
    (h31 : N * c.DIRENT < 2147483648) :
    ∀ (fuel : Nat) (s : State) (mem : Mem) (j : Nat), (s.inodes dp).d.size = N * c.DIRENT →
      N - j < fuel → j ≤ N → (s.inodes dp).dev = dev → Coherent c s dev (k + 1) → NoFault s →
      Unlocked c s → Spare c s 1 → Mapped c s dp →
      ((s.inodes dp).d.addrs c.NDIRECT ≠ 0 → (s.inodes dp).d.addrs c.NDIRECT < s.sb.size) →
      ∀ js, j ≤ js → js ≤ N →
        (∀ i, j ≤ i → i < js → c.direntInum (dirEntry c s dp (i * c.DIRENT)) ≠ 0) →
        (js < N → c.direntInum (dirEntry c s dp (js * c.DIRENT)) = 0) →
        ∃ s2 m, dirlink_loop c dp de fuel s mem (j * c.DIRENT) = .ok (s2, (m, js * c.DIRENT)) ∧
          Coherent c s2 dev (k + 1) ∧ SameView c s s2 dev
  | 0, s, mem, j, _, hfuel, _, _, _, _, _, _, _, _ => by omega
  | fuel + 1, s, mem, j, hsz, hfuel, hj, hdev, hc, hnf, hu, hsp, hmp, hind => by
    intro js hjs hjsN hne h0
    simp only [dirlink_loop]
    by_cases hlt : j < N
    · have hoff : j * c.DIRENT < (s.inodes dp).d.size := by
        rw [hsz]; exact Nat.mul_lt_mul_of_pos_right hlt hD
      have hnext : j * c.DIRENT + c.DIRENT ≤ N * c.DIRENT := by
        have : (j + 1) * c.DIRENT ≤ N * c.DIRENT := Nat.mul_le_mul_right _ hlt
        rw [Nat.add_mul, Nat.one_mul] at this
        exact this
      rw [if_pos hoff]
      rw [← hdev] at hc
      obtain ⟨s2, m, hr, hc2, hsv, hbytes⟩ := @readi_same c s mem dp de (j * c.DIRENT) c.DIRENT k hB hc
        hnf hu hsp hmp hind (show j * c.DIRENT + c.DIRENT ≤ (s.inodes dp).d.size by
          rw [hsz]; exact hnext) (by omega) (by omega)
      have hent : (fun i => if i < c.DIRENT then m.byte (de + i) else 0) =
          dirEntry c s dp (j * c.DIRENT) := by
        funext i
        unfold dirEntry
        by_cases hi : i < c.DIRENT
        · rw [if_pos hi, if_pos hi, hbytes i hi]
        · rw [if_neg hi, if_neg hi]
      have hino2 : s2.inodes = s.inodes := hsv.2.1
      have hmod : (j * c.DIRENT + c.DIRENT) % U32 = (j + 1) * c.DIRENT := by
        rw [Nat.add_mul, Nat.one_mul]
        exact Nat.mod_eq_of_lt (by unfold U32; omega)
      simp only [hr, ne_eq, not_true_eq_false, if_false, hent, hmod]
      rw [hdev] at hsv hc2
      by_cases hz : c.direntInum (dirEntry c s dp (j * c.DIRENT)) = 0
      · rw [if_pos hz]
        have hjj : js = j := by
          by_contra hne2
          exact hne j (Nat.le_refl _) (by omega) hz
        rw [hjj]
        exact ⟨s2, m, rfl, hc2, hsv⟩
      · rw [if_neg hz]
        have hjlt : j < js := by
          rcases Nat.lt_or_ge j js with h | h
          · exact h
          · exfalso
            have : js = j := by omega
            subst this
            exact hz (h0 hlt)
        have hdeq : ∀ off, dirEntry c s2 dp off = dirEntry c s dp off := fun off => by
          rw [← hdev] at hsv; exact hsv.dirEntry_eq off
        obtain ⟨s3, m3, q1, q2, q3⟩ := dirlink_loop_spec c dp de dev k N hB hD hmax h31 fuel s2 m
          (j + 1) (by rw [hino2]; exact hsz) (by omega) (by omega) (by rw [hino2]; exact hdev)
          hc2 (noFault_env hnf hsv.1) (hsv.unlocked hu) (hsv.spare hsp)
          (by rw [← hdev] at hsv; exact hsv.mapped hmp)
          (by rw [hino2, hsv.1.2.1]; exact hind) js (by omega) hjsN
          (fun i a b => by rw [hdeq]; exact hne i (by omega) b)
          (fun a => by rw [hdeq]; exact h0 a)
        exact ⟨s3, m3, q1, q2, hsv.trans_view q3⟩
    · have hjn : j = N := by omega
      have hoff : ¬ j * c.DIRENT < (s.inodes dp).d.size := by
        rw [hsz, hjn]; exact Nat.lt_irrefl _
      rw [if_neg hoff]
      have : js = j := by omega
      rw [this]
      exact ⟨s, mem, rfl, hc, SameView.rfl_view c s dev⟩

/-- A handle taken with `iget` and given back with `iput` at once: both calls return when
the cache of inodes has the inode or a free slot, no referenced slot has changed, and the
buffers are untouched. -/
theorem InodesOnly.rfl_inodes (s : State) : InodesOnly s s := rfl

theorem InodesOnly.trans_inodes {s s2 s3 : State} (h1 : InodesOnly s s2) (h2 : InodesOnly s2 s3) :
    InodesOnly s s3 := by
  unfold InodesOnly at *
  rw [h2, h1]

theorem InodesOnly.set (s : State) (ip : Nat) (x : Inode) : InodesOnly s (s.setInode ip x) := rfl

theorem InodesOnly.coherent {c : Config} {s s2 : State} {dev k : Nat} (h : InodesOnly s s2)
    (hc : Coherent c s dev k) : Coherent c s2 dev k := by
  rw [h]; exact hc

theorem InodesOnly.tagsOK {c : Config} {s s2 : State} {dev k : Nat} (h : InodesOnly s s2)
    (hc : TagsOK c s dev k) : TagsOK c s2 dev k := by
  rw [h]; exact hc

theorem InodesOnly.toDisk {c : Config} {s s2 : State} (h : InodesOnly s s2) (dev : Nat) :
    SameDisk c s s2 dev := by
  rw [h]; exact ⟨⟨rfl, rfl, rfl, rfl⟩, fun _ => ⟨rfl, rfl⟩, fun _ => rfl⟩

theorem InodesOnly.bufs_eq {s s2 : State} (h : InodesOnly s s2) : s2.bufs = s.bufs := by
  rw [h]

theorem InodesOnly.log_eq {s s2 : State} (h : InodesOnly s s2) : s2.log = s.log := by
  rw [h]

theorem InodesOnly.xfers_eq {s s2 : State} (h : InodesOnly s s2) : s2.xfers = s.xfers := by
  rw [h]

theorem SameDisk.rfl_disk (c : Config) (s : State) (dev : Nat) : SameDisk c s s dev :=
  ⟨SameEnv.rfl_env s, fun _ => ⟨rfl, rfl⟩, fun _ => rfl⟩

theorem SameDisk.trans_disk {c : Config} {s s2 s3 : State} {dev : Nat}
    (h1 : SameDisk c s s2 dev) (h2 : SameDisk c s2 s3 dev) : SameDisk c s s3 dev :=
  ⟨h1.1.trans_env h2.1, fun i => ⟨(h2.2.1 i).1.trans (h1.2.1 i).1, (h2.2.1 i).2.trans (h1.2.1 i).2⟩,
    fun m => (h2.2.2 m).trans (h1.2.2 m)⟩

theorem SameView.toSameDisk {c : Config} {s s2 : State} {dev : Nat} (h : SameView c s s2 dev) :
    SameDisk c s s2 dev := ⟨h.1, h.2.2.1, h.2.2.2⟩

theorem SameDisk.unlocked_disk {c : Config} {s s2 : State} {dev : Nat} (h : SameDisk c s s2 dev)
    (hu : Unlocked c s) : Unlocked c s2 := fun i hi => by
  rw [(h.2.1 i).2]; exact hu i hi

theorem SameDisk.spare_disk {c : Config} {s s2 : State} {dev n : Nat} (h : SameDisk c s s2 dev)
    (hs : Spare c s n) : Spare c s2 n :=
  hs.same (fun i => (h.2.1 i).1)

theorem SameDisk.noFault_disk {c : Config} {s s2 : State} {dev : Nat} (h : SameDisk c s s2 dev)
    (hn : NoFault s) : NoFault s2 := noFault_env hn h.1

theorem iget_iput {c : Config} {s : State} {dev inum : Nat}
    (hslot : ∃ j, j < c.NINODE ∧ (s.inodes j).ref = 0) :
    ∃ s3 ip s4, iget c s dev inum = .ok (s3, ip) ∧ iput c s3 ip = .ok (s4, ()) ∧
      (∀ j, 0 < (s.inodes j).ref → s4.inodes j = s.inodes j) ∧
      (∀ j, j ≠ ip → s4.inodes j = s.inodes j) ∧ InodesOnly s s4 := by
  obtain ⟨j, hj, hj0⟩ := hslot
  cases hg : iget c s dev inum with
  | error e =>
    obtain ⟨e1, s1⟩ := e
    obtain ⟨-, -, -, hall⟩ := ((iget_spec c s dev inum).2.2.1 e1 s1).1 hg
    exact absurd hj0 (hall j hj)
  | ok r =>
    obtain ⟨s3, ip⟩ := r
    have hcase := iget_cases.1 s3 ip hg
    have hnot : ¬ ((s3.inodes ip).ref = 1 ∧ (s3.inodes ip).valid ≠ 0 ∧
        (s3.inodes ip).d.nlink = 0) := by
      rcases hcase with ⟨hpos, rfl⟩ | ⟨-, rfl⟩
      · rw [setInode_same]
        intro h
        have := h.1
        simp only at this
        omega
      · rw [setInode_same]
        intro h
        exact h.2.1 rfl
    have hput : iput c s3 ip =
        .ok (s3.setInode ip { s3.inodes ip with ref := (s3.inodes ip).ref - 1 }, ()) := by
      unfold iput
      simp only [if_neg hnot]
    refine ⟨s3, ip, _, rfl, hput, fun j hjp => ?_, fun j hjn => ?_, ?_⟩
    · by_cases hji : j = ip
      · subst hji
        rw [setInode_same]
        rcases hcase with ⟨hpos, rfl⟩ | ⟨h0, rfl⟩
        · rw [setInode_same]
          cases hx : s.inodes j with
          | mk d1 d2 d3 d4 d5 d6 =>
            simp only [Inode.mk.injEq, and_true, true_and]
            omega
        · omega
      · rw [setInode_other _ _ _ hji]
        rcases hcase with ⟨-, rfl⟩ | ⟨-, rfl⟩ <;> rw [setInode_other _ _ _ hji]
    · rw [setInode_other _ _ _ hjn]
      rcases hcase with ⟨-, rfl⟩ | ⟨-, rfl⟩ <;> rw [setInode_other _ _ _ hjn]
    · rcases hcase with ⟨-, rfl⟩ | ⟨-, rfl⟩ <;> rfl

theorem blockView_congr {c : Config} {s s2 : State} (hb : s2.bufs = s.bufs)
    (hn : s2.next = s.next) (hd : s2.disk = s.disk) (dev m : Nat) :
    blockView c s2 dev m = blockView c s dev m := by
  unfold blockView cachedBuf recency
  rw [hb, hn, hd]

theorem fileByte_congr {c : Config} {s s2 : State} {ip : Nat}
    (hi : s2.inodes ip = s.inodes ip)
    (hv : ∀ m, blockView c s2 (s.inodes ip).dev m = blockView c s (s.inodes ip).dev m)
    (a : Nat) : fileByte c s2 ip a = fileByte c s ip a := by
  unfold fileByte fileBlock
  rw [hi]
  simp only [hv]

theorem dirEntry_congr {c : Config} {s s2 : State} {dp : Nat}
    (hi : s2.inodes dp = s.inodes dp)
    (hv : ∀ m, blockView c s2 (s.inodes dp).dev m = blockView c s (s.inodes dp).dev m)
    (off : Nat) : dirEntry c s2 dp off = dirEntry c s dp off := by
  funext i
  unfold dirEntry
  rw [fileByte_congr hi hv]

/-- Bytes stored in a file are the bytes of the file. -/
theorem Stored.byte_eq {c : Config} {s : State} {ip : Nat} {memW : Mem} {lo hi : Nat}
    (h : Stored c s ip memW lo lo hi) {a : Nat} (h1 : lo ≤ a) (h2 : a < hi) :
    fileByte c s ip a = memW.byte a := by
  obtain ⟨-, -, e3⟩ := h a h1 h2
  unfold fileByte
  rw [e3, show lo + (a - lo) = a by omega]

/-- On a file without a hole every range of bytes is stored as the file has it. -/
theorem Mapped.all_stored {c : Config} {s : State} {ip : Nat} (h : Mapped c s ip) (lo hi : Nat)
    (hhi : hi ≤ (s.inodes ip).d.size) :
    Stored c s ip ⟨fileByte c s ip, fun _ => true⟩ lo lo hi := by
  intro a h1 h2
  obtain ⟨m1, m2⟩ := h a (by omega)
  refine ⟨m1, m2, ?_⟩
  show _ = fileByte c s ip (lo + (a - lo))
  rw [show lo + (a - lo) = a by omega]
  rfl

/-- The name stored by `strncpy` compares equal with the name it was copied from. -/
theorem namecmp_strncpy (c : Config) (name e : Nat → Nat)
    (h : ∀ x, x < c.DIRSIZ → e x % 256 = strncpy name c.DIRSIZ x % 256) :
    namecmp c name e = 0 := by
  unfold namecmp
  rw [strncmp_eq_zero_iff]
  intro x hx hy
  simp only [Nat.zero_add] at hy ⊢
  rw [h x hx]
  unfold strncpy
  by_cases h0 : name x % 256 = 0
  · rw [if_neg (fun hh => hh.2 x (by omega) h0), h0]
  · have hall : ∀ j, j < x + 1 → name j % 256 ≠ 0 := fun j hj => by
      by_cases hjx : j = x
      · rw [hjx]; exact h0
      · exact hy j (by omega)
    rw [if_pos ⟨hx, hall⟩, Nat.mod_mod]

/-- The loop of `dirlookup` as in `dirlookup_loop_spec`, with the cache coherent
afterwards. -/
theorem dirlookup_loop_quiet (c : Config) (dp : Nat) (name : Nat → Nat) (poff : Bool)
    (de dev k N : Nat) (hB : 0 < c.BSIZE) (hD : 0 < c.DIRENT)
    (hmax : N * c.DIRENT ≤ MAXFILE c * c.BSIZE) (h31 : N * c.DIRENT < 2147483648) :
    ∀ (fuel : Nat) (s : State) (mem : Mem) (j : Nat), (s.inodes dp).d.size = N * c.DIRENT →
      N - j < fuel → j ≤ N → (s.inodes dp).dev = dev → Coherent c s dev (k + 1) → NoFault s →
      Unlocked c s → Spare c s 1 → Mapped c s dp →
      ((s.inodes dp).d.addrs c.NDIRECT ≠ 0 → (s.inodes dp).d.addrs c.NDIRECT < s.sb.size) →
      (∀ i, j ≤ i → i < N → Matches c s dp name (i * c.DIRENT) →
        (∀ i2, j ≤ i2 → i2 < i → ¬ Matches c s dp name (i2 * c.DIRENT)) →
        ∃ s2, Coherent c s2 dev (k + 1) ∧ SameView c s s2 dev ∧
          dirlookup_loop c dp name poff de fuel s mem (j * c.DIRENT) =
            match iget c s2 dev (c.direntInum (dirEntry c s dp (i * c.DIRENT))) with
            | .error e => .error e
            | .ok (s', ip) => .ok (s', (some ip, if poff then some (i * c.DIRENT) else none))) ∧
      ((∀ i, j ≤ i → i < N → ¬ Matches c s dp name (i * c.DIRENT)) →
        ∃ s2, Coherent c s2 dev (k + 1) ∧ SameView c s s2 dev ∧
          dirlookup_loop c dp name poff de fuel s mem (j * c.DIRENT) = .ok (s2, (none, none)))
  | 0, s, mem, j, _, hfuel, _, _, _, _, _, _, _, _ => by omega
  | fuel + 1, s, mem, j, hsz, hfuel, hj, hdev, hc, hnf, hu, hsp, hmp, hind => by
    simp only [dirlookup_loop]
    by_cases hlt : j < N
    · have hoff : j * c.DIRENT < (s.inodes dp).d.size := by
        rw [hsz]; exact Nat.mul_lt_mul_of_pos_right hlt hD
      have hnext : j * c.DIRENT + c.DIRENT ≤ N * c.DIRENT := by
        have : (j + 1) * c.DIRENT ≤ N * c.DIRENT := Nat.mul_le_mul_right _ hlt
        rw [Nat.add_mul, Nat.one_mul] at this
        exact this
      rw [if_pos hoff]
      rw [← hdev] at hc
      obtain ⟨s2, m, hr, hc2, hsv, hbytes⟩ := @readi_same c s mem dp de (j * c.DIRENT) c.DIRENT k hB hc
        hnf hu hsp hmp hind (show j * c.DIRENT + c.DIRENT ≤ (s.inodes dp).d.size by
          rw [hsz]; exact hnext) (by omega) (by omega)
      have hent : (fun i => if i < c.DIRENT then m.byte (de + i) else 0) =
          dirEntry c s dp (j * c.DIRENT) := by
        funext i
        unfold dirEntry
        by_cases hi : i < c.DIRENT
        · rw [if_pos hi, if_pos hi, hbytes i hi]
        · rw [if_neg hi, if_neg hi]
      have hino2 : s2.inodes = s.inodes := hsv.2.1
      have hmod : (j * c.DIRENT + c.DIRENT) % U32 = (j + 1) * c.DIRENT := by
        rw [Nat.add_mul, Nat.one_mul]
        exact Nat.mod_eq_of_lt (by unfold U32; omega)
      simp only [hr, ne_eq, not_true_eq_false, if_false, hent, hmod, hino2, hdev]
      rw [hdev] at hsv hc2
      obtain ⟨ih1, ih2⟩ := dirlookup_loop_quiet c dp name poff de dev k N hB hD hmax h31 fuel s2 m
        (j + 1) (by rw [hino2]; exact hsz) (by omega) (by omega) (by rw [hino2]; exact hdev)
        hc2 (noFault_env hnf hsv.1) (hsv.unlocked hu) (hsv.spare hsp)
        (by rw [← hdev] at hsv; exact hsv.mapped hmp)
        (by rw [hino2, hsv.1.2.1]; exact hind)
      have hmiff : ∀ off, Matches c s2 dp name off ↔ Matches c s dp name off := fun off => by
        rw [← hdev] at hsv; exact hsv.matches_iff name off
      have hdeq : ∀ off, dirEntry c s2 dp off = dirEntry c s dp off := fun off => by
        rw [← hdev] at hsv; exact hsv.dirEntry_eq off
      by_cases hm : Matches c s dp name (j * c.DIRENT)
      · have hm1 := hm.1
        have hm2 := hm.2
        simp only [if_neg hm1, hm2, if_true]
        refine ⟨fun i h1 h2 hmi hmin => ?_, fun hall => absurd hm (hall j (Nat.le_refl _) hlt)⟩
        have hij : i = j := by
          by_contra hne
          exact hmin j (Nat.le_refl _) (by omega) hm
        subst hij
        exact ⟨s2, hc2, hsv, rfl⟩
      · have hfin : (∀ i, j ≤ i → i < N → Matches c s dp name (i * c.DIRENT) →
            (∀ i2, j ≤ i2 → i2 < i → ¬ Matches c s dp name (i2 * c.DIRENT)) →
            ∃ s3, Coherent c s3 dev (k + 1) ∧ SameView c s s3 dev ∧
              dirlookup_loop c dp name poff de fuel s2 m ((j + 1) * c.DIRENT) =
                match iget c s3 dev (c.direntInum (dirEntry c s dp (i * c.DIRENT))) with
                | .error e => .error e
                | .ok (s', ip) => .ok (s', (some ip, if poff then some (i * c.DIRENT) else none))) ∧
            ((∀ i, j ≤ i → i < N → ¬ Matches c s dp name (i * c.DIRENT)) →
              ∃ s3, Coherent c s3 dev (k + 1) ∧ SameView c s s3 dev ∧
                dirlookup_loop c dp name poff de fuel s2 m ((j + 1) * c.DIRENT) =
                  .ok (s3, (none, none))) := by
          refine ⟨fun i h1 h2 hmi hmin => ?_, fun hall => ?_⟩
          · have hne : i ≠ j := fun e => hm (by rw [← e]; exact hmi)
            obtain ⟨s3, q0, q1, q2⟩ := ih1 i (by omega) h2 ((hmiff _).2 hmi)
              (fun i2 a b hx => hmin i2 (by omega) b ((hmiff _).1 hx))
            rw [hdeq] at q2
            exact ⟨s3, q0, hsv.trans_view q1, q2⟩
          · obtain ⟨s3, q0, q1, q2⟩ := ih2 (fun i a b hx => hall i (by omega) b ((hmiff _).1 hx))
            exact ⟨s3, q0, hsv.trans_view q1, q2⟩
        by_cases h0 : c.direntInum (dirEntry c s dp (j * c.DIRENT)) = 0
        · simp only [if_pos h0]
          exact hfin
        · simp only [if_neg h0, if_neg (fun hn => hm ⟨h0, hn⟩)]
          exact hfin
    · have hjn : j = N := by omega
      have hoff : ¬ j * c.DIRENT < (s.inodes dp).d.size := by
        rw [hsz, hjn]; exact Nat.lt_irrefl _
      rw [if_neg hoff]
      exact ⟨fun i h1 h2 => by omega, fun _ => ⟨s, hc, SameView.rfl_view c s dev, rfl⟩⟩

/-- The routine `dirlookup` on a directory of `N` whole entries without a hole, without an
injected fault: it ends as `iget` does for the first entry that matches, and returns 0 when
there is none; the cache stays coherent and the reads change nothing a reader can tell. -/
theorem dirlookup_quiet (c : Config) (s : State) (mem : Mem) (dp : Nat) (name : Nat → Nat)
    (poff : Bool) (de k N : Nat) (hB : 0 < c.BSIZE) (hD : 0 < c.DIRENT) (hd : DirOK c s dp N)
    (hmax : N * c.DIRENT ≤ MAXFILE c * c.BSIZE) (h31 : N * c.DIRENT < 2147483648)
    (hc : Coherent c s (s.inodes dp).dev (k + 1)) (hnf : NoFault s) (hu : Unlocked c s)
    (hsp : Spare c s 1) :
    (∀ i, i < N → Matches c s dp name (i * c.DIRENT) →
      (∀ i2, i2 < i → ¬ Matches c s dp name (i2 * c.DIRENT)) →
      ∃ s2, Coherent c s2 (s.inodes dp).dev (k + 1) ∧ SameView c s s2 (s.inodes dp).dev ∧
        dirlookup c s mem dp name poff de =
          match iget c s2 (s.inodes dp).dev (c.direntInum (dirEntry c s dp (i * c.DIRENT))) with
          | .error e => .error e
          | .ok (s', ip) => .ok (s', (some ip, if poff then some (i * c.DIRENT) else none))) ∧
    ((∀ i, i < N → ¬ Matches c s dp name (i * c.DIRENT)) →
      ∃ s2, Coherent c s2 (s.inodes dp).dev (k + 1) ∧ SameView c s s2 (s.inodes dp).dev ∧
        dirlookup c s mem dp name poff de = .ok (s2, (none, none))) := by
  obtain ⟨hdir, hsz, hmp, hind⟩ := hd
  have hrun : dirlookup c s mem dp name poff de =
      dirlookup_loop c dp name poff de ((s.inodes dp).d.size + 1) s mem (0 * c.DIRENT) := by
    unfold dirlookup
    rw [if_neg (fun h => h hdir), Nat.zero_mul]
  obtain ⟨l1, l2⟩ := dirlookup_loop_quiet c dp name poff de (s.inodes dp).dev k N hB hD hmax h31
    ((s.inodes dp).d.size + 1) s mem 0 hsz
    (by
      have : N ≤ N * c.DIRENT := Nat.le_mul_of_pos_right N hD
      omega)
    (Nat.zero_le _) rfl hc hnf hu hsp hmp hind
  refine ⟨fun i hi hm hmin => ?_, fun hall => ?_⟩
  · obtain ⟨s2, q0, q1, q2⟩ := l1 i (Nat.zero_le _) hi hm (fun i2 _ h => hmin i2 h)
    exact ⟨s2, q0, q1, hrun.trans q2⟩
  · obtain ⟨s2, q0, q1, q2⟩ := l2 (fun i _ h => hall i h)
    exact ⟨s2, q0, q1, hrun.trans q2⟩

/-- Where a non-empty entry named `name` exists, `dirlink` without an injected fault returns
-1 when the cache of inodes has a free slot; every referenced inode and the view of the
cache are as before. -/
theorem dirlink_found (c : Config) (s : State) (mem : Mem) (dp : Nat) (name : Nat → Nat)
    (inum de k N : Nat) (hB : 0 < c.BSIZE) (hD : 0 < c.DIRENT) (hd : DirOK c s dp N)
    (hmax : N * c.DIRENT ≤ MAXFILE c * c.BSIZE) (h31 : N * c.DIRENT < 2147483648)
    (hc : Coherent c s (s.inodes dp).dev (k + 1)) (hnf : NoFault s) (hu : Unlocked c s)
    (hsp : Spare c s 1) (hslot : ∃ j, j < c.NINODE ∧ (s.inodes j).ref = 0)
    (hex : ∃ i, i < N ∧ Matches c s dp name (i * c.DIRENT)) :
    ∃ s', dirlink c s mem dp name inum de = .ok (s', -1) ∧
      (∀ j, 0 < (s.inodes j).ref → s'.inodes j = s.inodes j) ∧
      SameDisk c s s' (s.inodes dp).dev ∧ Coherent c s' (s.inodes dp).dev (k + 1) := by
  obtain ⟨s2, hc2, hsv, hlook⟩ := (dirlookup_quiet c s mem dp name false de k N hB hD hd hmax h31
    hc hnf hu hsp).1 (Nat.find hex) (Nat.find_spec hex).1 (Nat.find_spec hex).2
      (fun i2 h hx => Nat.find_min hex h ⟨Nat.lt_trans h (Nat.find_spec hex).1, hx⟩)
  have hslot2 : ∃ j, j < c.NINODE ∧ (s2.inodes j).ref = 0 := by
    rw [hsv.2.1]; exact hslot
  obtain ⟨s3, ip, s4, hg, hp, hkeep, -, hio⟩ :=
    @iget_iput c s2 (s.inodes dp).dev
      (c.direntInum (dirEntry c s dp (Nat.find hex * c.DIRENT))) hslot2
  refine ⟨s4, ?_, fun j hj => ?_, hsv.toSameDisk.trans_disk (hio.toDisk _), hio.coherent hc2⟩
  · unfold dirlink
    rw [hlook, hg]
    simp only [hp]
  · rw [hkeep j (by rw [hsv.2.1]; exact hj), hsv.2.1]

theorem SameView.dirOK {c : Config} {s s2 : State} {dp N : Nat}
    (h : SameView c s s2 (s.inodes dp).dev) (hd : DirOK c s dp N) : DirOK c s2 dp N := by
  obtain ⟨h1, h2, h3, h4⟩ := hd
  refine ⟨by rw [h.2.1]; exact h1, by rw [h.2.1]; exact h2, h.mapped h3, ?_⟩
  rw [h.2.1, h.1.2.1]
  exact h4

/-- Where no entry is named `name`, `dirlink` without an injected fault ends as the `writei`
of the new entry at the first empty slot, or at the end of the directory, does, with the
value 0; after that `writei` the directory has the entry there and every other entry as
before. -/
theorem dirlink_fresh (c : Config) (s : State) (mem : Mem) (dp : Nat) (name : Nat → Nat)
    (inum de k N js : Nat) (hB : 0 < c.BSIZE) (hD : 0 < c.DIRENT) (hd : DirOK c s dp N)
    (hmax : N * c.DIRENT ≤ MAXFILE c * c.BSIZE) (h31 : N * c.DIRENT + c.DIRENT < 2147483648)
    (hc : Coherent c s (s.inodes dp).dev (8 * c.DIRENT + k + 2)) (hg : Geometry c s)
    (hnf : NoFault s) (hsz : s.sb.size ≤ U32) (hu : Unlocked c s) (hsp : Spare c s 1)
    (hf : FileOK c s dp)
    (hib : ∀ y, y < s.sb.size → IBLOCK c (s.inodes dp).inum s.sb ≠ BBLOCK c y s.sb)
    (hfit : EntryFits c inum)
    (hall : ∀ i, i < N → ¬ Matches c s dp name (i * c.DIRENT)) (hjs : js ≤ N)
    (hne : ∀ i, i < js → c.direntInum (dirEntry c s dp (i * c.DIRENT)) ≠ 0)
    (h0 : js < N → c.direntInum (dirEntry c s dp (js * c.DIRENT)) = 0)
    (hroom : js * c.DIRENT + c.DIRENT ≤ MAXFILE c * c.BSIZE) :
    ∃ s3 mem3, SameView c s s3 (s.inodes dp).dev ∧
      dirlink c s mem dp name inum de =
        (match writei c s3 mem3 dp 0 de (js * c.DIRENT) c.DIRENT with
          | .error e => .error e
          | .ok (s', _) => .ok (s', 0)) ∧
      (∀ e s', writei c s3 mem3 dp 0 de (js * c.DIRENT) c.DIRENT = .error (e, s') →
        e ≠ Err.no_progress) ∧
      ∀ s' r, writei c s3 mem3 dp 0 de (js * c.DIRENT) c.DIRENT = .ok (s', r) →
        Coherent c s' (s.inodes dp).dev (k + 1) ∧ SameEnv s s' ∧
        (∀ i, (s'.bufs i).locked = (s.bufs i).locked) ∧ FileOK c s' dp ∧ SizeOnly s s' dp ∧
        DirOK c s' dp (max N (js + 1)) ∧
        c.direntInum (dirEntry c s' dp (js * c.DIRENT)) = inum ∧
        namecmp c name (c.direntName (dirEntry c s' dp (js * c.DIRENT))) = 0 ∧
        ∀ i, i < N → i ≠ js → dirEntry c s' dp (i * c.DIRENT) = dirEntry c s dp (i * c.DIRENT) := by
  have hjsN : js * c.DIRENT ≤ N * c.DIRENT := Nat.mul_le_mul_right _ hjs
  obtain ⟨s2, hc2, hsv2, hlook⟩ := (dirlookup_quiet c s mem dp name false de
    (8 * c.DIRENT + k + 1) N hB hD hd hmax (by omega) hc hnf hu hsp).2 hall
  have hd2 : DirOK c s2 dp N := hsv2.dirOK hd
  have hino2 : s2.inodes = s.inodes := hsv2.2.1
  have hdeq2 : ∀ off, dirEntry c s2 dp off = dirEntry c s dp off := hsv2.dirEntry_eq
  obtain ⟨s3, m, hloop, hc3, hsv3⟩ := dirlink_loop_spec c dp de (s.inodes dp).dev
    (8 * c.DIRENT + k + 1) N hB hD hmax (by omega) ((s2.inodes dp).d.size + 1) s2 mem 0 hd2.2.1
    (by
      have : N ≤ N * c.DIRENT := Nat.le_mul_of_pos_right N hD
      have := hd2.2.1
      omega)
    (Nat.zero_le _) (by rw [hino2]) hc2 (noFault_env hnf hsv2.1) (hsv2.unlocked hu)
    (hsv2.spare hsp) hd2.2.2.1 hd2.2.2.2 js (Nat.zero_le _) hjs
    (fun i _ hi => by rw [hdeq2]; exact hne i hi) (fun h => by rw [hdeq2]; exact h0 h)
  have hsv : SameView c s s3 (s.inodes dp).dev := hsv2.trans_view hsv3
  have hino3 : s3.inodes = s.inodes := hsv.2.1
  have hd3 : DirOK c s3 dp N := hsv.dirOK hd
  obtain ⟨mem3, hmem3⟩ : ∃ mem3, mem3 = m.setEntry c de (c.direntPut inum (strncpy name c.DIRSIZ)
    (fun i => if i < c.DIRENT then m.byte (de + i) else 0)) := ⟨_, rfl⟩
  have hdev3 : (s3.inodes dp).dev = (s.inodes dp).dev := by rw [hino3]
  have hc3b : Coherent c s3 (s3.inodes dp).dev (8 * c.DIRENT + k + 2) := by rw [hdev3]; exact hc3
  have hg3 : Geometry c s3 := geometry_env hg hsv.1
  have hnf3 : NoFault s3 := noFault_env hnf hsv.1
  have hsz3 : s3.sb.size ≤ U32 := by rw [hsv.1.2.1]; exact hsz
  have hf3 : FileOK c s3 dp :=
    (hf.same_view hsv.1.2.1 hino3 hsv.2.2.2).1
  have hoff3 : js * c.DIRENT ≤ (s3.inodes dp).d.size := by
    rw [hd3.2.1]; exact Nat.mul_le_mul_right _ hjs
  have hib3 : ∀ y, y < s3.sb.size → IBLOCK c (s3.inodes dp).inum s3.sb ≠ BBLOCK c y s3.sb := by
    rw [hino3, hsv.1.2.1]; exact hib
  refine ⟨s3, mem3, hsv, ?_, fun e s' he => ?_, fun s' r hw => ?_⟩
  · unfold dirlink
    rw [hlook]
    simp only
    rw [Nat.zero_mul] at hloop
    rw [hloop]
    simp only
    rw [← hmem3]
    cases hw : writei c s3 mem3 dp 0 de (js * c.DIRENT) c.DIRENT with
    | error e => rfl
    | ok r1 =>
      obtain ⟨s', r⟩ := r1
      obtain ⟨hr, -⟩ := writei_view (k := k) hc3b hg3 hnf3 hsz3 hf3 (Or.inl rfl) hoff3 hroom
        (by omega) hw
      simp only [hr, ne_eq, not_true_eq_false, if_false]
  · exact ((writei_extends c s3 mem3 dp 0 de (js * c.DIRENT) c.DIRENT hB (by unfold U32; omega)
      (by unfold U32; omega)).2 hoff3 (by unfold U32; omega) hroom).1 e s' he
  · obtain ⟨-, w2, w3, w4, w5, w6, w7, w8⟩ := writei_view (k := k) hc3b hg3 hnf3 hsz3 hf3
      (Or.inl rfl) hoff3 hroom (by omega) hw
    obtain ⟨x1, x2, x3⟩ := writei_keep (k := k) hc3b hg3 hnf3 hsz3 hf3 (Or.inl rfl) hoff3 hroom
      (by omega) hib3 hw
    obtain ⟨-, -, y3, -, -, y6, -⟩ := ((writei_extends c s3 mem3 dp 0 de (js * c.DIRENT) c.DIRENT
      hB (by unfold U32; omega) (by unfold U32; omega)).2 hoff3 (by unfold U32; omega) hroom).2.2
        s' r hw
    have hsize := y6 (Or.inl rfl)
    rw [hd3.2.1] at hsize
    have hsize2 : (s'.inodes dp).d.size = max N (js + 1) * c.DIRENT := by
      rw [hsize]
      rcases Nat.lt_or_ge js N with h | h
      · have e1 : max N (js + 1) = N := Nat.max_eq_left h
        have e2 : (js + 1) * c.DIRENT ≤ N * c.DIRENT := Nat.mul_le_mul_right _ h
        rw [Nat.add_mul, Nat.one_mul] at e2
        rw [e1]
        exact Nat.max_eq_left e2
      · have e0 : js = N := by omega
        have e1 : max N (js + 1) = js + 1 := Nat.max_eq_right (by omega)
        rw [e1, e0, Nat.add_mul, Nat.one_mul]
        exact Nat.max_eq_right (by omega)
    have hlo := x3 ⟨fileByte c s3 dp, fun _ => true⟩ 0 0 (js * c.DIRENT) (Or.inl (Nat.le_refl _))
      (by omega) (hd3.2.2.1.all_stored 0 _ hoff3)
    have hhi := x3 ⟨fileByte c s3 dp, fun _ => true⟩ (js * c.DIRENT + c.DIRENT)
      (js * c.DIRENT + c.DIRENT) (N * c.DIRENT) (Or.inr (Nat.le_refl _)) hmax
      (hd3.2.2.1.all_stored _ _ (by rw [hd3.2.1]))
    obtain ⟨xo, ad, sz, xe⟩ := x2
    have hty : (s'.inodes dp).d.type = c.T_DIR := by
      rw [xe]; exact hd3.1
    have hmp : Mapped c s' dp := by
      intro a ha
      rw [hsize] at ha
      by_cases h1 : a < js * c.DIRENT
      · obtain ⟨e1, e2, -⟩ := hlo a (Nat.zero_le _) h1
        exact ⟨e1, e2⟩
      · by_cases h2 : a < js * c.DIRENT + c.DIRENT
        · obtain ⟨e1, e2, -⟩ := w6 a (Nat.le_of_not_lt h1) h2
          exact ⟨e1, e2⟩
        · have h3 : a < N * c.DIRENT := by
            rcases Nat.lt_or_ge a (N * c.DIRENT) with h | h
            · exact h
            · exfalso
              have := lt_max_iff.1 ha
              omega
          obtain ⟨e1, e2, -⟩ := hhi a (Nat.le_of_not_lt h2) h3
          exact ⟨e1, e2⟩
    have hnew : dirEntry c s' dp (js * c.DIRENT) =
        fun i => if i < c.DIRENT then c.direntPut inum (strncpy name c.DIRSIZ)
          (fun i => if i < c.DIRENT then m.byte (de + i) else 0) i else 0 := by
      funext i
      unfold dirEntry
      by_cases hi : i < c.DIRENT
      · rw [if_pos hi, if_pos hi]
        obtain ⟨-, -, e3⟩ := w6 (js * c.DIRENT + i) (by omega) (by omega)
        unfold fileByte
        rw [e3, hmem3]
        show (if de ≤ de + (js * c.DIRENT + i - js * c.DIRENT) ∧
          de + (js * c.DIRENT + i - js * c.DIRENT) < de + c.DIRENT then _ else _) = _
        rw [if_pos (by omega)]
        congr 1
        omega
      · rw [if_neg hi, if_neg hi]
    obtain ⟨f1, f2⟩ := hfit (strncpy name c.DIRSIZ)
      (fun i => if i < c.DIRENT then m.byte (de + i) else 0)
    rw [hdev3] at w2
    refine ⟨w2, hsv.1.trans_env w3, fun i => by rw [w5, (hsv.2.2.1 i).2], x1,
      ⟨fun j hj => by rw [xo j hj, hino3], ad, sz, by rw [xe, hino3]⟩,
      ⟨hty, hsize2, hmp, w8⟩, ?_, ?_, fun i hi hij => ?_⟩
    · rw [hnew]; exact f1
    · rw [hnew]; exact namecmp_strncpy c name _ f2
    · rw [← hsv.dirEntry_eq]
      funext t
      unfold dirEntry
      by_cases ht : t < c.DIRENT
      · rw [if_pos ht, if_pos ht]
        rcases Nat.lt_or_ge i js with h | h
        · have hb : i * c.DIRENT + t < js * c.DIRENT := by
            have : (i + 1) * c.DIRENT ≤ js * c.DIRENT := Nat.mul_le_mul_right _ h
            rw [Nat.add_mul, Nat.one_mul] at this
            omega
          exact hlo.byte_eq (Nat.zero_le _) hb
        · have hb : js * c.DIRENT + c.DIRENT ≤ i * c.DIRENT + t := by
            have : (js + 1) * c.DIRENT ≤ i * c.DIRENT := Nat.mul_le_mul_right _ (by omega)
            rw [Nat.add_mul, Nat.one_mul] at this
            omega
          have hb2 : i * c.DIRENT + t < N * c.DIRENT := by
            have : (i + 1) * c.DIRENT ≤ N * c.DIRENT := Nat.mul_le_mul_right _ hi
            rw [Nat.add_mul, Nat.one_mul] at this
            omega
          exact hhi.byte_eq hb hb2
      · rw [if_neg ht, if_neg ht]

/-- C21, amended: with no read fault injected, on a directory `dp` of `N` whole entries
without a hole (coherent cache, no buffer held, one buffer unused, well-formed file, an `inum`
that is not 0 and that an entry can hold): when a non-empty entry named `name` exists and the
cache of inodes has a free slot, `dirlink(dp, name, inum)` returns -1 and leaves the inode of
the directory, its entries and the view of the cache unchanged; otherwise, with `js` the
first slot whose `inum` is 0, or `N` when no slot is empty, and room for that slot, it ends
as the `writei` of the entry at offset `js * sizeof(de)` does, with the value 0, and every
return of it leaves the entry `(name, inum)` in slot `js`, the size at `max N (js + 1)`
entries, every other entry unchanged, and a following `dirlookup(dp, name)`, when one buffer
is unused then, ends as `iget(dp->dev, inum)` does. -/
theorem dirlink_spec (c : Config) (s : State) (mem : Mem) (dp : Nat) (name : Nat → Nat)
    (inum de k N : Nat) (hB : 0 < c.BSIZE) (hD : 0 < c.DIRENT) (hd : DirOK c s dp N)
    (hmax : N * c.DIRENT ≤ MAXFILE c * c.BSIZE) (h31 : N * c.DIRENT + c.DIRENT < 2147483648)
    (hc : Coherent c s (s.inodes dp).dev (8 * c.DIRENT + k + 2)) (hg : Geometry c s)
    (hnf : NoFault s) (hsz : s.sb.size ≤ U32) (hu : Unlocked c s) (hsp : Spare c s 1)
    (hf : FileOK c s dp)
    (hib : ∀ y, y < s.sb.size → IBLOCK c (s.inodes dp).inum s.sb ≠ BBLOCK c y s.sb)
    (hfit : EntryFits c inum) (hinum : inum ≠ 0) (href : 0 < (s.inodes dp).ref) :
    ((∃ i, i < N ∧ Matches c s dp name (i * c.DIRENT)) →
      (∃ j, j < c.NINODE ∧ (s.inodes j).ref = 0) →
      ∃ s', dirlink c s mem dp name inum de = .ok (s', -1) ∧ s'.inodes dp = s.inodes dp ∧
        (∀ off, dirEntry c s' dp off = dirEntry c s dp off) ∧
        ∀ m, blockView c s' (s.inodes dp).dev m = blockView c s (s.inodes dp).dev m) ∧
    ((∀ i, i < N → ¬ Matches c s dp name (i * c.DIRENT)) →
      ∀ js, js ≤ N → (∀ i, i < js → c.direntInum (dirEntry c s dp (i * c.DIRENT)) ≠ 0) →
        (js < N → c.direntInum (dirEntry c s dp (js * c.DIRENT)) = 0) →
        js * c.DIRENT + c.DIRENT ≤ MAXFILE c * c.BSIZE →
        ∃ s3 mem3, SameView c s s3 (s.inodes dp).dev ∧
          dirlink c s mem dp name inum de =
            (match writei c s3 mem3 dp 0 de (js * c.DIRENT) c.DIRENT with
              | .error e => .error e
              | .ok (s', _) => .ok (s', 0)) ∧
          (∀ e s', dirlink c s mem dp name inum de = .error (e, s') → e ≠ Err.no_progress) ∧
          ∀ s' r, dirlink c s mem dp name inum de = .ok (s', r) →
            r = 0 ∧ (s'.inodes dp).d.size = max N (js + 1) * c.DIRENT ∧
            c.direntInum (dirEntry c s' dp (js * c.DIRENT)) = inum ∧
            Matches c s' dp name (js * c.DIRENT) ∧
            (∀ i, i < N → i ≠ js →
              dirEntry c s' dp (i * c.DIRENT) = dirEntry c s dp (i * c.DIRENT)) ∧
            (Spare c s' 1 → ∀ (mem4 : Mem) (poff : Bool) (de4 : Nat),
              ∃ s4, SameView c s' s4 (s.inodes dp).dev ∧
                dirlookup c s' mem4 dp name poff de4 =
                  match iget c s4 (s.inodes dp).dev inum with
                  | .error e => .error e
                  | .ok (s5, ip) =>
                    .ok (s5, (some ip, if poff then some (js * c.DIRENT) else none)))) := by
  refine ⟨fun hex hslot => ?_, fun hall js hjs hne h0 hroom => ?_⟩
  · obtain ⟨s', h1, h2, h3, -⟩ := dirlink_found c s mem dp name inum de (8 * c.DIRENT + k + 1) N
      hB hD hd hmax (by omega) hc hnf hu hsp hslot hex
    exact ⟨s', h1, h2 dp href, dirEntry_congr (h2 dp href) h3.2.2, h3.2.2⟩
  · obtain ⟨s3, mem3, hsv, heq, herr, hpost⟩ := dirlink_fresh c s mem dp name inum de k N js hB
      hD hd hmax h31 hc hg hnf hsz hu hsp hf hib hfit hall hjs hne h0 hroom
    refine ⟨s3, mem3, hsv, heq, fun e s' he => ?_, fun s' r hr => ?_⟩
    · rw [heq] at he
      cases hw : writei c s3 mem3 dp 0 de (js * c.DIRENT) c.DIRENT with
      | error e2 =>
        obtain ⟨e3, s4⟩ := e2
        rw [hw] at he
        simp only [Except.error.injEq, Prod.mk.injEq] at he
        rw [← he.1]
        exact herr e3 s4 hw
      | ok r2 => rw [hw] at he; simp at he
    · rw [heq] at hr
      cases hw : writei c s3 mem3 dp 0 de (js * c.DIRENT) c.DIRENT with
      | error e2 => rw [hw] at hr; simp at hr
      | ok r2 =>
        obtain ⟨s4, r4⟩ := r2
        rw [hw] at hr
        simp only [Except.ok.injEq, Prod.mk.injEq] at hr
        obtain ⟨rfl, rfl⟩ := hr
        obtain ⟨p1, p2, p3, p4, p5, p6, p7, p8, p9⟩ := hpost s4 r4 hw
        have hm : Matches c s4 dp name (js * c.DIRENT) := ⟨by rw [p7]; exact hinum, p8⟩
        have hdev4 : (s4.inodes dp).dev = (s.inodes dp).dev := by
          obtain ⟨-, ad, sz, xe⟩ := p5
          rw [xe]
        refine ⟨rfl, p6.2.1, p7, hm, p9, fun hsp4 mem4 poff de4 => ?_⟩
        have hjsN : js * c.DIRENT ≤ N * c.DIRENT := Nat.mul_le_mul_right _ hjs
        have hmx : max N (js + 1) * c.DIRENT ≤ N * c.DIRENT + c.DIRENT ∧
            max N (js + 1) * c.DIRENT ≤ MAXFILE c * c.BSIZE := by
          rcases Nat.lt_or_ge js N with h | h
          · rw [Nat.max_eq_left h]; omega
          · have e0 : js = N := by omega
            rw [Nat.max_eq_right (by omega), e0, Nat.add_mul, Nat.one_mul]
            rw [e0] at hroom
            omega
        have hu4 : Unlocked c s4 := fun i hi => by rw [p3]; exact hu i hi
        rw [← hdev4] at p1
        obtain ⟨s5, -, q1, q2⟩ := (dirlookup_quiet c s4 mem4 dp name poff de4 k (max N (js + 1)) hB
          hD p6 hmx.2 (by omega) p1 (noFault_env hnf p2) hu4 hsp4).1 js
            (by
              rcases Nat.lt_or_ge js N with h | h
              · exact Nat.lt_of_lt_of_le h (Nat.le_max_left _ _)
              · exact Nat.lt_of_lt_of_le (Nat.lt_succ_self js) (Nat.le_max_right _ _))
            hm (fun i2 hi2 hm2 => by
              have hi2N : i2 < N := by omega
              unfold Matches at hm2
              rw [p9 i2 hi2N (by omega)] at hm2
              exact hall i2 hi2N hm2)
        rw [hdev4] at q1 q2
        rw [p7] at q2
        exact ⟨s5, q1, q2⟩

theorem binit_loop_env (c : Config) : ∀ (n b : Nat) (s : State),
    (binit_loop c n b s).disk = s.disk ∧ (binit_loop c n b s).sb = s.sb ∧
      (binit_loop c n b s).force_read_error_pbn = s.force_read_error_pbn ∧
      (binit_loop c n b s).force_disk_fail_id = s.force_disk_fail_id ∧
      (binit_loop c n b s).inodes = s.inodes
  | 0, _, s => ⟨rfl, rfl, rfl, rfl, rfl⟩
  | n + 1, b, s => by
    simp only [binit_loop]
    exact binit_loop_env c n (b + 1) _

theorem boot_env (c : Config) (disk : Nat → Nat → Nat) (pbn fail : Int) (sb : Superblock) :
    (boot c disk pbn fail sb).disk = disk ∧ (boot c disk pbn fail sb).sb = sb ∧
      (boot c disk pbn fail sb).force_read_error_pbn = pbn ∧
      (boot c disk pbn fail sb).force_disk_fail_id = fail ∧
      (boot c disk pbn fail sb).inodes = fun _ => Inode.zero :=
  binit_loop_env c c.NBUF 0 _

theorem boot_view (c : Config) (disk : Nat → Nat → Nat) (pbn fail : Int) (sb : Superblock)
    {dev : Nat} (hdev : dev ≠ 0) (n : Nat) :
    blockView c (boot c disk pbn fail sb) dev n = disk n := by
  rw [blockView_of_none (boot_listOK c disk pbn fail sb).2]
  · rw [(boot_env c disk pbn fail sb).1]
  · rintro ⟨i, -, hi⟩
    rw [boot_bufs] at hi
    exact hdev hi.1.symm

theorem boot_unlocked (c : Config) (disk : Nat → Nat → Nat) (pbn fail : Int) (sb : Superblock) :
    Unlocked c (boot c disk pbn fail sb) := fun i _ => by
  rw [boot_bufs]; rfl

theorem boot_spare (c : Config) (disk : Nat → Nat → Nat) (pbn fail : Int) (sb : Superblock) :
    Spare c (boot c disk pbn fail sb) c.NBUF :=
  ⟨List.range c.NBUF, List.nodup_range _, by rw [List.length_range], fun i hi => by
    rw [boot_bufs]
    exact ⟨List.mem_range.1 hi, rfl⟩⟩

theorem boot_nofault (c : Config) (disk : Nat → Nat → Nat) (sb : Superblock)
    (hsb : sb.size ≤ 2147483648) : NoFault (boot c disk (-1) (-1) sb) := by
  intro n hn
  obtain ⟨-, e2, e3, e4, -⟩ := boot_env c disk (-1) (-1) sb
  rw [e2] at hn
  unfold forced
  rw [e3, e4, toInt32_of_lt (by omega)]
  simp

theorem InodesOnly.unlocked_inodes {c : Config} {s s2 : State} (h : InodesOnly s s2)
    (hu : Unlocked c s) : Unlocked c s2 := (h.toDisk (c := c) 0).unlocked_disk hu

theorem InodesOnly.spare_inodes {c : Config} {s s2 : State} {n : Nat} (h : InodesOnly s s2)
    (hs : Spare c s n) : Spare c s2 n := (h.toDisk (c := c) 0).spare_disk hs

theorem InodesOnly.noFault_inodes {s s2 : State} (h : InodesOnly s s2) (hn : NoFault s) :
    NoFault s2 := by
  rw [h]; exact hn

theorem InodesOnly.geometry {c : Config} {s s2 : State} (h : InodesOnly s s2)
    (hg : Geometry c s) : Geometry c s2 := by
  rw [h]; exact hg

theorem InodesOnly.view_eq {c : Config} {s s2 : State} (h : InodesOnly s s2) (dev m : Nat) :
    blockView c s2 dev m = blockView c s dev m := by
  rw [h]; rfl

theorem fs6_fileBlock (fail : Int) (bn : Nat) : fileBlock cfg0 (fs6 fail) 0 bn = 0 := by
  unfold fileBlock
  by_cases hd : bn < cfg0.NDIRECT
  · rw [if_pos hd]; rfl
  · rw [if_neg hd, if_pos (show ((fs6 fail).inodes 0).d.addrs cfg0.NDIRECT = 0 from rfl)]

theorem sb0_bblock (x : Nat) (hx : x < 50) : BBLOCK cfg0 x sb0 = 5 := by
  show (x / 64 + 5) % U32 = 5
  have : x / 64 = 0 := Nat.div_eq_of_lt (by omega)
  rw [this]
  decide

theorem fs6_geometry (fail : Int) : Geometry cfg0 (fs6 fail) := by
  refine ⟨by decide, show 50 / 64 + 5 < U32 by decide, fun x hx => ?_⟩
  have hx2 : x < 50 := hx
  show BBLOCK cfg0 x sb0 < 50
  rw [sb0_bblock x hx2]
  decide

theorem fs6_fileOK (fail : Int) : FileOK cfg0 (fs6 fail) 0 := by
  have hown : ∀ x, ¬ Owned cfg0 (fs6 fail) 0 x := by
    rintro x ⟨h0, h1 | ⟨bn, -, h1⟩⟩
    · exact h0 h1
    · rw [fs6_fileBlock] at h1; exact h0 h1
  have hbit : ∀ x, x < 10 → bmBit cfg0 (fs6 fail) 1 x = true := by
    intro x hx
    have hsb : (fs6 fail).sb = sb0 := (boot_env cfg0 disk1 (-1) fail sb0).2.1
    unfold bmBit
    rw [hsb, sb0_bblock x (by omega)]
    have hv : blockView cfg0 (fs6 fail) 1 5 = disk1 5 := by
      unfold fs6
      rw [blockView_setInode]
      exact boot_view cfg0 disk1 (-1) fail sb0 (by decide) 5
    rw [hv]
    have h64 : x % BPB cfg0 = x := Nat.mod_eq_of_lt (show x < 64 by omega)
    rw [h64]
    interval_cases x <;> decide
  refine ⟨?_, fun x hx => absurd hx (hown x), fun bn _ h0 => absurd (fs6_fileBlock fail bn) h0,
    fun bn _ _ _ h0 _ => absurd (fs6_fileBlock fail bn) h0⟩
  rintro x (⟨y, hy, rfl⟩ | rfl)
  · have hy2 : y < 50 := hy
    have hsb : (fs6 fail).sb = sb0 := (boot_env cfg0 disk1 (-1) fail sb0).2.1
    rw [hsb, sb0_bblock y hy2]
    exact ⟨by decide, hbit 5 (by decide)⟩
  · have hsb : (fs6 fail).sb = sb0 := (boot_env cfg0 disk1 (-1) fail sb0).2.1
    have hi : (fs6 fail).inodes 0 = ino6 := setInode_same _ _ _
    rw [hi, hsb]
    exact ⟨by decide, hbit 4 (by decide)⟩

theorem cfg0_entryFits (inum : Nat) (h : inum < 256) : EntryFits cfg0 inum := by
  intro nm e
  refine ⟨?_, fun x hx => ?_⟩
  · simp only [cfg0]
    simp only [if_true]
    exact Nat.mod_eq_of_lt h
  · have hx3 : x < 3 := hx
    simp only [cfg0]
    rw [if_pos (by omega), if_neg (by omega), if_pos (by omega), Nat.add_sub_cancel, Nat.mod_mod]

set_option maxRecDepth 100000 in
/-- C21 as stated fails when a read fault is injected: with `force_disk_fail_id = 0`,
`dirlink(dp, "ab", 7)` on the empty directory returns 0 and the directory has the entry
`ab` for inode 7 at offset 0, and the following `dirlookup(dp, "ab", 0)` returns 0: it has
read the mirror disk. -/
theorem dirlink_stale_counterexample :
    ((fs6 0).inodes 0).d.size = 0 ∧
      dirlink cfg0 (fs6 0) mem0 0 name5 7 2000 = .ok (fs6Link 0, 0) ∧
      Matches cfg0 (fs6Link 0) 0 name5 0 ∧
      cfg0.direntInum (dirEntry cfg0 (fs6Link 0) 0 0) = 7 ∧
      dirlookup cfg0 (fs6Link 0) mem0 0 name5 false 2000 = .ok (fs6Found 0, (none, none)) :=
  ⟨rfl, rfl, by decide, rfl, rfl⟩

set_option maxRecDepth 100000 in
/-- Worked example for C21: on the empty directory of the example machine, without a fault,
`dirlink(dp, "ab", 7)` returns 0, and the following `dirlookup(dp, "ab", 0)` returns slot 1
with inode 7; the theorem gives the same for every return of that `dirlink`. -/
theorem dirlink_spec_witness :
    (dirlink cfg0 (fs6 (-1)) mem0 0 name5 7 2000 = .ok (fs6Link (-1), 0) ∧
      dirlookup cfg0 (fs6Link (-1)) mem0 0 name5 false 2000 =
        .ok (fs6Found (-1), (some 1, none)) ∧
      ((fs6Found (-1)).inodes 1).inum = 7) ∧
    ∃ s3 mem3, SameView cfg0 (fs6 (-1)) s3 1 ∧
      dirlink cfg0 (fs6 (-1)) mem0 0 name5 7 2000 =
        (match writei cfg0 s3 mem3 0 0 2000 (0 * cfg0.DIRENT) cfg0.DIRENT with
          | .error e => .error e
          | .ok (s', _) => .ok (s', 0)) ∧
      (∀ e s', dirlink cfg0 (fs6 (-1)) mem0 0 name5 7 2000 = .error (e, s') →
        e ≠ Err.no_progress) ∧
      ∀ s' r, dirlink cfg0 (fs6 (-1)) mem0 0 name5 7 2000 = .ok (s', r) →
        r = 0 ∧ (s'.inodes 0).d.size = max 0 (0 + 1) * cfg0.DIRENT ∧
        cfg0.direntInum (dirEntry cfg0 s' 0 (0 * cfg0.DIRENT)) = 7 ∧
        Matches cfg0 s' 0 name5 (0 * cfg0.DIRENT) ∧
        (∀ i, i < 0 → i ≠ 0 →
          dirEntry cfg0 s' 0 (i * cfg0.DIRENT) = dirEntry cfg0 (fs6 (-1)) 0 (i * cfg0.DIRENT)) ∧
        (Spare cfg0 s' 1 → ∀ (mem4 : Mem) (poff : Bool) (de4 : Nat),
          ∃ s4, SameView cfg0 s' s4 1 ∧
            dirlookup cfg0 s' mem4 0 name5 poff de4 =
              match iget cfg0 s4 1 7 with
              | .error e => .error e
              | .ok (s5, ip) =>
                .ok (s5, (some ip, if poff then some (0 * cfg0.DIRENT) else none))) :=
  ⟨⟨rfl, rfl, rfl⟩,
    (dirlink_spec cfg0 (fs6 (-1)) mem0 0 name5 7 2000 0 0 (by decide) (by decide)
      ⟨rfl, rfl, fun a ha => absurd ha (Nat.not_lt_zero a), fun h => absurd rfl h⟩
      (by decide) (by decide)
      (coherent_setInode (boot_coherent cfg0 disk1 (-1) (-1) sb0 (by decide) (by decide)) 0 ino6)
      (fs6_geometry (-1))
      ((InodesOnly.set _ 0 ino6).noFault_inodes (boot_nofault cfg0 disk1 sb0 (by decide)))
      (show 50 ≤ U32 by decide)
      ((InodesOnly.set _ 0 ino6).unlocked_inodes (boot_unlocked cfg0 disk1 (-1) (-1) sb0))
      ((InodesOnly.set _ 0 ino6).spare_inodes ((boot_spare cfg0 disk1 (-1) (-1) sb0).weaken (by decide)))
      (fs6_fileOK (-1))
      (fun y hy => by
        show IBLOCK cfg0 1 sb0 ≠ BBLOCK cfg0 y sb0
        rw [sb0_bblock y hy]
        decide)
      (cfg0_entryFits 7 (by decide)) (by decide) (by decide)).2
      (fun i hi => absurd hi (Nat.not_lt_zero i)) 0 (Nat.le_refl 0)
      (fun i hi => absurd hi (Nat.not_lt_zero i)) (fun h => absurd h (Nat.lt_irrefl 0))
      (by decide)⟩

/-- A call that returns equals its end state with its value. -/
theorem ok_of_succeeds {α : Type} (d : α) (r : Res α) (h : succeeds r = true) :
    r = .ok (endState r, valueOr d r) := by
  cases r with
  | error e => simp [succeeds] at h
  | ok x => rfl

/-- A call without a value that returns equals its end state. -/
theorem done_of_succeeds (r : Res Unit) (h : succeeds r = true) : r = .ok (endState r, ()) := by
  cases r with
  | error e => simp [succeeds] at h
  | ok x => rfl

/-- An option that is given equals its value. -/
theorem some_of_isSome {α : Type} (d : α) (x : Option α) (h : x.isSome = true) :
    x = some (x.getD d) := by
  cases x with
  | none => simp at h
  | some a => rfl

/-- A state of the loop of `namex` that is given equals its parts. -/
theorem some_of_isSome5 {α β γ δ ε : Type} (d : α × β × γ × δ × ε)
    (x : Option (α × β × γ × δ × ε)) (h : x.isSome = true) :
    x = some ((x.getD d).1, (x.getD d).2.1, (x.getD d).2.2.1, (x.getD d).2.2.2.1,
      (x.getD d).2.2.2.2) := by
  cases x with
  | none => simp at h
  | some a => rfl

/-- A result of `skipelem` with a rest of the path equals its parts. -/
theorem some_some_of_isSome {α β : Type} (d : α × Option β) (b : β) (x : Option (α × Option β))
    (h : x.isSome = true) (h2 : (x.getD d).2.isSome = true) :
    x = some ((x.getD d).1, some ((x.getD d).2.getD b)) := by
  cases x with
  | none => simp at h
  | some a =>
    obtain ⟨a1, a2⟩ := a
    cases a2 with
    | none => simp at h2
    | some a3 => rfl

/-- The loop of `namex` goes on as its rounds do. -/
theorem namex_loop_after (c : Config) (pl : Places) (np fl : Bool) (name lim : Nat) :
    ∀ (n : Nat) (s0 : State) (mem0 : Mem) (ip0 path0 depth0 : Nat) (s : State) (mem : Mem)
      (ip path depth : Nat),
      namex_after c pl np fl name lim n s0 mem0 ip0 path0 depth0 =
        some (s, mem, ip, path, depth) →
      ∀ fuel, namex_loop c pl np fl name lim (n + fuel) s0 mem0 ip0 path0 depth0 =
        namex_loop c pl np fl name lim fuel s mem ip path depth
  | 0, s0, mem0, ip0, path0, depth0, s, mem, ip, path, depth, h, fuel => by
    simp only [namex_after, Option.some.injEq, Prod.mk.injEq] at h
    obtain ⟨rfl, rfl, rfl, rfl, rfl⟩ := h
    rw [Nat.zero_add]
  | n + 1, s0, mem0, ip0, path0, depth0, s, mem, ip, path, depth, h, fuel => by
    simp only [namex_after] at h
    rw [show n + 1 + fuel = (n + fuel) + 1 by omega]
    simp only [namex_loop]
    cases hr : namex_round c pl np fl name lim s0 mem0 ip0 path0 depth0 with
    | error e => rw [hr] at h; simp at h
    | ok r =>
      obtain ⟨s1, x⟩ := r
      cases x with
      | inl y => rw [hr] at h; simp at h
      | inr y =>
        obtain ⟨m1, i1, p1, d1⟩ := y
        rw [hr] at h
        simp only at h ⊢
        exact namex_loop_after c pl np fl name lim n s1 m1 i1 p1 d1 s mem ip path depth h fuel

/-- A round of `namex` that has a component to look up in a directory without the Read bit
ends as `iunlockput` does, with the value 0. -/
theorem namex_round_unreadable (c : Config) (pl : Places) (np fl : Bool) (name lim : Nat)
    (s : State) (mem : Mem) (ip path depth : Nat) (mem1 : Mem) (path1 : Nat) (s1 : State)
    (hskip : skipelem c mem lim path name = some (mem1, some path1))
    (hlock : ilock c s ip = .ok (s1, ()))
    (hread : (s1.inodes ip).d.mode &&& c.M_READ = 0) :
    namex_round c pl np fl name lim s mem ip path depth =
      withValue (iunlockput c s1 ip)
        (Sum.inl (mem1, none) : (Mem × Option Nat) ⊕ (Mem × Nat × Nat × Nat)) := by
  unfold namex_round
  simp only [hskip, hlock]
  by_cases hd : (s1.inodes ip).d.type ≠ c.T_DIR
  · rw [if_pos hd]
    cases iunlockput c s1 ip with
    | error e => rfl
    | ok r => rfl
  · rw [if_neg hd, if_pos hread]
    cases iunlockput c s1 ip with
    | error e => rfl
    | ok r => rfl

/-- C24: read permission is required at every directory level.  For every path, flag
setting and state: when, after any number of rounds of its loop, `namex` has a component to
look up (`skipelem` delivers one) and the inode it is at, locked and loaded by `ilock`, has
the Read bit `M_READ` clear, `namex` ends as the `iunlockput` of that inode does and returns
0; this is so whether `nameiparent` is set or not, as the test comes before the parent is
returned. -/
theorem namex_read_required (c : Config) (pl : Places) (lim : Nat) (s : State) (mem : Mem)
    (path : Nat) (np : Bool) (name : Nat) (fl : Bool) (s0 : State) (ip0 n : Nat)
    (sN : State) (memN : Mem) (ipN pathN depthN : Nat) (mem1 : Mem) (path1 : Nat) (s1 : State)
    (hstart : namex_start c pl s mem path = .ok (s0, ip0))
    (hafter : namex_after c pl np fl name lim n s0 mem ip0 path 0 =
      some (sN, memN, ipN, pathN, depthN))
    (hskip : skipelem c memN lim pathN name = some (mem1, some path1))
    (hlock : ilock c sN ipN = .ok (s1, ()))
    (hread : (s1.inodes ipN).d.mode &&& c.M_READ = 0) :
    ∀ fuel, n < fuel →
      namex c pl lim fuel s mem path np name fl =
        withValue (iunlockput c s1 ipN) (mem1, (none : Option Nat)) ∧
      ∀ s' m r, namex c pl lim fuel s mem path np name fl = .ok (s', (m, r)) → r = none := by
  intro fuel hfuel
  have heq : namex c pl lim fuel s mem path np name fl =
      withValue (iunlockput c s1 ipN) (mem1, (none : Option Nat)) := by
    unfold namex
    rw [hstart]
    simp only
    obtain ⟨f2, rfl⟩ : ∃ f2, fuel = n + (f2 + 1) := ⟨fuel - n - 1, by omega⟩
    rw [namex_loop_after c pl np fl name lim n s0 mem ip0 path 0 sN memN ipN pathN depthN hafter]
    simp only [namex_loop]
    rw [namex_round_unreadable c pl np fl name lim sN memN ipN pathN depthN mem1 path1 s1 hskip
      hlock hread]
    cases iunlockput c s1 ipN with
    | error e => rfl
    | ok r => rfl
  refine ⟨heq, fun s' m r hr => ?_⟩
  rw [heq] at hr
  cases hu : iunlockput c s1 ipN with
  | error e => rw [hu] at hr; simp [withValue] at hr
  | ok r2 =>
    rw [hu] at hr
    simp only [withValue, Except.ok.injEq, Prod.mk.injEq] at hr
    exact hr.2.2.symm

set_option maxRecDepth 100000 in
set_option maxHeartbeats 4000000 in
/-- Worked example for C24: on the example file system the directory `p` (inode 7) has no
Read bit; `namex("/p/x", 0, name, 0)` reaches it after one round and returns 0 there,
whatever the fuel above 1. -/
theorem namex_read_required_witness :
    (((endState walk7L).inodes (walk7.getD noRound).2.2.1).d.type = cfg1.T_DIR ∧
      ((endState walk7L).inodes (walk7.getD noRound).2.2.1).inum = 7 ∧
      ((endState walk7L).inodes (walk7.getD noRound).2.2.1).d.mode &&& cfg1.M_READ = 0) ∧
    ∀ fuel, 1 < fuel →
      namex cfg1 pl7 20 fuel (fs7 (-1)) (memStr path7) 1000 false 2000 false =
        withValue (iunlockput cfg1 (endState walk7L) (walk7.getD noRound).2.2.1)
          ((walk7K.getD noElem).1, (none : Option Nat)) ∧
      ∀ s' m r, namex cfg1 pl7 20 fuel (fs7 (-1)) (memStr path7) 1000 false 2000
        false = .ok (s', (m, r)) → r = none :=
  ⟨by decide!,
    namex_read_required cfg1 pl7 20 (fs7 (-1)) (memStr path7) 1000 false 2000 false
      (endState walk7A) (valueOr 0 walk7A) 1 (walk7.getD noRound).1 (walk7.getD noRound).2.1
      (walk7.getD noRound).2.2.1 (walk7.getD noRound).2.2.2.1 (walk7.getD noRound).2.2.2.2
      (walk7K.getD noElem).1 ((walk7K.getD noElem).2.getD 0) (endState walk7L)
      (ok_of_succeeds 0 walk7A (by decide!)) (some_of_isSome5 noRound walk7 (by decide!))
      (some_some_of_isSome noElem 0 walk7K (by decide!) (by decide!))
      (done_of_succeeds walk7L (by decide!)) (by decide!)⟩

/-- A round of `namex` leaves `symlink_depth` as it is or starts again from 0. -/
theorem namex_round_depth (c : Config) (pl : Places) (np fl : Bool) (name lim : Nat)
    (s : State) (mem : Mem) (ip path d : Nat) (s' : State) (m : Mem) (i p d' : Nat)
    (h : namex_round c pl np fl name lim s mem ip path d = .ok (s', .inr (m, i, p, d'))) :
    d' = 0 ∨ d' = d := by
  unfold namex_round at h
  simp only at h
  repeat' split at h
  all_goals first
    | exact Except.noConfusion h
    | (simp only [Except.ok.injEq, Prod.mk.injEq, Sum.inr.injEq, reduceCtorEq, and_false,
        false_and] at h; done)
    | (simp only [Except.ok.injEq, Prod.mk.injEq, Sum.inr.injEq] at h
       first
        | exact Or.inl h.2.2.2.2.symm
        | exact Or.inr h.2.2.2.2.symm)

/-- At the head of every round of `namex`, `symlink_depth` is 0. -/
theorem namex_after_depth (c : Config) (pl : Places) (np fl : Bool) (name lim : Nat) :
    ∀ (n : Nat) (s : State) (mem : Mem) (ip path : Nat),
      ((namex_after c pl np fl name lim n s mem ip path 0).map (fun w => w.2.2.2.2)).getD 0 = 0
  | 0, s, mem, ip, path => rfl
  | n + 1, s, mem, ip, path => by
    simp only [namex_after]
    cases hr : namex_round c pl np fl name lim s mem ip path 0 with
    | error e => rfl
    | ok r =>
      obtain ⟨s1, x⟩ := r
      cases x with
      | inl y => rfl
      | inr y =>
        obtain ⟨m1, i1, p1, d1⟩ := y
        have hd : d1 = 0 := by
          rcases namex_round_depth c pl np fl name lim s mem ip path 0 s1 m1 i1 p1 d1 hr with h | h
          · exact h
          · exact h
        subst hd
        exact namex_after_depth c pl np fl name lim n s1 m1 i1 p1

set_option maxRecDepth 100000 in
set_option maxHeartbeats 4000000 in
/-- C26 fails on the code.  In every run of `namex`, `symlink_depth` is 0 at the head of
every round, whatever the number of rounds made: a round that follows a link ends with the
nested call `return namex(path, ...)`, which starts again from `symlink_depth = 0`, so the
test `++symlink_depth > MAX_SYMLINK_DEPTH` is never true and nothing bounds the number of
links followed.  On the example file system the link `c` of the current directory points to
`c/c`: the first round of `namex("c/x", 0, name, 1)` follows it and goes on with the longer
path `c/c/x`, again with `symlink_depth = 0`. -/
theorem namex_follows_without_bound :
    (∀ (c : Config) (pl : Places) (np fl : Bool) (name lim n : Nat) (s : State) (mem : Mem)
      (ip path : Nat),
      ((namex_after c pl np fl name lim n s mem ip path 0).map (fun w => w.2.2.2.2)).getD 0 =
        0) ∧
    MAX_SYMLINK_DEPTH = 10 ∧
    strAt (memStr path9) 1000 200 = [99, 47, 120] ∧
    pathAfter (loop9 1) = some ([99, 47, 99, 47, 120], 0) :=
  ⟨fun c pl np fl name lim n s mem ip path => namex_after_depth c pl np fl name lim n s mem ip path,
    by decide!⟩

set_option maxRecDepth 100000 in
set_option maxHeartbeats 4000000 in
/-- C28 fails on the code.  On the small file system the link `/k` has the stored target
`/abc`, of four characters, and `DIRSIZ` is 3.  With `follow` set, `namex` on `/k/g` reads
`DIRSIZ` characters of the target, goes on with the path `/ab/g`, and returns 0, while on
the path `/abc/g`, the target followed by `/` and the rest, it returns inode 4. -/
theorem namex_splice_cuts_target :
    cfg1.DIRSIZ = 3 ∧
    strAt { byte := diskOf blocks8 11, ok := fun _ => true } 0 200 = [47, 97, 98, 99] ∧
    pathAfter (namex_after cfg1 pl7 false true 2000 200 1 (endState (iget cfg1 fs8 1 1))
      (memStr path11) 0 1000 0) = some ([47, 97, 98, 47, 103], 0) ∧
    returned (namei_follow cfg1 pl7 200 40 fs8 (memStr path11) 1000) = some none ∧
    returned (namei_follow cfg1 pl7 200 40 fs8 (memStr path12) 1000) = some (some 4) := by
  decide!

theorem nSlash_le : ∀ l : List Nat, nSlash l ≤ l.length
  | [] => Nat.le_refl 0
  | x :: t => by
    simp only [nSlash, List.length_cons]
    split
    · have := nSlash_le t; omega
    · omega

theorem nElem_le : ∀ l : List Nat, nElem l ≤ l.length
  | [] => Nat.le_refl 0
  | x :: t => by
    simp only [nElem, List.length_cons]
    split
    · have := nElem_le t; omega
    · omega

/-- A string in memory from its character `k` on. -/
theorem Str.drop_str {mem : Mem} {a : Nat} {l : List Nat} (h : Str mem a l) (k : Nat)
    (hk : k ≤ l.length) : Str mem (a + k) (l.drop k) := by
  obtain ⟨h1, h2, h3⟩ := h
  refine ⟨fun i hi => ?_, fun x hx => h2 x (List.mem_of_mem_drop hx), ?_⟩
  · rw [List.length_drop] at hi
    rw [Nat.add_assoc, h1 (k + i) (by omega)]
    simp only [List.getD_eq_getElem?_getD, List.getElem?_drop]
  · rw [List.length_drop, Nat.add_assoc, show k + (l.length - k) = l.length by omega]
    exact h3

/-- A string stays where it is when the memory changes elsewhere. -/
theorem Str.frame_str {mem mem2 : Mem} {a : Nat} {l : List Nat} (h : Str mem a l)
    (hm : ∀ x, a ≤ x → x ≤ a + l.length → mem2.byte x = mem.byte x) : Str mem2 a l := by
  obtain ⟨h1, h2, h3⟩ := h
  refine ⟨fun i hi => ?_, h2, ?_⟩
  · rw [hm (a + i) (by omega) (by omega)]; exact h1 i hi
  · rw [hm (a + l.length) (by omega) (by omega)]; exact h3

theorem Str.head_byte {mem : Mem} {a x : Nat} {t : List Nat} (h : Str mem a (x :: t)) :
    mem.byte a = x ∧ x ≠ 0 ∧ Str mem (a + 1) t := by
  refine ⟨?_, h.2.1 x (List.mem_cons_self x t), ?_⟩
  · have := h.1 0 (by simp)
    simpa using this
  · have := h.drop_str 1 (by simp)
    simpa using this

theorem skipelem_slashes_str (mem : Mem) : ∀ (l : List Nat) (lim a : Nat), Str mem a l →
    l.length < lim → skipelem_slashes mem lim a = some (a + nSlash l)
  | [], lim, a, h, hl => by
    obtain ⟨n, rfl⟩ : ∃ n, lim = n + 1 := ⟨lim - 1, by simp at hl; omega⟩
    have h0 : mem.byte a = 0 := by simpa using h.2.2
    simp [skipelem_slashes, h0, nSlash]
  | x :: t, lim, a, h, hl => by
    obtain ⟨n, rfl⟩ : ∃ n, lim = n + 1 := ⟨lim - 1, by simp at hl; omega⟩
    obtain ⟨hb, hx, ht⟩ := h.head_byte
    simp only [skipelem_slashes, hb, nSlash]
    by_cases h47 : x = 47
    · rw [if_pos h47, if_pos h47, skipelem_slashes_str mem t n (a + 1) ht (by simp at hl; omega)]
      congr 1; omega
    · rw [if_neg h47, if_neg h47]; rfl

theorem skipelem_element_str (mem : Mem) : ∀ (l : List Nat) (lim a : Nat), Str mem a l →
    l.length < lim → skipelem_element mem lim a = some (a + nElem l)
  | [], lim, a, h, hl => by
    obtain ⟨n, rfl⟩ : ∃ n, lim = n + 1 := ⟨lim - 1, by simp at hl; omega⟩
    have h0 : mem.byte a = 0 := by simpa using h.2.2
    simp [skipelem_element, h0, nElem]
  | x :: t, lim, a, h, hl => by
    obtain ⟨n, rfl⟩ : ∃ n, lim = n + 1 := ⟨lim - 1, by simp at hl; omega⟩
    obtain ⟨hb, hx, ht⟩ := h.head_byte
    simp only [skipelem_element, hb, nElem]
    by_cases h47 : x = 47
    · rw [if_neg (fun hh => hh.1 h47), if_neg (fun hh => hh h47)]; rfl
    · rw [if_pos ⟨h47, hx⟩, if_pos h47,
        skipelem_element_str mem t n (a + 1) ht (by simp at hl; omega)]
      congr 1; omega

/-- The routine `skipelem` on a path held in memory, the buffer `name` lying apart from it:
on a path without an element it returns 0 and changes nothing; otherwise it returns the
address of the rest of the path, leaves the memory outside of `name` as it is, and stores
the element in `name`. -/
theorem skipelem_str (c : Config) (mem : Mem) (lim path name : Nat) (l : List Nat)
    (hs : Str mem path l) (hl : l.length < lim)
    (hdis : name + c.DIRSIZ ≤ path ∨ path + l.length < name) :
    (pathStep l = none → skipelem c mem lim path name = some (mem, none)) ∧
    (∀ x rest, pathStep l = some (x, rest) →
      ∃ mem2, skipelem c mem lim path name = some (mem2, some (path + pathSkip l)) ∧
        Str mem2 (path + pathSkip l) rest ∧ mem2.ok = mem.ok ∧
        (∀ a, a < name ∨ name + c.DIRSIZ ≤ a → mem2.byte a = mem.byte a) ∧
        NameIs c mem2 name x ∧ (mem2.byte (path + pathSkip l) = 0 ↔ rest = [])) := by
  have hn := nSlash_le l
  have hbody := hs.drop_str (nSlash l) hn
  have hsl := skipelem_slashes_str mem l lim path hs hl
  have hblen : (l.drop (nSlash l)).length ≤ l.length := by rw [List.length_drop]; omega
  constructor
  · intro hp
    unfold pathStep at hp
    by_cases hb : l.drop (nSlash l) = []
    · rw [hb] at hbody
      have h0 : mem.byte (path + nSlash l) = 0 := by simpa using hbody.2.2
      simp [skipelem, hsl, h0]
    · rw [if_neg hb] at hp; exact Option.noConfusion hp
  · intro x rest hp
    unfold pathStep at hp
    by_cases hb : l.drop (nSlash l) = []
    · rw [if_pos hb] at hp; exact Option.noConfusion hp
    rw [if_neg hb] at hp
    simp only [Option.some.injEq, Prod.mk.injEq] at hp
    obtain ⟨hx, hrest⟩ := hp
    obtain ⟨b0, bt, hbt⟩ : ∃ b0 bt, l.drop (nSlash l) = b0 :: bt := by
      cases hl2 : l.drop (nSlash l) with
      | nil => exact absurd hl2 hb
      | cons b0 bt => exact ⟨b0, bt, rfl⟩
    have hne : mem.byte (path + nSlash l) ≠ 0 := by
      rw [hbt] at hbody
      rw [hbody.head_byte.1]; exact hbody.head_byte.2.1
    have hel := skipelem_element_str mem (l.drop (nSlash l)) lim (path + nSlash l) hbody
      (by omega)
    have hlen := nElem_le (l.drop (nSlash l))
    have hafter := hbody.drop_str (nElem (l.drop (nSlash l))) hlen
    have hn2 := nSlash_le ((l.drop (nSlash l)).drop (nElem (l.drop (nSlash l))))
    have halen : ((l.drop (nSlash l)).drop (nElem (l.drop (nSlash l)))).length ≤ l.length := by
      rw [List.length_drop]; omega
    obtain ⟨mem2, hmem2⟩ : ∃ mem2 : Mem, mem2 =
        (if nElem (l.drop (nSlash l)) ≥ c.DIRSIZ then
          memmove mem name (path + nSlash l) c.DIRSIZ
        else (memmove mem name (path + nSlash l) (nElem (l.drop (nSlash l)))).set
          (name + nElem (l.drop (nSlash l))) 0) := ⟨_, rfl⟩
    have hok : mem2.ok = mem.ok := by
      rw [hmem2]; split <;> rfl
    have hout : ∀ a, a < name ∨ name + c.DIRSIZ ≤ a → mem2.byte a = mem.byte a := by
      intro a ha
      rw [hmem2]
      split
      · simp only [memmove]
        rw [if_neg (by omega)]
      · simp only [memmove, Mem.set]
        rw [if_neg (by omega), if_neg (by omega)]
    have hpath : ∀ a, path ≤ a → a ≤ path + l.length → mem2.byte a = mem.byte a :=
      fun a h1 h2 => hout a (by omega)
    have hfl : (l.drop (nSlash l)).length = l.length - nSlash l := List.length_drop _ _
    have hgl : ((l.drop (nSlash l)).drop (nElem (l.drop (nSlash l)))).length =
        (l.drop (nSlash l)).length - nElem (l.drop (nSlash l)) := List.length_drop _ _
    have hafter2 : Str mem2 (path + nSlash l + nElem (l.drop (nSlash l)))
        ((l.drop (nSlash l)).drop (nElem (l.drop (nSlash l)))) :=
      hafter.frame_str (fun a h1 h2 => hpath a (by omega) (by omega))
    have hsl2 := skipelem_slashes_str mem2 _ lim _ hafter2 (by omega)
    have hrestS := hafter2.drop_str _ hn2
    have hskip : path + nSlash l + nElem (l.drop (nSlash l)) +
        nSlash ((l.drop (nSlash l)).drop (nElem (l.drop (nSlash l)))) = path + pathSkip l := by
      unfold pathSkip; omega
    rw [hskip] at hsl2 hrestS
    rw [hrest] at hrestS
    refine ⟨mem2, ?_, hrestS, hok, hout, ?_, ?_⟩
    · simp only [skipelem, hsl, if_neg hne, hel, Nat.add_sub_cancel_left, ← hmem2, hsl2]
    · intro i hi hix
      rw [← hx] at hix ⊢
      rw [List.length_take] at hix
      have hi2 : i ≤ nElem (l.drop (nSlash l)) := by omega
      rw [hmem2]
      by_cases hge : nElem (l.drop (nSlash l)) ≥ c.DIRSIZ
      · rw [if_pos hge]
        simp only [memmove]
        rw [if_pos (by omega), Nat.add_sub_cancel_left, hbody.1 i (by omega)]
        simp only [List.getD_eq_getElem?_getD, List.getElem?_take]
        rw [if_pos (by omega)]
      · rw [if_neg hge]
        simp only [memmove, Mem.set]
        by_cases hie : i = nElem (l.drop (nSlash l))
        · rw [if_pos (by omega)]
          simp only [List.getD_eq_getElem?_getD, List.getElem?_take]
          rw [if_neg (by omega)]; rfl
        · rw [if_neg (by omega), if_pos (by omega), Nat.add_sub_cancel_left,
            hbody.1 i (by omega)]
          simp only [List.getD_eq_getElem?_getD, List.getElem?_take]
          rw [if_pos (by omega)]
    · constructor
      · intro h0
        cases hr : rest with
        | nil => rfl
        | cons r0 rt =>
          rw [hr] at hrestS
          exact absurd h0 (by rw [hrestS.head_byte.1]; exact hrestS.head_byte.2.1)
      · intro hr
        rw [hr] at hrestS
        simpa using hrestS.2.2

/-- The name `skipelem` has stored compares as the element it was taken from. -/
theorem namecmp_name (c : Config) (mem : Mem) (name : Nat) (x : List Nat) (e : Nat → Nat)
    (h : NameIs c mem name x) :
    namecmp c (fun i => mem.byte (name + i)) e = 0 ↔ namecmp c (nameOf x) e = 0 := by
  unfold namecmp
  rw [strncmp_eq_zero_iff, strncmp_eq_zero_iff]
  simp only [Nat.zero_add]
  have hend : nameOf x x.length % 256 = 0 := by simp [nameOf]
  have hle1 : ∀ i, i < c.DIRSIZ → (∀ y, y < i → mem.byte (name + y) % 256 ≠ 0) →
      i ≤ x.length := by
    intro i hi hy
    by_contra hlt
    have := hy x.length (by omega)
    rw [h x.length (by omega) (Nat.le_refl _)] at this
    exact this hend
  have hle2 : ∀ i, (∀ y, y < i → nameOf x y % 256 ≠ 0) → i ≤ x.length := by
    intro i hy
    by_contra hlt
    exact hy x.length (by omega) hend
  have hag : ∀ y, y < c.DIRSIZ → y ≤ x.length → mem.byte (name + y) = nameOf x y :=
    fun y h1 h2 => h y h1 h2
  constructor
  · intro H i hi hy
    have hil := hle2 i hy
    have := H i hi (fun y hy2 => by rw [hag y (by omega) (by omega)]; exact hy y hy2)
    rw [hag i hi hil] at this
    exact this
  · intro H i hi hy
    have hil := hle1 i hi hy
    rw [hag i hi hil]
    exact H i hi (fun y hy2 => by rw [← hag y (by omega) (by omega)]; exact hy y hy2)

/-- What `dLookup` returns is the first entry that matches. -/
theorem dLookup_some (c : Config) (s : State) (d : Dinode) (name : Nat → Nat) :
    ∀ (n i e : Nat), dLookup c s d name n i = some e →
      ∃ j, i ≤ j ∧ j < i + n ∧ dMatches c s d name (j * c.DIRENT) ∧
        (∀ j2, i ≤ j2 → j2 < j → ¬ dMatches c s d name (j2 * c.DIRENT)) ∧
        e = c.direntInum (dEntry c s d (j * c.DIRENT))
  | 0, i, e, h => by simp [dLookup] at h
  | n + 1, i, e, h => by
    simp only [dLookup] at h
    by_cases hm : dMatches c s d name (i * c.DIRENT)
    · rw [if_pos hm] at h
      simp only [Option.some.injEq] at h
      exact ⟨i, Nat.le_refl _, by omega, hm, fun j2 h1 h2 => by omega, h.symm⟩
    · rw [if_neg hm] at h
      obtain ⟨j, h1, h2, h3, h4, h5⟩ := dLookup_some c s d name n (i + 1) e h
      refine ⟨j, by omega, by omega, h3, fun j2 q1 q2 => ?_, h5⟩
      by_cases hj : j2 = i
      · rw [hj]; exact hm
      · exact h4 j2 (by omega) q2

/-- The blocks of the file of a slot that holds the record `d` of the root device. -/
theorem slot_fileBlock {c : Config} {s s0 : State} {ip : Nat} {d : Dinode}
    (hd : (s.inodes ip).d = d) (hdev : (s.inodes ip).dev = c.ROOTDEV)
    (hv : ∀ m, blockView c s c.ROOTDEV m = blockView c s0 c.ROOTDEV m) (bn : Nat) :
    fileBlock c s ip bn = dBlock c s0 d bn := by
  unfold fileBlock dBlock
  rw [hd, hdev]
  simp only [hv]

/-- The entries of the directory of a slot that holds the record `d` of the root device. -/
theorem slot_dirEntry {c : Config} {s s0 : State} {ip : Nat} {d : Dinode}
    (hd : (s.inodes ip).d = d) (hdev : (s.inodes ip).dev = c.ROOTDEV)
    (hv : ∀ m, blockView c s c.ROOTDEV m = blockView c s0 c.ROOTDEV m) (off : Nat) :
    dirEntry c s ip off = dEntry c s0 d off := by
  funext i
  unfold dirEntry dEntry fileByte dByte
  rw [slot_fileBlock hd hdev hv, hdev, hv]

theorem setInode_twice (s : State) (ip : Nat) (x y : Inode) :
    (s.setInode ip x).setInode ip y = s.setInode ip y := by
  simp [State.setInode]

/-- Releasing a buffer does not look at the cache of inodes. -/
theorem brelse_setInode {c : Config} {s s1 : State} {b : Nat} {u : Unit} (ip : Nat) (x : Inode)
    (h : brelse c s b = .ok (s1, u)) :
    brelse c (s.setInode ip x) b = .ok (s1.setInode ip x, u) := by
  simp only [brelse, holdingsleep, releasesleep] at h ⊢
  split at h
  · simp at h
  · rename_i hh
    have hh2 : ¬ (!((s.setInode ip x).bufs b).locked) = true := hh
    rw [if_neg hh2]
    split at h
    · rename_i hr
      simp only [Except.ok.injEq, Prod.mk.injEq] at h
      rw [if_pos (by exact hr), ← h.1]
      rfl
    · rename_i hr
      simp only [Except.ok.injEq, Prod.mk.injEq] at h
      rw [if_neg (by exact hr), ← h.1]
      rfl

/-- The routine `ilock` on a referenced, free slot of the root device, without an injected
fault: it returns, the slot is locked and holds the record of the disk, and nothing else
changes. -/
theorem ilock_steady {c : Config} {s : State} {k ip : Nat}
    (hc : Coherent c s c.ROOTDEV (k + 1)) (hnf : NoFault s) (hu : Unlocked c s)
    (hsp : Spare c s 1) (href : 0 < (s.inodes ip).ref) (hlk : (s.inodes ip).locked = false)
    (hdev : (s.inodes ip).dev = c.ROOTDEV)
    (hib : IBLOCK c (s.inodes ip).inum s.sb < s.sb.size)
    (hty : (dnode c s (s.inodes ip).inum).type ≠ 0)
    (hval : (s.inodes ip).valid ≠ 0 → (s.inodes ip).d = dnode c s (s.inodes ip).inum) :
    ∃ s1 v, ilock c s ip = .ok (s1, ()) ∧ Coherent c s1 c.ROOTDEV (k + 1) ∧
      SameDisk c s s1 c.ROOTDEV ∧ v ≠ 0 ∧
      s1.inodes ip = { s.inodes ip with locked := true, valid := v,
                                        d := dnode c s (s.inodes ip).inum } ∧
      ∀ j, j ≠ ip → s1.inodes j = s.inodes j := by
  unfold ilock
  rw [if_neg (by omega), if_neg (by rw [hlk]; exact Bool.false_ne_true)]
  obtain ⟨sA, hsA⟩ : ∃ sA, sA = s.setInode ip { s.inodes ip with locked := true } := ⟨_, rfl⟩
  simp only [← hsA]
  have hAip : sA.inodes ip = { s.inodes ip with locked := true } := by rw [hsA, setInode_same]
  have hAo : ∀ j, j ≠ ip → sA.inodes j = s.inodes j := fun j hj => by
    rw [hsA]; exact setInode_other _ _ _ hj
  have hAc : Coherent c sA c.ROOTDEV (k + 1) := by rw [hsA]; exact coherent_setInode hc _ _
  have hAd : SameDisk c s sA c.ROOTDEV := by rw [hsA]; exact (InodesOnly.set s ip _).toDisk _
  by_cases hv : (sA.inodes ip).valid = 0
  · rw [if_pos hv]
    have hAdev : (sA.inodes ip).dev = c.ROOTDEV := by rw [hAip]; exact hdev
    have hAinum : (sA.inodes ip).inum = (s.inodes ip).inum := by rw [hAip]
    have hAsb : sA.sb = s.sb := by rw [hsA]; rfl
    rw [hAdev, hAinum, hAsb]
    obtain ⟨s1, b, s2, hbr, hrel, hdata, hc2, hsv⟩ :=
      peek_same (k := k) (IBLOCK c (s.inodes ip).inum s.sb) hAc
        (hAd.noFault_disk hnf _ (by rw [hAsb]; exact hib)) (hAd.unlocked_disk hu)
        (hAd.spare_disk hsp)
    have hi1 : s1.inodes = sA.inodes := by
      have := bread_inodes c sA c.ROOTDEV (IBLOCK c (s.inodes ip).inum s.sb)
      rw [hbr] at this
      exact this
    have hdA : blockView c sA c.ROOTDEV (IBLOCK c (s.inodes ip).inum s.sb) =
        blockView c s c.ROOTDEV (IBLOCK c (s.inodes ip).inum s.sb) := hAd.2.2 _
    simp only [hbr, hi1, hAinum, hdata, hdA]
    have hdn : c.dinodeGet ((s.inodes ip).inum % c.IPB)
        (blockView c s c.ROOTDEV (IBLOCK c (s.inodes ip).inum s.sb)) =
        dnode c s (s.inodes ip).inum := rfl
    rw [hdn, brelse_setInode ip _ hrel]
    simp only [setInode_same, setInode_twice]
    rw [if_neg hty]
    refine ⟨_, 1, rfl, coherent_setInode hc2 _ _, ?_, Nat.one_ne_zero, ?_, fun j hj => ?_⟩
    · exact hAd.trans_disk (hsv.toSameDisk.trans_disk ((InodesOnly.set s2 ip _).toDisk _))
    · rw [setInode_same, hAip]
    · rw [setInode_other _ _ _ hj, hsv.2.1, hAo j hj]
  · rw [if_neg hv]
    have hv2 : (s.inodes ip).valid ≠ 0 := by rw [hAip] at hv; exact hv
    refine ⟨sA, (s.inodes ip).valid, rfl, hAc, hAd, hv2, ?_, hAo⟩
    rw [hAip, ← hval hv2]

/-- The routine `iunlockput` on a locked slot whose inode has a link: it returns, the slot
is unlocked and has one reference less. -/
theorem iunlockput_plain (c : Config) (s : State) (ip : Nat)
    (hlk : (s.inodes ip).locked = true) (href : 0 < (s.inodes ip).ref)
    (hn : (s.inodes ip).d.nlink ≠ 0) :
    iunlockput c s ip =
      .ok (s.setInode ip { s.inodes ip with locked := false, ref := (s.inodes ip).ref - 1 },
        ()) := by
  unfold iunlockput iunlock
  rw [if_neg (by rw [hlk]; simp; omega)]
  simp only
  unfold iput
  simp only [setInode_same]
  rw [if_neg (fun h => hn h.2.2)]
  simp only [setInode_twice, setInode_same]

/-- With an unused slot, `iget` returns. -/
theorem iget_free {c : Config} {s : State} (dev inum : Nat)
    (hfree : ∃ j, j < c.NINODE ∧ (s.inodes j).ref = 0) :
    ∃ s2 ip, iget c s dev inum = .ok (s2, ip) ∧ ip < c.NINODE := by
  obtain ⟨hA, hB, hE, -⟩ := iget_spec c s dev inum
  by_cases h1 : ∃ i, i < c.NINODE ∧ slotHolds s dev inum i
  · exact ⟨_, _, hA (Nat.find h1) (Nat.find_spec h1).1 (Nat.find_spec h1).2
      (fun k hk hh => Nat.find_min h1 hk ⟨Nat.lt_trans hk (Nat.find_spec h1).1, hh⟩),
      (Nat.find_spec h1).1⟩
  · have hno : ∀ k, k < c.NINODE → ¬ slotHolds s dev inum k := fun k hk hh => h1 ⟨k, hk, hh⟩
    exact ⟨_, _, hB hno (Nat.find hfree) (Nat.find_spec hfree).1 (Nat.find_spec hfree).2
      (fun k hk h0 => Nat.find_min hfree hk ⟨Nat.lt_trans hk (Nat.find_spec hfree).1, h0⟩),
      (Nat.find_spec hfree).1⟩

theorem nSlash_take : ∀ l : List Nat, l.take (nSlash l) = List.replicate (nSlash l) 47
  | [] => rfl
  | x :: t => by
    simp only [nSlash]
    by_cases h : x = 47
    · rw [if_pos h, List.take_succ_cons, nSlash_take t, List.replicate_succ, h]
    · rw [if_neg h]; rfl

theorem nSlash_drop : ∀ l : List Nat,
    l.drop (nSlash l) = [] ∨ ∃ x t, l.drop (nSlash l) = x :: t ∧ x ≠ 47
  | [] => Or.inl rfl
  | x :: t => by
    simp only [nSlash]
    by_cases h : x = 47
    · rw [if_pos h, List.drop_succ_cons]; exact nSlash_drop t
    · rw [if_neg h]; exact Or.inr ⟨x, t, rfl, h⟩

theorem nElem_take : ∀ (l : List Nat) (x : Nat), x ∈ l.take (nElem l) → x ≠ 47
  | [], x, h => by simp [nElem] at h
  | y :: t, x, h => by
    simp only [nElem] at h
    by_cases hy : y ≠ 47
    · rw [if_pos hy, List.take_succ_cons, List.mem_cons] at h
      rcases h with h | h
      · rw [h]; exact hy
      · exact nElem_take t x h
    · rw [if_neg hy] at h; simp at h

theorem nElem_drop : ∀ l : List Nat,
    l.drop (nElem l) = [] ∨ ∃ t, l.drop (nElem l) = 47 :: t
  | [] => Or.inl rfl
  | x :: t => by
    simp only [nElem]
    by_cases h : x ≠ 47
    · rw [if_pos h, List.drop_succ_cons]; exact nElem_drop t
    · rw [if_neg h]
      have : x = 47 := by omega
      exact Or.inr ⟨t, by rw [this]; rfl⟩

theorem nSlash_all (l : List Nat) : (∀ x, x ∈ l → x = 47) ↔ l.drop (nSlash l) = [] := by
  constructor
  · intro h
    rcases nSlash_drop l with h0 | ⟨x, t, h1, h2⟩
    · exact h0
    · exact absurd (h x (List.mem_of_mem_drop (by rw [h1]; exact List.mem_cons_self x t))) h2
  · intro h x hx
    have h1 : l = List.replicate (nSlash l) 47 := by
      have := List.take_append_drop (nSlash l) l
      rw [h, List.append_nil, nSlash_take] at this
      exact this.symm
    rw [h1] at hx
    exact (List.mem_replicate.1 hx).2

/-- The example memory `memStr l` holds the string `l`. -/
theorem memStr_str (l : List Nat) (h : ∀ x, x ∈ l → x ≠ 0) : Str (memStr l) 1000 l := by
  refine ⟨fun i hi => ?_, h, ?_⟩
  · simp only [memStr]
    rw [if_pos (by omega), Nat.add_sub_cancel_left]
  · simp only [memStr]
    rw [if_pos (by omega), Nat.add_sub_cancel_left]
    simp

/-- C35: `skipelem(path, name)` on a path held in memory as the string `l`, the buffer
`name` lying apart from it.  It returns 0 exactly when the path is empty or consists of
slashes only, and then changes nothing.  Otherwise the path is `k1` slashes, an element
`x` without a slash that is not empty, `k2` slashes and a rest that is empty or follows at
least one slash and does not begin with a slash; `skipelem` returns the address of the
rest, stores in `name` the first `DIRSIZ` characters of the element, followed by a 0 when
there are fewer, and leaves the memory outside of `name` as it is. -/
theorem skipelem_spec (c : Config) (mem : Mem) (lim path name : Nat) (l : List Nat)
    (hs : Str mem path l) (hl : l.length < lim)
    (hdis : name + c.DIRSIZ ≤ path ∨ path + l.length < name) :
    ((∀ x, x ∈ l → x = 47) → skipelem c mem lim path name = some (mem, none)) ∧
    ((∃ x, x ∈ l ∧ x ≠ 47) →
      ∃ k1 x k2 rest mem2,
        l = List.replicate k1 47 ++ x ++ List.replicate k2 47 ++ rest ∧ x ≠ [] ∧
        (∀ y, y ∈ x → y ≠ 47) ∧ (rest = [] ∨ (k2 ≠ 0 ∧ rest.head? ≠ some 47)) ∧
        skipelem c mem lim path name = some (mem2, some (path + (k1 + x.length + k2))) ∧
        Str mem2 (path + (k1 + x.length + k2)) rest ∧
        (∀ i, i < c.DIRSIZ → i ≤ x.length → mem2.byte (name + i) = x.getD i 0) ∧
        (∀ a, a < name ∨ name + c.DIRSIZ ≤ a → mem2.byte a = mem.byte a)) := by
  obtain ⟨l1, l2⟩ := skipelem_str c mem lim path name l hs hl hdis
  constructor
  · intro hall
    apply l1
    unfold pathStep
    rw [if_pos ((nSlash_all l).1 hall)]
  · rintro ⟨y, hy, hy47⟩
    have hb : l.drop (nSlash l) ≠ [] := fun h => hy47 ((nSlash_all l).2 h y hy)
    have hp : pathStep l = some ((l.drop (nSlash l)).take (nElem (l.drop (nSlash l))),
        ((l.drop (nSlash l)).drop (nElem (l.drop (nSlash l)))).drop
          (nSlash ((l.drop (nSlash l)).drop (nElem (l.drop (nSlash l)))))) := by
      unfold pathStep; rw [if_neg hb]
    obtain ⟨mem2, h1, h2, -, h4, h5, -⟩ := l2 _ _ hp
    obtain ⟨b0, bt, hbt, hb47⟩ : ∃ b0 bt, l.drop (nSlash l) = b0 :: bt ∧ b0 ≠ 47 := by
      rcases nSlash_drop l with h0 | h0
      · exact absurd h0 hb
      · exact h0
    have hlen1 : 0 < nElem (l.drop (nSlash l)) := by
      rw [hbt]; simp only [nElem]; rw [if_pos hb47]; omega
    have hlenle := nElem_le (l.drop (nSlash l))
    have hxlen : ((l.drop (nSlash l)).take (nElem (l.drop (nSlash l)))).length =
        nElem (l.drop (nSlash l)) := by
      rw [List.length_take]; omega
    refine ⟨nSlash l, (l.drop (nSlash l)).take (nElem (l.drop (nSlash l))),
      nSlash ((l.drop (nSlash l)).drop (nElem (l.drop (nSlash l)))),
      ((l.drop (nSlash l)).drop (nElem (l.drop (nSlash l)))).drop
        (nSlash ((l.drop (nSlash l)).drop (nElem (l.drop (nSlash l))))),
      mem2, ?_, ?_, nElem_take _, ?_, ?_, ?_, h5, h4⟩
    · rw [← nSlash_take l, ← nSlash_take ((l.drop (nSlash l)).drop (nElem (l.drop (nSlash l)))),
        List.append_assoc, List.append_assoc, List.take_append_drop, List.take_append_drop,
        List.take_append_drop]
    · intro h
      rw [h] at hxlen
      simp at hxlen
      omega
    · rcases nElem_drop (l.drop (nSlash l)) with h0 | ⟨t, ht⟩
      · left; rw [h0]; rfl
      · rcases nSlash_drop ((l.drop (nSlash l)).drop (nElem (l.drop (nSlash l)))) with q | ⟨x, t2, q1, q2⟩
        · left; exact q
        · right
          refine ⟨?_, ?_⟩
          · rw [ht]; simp [nSlash]
          · rw [q1]; simp only [List.head?_cons, ne_eq, Option.some.injEq]; exact q2
    · rw [hxlen]; unfold pathSkip at h1; exact h1
    · rw [hxlen]; unfold pathSkip at h2; exact h2

/-- Worked example for C35, the documented examples: on `///a//bb` `skipelem` returns the
address of `bb`, 6 characters on, with the name `a`; on `a/bb/c` it returns the address of
`bb/c`, 2 characters on; on `a` it returns the address of the empty rest, 1 character on;
on the empty path and on `////` it returns 0; the theorem is applied to `///a//bb`. -/
theorem skipelem_spec_witness :
    ((skipelem cfg1 (memStr [47, 47, 47, 97, 47, 47, 98, 98]) 20 1000 2000).map
        (fun r => (r.2, strAt r.1 2000 8, r.2.map (fun p => strAt r.1 p 20))) =
      some (some 1006, [97], some [98, 98]) ∧
    (skipelem cfg1 (memStr [97, 47, 98, 98, 47, 99]) 20 1000 2000).map
        (fun r => (r.2, strAt r.1 2000 8, r.2.map (fun p => strAt r.1 p 20))) =
      some (some 1002, [97], some [98, 98, 47, 99]) ∧
    (skipelem cfg1 (memStr [97]) 20 1000 2000).map
        (fun r => (r.2, strAt r.1 2000 8, r.2.map (fun p => strAt r.1 p 20))) =
      some (some 1001, [97], some []) ∧
    (skipelem cfg1 (memStr []) 20 1000 2000).map (fun r => r.2) = some none ∧
    (skipelem cfg1 (memStr [47, 47, 47, 47]) 20 1000 2000).map (fun r => r.2) = some none) ∧
    ((∀ x, x ∈ [47, 47, 47, 97, 47, 47, 98, 98] → x = 47) →
      skipelem cfg1 (memStr [47, 47, 47, 97, 47, 47, 98, 98]) 20 1000 2000 =
        some (memStr [47, 47, 47, 97, 47, 47, 98, 98], none)) ∧
    ((∃ x, x ∈ [47, 47, 47, 97, 47, 47, 98, 98] ∧ x ≠ 47) →
      ∃ k1 x k2 rest mem2,
        [47, 47, 47, 97, 47, 47, 98, 98] =
          List.replicate k1 47 ++ x ++ List.replicate k2 47 ++ rest ∧ x ≠ [] ∧
        (∀ y, y ∈ x → y ≠ 47) ∧ (rest = [] ∨ (k2 ≠ 0 ∧ rest.head? ≠ some 47)) ∧
        skipelem cfg1 (memStr [47, 47, 47, 97, 47, 47, 98, 98]) 20 1000 2000 =
          some (mem2, some (1000 + (k1 + x.length + k2))) ∧
        Str mem2 (1000 + (k1 + x.length + k2)) rest ∧
        (∀ i, i < cfg1.DIRSIZ → i ≤ x.length → mem2.byte (2000 + i) = x.getD i 0) ∧
        (∀ a, a < 2000 ∨ 2000 + cfg1.DIRSIZ ≤ a → mem2.byte a = (memStr [47, 47, 47, 97, 47, 47, 98, 98]).byte a)) :=
  ⟨by decide!,
    skipelem_spec cfg1 (memStr [47, 47, 47, 97, 47, 47, 98, 98]) 20 1000 2000
      [47, 47, 47, 97, 47, 47, 98, 98] (memStr_str _ (by decide)) (by decide) (by decide)⟩

theorem int32_of_inRange {x : Int} (h : InRange x) : int32 x = x := by
  unfold InRange at h
  unfold int32
  omega

/-- Without overflow, the test of `schedule_hrrn` compares the response ratios, then the
IDs. -/
theorem hrrn_replaces_iff (cur : Int) (th s : Thread) (h1 : Eligible th) (h2 : Eligible s)
    (f1 : Fits cur th s) (f2 : Fits cur s th) :
    hrrn_replaces cur th s ↔
      (responseRatio cur s < responseRatio cur th ∨
        (responseRatio cur s = responseRatio cur th ∧ th.ID < s.ID)) := by
  unfold hrrn_replaces
  rw [int32_of_inRange f1.1, int32_of_inRange f1.2.1, int32_of_inRange f1.2.2,
    int32_of_inRange f2.1, int32_of_inRange f2.2.1, int32_of_inRange f2.2.2]
  have hb1 : (0 : ℚ) < ((th.processing_time : Int) : ℚ) := by exact_mod_cast h1.2
  have hb2 : (0 : ℚ) < ((s.processing_time : Int) : ℚ) := by exact_mod_cast h2.2
  unfold responseRatio
  rw [div_lt_div_iff hb2 hb1, div_eq_div_iff (ne_of_gt hb2) (ne_of_gt hb1)]
  constructor
  · rintro (h | ⟨h, hid⟩)
    · left; exact_mod_cast h
    · right; exact ⟨by exact_mod_cast h.symm, hid⟩
  · rintro (h | ⟨h, hid⟩)
    · left; exact_mod_cast h
    · right; exact ⟨by exact_mod_cast h.symm, hid⟩

theorem Preferred.refl_pref (cur : Int) (s : Thread) : Preferred cur s s :=
  Or.inr ⟨rfl, le_refl _⟩

theorem Preferred.trans_pref {cur : Int} {a b d : Thread} (h1 : Preferred cur a b)
    (h2 : Preferred cur b d) : Preferred cur a d := by
  unfold Preferred at *
  rcases h1 with h1 | ⟨h1, i1⟩ <;> rcases h2 with h2 | ⟨h2, i2⟩
  · exact Or.inl (lt_trans h2 h1)
  · left; rw [h2]; exact h1
  · left; rw [← h1]; exact h2
  · right; exact ⟨h2.trans h1, le_trans i1 i2⟩

/-- The loop of `schedule_hrrn` keeps a thread that is preferred to every eligible thread
it has met. -/
theorem schedule_hrrn_loop_spec (cur : Int) (S : Thread → Prop)
    (hfit : ∀ t u, S t → S u → Eligible t → Eligible u → Fits cur t u) :
    ∀ (rest : List Thread) (i : Nat) (sel : Option (Nat × Thread)),
      (∀ t, t ∈ rest → S t) → (∀ p, sel = some p → S p.2 ∧ Eligible p.2) →
      (schedule_hrrn_loop cur rest i sel = none → sel = none ∧ ∀ t, t ∈ rest → ¬ Eligible t) ∧
      (∀ j s, schedule_hrrn_loop cur rest i sel = some (j, s) →
        Eligible s ∧ (sel = some (j, s) ∨ (i ≤ j ∧ rest.get? (j - i) = some s)) ∧
        (∀ u, u ∈ rest → Eligible u → Preferred cur s u) ∧
        (∀ p, sel = some p → Preferred cur s p.2))
  | [], i, sel, _, hsel => by
    simp only [schedule_hrrn_loop]
    refine ⟨fun h => ⟨h, fun t ht => absurd ht (List.not_mem_nil t)⟩, fun j s h => ?_⟩
    refine ⟨(hsel _ h).2, Or.inl h, fun u hu => absurd hu (List.not_mem_nil u), fun p hp => ?_⟩
    rw [h] at hp
    simp only [Option.some.injEq] at hp
    rw [← hp]
    exact Preferred.refl_pref cur s
  | th :: rest, i, sel, hS, hsel => by
    have hSr : ∀ t, t ∈ rest → S t := fun t ht => hS t (List.mem_cons_of_mem th ht)
    have hSth : S th := hS th (List.mem_cons_self th rest)
    have hidx : ∀ j s, i + 1 ≤ j → rest.get? (j - (i + 1)) = some s →
        i ≤ j ∧ (th :: rest).get? (j - i) = some s := by
      intro j s hj h
      refine ⟨by omega, ?_⟩
      rw [show j - i = (j - (i + 1)) + 1 by omega]
      exact h
    have skip : ¬ Eligible th →
        ((schedule_hrrn_loop cur rest (i + 1) sel = none →
            sel = none ∧ ∀ t, t ∈ th :: rest → ¬ Eligible t) ∧
          (∀ j s, schedule_hrrn_loop cur rest (i + 1) sel = some (j, s) →
            Eligible s ∧ (sel = some (j, s) ∨ (i ≤ j ∧ (th :: rest).get? (j - i) = some s)) ∧
            (∀ u, u ∈ th :: rest → Eligible u → Preferred cur s u) ∧
            (∀ p, sel = some p → Preferred cur s p.2))) := by
      intro hne
      obtain ⟨ih1, ih2⟩ := schedule_hrrn_loop_spec cur S hfit rest (i + 1) sel hSr hsel
      refine ⟨fun h => ⟨(ih1 h).1, fun t ht => ?_⟩, fun j s h => ?_⟩
      · rcases List.mem_cons.1 ht with rfl | ht
        · exact hne
        · exact (ih1 h).2 t ht
      · obtain ⟨q1, q2, q3, q4⟩ := ih2 j s h
        refine ⟨q1, ?_, fun u hu he => ?_, q4⟩
        · rcases q2 with q2 | ⟨q2, q2b⟩
          · exact Or.inl q2
          · exact Or.inr (hidx j s q2 q2b)
        · rcases List.mem_cons.1 hu with rfl | hu
          · exact absurd he hne
          · exact q3 u hu he
    simp only [schedule_hrrn_loop]
    by_cases hrt : th.is_real_time ≠ 0
    · rw [if_pos hrt]
      exact skip (fun he => hrt he.1)
    rw [if_neg hrt]
    by_cases hpt : th.processing_time ≤ 0
    · rw [if_pos hpt]
      exact skip (fun he => by have := he.2; omega)
    rw [if_neg hpt]
    have hth : Eligible th := ⟨by omega, by omega⟩
    have take : ∀ (hb : ∀ p, sel = some p → Preferred cur th p.2),
        ((schedule_hrrn_loop cur rest (i + 1) (some (i, th)) = none →
            sel = none ∧ ∀ t, t ∈ th :: rest → ¬ Eligible t) ∧
          (∀ j s, schedule_hrrn_loop cur rest (i + 1) (some (i, th)) = some (j, s) →
            Eligible s ∧ (sel = some (j, s) ∨ (i ≤ j ∧ (th :: rest).get? (j - i) = some s)) ∧
            (∀ u, u ∈ th :: rest → Eligible u → Preferred cur s u) ∧
            (∀ p, sel = some p → Preferred cur s p.2))) := by
      intro hb
      obtain ⟨ih1, ih2⟩ := schedule_hrrn_loop_spec cur S hfit rest (i + 1) (some (i, th)) hSr
        (fun p hp => by
          simp only [Option.some.injEq] at hp
          rw [← hp]; exact ⟨hSth, hth⟩)
      refine ⟨fun h => absurd (ih1 h).1 (by simp), fun j s h => ?_⟩
      obtain ⟨q1, q2, q3, q4⟩ := ih2 j s h
      have hsth : Preferred cur s th := q4 (i, th) rfl
      refine ⟨q1, Or.inr ?_, fun u hu he => ?_, fun p hp => (hsth).trans_pref (hb p hp)⟩
      · rcases q2 with q2 | ⟨q2, q2b⟩
        · simp only [Option.some.injEq, Prod.mk.injEq] at q2
          rw [← q2.1, ← q2.2, Nat.sub_self]
          exact ⟨Nat.le_refl _, rfl⟩
        · exact hidx j s q2 q2b
      · rcases List.mem_cons.1 hu with rfl | hu
        · exact hsth
        · exact q3 u hu he
    cases hs : sel with
    | none =>
      simp only
      have := take (fun p hp => by rw [hs] at hp; exact Option.noConfusion hp)
      rw [hs] at this
      simpa using this
    | some p =>
      obtain ⟨k, s0⟩ := p
      simp only
      obtain ⟨hS0, he0⟩ := hsel (k, s0) hs
      have hiff := hrrn_replaces_iff cur th s0 hth he0 (hfit th s0 hSth hS0 hth he0)
        (hfit s0 th hS0 hSth he0 hth)
      by_cases hrep : hrrn_replaces cur th s0
      · rw [if_pos hrep]
        have := take (fun p hp => by
          rw [hs] at hp
          simp only [Option.some.injEq] at hp
          rw [← hp]
          rcases hiff.1 hrep with h | ⟨h, hid⟩
          · exact Or.inl h
          · exact Or.inr ⟨h, le_of_lt hid⟩)
        rw [hs] at this
        exact this
      · rw [if_neg hrep]
        obtain ⟨ih1, ih2⟩ := schedule_hrrn_loop_spec cur S hfit rest (i + 1) (some (k, s0)) hSr
          (fun p hp => by
            simp only [Option.some.injEq] at hp
            rw [← hp]; exact ⟨hS0, he0⟩)
        refine ⟨fun h => absurd (ih1 h).1 (by simp), fun j s h => ?_⟩
        obtain ⟨q1, q2, q3, q4⟩ := ih2 j s h
        have hs0 : Preferred cur s s0 := q4 (k, s0) rfl
        have h0th : Preferred cur s0 th := by
          unfold Preferred
          by_contra hcon
          apply hrep
          apply hiff.2
          rcases lt_trichotomy (responseRatio cur s0) (responseRatio cur th) with h | h | h
          · exact Or.inl h
          · right
            refine ⟨h, ?_⟩
            by_contra hid
            exact hcon (Or.inr ⟨h.symm, by omega⟩)
          · exact absurd (Or.inl h) hcon
        refine ⟨q1, ?_, fun u hu he => ?_, fun p hp => ?_⟩
        · rcases q2 with q2 | ⟨q2, q2b⟩
          · exact Or.inl q2
          · exact Or.inr (hidx j s q2 q2b)
        · rcases List.mem_cons.1 hu with rfl | hu
          · exact hs0.trans_pref h0th
          · exact q3 u hu he
        · simp only [Option.some.injEq] at hp
          rw [← hp]; exact hs0

/-- C40: `schedule_hrrn`, absent integer overflow.  When the run queue holds a thread that
is not a real-time thread and has `processing_time > 0`, the routine returns the list
member of such a thread, with its `remaining_time` as the allocated time; the response
ratio `(current_time - arrival_time + processing_time) / processing_time` of that thread,
as a rational number, is not lower than that of any such thread of the queue, and its ID is
not higher than that of any such thread with the same ratio.  When the queue holds no such
thread, the routine returns the head of the run queue with the allocated time 1. -/
theorem schedule_hrrn_spec (cur : Int) (q : List Thread)
    (hfit : ∀ t u, t ∈ q → u ∈ q → Eligible t → Eligible u → Fits cur t u) :
    ((∃ t, t ∈ q ∧ Eligible t) →
      ∃ i t, q.get? i = some t ∧ Eligible t ∧
        schedule_hrrn cur q = { member := some i, allocated_time := t.remaining_time } ∧
        ∀ u, u ∈ q → Eligible u →
          responseRatio cur u ≤ responseRatio cur t ∧
            (responseRatio cur u = responseRatio cur t → t.ID ≤ u.ID)) ∧
    ((∀ t, t ∈ q → ¬ Eligible t) →
      schedule_hrrn cur q = { member := none, allocated_time := 1 }) := by
  obtain ⟨l1, l2⟩ := schedule_hrrn_loop_spec cur (fun t => t ∈ q) hfit q 0 none
    (fun t ht => ht) (fun p hp => Option.noConfusion hp)
  unfold schedule_hrrn
  constructor
  · rintro ⟨t, ht, he⟩
    cases hr : schedule_hrrn_loop cur q 0 none with
    | none => exact absurd he ((l1 hr).2 t ht)
    | some p =>
      obtain ⟨j, s⟩ := p
      obtain ⟨q1, q2, q3, -⟩ := l2 j s hr
      refine ⟨j, s, ?_, q1, rfl, fun u hu hue => ?_⟩
      · rcases q2 with q2 | ⟨-, q2⟩
        · exact Option.noConfusion q2
        · exact q2
      · rcases q3 u hu hue with h | ⟨h, hid⟩
        · exact ⟨le_of_lt h, fun heq => absurd heq (ne_of_lt h)⟩
        · exact ⟨le_of_eq h, fun _ => hid⟩
  · intro hall
    cases hr : schedule_hrrn_loop cur q 0 none with
    | none => rfl
    | some p =>
      obtain ⟨j, s⟩ := p
      obtain ⟨q1, q2, -, -⟩ := l2 j s hr
      rcases q2 with q2 | ⟨-, q2⟩
      · exact Option.noConfusion q2
      · exact absurd q1 (hall s (List.get?_mem q2))

/-- Worked example for C40: at time 10 on the example queue, thread 3 (position 4, ratio 4)
is selected, before thread 5 of the same ratio and thread 2 of ratio 7/2, and gets its
remaining time 3; on the empty queue the head is returned with time 1. -/
theorem schedule_hrrn_spec_witness :
    (schedule_hrrn 10 queue0 = { member := some 4, allocated_time := 3 } ∧
      schedule_hrrn 10 [] = { member := none, allocated_time := 1 }) ∧
    ((∃ t, t ∈ queue0 ∧ Eligible t) →
      ∃ i t, queue0.get? i = some t ∧ Eligible t ∧
        schedule_hrrn 10 queue0 = { member := some i, allocated_time := t.remaining_time } ∧
        ∀ u, u ∈ queue0 → Eligible u →
          responseRatio 10 u ≤ responseRatio 10 t ∧
            (responseRatio 10 u = responseRatio 10 t → t.ID ≤ u.ID)) ∧
    ((∀ t, t ∈ queue0 → ¬ Eligible t) →
      schedule_hrrn 10 queue0 = { member := none, allocated_time := 1 }) :=
  ⟨by decide,
    schedule_hrrn_spec 10 queue0 (fun t u ht hu =>
      (by decide : ∀ t, t ∈ queue0 → ∀ u, u ∈ queue0 → Eligible t → Eligible u → Fits 10 t u)
        t ht u hu)⟩

/-- The routine `bwrite` is its part up to the transfer to the mirror followed by its last
statement. -/
theorem bwrite_split (c : Config) (s : State) (b : Nat) : bwrite c s b = bwrite_phases c s b := by
  unfold bwrite bwrite_phases bwrite_mirror bwrite_restore
  split
  · rfl
  · rfl

/-- C37, amended: with no read fault injected, no block is shared inside a file.  For a
well-formed file (`FileOK`: every block the inode references lies in the file system and has
its bit set in the free map, no two references are the same, none is a block of the free map
or of the inode) on a coherent cache and an index `bn < NDIRECT + NINDIRECT`, after every
return of `bmap(ip, bn)` the file is well formed again, the block returned is the one the
inode has for `bn`, the mappings it had are kept, and when `bn` was not mapped the block
returned was free before and differs from every block the inode referenced before. -/
theorem bmap_no_sharing (c : Config) (s : State) (ip bn k : Nat)
    (hc : Coherent c s (s.inodes ip).dev (k + 6)) (hg : Geometry c s) (hnf : NoFault s)
    (hsz : s.sb.size ≤ U32) (hf : FileOK c s ip) (hbn : bn < MAXFILE c) :
    ∀ s' a, bmap c s ip bn = .ok (s', a) →
      FileOK c s' ip ∧ a ≠ 0 ∧ fileBlock c s' ip bn = a ∧
      (∀ bn2, bn2 < MAXFILE c → fileBlock c s ip bn2 ≠ 0 →
        fileBlock c s' ip bn2 = fileBlock c s ip bn2) ∧
      (fileBlock c s ip bn = 0 →
        bmBit c s (s.inodes ip).dev a = false ∧ bmBit c s' (s.inodes ip).dev a = true ∧
        ∀ x, Owned c s ip x → x ≠ a) := by
  intro s' a hr
  obtain ⟨-, hgr, hf1, ha0, hfa⟩ := bmap_view (k := k) hc hg hnf hsz hf hbn hr
  refine ⟨hf1, ha0, hfa, fun bn2 hbn2 h2 => (hgr.2.2.2.2.2 bn2 hbn2 h2).1, fun hz => ?_⟩
  obtain ⟨-, w2⟩ := bmap_fresh (k := k) hc hg hnf hf hbn hz hr
  have hdev : (s'.inodes ip).dev = (s.inodes ip).dev := hgr.2.1
  have hown : Owned c s' ip a := ⟨ha0, Or.inr ⟨bn, hbn, hfa.symm⟩⟩
  refine ⟨w2, ?_, fun x hx e => ?_⟩
  · rw [← hdev]; exact (hf1.2.1 a hown).2.1
  · have := (hf.2.1 x hx).2.1
    rw [e, w2] at this
    exact Bool.noConfusion this

set_option maxRecDepth 100000 in
/-- C37 as stated fails when a read fault is injected: with `force_disk_fail_id = 0`, after
`bmap(ip, 0)` the inode of the example references block 10 only, whose bit is set; then
`bmap(ip, 1)` returns block 10 again, and the inode references block 10 for the indices 0
and 1. -/
theorem bmap_shares_counterexample :
    (fileBlock cfg0 (fs0Map 0) 0 0 = 10 ∧ fileBlock cfg0 (fs0Map 0) 0 1 = 0 ∧
      ((fs0Map 0).inodes 0).d.addrs cfg0.NDIRECT = 0 ∧ bmBit cfg0 (fs0Map 0) 1 10 = true ∧
      fileBlock cfg0 (fs0Map2 0) 0 0 = 10 ∧ fileBlock cfg0 (fs0Map2 0) 0 1 = 10) ∧
    ∃ s', bmap cfg0 (fs0Map 0) 0 1 = .ok (s', 10) :=
  ⟨by decide!, _, rfl⟩

set_option maxRecDepth 100000 in
/-- Worked example for C37: on the example file system without a fault, `bmap(ip, 2)`
returns the new block 11, through a new indirect block; the theorem gives the rest for
every return of that call. -/
theorem bmap_no_sharing_witness :
    (fileBlock cfg0 (fs0 (-1)) 0 2 = 0 ∧ ∃ s', bmap cfg0 (fs0 (-1)) 0 2 = .ok (s', 11)) ∧
    ∀ s' a, bmap cfg0 (fs0 (-1)) 0 2 = .ok (s', a) →
      FileOK cfg0 s' 0 ∧ a ≠ 0 ∧ fileBlock cfg0 s' 0 2 = a ∧
      (∀ bn2, bn2 < MAXFILE cfg0 → fileBlock cfg0 (fs0 (-1)) 0 bn2 ≠ 0 →
        fileBlock cfg0 s' 0 bn2 = fileBlock cfg0 (fs0 (-1)) 0 bn2) ∧
      (fileBlock cfg0 (fs0 (-1)) 0 2 = 0 →
        bmBit cfg0 (fs0 (-1)) ((fs0 (-1)).inodes 0).dev a = false ∧
        bmBit cfg0 s' ((fs0 (-1)).inodes 0).dev a = true ∧
        ∀ x, Owned cfg0 (fs0 (-1)) 0 x → x ≠ a) :=
  ⟨⟨fs0_fileBlock (-1) 2, _, rfl⟩,
    bmap_no_sharing cfg0 (fs0 (-1)) 0 2 0 (fs0_coherent (-1) (by decide)) (fs0_geometry (-1))
      fs0_nofault (by decide) (fs0_fileOK (-1)) (by decide)⟩

set_option maxRecDepth 100000 in
/-- C36 fails on the code.  The routine `bwrite` is its part up to the transfer to the
mirror disk, during which the buffer carries the block number `pbn1` of the mirror, followed
by `b->blockno = pbn0`.  On the example machine, without an injected fault: a caller reads
block 5 of device 1 into buffer 0 and calls `bwrite`; while it waits for the transfer to the
mirror a second caller calls `bget(1, 5)`, finds no buffer with block 5 and is given buffer
1; when `bwrite` has ended, the buffers 0 and 1, both assigned by `bget` and referenced,
hold block 5 of device 1. -/
theorem bwrite_race_duplicates :
    (∀ (c : Config) (s : State) (b : Nat), bwrite c s b = bwrite_phases c s b) ∧
    raceView = [0, 1, 1, 5, 1, 5, 1, 1] :=
  ⟨bwrite_split, by decide!⟩

set_option maxRecDepth 100000 in
set_option maxHeartbeats 4000000 in
/-- C32 fails on the code.  On the example file system the file `/r` has the Read bit only.
The call `open("/r", O_CREATE | O_WRONLY)` goes through `create`, which returns the inode of
the file that exists, and past the tests of the permission bits, which stand in the other
branch: it returns the descriptor 3 of a file that is writable, the inode, number 4, having
the mode 1 as before.  The call `open("/r", O_WRONLY)` returns -1. -/
theorem open_create_skips_check :
    cfg1.O_CREATE ||| cfg1.O_WRONLY = 513 ∧ cfg1.M_WRITE = 2 ∧
    openView (sys_open cfg1 pl7 20 10 fs9 (memStr [47, 114]) 1000 513 (some 3)) =
      [3, 0, 1, 4, 1, 3] ∧
    openView (sys_open cfg1 pl7 20 10 fs9 (memStr [47, 114]) 1000 1 (some 3)) = [-1] := by
  decide!

set_option maxRecDepth 100000 in
set_option maxHeartbeats 4000000 in
/-- C38 fails on the code.  On the example file system the file `/n`, inode 3, of three
bytes, has no permission bit.  The call `open("/n", O_TRUNC)` meets neither test of the
permission bits, as `omode` is not `O_RDONLY` and has neither `O_WRONLY` nor `O_RDWR`: it
returns the descriptor 3 of a file that is readable, and the file is truncated to the size
0.  The call `open("/n", O_RDONLY)` returns -1. -/
theorem open_trunc_skips_check :
    cfg1.O_TRUNC = 1024 ∧ cfg1.O_CREATE = 512 ∧ cfg1.O_NOACCESS = 4 ∧
    openView (sys_open cfg1 pl7 20 10 fs9 (memStr [47, 110]) 1000 1024 (some 3)) =
      [3, 1, 0, 3, 0, 0] ∧
    openView (sys_open cfg1 pl7 20 10 fs9 (memStr [47, 110]) 1000 0 (some 3)) = [-1] := by
  decide!

set_option maxRecDepth 100000 in
set_option maxHeartbeats 4000000 in
/-- C31 fails on the code.  On the example file system `/z` is a symbolic link to `/q`, a
path that does not exist, and `/q` itself is missing.  The call `chmod("/q", ...)` returns
2 and leaves every `ref` of the cache of inodes as it was; the call `chmod("/z", ...)` does
not return: `follow_symlink` returns 0 and `iunlockput(ip)` is called with that null
pointer, which ends in `panic("iunlock")`. -/
theorem chmod_dangling_panics :
    refsOf fs9 6 = [1, 0, 0, 0, 0, 0] ∧
    retRefs (sys_chmod cfg1 pl7 20 10 fs9 (memStr [47, 113]) true 1000 1 0 1) =
      some (2, [1, 0, 0, 0, 0, 0]) ∧
    errOf (sys_chmod cfg1 pl7 20 10 fs9 (memStr [47, 122]) true 1000 1 0 1) =
      some Err.iunlock_bad := by
  decide!

set_option maxRecDepth 100000 in
set_option maxHeartbeats 4000000 in
/-- C39 fails on the code.  On the example file system the path `/z` exists.  The call
`symlink("/q", "/z")` returns -1, and the slot 1 of the cache of inodes, which `namei` took
for the inode of `/z`, keeps its reference: its `ref` is 1 afterwards and was 0 before. -/
theorem symlink_leaks_reference :
    refsOf fs9 6 = [1, 0, 0, 0, 0, 0] ∧
    retRefs (sys_symlink cfg1 pl7 20 10 fs9 (memStrs [47, 122] [47, 113]) 1100 1000) =
      some (-1, [1, 1, 0, 0, 0, 0]) := by
  decide!

set_option maxRecDepth 100000 in
set_option maxHeartbeats 4000000 in
/-- C34 fails on the code.  On the example file system `/z` is a symbolic link with the
content `/q`, a path that does not exist, as `symlink("/q", "/z")` leaves it.  The call
`readlink("/z", buf)` does not return: `follow_symlink` reads the link, releases it, finds
no inode for `/q` and returns 0, and `iunlockput(ip)` on the link, which is not locked any
more, ends in `panic("iunlock")`. -/
theorem readlink_dangling_panics :
    strAt { byte := diskOf blocks9 12, ok := fun _ => true } 0 20 = [47, 113] ∧
    errOf (sys_readlink cfg1 pl7 20 10 fs9 (memStr [47, 122]) 1000 3000 2600) =
      some Err.iunlock_bad := by
  decide!

/-- The routine `iput` on a slot whose inode, when loaded, has a link: one reference less
and nothing else. -/
theorem iput_plain (c : Config) (s : State) (ip : Nat)
    (hn : (s.inodes ip).valid ≠ 0 → (s.inodes ip).d.nlink ≠ 0) :
    iput c s ip = .ok (s.setInode ip { s.inodes ip with ref := (s.inodes ip).ref - 1 }, ()) := by
  unfold iput
  rw [if_neg (fun h => hn h.2.1 h.2.2)]

theorem dLookup_none (c : Config) (s : State) (d : Dinode) (name : Nat → Nat) :
    ∀ (n i : Nat), dLookup c s d name n i = none →
      ∀ j, i ≤ j → j < i + n → ¬ dMatches c s d name (j * c.DIRENT)
  | 0, i, _, j, h1, h2 => by omega
  | n + 1, i, h, j, h1, h2 => by
    simp only [dLookup] at h
    by_cases hm : dMatches c s d name (i * c.DIRENT)
    · rw [if_pos hm] at h; simp at h
    · rw [if_neg hm] at h
      by_cases hj : j = i
      · rw [hj]; exact hm
      · exact dLookup_none c s d name n (i + 1) h j (by omega) (by omega)

/-- The rest that `pathStep` leaves: it is as much shorter as `skipelem` moves on, and it is
empty or begins with an element. -/
theorem pathStep_rest {l x rest : List Nat} (h : pathStep l = some (x, rest)) :
    pathSkip l + rest.length = l.length ∧ (pathStep rest = none ↔ rest = []) := by
  unfold pathStep at h
  split at h
  · simp at h
  · simp only [Option.some.injEq, Prod.mk.injEq] at h
    obtain ⟨-, hr⟩ := h
    have h1 := nSlash_le l
    have h2 := nElem_le (l.drop (nSlash l))
    have h3 := nSlash_le ((l.drop (nSlash l)).drop (nElem (l.drop (nSlash l))))
    have e1 : (l.drop (nSlash l)).length = l.length - nSlash l := List.length_drop _ _
    have e2 : ((l.drop (nSlash l)).drop (nElem (l.drop (nSlash l)))).length =
        (l.drop (nSlash l)).length - nElem (l.drop (nSlash l)) := List.length_drop _ _
    have e3 : rest.length = ((l.drop (nSlash l)).drop (nElem (l.drop (nSlash l)))).length -
        nSlash ((l.drop (nSlash l)).drop (nElem (l.drop (nSlash l)))) := by
      rw [← hr]; exact List.length_drop _ _
    refine ⟨by unfold pathSkip; omega, ?_⟩
    rcases nSlash_drop ((l.drop (nSlash l)).drop (nElem (l.drop (nSlash l)))) with h0 | ⟨y, t, h4, h5⟩
    · rw [hr] at h0
      rw [h0]
      exact ⟨fun _ => rfl, fun _ => rfl⟩
    · rw [hr] at h4
      rw [h4]
      constructor
      · intro hp
        unfold pathStep at hp
        have : nSlash (y :: t) = 0 := by simp [nSlash, h5]
        rw [this] at hp
        simp at hp
      · intro hp; simp at hp

theorem elems_nil_iff {l x rest : List Nat} {xs : List (List Nat)}
    (h : pathStep l = some (x, rest)) (he : Elems rest xs) : xs = [] ↔ rest = [] := by
  have h2 := (pathStep_rest h).2
  cases xs with
  | nil => exact ⟨fun _ => h2.1 he, fun _ => rfl⟩
  | cons y ys =>
    obtain ⟨r2, hp, -⟩ := he
    constructor
    · intro hh; simp at hh
    · intro hh
      rw [h2.2 hh] at hp
      simp at hp

theorem setInode_comm (s : State) {i j : Nat} (x y : Inode) (h : i ≠ j) :
    (s.setInode i x).setInode j y = (s.setInode j y).setInode i x := by
  simp only [State.setInode]
  rw [Function.update_comm h]

/-- What `iget` does when a slot of the cache is unused. -/
theorem iget_step {c : Config} {s : State} (dev inum : Nat)
    (hfree : ∃ j, j < c.NINODE ∧ (s.inodes j).ref = 0) :
    ∃ next y, iget c s dev inum = .ok (s.setInode next y, next) ∧ next < c.NINODE ∧
      y.dev = dev ∧ y.inum = inum ∧
      ((0 < (s.inodes next).ref ∧ y = { s.inodes next with ref := (s.inodes next).ref + 1 }) ∨
        ((s.inodes next).ref = 0 ∧
          y = { s.inodes next with dev := dev, inum := inum, ref := 1, valid := 0 })) := by
  obtain ⟨s2, ip, h, hlt⟩ := iget_free (c := c) (s := s) dev inum hfree
  obtain ⟨hd, hi, -⟩ := iget_handle h
  rcases iget_cases.1 s2 ip h with ⟨hp, he⟩ | ⟨hz, he⟩
  · rw [he] at h hd hi
    rw [setInode_same] at hd hi
    exact ⟨ip, _, h, hlt, hd, hi, Or.inl ⟨hp, rfl⟩⟩
  · rw [he] at h
    exact ⟨ip, _, h, hlt, rfl, rfl, Or.inr ⟨hz, rfl⟩⟩

/-- A resolution lets go of its inode. -/
theorem rested_release {c : Config} {k : Nat} {s0 s t : State} {ip inum : Nat}
    (hr : Ready c k s0) (hw : WalkInv c k s0 s ip inum)
    (hct : Coherent c t c.ROOTDEV (k + 1)) (hdt : SameDisk c s t c.ROOTDEV)
    (hto : ∀ j, j ≠ ip → t.inodes j = s.inodes j)
    (x : Inode) (hxref : x.ref = (s.inodes ip).ref - 1) (hxlk : x.locked = false)
    (hxdev : x.dev = (s.inodes ip).dev) (hxinum : x.inum = (s.inodes ip).inum)
    (hxd : x.valid ≠ 0 → x.d = dnode c s0 inum) :
    Rested c k s0 (t.setInode ip x) := by
  obtain ⟨hc, hsd, hipn, hinum, hrefs, hkeep, hco⟩ := hw
  obtain ⟨hc0, hnf0, hu0, hsp0, hfs, hco0, htf⟩ := hr
  have hrip := hrefs ip hipn
  rw [if_pos rfl] at hrip
  have h0ip := (hco0 ip hipn).2.1
  have hsip := (hco ip hipn).2.2 (by omega)
  refine ⟨coherent_setInode hct _ _,
    hsd.trans_disk (hdt.trans_disk ((InodesOnly.set t ip x).toDisk _)), fun j hj => ?_,
    fun j hj h0 => ?_, fun j hj => ?_⟩
  · by_cases hji : j = ip
    · rw [hji, setInode_same, hxref, hrip]; omega
    · rw [setInode_other _ _ _ hji, hto j hji, hrefs j hj, if_neg hji]; omega
  · by_cases hji : j = ip
    · rw [hji, setInode_same, hxinum]
      rw [hji] at h0
      exact hkeep ip hipn h0
    · rw [setInode_other _ _ _ hji, hto j hji]; exact hkeep j hj h0
  · by_cases hji : j = ip
    · rw [hji, setInode_same]
      refine ⟨hxlk, by rw [hxref, hrip]; omega, fun _ => ⟨by rw [hxdev]; exact hsip.1, ?_, ?_, ?_⟩⟩
      · rw [hxinum]; exact hsip.2.1
      · rw [hxinum]; exact hsip.2.2.1
      · intro hv; rw [hxinum, hinum]; exact hxd hv
    · rw [setInode_other _ _ _ hji, hto j hji]; exact hco j hj

/-- A resolution stays at its inode. -/
theorem walkInv_same {c : Config} {k : Nat} {s0 s t : State} {ip inum : Nat}
    (hw : WalkInv c k s0 s ip inum)
    (hct : Coherent c t c.ROOTDEV (k + 1)) (hdt : SameDisk c s t c.ROOTDEV)
    (hto : ∀ j, j ≠ ip → t.inodes j = s.inodes j)
    (x : Inode) (hxref : x.ref = (s.inodes ip).ref) (hxlk : x.locked = false)
    (hxdev : x.dev = (s.inodes ip).dev) (hxinum : x.inum = (s.inodes ip).inum)
    (hxd : x.valid ≠ 0 → x.d = dnode c s0 inum) :
    WalkInv c k s0 (t.setInode ip x) ip inum := by
  obtain ⟨hc, hsd, hipn, hinum, hrefs, hkeep, hco⟩ := hw
  have hrip := hrefs ip hipn
  have hsip := (hco ip hipn).2.2
  refine ⟨coherent_setInode hct _ _,
    hsd.trans_disk (hdt.trans_disk ((InodesOnly.set t ip x).toDisk _)), hipn,
    by rw [setInode_same, hxinum, hinum], fun j hj => ?_, fun j hj h0 => ?_, fun j hj => ?_⟩
  · by_cases hji : j = ip
    · rw [hji, setInode_same, hxref, hrip]
    · rw [setInode_other _ _ _ hji, hto j hji, hrefs j hj]
  · by_cases hji : j = ip
    · rw [hji, setInode_same, hxinum]
      rw [hji] at h0
      exact hkeep ip hipn h0
    · rw [setInode_other _ _ _ hji, hto j hji]; exact hkeep j hj h0
  · by_cases hji : j = ip
    · rw [hji, setInode_same]
      refine ⟨hxlk, by rw [hxref]; exact (hco ip hipn).2.1, fun hp => ?_⟩
      rw [hxref] at hp
      refine ⟨by rw [hxdev]; exact (hsip hp).1, ?_, ?_, ?_⟩
      · rw [hxinum]; exact (hsip hp).2.1
      · rw [hxinum]; exact (hsip hp).2.2.1
      · intro hv; rw [hxinum, hinum]; exact hxd hv
    · rw [setInode_other _ _ _ hji, hto j hji]; exact hco j hj

/-- A resolution takes hold of inode `e` in the slot that `iget` gives it. -/
theorem walkInv_acquire {c : Config} {k : Nat} {s0 r : State} {next e : Nat} {y : Inode}
    (hr : Rested c k s0 r) (hn : next < c.NINODE) (he : e < s0.sb.ninodes)
    (hty : (dnode c s0 e).type ≠ 0) (hyd : y.dev = c.ROOTDEV) (hyi : y.inum = e)
    (hy : (0 < (r.inodes next).ref ∧ y = { r.inodes next with ref := (r.inodes next).ref + 1 }) ∨
      ((r.inodes next).ref = 0 ∧
        y = { r.inodes next with dev := c.ROOTDEV, inum := e, ref := 1, valid := 0 })) :
    WalkInv c k s0 (r.setInode next y) next e := by
  obtain ⟨hc, hsd, hrefs, hkeep, hco⟩ := hr
  have hrn := hrefs next hn
  have hcn := hco next hn
  refine ⟨coherent_setInode hc _ _, hsd.trans_disk ((InodesOnly.set r next y).toDisk _), hn,
    by rw [setInode_same, hyi], fun j hj => ?_, fun j hj h0 => ?_, fun j hj => ?_⟩
  · by_cases hji : j = next
    · rw [hji, setInode_same, if_pos rfl, ← hrn]
      rcases hy with ⟨_, hy⟩ | ⟨hz, hy⟩
      · rw [hy]
      · rw [hy, hz]; rfl
    · rw [setInode_other _ _ _ hji, hrefs j hj, if_neg hji]; omega
  · by_cases hji : j = next
    · rw [hji, setInode_same]
      rw [hji] at h0
      rcases hy with ⟨_, hy⟩ | ⟨hz, hy⟩
      · rw [hy]; exact hkeep next hn h0
      · omega
    · rw [setInode_other _ _ _ hji]; exact hkeep j hj h0
  · by_cases hji : j = next
    · rw [hji, setInode_same]
      rcases hy with ⟨hp, hy⟩ | ⟨hz, hy⟩
      · have hyl : y.locked = (r.inodes next).locked := by rw [hy]
        have hyr : y.ref = (r.inodes next).ref + 1 := by rw [hy]
        have hyv : y.valid = (r.inodes next).valid := by rw [hy]
        have hyy : y.d = (r.inodes next).d := by rw [hy]
        have hyn : y.inum = (r.inodes next).inum := by rw [hy]
        refine ⟨by rw [hyl]; exact hcn.1, by rw [hyr]; omega, fun _ => ⟨hyd, ?_, ?_, ?_⟩⟩
        · rw [hyi]; exact he
        · rw [hyi]; exact hty
        · intro hv
          rw [hyv] at hv
          rw [hyy, hyn]
          exact (hcn.2.2 hp).2.2.2 hv
      · have hyl : y.locked = (r.inodes next).locked := by rw [hy]
        have hyr : y.ref = 1 := by rw [hy]
        have hyv : y.valid = 0 := by rw [hy]
        refine ⟨by rw [hyl]; exact hcn.1, by rw [hyr]; omega, fun _ => ⟨hyd, ?_, ?_, ?_⟩⟩
        · rw [hyi]; exact he
        · rw [hyi]; exact hty
        · intro hv; exact absurd hyv hv
    · rw [setInode_other _ _ _ hji]; exact hco j hj

/-- A machine that is ready for a resolution is at rest. -/
theorem Ready.rested {c : Config} {k : Nat} {s0 : State} (hr : Ready c k s0) :
    Rested c k s0 s0 :=
  ⟨hr.1, SameDisk.rfl_disk c s0 _, fun _ _ => rfl, fun _ _ _ => rfl, hr.2.2.2.2.2.1⟩

/-- During a resolution a slot other than the one it holds is unused. -/
theorem walk_free {c : Config} {k : Nat} {s0 s : State} {ip inum : Nat}
    (hr : Ready c k s0) (hw : WalkInv c k s0 s ip inum) :
    ∃ j, j < c.NINODE ∧ j ≠ ip ∧ (s.inodes j).ref = 0 := by
  obtain ⟨j1, j2, hne, h1, h2, z1, z2⟩ := hr.2.2.2.2.2.2
  have hrefs := hw.2.2.2.2.1
  by_cases h : j1 = ip
  · exact ⟨j2, h2, fun hh => hne (h.trans hh.symm), by
      rw [hrefs j2 h2, if_neg (fun hh => hne (h.trans hh.symm)), z2]; rfl⟩
  · exact ⟨j1, h1, h, by rw [hrefs j1 h1, if_neg h, z1]; rfl⟩

/-- One round of `namex` without following links, on a path with an element `x`, from the
inode `inum`: the round ends with 0 when `inum` is no directory or has no Read bit; it ends
with the handle at hand when the parent is asked for and `x` is the last element; else it
looks `x` up, ends with 0 when there is no such entry, and goes on at the inode of the entry
otherwise. -/
theorem namex_round_walk {c : Config} {pl : Places} {k : Nat} {s0 s : State} {ip inum : Nat}
    (np : Bool) (name lim : Nat) (mem : Mem) (path depth : Nat) (l x rest : List Nat)
    (hS : Sane c) (hr : Ready c k s0) (hw : WalkInv c k s0 s ip inum)
    (hs : Str mem path l) (hl : l.length < lim)
    (hdis : name + c.DIRSIZ ≤ path ∨ path + l.length < name)
    (hstep : pathStep l = some (x, rest)) :
    ∃ mem2, Str mem2 (path + pathSkip l) rest ∧ NameIs c mem2 name x ∧ mem2.ok = mem.ok ∧
      (∀ a, a < name ∨ name + c.DIRSIZ ≤ a → mem2.byte a = mem.byte a) ∧
      (((dnode c s0 inum).type ≠ c.T_DIR ∨ (dnode c s0 inum).mode &&& c.M_READ = 0) →
        ∃ s2, namex_round c pl np false name lim s mem ip path depth =
            .ok (s2, .inl (mem2, none)) ∧ Rested c k s0 s2) ∧
      ((dnode c s0 inum).type = c.T_DIR → (dnode c s0 inum).mode &&& c.M_READ ≠ 0 →
        (np = true ∧ rest = [] →
          ∃ s2, namex_round c pl np false name lim s mem ip path depth =
              .ok (s2, .inl (mem2, some ip)) ∧ WalkInv c k s0 s2 ip inum) ∧
        (¬ (np = true ∧ rest = []) →
          (dLookup c s0 (dnode c s0 inum) (nameOf x) ((dnode c s0 inum).size / c.DIRENT) 0 =
              none →
            ∃ s2, namex_round c pl np false name lim s mem ip path depth =
                .ok (s2, .inl (mem2, none)) ∧ Rested c k s0 s2) ∧
          (∀ e, dLookup c s0 (dnode c s0 inum) (nameOf x) ((dnode c s0 inum).size / c.DIRENT)
              0 = some e →
            ∃ s2 next, namex_round c pl np false name lim s mem ip path depth =
                .ok (s2, .inr (mem2, next, path + pathSkip l, depth)) ∧
              WalkInv c k s0 s2 next e))) := by
  have hw0 := hw
  have hr0 := hr
  obtain ⟨hc, hsd, hipn, hinum, hrefs, hkeep, hco⟩ := hw
  obtain ⟨hc0, hnf0, hu0, hsp0, hfs, hco0, htf⟩ := hr
  obtain ⟨hB, hD, hDS, hTD, hIPB⟩ := hS
  obtain ⟨mem2, hskip, hstr2, hok2, hframe, hname, hzero⟩ :=
    (skipelem_str c mem lim path name l hs hl hdis).2 x rest hstep
  have hrip := hrefs ip hipn
  rw [if_pos rfl] at hrip
  have h0ip := (hco0 ip hipn).2.1
  have hipref : 0 < (s.inodes ip).ref := by omega
  have hlk := (hco ip hipn).1
  obtain ⟨hdev, hilt, hity, hival⟩ := (hco ip hipn).2.2 hipref
  rw [hinum] at hilt hity hival
  have hnode : NodeOK c s0 inum := hfs inum hilt hity
  have hsb : s.sb = s0.sb := hsd.1.2.1
  have hdn : dnode c s inum = dnode c s0 inum := by unfold dnode; rw [hsd.2.2, hsb]
  obtain ⟨s1, v, hlock, hc1, hsd1, hv, hs1ip, hs1o⟩ :=
    ilock_steady (k := k) hc (hsd.noFault_disk hnf0) (hsd.unlocked_disk hu0)
      (hsd.spare_disk hsp0) hipref hlk hdev (by rw [hinum, hsb]; exact hnode.1)
      (by rw [hinum, hdn]; exact hity) (fun h => by rw [hinum, hdn]; exact hival h)
  rw [hinum, hdn] at hs1ip
  have h1d : (s1.inodes ip).d = dnode c s0 inum := by rw [hs1ip]
  have h1lk : (s1.inodes ip).locked = true := by rw [hs1ip]
  have h1ref : (s1.inodes ip).ref = (s.inodes ip).ref := by rw [hs1ip]
  have h1dev : (s1.inodes ip).dev = (s.inodes ip).dev := by rw [hs1ip]
  have h1inum : (s1.inodes ip).inum = (s.inodes ip).inum := by rw [hs1ip]
  have h1nl : (s1.inodes ip).d.nlink ≠ 0 := by rw [h1d]; exact hnode.2.1
  have hsd01 : SameDisk c s0 s1 c.ROOTDEV := hsd.trans_disk hsd1
  -- the state after letting go of the inode, from a state with the inodes of `s1`
  have hgo : ∀ t : State, Coherent c t c.ROOTDEV (k + 1) → SameDisk c s1 t c.ROOTDEV →
      t.inodes = s1.inodes →
      iunlockput c t ip = .ok (t.setInode ip
        { t.inodes ip with locked := false, ref := (t.inodes ip).ref - 1 }, ()) ∧
      Rested c k s0 (t.setInode ip
        { t.inodes ip with locked := false, ref := (t.inodes ip).ref - 1 }) := by
    intro t hct hdt hti
    refine ⟨iunlockput_plain c t ip (by rw [hti]; exact h1lk) (by rw [hti, h1ref]; exact hipref)
      (by rw [hti]; exact h1nl), ?_⟩
    refine rested_release hr0 hw0 hct (hsd1.trans_disk hdt)
      (fun j hj => by rw [hti]; exact hs1o j hj) _ ?_ rfl ?_ ?_ ?_
    · show (t.inodes ip).ref - 1 = _; rw [hti, h1ref]
    · show (t.inodes ip).dev = _; rw [hti, h1dev]
    · show (t.inodes ip).inum = _; rw [hti, h1inum]
    · intro _; show (t.inodes ip).d = _; rw [hti, h1d]
  refine ⟨mem2, hstr2, hname, hok2, hframe, ?_, ?_⟩
  · intro hbad
    obtain ⟨hgo1, hgo2⟩ := hgo s1 hc1 (SameDisk.rfl_disk c s1 _) rfl
    refine ⟨_, ?_, hgo2⟩
    simp only [namex_round, hskip, hlock]
    by_cases hty : (dnode c s0 inum).type ≠ c.T_DIR
    · rw [if_pos (by rw [h1d]; exact hty), hgo1]
    · rw [if_neg (by rw [h1d]; exact hty), if_pos (by rw [h1d]; exact hbad.resolve_left hty),
        hgo1]
  · intro hty hmode
    have hv1 : ∀ m, blockView c s1 c.ROOTDEV m = blockView c s0 c.ROOTDEV m := hsd01.2.2
    have hsb1 : s1.sb = s0.sb := hsd01.1.2.1
    constructor
    · intro hlast
      refine ⟨s1.setInode ip { s1.inodes ip with locked := false }, ?_, ?_⟩
      · simp only [namex_round, hskip, hlock]
        rw [if_neg (by rw [h1d]; exact not_not.2 hty), if_neg (by rw [h1d]; exact hmode), if_pos ⟨hlast.1, hzero.2 hlast.2⟩]
        unfold iunlock
        rw [if_neg (by rw [h1lk, h1ref]; simp; omega)]
      · refine walkInv_same hw0 hc1 hsd1 hs1o _ h1ref rfl h1dev h1inum (fun _ => h1d)
    · intro hnot
      have hnot2 : ¬ (np = true ∧ mem2.byte (path + pathSkip l) = 0) :=
        fun h => hnot ⟨h.1, hzero.1 h.2⟩
      have hdevR : (s1.inodes ip).dev = c.ROOTDEV := by rw [h1dev]; exact hdev
      have hsize : (s1.inodes ip).d.size =
          (dnode c s0 inum).size / c.DIRENT * c.DIRENT := by
        rw [h1d]
        exact (Nat.div_mul_cancel (Nat.dvd_of_mod_eq_zero (hnode.2.2.2.2.2.2 hty).1)).symm
      have hdir : DirOK c s1 ip ((dnode c s0 inum).size / c.DIRENT) := by
        refine ⟨by rw [h1d]; exact hty, hsize, fun a ha => ?_, fun ha => ?_⟩
        · rw [slot_fileBlock h1d hdevR hv1, hsb1]
          rw [h1d] at ha
          exact hnode.2.2.2.2.1 a ha
        · rw [h1d] at ha ⊢
          rw [hsb1]
          exact hnode.2.2.2.2.2.1 ha
      have hsz2 : (dnode c s0 inum).size / c.DIRENT * c.DIRENT = (dnode c s0 inum).size :=
        Nat.div_mul_cancel (Nat.dvd_of_mod_eq_zero (hnode.2.2.2.2.2.2 hty).1)
      obtain ⟨hfound, hnone⟩ := dirlookup_quiet c s1 mem2 ip (fun i => mem2.byte (name + i)) false
        pl.de k ((dnode c s0 inum).size / c.DIRENT) hB hD hdir
        (by rw [hsz2]; exact hnode.2.2.1) (by rw [hsz2]; exact hnode.2.2.2.1)
        (by rw [hdevR]; exact hc1) (hsd01.noFault_disk hnf0) (hsd01.unlocked_disk hu0)
        (hsd01.spare_disk hsp0)
      have hmi : ∀ off, Matches c s1 ip (fun i => mem2.byte (name + i)) off ↔
          dMatches c s0 (dnode c s0 inum) (nameOf x) off := by
        intro off
        unfold Matches dMatches
        rw [slot_dirEntry h1d hdevR hv1, namecmp_name c mem2 name x _ hname]
      constructor
      · intro hlook
        have hno := dLookup_none c s0 _ _ _ _ hlook
        obtain ⟨s2, hc2, hsv2, hdl⟩ := hnone (fun i hi hm => hno i (Nat.zero_le _) (by omega)
          ((hmi _).1 hm))
        rw [hdevR] at hc2 hsv2
        obtain ⟨hgo1, hgo2⟩ := hgo s2 hc2 hsv2.toSameDisk hsv2.2.1
        refine ⟨_, ?_, hgo2⟩
        simp only [namex_round, hskip, hlock]
        rw [if_neg (by rw [h1d]; exact not_not.2 hty), if_neg (by rw [h1d]; exact hmode), if_neg hnot2, hdl]
        simp only [hgo1]
      · intro e hlook
        obtain ⟨j, -, hj, hm, hbefore, hje⟩ := dLookup_some c s0 _ _ _ _ e hlook
        obtain ⟨s2, hc2, hsv2, hdl⟩ := hfound j (by omega) ((hmi _).2 hm)
          (fun i2 hi2 h => hbefore i2 (Nat.zero_le _) hi2 ((hmi _).1 h))
        rw [hdevR] at hc2 hsv2
        rw [hdevR, slot_dirEntry h1d hdevR hv1, ← hje] at hdl
        have hent := (hnode.2.2.2.2.2.2 hty).2 j (by omega) hm.1
        rw [← hje] at hent
        obtain ⟨jf, hjf, hjne, hjz⟩ := walk_free hr0 hw0
        obtain ⟨next, y, hig, hnext, hyd, hyi, hy⟩ := iget_step (c := c) (s := s2) c.ROOTDEV e
          ⟨jf, hjf, by rw [hsv2.2.1, hs1o jf hjne]; exact hjz⟩
        rw [hig] at hdl
        obtain ⟨hgo1, hgo2⟩ := hgo s2 hc2 hsv2.toSameDisk hsv2.2.1
        by_cases hni : next = ip
        · -- the entry names the directory itself
          have hy2 : y = { s2.inodes ip with ref := (s2.inodes ip).ref + 1 } := by
            rcases hy with ⟨_, hy⟩ | ⟨hz, hy⟩
            · rw [hy, hni]
            · rw [hni, hsv2.2.1, h1ref] at hz; omega
          have hei : e = inum := by
            rw [← hyi, hy2]
            show (s2.inodes ip).inum = inum
            rw [hsv2.2.1, h1inum, hinum]
          refine ⟨(s2.setInode ip y).setInode ip { y with locked := false, ref := y.ref - 1 },
            ip, ?_, ?_⟩
          · simp only [namex_round, hskip, hlock]
            rw [if_neg (by rw [h1d]; exact not_not.2 hty), if_neg (by rw [h1d]; exact hmode), if_neg hnot2, hdl]
            simp only [hni, Bool.false_eq_true, if_false]
            rw [iunlockput_plain c (s2.setInode ip y) ip
              (by rw [setInode_same, hy2]; show (s2.inodes ip).locked = true
                  rw [hsv2.2.1]; exact h1lk)
              (by rw [setInode_same, hy2]; show 0 < (s2.inodes ip).ref + 1
                  rw [hsv2.2.1, h1ref]; omega)
              (by rw [setInode_same, hy2]; show (s2.inodes ip).d.nlink ≠ 0
                  rw [hsv2.2.1]; exact h1nl)]
            simp only [setInode_same]
          · rw [setInode_twice, hei]
            refine walkInv_same hw0 hc2 (hsd1.trans_disk hsv2.toSameDisk)
              (fun j hj => by rw [hsv2.2.1]; exact hs1o j hj) _ ?_ rfl ?_ ?_ ?_
            · show y.ref - 1 = _; rw [hy2]; show (s2.inodes ip).ref + 1 - 1 = _
              rw [hsv2.2.1, h1ref]; omega
            · show y.dev = _; rw [hy2]; show (s2.inodes ip).dev = _; rw [hsv2.2.1, h1dev]
            · show y.inum = _; rw [hy2]; show (s2.inodes ip).inum = _; rw [hsv2.2.1, h1inum]
            · intro _; show y.d = _; rw [hy2]; show (s2.inodes ip).d = _; rw [hsv2.2.1, h1d]
        · have hother : ((s2.setInode next y).inodes ip) = s2.inodes ip :=
            setInode_other _ _ _ (fun h => hni h.symm)
          refine ⟨(s2.setInode next y).setInode ip
            { s2.inodes ip with locked := false, ref := (s2.inodes ip).ref - 1 }, next, ?_, ?_⟩
          · simp only [namex_round, hskip, hlock]
            rw [if_neg (by rw [h1d]; exact not_not.2 hty), if_neg (by rw [h1d]; exact hmode), if_neg hnot2, hdl]
            simp only [Bool.false_eq_true, if_false]
            rw [iunlockput_plain c (s2.setInode next y) ip
              (by rw [hother, hsv2.2.1]; exact h1lk)
              (by rw [hother, hsv2.2.1, h1ref]; exact hipref)
              (by rw [hother, hsv2.2.1]; exact h1nl)]
            simp only [hother]
          · rw [setInode_comm _ _ _ hni]
            have hrn : ((s2.setInode ip
                { s2.inodes ip with locked := false, ref := (s2.inodes ip).ref - 1 }).inodes
                next) = s2.inodes next := setInode_other _ _ _ hni
            exact walkInv_acquire hgo2 hnext hent.1 hent.2 hyd hyi (by rw [hrn]; exact hy)

/-- The round of `namex` on a path without an element: the parent asked for, it lets go of
the inode and ends with 0; otherwise it ends with the handle at hand. -/
theorem namex_round_end {c : Config} {pl : Places} {k : Nat} {s0 s : State} {ip inum : Nat}
    (np fl : Bool) (name lim : Nat) (mem : Mem) (path depth : Nat) (l : List Nat)
    (hr : Ready c k s0) (hw : WalkInv c k s0 s ip inum)
    (hs : Str mem path l) (hl : l.length < lim)
    (hdis : name + c.DIRSIZ ≤ path ∨ path + l.length < name)
    (hstep : pathStep l = none) :
    (np = true → ∃ s2, namex_round c pl np fl name lim s mem ip path depth =
        .ok (s2, .inl (mem, none)) ∧ Rested c k s0 s2) ∧
    (np = false → namex_round c pl np fl name lim s mem ip path depth =
        .ok (s, .inl (mem, some ip))) := by
  have hskip := (skipelem_str c mem lim path name l hs hl hdis).1 hstep
  have hw0 := hw
  obtain ⟨hc, hsd, hipn, hinum, hrefs, hkeep, hco⟩ := hw
  have hrip := hrefs ip hipn
  rw [if_pos rfl] at hrip
  have h0ip := (hr.2.2.2.2.2.1 ip hipn).2.1
  have hsip := (hco ip hipn).2.2 (by omega)
  constructor
  · intro hnp
    subst hnp
    have hnode : NodeOK c s0 inum := hr.2.2.2.2.1 inum (by rw [← hinum]; exact hsip.2.1)
      (by rw [← hinum]; exact hsip.2.2.1)
    have hput := iput_plain c s ip (fun hv => by
      rw [hsip.2.2.2 hv, hinum]; exact hnode.2.1)
    refine ⟨_, ?_, rested_release hr hw0 hc (SameDisk.rfl_disk c s _) (fun _ _ => rfl)
      { s.inodes ip with ref := (s.inodes ip).ref - 1 } rfl (hco ip hipn).1 rfl rfl
      (fun hv => by
        show (s.inodes ip).d = _
        rw [hsip.2.2.2 hv, hinum])⟩
    simp only [namex_round, hskip, if_true, hput]
  · intro hnp
    subst hnp
    simp only [namex_round, hskip, Bool.false_eq_true, if_false]

/-- The loop of `namex` without following links, from the inode `inum` on a path with the
elements `xs`: it returns, with the handle of the inode that `walkP` gives, and with 0 when
`walkP` gives none; the parent asked for, the buffer `name` holds the last element. -/
theorem namex_loop_walk {c : Config} {pl : Places} {k : Nat} {s0 : State} (np : Bool)
    (name lim : Nat) (hS : Sane c) (hr : Ready c k s0) :
    ∀ (xs : List (List Nat)) (s : State) (mem : Mem) (ip inum path depth : Nat) (l : List Nat)
      (fuel : Nat),
      WalkInv c k s0 s ip inum → Str mem path l → l.length < lim →
      (name + c.DIRSIZ ≤ path ∨ path + l.length < name) → Elems l xs → xs.length < fuel →
      ∃ s2 mem2, mem2.ok = mem.ok ∧
        (∀ a, a < name ∨ name + c.DIRSIZ ≤ a → mem2.byte a = mem.byte a) ∧
        (walkP c s0 np inum xs = none →
          namex_loop c pl np false name lim fuel s mem ip path depth = .ok (s2, (mem2, none)) ∧
            Rested c k s0 s2) ∧
        (∀ e, walkP c s0 np inum xs = some e →
          ∃ ip2, namex_loop c pl np false name lim fuel s mem ip path depth =
              .ok (s2, (mem2, some ip2)) ∧ WalkInv c k s0 s2 ip2 e ∧
            (np = true → ∀ x, xs.getLast? = some x → NameIs c mem2 name x))
  | [], s, mem, ip, inum, path, depth, l, fuel, hw, hs, hl, hdis, he, hf => by
    obtain ⟨f, rfl⟩ : ∃ f, fuel = f + 1 := ⟨fuel - 1, by simp at hf; omega⟩
    have hstep : pathStep l = none := he
    obtain ⟨h1, h2⟩ := @namex_round_end c pl k s0 s ip inum np false name lim mem path depth l hr hw hs hl hdis hstep
    cases np with
    | true =>
      obtain ⟨s2, hrd, hrest⟩ := h1 rfl
      refine ⟨s2, mem, rfl, fun _ _ => rfl, fun _ => ⟨?_, hrest⟩, fun e hwp => ?_⟩
      · simp only [namex_loop, hrd]
      · simp [walkP] at hwp
    | false =>
      refine ⟨s, mem, rfl, fun _ _ => rfl, fun hwp => ?_, fun e hwp => ?_⟩
      · simp [walkP] at hwp
      · have hei : inum = e := by simpa [walkP] using hwp
        subst hei
        exact ⟨ip, by simp only [namex_loop, h2 rfl], hw, fun h => by simp at h⟩
  | x :: xs, s, mem, ip, inum, path, depth, l, fuel, hw, hs, hl, hdis, he, hf => by
    obtain ⟨f, rfl⟩ : ∃ f, fuel = f + 1 := ⟨fuel - 1, by simp at hf; omega⟩
    simp only [List.length_cons] at hf
    obtain ⟨rest, hstep, hrestE⟩ := he
    obtain ⟨mem2, hstr2, hname, hok2, hframe, hA, hB⟩ :=
      @namex_round_walk c pl k s0 s ip inum np name lim mem path depth l x rest hS hr hw hs hl hdis hstep
    have hlen := (pathStep_rest hstep).1
    by_cases hbad : (dnode c s0 inum).type ≠ c.T_DIR ∨ (dnode c s0 inum).mode &&& c.M_READ = 0
    · obtain ⟨s2, hrd, hrest⟩ := hA hbad
      have hwp : walkP c s0 np inum (x :: xs) = none := by
        simp only [walkP]
        by_cases h' : (dnode c s0 inum).type ≠ c.T_DIR
        · rw [if_pos h']
        · rw [if_neg h', if_pos (hbad.resolve_left h')]
      refine ⟨s2, mem2, hok2, hframe, fun _ => ⟨by simp only [namex_loop, hrd], hrest⟩,
        fun e h => ?_⟩
      rw [hwp] at h; simp at h
    · have hty : (dnode c s0 inum).type = c.T_DIR := by
        by_contra h; exact hbad (Or.inl h)
      have hmode : (dnode c s0 inum).mode &&& c.M_READ ≠ 0 := fun h => hbad (Or.inr h)
      obtain ⟨hB1, hB2⟩ := hB hty hmode
      have hnil := elems_nil_iff hstep hrestE
      by_cases hlast : np = true ∧ rest = []
      · obtain ⟨s2, hrd, hw2⟩ := hB1 hlast
        have hxs : xs = [] := hnil.2 hlast.2
        have hwp : walkP c s0 np inum (x :: xs) = some inum := by
          simp only [walkP]
          rw [if_neg (not_not.2 hty), if_neg hmode, if_pos ⟨hlast.1, hxs⟩]
        refine ⟨s2, mem2, hok2, hframe, fun h => ?_, fun e h => ?_⟩
        · rw [hwp] at h; simp at h
        · rw [hwp] at h
          simp only [Option.some.injEq] at h
          subst h
          refine ⟨ip, by simp only [namex_loop, hrd], hw2, fun _ y hy => ?_⟩
          rw [hxs] at hy
          simp only [List.getLast?_singleton, Option.some.injEq] at hy
          rw [← hy]; exact hname
      · obtain ⟨hC, hD⟩ := hB2 hlast
        have hlast2 : ¬ (np = true ∧ xs = []) := fun h => hlast ⟨h.1, hnil.1 h.2⟩
        have hwpe : ∀ r, dLookup c s0 (dnode c s0 inum) (nameOf x)
            ((dnode c s0 inum).size / c.DIRENT) 0 = r →
            walkP c s0 np inum (x :: xs) = r.bind (fun e => walkP c s0 np e xs) := by
          intro r hr2
          simp only [walkP]
          rw [if_neg (not_not.2 hty), if_neg hmode, if_neg hlast2, hr2]
          cases r <;> rfl
        cases hlook : dLookup c s0 (dnode c s0 inum) (nameOf x)
            ((dnode c s0 inum).size / c.DIRENT) 0 with
        | none =>
          obtain ⟨s2, hrd, hrest⟩ := hC hlook
          have hwpe := hwpe _ hlook
          refine ⟨s2, mem2, hok2, hframe, fun _ => ⟨by simp only [namex_loop, hrd], hrest⟩,
            fun e h => ?_⟩
          rw [hwpe] at h; simp at h
        | some e1 =>
          obtain ⟨s2, next, hrd, hw2⟩ := hD e1 hlook
          have hwpe : walkP c s0 np inum (x :: xs) = walkP c s0 np e1 xs := hwpe _ hlook
          obtain ⟨s3, mem3, hok3, hframe3, hN, hSm⟩ :=
            namex_loop_walk np name lim hS hr xs s2 mem2 next e1 (path + pathSkip l) depth rest f
              hw2 hstr2 (by omega) (by omega) hrestE (by omega)
          have hloop : namex_loop c pl np false name lim (f + 1) s mem ip path depth =
              namex_loop c pl np false name lim f s2 mem2 next (path + pathSkip l) depth := by
            simp only [namex_loop, hrd]
          refine ⟨s3, mem3, hok3.trans hok2, fun a ha => (hframe3 a ha).trans (hframe a ha),
            fun h => ?_, fun e h => ?_⟩
          · rw [hwpe] at h; rw [hloop]; exact hN h
          · rw [hwpe] at h
            obtain ⟨ip2, h1, h2, h3⟩ := hSm e h
            refine ⟨ip2, by rw [hloop]; exact h1, h2, fun hnp y hy => h3 hnp y ?_⟩
            cases xs with
            | nil => exact absurd ⟨hnp, rfl⟩ hlast2
            | cons z zs => rw [List.getLast?_cons_cons] at hy; exact hy

/-- The start of `namex`: it takes hold of the root directory or of the current
directory. -/
theorem namex_start_walk {c : Config} {pl : Places} {k : Nat} {s0 : State}
    (hr : Ready c k s0) (mem : Mem) (path : Nat)
    (hroot : c.ROOTINO < s0.sb.ninodes ∧ (dnode c s0 c.ROOTINO).type ≠ 0)
    (hcwd : pl.cwd < c.NINODE ∧ 0 < (s0.inodes pl.cwd).ref) :
    ∃ s ip, namex_start c pl s0 mem path = .ok (s, ip) ∧
      WalkInv c k s0 s ip (startD c pl s0 mem path) := by
  unfold namex_start startD
  by_cases h : mem.byte path = 47
  · rw [if_pos h, if_pos h]
    obtain ⟨j1, j2, -, h1, -, z1, -⟩ := hr.2.2.2.2.2.2
    obtain ⟨next, y, hig, hnext, hyd, hyi, hy⟩ :=
      iget_step (c := c) (s := s0) c.ROOTDEV c.ROOTINO ⟨j1, h1, z1⟩
    exact ⟨_, _, hig, walkInv_acquire hr.rested hnext hroot.1 hroot.2 hyd hyi hy⟩
  · rw [if_neg h, if_neg h]
    have hco := (hr.2.2.2.2.2.1 pl.cwd hcwd.1).2.2 hcwd.2
    refine ⟨_, _, rfl, ?_⟩
    unfold idup
    exact walkInv_acquire hr.rested hcwd.1 hco.2.1 hco.2.2.1 hco.1 rfl (Or.inl ⟨hcwd.2, rfl⟩)

/-- The routine `namex` without following links on a machine that is ready, for a path with
the elements `xs`: it returns, with the handle of the inode that `walkP` gives from the
start of the path, and with 0 when `walkP` gives none. -/
theorem namex_walk {c : Config} {pl : Places} {k : Nat} {s : State} (np : Bool)
    (name lim fuel : Nat) (mem : Mem) (path : Nat) (l : List Nat) (xs : List (List Nat))
    (hS : Sane c) (hr : Ready c k s)
    (hroot : c.ROOTINO < s.sb.ninodes ∧ (dnode c s c.ROOTINO).type ≠ 0)
    (hcwd : pl.cwd < c.NINODE ∧ 0 < (s.inodes pl.cwd).ref)
    (hs : Str mem path l) (hl : l.length < lim)
    (hdis : name + c.DIRSIZ ≤ path ∨ path + l.length < name) (he : Elems l xs)
    (hf : xs.length < fuel) :
    ∃ s2 mem2, mem2.ok = mem.ok ∧
      (∀ a, a < name ∨ name + c.DIRSIZ ≤ a → mem2.byte a = mem.byte a) ∧
      (walkP c s np (startD c pl s mem path) xs = none →
        namex c pl lim fuel s mem path np name false = .ok (s2, (mem2, none)) ∧
          Rested c k s s2) ∧
      (∀ e, walkP c s np (startD c pl s mem path) xs = some e →
        ∃ ip2, namex c pl lim fuel s mem path np name false = .ok (s2, (mem2, some ip2)) ∧
          WalkInv c k s s2 ip2 e ∧
          (np = true → ∀ x, xs.getLast? = some x → NameIs c mem2 name x)) := by
  obtain ⟨s1, ip, hst, hw⟩ := @namex_start_walk c pl k s hr mem path hroot hcwd
  obtain ⟨s2, mem2, h1, h2, h3, h4⟩ :=
    @namex_loop_walk c pl k s np name lim hS hr xs s1 mem ip _ path 0 l fuel hw hs hl hdis he hf
  refine ⟨s2, mem2, h1, h2, fun h => ?_, fun e h => ?_⟩
  · simp only [namex, hst]; exact h3 h
  · obtain ⟨ip2, h5, h6⟩ := h4 e h
    exact ⟨ip2, by simp only [namex, hst]; exact h5, h6⟩

theorem walkP_false (c : Config) (s : State) :
    ∀ (xs : List (List Nat)) (inum : Nat), walkP c s false inum xs = walkD c s inum xs
  | [], inum => by simp [walkP, walkD]
  | x :: xs, inum => by
    simp only [walkP, walkD, Bool.false_eq_true, false_and, if_false]
    split
    · rfl
    · split
      · rfl
      · cases dLookup c s (dnode c s inum) (nameOf x) ((dnode c s inum).size / c.DIRENT) 0 with
        | none => rfl
        | some e => exact walkP_false c s xs e

theorem walkP_parent (c : Config) (s : State) (x : List Nat) (p : Nat)
    (hty : (dnode c s p).type = c.T_DIR) (hm : (dnode c s p).mode &&& c.M_READ ≠ 0) :
    ∀ (xs : List (List Nat)) (inum : Nat), walkD c s inum xs = some p →
      walkP c s true inum (xs ++ [x]) = some p
  | [], inum, h => by
    simp only [walkD, Option.some.injEq] at h
    subst h
    simp [walkP, hty, hm]
  | y :: ys, inum, h => by
    simp only [walkD] at h
    simp only [List.cons_append, walkP]
    split at h
    · simp at h
    · rename_i h1
      split at h
      · simp at h
      · rename_i h2
        rw [if_neg h1, if_neg h2, if_neg (by simp)]
        cases hl : dLookup c s (dnode c s inum) (nameOf y) ((dnode c s inum).size / c.DIRENT) 0 with
        | none => rw [hl] at h; simp at h
        | some e =>
          rw [hl] at h
          exact walkP_parent c s x p hty hm ys e h

/-- The example machine on `blocks7` is ready for a path resolution. -/
theorem fs7_ready : Ready cfg1 0 (fs7 (-1)) := by
  have hI : InodesOnly (boot cfg1 disk7 (-1) (-1) sb7) (fs7 (-1)) := InodesOnly.set _ 0 cwd7
  refine ⟨hI.coherent (boot_coherent cfg1 disk7 (-1) (-1) sb7 (by decide) (by decide)),
    hI.noFault_inodes (boot_nofault cfg1 disk7 sb7 (by decide)),
    hI.unlocked_inodes (boot_unlocked cfg1 disk7 (-1) (-1) sb7),
    hI.spare_inodes ((boot_spare cfg1 disk7 (-1) (-1) sb7).weaken (by decide)), by decide!, ?_,
    ⟨1, 2, by decide, by decide, by decide, by decide!, by decide!⟩⟩
  have h : ∀ j, j < cfg1.NINODE →
      ((fs7 (-1)).inodes j).locked = false ∧ 0 ≤ ((fs7 (-1)).inodes j).ref ∧
      ((fs7 (-1)).inodes j).valid = 0 ∧
      (0 < ((fs7 (-1)).inodes j).ref →
        ((fs7 (-1)).inodes j).dev = cfg1.ROOTDEV ∧
        ((fs7 (-1)).inodes j).inum < (fs7 (-1)).sb.ninodes ∧
        (dnode cfg1 (fs7 (-1)) ((fs7 (-1)).inodes j).inum).type ≠ 0) := by decide!
  intro j hj
  obtain ⟨h1, h2, h3, h4⟩ := h j hj
  exact ⟨h1, h2, fun hp => ⟨(h4 hp).1, (h4 hp).2.1, (h4 hp).2.2, fun hv => absurd h3 hv⟩⟩

theorem sane_cfg1 : Sane cfg1 := by unfold Sane; decide

/-- C25, without an injected read fault: `nameiparent(path, name)` on a machine that is
ready for a resolution, the path being the string `l` and the buffer `name` lying apart from
it.  For a path without an element it returns 0.  For a path with the elements `xs` and a
last element `x`, where the elements `xs` lead from the start of the path through
directories with the Read bit to the inode `p`, a directory with the Read bit, it returns
the handle of `p`, unlocked and with one reference more than before, and the buffer `name`
holds the first `DIRSIZ` characters of `x`; whether `x` has an entry in `p` is not asked, and
nothing changes on disk. -/
theorem nameiparent_spec (c : Config) (pl : Places) (k lim fuel : Nat) (s : State) (mem : Mem)
    (path name : Nat) (l : List Nat) (hS : Sane c) (hr : Ready c k s)
    (hroot : c.ROOTINO < s.sb.ninodes ∧ (dnode c s c.ROOTINO).type ≠ 0)
    (hcwd : pl.cwd < c.NINODE ∧ 0 < (s.inodes pl.cwd).ref)
    (hs : Str mem path l) (hl : l.length < lim)
    (hdis : name + c.DIRSIZ ≤ path ∨ path + l.length < name) :
    (Elems l [] → 0 < fuel →
      ∃ s2 mem2, nameiparent c pl lim fuel s mem path name = .ok (s2, (mem2, none))) ∧
    (∀ xs x p, Elems l (xs ++ [x]) → xs.length + 1 < fuel →
      walkD c s (startD c pl s mem path) xs = some p →
      (dnode c s p).type = c.T_DIR → (dnode c s p).mode &&& c.M_READ ≠ 0 →
      ∃ s2 mem2 ip, nameiparent c pl lim fuel s mem path name = .ok (s2, (mem2, some ip)) ∧
        ip < c.NINODE ∧ (s2.inodes ip).dev = c.ROOTDEV ∧ (s2.inodes ip).inum = p ∧
        (s2.inodes ip).locked = false ∧ (s2.inodes ip).ref = (s.inodes ip).ref + 1 ∧
        0 ≤ (s.inodes ip).ref ∧ NameIs c mem2 name x ∧ SameDisk c s s2 c.ROOTDEV) := by
  constructor
  · intro he hf
    obtain ⟨s2, mem2, -, -, h3, -⟩ :=
      @namex_walk c pl k s true name lim fuel mem path l [] hS hr hroot hcwd hs hl hdis he hf
    exact ⟨s2, mem2, (h3 (by simp [walkP])).1⟩
  · intro xs x p he hf hwd hty hm
    obtain ⟨s2, mem2, -, -, -, h4⟩ :=
      @namex_walk c pl k s true name lim fuel mem path l (xs ++ [x]) hS hr hroot hcwd hs hl hdis
        he (by simp; omega)
    obtain ⟨ip, h5, hw, hn⟩ := h4 p (walkP_parent c s x p hty hm xs _ hwd)
    obtain ⟨-, hsd, hipn, hinum, hrefs, -, hco⟩ := hw
    have hr1 := hrefs ip hipn
    rw [if_pos rfl] at hr1
    have h0 := (hr.2.2.2.2.2.1 ip hipn).2.1
    exact ⟨s2, mem2, ip, h5, hipn, ((hco ip hipn).2.2 (by omega)).1, hinum, (hco ip hipn).1, hr1,
      h0, hn rfl x (by simp), hsd⟩

set_option maxRecDepth 100000 in
/-- Worked example for C25: on the example file system `nameiparent("/d/e/z", name)` returns
the handle of the directory `/d/e`, inode 5, although it has no entry `z`, and
`nameiparent("//", name)` returns 0. -/
theorem nameiparent_spec_witness :
    (∃ s2 mem2 ip, nameiparent cfg1 pl7 20 10 (fs7 (-1)) (memStr path13) 1000 2000 =
        .ok (s2, (mem2, some ip)) ∧
      ip < cfg1.NINODE ∧ (s2.inodes ip).dev = cfg1.ROOTDEV ∧ (s2.inodes ip).inum = 5 ∧
      (s2.inodes ip).locked = false ∧ (s2.inodes ip).ref = ((fs7 (-1)).inodes ip).ref + 1 ∧
      0 ≤ ((fs7 (-1)).inodes ip).ref ∧ NameIs cfg1 mem2 2000 [122] ∧
      SameDisk cfg1 (fs7 (-1)) s2 cfg1.ROOTDEV) ∧
    dLookup cfg1 (fs7 (-1)) (dnode cfg1 (fs7 (-1)) 5) (nameOf [122])
      ((dnode cfg1 (fs7 (-1)) 5).size / cfg1.DIRENT) 0 = none ∧
    ∃ s2 mem2, nameiparent cfg1 pl7 20 10 (fs7 (-1)) (memStr [47, 47]) 1000 2000 =
      .ok (s2, (mem2, none)) :=
  ⟨(nameiparent_spec cfg1 pl7 0 20 10 (fs7 (-1)) (memStr path13) 1000 2000 path13 sane_cfg1
      fs7_ready (by decide!) (by decide!) (memStr_str path13 (by decide)) (by decide)
      (by decide)).2 [[100], [101]] [122] 5
      ⟨[101, 47, 122], by decide, [122], by decide, [], by decide,
        by show pathStep ([] : List Nat) = none; decide⟩ (by decide)
      (by decide!) (by decide!) (by decide!),
    by decide!,
    (nameiparent_spec cfg1 pl7 0 20 10 (fs7 (-1)) (memStr [47, 47]) 1000 2000 [47, 47] sane_cfg1
      fs7_ready (by decide!) (by decide!) (memStr_str [47, 47] (by decide)) (by decide)
      (by decide)).1 (by show pathStep [47, 47] = none; decide) (by decide)⟩

set_option maxRecDepth 1000000 in
set_option maxHeartbeats 40000000 in
/-- C25 fails with an injected read fault.  On the example file system with
`force_disk_fail_id = 0`, the call `chmod("/p", M_READ, 0, 1)` returns 0 and gives the
directory `p`, inode 7, the Read bit, in the block of the inode that the cache holds.  In
the state it leaves, the root directory has the entry `p` for inode 7, a directory with the
Read bit; yet `nameiparent("/p/x", name)` returns 0, as `ilock` reads the record of the
inode through `bread`, which fetches the block of the mirror disk again, where the Read bit
is not set.  Without the fault the same calls give the handle of inode 7. -/
theorem nameiparent_stale_counterexample :
    retRefs (sys_chmod cfg1 pl7 20 10 (fs7 0) (memStr [47, 112]) true 1000 1 0 1) =
      some (0, [1, 0, 0, 0, 0, 0]) ∧
    walkD cfg1 (fs7Chmod 0) 1 [[112]] = some 7 ∧
    (dnode cfg1 (fs7Chmod 0) 7).type = cfg1.T_DIR ∧
    (dnode cfg1 (fs7Chmod 0) 7).mode &&& cfg1.M_READ ≠ 0 ∧
    returned (nameiparent cfg1 pl7 20 10 (fs7Chmod 0) (memStr path7) 1000 2000) = some none ∧
    returned (nameiparent cfg1 pl7 20 10 (fs7Chmod (-1)) (memStr path7) 1000 2000) =
      some (some 7) := by
  decide!

theorem SameDisk.dnode_eq {c : Config} {s0 s : State} (h : SameDisk c s0 s c.ROOTDEV) :
    dnode c s = dnode c s0 := by
  funext i; unfold dnode; rw [h.2.2, h.1.2.1]

theorem SameDisk.dBlock_eq {c : Config} {s0 s : State} (h : SameDisk c s0 s c.ROOTDEV) :
    dBlock c s = dBlock c s0 := by
  funext d bn; unfold dBlock; rw [h.2.2]

theorem SameDisk.dEntry_eq {c : Config} {s0 s : State} (h : SameDisk c s0 s c.ROOTDEV) :
    dEntry c s = dEntry c s0 := by
  funext d off i; unfold dEntry dByte; rw [h.dBlock_eq, h.2.2]

theorem SameDisk.dLookup_eq {c : Config} {s0 s : State} (h : SameDisk c s0 s c.ROOTDEV)
    (d : Dinode) (name : Nat → Nat) : ∀ (n i : Nat),
    dLookup c s d name n i = dLookup c s0 d name n i
  | 0, _ => rfl
  | n + 1, i => by
    simp only [dLookup, dMatches, h.dEntry_eq]
    rw [SameDisk.dLookup_eq h d name n (i + 1)]

theorem SameDisk.walkD_eq {c : Config} {s0 s : State} (h : SameDisk c s0 s c.ROOTDEV) :
    ∀ (xs : List (List Nat)) (inum : Nat), walkD c s inum xs = walkD c s0 inum xs
  | [], _ => rfl
  | x :: xs, inum => by
    simp only [walkD, h.dnode_eq, h.dLookup_eq]
    split
    · rfl
    · split
      · rfl
      · cases dLookup c s0 (dnode c s0 inum) (nameOf x) ((dnode c s0 inum).size / c.DIRENT) 0 with
        | none => rfl
        | some e => exact SameDisk.walkD_eq h xs e

theorem SameDisk.fsOK {c : Config} {s0 s : State} (h : SameDisk c s0 s c.ROOTDEV)
    (hf : FsOK c s0) : FsOK c s := by
  intro inum hi hty
  have hsb : s.sb = s0.sb := h.1.2.1
  rw [hsb] at hi
  rw [h.dnode_eq] at hty
  have := hf inum hi hty
  unfold NodeOK at this ⊢
  rw [h.dnode_eq, h.dBlock_eq, h.dEntry_eq, hsb]
  exact this

/-- A machine that a resolution has left at rest is ready for the next one. -/
theorem Rested.ready {c : Config} {k : Nat} {s0 s : State} (hr : Ready c k s0)
    (h : Rested c k s0 s) : Ready c k s := by
  obtain ⟨hc, hsd, hrefs, hkeep, hco⟩ := h
  obtain ⟨hc0, hnf0, hu0, hsp0, hfs, hco0, j1, j2, hne, h1, h2, z1, z2⟩ := hr
  refine ⟨hc, hsd.noFault_disk hnf0, hsd.unlocked_disk hu0, hsd.spare_disk hsp0, hsd.fsOK hfs,
    ?_, j1, j2, hne, h1, h2, by rw [hrefs j1 h1]; exact z1, by rw [hrefs j2 h2]; exact z2⟩
  intro j hj
  have := hco j hj
  rw [hsd.dnode_eq, hsd.1.2.1]
  exact this

/-- The routine `ilock` on the inode a resolution is at: it returns, the slot is locked and
holds the record of the disk. -/
theorem ilock_walk {c : Config} {k : Nat} {s0 s : State} {ip inum : Nat}
    (hr : Ready c k s0) (hw : WalkInv c k s0 s ip inum) :
    NodeOK c s0 inum ∧ 0 < (s.inodes ip).ref ∧ (s.inodes ip).dev = c.ROOTDEV ∧
    ∃ s1 v, ilock c s ip = .ok (s1, ()) ∧ Coherent c s1 c.ROOTDEV (k + 1) ∧
      SameDisk c s s1 c.ROOTDEV ∧ v ≠ 0 ∧
      s1.inodes ip = { s.inodes ip with locked := true, valid := v, d := dnode c s0 inum } ∧
      ∀ j, j ≠ ip → s1.inodes j = s.inodes j := by
  obtain ⟨hc, hsd, hipn, hinum, hrefs, hkeep, hco⟩ := hw
  obtain ⟨hc0, hnf0, hu0, hsp0, hfs, hco0, htf⟩ := hr
  have hrip := hrefs ip hipn
  rw [if_pos rfl] at hrip
  have h0ip := (hco0 ip hipn).2.1
  have hipref : 0 < (s.inodes ip).ref := by omega
  have hlk := (hco ip hipn).1
  obtain ⟨hdev, hilt, hity, hival⟩ := (hco ip hipn).2.2 hipref
  rw [hinum] at hilt hity hival
  have hnode : NodeOK c s0 inum := hfs inum hilt hity
  have hsb : s.sb = s0.sb := hsd.1.2.1
  have hdn : dnode c s inum = dnode c s0 inum := by rw [hsd.dnode_eq]
  obtain ⟨s1, v, hlock, hc1, hsd1, hv, hs1ip, hs1o⟩ :=
    ilock_steady (k := k) hc (hsd.noFault_disk hnf0) (hsd.unlocked_disk hu0)
      (hsd.spare_disk hsp0) hipref hlk hdev (by rw [hinum, hsb]; exact hnode.1)
      (by rw [hinum, hdn]; exact hity) (fun h => by rw [hinum, hdn]; exact hival h)
  rw [hinum, hdn] at hs1ip
  exact ⟨hnode, hipref, hdev, s1, v, hlock, hc1, hsd1, hv, hs1ip, hs1o⟩

/-- The steps `ilock(dp)`, `dirlookup(dp, name, 0)`, `iunlockput(dp)` on the directory a
resolution is at, for a name that has an entry: they return and leave the resolution at the
inode of the entry. -/
theorem lookup_release {c : Config} {pl : Places} {k : Nat} {s0 s : State} {ip inum : Nat}
    (mem : Mem) (name : Nat) (x : List Nat) (e : Nat)
    (hS : Sane c) (hr : Ready c k s0) (hw : WalkInv c k s0 s ip inum)
    (hname : NameIs c mem name x) (hty : (dnode c s0 inum).type = c.T_DIR)
    (hlook : dLookup c s0 (dnode c s0 inum) (nameOf x) ((dnode c s0 inum).size / c.DIRENT) 0 =
      some e) :
    ∃ s1 s2 next s3, ilock c s ip = .ok (s1, ()) ∧
      dirlookup c s1 mem ip (fun i => mem.byte (name + i)) false pl.de =
        .ok (s2, (some next, none)) ∧
      iunlockput c s2 ip = .ok (s3, ()) ∧ WalkInv c k s0 s3 next e := by
  have hw0 := hw
  have hr0 := hr
  obtain ⟨hnode, hipref, hdev, s1, v, hlock, hc1, hsd1, hv, hs1ip, hs1o⟩ := ilock_walk hr hw
  obtain ⟨hc, hsd, hipn, hinum, hrefs, hkeep, hco⟩ := hw
  obtain ⟨hc0, hnf0, hu0, hsp0, hfs, hco0, htf⟩ := hr
  obtain ⟨hB, hD, hDS, hTD, hIPB⟩ := hS
  have h1d : (s1.inodes ip).d = dnode c s0 inum := by rw [hs1ip]
  have h1lk : (s1.inodes ip).locked = true := by rw [hs1ip]
  have h1ref : (s1.inodes ip).ref = (s.inodes ip).ref := by rw [hs1ip]
  have h1dev : (s1.inodes ip).dev = (s.inodes ip).dev := by rw [hs1ip]
  have h1inum : (s1.inodes ip).inum = (s.inodes ip).inum := by rw [hs1ip]
  have h1nl : (s1.inodes ip).d.nlink ≠ 0 := by rw [h1d]; exact hnode.2.1
  have hsd01 : SameDisk c s0 s1 c.ROOTDEV := hsd.trans_disk hsd1
  have hv1 : ∀ m, blockView c s1 c.ROOTDEV m = blockView c s0 c.ROOTDEV m := hsd01.2.2
  have hsb1 : s1.sb = s0.sb := hsd01.1.2.1
  have hdevR : (s1.inodes ip).dev = c.ROOTDEV := by rw [h1dev]; exact hdev
  have hsz2 : (dnode c s0 inum).size / c.DIRENT * c.DIRENT = (dnode c s0 inum).size :=
    Nat.div_mul_cancel (Nat.dvd_of_mod_eq_zero (hnode.2.2.2.2.2.2 hty).1)
  have hdir : DirOK c s1 ip ((dnode c s0 inum).size / c.DIRENT) := by
    refine ⟨by rw [h1d]; exact hty, by rw [h1d, hsz2], fun a ha => ?_, fun ha => ?_⟩
    · rw [slot_fileBlock h1d hdevR hv1, hsb1]
      rw [h1d] at ha
      exact hnode.2.2.2.2.1 a ha
    · rw [h1d] at ha ⊢
      rw [hsb1]
      exact hnode.2.2.2.2.2.1 ha
  obtain ⟨hfound, -⟩ := dirlookup_quiet c s1 mem ip (fun i => mem.byte (name + i)) false
    pl.de k ((dnode c s0 inum).size / c.DIRENT) hB hD hdir
    (by rw [hsz2]; exact hnode.2.2.1) (by rw [hsz2]; exact hnode.2.2.2.1)
    (by rw [hdevR]; exact hc1) (hsd01.noFault_disk hnf0) (hsd01.unlocked_disk hu0)
    (hsd01.spare_disk hsp0)
  have hmi : ∀ off, Matches c s1 ip (fun i => mem.byte (name + i)) off ↔
      dMatches c s0 (dnode c s0 inum) (nameOf x) off := by
    intro off
    unfold Matches dMatches
    rw [slot_dirEntry h1d hdevR hv1, namecmp_name c mem name x _ hname]
  obtain ⟨j, -, hj, hm, hbefore, hje⟩ := dLookup_some c s0 _ _ _ _ e hlook
  obtain ⟨s2, hc2, hsv2, hdl⟩ := hfound j (by omega) ((hmi _).2 hm)
    (fun i2 hi2 h => hbefore i2 (Nat.zero_le _) hi2 ((hmi _).1 h))
  rw [hdevR] at hc2 hsv2
  rw [hdevR, slot_dirEntry h1d hdevR hv1, ← hje] at hdl
  have hent := (hnode.2.2.2.2.2.2 hty).2 j (by omega) hm.1
  rw [← hje] at hent
  obtain ⟨jf, hjf, hjne, hjz⟩ := walk_free hr0 hw0
  obtain ⟨next, y, hig, hnext, hyd, hyi, hy⟩ := iget_step (c := c) (s := s2) c.ROOTDEV e
    ⟨jf, hjf, by rw [hsv2.2.1, hs1o jf hjne]; exact hjz⟩
  rw [hig] at hdl
  simp only [Bool.false_eq_true, if_false] at hdl
  have hto : ∀ j, j ≠ ip → s2.inodes j = s.inodes j := fun j hj => by
    rw [hsv2.2.1]; exact hs1o j hj
  by_cases hni : next = ip
  · have hy2 : y = { s2.inodes ip with ref := (s2.inodes ip).ref + 1 } := by
      rcases hy with ⟨_, hy⟩ | ⟨hz, hy⟩
      · rw [hy, hni]
      · rw [hni, hsv2.2.1, h1ref] at hz; omega
    have hei : e = inum := by
      rw [← hyi, hy2]
      show (s2.inodes ip).inum = inum
      rw [hsv2.2.1, h1inum, hinum]
    have hput := iunlockput_plain c (s2.setInode ip y) ip
        (by rw [setInode_same, hy2]; show (s2.inodes ip).locked = true
            rw [hsv2.2.1]; exact h1lk)
        (by rw [setInode_same, hy2]; show 0 < (s2.inodes ip).ref + 1
            rw [hsv2.2.1, h1ref]; omega)
        (by rw [setInode_same, hy2]; show (s2.inodes ip).d.nlink ≠ 0
            rw [hsv2.2.1]; exact h1nl)
    rw [hni] at hdl
    refine ⟨s1, _, ip, _, hlock, hdl, hput, ?_⟩
    rw [setInode_twice, hei, setInode_same]
    refine walkInv_same hw0 hc2 (hsd1.trans_disk hsv2.toSameDisk) hto _ ?_ rfl ?_ ?_ ?_
    · show y.ref - 1 = _; rw [hy2]; show (s2.inodes ip).ref + 1 - 1 = _
      rw [hsv2.2.1, h1ref]; omega
    · show y.dev = _; rw [hy2]; show (s2.inodes ip).dev = _; rw [hsv2.2.1, h1dev]
    · show y.inum = _; rw [hy2]; show (s2.inodes ip).inum = _; rw [hsv2.2.1, h1inum]
    · intro _; show y.d = _; rw [hy2]; show (s2.inodes ip).d = _; rw [hsv2.2.1, h1d]
  · have hother : ((s2.setInode next y).inodes ip) = s2.inodes ip :=
      setInode_other _ _ _ (fun h => hni h.symm)
    refine ⟨s1, _, next, _, hlock, hdl, iunlockput_plain c (s2.setInode next y) ip
        (by rw [hother, hsv2.2.1]; exact h1lk)
        (by rw [hother, hsv2.2.1, h1ref]; exact hipref)
        (by rw [hother, hsv2.2.1]; exact h1nl), ?_⟩
    rw [hother, setInode_comm _ _ _ hni]
    have hrn : ((s2.setInode ip
        { s2.inodes ip with locked := false, ref := (s2.inodes ip).ref - 1 }).inodes
        next) = s2.inodes next := setInode_other _ _ _ hni
    refine walkInv_acquire ?_ hnext hent.1 hent.2 hyd hyi (by rw [hrn]; exact hy)
    refine rested_release hr0 hw0 hc2 (hsd1.trans_disk hsv2.toSameDisk) hto _ ?_ rfl ?_ ?_ ?_
    · show (s2.inodes ip).ref - 1 = _; rw [hsv2.2.1, h1ref]
    · show (s2.inodes ip).dev = _; rw [hsv2.2.1, h1dev]
    · show (s2.inodes ip).inum = _; rw [hsv2.2.1, h1inum]
    · intro _; show (s2.inodes ip).d = _; rw [hsv2.2.1, h1d]

/-- The routine `create` on a path whose last element has an entry, on a machine that is
ready: for a plain file asked for and a file or device found it returns the locked handle of
the inode of the entry; otherwise it returns 0 and leaves the machine at rest; in neither
case anything changes on disk. -/
theorem create_existing {c : Config} {pl : Places} {k lim fuel : Nat} {s : State} {mem : Mem}
    {path : Nat} {l : List Nat} {xs : List (List Nat)} {x : List Nat} {p e : Nat}
    (type major : Nat) (hS : Sane c) (hr : Ready c k s)
    (hroot : c.ROOTINO < s.sb.ninodes ∧ (dnode c s c.ROOTINO).type ≠ 0)
    (hcwd : pl.cwd < c.NINODE ∧ 0 < (s.inodes pl.cwd).ref)
    (hs : Str mem path l) (hl : l.length < lim)
    (hdis : pl.name + c.DIRSIZ ≤ path ∨ path + l.length < pl.name)
    (he : Elems l (xs ++ [x])) (hf : xs.length + 1 < fuel)
    (hwd : walkD c s (startD c pl s mem path) xs = some p)
    (hty : (dnode c s p).type = c.T_DIR) (hm : (dnode c s p).mode &&& c.M_READ ≠ 0)
    (hleaf : dLookup c s (dnode c s p) (nameOf x) ((dnode c s p).size / c.DIRENT) 0 = some e) :
    (type = c.T_FILE ∧ ((dnode c s e).type = c.T_FILE ∨ (dnode c s e).type = c.T_DEVICE) →
      ∃ s2 ip, create c pl lim fuel s mem path type major = .ok (s2, some ip) ∧
        ip < c.NINODE ∧ (s2.inodes ip).inum = e ∧ (s2.inodes ip).locked = true ∧
        (s2.inodes ip).d = dnode c s e ∧ SameDisk c s s2 c.ROOTDEV ∧
        ∃ s3, iunlockput c s2 ip = .ok (s3, ()) ∧ Rested c k s s3) ∧
    (¬ (type = c.T_FILE ∧ ((dnode c s e).type = c.T_FILE ∨ (dnode c s e).type = c.T_DEVICE)) →
      ∃ s2, create c pl lim fuel s mem path type major = .ok (s2, none) ∧ Rested c k s s2) := by
  obtain ⟨s2, mem2, -, -, -, h4⟩ :=
    @namex_walk c pl k s true pl.name lim fuel mem path l (xs ++ [x]) hS hr hroot hcwd hs hl
      hdis he (by simp; omega)
  obtain ⟨dp, hnip, hw2, hn⟩ := h4 p (walkP_parent c s x p hty hm xs _ hwd)
  have hname : NameIs c mem2 pl.name x := hn rfl x (by simp)
  obtain ⟨s3, s4, next, s5, hlock, hdl, hput, hw5⟩ :=
    @lookup_release c pl k s s2 dp p mem2 pl.name x e hS hr hw2 hname hty hleaf
  obtain ⟨hnodeE, href5, hdev5, s6, v, hlock6, hc6, hsd6, hv, hs6ip, hs6o⟩ := ilock_walk hr hw5
  have h6d : (s6.inodes next).d = dnode c s e := by rw [hs6ip]
  have h6lk : (s6.inodes next).locked = true := by rw [hs6ip]
  have h6ref : (s6.inodes next).ref = (s5.inodes next).ref := by rw [hs6ip]
  have h6dev : (s6.inodes next).dev = (s5.inodes next).dev := by rw [hs6ip]
  have h6inum : (s6.inodes next).inum = (s5.inodes next).inum := by rw [hs6ip]
  have hput6 := iunlockput_plain c s6 next h6lk (by rw [h6ref]; exact href5)
    (by rw [h6d]; exact hnodeE.2.1)
  have hrest : Rested c k s (s6.setInode next
      { s6.inodes next with locked := false, ref := (s6.inodes next).ref - 1 }) := by
    refine rested_release hr hw5 hc6 hsd6 hs6o _ ?_ rfl ?_ ?_ ?_
    · show (s6.inodes next).ref - 1 = _; rw [h6ref]
    · show (s6.inodes next).dev = _; rw [h6dev]
    · show (s6.inodes next).inum = _; rw [h6inum]
    · intro _; show (s6.inodes next).d = _; rw [h6d]
  have hcr : create c pl lim fuel s mem path type major =
      if type = c.T_FILE ∧
          ((s6.inodes next).d.type = c.T_FILE ∨ (s6.inodes next).d.type = c.T_DEVICE) then
        .ok (s6, some next)
      else .ok (s6.setInode next
        { s6.inodes next with locked := false, ref := (s6.inodes next).ref - 1 }, none) := by
    unfold nameiparent at *
    simp only [create, nameiparent, hnip, hlock, hdl, hput, hlock6, hput6]
  rw [h6d] at hcr
  constructor
  · intro h
    rw [if_pos h] at hcr
    exact ⟨s6, next, hcr, hw5.2.2.1, by rw [h6inum]; exact hw5.2.2.2.1, h6lk, h6d,
      hw5.2.1.trans_disk hsd6, _, hput6, hrest⟩
  · intro h
    rw [if_neg h] at hcr
    exact ⟨_, hcr, hrest⟩

/-- C22, for a path through directories with the Read bit and without an injected read
fault: `create(path, type, major)` on a machine that is ready, where the elements `xs` of
the path lead to the directory `p` and the last element `x` has the entry for inode `e`
there.  When `type` is `T_FILE` and `e` is a file or a device, `create` returns the locked
handle of inode `e`, and nothing changes on disk: no inode is allocated and no directory
changes; once the handle is put back, the same call returns inode `e` again.  Otherwise
`create` returns 0, and nothing changes on disk. -/
theorem create_idempotent (c : Config) (pl : Places) (k lim fuel : Nat) (s : State) (mem : Mem)
    (path : Nat) (l : List Nat) (xs : List (List Nat)) (x : List Nat) (p e type major : Nat)
    (hS : Sane c) (hr : Ready c k s)
    (hroot : c.ROOTINO < s.sb.ninodes ∧ (dnode c s c.ROOTINO).type ≠ 0)
    (hcwd : pl.cwd < c.NINODE ∧ 0 < (s.inodes pl.cwd).ref)
    (hs : Str mem path l) (hl : l.length < lim)
    (hdis : pl.name + c.DIRSIZ ≤ path ∨ path + l.length < pl.name)
    (he : Elems l (xs ++ [x])) (hf : xs.length + 1 < fuel)
    (hwd : walkD c s (startD c pl s mem path) xs = some p)
    (hty : (dnode c s p).type = c.T_DIR) (hm : (dnode c s p).mode &&& c.M_READ ≠ 0)
    (hleaf : dLookup c s (dnode c s p) (nameOf x) ((dnode c s p).size / c.DIRENT) 0 = some e) :
    (type = c.T_FILE ∧ ((dnode c s e).type = c.T_FILE ∨ (dnode c s e).type = c.T_DEVICE) →
      ∃ s2 ip, create c pl lim fuel s mem path type major = .ok (s2, some ip) ∧
        (s2.inodes ip).inum = e ∧ (s2.inodes ip).locked = true ∧ SameDisk c s s2 c.ROOTDEV ∧
        ∃ s3, iunlockput c s2 ip = .ok (s3, ()) ∧
          ∃ s4 ip2, create c pl lim fuel s3 mem path type major = .ok (s4, some ip2) ∧
            (s4.inodes ip2).inum = e ∧ SameDisk c s s4 c.ROOTDEV) ∧
    (¬ (type = c.T_FILE ∧ ((dnode c s e).type = c.T_FILE ∨ (dnode c s e).type = c.T_DEVICE)) →
      ∃ s2, create c pl lim fuel s mem path type major = .ok (s2, none) ∧
        SameDisk c s s2 c.ROOTDEV ∧
        ∀ j, j < c.NINODE → (s2.inodes j).ref = (s.inodes j).ref) := by
  obtain ⟨hA, hB⟩ := create_existing type major hS hr hroot hcwd hs hl hdis he hf hwd hty hm hleaf
  constructor
  · intro h
    obtain ⟨s2, ip, h1, -, h3, h4, -, h6, s3, h7, h8⟩ := hA h
    have hsd := h8.2.1
    have hstart : startD c pl s3 mem path = startD c pl s mem path := by
      unfold startD
      rw [h8.2.2.2.1 pl.cwd hcwd.1 hcwd.2]
    obtain ⟨hA2, -⟩ := @create_existing c pl k lim fuel s3 mem
      path l xs x p e type major hS (h8.ready hr)
      (by rw [hsd.dnode_eq, hsd.1.2.1]; exact hroot)
      ⟨hcwd.1, by rw [h8.2.2.1 pl.cwd hcwd.1]; exact hcwd.2⟩ hs hl hdis he hf
      (by rw [hstart, hsd.walkD_eq]; exact hwd) (by rw [hsd.dnode_eq]; exact hty)
      (by rw [hsd.dnode_eq]; exact hm) (by rw [hsd.dnode_eq, hsd.dLookup_eq]; exact hleaf)
    obtain ⟨s4, ip2, g1, -, g3, -, -, g6, -⟩ := hA2 (by rw [hsd.dnode_eq]; exact h)
    exact ⟨s2, ip, h1, h3, h4, h6, s3, h7, s4, ip2, g1, g3, hsd.trans_disk g6⟩
  · intro h
    obtain ⟨s2, h1, h2⟩ := hB h
    exact ⟨s2, h1, h2.2.1, h2.2.2.1⟩

set_option maxRecDepth 100000 in
/-- Worked example for C22: on the example file system `create("/a", T_FILE, 0)` returns the
locked handle of the file `/a`, inode 2, and does so again once the handle is put back;
`create("/a", T_DIR, 0)` returns 0. -/
theorem create_idempotent_witness :
    ((2 = cfg1.T_FILE ∧ ((dnode cfg1 (fs7 (-1)) 2).type = cfg1.T_FILE ∨
          (dnode cfg1 (fs7 (-1)) 2).type = cfg1.T_DEVICE)) ∧
      ∃ s2 ip, create cfg1 pl7 20 10 (fs7 (-1)) (memStr [47, 97]) 1000 2 0 = .ok (s2, some ip) ∧
        (s2.inodes ip).inum = 2 ∧ (s2.inodes ip).locked = true ∧
        SameDisk cfg1 (fs7 (-1)) s2 cfg1.ROOTDEV ∧
        ∃ s3, iunlockput cfg1 s2 ip = .ok (s3, ()) ∧
          ∃ s4 ip2, create cfg1 pl7 20 10 s3 (memStr [47, 97]) 1000 2 0 = .ok (s4, some ip2) ∧
            (s4.inodes ip2).inum = 2 ∧ SameDisk cfg1 (fs7 (-1)) s4 cfg1.ROOTDEV) ∧
    (1 = cfg1.T_DIR ∧
      ∃ s2, create cfg1 pl7 20 10 (fs7 (-1)) (memStr [47, 97]) 1000 1 0 = .ok (s2, none) ∧
        SameDisk cfg1 (fs7 (-1)) s2 cfg1.ROOTDEV ∧
        ∀ j, j < cfg1.NINODE → (s2.inodes j).ref = ((fs7 (-1)).inodes j).ref) :=
  ⟨⟨by decide!,
      (create_idempotent cfg1 pl7 0 20 10 (fs7 (-1)) (memStr [47, 97]) 1000 [47, 97] [] [97] 1 2
        2 0 sane_cfg1 fs7_ready (by decide!) (by decide!) (memStr_str [47, 97] (by decide))
        (by decide) (by decide)
        ⟨[], by decide, by show pathStep ([] : List Nat) = none; decide⟩ (by decide)
        (by decide!) (by decide!) (by decide!) (by decide!)).1 (by decide!)⟩,
    by decide,
    (create_idempotent cfg1 pl7 0 20 10 (fs7 (-1)) (memStr [47, 97]) 1000 [47, 97] [] [97] 1 2
      1 0 sane_cfg1 fs7_ready (by decide!) (by decide!) (memStr_str [47, 97] (by decide))
      (by decide) (by decide)
      ⟨[], by decide, by show pathStep ([] : List Nat) = none; decide⟩ (by decide)
      (by decide!) (by decide!) (by decide!) (by decide!)).2 (by decide!)⟩

set_option maxRecDepth 1000000 in
set_option maxHeartbeats 40000000 in
/-- C22 fails for a directory without the Read bit, and with an injected read fault.  On
the example file system the directory `/p`, inode 7, has the entry `x` for inode 2, a plain
file, and no Read bit: `create("/p/x", T_FILE, 0)` returns 0.  After
`chmod("/p", M_READ, 0, 1)` the directory has the Read bit and the call returns the handle
of inode 2; with `force_disk_fail_id = 0` it returns 0 all the same, as `ilock` reads the
record of inode 7 from the mirror disk, where the Read bit is not set. -/
theorem create_unreadable_counterexample :
    walkD cfg1 (fs7 (-1)) 1 [[112]] = some 7 ∧
    dLookup cfg1 (fs7 (-1)) (dnode cfg1 (fs7 (-1)) 7) (nameOf [120])
      ((dnode cfg1 (fs7 (-1)) 7).size / cfg1.DIRENT) 0 = some 2 ∧
    (dnode cfg1 (fs7 (-1)) 2).type = cfg1.T_FILE ∧ cfg1.T_FILE = 2 ∧
    (dnode cfg1 (fs7 (-1)) 7).mode &&& cfg1.M_READ = 0 ∧
    gotInode (create cfg1 pl7 20 10 (fs7 (-1)) (memStr path7) 1000 2 0) = some none ∧
    (dnode cfg1 (fs7Chmod (-1)) 7).mode &&& cfg1.M_READ ≠ 0 ∧
    gotInode (create cfg1 pl7 20 10 (fs7Chmod (-1)) (memStr path7) 1000 2 0) = some (some 2) ∧
    (dnode cfg1 (fs7Chmod 0) 7).mode &&& cfg1.M_READ ≠ 0 ∧
    gotInode (create cfg1 pl7 20 10 (fs7Chmod 0) (memStr path7) 1000 2 0) = some none := by
  decide!

/-- The state in which a resolution holds the lock of the inode it is at. -/
theorem held_facts {c : Config} {k : Nat} {s0 t s : State} {ip a : Nat}
    (hr : Ready c k s0) (hw : WalkInv c k s0 t ip a) (hlock : ilock c t ip = .ok (s, ())) :
    NodeOK c s0 a ∧ Coherent c s c.ROOTDEV (k + 1) ∧ SameDisk c s0 s c.ROOTDEV ∧
    SameDisk c t s c.ROOTDEV ∧ (s.inodes ip).d = dnode c s0 a ∧ (s.inodes ip).locked = true ∧
    (s.inodes ip).ref = (t.inodes ip).ref ∧ 0 < (t.inodes ip).ref ∧
    (s.inodes ip).dev = c.ROOTDEV ∧ (s.inodes ip).inum = a ∧ (s.inodes ip).valid ≠ 0 ∧
    ∀ j, j ≠ ip → s.inodes j = t.inodes j := by
  obtain ⟨hnode, href, hdev, s1, v, hl1, hc1, hsd1, hv, hs1ip, hs1o⟩ := ilock_walk hr hw
  rw [hlock] at hl1
  simp only [Except.ok.injEq, Prod.mk.injEq, and_true] at hl1
  subst hl1
  refine ⟨hnode, hc1, hw.2.1.trans_disk hsd1, hsd1, by rw [hs1ip], by rw [hs1ip],
    by rw [hs1ip], href, by rw [hs1ip]; exact hdev, by rw [hs1ip]; exact hw.2.2.2.1,
    by rw [hs1ip]; exact hv, hs1o⟩

theorem slot_fileByte {c : Config} {s s0 : State} {ip : Nat} {d : Dinode}
    (hd : (s.inodes ip).d = d) (hdev : (s.inodes ip).dev = c.ROOTDEV)
    (hv : ∀ m, blockView c s c.ROOTDEV m = blockView c s0 c.ROOTDEV m) (a : Nat) :
    fileByte c s ip a = dByte c s0 d a := by
  unfold fileByte dByte
  rw [slot_fileBlock hd hdev hv, hdev, hv]

/-- A `readi` from the start of a file without a hole: it returns the number of bytes up to
the end of the file, at most `n`, delivers them, stores nowhere else, and changes nothing a
reader can tell. -/
theorem readi_head {c : Config} {s : State} {mem : Mem} {ip dst n k : Nat}
    (hB : 0 < c.BSIZE) (hc : Coherent c s (s.inodes ip).dev (k + 1)) (hnf : NoFault s)
    (hu : Unlocked c s) (hsp : Spare c s 1) (hmp : Mapped c s ip)
    (hind : (s.inodes ip).d.addrs c.NDIRECT ≠ 0 → (s.inodes ip).d.addrs c.NDIRECT < s.sb.size)
    (hn : n < 2147483648) (hmax : (s.inodes ip).d.size ≤ MAXFILE c * c.BSIZE) :
    ∃ s2 m, readi c s mem ip 0 dst 0 n =
        .ok (s2, (m, ((min n (s.inodes ip).d.size : Nat) : Int))) ∧
      Coherent c s2 (s.inodes ip).dev (k + 1) ∧ SameView c s s2 (s.inodes ip).dev ∧
      m.ok = mem.ok ∧
      (∀ j, j < min n (s.inodes ip).d.size → m.byte (dst + j) = fileByte c s ip j) ∧
      ∀ a, ¬ (dst ≤ a ∧ a < dst + min n (s.inodes ip).d.size) → m.byte a = mem.byte a := by
  obtain ⟨n2, hn2⟩ : ∃ n2, n2 = min n (s.inodes ip).d.size := ⟨_, rfl⟩
  rw [← hn2]
  have hle1 : n2 ≤ n := by rw [hn2]; exact Nat.min_le_left _ _
  have hle2 : n2 ≤ (s.inodes ip).d.size := by rw [hn2]; exact Nat.min_le_right _ _
  have hU : n < U32 := by unfold U32; omega
  have hrun : readi c s mem ip 0 dst 0 n = readi c s mem ip 0 dst 0 n2 := by
    have h1 : (0 + n) % U32 = n := by rw [Nat.zero_add]; exact Nat.mod_eq_of_lt hU
    have h2 : (0 + n2) % U32 = n2 := by rw [Nat.zero_add]; exact Nat.mod_eq_of_lt (by omega)
    unfold readi
    rw [h1, h2, if_neg (show ¬ (0 > (s.inodes ip).d.size ∨ n < 0) by omega),
      if_neg (show ¬ (0 > (s.inodes ip).d.size ∨ n2 < 0) by omega)]
    by_cases hgt : n > (s.inodes ip).d.size
    · have : (s.inodes ip).d.size - 0 = n2 := by rw [hn2]; omega
      simp only [if_pos hgt, if_neg (show ¬ n2 > (s.inodes ip).d.size by omega), this]
    · have : n = n2 := by rw [hn2]; omega
      simp only [if_neg hgt, if_neg (show ¬ n2 > (s.inodes ip).d.size by omega), this]
  obtain ⟨s2, m, hrd, hc2, hsv, hbytes⟩ :=
    @readi_same c s mem ip dst 0 n2 k hB hc hnf hu hsp hmp hind
      (by omega) (by omega) (by omega)
  have hrd2 := hrd
  unfold readi at hrd2
  have h2 : (0 + n2) % U32 = n2 := by rw [Nat.zero_add]; exact Nat.mod_eq_of_lt (by omega)
  rw [h2, if_neg (show ¬ (0 > (s.inodes ip).d.size ∨ n2 < 0) by omega)] at hrd2
  simp only [if_neg (show ¬ n2 > (s.inodes ip).d.size by omega)] at hrd2
  have hfr : m.ok = mem.ok ∧ ∀ a, ¬ (dst ≤ a ∧ a < dst + n2) → m.byte a = mem.byte a := by
    cases hl : readi_loop c ip 0 n2 (n2 + 1) s mem 0 0 dst with
    | error e1 => rw [hl] at hrd2; simp at hrd2
    | ok r1 =>
      obtain ⟨s3, m3, t3⟩ := r1
      rw [hl] at hrd2
      simp only [Except.ok.injEq, Prod.mk.injEq] at hrd2
      obtain ⟨-, hm, ht⟩ := hrd2
      have hcore := (readi_loop_core c ip 0 n2 0 dst hB (by unfold U32; omega) (n2 + 1) s mem 0
        (by omega) (Nat.zero_le _)).2 s3 m3 t3 hl
      obtain ⟨-, q2, -, -, q5, q6⟩ := hcore
      have ht3 : t3 = n2 := q6 (Or.inl rfl)
      rw [ht3] at q5
      subst hm
      exact ⟨q2, fun a ha => q5 a (by simpa using ha)⟩
  exact ⟨s2, m, by rw [hrun]; exact hrd, hc2, hsv, hfr.1,
    fun j hj => by rw [hbytes j hj, Nat.zero_add], hfr.2⟩

/-- The content of a symbolic link, read into a cleared array of `n` bytes: the array holds
the path of the link as a string. -/
theorem read_link {c : Config} {k : Nat} {s0 t s : State} {ip a : Nat} (mem : Mem)
    (dst n lim fuel : Nat) (hS : Sane c) (hr : Ready c k s0) (hw : WalkInv c k s0 t ip a)
    (hlock : ilock c t ip = .ok (s, ())) (hn : n < 2147483648)
    (hsz : 0 < (dnode c s0 a).size ∧ (dnode c s0 a).size < n)
    (hz : ∀ j, j < (dnode c s0 a).size → dByte c s0 (dnode c s0 a) j ≠ 0) :
    ∃ s2 m, readi c s (mem.clear dst n) ip 0 dst 0 n =
        .ok (s2, (m, (((dnode c s0 a).size : Nat) : Int))) ∧
      Coherent c s2 c.ROOTDEV (k + 1) ∧ SameDisk c t s2 c.ROOTDEV ∧ s2.inodes = s.inodes ∧
      m.ok = mem.ok ∧ Str m dst (linkText c s0 a) ∧
      ∀ x, x < dst ∨ dst + n ≤ x → m.byte x = mem.byte x := by
  obtain ⟨hnode, hc, hsd0, hsdt, hd, hlk, href, hpos, hdev, hinum, hval, hother⟩ :=
    held_facts hr hw hlock
  obtain ⟨hc0, hnf0, hu0, hsp0, hfs, hco0, htf⟩ := hr
  have hv : ∀ m, blockView c s c.ROOTDEV m = blockView c s0 c.ROOTDEV m := hsd0.2.2
  have hsb : s.sb = s0.sb := hsd0.1.2.1
  have hmp : Mapped c s ip := by
    intro x hx
    rw [slot_fileBlock hd hdev hv, hsb]
    rw [hd] at hx
    exact hnode.2.2.2.2.1 x hx
  obtain ⟨s2, m, hrd, hc2, hsv, hok, hbytes, hframe⟩ :=
    @readi_head c s (mem.clear dst n) ip dst n k hS.1
      (by rw [hdev]; exact hc) (hsd0.noFault_disk hnf0) (hsd0.unlocked_disk hu0)
      (hsd0.spare_disk hsp0) hmp (by rw [hd, hsb]; exact hnode.2.2.2.2.2.1) hn
      (by rw [hd]; exact hnode.2.2.1)
  rw [hd] at hrd hbytes hframe
  rw [hdev] at hc2 hsv
  have hmin : min n (dnode c s0 a).size = (dnode c s0 a).size := Nat.min_eq_right (by omega)
  rw [hmin] at hrd hbytes hframe
  have hlen : (linkText c s0 a).length = (dnode c s0 a).size := by simp [linkText]
  refine ⟨s2, m, hrd, hc2, hsdt.trans_disk hsv.toSameDisk, hsv.2.1, hok, ⟨fun i hi => ?_, ?_, ?_⟩,
    fun x hx => ?_⟩
  · rw [hlen] at hi
    rw [hbytes i hi, slot_fileByte hd hdev hv]
    simp [linkText, hi]
  · intro x hx
    simp only [linkText, List.mem_map, List.mem_range] at hx
    obtain ⟨j, hj, rfl⟩ := hx
    exact hz j hj
  · rw [hlen, hframe _ (by omega)]
    simp only [Mem.clear]
    rw [if_pos (by omega)]
  · rw [hframe x (by omega)]
    simp only [Mem.clear]
    rw [if_neg (by omega)]

theorem pathSkip_pos {l x rest : List Nat} (h : pathStep l = some (x, rest)) :
    0 < pathSkip l := by
  unfold pathStep at h
  split at h
  · simp at h
  · rename_i hne
    rcases nSlash_drop l with h0 | ⟨y, t, h1, h2⟩
    · exact absurd h0 hne
    · unfold pathSkip
      rw [h1]
      simp only [nElem, if_pos h2]
      omega

theorem elems_elemsOf : ∀ (n : Nat) (l : List Nat), l.length < n → Elems l (elemsOf n l)
  | 0, l, h => by omega
  | n + 1, l, h => by
    simp only [elemsOf]
    cases hp : pathStep l with
    | none => exact hp
    | some r =>
      obtain ⟨x, rest⟩ := r
      have h1 := (pathStep_rest hp).1
      have h2 := pathSkip_pos hp
      exact ⟨rest, hp, elems_elemsOf n rest (by omega)⟩

/-- A resolution that starts from a machine at rest after an earlier one. -/
theorem WalkInv.after_rest {c : Config} {k : Nat} {s0 r s : State} {ip e : Nat}
    (hr : Rested c k s0 r) (hw : WalkInv c k r s ip e) : WalkInv c k s0 s ip e := by
  obtain ⟨hc, hsd, hrefs, hkeep, hco⟩ := hr
  obtain ⟨wc, wsd, wip, winum, wrefs, wkeep, wco⟩ := hw
  refine ⟨wc, hsd.trans_disk wsd, wip, winum, fun j hj => by rw [wrefs j hj, hrefs j hj],
    fun j hj h0 => ?_, fun j hj => ?_⟩
  · rw [wkeep j hj (by rw [hrefs j hj]; exact h0), hkeep j hj h0]
  · have := wco j hj
    rw [hsd.dnode_eq, hsd.1.2.1] at this
    exact this

theorem Rested.trans_rest {c : Config} {k : Nat} {s0 r s : State}
    (hr : Rested c k s0 r) (h : Rested c k r s) : Rested c k s0 s := by
  obtain ⟨hc, hsd, hrefs, hkeep, hco⟩ := hr
  obtain ⟨wc, wsd, wrefs, wkeep, wco⟩ := h
  refine ⟨wc, hsd.trans_disk wsd, fun j hj => by rw [wrefs j hj, hrefs j hj],
    fun j hj h0 => ?_, fun j hj => ?_⟩
  · rw [wkeep j hj (by rw [hrefs j hj]; exact h0), hkeep j hj h0]
  · have := wco j hj
    rw [hsd.dnode_eq, hsd.1.2.1] at this
    exact this

/-- The routine `follow_symlink(ip, depth, 0)` on the locked handle of inode `a`, on a
machine that was ready when the resolution started and whose links hold paths: when the
chain of links from `a` ends at the inode `e` within the depth allowed, it returns the locked
handle of `e`. -/
theorem follow_symlink_chase {c : Config} {pl : Places} {k : Nat} {s0 : State}
    (lim fuel : Nat) (hS : Sane c) (hr : Ready c k s0)
    (hroot : c.ROOTINO < s0.sb.ninodes ∧ (dnode c s0 c.ROOTINO).type ≠ 0)
    (hcwd : pl.cwd < c.NINODE ∧ 0 < (s0.inodes pl.cwd).ref)
    (hL : LinksOK c s0 lim fuel)
    (hP : pl.name + c.DIRSIZ ≤ pl.link ∨ pl.link + c.MAXPATH ≤ pl.name)
    (hM : c.MAXPATH < 2147483648) :
    ∀ (n depth : Nat) (t s : State) (mem : Mem) (ip a : Nat), WalkInv c k s0 t ip a →
      ilock c t ip = .ok (s, ()) →
      ∀ e, chase c pl s0 n depth a = some e →
        ∃ t2 s2 mem2 ip2, WalkInv c k s0 t2 ip2 e ∧ ilock c t2 ip2 = .ok (s2, ()) ∧
          follow_symlink c pl lim fuel false n s mem ip depth = .ok (s2, (mem2, some ip2))
  | 0, depth, t, s, mem, ip, a, hw, hlock, e, hch => by simp [chase] at hch
  | n + 1, depth, t, s, mem, ip, a, hw, hlock, e, hch => by
    obtain ⟨hnode, hc, hsd0, hsdt, hd, hlk, href, hpos, hdev, hinum, hval, hother⟩ :=
      held_facts hr hw hlock
    simp only [chase] at hch
    by_cases hdp : depth > 10
    · rw [if_pos hdp] at hch; simp at hch
    rw [if_neg hdp] at hch
    by_cases hty : (dnode c s0 a).type ≠ c.T_SYMLINK
    · rw [if_pos hty] at hch
      simp only [Option.some.injEq] at hch
      subst hch
      refine ⟨t, s, mem, ip, hw, hlock, ?_⟩
      simp only [follow_symlink]
      rw [if_neg hdp, if_pos (by rw [hd]; exact hty)]
    rw [if_neg hty] at hch
    have hty2 : (dnode c s0 a).type = c.T_SYMLINK := not_not.1 hty
    have hipn := hw.2.2.1
    have halt : a < s0.sb.ninodes := by
      have := ((hw.2.2.2.2.2.2 ip hipn).2.2 hpos).2.1
      rw [hw.2.2.2.1] at this
      exact this
    obtain ⟨l1, l2, l3, l4, l5⟩ := hL a halt hty2
    obtain ⟨s2, m, hrd, hc2, hsd2, hi2, hok2, hstr, hframe⟩ :=
      read_link mem pl.link c.MAXPATH lim fuel hS hr hw hlock hM ⟨l1, l2⟩ l5
    have hput := iunlockput_plain c s2 ip (by rw [hi2]; exact hlk)
      (by rw [hi2, href]; exact hpos) (by rw [hi2, hd]; exact hnode.2.1)
    have hrest : Rested c k s0 (s2.setInode ip
        { s2.inodes ip with locked := false, ref := (s2.inodes ip).ref - 1 }) := by
      refine rested_release hr hw hc2 hsd2 (fun j hj => by rw [hi2]; exact hother j hj) _ ?_ rfl
        ?_ ?_ ?_
      · show (s2.inodes ip).ref - 1 = _; rw [hi2, href]
      · show (s2.inodes ip).dev = _
        rw [hi2, hdev]
        exact (((hw.2.2.2.2.2.2 ip hipn).2.2 hpos).1).symm
      · show (s2.inodes ip).inum = _; rw [hi2, hinum]; exact hw.2.2.2.1.symm
      · intro _; show (s2.inodes ip).d = _; rw [hi2, hd]
    obtain ⟨r, hrdef⟩ : ∃ r, r = s2.setInode ip
        { s2.inodes ip with locked := false, ref := (s2.inodes ip).ref - 1 } := ⟨_, rfl⟩
    rw [← hrdef] at hput hrest
    have hsdr := hrest.2.1
    have hlen : (linkText c s0 a).length = (dnode c s0 a).size := by simp [linkText]
    cases hres : resolveD c pl s0 (linkText c s0 a) with
    | none => rw [hres] at hch; simp at hch
    | some b =>
      rw [hres] at hch
      simp only at hch
      have hhead : m.byte pl.link = 47 ↔ (linkText c s0 a).head? = some 47 := by
        have h0 := hstr.1 0 (by rw [hlen]; exact l1)
        rw [Nat.add_zero] at h0
        rw [h0]
        cases hlt : linkText c s0 a with
        | nil => rw [hlt] at hlen; simp at hlen; omega
        | cons y ys => simp
      have hstart : startD c pl r m pl.link =
          (if (linkText c s0 a).head? = some 47 then c.ROOTINO else (s0.inodes pl.cwd).inum) := by
        unfold startD
        rw [hrest.2.2.2.1 pl.cwd hcwd.1 hcwd.2]
        by_cases h47 : m.byte pl.link = 47
        · rw [if_pos h47, if_pos (hhead.1 h47)]
        · rw [if_neg h47, if_neg (fun h => h47 (hhead.2 h))]
      obtain ⟨s3, mem3, -, -, -, h4⟩ :=
        @namex_walk c pl k r false pl.name lim fuel m pl.link (linkText c s0 a)
          (elemsOf ((linkText c s0 a).length + 1) (linkText c s0 a)) hS (hrest.ready hr)
          (by rw [hsdr.dnode_eq, hsdr.1.2.1]; exact hroot)
          ⟨hcwd.1, by rw [hrest.2.2.1 pl.cwd hcwd.1]; exact hcwd.2⟩ hstr (by rw [hlen]; exact l3)
          (by rw [hlen]; omega) (elems_elemsOf _ _ (by omega)) (by rw [hlen]; exact l4)
      obtain ⟨next, hnm, hw3, -⟩ := h4 b (by
        rw [walkP_false, hstart, hsdr.walkD_eq]
        exact hres)
      have hw3' : WalkInv c k s0 s3 next b := hw3.after_rest hrest
      obtain ⟨hnodeB, -, -, s4, v, hl4, hc4, hsd4, hv4, hs4ip, hs4o⟩ := ilock_walk hr hw3'
      have h4d : (s4.inodes next).d = dnode c s0 b := by rw [hs4ip]
      have hbody : follow_symlink c pl lim fuel false (n + 1) s mem ip depth =
          if (dnode c s0 b).type = c.T_SYMLINK then
            follow_symlink c pl lim fuel false n s4 mem3 next (depth + 1)
          else .ok (s4, (mem3, some next)) := by
        simp only [follow_symlink]
        rw [if_neg hdp, if_neg (by rw [hd]; exact hty)]
        simp only [hrd, hput]
        rw [if_neg (by omega)]
        unfold namei
        simp only [hnm, hl4, h4d, Bool.false_eq_true, if_false]
      by_cases hbs : (dnode c s0 b).type = c.T_SYMLINK
      · rw [if_pos hbs] at hch hbody
        obtain ⟨t2, s5, mem5, ip5, g1, g2, g3⟩ :=
          follow_symlink_chase lim fuel hS hr hroot hcwd hL hP hM n (depth + 1) s3 s4 mem3 next b
            hw3' hl4 e hch
        exact ⟨t2, s5, mem5, ip5, g1, g2, by rw [hbody]; exact g3⟩
      · rw [if_neg hbs] at hch hbody
        simp only [Option.some.injEq] at hch
        subst hch
        exact ⟨s3, s4, mem3, next, hw3', hl4, hbody⟩

/-- A round of `namex` that ends the resolution does so whether links are followed or
not. -/
theorem namex_round_follow_inl (c : Config) (pl : Places) (np : Bool) (name lim : Nat)
    (s : State) (mem : Mem) (ip path d : Nat) (s2 : State) (r : Mem × Option Nat)
    (h : namex_round c pl np false name lim s mem ip path d = .ok (s2, .inl r)) :
    namex_round c pl np true name lim s mem ip path d = .ok (s2, .inl r) := by
  cases h1 : skipelem c mem lim path name with
  | none => simp [namex_round, h1] at h
  | some r1 =>
    obtain ⟨m1, o1⟩ := r1
    cases o1 with
    | none => simp only [namex_round, h1] at h ⊢; exact h
    | some p1 =>
      cases h2 : ilock c s ip with
      | error e => simp [namex_round, h1, h2] at h
      | ok r2 =>
        obtain ⟨s1, u⟩ := r2
        simp only [namex_round, h1, h2] at h ⊢
        by_cases hA : (s1.inodes ip).d.type ≠ c.T_DIR
        · simp only [if_pos hA] at h ⊢; exact h
        · simp only [if_neg hA] at h ⊢
          by_cases hB : (s1.inodes ip).d.mode &&& c.M_READ = 0
          · simp only [if_pos hB] at h ⊢; exact h
          · simp only [if_neg hB] at h ⊢
            by_cases hC : np = true ∧ m1.byte p1 = 0
            · simp only [if_pos hC] at h ⊢; exact h
            · simp only [if_neg hC] at h ⊢
              cases h3 : dirlookup c s1 m1 ip (fun i => m1.byte (name + i)) false pl.de with
              | error e => simp [h3] at h
              | ok r3 =>
                obtain ⟨s3, o3, q3⟩ := r3
                cases o3 with
                | none => simp only [h3] at h ⊢; exact h
                | some next =>
                  simp only [h3] at h ⊢
                  cases h4 : iunlockput c s3 ip with
                  | error e => simp [h4] at h
                  | ok r4 => simp [h4] at h

/-- A round of `namex` that goes on at the inode `next`, when links are followed: it locks
`next` and, unless `next` is a symbolic link with a rest of the path to come, unlocks it and
goes on there. -/
theorem namex_round_follow_inr (c : Config) (pl : Places) (np : Bool) (name lim : Nat)
    (s : State) (mem : Mem) (ip path d : Nat) (s2 : State) (m : Mem) (next p d2 : Nat)
    (s3 : State)
    (h : namex_round c pl np false name lim s mem ip path d = .ok (s2, .inr (m, next, p, d2)))
    (hl : ilock c s2 next = .ok (s3, ()))
    (hns : ¬ ((s3.inodes next).d.type = c.T_SYMLINK ∧ m.byte p ≠ 0)) :
    namex_round c pl np true name lim s mem ip path d =
      withValue (iunlock s3 next)
        (Sum.inr (m, next, p, d2) : (Mem × Option Nat) ⊕ (Mem × Nat × Nat × Nat)) := by
  cases h1 : skipelem c mem lim path name with
  | none => simp [namex_round, h1] at h
  | some r1 =>
    obtain ⟨m1, o1⟩ := r1
    cases o1 with
    | none =>
      simp only [namex_round, h1] at h
      split at h
      · split at h <;> simp at h
      · simp at h
    | some p1 =>
      cases h2 : ilock c s ip with
      | error e => simp [namex_round, h1, h2] at h
      | ok r2 =>
        obtain ⟨s1, u⟩ := r2
        simp only [namex_round, h1, h2] at h ⊢
        by_cases hA : (s1.inodes ip).d.type ≠ c.T_DIR
        · simp only [if_pos hA] at h; split at h <;> simp at h
        · simp only [if_neg hA] at h ⊢
          by_cases hB : (s1.inodes ip).d.mode &&& c.M_READ = 0
          · simp only [if_pos hB] at h; split at h <;> simp at h
          · simp only [if_neg hB] at h ⊢
            by_cases hC : np = true ∧ m1.byte p1 = 0
            · simp only [if_pos hC] at h; split at h <;> simp at h
            · simp only [if_neg hC] at h ⊢
              cases h3 : dirlookup c s1 m1 ip (fun i => m1.byte (name + i)) false pl.de with
              | error e => simp [h3] at h
              | ok r3 =>
                obtain ⟨s4, o3, q3⟩ := r3
                cases o3 with
                | none => simp only [h3] at h; split at h <;> simp at h
                | some nx =>
                  simp only [h3] at h ⊢
                  cases h4 : iunlockput c s4 ip with
                  | error e => simp [h4] at h
                  | ok r4 =>
                    obtain ⟨s5, u5⟩ := r4
                    simp only [h4, Bool.false_eq_true, if_false, Except.ok.injEq, Prod.mk.injEq,
                      Sum.inr.injEq] at h
                    obtain ⟨rfl, rfl, rfl, rfl, rfl⟩ := h
                    simp only [if_true, hl, if_neg hns]
                    cases iunlock s3 nx with
                    | error e => rfl
                    | ok r5 => rfl

/-- One round of `namex` with following of links, on a path with an element `x` that has an
entry for inode `e` in the readable directory `inum`, where `e` is no symbolic link with a
rest of the path to come: the round goes on at `e`. -/
theorem namex_round_link {c : Config} {pl : Places} {k : Nat} {s0 s : State} {ip inum : Nat}
    (name lim : Nat) (mem : Mem) (path depth : Nat) (l x rest : List Nat) (e : Nat)
    (hS : Sane c) (hr : Ready c k s0) (hw : WalkInv c k s0 s ip inum)
    (hs : Str mem path l) (hl : l.length < lim)
    (hdis : name + c.DIRSIZ ≤ path ∨ path + l.length < name)
    (hstep : pathStep l = some (x, rest))
    (hty : (dnode c s0 inum).type = c.T_DIR) (hmode : (dnode c s0 inum).mode &&& c.M_READ ≠ 0)
    (hlook : dLookup c s0 (dnode c s0 inum) (nameOf x) ((dnode c s0 inum).size / c.DIRENT) 0 =
      some e)
    (hnl : ¬ ((dnode c s0 e).type = c.T_SYMLINK ∧ rest ≠ [])) :
    ∃ mem2 s2 next, Str mem2 (path + pathSkip l) rest ∧ mem2.ok = mem.ok ∧
      (∀ a, a < name ∨ name + c.DIRSIZ ≤ a → mem2.byte a = mem.byte a) ∧
      namex_round c pl false true name lim s mem ip path depth =
        .ok (s2, .inr (mem2, next, path + pathSkip l, depth)) ∧
      WalkInv c k s0 s2 next e := by
  obtain ⟨mem2, hstr2, -, hok2, hframe, -, hB⟩ :=
    @namex_round_walk c pl k s0 s ip inum false name lim mem path depth l x rest hS hr hw hs hl
      hdis hstep
  obtain ⟨s2, next, hrd, hw2⟩ := ((hB hty hmode).2 (by simp)).2 e hlook
  obtain ⟨hnodeE, href2, hdev2, s3, v, hl3, hc3, hsd3, hv3, hs3ip, hs3o⟩ := ilock_walk hr hw2
  have h3d : (s3.inodes next).d = dnode c s0 e := by rw [hs3ip]
  have hns : ¬ ((s3.inodes next).d.type = c.T_SYMLINK ∧ mem2.byte (path + pathSkip l) ≠ 0) := by
    rintro ⟨h1, h2⟩
    rw [h3d] at h1
    refine hnl ⟨h1, fun hrest => h2 ?_⟩
    have := hstr2.2.2
    rw [hrest] at this
    simpa using this
  have hfl := namex_round_follow_inr c pl false name lim s mem ip path depth s2 mem2 next
    (path + pathSkip l) depth s3 hrd hl3 hns
  have hun : iunlock s3 next =
      .ok (s3.setInode next { s3.inodes next with locked := false }, ()) := by
    unfold iunlock
    rw [if_neg (by rw [hs3ip]; simp; omega)]
  rw [hun] at hfl
  refine ⟨mem2, _, next, hstr2, hok2, hframe, hfl, ?_⟩
  refine walkInv_same hw2 hc3 hsd3 hs3o _ ?_ rfl ?_ ?_ (fun _ => ?_)
  · show (s3.inodes next).ref = _; rw [hs3ip]
  · show (s3.inodes next).dev = _; rw [hs3ip]
  · show (s3.inodes next).inum = _; rw [hs3ip]
  · show (s3.inodes next).d = _; rw [hs3ip]

/-- The loop of `namex` with following of links, for a path whose elements lead to the inode
`e` without a symbolic link on the way: it returns the handle of `e`. -/
theorem namex_loop_link {c : Config} {pl : Places} {k : Nat} {s0 : State}
    (name lim : Nat) (hS : Sane c) (hr : Ready c k s0) :
    ∀ (xs : List (List Nat)) (s : State) (mem : Mem) (ip inum path depth : Nat) (l : List Nat)
      (fuel : Nat),
      WalkInv c k s0 s ip inum → Str mem path l → l.length < lim →
      (name + c.DIRSIZ ≤ path ∨ path + l.length < name) → Elems l xs → xs.length < fuel →
      ∀ e, walkL c s0 inum xs = some e →
        ∃ s2 mem2 ip2, namex_loop c pl false true name lim fuel s mem ip path depth =
            .ok (s2, (mem2, some ip2)) ∧ WalkInv c k s0 s2 ip2 e ∧ mem2.ok = mem.ok
  | [], s, mem, ip, inum, path, depth, l, fuel, hw, hs, hl, hdis, he, hf, e, hwl => by
    obtain ⟨f, rfl⟩ : ∃ f, fuel = f + 1 := ⟨fuel - 1, by simp at hf; omega⟩
    have hstep : pathStep l = none := he
    have h2 := (@namex_round_end c pl k s0 s ip inum false true name lim mem path depth l hr hw
      hs hl hdis hstep).2 rfl
    simp only [walkL, Option.some.injEq] at hwl
    subst hwl
    exact ⟨s, mem, ip, by simp only [namex_loop, h2], hw, rfl⟩
  | x :: xs, s, mem, ip, inum, path, depth, l, fuel, hw, hs, hl, hdis, he, hf, e, hwl => by
    obtain ⟨f, rfl⟩ : ∃ f, fuel = f + 1 := ⟨fuel - 1, by simp at hf; omega⟩
    simp only [List.length_cons] at hf
    obtain ⟨rest, hstep, hrestE⟩ := he
    have hlen := (pathStep_rest hstep).1
    have hnil := elems_nil_iff hstep hrestE
    simp only [walkL] at hwl
    split at hwl
    · simp at hwl
    rename_i hty
    split at hwl
    · simp at hwl
    rename_i hmode
    cases hlook : dLookup c s0 (dnode c s0 inum) (nameOf x)
        ((dnode c s0 inum).size / c.DIRENT) 0 with
    | none => rw [hlook] at hwl; simp at hwl
    | some e1 =>
      rw [hlook] at hwl
      simp only at hwl
      split at hwl
      · simp at hwl
      rename_i hnl
      obtain ⟨mem2, s2, next, hstr2, hok2, hframe, hrd, hw2⟩ :=
        @namex_round_link c pl k s0 s ip inum name lim mem path depth l x rest e1 hS hr hw hs hl
          hdis hstep (not_not.1 hty) hmode hlook (fun h => hnl ⟨h.1, fun hx => h.2 (hnil.1 hx)⟩)
      obtain ⟨s3, mem3, ip3, hlp, hw3, hok3⟩ :=
        namex_loop_link name lim hS hr xs s2 mem2 next e1 (path + pathSkip l) depth rest f hw2
          hstr2 (by omega) (by omega) hrestE (by omega) e hwl
      exact ⟨s3, mem3, ip3, by simp only [namex_loop, hrd]; exact hlp, hw3, hok3.trans hok2⟩

/-- The routine `namei_follow` on a machine that is ready, for a path whose elements lead to
the inode `e` without a symbolic link on the way: it returns the handle of `e`. -/
theorem namei_follow_walk {c : Config} {pl : Places} {k : Nat} {s : State}
    (lim fuel : Nat) (mem : Mem) (path : Nat) (l : List Nat) (xs : List (List Nat)) (e : Nat)
    (hS : Sane c) (hr : Ready c k s)
    (hroot : c.ROOTINO < s.sb.ninodes ∧ (dnode c s c.ROOTINO).type ≠ 0)
    (hcwd : pl.cwd < c.NINODE ∧ 0 < (s.inodes pl.cwd).ref)
    (hs : Str mem path l) (hl : l.length < lim)
    (hdis : pl.name + c.DIRSIZ ≤ path ∨ path + l.length < pl.name) (he : Elems l xs)
    (hf : xs.length < fuel) (hwl : walkL c s (startD c pl s mem path) xs = some e) :
    ∃ s2 mem2 ip, namei_follow c pl lim fuel s mem path = .ok (s2, (mem2, some ip)) ∧
      WalkInv c k s s2 ip e := by
  obtain ⟨s1, ip, hst, hw⟩ := @namex_start_walk c pl k s hr mem path hroot hcwd
  obtain ⟨s2, mem2, ip2, h1, h2, -⟩ :=
    @namex_loop_link c pl k s pl.name lim hS hr xs s1 mem ip _ path 0 l fuel hw hs hl hdis he hf
      e hwl
  exact ⟨s2, mem2, ip2, by simp only [namei_follow, namex, hst]; exact h1, h2⟩

/-- The routine `sys_open` without `O_CREATE`, `O_NOACCESS` and `O_TRUNC`, on a machine that
is ready and whose links hold paths: when the path leads, without a symbolic link before its
last element, to the inode `a`, and the chain of links from `a` ends at the plain file `f`
within the depth that `follow_symlink` allows, and the permission bits of `f` allow the
open mode, it returns the descriptor of a file on inode `f`. -/
theorem sys_open_chain {c : Config} {pl : Places} {k : Nat} {s : State}
    (lim fuel : Nat) (mem : Mem) (path : Nat) (l : List Nat) (xs : List (List Nat))
    (a f omode fd : Nat) (hS : Sane c) (hr : Ready c k s)
    (hroot : c.ROOTINO < s.sb.ninodes ∧ (dnode c s c.ROOTINO).type ≠ 0)
    (hcwd : pl.cwd < c.NINODE ∧ 0 < (s.inodes pl.cwd).ref)
    (hL : LinksOK c s lim fuel)
    (hP : pl.name + c.DIRSIZ ≤ pl.link ∨ pl.link + c.MAXPATH ≤ pl.name)
    (hM : c.MAXPATH < 2147483648)
    (hs : Str mem path l) (hl : l.length < lim)
    (hdis : pl.name + c.DIRSIZ ≤ path ∨ path + l.length < pl.name) (he : Elems l xs)
    (hf : xs.length < fuel) (hwl : walkL c s (startD c pl s mem path) xs = some a)
    (hch : chase c pl s 12 0 a = some f)
    (hfile : (dnode c s f).type = c.T_FILE)
    (hTF : c.T_FILE ≠ c.T_DIR ∧ c.T_FILE ≠ c.T_DEVICE ∧ c.T_FILE ≠ c.T_SYMLINK)
    (hcreate : omode &&& c.O_CREATE = 0) (hnoacc : omode &&& c.O_NOACCESS = 0)
    (htrunc : omode &&& c.O_TRUNC = 0)
    (hpw : ¬ ((omode &&& c.O_WRONLY ≠ 0 ∨ omode &&& c.O_RDWR ≠ 0) ∧
      (dnode c s f).mode &&& c.M_WRITE = 0))
    (hpr : ¬ ((omode = c.O_RDONLY ∨ omode &&& c.O_RDWR ≠ 0) ∧
      (dnode c s f).mode &&& c.M_READ = 0)) :
    ∃ s2 g, sys_open c pl lim fuel s mem path omode (some fd) = .ok (s2, ((fd : Int), some g)) ∧
      (s2.inodes g.ip).inum = f ∧ (s2.inodes g.ip).locked = false ∧
      0 < (s2.inodes g.ip).ref := by
  obtain ⟨s1, mem1, ip, hnf, hw1⟩ :=
    @namei_follow_walk c pl k s lim fuel mem path l xs a hS hr hroot hcwd hs hl hdis he hf hwl
  obtain ⟨hnodeA, -, -, s2, v, hl2, -, -, -, hs2ip, -⟩ := ilock_walk hr hw1
  have h2d : (s2.inodes ip).d = dnode c s a := by rw [hs2ip]
  -- the handle after the links were followed
  have hfollow : ∃ t3 s3 ip3, WalkInv c k s t3 ip3 f ∧ ilock c t3 ip3 = .ok (s3, ()) ∧
      (((s2.inodes ip).d.type = c.T_SYMLINK ∧
          ∃ mem3, follow_symlink c pl lim fuel false 12 s2 mem1 ip 0 =
            .ok (s3, (mem3, some ip3))) ∨
        ((s2.inodes ip).d.type ≠ c.T_SYMLINK ∧ s3 = s2 ∧ ip3 = ip)) := by
    by_cases hsym : (dnode c s a).type = c.T_SYMLINK
    · obtain ⟨t3, s3, mem3, ip3, g1, g2, g3⟩ :=
        follow_symlink_chase lim fuel hS hr hroot hcwd hL hP hM 12 0 s1 s2 mem1 ip a hw1 hl2 f hch
      exact ⟨t3, s3, ip3, g1, g2, Or.inl ⟨by rw [h2d]; exact hsym, mem3, g3⟩⟩
    · have hfa : a = f := by
        simp only [chase] at hch
        rw [if_neg (by omega), if_pos hsym] at hch
        simpa using hch
      subst hfa
      exact ⟨s1, s2, ip, hw1, hl2, Or.inr ⟨by rw [h2d]; exact hsym, rfl, rfl⟩⟩
  obtain ⟨t3, s3, ip3, hw3, hl3, hfo⟩ := hfollow
  obtain ⟨-, -, -, -, h3d, h3lk, h3ref, h3pos, -, h3inum, -, -⟩ := held_facts hr hw3 hl3
  have hden : (decide ((s3.inodes ip3).d.type = c.T_DIR ∧ omode ≠ c.O_RDONLY ∧
        omode ≠ c.O_NOACCESS) ||
      (decide (omode &&& c.O_NOACCESS = 0) &&
        (decide ((omode &&& c.O_WRONLY ≠ 0 ∨ omode &&& c.O_RDWR ≠ 0) ∧
            (s3.inodes ip3).d.mode &&& c.M_WRITE = 0) ||
          decide ((omode = c.O_RDONLY ∨ omode &&& c.O_RDWR ≠ 0) ∧
            (s3.inodes ip3).d.mode &&& c.M_READ = 0)))) = false := by
    rw [h3d, hfile]
    simp only [Bool.or_eq_false_iff, Bool.and_eq_false_iff, decide_eq_false_iff_not,
      decide_eq_true_eq]
    exact ⟨fun h => hTF.1 h.1, Or.inr ⟨hpw, hpr⟩⟩
  have hfind : sys_open_find c pl lim fuel (begin_op s) mem path omode = .ok (s3, some ip3) := by
    unfold sys_open_find begin_op
    rw [if_neg (not_not.2 hcreate)]
    simp only [hnf, hl2]
    rcases hfo with ⟨hsy, mem3, hfs⟩ | ⟨hsy, rfl, rfl⟩
    · rw [if_pos ⟨hsy, hnoacc⟩]
      simp only [hfs, hden, Bool.false_eq_true, if_false]
    · rw [if_neg (fun h => hsy h.1)]
      simp only [hden, Bool.false_eq_true, if_false]
  have hun : iunlock s3 ip3 =
      .ok (s3.setInode ip3 { s3.inodes ip3 with locked := false }, ()) := by
    unfold iunlock
    rw [if_neg (by rw [h3lk, h3ref]; simp; omega)]
  have hopen : ∃ g : OpenFile, sys_open c pl lim fuel s mem path omode (some fd) =
      .ok (end_op (s3.setInode ip3 { s3.inodes ip3 with locked := false }),
        ((fd : Int), some g)) ∧ g.ip = ip3 := by
    unfold sys_open
    simp only [hfind]
    rw [if_neg (fun h => hTF.2.1 (by rw [← hfile, ← h3d]; exact h.1))]
    first
      | (rw [if_neg (fun h => h.1 htrunc)]
         simp only [hun]
         exact ⟨_, rfl, rfl⟩)
      | (simp only [if_neg (show ¬ (omode &&& c.O_TRUNC ≠ 0 ∧ (s3.inodes ip3).d.type = c.T_FILE)
            from fun h => h.1 htrunc), hun]
         exact ⟨_, rfl, rfl⟩)
  obtain ⟨g, hg1, hg2⟩ := hopen
  refine ⟨_, g, hg1, ?_, ?_, ?_⟩
  · show ((s3.setInode ip3 { s3.inodes ip3 with locked := false }).inodes g.ip).inum = f
    rw [hg2, setInode_same]; exact h3inum
  · show ((s3.setInode ip3 { s3.inodes ip3 with locked := false }).inodes g.ip).locked = false
    rw [hg2, setInode_same]
  · show 0 < ((s3.setInode ip3 { s3.inodes ip3 with locked := false }).inodes g.ip).ref
    rw [hg2, setInode_same]
    show 0 < (s3.inodes ip3).ref
    rw [h3ref]; exact h3pos

set_option maxRecDepth 100000 in
/-- The example machine on `blocks10` is ready for a path resolution. -/
theorem fs10_ready : Ready cfg1 0 fs10 := by
  have hI : InodesOnly (boot cfg1 (diskOf blocks10) (-1) (-1) sb10) fs10 := InodesOnly.set _ 0 cwd7
  refine ⟨hI.coherent (boot_coherent cfg1 _ (-1) (-1) sb10 (by decide) (by decide)),
    hI.noFault_inodes (boot_nofault cfg1 _ sb10 (by decide)),
    hI.unlocked_inodes (boot_unlocked cfg1 _ (-1) (-1) sb10),
    hI.spare_inodes ((boot_spare cfg1 _ (-1) (-1) sb10).weaken (by decide)), by decide!, ?_,
    ⟨1, 2, by decide, by decide, by decide, by decide!, by decide!⟩⟩
  have h : ∀ j, j < cfg1.NINODE →
      (fs10.inodes j).locked = false ∧ 0 ≤ (fs10.inodes j).ref ∧
      (fs10.inodes j).valid = 0 ∧
      (0 < (fs10.inodes j).ref →
        (fs10.inodes j).dev = cfg1.ROOTDEV ∧
        (fs10.inodes j).inum < fs10.sb.ninodes ∧
        (dnode cfg1 fs10 (fs10.inodes j).inum).type ≠ 0) := by decide!
  intro j hj
  obtain ⟨h1, h2, h3, h4⟩ := h j hj
  exact ⟨h1, h2, fun hp => ⟨(h4 hp).1, (h4 hp).2.1, (h4 hp).2.2, fun hv => absurd h3 hv⟩⟩

set_option maxRecDepth 100000 in
set_option maxHeartbeats 4000000 in
/-- C27 fails on the code.  On the file system `blocks10` the inodes 2 to 12 are symbolic
links, each of them holding the path of the next one and the last the path of the plain
file `/z`, inode 13: a chain of eleven links from `/a`, inode 2, where `MAX_SYMLINK_DEPTH`
is 10.  The call `open("/a", O_RDONLY)` returns the descriptor 3 of a file on inode 13:
`follow_symlink` starts with the depth 0 and gives up only when the depth is above 10. -/
theorem open_follows_eleven_links :
    MAX_SYMLINK_DEPTH = 10 ∧
    walkL cfg1 fs10 (startD cfg1 pl7 fs10 (memStr [47, 97]) 1000) [[97]] = some 2 ∧
    (∀ a, 2 ≤ a → a ≤ 12 → (dnode cfg1 fs10 a).type = cfg1.T_SYMLINK ∧
      resolveD cfg1 pl7 fs10 (linkText cfg1 fs10 a) = some (a + 1)) ∧
    (dnode cfg1 fs10 13).type = cfg1.T_FILE ∧
    ∃ s2 g, sys_open cfg1 pl7 20 10 fs10 (memStr [47, 97]) 1000 0 (some 3) =
        .ok (s2, (3, some g)) ∧
      (s2.inodes g.ip).inum = 13 ∧ (s2.inodes g.ip).locked = false ∧
      0 < (s2.inodes g.ip).ref :=
  ⟨rfl, by decide!, by decide!, by decide!,
    @sys_open_chain cfg1 pl7 0 fs10 20 10 (memStr [47, 97]) 1000 [47, 97] [[97]] 2 13 0 3
      sane_cfg1 fs10_ready (by decide!) (by decide!) (by decide!) (by decide) (by decide)
      (memStr_str [47, 97] (by decide)) (by decide) (by decide)
      ⟨[], by decide, by show pathStep ([] : List Nat) = none; decide⟩ (by decide) (by decide!)
      (by decide!) (by decide!) (by decide) (by decide) (by decide) (by decide) (by decide!)
      (by decide!)⟩

set_option maxRecDepth 100000 in
set_option maxHeartbeats 4000000 in
/-- The scenario of a link in a directory: on the example file system `blocks7`, with the
file `/a` (inode 2), the directory `/d` and the symbolic link `/d/l` to `/a`, the call
`open("/d/l", O_RDONLY)` returns the descriptor of a file on inode 2. -/
theorem open_link_example :
    ∃ s2 g, sys_open cfg1 pl7 20 10 (fs7 (-1)) (memStr [47, 100, 47, 108]) 1000 0 (some 3) =
        .ok (s2, (3, some g)) ∧
      (s2.inodes g.ip).inum = 2 ∧ (s2.inodes g.ip).locked = false ∧
      0 < (s2.inodes g.ip).ref :=
  @sys_open_chain cfg1 pl7 0 (fs7 (-1)) 20 10 (memStr [47, 100, 47, 108]) 1000
    [47, 100, 47, 108] [[100], [108]] 4 2 0 3
    sane_cfg1 fs7_ready (by decide!) (by decide!) (by decide!) (by decide) (by decide)
    (memStr_str [47, 100, 47, 108] (by decide)) (by decide) (by decide)
    ⟨[108], by decide, [], by decide, by show pathStep ([] : List Nat) = none; decide⟩
    (by decide) (by decide!)
    (by decide!) (by decide!) (by decide) (by decide) (by decide) (by decide) (by decide!)
    (by decide!)

end Mp4
